import Mathlib

/-!
# Limited tic-tac-toe trainers: encoding, symmetry, game graph and solver

A shallow embedding of the position-sequence encoding, the eight board
symmetries and the canonicalizer of `train_3x3.cpp`, `train_4x4_m4.cpp`,
`train_xwin.cpp` and `count_canonical_4x4_m4.cpp`, of the terminal
predicate, the move rule, the graph construction `train` and the retrograde
solver `solve` of the explicit trainers, of the predecessor and successor
synthesis and the propagation of the implicit trainers, of the merger
`merge_training_data.cpp` and of the byte layout of the tables, with the
properties of the natural-language specification stated and proved over it.

Conventions of the embedding:
* `uint64_t` values are natural numbers reduced modulo `2 ^ 64` after every
  arithmetic operation; `uint16_t` depths are reduced modulo `2 ^ 16` when
  they are written;
* a board position in the explicit trainers is a natural number: it is an
  `int` that indexes `TRANSFORMS[t][p]` and `board[p]`, hence lies in
  `[0, CELLS)`; a table lookup outside the table returns `0`;
* `while` loops carry a fuel argument that bounds the number of iterations;
  the fuel handed to them is shown to be sufficient;
* an unordered map is a total function together with the list of its keys,
  an unordered set the list of its members; the order in which such a
  container is traversed is an arbitrary permutation of that list, and the
  statements about `solve` hold for every such order;
* a file is the list of its bytes (natural numbers below 256) on a
  little-endian host; `std::sort` is a sort of the list, and the statements
  use only that its result is the sorted permutation.
-/

namespace TicTacToe

/-- Modulus of `uint64_t` arithmetic. -/
def UINT64_MOD : Nat := 2 ^ 64

/-- The constant `UINT64_MAX`. -/
def UINT64_MAX : Nat := 2 ^ 64 - 1

/-- The compile-time constants of one explicit trainer
(`N`, `CELLS`, `MAX_MOVE`, `BASE`, `SEPARATOR`, `TRANSFORMS`). -/
structure Params where
  N : Nat
  CELLS : Nat
  MAX_MOVE : Nat
  BASE : Nat
  SEPARATOR : Nat
  TRANSFORMS : List (List Nat)

/-- Constants of `train_3x3.cpp`. -/
def train_3x3 : Params where
  N := 3
  CELLS := 9
  MAX_MOVE := 3
  BASE := 10
  SEPARATOR := 1000
  TRANSFORMS :=
    [[0,1,2,3,4,5,6,7,8],
     [6,3,0,7,4,1,8,5,2],
     [8,7,6,5,4,3,2,1,0],
     [2,5,8,1,4,7,0,3,6],
     [2,1,0,5,4,3,8,7,6],
     [6,7,8,3,4,5,0,1,2],
     [0,3,6,1,4,7,2,5,8],
     [8,5,2,7,4,1,6,3,0]]

/-- Constants of `train_4x4_m4.cpp`. -/
def train_4x4_m4 : Params where
  N := 4
  CELLS := 16
  MAX_MOVE := 4
  BASE := 17
  SEPARATOR := 83521
  TRANSFORMS :=
    [[ 0, 1, 2, 3, 4, 5, 6, 7, 8, 9,10,11,12,13,14,15],
     [ 3, 7,11,15, 2, 6,10,14, 1, 5, 9,13, 0, 4, 8,12],
     [15,14,13,12,11,10, 9, 8, 7, 6, 5, 4, 3, 2, 1, 0],
     [12, 8, 4, 0,13, 9, 5, 1,14,10, 6, 2,15,11, 7, 3],
     [ 3, 2, 1, 0, 7, 6, 5, 4,11,10, 9, 8,15,14,13,12],
     [12,13,14,15, 8, 9,10,11, 4, 5, 6, 7, 0, 1, 2, 3],
     [ 0, 4, 8,12, 1, 5, 9,13, 2, 6,10,14, 3, 7,11,15],
     [15,11, 7, 3,14,10, 6, 2,13, 9, 5, 1,12, 8, 4, 0]]

/-- The table entry `TRANSFORMS[t][p]`. -/
def transform (b : Params) (t p : Nat) : Nat :=
  (b.TRANSFORMS.getD t []).getD p 0

/-- The function `apply_transform` of `train_3x3.cpp` (inlined in
`canonicalize` of `train_4x4_m4.cpp`): the table row `t` applied to every
position, order preserved. -/
def apply_transform (b : Params) (pos : List Nat) (t : Nat) : List Nat :=
  pos.map (transform b t)

/-- The loop of `encode_list`, on the remaining positions and the running
`uint64_t` variables `code` and `base`. -/
def encode_loop (BASE : Nat) : List Nat → Nat → Nat → Nat
  | [], code, _ => code
  | p :: rest, code, base =>
    encode_loop BASE rest ((code + (p + 1) * base) % UINT64_MOD) ((base * BASE) % UINT64_MOD)

/-- The function `encode_list`: `sum((pos+1) * BASE^i)` in `uint64_t`. -/
def encode_list (b : Params) (pos : List Nat) : Nat :=
  encode_loop b.BASE pos 0 1

/-- The function `encode_state`:
`encode_list(x) * SEPARATOR + encode_list(y)` in `uint64_t`. -/
def encode_state (b : Params) (x y : List Nat) : Nat :=
  (encode_list b x * b.SEPARATOR + encode_list b y) % UINT64_MOD

/-- The `while (code > 0)` loop of `decode_list`: `none` when a zero digit
is met (`return false`), otherwise the positions pushed so far followed by
those of the remaining digits. The first argument is the fuel. -/
def decode_loop (BASE : Nat) : Nat → Nat → List Nat → Option (List Nat)
  | 0, code, positions => if code > 0 then none else some positions
  | fuel + 1, code, positions =>
    if code > 0 then
      if code % BASE = 0 then none
      else decode_loop BASE fuel (code / BASE) (positions ++ [code % BASE - 1])
    else some positions

/-- The function `decode_list` of the explicit trainers: `none` stands for
`return false` (a zero digit, or a repeated position detected by comparing
the size of the set of positions with the size of the vector), `some
positions` for `return true` with the output vector. The `int` argument of
the 3x3 trainer is non-negative at every call (a quotient or remainder of
a code by `SEPARATOR`, or a value of `encode_list`), so the code is a
natural number here as well. -/
def decode_list (b : Params) (code : Nat) : Option (List Nat) :=
  match decode_loop b.BASE code code [] with
  | none => none
  | some positions =>
    if positions.dedup.length ≠ positions.length then none else some positions

/-- The result record `CanonResult` of `canonicalize`. -/
structure CanonResult where
  x : List Nat
  y : List Nat
  trans_id : Nat
  code : Nat

/-- One iteration of the `for (int t = 0; t < 8; t++)` loop of
`canonicalize`: transform both sequences, encode, and replace `best` when
the new code is strictly smaller. -/
def canonicalize_step (b : Params) (x y : List Nat) (best : CanonResult) (t : Nat) :
    CanonResult :=
  let xt := apply_transform b x t
  let yt := apply_transform b y t
  let c := encode_state b xt yt
  if c < best.code then CanonResult.mk xt yt t c else best

/-- The function `canonicalize` of the explicit trainers: `best` starts with
empty vectors, `trans_id = 0` and `code = UINT64_MAX`. -/
def canonicalize (b : Params) (x y : List Nat) : CanonResult :=
  (List.range 8).foldl (canonicalize_step b x y) (CanonResult.mk [] [] 0 UINT64_MAX)

namespace TrainXwin

/-! ### `train_xwin.cpp`: positions are `int` array entries -/

/-- The constant `CELLS` of `train_xwin.cpp`. -/
def CELLS : Nat := 16

/-- The constant `MAX_MOVE` of `train_xwin.cpp`. -/
def MAX_MOVE : Nat := 4

/-- The constant `BASE` of `train_xwin.cpp`. -/
def BASE : Nat := 17

/-- The constant `SEP` of `train_xwin.cpp`. -/
def SEP : Nat := 83521

/-- The table `TR` of `train_xwin.cpp`. -/
def TR : List (List Nat) :=
  [[ 0, 1, 2, 3, 4, 5, 6, 7, 8, 9,10,11,12,13,14,15],
   [ 3, 7,11,15, 2, 6,10,14, 1, 5, 9,13, 0, 4, 8,12],
   [15,14,13,12,11,10, 9, 8, 7, 6, 5, 4, 3, 2, 1, 0],
   [12, 8, 4, 0,13, 9, 5, 1,14,10, 6, 2,15,11, 7, 3],
   [ 3, 2, 1, 0, 7, 6, 5, 4,11,10, 9, 8,15,14,13,12],
   [12,13,14,15, 8, 9,10,11, 4, 5, 6, 7, 0, 1, 2, 3],
   [ 0, 4, 8,12, 1, 5, 9,13, 2, 6,10,14, 3, 7,11,15],
   [15,11, 7, 3,14,10, 6, 2,13, 9, 5, 1,12, 8, 4, 0]]

/-- The table entry `TR[t][p]` for an `int` index `p`. -/
def tr (t : Nat) (p : Int) : Int :=
  (((TR.getD t []).getD p.toNat 0 : Nat) : Int)

/-- The loop of `encode` on the entries `pos[0..n)`; `(uint64_t)(pos[i]+1)`
is the value of `pos[i]+1` modulo `2 ^ 64`. -/
def encode_loop : List Int → Nat → Nat → Nat
  | [], code, _ => code
  | p :: rest, code, base =>
    encode_loop rest ((code + ((p + 1) % (UINT64_MOD : Int)).toNat * base) % UINT64_MOD)
      ((base * BASE) % UINT64_MOD)

/-- The function `encode(pos, n)`, on the list of the first `n` entries. -/
def encode (pos : List Int) : Nat :=
  encode_loop pos 0 1

/-- The function `encode_state(x, lx, y, ly)`. -/
def encode_state (x y : List Int) : Nat :=
  (encode x * SEP + encode y) % UINT64_MOD

/-- The loop `while (code) { out[n++] = (int)(code % BASE) - 1; code /= BASE; }`
of `decode_list`, with fuel; no digit is rejected. -/
def decode_loop : Nat → Nat → List Int → List Int
  | 0, _, out => out
  | fuel + 1, code, out =>
    if code ≠ 0 then
      decode_loop fuel (code / BASE) (out ++ [((code % BASE : Nat) : Int) - 1])
    else out

/-- The function `decode_list(code, out)`: the entries written to `out`
(their number is the returned count). -/
def decode_list (code : Nat) : List Int :=
  decode_loop code code []

/-- The function `decode_state`: both halves decoded. -/
def decode_state (state_code : Nat) : List Int × List Int :=
  (decode_list (state_code / SEP), decode_list (state_code % SEP))

/-- The function `canonicalize` of `train_xwin.cpp`: the least of the eight
codes, starting from `UINT64_MAX`. -/
def canonicalize (x y : List Int) : Nat :=
  (List.range 8).foldl
    (fun best t =>
      let c := encode_state (x.map (tr t)) (y.map (tr t))
      if c < best then c else best)
    UINT64_MAX

end TrainXwin

namespace CountCanonical

/-! ### `count_canonical_4x4_m4.cpp`: codes are `long long` -/

/-- The loop `while (temp)` of `decode_and_check`, with fuel: the positions
collected and `false` as soon as a zero digit is met. `%` and `/` of C++
truncate towards zero. -/
def digit_loop : Nat → Int → List Int → List Int × Bool
  | 0, temp, positions => if temp ≠ 0 then (positions, false) else (positions, true)
  | fuel + 1, temp, positions =>
    if temp ≠ 0 then
      if Int.tmod temp 17 = 0 then (positions, false)
      else digit_loop fuel (Int.tdiv temp 17) (positions ++ [Int.tmod temp 17 - 1])
    else (positions, true)

/-- The function `decode_and_check`: the decoded positions and the validity
flag, after the zero-digit test, the duplicate test and the range test. -/
def decode_and_check (code : Int) : List Int × Bool :=
  if code = 0 then ([], true)
  else
    match digit_loop code.natAbs code [] with
    | (positions, false) => (positions, false)
    | (positions, true) =>
      if positions.length ≠ positions.dedup.length then (positions, false)
      else if positions.any (fun p => decide (p ≥ 16)) then (positions, false)
      else (positions, true)

end CountCanonical

/-! ### The terminal predicate of the explicit trainers -/

/-- The table `DIR_R`. -/
def DIR_R : List Int := [-1, 0, -1, -1]

/-- The table `DIR_C`. -/
def DIR_C : List Int := [0, -1, -1, 1]

/-- The statements `for (int p : pos) board[p] = v;` on a board. -/
def mark (board : List Int) (pos : List Nat) (v : Int) : List Int :=
  pos.foldl (fun bd p => bd.set p v) board

/-- The local array `board` of `check_result` and of `train`:
`int board[CELLS] = {}`, then `1` on the cells of `x`, then `-1` on the cells
of `y`. -/
def board_of (b : Params) (x y : List Nat) : List Int :=
  mark (mark (List.replicate b.CELLS 0) x 1) y (-1)

/-- One of the two inner `for (int k = 0; k < MAX_MOVE - 1; k++)` loops of
`check_win_at`: starting from `(r_, c_)`, step by `(dr, dc)` and count the
cells met that are on the board and hold `val`, until one is not (`break`) or
the `k` iterations are used up. -/
def scan (b : Params) (board : List Int) (val dr dc : Int) : Nat → Int → Int → Nat
  | 0, _, _ => 0
  | k + 1, r_, c_ =>
    if r_ + dr ≥ 0 ∧ r_ + dr < b.N ∧ c_ + dc ≥ 0 ∧ c_ + dc < b.N ∧
        board.getD ((r_ + dr) * b.N + (c_ + dc)).toNat 0 = val then
      1 + scan b board val dr dc k (r_ + dr) (c_ + dc)
    else 0

/-- The function `check_win_at`: from `pos`, in each of the four directions,
`left + right + 1 >= MAX_MOVE`. -/
def check_win_at (b : Params) (board : List Int) (pos : Nat) : Bool :=
  let val := board.getD pos 0
  if val = 0 then false
  else
    (List.range 4).any (fun d =>
      let left := scan b board val (DIR_R.getD d 0) (DIR_C.getD d 0) (b.MAX_MOVE - 1)
        ((pos / b.N : Nat) : Int) ((pos % b.N : Nat) : Int)
      let right := scan b board val (-(DIR_R.getD d 0)) (-(DIR_C.getD d 0)) (b.MAX_MOVE - 1)
        ((pos / b.N : Nat) : Int) ((pos % b.N : Nat) : Int)
      decide (left + right + 1 ≥ b.MAX_MOVE))

/-- The length test that guards `check_win_at` in `check_result`:
`!x.empty()` in `train_3x3.cpp`, `(int)x.size() >= 3` in `train_4x4_m4.cpp`. -/
def side_guard (b : Params) (v : List Nat) : Bool :=
  if b.N = 3 then !v.isEmpty else decide (v.length ≥ 3)

/-- The function `check_result` of the explicit trainers: `1` when the guard
holds for `x` and `check_win_at(board, x[0])`, else `-1` when the guard holds
for `y` and `check_win_at(board, y[0])`, else `0`. -/
def check_result (b : Params) (x y : List Nat) : Int :=
  let board := board_of b x y
  if side_guard b x && check_win_at b board (x.getD 0 0) then 1
  else if side_guard b y && check_win_at b board (y.getD 0 0) then -1
  else 0

namespace CountWinLose

/-- The function `check_result` of `count_win_lose.cpp` (same constants and
same `check_win_at` as `train_4x4_m4.cpp`), guarded by
`(int)x.size() >= 3 && !x.empty()`. -/
def check_result (x y : List Nat) : Int :=
  let board := board_of train_4x4_m4 x y
  if decide (x.length ≥ 3) && !x.isEmpty && check_win_at train_4x4_m4 board (x.getD 0 0) then 1
  else if decide (y.length ≥ 3) && !y.isEmpty &&
      check_win_at train_4x4_m4 board (y.getD 0 0) then -1
  else 0

end CountWinLose

/-! ### Successor generation -/

/-- The successor sequence built in `train` for the side that places at
`t`: `x_new = cr.x; x_new.push_back(t);` and then
`if ((int)x_new.size() > MAX_MOVE) x_new.erase(x_new.begin());`. -/
def place (b : Params) (seq : List Nat) (t : Nat) : List Nat :=
  if (seq ++ [t]).length > b.MAX_MOVE then (seq ++ [t]).tail else seq ++ [t]

/-- The array `ynew[0..lnew)` that `get_y_succs` of `train_xwin.cpp` builds
for the empty cell `pos`: `y` followed by `pos` when `ly < MAX_MOVE`,
otherwise `y[1..ly)` followed by `pos`. -/
def TrainXwin.ynew (y : List Int) (pos : Int) : List Int :=
  if y.length < TrainXwin.MAX_MOVE then y ++ [pos]
  else (y.drop 1).take (y.length - 1) ++ [pos]

/-! ### The game graph of the explicit trainers -/

/-- The record `StateInfo`: `dp[0]`, `dp[1]` (`int8_t`) and `depth[0]`,
`depth[1]` (`uint16_t`). -/
structure StateInfo where
  dp0 : Int
  dp1 : Int
  depth0 : Nat
  depth1 : Nat

/-- The default member initialisers of `StateInfo`: `dp = {0, 0}`,
`depth = {0, 0}`. -/
def StateInfo.zero : StateInfo := StateInfo.mk 0 0 0 0

/-- The component `dp[i]`. -/
def StateInfo.dp (info : StateInfo) (i : Nat) : Int :=
  if i = 0 then info.dp0 else info.dp1

/-- The component `depth[i]`. -/
def StateInfo.depth (info : StateInfo) (i : Nat) : Nat :=
  if i = 0 then info.depth0 else info.depth1

/-- The two assignments `dp[i] = lbl; depth[i] = d;`. -/
def StateInfo.label (info : StateInfo) (i : Nat) (lbl : Int) (d : Nat) : StateInfo :=
  if i = 0 then StateInfo.mk lbl info.dp1 d info.depth1
  else StateInfo.mk info.dp0 lbl info.depth0 d

/-- A map with the entry at key `k` replaced by `v`. -/
def upd {α : Type} (m : Nat → α) (k : Nat) (v : α) : Nat → α :=
  fun j => if j = k then v else m j

/-- The method `insert` of an `unordered_set`, on the list of its elements
in insertion order. -/
def set_insert (l : List Nat) (a : Nat) : List Nat :=
  if a ∈ l then l else l ++ [a]

/-- The global containers of an explicit trainer together with the local set
`canons` of `train`. The three maps `g_states`, `g_edge0`, `g_edge1` always
have the same keys (`add_state` creates the three entries together); `keys`
lists them in insertion order and the maps are total functions that hold the
default value outside `keys`. -/
structure TrainState where
  canons : List Nat
  keys : List Nat
  g_states : Nat → StateInfo
  g_edge0 : Nat → List Nat
  g_edge1 : Nat → List Nat
  g_wins : List Nat
  g_loses : List Nat

/-- The containers before `train`: all empty. -/
def TrainState.init : TrainState where
  canons := []
  keys := []
  g_states := fun _ => StateInfo.zero
  g_edge0 := fun _ => []
  g_edge1 := fun _ => []
  g_wins := []
  g_loses := []

/-- The function `add_state`: create the three entries of `s` unless
`g_states` already has the key. -/
def add_state (st : TrainState) (s : Nat) : TrainState :=
  if s ∈ st.keys then st
  else
    { st with
      keys := st.keys ++ [s]
      g_states := upd st.g_states s StateInfo.zero
      g_edge0 := upd st.g_edge0 s []
      g_edge1 := upd st.g_edge1 s [] }

/-- The assignment `g_states[s].dp = {v, v};`. -/
def set_dp (st : TrainState) (s : Nat) (v : Int) : TrainState :=
  { st with
    g_states := upd st.g_states s (StateInfo.mk v v (st.g_states s).depth0 (st.g_states s).depth1) }

/-- The overlap test `for (int p : x) if (sy.count(p)) ...` where `sy` is the
set of the elements of `y`. -/
def overlap (x y : List Nat) : Bool :=
  x.any (fun p => y.contains p)

/-- The function `add_edge`: the target is split and decoded, and the edge is
dropped when a half does not decode, when the lengths are not `lx = ly` or
`lx = ly + 1`, or when the halves overlap; otherwise both states are added
and `to_s` is appended to the edge list of `from_s` for the player. -/
def add_edge (b : Params) (st : TrainState) (from_s to_s player : Nat) : TrainState :=
  match decode_list b (to_s / b.SEPARATOR) with
  | none => st
  | some x =>
    match decode_list b (to_s % b.SEPARATOR) with
    | none => st
    | some y =>
      if x.length ≠ y.length ∧ x.length ≠ y.length + 1 then st
      else if overlap x y then st
      else
        let st1 := add_state (add_state st from_s) to_s
        if player = 0 then
          { st1 with g_edge0 := upd st1.g_edge0 from_s (st1.g_edge0 from_s ++ [to_s]) }
        else
          { st1 with g_edge1 := upd st1.g_edge1 from_s (st1.g_edge1 from_s ++ [to_s]) }

/-- The body of the loop `for (int t = 0; t < CELLS; t++)` of `train` on the
canonical state `(cx, cy)` with code `code` and board `board`: for an empty
cell both successors are built, canonicalized and passed to `add_edge`. -/
def train_cell (b : Params) (code : Nat) (cx cy : List Nat) (board : List Int)
    (st : TrainState) (t : Nat) : TrainState :=
  if board.getD t 0 ≠ 0 then st
  else
    let x_new := place b cx t
    let y_new := place b cy t
    let c0 := canonicalize b x_new cy
    let c1 := canonicalize b cx y_new
    add_edge b (add_edge b st code c0.code 0) code c1.code 1

/-- The body of the enumeration loop of `train` once `x` and `y` are decoded:
length test, overlap test, canonicalization, deduplication through `canons`,
classification by `check_result`, and for a non-terminal state the edges of
every empty cell. -/
def train_visit (b : Params) (st : TrainState) (x y : List Nat) : TrainState :=
  if x.length ≠ y.length ∧ x.length ≠ y.length + 1 then st
  else if overlap x y then st
  else
    let cr := canonicalize b x y
    if cr.code ∈ st.canons then st
    else
      let st1 := { st with canons := set_insert st.canons cr.code }
      let result := check_result b cr.x cr.y
      if result = 1 then
        set_dp (add_state { st1 with g_wins := set_insert st1.g_wins cr.code } cr.code)
          cr.code 1
      else if result = -1 then
        set_dp (add_state { st1 with g_loses := set_insert st1.g_loses cr.code } cr.code)
          cr.code (-1)
      else
        (List.range b.CELLS).foldl
          (train_cell b cr.code cr.x cr.y (board_of b cr.x cr.y)) st1

namespace Train3x3

/-- One iteration of `for (int code = 0; code < max_code; code++)` in `train`
of `train_3x3.cpp`: split the code, decode both halves with `decode_list`
(`continue` when one is illegal), then the common body. -/
def train_step (st : TrainState) (code : Nat) : TrainState :=
  match decode_list train_3x3 (code / train_3x3.SEPARATOR) with
  | none => st
  | some x =>
    match decode_list train_3x3 (code % train_3x3.SEPARATOR) with
    | none => st
    | some y => train_visit train_3x3 st x y

/-- The function `train` of `train_3x3.cpp`, with
`max_code = SEPARATOR * SEPARATOR`. -/
def train : TrainState :=
  (List.range (train_3x3.SEPARATOR * train_3x3.SEPARATOR)).foldl train_step TrainState.init

end Train3x3

namespace Train4x4

/-- The loops `while (tmp) { x.push_back((int)(tmp % BASE) - 1); tmp /= BASE; }`
of `train` in `train_4x4_m4.cpp`, with fuel. The codes come from
`precompute_valid` and have no zero digit, so `digit - 1` is not negative. -/
def raw_decode_loop : Nat → Nat → List Nat → List Nat
  | 0, _, x => x
  | fuel + 1, tmp, x =>
    if tmp ≠ 0 then
      raw_decode_loop fuel (tmp / train_4x4_m4.BASE) (x ++ [tmp % train_4x4_m4.BASE - 1])
    else x

/-- The unchecked decoding of a code in `train`. -/
def raw_decode (code : Nat) : List Nat :=
  raw_decode_loop code code []

/-- One iteration of the loop of `precompute_valid`: a code that decodes goes
to `y_valid`, and to `x_valid` as well when it is empty or its most
significant digit `positions.back() + 1` is 1, 2 or 6. -/
def precompute_step (acc : List Nat × List Nat) (code : Nat) : List Nat × List Nat :=
  match decode_list train_4x4_m4 code with
  | none => acc
  | some positions =>
    if positions.isEmpty || [1, 2, 6].contains (positions.getLastD 0 + 1) then
      (acc.1 ++ [code], acc.2 ++ [code])
    else (acc.1, acc.2 ++ [code])

/-- The function `precompute_valid`: the pair `(x_valid, y_valid)`. -/
def precompute_valid : List Nat × List Nat :=
  (List.range train_4x4_m4.SEPARATOR).foldl precompute_step ([], [])

/-- The function `train(x_valid, y_valid)` of `train_4x4_m4.cpp`. -/
def train (x_valid y_valid : List Nat) : TrainState :=
  x_valid.foldl
    (fun st x_code =>
      y_valid.foldl
        (fun st2 y_code =>
          train_visit train_4x4_m4 st2 (raw_decode x_code) (raw_decode y_code))
        st)
    TrainState.init

end Train4x4

/-! ### The retrograde solver of the explicit trainers -/

/-- The reverse edge list `e0r[t]` (resp. `e1r[t]`) built by
`for (auto& [s, v] : g_edge0) for (uint64_t t : v) e0r[t].push_back(s);`,
where `order` is the order in which the map is iterated. -/
def reverse_edges (order : List Nat) (edge : Nat → List Nat) (t : Nat) : List Nat :=
  order.flatMap (fun s => (edge s).filterMap (fun u => if u = t then some s else none))

/-- The variables that the two loops of `solve` update: the labels and depths
in `g_states`, the counters `need[s][p]`, and the queue `q`. -/
structure SolveState where
  g_states : Nat → StateInfo
  need : Nat → Nat → Int
  q : List Nat

/-- The body of the innermost loop, `for (uint64_t z : e1r[y])` in the win
pass (`i = 0`) and `for (uint64_t z : e0r[y])` in the lose pass (`i = 1`):
decrement `need[z][1 - i]`; when it becomes zero push `z` and label it with
depth `depth[y][i] + 1` (a `uint16_t`). -/
def pass_inner (lbl : Int) (i y : Nat) (ss : SolveState) (z : Nat) : SolveState :=
  let n := ss.need z (1 - i) - 1
  let need1 := fun s p => if s = z ∧ p = 1 - i then n else ss.need s p
  if n = 0 then
    SolveState.mk
      (upd ss.g_states z
        ((ss.g_states z).label (1 - i) lbl (((ss.g_states y).depth i + 1) % 65536)))
      need1 (ss.q ++ [z])
  else SolveState.mk ss.g_states need1 ss.q

/-- The body of the middle loop, `for (uint64_t y : e0r[x])` in the win pass
and `for (uint64_t y : e1r[x])` in the lose pass: skip `y` when `dp[y][i]`
already is the label, else label it with depth `depth[x][1 - i] + 1` and run
the innermost loop over the other reverse edge list of `y`. -/
def pass_mid (lbl : Int) (i : Nat) (er_other : Nat → List Nat) (x : Nat) (ss : SolveState)
    (y : Nat) : SolveState :=
  if (ss.g_states y).dp i = lbl then ss
  else
    (er_other y).foldl (pass_inner lbl i y)
      (SolveState.mk
        (upd ss.g_states y
          ((ss.g_states y).label i lbl (((ss.g_states x).depth (1 - i) + 1) % 65536)))
        ss.need ss.q)

/-- A loop `while (!q.empty())` of `solve`, with fuel: pop the front `x` and
run the middle loop over `er x`. The win pass is `lbl = 1`, `i = 0`,
`er = e0r`, `er_other = e1r`; the lose pass is `lbl = -1`, `i = 1`,
`er = e1r`, `er_other = e0r`. -/
def pass_loop (lbl : Int) (i : Nat) (er er_other : Nat → List Nat) :
    Nat → SolveState → SolveState
  | 0, ss => ss
  | fuel + 1, ss =>
    match ss.q with
    | [] => ss
    | x :: rest =>
      pass_loop lbl i er er_other fuel
        ((er x).foldl (pass_mid lbl i er_other x) (SolveState.mk ss.g_states ss.need rest))

/-- The function `solve`. The unordered containers are iterated in an
unspecified order: `order0` and `order1` are the orders in which `g_edge0`
and `g_edge1` are traversed when the reverse edges are built, `wins` and
`loses` the orders in which `g_wins` and `g_loses` are pushed on the queue.
The result holds the final `g_states` and `need`, and the queue left when
the fuel of the second loop is used up. -/
def solve (st : TrainState) (order0 order1 wins loses : List Nat) : SolveState :=
  let e0r := reverse_edges order0 st.g_edge0
  let e1r := reverse_edges order1 st.g_edge1
  let need := fun s p =>
    if p = 0 then ((st.g_edge0 s).length : Int) else ((st.g_edge1 s).length : Int)
  let ss1 := pass_loop 1 0 e0r e1r (wins.length + order1.length)
    (SolveState.mk st.g_states need wins)
  pass_loop (-1) 1 e1r e0r (ss1.q.length + loses.length + order0.length)
    (SolveState.mk ss1.g_states ss1.need (ss1.q ++ loses))

/-! ### Predecessor and successor synthesis of `train_xwin.cpp` and `train_ywin.cpp` -/

namespace TrainXwin

/-- The occupancy mask built by `for (int i=0;i<lx;i++) occ |= 1u<<x[i];` and
`for (int i=0;i<ly;i++) occ |= 1u<<y[i];`, a `uint32_t`. The entries of a
decoded stored code lie in `0..15`; a negative entry (a zero digit) makes the
shift undefined in C and is taken as `0` here. -/
def occ_mask (x y : List Int) : Nat :=
  y.foldl (fun occ p => (occ ||| (1 <<< p.toNat) % 4294967296) % 4294967296)
    (x.foldl (fun occ p => (occ ||| (1 <<< p.toNat) % 4294967296) % 4294967296) 0)

/-- The test `occ & (1u<<f)` of the cell loops. -/
def occupied (occ f : Nat) : Bool :=
  occ &&& ((1 <<< f) % 4294967296) != 0

/-- The lambda `add` of the synthesis functions on the arrays `seen` and
`out`, which hold the same `nseen = cnt` entries: a code already seen is
skipped, a new code is appended. Both arrays have `cap` entries
(`seen[9]` and the caller's `xpred_buf[9]`, `ypred_buf[9]`; `seen[16]` and
`succ_buf[16]`); a write past the end is undefined behaviour and gives
`none`. -/
def add (cap : Nat) (acc : Option (List Nat)) (c : Nat) : Option (List Nat) :=
  match acc with
  | none => none
  | some out =>
    if c ∈ out then some out
    else if out.length < cap then some (out ++ [c])
    else none

/-- The function `get_x_preds` with arrays of `cap` entries: nothing when
`lx = 0`; the no-overflow predecessor `x[0..lx-1)` when `lx > ly`; and when
`lx = MAX_MOVE` the overflow predecessors `[f, x[0], .., x[lx-2]]` for every
cell `f` that is not occupied. -/
def get_x_preds_cap (cap : Nat) (x y : List Int) : Option (List Nat) :=
  if x.length = 0 then some []
  else
    let occ := occ_mask x y
    let acc :=
      if x.length > y.length then add cap (some []) (canonicalize (x.take (x.length - 1)) y)
      else some []
    if x.length = MAX_MOVE then
      (List.range CELLS).foldl
        (fun acc f =>
          if occupied occ f then acc
          else add cap acc (canonicalize ((f : Int) :: x.take (x.length - 1)) y))
        acc
    else acc

/-- The function `get_x_preds` as compiled: `seen` and the buffer
`xpred_buf` of `main` have 9 entries. -/
def get_x_preds (x y : List Int) : Option (List Nat) :=
  get_x_preds_cap 9 x y

/-- The function `get_y_preds` with arrays of `cap` entries: nothing when
`ly = 0`; the no-overflow predecessor `y[0..ly-1)`; and when
`ly = MAX_MOVE` the overflow predecessors `[f, y[0], .., y[ly-2]]` for every
cell `f` that is not occupied. -/
def get_y_preds_cap (cap : Nat) (x y : List Int) : Option (List Nat) :=
  if y.length = 0 then some []
  else
    let occ := occ_mask x y
    let acc := add cap (some []) (canonicalize x (y.take (y.length - 1)))
    if y.length = MAX_MOVE then
      (List.range CELLS).foldl
        (fun acc f =>
          if occupied occ f then acc
          else add cap acc (canonicalize x ((f : Int) :: y.take (y.length - 1))))
        acc
    else acc

/-- The function `get_y_preds` as compiled: `seen` and the buffer
`ypred_buf` of `main` have 9 entries. -/
def get_y_preds (x y : List Int) : Option (List Nat) :=
  get_y_preds_cap 9 x y

/-- The function `get_y_succs` of `train_xwin.cpp` (`seen[16]`, and
`succ_buf[16]` in `main`): for every cell `pos` that is not occupied the
array `ynew` is built, the move is skipped when `lx < lnew`, and the
canonical code is added. -/
def get_y_succs (x y : List Int) : Option (List Nat) :=
  let occ := occ_mask x y
  (List.range CELLS).foldl
    (fun acc pos =>
      if occupied occ pos then acc
      else if x.length < (ynew y (pos : Int)).length then acc
      else add 16 acc (canonicalize x (ynew y (pos : Int))))
    (some [])

end TrainXwin

namespace TrainYwin

/-- The array `xnew[0..lnew)` that `get_x_succs` of `train_ywin.cpp` builds
for the cell `pos`: `x` followed by `pos` when `lx < MAX_MOVE`, otherwise
`x[1..lx)` followed by `pos`. -/
def xnew (x : List Int) (pos : Int) : List Int :=
  if x.length < TrainXwin.MAX_MOVE then x ++ [pos]
  else (x.drop 1).take (x.length - 1) ++ [pos]

/-- The function `get_x_succs` of `train_ywin.cpp` (`seen[16]`, and
`succ_buf[16]` in `main`): for every cell `pos` that is not occupied the
array `xnew` is built, the move is skipped when `ly < lnew - 1` (`int`
arithmetic), and the canonical code is added. -/
def get_x_succs (x y : List Int) : Option (List Nat) :=
  let occ := TrainXwin.occ_mask x y
  (List.range TrainXwin.CELLS).foldl
    (fun acc pos =>
      if TrainXwin.occupied occ pos then acc
      else if (y.length : Int) < ((xnew x (pos : Int)).length : Int) - 1 then acc
      else TrainXwin.add 16 acc (TrainXwin.canonicalize (xnew x (pos : Int)) y))
    (some [])

end TrainYwin

/-! ### The merger `merge_training_data.cpp` -/

/-- The struct `Record`: `state_code` (`uint64_t`), `dp0`, `dp1` (`int8_t`),
`depth0`, `depth1` (`uint16_t`). -/
structure Record where
  state_code : Nat
  dp0 : Int
  dp1 : Int
  depth0 : Nat
  depth1 : Nat
deriving DecidableEq, Repr

/-- The method `Record::merge`: each of the four fields that is zero in the
receiver takes the value of `other`. -/
def Record.merge (r other : Record) : Record where
  state_code := r.state_code
  dp0 := if r.dp0 = 0 then other.dp0 else r.dp0
  dp1 := if r.dp1 = 0 then other.dp1 else r.dp1
  depth0 := if r.depth0 = 0 then other.depth0 else r.depth0
  depth1 := if r.depth1 = 0 then other.depth1 else r.depth1

/-- The class `DataReader` on a well-formed table: `records` are the records
that follow the header of the file, `num_records` is the header, `pos` the
number of records read so far. -/
structure DataReader where
  records : List Record
  num_records : Nat
  pos : Nat

/-- The method `open` on a file whose header is the number of its records. -/
def DataReader.open_file (file : List Record) : DataReader :=
  DataReader.mk file file.length 0

/-- The method `read_batch`: the reader after the call, the buffer after the
call and the returned flag. The buffer is cleared first; `to_read` is
`min(batch_size, num_records_ - pos_)` in `uint64_t` arithmetic. -/
def DataReader.read_batch (r : DataReader) (batch_size : Nat) :
    DataReader × List Record × Bool :=
  let to_read := min batch_size ((r.num_records + UINT64_MOD - r.pos) % UINT64_MOD)
  if to_read = 0 then (r, [], false)
  else ({ r with pos := r.pos + to_read }, (r.records.drop r.pos).take to_read, true)

/-- The method `eof`. -/
def DataReader.eof (r : DataReader) : Bool :=
  decide (r.pos ≥ r.num_records)

/-- The variables of the merge loop of `main`; `out` lists the records
written after the header. -/
structure MergeState where
  xwin : DataReader
  ywin : DataReader
  xwin_batch : List Record
  ywin_batch : List Record
  xwin_idx : Nat
  ywin_idx : Nat
  out : List Record
  written : Nat
  xonly : Nat
  yonly : Nat
  both : Nat

/-- The constant `BATCH_SIZE` of `main`. -/
def BATCH_SIZE : Nat := 1000000

/-- The reload at the end of the loop body: a batch that is used up is read
again unless its reader is at `eof`. -/
def merge_reload (batch_size : Nat) (s : MergeState) : MergeState :=
  let s1 :=
    if s.xwin_idx ≥ s.xwin_batch.length ∧ s.xwin.eof = false then
      { s with xwin := (s.xwin.read_batch batch_size).1, xwin_batch := (s.xwin.read_batch batch_size).2.1, xwin_idx := 0 }
    else s
  if s1.ywin_idx ≥ s1.ywin_batch.length ∧ s1.ywin.eof = false then
    { s1 with ywin := (s1.ywin.read_batch batch_size).1, ywin_batch := (s1.ywin.read_batch batch_size).2.1, ywin_idx := 0 }
  else s1

/-- The record `current` is written and counted (`written` is a
`uint64_t`). -/
def merge_write (s : MergeState) (current : Record) : MergeState :=
  { s with out := s.out ++ [current], written := (s.written + 1) % UINT64_MOD }

/-- The body of the merge loop; `none` when a batch is read at an index at or
beyond its size. The choice `take_xwin` is `false` when the X batch is used
up (`xwin_idx >= xwin_batch.size()`), `true` when only the Y batch is, and
the comparison of the two codes otherwise. -/
def merge_step (batch_size : Nat) (s : MergeState) : Option MergeState :=
  let take_xwin : Bool :=
    match s.xwin_batch.get? s.xwin_idx, s.ywin_batch.get? s.ywin_idx with
    | none, _ => false
    | some _, none => true
    | some a, some c => decide (a.state_code ≤ c.state_code)
  if take_xwin then
    match s.xwin_batch.get? s.xwin_idx with
    | none => none
    | some current =>
      let s1 := { s with xwin_idx := s.xwin_idx + 1 }
      match s1.ywin_batch.get? s1.ywin_idx with
      | some other =>
        if other.state_code = current.state_code then
          some (merge_reload batch_size
            (merge_write { s1 with ywin_idx := s1.ywin_idx + 1, both := (s1.both + 1) % UINT64_MOD }
              (current.merge other)))
        else some (merge_reload batch_size (merge_write { s1 with xonly := (s1.xonly + 1) % UINT64_MOD } current))
      | none => some (merge_reload batch_size (merge_write { s1 with xonly := (s1.xonly + 1) % UINT64_MOD } current))
  else
    match s.ywin_batch.get? s.ywin_idx with
    | none => none
    | some current =>
      some (merge_reload batch_size
        (merge_write { s with ywin_idx := s.ywin_idx + 1, yonly := (s.yonly + 1) % UINT64_MOD } current))

/-- The loop `while (!xwin.eof() || !ywin.eof())`, with fuel. -/
def merge_loop (batch_size : Nat) : Nat → MergeState → Option MergeState
  | 0, s => some s
  | fuel + 1, s =>
    if s.xwin.eof = false ∨ s.ywin.eof = false then
      match merge_step batch_size s with
      | none => none
      | some s1 => merge_loop batch_size fuel s1
    else some s

/-- The function `main` of the merger on the two input tables, with batches
of `batch_size` records: the header of the output after the final fix-up
(`written`) and the records written after it; `none` when a batch is read
out of range. One iteration uses up at least one record of a batch, so
`|xwin| + |ywin|` iterations are enough fuel. -/
def merge_main (batch_size : Nat) (xwin_file ywin_file : List Record) :
    Option (Nat × List Record) :=
  let x := (DataReader.open_file xwin_file).read_batch batch_size
  let y := (DataReader.open_file ywin_file).read_batch batch_size
  match merge_loop batch_size (xwin_file.length + ywin_file.length)
      (MergeState.mk x.1 y.1 x.2.1 y.2.1 0 0 [] 0 0 0 0) with
  | none => none
  | some s => some (s.written, s.out)


/-! ### The breadth-first propagation of `train_xwin.cpp` -/

namespace TrainXwin

/-- The function `check_result` of `train_xwin.cpp` (the same text is in
`train_ywin.cpp`), on the arrays `x[0..lx)` and `y[0..ly)`: `+1` when
`lx >= 3` and `check_win_at(board, x[0])`, else `-1` when `ly >= 3` and
`check_win_at(board, y[0])`, else `0`. The constants and `check_win_at` are
those of `train_4x4_m4.cpp`. The entries of a decoded stored code lie in
`0..15`; a negative entry would index before the board and is taken as `0`
here. -/
def check_result (x y : List Int) : Int :=
  let board := board_of train_4x4_m4 (x.map Int.toNat) (y.map Int.toNat)
  if decide (x.length ≥ 3) && check_win_at train_4x4_m4 board (x.getD 0 0).toNat then 1
  else if decide (y.length ≥ 3) && check_win_at train_4x4_m4 board (y.getD 0 0).toNat then -1
  else 0

/-- The function `find_idx`: `std::lower_bound` gives the first position
whose entry is not below `code`; the result is that position when its entry
is `code` and `-1` (`none`) otherwise. -/
def find_idx (codes : List Nat) (code : Nat) : Option Nat :=
  if codes.get? (codes.findIdx (fun c => decide (code ≤ c))) = some code then
    some (codes.findIdx (fun c => decide (code ≤ c)))
  else none

/-- The arrays `need`, `dp_flags`, `depth_0`, `depth_1` of `main`, indexed by
the position in `codes`, and the queue `bfs`. -/
structure BfsState where
  need : Nat → Nat
  dp_flags : Nat → Nat
  depth_0 : Nat → Nat
  depth_1 : Nat → Nat
  bfs : List Nat

/-- The body of the innermost loop `for (int q = 0; q < nq; q++)` of the
propagation, for the predecessor code `q` of the state of index `j`. -/
def bfs_inner (codes : List Nat) (j : Nat) (st : BfsState) (q : Nat) : BfsState :=
  match find_idx codes q with
  | none => st
  | some k =>
    if st.dp_flags k &&& 2 ≠ 0 then st
    else if st.need k > 0 then
      if st.need k - 1 = 0 then
        BfsState.mk (upd st.need k (st.need k - 1)) (upd st.dp_flags k (st.dp_flags k ||| 2))
          st.depth_0 (upd st.depth_1 k ((st.depth_0 j + 1) % 65536)) (st.bfs ++ [k])
      else
        BfsState.mk (upd st.need k (st.need k - 1)) st.dp_flags st.depth_0 st.depth_1 st.bfs
    else st

/-- The body of the loop `for (int p = 0; p < np; p++)` of the propagation,
for the predecessor code `p` of the popped state of index `i`: a code that is
not in `codes` or is flagged Type A is skipped; otherwise it is flagged
Type A with depth `depth_1[i] + 1` and the innermost loop runs over its
Y-predecessors. The result is `none` when `get_y_preds` writes past its
buffer. -/
def bfs_mid (codes : List Nat) (i : Nat) (acc : Option BfsState) (p : Nat) :
    Option BfsState :=
  match acc with
  | none => none
  | some st =>
    match find_idx codes p with
    | none => some st
    | some j =>
      if st.dp_flags j &&& 1 ≠ 0 then some st
      else
        match get_y_preds (decode_state (codes.getD j 0)).1 (decode_state (codes.getD j 0)).2 with
        | none => none
        | some qs =>
          some (qs.foldl (bfs_inner codes j)
            (BfsState.mk st.need (upd st.dp_flags j (st.dp_flags j ||| 1))
              (upd st.depth_0 j ((st.depth_1 i + 1) % 65536)) st.depth_1 st.bfs))

/-- The loop `while (!bfs.empty())` of the propagation, with fuel: pop the
front `i`, decode `codes[i]`, and run the middle loop over its
X-predecessors. Here `cap` is the number of entries of `xpred_buf` and of
the array `seen` of `get_x_preds`, which is 9 in the source. The result is
`none` when a predecessor buffer overflows. -/
def bfs_loop (cap : Nat) (codes : List Nat) : Nat → BfsState → Option BfsState
  | 0, st => some st
  | fuel + 1, st =>
    match st.bfs with
    | [] => some st
    | i :: rest =>
      match get_x_preds_cap cap (decode_state (codes.getD i 0)).1
          (decode_state (codes.getD i 0)).2 with
      | none => none
      | some ps =>
        match ps.foldl (bfs_mid codes i)
            (some (BfsState.mk st.need st.dp_flags st.depth_0 st.depth_1 rest)) with
        | none => none
        | some st2 => bfs_loop cap codes fuel st2

/-- The record that Phase 4 writes for the index `i`:
`dp0 = (dp_flags[i] & 1) ? 1 : 0`, `dp1 = (dp_flags[i] & 2) ? 1 : 0`. -/
def save_record (codes : List Nat) (st : BfsState) (i : Nat) : Record :=
  Record.mk (codes.getD i 0) (if st.dp_flags i &&& 1 ≠ 0 then 1 else 0)
    (if st.dp_flags i &&& 2 ≠ 0 then 1 else 0) (st.depth_0 i) (st.depth_1 i)

end TrainXwin

namespace TrainYwin

/-- The record that Phase 4 of `train_ywin.cpp` writes for the index `i`:
`dp0 = (dp_flags[i] & 1) ? -1 : 0`, `dp1 = (dp_flags[i] & 2) ? -1 : 0`. -/
def save_record (codes : List Nat) (dp_flags depth_0 depth_1 : Nat → Nat) (i : Nat) : Record :=
  Record.mk (codes.getD i 0) (if dp_flags i &&& 1 ≠ 0 then -1 else 0)
    (if dp_flags i &&& 2 ≠ 0 then -1 else 0) (depth_0 i) (depth_1 i)

end TrainYwin

/-! ### The byte layout of the tables -/

/-- The `k` bytes of the object representation of an unsigned integer `n`,
lowest byte first: what `fwrite(&n, k, 1, f)` and `memcpy(buf, &n, k)` produce
on the little-endian hosts the tools are built for. -/
def le_bytes : Nat → Nat → List Nat
  | 0, _ => []
  | k + 1, n => n % 256 :: le_bytes k (n / 256)

/-- The unsigned integer whose object representation is the given bytes,
lowest byte first: what `memcpy(&n, buf, k)` and `file.read((char*)&n, k)`
store. -/
def le_value : List Nat → Nat
  | [] => 0
  | b :: bs => b + 256 * le_value bs

/-- The byte of an `int8_t` (two's complement): `fwrite(&dp, 1, 1, f)` and
`static_cast<char>(dp)`. -/
def int8_byte (v : Int) : Nat :=
  (v % 256).toNat

/-- The `int8_t` held by a byte: `static_cast<int8_t>(record_bytes[8])`. -/
def byte_int8 (b : Nat) : Int :=
  if b < 128 then (b : Int) else (b : Int) - 256

/-- The 14 bytes of one record: the five `fwrite` calls of `save` (and of
phase 4 of `train_xwin.cpp`, `train_ywin.cpp`, and of `test_storage.cpp`), and
the array `record_bytes` that `main` of the merger fills at the offsets 0, 8,
9, 10 and 12 and writes. -/
def record_bytes (r : Record) : List Nat :=
  le_bytes 8 r.state_code ++ [int8_byte r.dp0] ++ [int8_byte r.dp1] ++ le_bytes 2 r.depth0 ++
    le_bytes 2 r.depth1

/-- The bytes of a table file: the header `n` as a `uint64_t`, then the
records in order. -/
def write_table (n : Nat) (records : List Record) : List Nat :=
  le_bytes 8 n ++ records.flatMap record_bytes

/-- The record that `read_batch` builds from the 14 bytes `rec`: `memcpy` of
8 bytes at offset 0, the casts of the bytes 8 and 9, `memcpy` of 2 bytes at
the offsets 10 and 12. -/
def parse_record (rec : List Nat) : Record :=
  Record.mk (le_value (rec.take 8)) (byte_int8 (rec.getD 8 0)) (byte_int8 (rec.getD 9 0))
    (le_value ((rec.drop 10).take 2)) (le_value ((rec.drop 12).take 2))

/-- The class `DataReader` on the bytes of a file: `rest` are the bytes of the
stream that are not read yet. -/
structure ByteReader where
  rest : List Nat
  num_records : Nat
  pos : Nat

/-- The method `open`: the header is read into `num_records_`. A file of
fewer than 8 bytes leaves `num_records_` without a value (`none`). -/
def ByteReader.open_file (file : List Nat) : Option ByteReader :=
  if file.length < 8 then none
  else some (ByteReader.mk (file.drop 8) (le_value (file.take 8)) 0)

/-- The loop `for (size_t i = 0; i < to_read; i++)` of `read_batch`: each
iteration reads 14 bytes and parses them. A stream that ends before the 14
bytes leaves the array `record_bytes` unfilled (`none`). -/
def ByteReader.read_records : Nat → List Nat → Option (List Record × List Nat)
  | 0, rest => some ([], rest)
  | k + 1, rest =>
    if rest.length < 14 then none
    else
      match ByteReader.read_records k (rest.drop 14) with
      | none => none
      | some (rs, rest2) => some (parse_record (rest.take 14) :: rs, rest2)

/-- The method `read_batch` on the bytes of the file: the reader after the
call, the buffer after the call and the returned flag. -/
def ByteReader.read_batch (r : ByteReader) (batch_size : Nat) :
    Option (ByteReader × List Record × Bool) :=
  let to_read := min batch_size ((r.num_records + UINT64_MOD - r.pos) % UINT64_MOD)
  if to_read = 0 then some (r, [], false)
  else
    match ByteReader.read_records to_read r.rest with
    | none => none
    | some (rs, rest2) => some (ByteReader.mk rest2 r.num_records (r.pos + to_read), rs, true)

/-- The function `make_record` of `test_storage.cpp`, for `i >= 0`. -/
def make_record (i : Nat) : Record :=
  Record.mk (((i + 1) * 1000000007) % UINT64_MOD) (((i % 3 : Nat) : Int) - 1)
    ((((i + 1) % 3 : Nat) : Int) - 1) ((i % 1000) % 65536) (((i * 3) % 1000) % 65536)

/-- The records of `main` of `test_storage.cpp`: `make_record(i)` for
`i < N = 1000`, sorted by `state_code` (`std::sort`; the codes are distinct,
so the sorted order does not depend on the algorithm). -/
def test_storage_records : List Record :=
  ((List.range 1000).map make_record).insertionSort (fun a c => a.state_code ≤ c.state_code)

/-- The file that `main` of `test_storage.cpp` writes: the header `N`, then
the sorted records. -/
def test_storage_file : List Nat :=
  write_table 1000 test_storage_records

/-- The function `save` of the explicit trainers, on the keys of `g_states`
in the iteration order of the map: the header and the records written after
it. The keys are sorted with `std::sort`. -/
def save (keys : List Nat) (g_states : Nat → StateInfo) : Nat × List Record :=
  let sorted := keys.insertionSort (fun a c => a ≤ c)
  (sorted.length,
    sorted.map (fun k => Record.mk k (g_states k).dp0 (g_states k).dp1 (g_states k).depth0
      (g_states k).depth1))

/-- Phase 4 of `train_xwin.cpp`: the indices `i < N` with `dp_flags[i]` set,
in ascending order, give the header `nrec` and the records;
`N = (uint32_t)codes.size()`. -/
def TrainXwin.save (codes : List Nat) (st : TrainXwin.BfsState) : Nat × List Record :=
  let win_indices := (List.range (codes.length % 4294967296)).filter
    (fun i => decide (st.dp_flags i ≠ 0))
  (win_indices.length, win_indices.map (TrainXwin.save_record codes st))

/-- Phase 4 of `train_ywin.cpp`: as in `train_xwin.cpp`, with the labels
`-1`. -/
def TrainYwin.save (codes : List Nat) (dp_flags depth_0 depth_1 : Nat → Nat) :
    Nat × List Record :=
  let win_indices := (List.range (codes.length % 4294967296)).filter
    (fun i => decide (dp_flags i ≠ 0))
  (win_indices.length, win_indices.map (TrainYwin.save_record codes dp_flags depth_0 depth_1))

/-! ## Auxiliary notions used in the statements -/

/-- The constants of a trainer are consistent: the base is one more than the
cell count, the separator is `BASE ^ MAX_MOVE`, and no code overflows. -/
def Params.Consistent (b : Params) : Prop :=
  b.BASE = b.CELLS + 1 ∧ 1 ≤ b.CELLS ∧ b.SEPARATOR = b.BASE ^ b.MAX_MOVE ∧
    b.SEPARATOR * b.SEPARATOR < UINT64_MOD

/-- The digits written by `encode_list`: position `p` becomes digit `p + 1`. -/
def digitsOf (pos : List Nat) : List Nat := pos.map (· + 1)

/-- The code that transform `t` gives to the state `(x, y)`. -/
def code_at (b : Params) (x y : List Nat) (t : Nat) : Nat :=
  encode_state b (apply_transform b x t) (apply_transform b y t)

/-- The eight symmetries of an `N × N` square on (row, column) coordinates:
identity, the three rotations, the two axis flips and the two diagonal flips. -/
def square_symmetry (N k : Nat) (rc : Nat × Nat) : Nat × Nat :=
  match k with
  | 0 => (rc.1, rc.2)
  | 1 => (rc.2, N - 1 - rc.1)
  | 2 => (N - 1 - rc.1, N - 1 - rc.2)
  | 3 => (N - 1 - rc.2, rc.1)
  | 4 => (rc.1, N - 1 - rc.2)
  | 5 => (N - 1 - rc.1, rc.2)
  | 6 => (rc.2, rc.1)
  | _ => (N - 1 - rc.2, N - 1 - rc.1)

/-- The full lines of the board: the `N` rows, the `N` columns and the two
diagonals, each as the list of its cells. -/
def lines (b : Params) : List (List Nat) :=
  (List.range b.N).map (fun r => (List.range b.N).map (fun c => r * b.N + c)) ++
  (List.range b.N).map (fun c => (List.range b.N).map (fun r => r * b.N + c)) ++
  [(List.range b.N).map (fun i => i * b.N + i),
   (List.range b.N).map (fun i => i * b.N + (b.N - 1 - i))]

/-- The cells of a sequence are exactly the cells of a full row, column or
diagonal. -/
def FullLine (b : Params) (pos : List Nat) : Prop :=
  ∃ line ∈ lines b, ∀ p, p ∈ pos ↔ p ∈ line

/-- A legal pair of sequences: duplicate-free, disjoint, inside the board and
within the piece budget. -/
def LegalPair (b : Params) (x y : List Nat) : Prop :=
  x.Nodup ∧ y.Nodup ∧ (∀ p ∈ x, p ∉ y) ∧ x.length ≤ b.MAX_MOVE ∧ y.length ≤ b.MAX_MOVE ∧
    (∀ p ∈ x, p < b.CELLS) ∧ (∀ p ∈ y, p < b.CELLS)

/-- The terminal predicate with the length guard `g`: a side is tested only
when its sequence has at least `g` cells. -/
def check_result_guarded (b : Params) (g : Nat) (x y : List Nat) : Int :=
  let board := board_of b x y
  if decide (x.length ≥ g) && check_win_at b board (x.getD 0 0) then 1
  else if decide (y.length ≥ g) && check_win_at b board (y.getD 0 0) then -1
  else 0

/-- The terminal predicate that tests the most recently placed piece of each
side (the last element of its sequence) instead of the oldest one. -/
def check_result_last (b : Params) (x y : List Nat) : Int :=
  let board := board_of b x y
  if side_guard b x && check_win_at b board (x.getLastD 0) then 1
  else if side_guard b y && check_win_at b board (y.getLastD 0) then -1
  else 0

/-- The test of the inner loops of `check_win_at` on the cell `(r, c)`: it
is on the board and holds `val`. -/
def cell_ok (b : Params) (board : List Int) (val r c : Int) : Prop :=
  r ≥ 0 ∧ r < b.N ∧ c ≥ 0 ∧ c < b.N ∧ board.getD (r * b.N + c).toNat 0 = val

/-- The state code `c` decodes to a legal state whose lengths are `lx = ly`
or `lx = ly + 1`, and `c` is the canonical code of that state. -/
def Stored (b : Params) (c : Nat) : Prop :=
  ∃ x y, decode_list b (c / b.SEPARATOR) = some x ∧ decode_list b (c % b.SEPARATOR) = some y ∧
    LegalPair b x y ∧ (x.length = y.length ∨ x.length = y.length + 1) ∧
    (canonicalize b x y).code = c

/-- The value of `check_result` on the state that a code decodes to (`0` for
a code that does not decode). -/
def verdict (b : Params) (c : Nat) : Int :=
  match decode_list b (c / b.SEPARATOR), decode_list b (c % b.SEPARATOR) with
  | some x, some y => check_result b x y
  | _, _ => 0

/-- The invariant of the containers during `train`. -/
structure TrainInv (b : Params) (st : TrainState) : Prop where
  keys_nodup : st.keys.Nodup
  stored : ∀ s ∈ st.keys, Stored b s
  canons_stored : ∀ s ∈ st.canons, Stored b s
  wins_sub : ∀ s ∈ st.g_wins, s ∈ st.keys ∧ s ∈ st.canons
  loses_sub : ∀ s ∈ st.g_loses, s ∈ st.keys ∧ s ∈ st.canons
  wins_label : ∀ s ∈ st.g_wins, st.g_states s = StateInfo.mk 1 1 0 0
  loses_label : ∀ s ∈ st.g_loses, st.g_states s = StateInfo.mk (-1) (-1) 0 0
  other_label : ∀ s, s ∉ st.g_wins → s ∉ st.g_loses → st.g_states s = StateInfo.zero
  wins_verdict : ∀ s ∈ st.canons, (s ∈ st.g_wins ↔ verdict b s = 1)
  loses_verdict : ∀ s ∈ st.canons, (s ∈ st.g_loses ↔ verdict b s = -1)
  edge_src0 : ∀ s, st.g_edge0 s ≠ [] →
    s ∈ st.keys ∧ s ∈ st.canons ∧ s ∉ st.g_wins ∧ s ∉ st.g_loses
  edge_src1 : ∀ s, st.g_edge1 s ≠ [] →
    s ∈ st.keys ∧ s ∈ st.canons ∧ s ∉ st.g_wins ∧ s ∉ st.g_loses
  edge_tgt0 : ∀ s t, t ∈ st.g_edge0 s → t ∈ st.keys
  edge_tgt1 : ∀ s t, t ∈ st.g_edge1 s → t ∈ st.keys

/-- The conditions under which `train` adds edges out of a state: its code
is stored, has been visited and was not classified terminal. -/
def EdgeSource (b : Params) (st : TrainState) (from_s : Nat) : Prop :=
  Stored b from_s ∧ from_s ∈ st.canons ∧ from_s ∉ st.g_wins ∧ from_s ∉ st.g_loses

/-- The containers after `train` as `main` runs it: on the 3x3 board,
`train()`; on the 4x4 board, `train(x_valid, y_valid)` on the two lists of
`precompute_valid`. -/
def train_result (b : Params) : TrainState :=
  if b.N = 3 then Train3x3.train
  else Train4x4.train Train4x4.precompute_valid.1 Train4x4.precompute_valid.2

/-- A code of the lists of `precompute_valid`: below `SEPARATOR` and accepted
by `decode_list`. -/
def Train4x4.ValidCode (c : Nat) : Prop :=
  c < train_4x4_m4.SEPARATOR ∧ ∃ ps, decode_list train_4x4_m4 c = some ps


/-- The data of one propagation loop of `solve`: the label `lbl` it writes,
the index `i` of the label written in the middle loop (the innermost loop
writes index `1 - i`), the forward edges `Ei` of player `i` and `Ej` of
player `1 - i` with the orders `oi`, `oj` in which their maps are traversed,
two sets of states whose labels the loop must not touch, and the labels
`g0` and counters `need0` at the start of the loop. -/
structure PassEnv where
  lbl : Int
  i : Nat
  Ei : Nat → List Nat
  Ej : Nat → List Nat
  oi : List Nat
  oj : List Nat
  prot_i : Nat → Prop
  prot_j : Nat → Prop
  g0 : Nat → StateInfo
  need0 : Nat → Nat → Int

/-- The state `y` carries the label `lbl` at index `i` in `g` and did not at
the start `g0` of the loop: the loop has labelled it. -/
def fresh (lbl : Int) (i : Nat) (g0 g : Nat → StateInfo) (y : Nat) : Bool :=
  decide ((g y).dp i = lbl ∧ (g0 y).dp i ≠ lbl)

/-- The assumptions on the start of a propagation loop: the traversal order
has no repetition, a state that carries the label at index `1 - i` from the
start has no edge of player `1 - i`, and the protected sets are closed: a
protected state of index `i` has all its successors protected at index
`1 - i`, a protected state of index `1 - i` with a successor has a protected
one. -/
structure PassHyp (e : PassEnv) : Prop where
  nodup : e.oj.Nodup
  pre_j : ∀ s, (e.g0 s).dp (1 - e.i) = e.lbl → e.Ej s = []
  step_i : ∀ y, e.prot_i y → ∀ x ∈ e.Ei y, e.prot_j x
  step_j : ∀ z, e.prot_j z → e.Ej z ≠ [] → ∃ x ∈ e.Ej z, e.prot_i x

/-- The invariant of a propagation loop; `rem` is the part of the innermost
loop's list that is still to be traversed (`[]` outside that loop). -/
structure PassInv (e : PassEnv) (rem : List Nat) (ss : SolveState) : Prop where
  queue : ∀ x ∈ ss.q, (ss.g_states x).dp (1 - e.i) = e.lbl
  frame_i : ∀ s, e.Ei s = [] → (ss.g_states s).dp e.i = (e.g0 s).dp e.i ∧
    (ss.g_states s).depth e.i = (e.g0 s).depth e.i
  frame_j : ∀ s, e.Ej s = [] → (ss.g_states s).dp (1 - e.i) = (e.g0 s).dp (1 - e.i) ∧
    (ss.g_states s).depth (1 - e.i) = (e.g0 s).depth (1 - e.i)
  keep_i : ∀ s, (ss.g_states s).dp e.i ≠ e.lbl →
    (ss.g_states s).dp e.i = (e.g0 s).dp e.i ∧ (ss.g_states s).depth e.i = (e.g0 s).depth e.i
  keep_j : ∀ s, (ss.g_states s).dp (1 - e.i) ≠ e.lbl →
    (ss.g_states s).dp (1 - e.i) = (e.g0 s).dp (1 - e.i) ∧
    (ss.g_states s).depth (1 - e.i) = (e.g0 s).depth (1 - e.i)
  sound_i : ∀ y, fresh e.lbl e.i e.g0 ss.g_states y = true →
    ∃ x ∈ e.Ei y, (ss.g_states x).dp (1 - e.i) = e.lbl ∧
      (ss.g_states y).depth e.i = ((ss.g_states x).depth (1 - e.i) + 1) % 65536
  sound_j : ∀ z, fresh e.lbl (1 - e.i) e.g0 ss.g_states z = true →
    (∀ y ∈ e.Ej z, fresh e.lbl e.i e.g0 ss.g_states y = true) ∧
    ∃ y ∈ e.Ej z, (ss.g_states z).depth (1 - e.i) = ((ss.g_states y).depth e.i + 1) % 65536
  count : ∀ z ∈ e.oj, ss.need z (1 - e.i) =
    ((e.Ej z).length : Int) - ((e.Ej z).countP (fresh e.lbl e.i e.g0 ss.g_states) : Int) +
      (rem.count z : Int)
  need_out : ∀ z, z ∉ e.oj → ss.need z (1 - e.i) = e.need0 z (1 - e.i)
  need_other : ∀ z p, p ≠ 1 - e.i → ss.need z p = e.need0 z p
  safe_i : ∀ s, e.prot_i s → (ss.g_states s).dp e.i ≠ e.lbl
  safe_j : ∀ s, e.prot_j s → (ss.g_states s).dp (1 - e.i) ≠ e.lbl
  rem_unl : ∀ z ∈ rem, (ss.g_states z).dp (1 - e.i) ≠ e.lbl

/-- A bound on the number of iterations that a propagation loop still makes:
the length of the queue plus the number of states of the traversal order
whose counter is still positive. -/
def pending (oj : List Nat) (i : Nat) (ss : SolveState) : Nat :=
  ss.q.length + oj.countP (fun z => decide (0 < ss.need z (1 - i)))

/-- What `solve` uses of the containers built by `train`: the labels written
by `train` and the absence of edges out of the terminal states. -/
structure GraphInv (st : TrainState) : Prop where
  wins_label : ∀ s ∈ st.g_wins, st.g_states s = StateInfo.mk 1 1 0 0
  loses_label : ∀ s ∈ st.g_loses, st.g_states s = StateInfo.mk (-1) (-1) 0 0
  other_label : ∀ s, s ∉ st.g_wins → s ∉ st.g_loses → st.g_states s = StateInfo.zero
  wins_edge : ∀ s ∈ st.g_wins, st.g_edge0 s = [] ∧ st.g_edge1 s = []
  loses_edge : ∀ s ∈ st.g_loses, st.g_edge0 s = [] ∧ st.g_edge1 s = []

/-- The initial counters of `solve`: `need[s] = {|g_edge0[s]|, |g_edge1[s]|}`. -/
def solve_need (st : TrainState) : Nat → Nat → Int :=
  fun s p => if p = 0 then ((st.g_edge0 s).length : Int) else ((st.g_edge1 s).length : Int)

/-- The state of `solve` after its first loop, the win propagation. -/
def win_pass (st : TrainState) (order0 order1 wins : List Nat) : SolveState :=
  pass_loop 1 0 (reverse_edges order0 st.g_edge0) (reverse_edges order1 st.g_edge1)
    (wins.length + order1.length) (SolveState.mk st.g_states (solve_need st) wins)

/-- The data of the win propagation: nothing is protected. -/
def win_env (st : TrainState) (order0 order1 : List Nat) : PassEnv :=
  PassEnv.mk 1 0 st.g_edge0 st.g_edge1 order0 order1 (fun _ => False) (fun _ => False)
    st.g_states (solve_need st)

/-- The data of the lose propagation: the labels `+1` that the win
propagation left are protected. -/
def lose_env (st : TrainState) (order0 order1 wins : List Nat) : PassEnv :=
  PassEnv.mk (-1) 1 st.g_edge1 st.g_edge0 order1 order0
    (fun s => ((win_pass st order0 order1 wins).g_states s).dp 1 = 1)
    (fun s => ((win_pass st order0 order1 wins).g_states s).dp 0 = 1)
    (win_pass st order0 order1 wins).g_states (win_pass st order0 order1 wins).need

/-- The tests of `add_edge` on the target code: both halves decode, the
lengths are `lx = ly` or `lx = ly + 1`, and the halves do not overlap. -/
def edge_ok (b : Params) (to_s : Nat) : Bool :=
  match decode_list b (to_s / b.SEPARATOR) with
  | none => false
  | some x =>
    match decode_list b (to_s % b.SEPARATOR) with
    | none => false
    | some y =>
      if x.length ≠ y.length ∧ x.length ≠ y.length + 1 then false
      else if overlap x y then false
      else true

/-- The edge of player `p` that one iteration of the cell loop of `train`
appends for the state `(cx, cy)` and the cell `t`: none when the cell is
occupied or `add_edge` rejects the target. -/
def cell_edges (b : Params) (p : Nat) (cx cy : List Nat) (t : Nat) : List Nat :=
  if (board_of b cx cy).getD t 0 ≠ 0 then []
  else if p = 0 then
    if edge_ok b (canonicalize b (place b cx t) cy).code then
      [(canonicalize b (place b cx t) cy).code]
    else []
  else
    if edge_ok b (canonicalize b cx (place b cy t)).code then
      [(canonicalize b cx (place b cy t)).code]
    else []

/-- The edges of player `p` that the cell loop of `train` appends for the
state with code `c`, in the order of the cells. -/
def successors (b : Params) (p : Nat) (c : Nat) : List Nat :=
  match decode_list b (c / b.SEPARATOR), decode_list b (c % b.SEPARATOR) with
  | some x, some y => (List.range b.CELLS).flatMap (cell_edges b p x y)
  | _, _ => []

/-- The edge lists of every visited non-terminal code are exactly the lists
that the cell loop generates for it. -/
def EdgeInv (b : Params) (st : TrainState) : Prop :=
  ∀ s ∈ st.canons, s ∉ st.g_wins → s ∉ st.g_loses →
    st.g_edge0 s = successors b 0 s ∧ st.g_edge1 s = successors b 1 s

/-- The completeness side of a propagation loop. A state that carries the
label at index `1 - i` is on the queue, is being processed (`hold`), or all
its predecessors along `er` carry the label at index `i`; and a state with
an edge whose counter is not positive carries the label at index `1 - i`. -/
def PassDone (lbl : Int) (i : Nat) (er : Nat → List Nat) (oj : List Nat)
    (Ej : Nat → List Nat) (hold : List Nat) (ss : SolveState) : Prop :=
  (∀ s, (ss.g_states s).dp (1 - i) = lbl →
    s ∈ ss.q ∨ s ∈ hold ∨ ∀ y ∈ er s, (ss.g_states y).dp i = lbl) ∧
  (∀ z ∈ oj, Ej z ≠ [] → ss.need z (1 - i) ≤ 0 → (ss.g_states z).dp (1 - i) = lbl)

/-- A decision procedure for `Stored`: both halves of the code decode, the
pair is legal with `lx = ly` or `lx = ly + 1`, and the code is canonical. -/
def stored_ok (b : Params) (c : Nat) : Bool :=
  match decode_list b (c / b.SEPARATOR), decode_list b (c % b.SEPARATOR) with
  | some x, some y =>
    decide (x.Nodup) && decide (y.Nodup) && !(overlap x y) &&
      decide (x.length ≤ b.MAX_MOVE) && decide (y.length ≤ b.MAX_MOVE) &&
      x.all (fun p => decide (p < b.CELLS)) && y.all (fun p => decide (p < b.CELLS)) &&
      decide (x.length = y.length ∨ x.length = y.length + 1) &&
      decide ((canonicalize b x y).code = c)
  | _, _ => false

/-- One step of the check of a strategy certificate. An entry `(0, c)` is a
non-terminal stored state from which one generated player-0 edge leads to a
state already listed with index 1; an entry `(1, c)` is a stored state that
`check_result` classifies `+1`, or a non-terminal stored state with
generated player-1 edges that all lead to states already listed with index
0. The accumulator holds the lists of index 0 and of index 1. -/
def cert_step (b : Params) (acc : Option (List Nat × List Nat)) (e : Nat × Nat) :
    Option (List Nat × List Nat) :=
  match acc with
  | none => none
  | some w =>
    if e.1 = 0 then
      if stored_ok b e.2 && decide (verdict b e.2 = 0) &&
          (successors b 0 e.2).any (fun x => w.2.contains x) then
        some (e.2 :: w.1, w.2)
      else none
    else if stored_ok b e.2 && decide (verdict b e.2 = 1) then some (w.1, e.2 :: w.2)
    else if stored_ok b e.2 && decide (verdict b e.2 = 0) &&
        !(successors b 1 e.2).isEmpty && (successors b 1 e.2).all (fun t => w.1.contains t) then
      some (w.1, e.2 :: w.2)
    else none

/-- The check of a strategy certificate, entry after entry. -/
def cert_check (b : Params) (cert : List (Nat × Nat)) : Option (List Nat × List Nat) :=
  cert.foldl (cert_step b) (some ([], []))

/-- The certificate is accepted and lists `c` with index 0. -/
def cert_wins (b : Params) (cert : List (Nat × Nat)) (c : Nat) : Bool :=
  match cert_check b cert with
  | some w => w.1.contains c
  | none => false

/-- A strategy for X on the 3x3 board from the empty board (code 0), as a
certificate: the states that the strategy can reach, from the terminal
states upwards, each with the index of the player to move. -/
def win_cert_3x3 : List (Nat × Nat) :=
  [(1, 123458), (1, 123468), (1, 123568), (1, 123658), (1, 123768), (1, 123958), (1, 132045), (1,
   132046), (1, 132048), (1, 132056), (1, 132058), (1, 132065), (1, 132068), (1, 132075), (1,
   132076), (1, 132078), (1, 132085), (1, 132086), (1, 132095), (1, 132096), (1, 132098), (1,
   132486), (1, 132786), (1, 132986), (1, 159238), (1, 159276), (1, 159376), (1, 195263), (1,
   195387), (1, 195687), (1, 213467), (1, 213476), (1, 213495), (1, 213567), (1, 213594), (1,
   213794), (1, 213795), (1, 213867), (1, 213876), (1, 213894), (1, 213895), (1, 258013), (1,
   258017), (1, 258019), (1, 258041), (1, 258043), (1, 258047), (1, 258049), (1, 258071), (1,
   258073), (1, 258079), (1, 285149), (1, 285167), (1, 285179), (1, 285479), (1, 285497), (1,
   285749), (1, 519283), (1, 519683), (0, 12045), (0, 12048), (0, 12054), (0, 12058), (0, 12064),
   (0, 12065), (0, 12068), (0, 12074), (0, 12075), (0, 12078), (0, 12084), (0, 12085), (0, 12094),
   (0, 12095), (0, 12098), (0, 52013), (0, 52017), (0, 52019), (0, 52041), (0, 52043), (0, 52047),
   (0, 52049), (0, 52071), (0, 52073), (0, 52079), (0, 125684), (0, 125784), (0, 125984), (0,
   135476), (0, 135876), (0, 136495), (0, 136594), (0, 136794), (0, 136795), (0, 136894), (0,
   136895), (0, 139467), (0, 139567), (0, 139867), (0, 156247), (0, 156347), (0, 156847), (0,
   193467), (0, 193867), (0, 217548), (0, 217648), (0, 217948), (0, 219458), (0, 219658), (0,
   219758), (0, 254361), (0, 254761), (0, 254961), (0, 257431), (0, 257631), (0, 257931), (0,
   512634), (0, 512734), (0, 512834), (1, 125843), (1, 139672), (1, 217483), (1, 219583), (1,
   257318), (0, 136294), (0, 139267), (0, 193567), (0, 254861), (0, 512934), (1, 136094), (1,
   139675), (1, 193672), (1, 254061), (1, 512034), (0, 12034), (0, 12038), (0, 52081), (0, 135276),
   (0, 136295), (1, 12004), (1, 12008), (1, 52001), (1, 135769), (1, 136095), (0, 2001), (0, 2004),
   (0, 2008), (0, 12035), (0, 156947), (1, 12005), (1, 156047), (0, 2005), (0, 52087), (1, 52007),
   (0, 2007), (1, 2000), (0, 0)]


/-- The transform of index `t` as a map on the cells of the 4x4 board. -/
def cell_map (t : Fin 8) (p : Fin 16) : Fin 16 :=
  ⟨transform train_4x4_m4 t p % 16, Nat.mod_lt _ (by decide)⟩

/-- The composition table of the eight transforms of the 4x4 board:
entry `(s, t)` is the index of `T_s ∘ T_t`. -/
def SYM_MUL : List (List Nat) :=
  [[0, 1, 2, 3, 4, 5, 6, 7], [1, 2, 3, 0, 7, 6, 4, 5], [2, 3, 0, 1, 5, 4, 7, 6],
   [3, 0, 1, 2, 6, 7, 5, 4], [4, 6, 5, 7, 0, 2, 1, 3], [5, 7, 4, 6, 2, 0, 3, 1],
   [6, 5, 7, 4, 3, 1, 0, 2], [7, 4, 6, 5, 1, 3, 2, 0]]

/-- The index of the composition `T_s ∘ T_t`. -/
def sym_mul (s t : Fin 8) : Fin 8 :=
  ⟨(SYM_MUL.getD s []).getD t 0 % 8, Nat.mod_lt _ (by decide)⟩

/-- The index of the inverse of `T_t`: the rotations by a quarter turn are
inverse to each other, every other transform is an involution. -/
def sym_inv (t : Fin 8) : Fin 8 :=
  ⟨([0, 3, 2, 1, 4, 5, 6, 7] : List Nat).getD t 0 % 8, Nat.mod_lt _ (by decide)⟩

/-- The eight symmetries of the 4x4 board, by their index in `TRANSFORMS`. -/
structure Sym8 where
  idx : Fin 8
deriving DecidableEq

instance : Fintype Sym8 :=
  Fintype.ofEquiv (Fin 8) ⟨Sym8.mk, Sym8.idx, fun _ => rfl, fun _ => rfl⟩

/-- The symmetries form a group under composition. -/
instance : Group Sym8 where
  mul a b := ⟨sym_mul a.idx b.idx⟩
  one := ⟨0⟩
  inv a := ⟨sym_inv a.idx⟩
  mul_assoc := by
    rintro ⟨a⟩ ⟨b⟩ ⟨c⟩
    show Sym8.mk (sym_mul (sym_mul a b) c) = Sym8.mk (sym_mul a (sym_mul b c))
    congr 1
    revert a b c
    decide!
  one_mul := by
    rintro ⟨a⟩
    show Sym8.mk (sym_mul 0 a) = Sym8.mk a
    congr 1
    revert a
    decide!
  mul_one := by
    rintro ⟨a⟩
    show Sym8.mk (sym_mul a 0) = Sym8.mk a
    congr 1
    revert a
    decide!
  inv_mul_cancel := by
    rintro ⟨a⟩
    show Sym8.mk (sym_mul (sym_inv a) a) = Sym8.mk 0
    congr 1
    revert a
    decide!

/-- A state of the 4x4 board as the number `k <= 8` of its pieces and the
injective sequence of their cells (the pieces of X first). -/
structure Placement where
  k : Fin 9
  cells : Fin k ↪ Fin 16

/-- A symmetry as an embedding of the cells. -/
def cell_emb (g : Sym8) : Fin 16 ↪ Fin 16 :=
  ⟨cell_map g.idx, by
    intro p q
    have : ∀ t : Fin 8, ∀ p q : Fin 16, cell_map t p = cell_map t q → p = q := by decide!
    exact this g.idx p q⟩

/-- The symmetries act on the placements cell by cell. -/
instance : MulAction Sym8 Placement where
  smul g z := ⟨z.k, z.cells.trans (cell_emb g)⟩
  one_smul := by
    rintro ⟨k, f⟩
    show Placement.mk k (f.trans (cell_emb 1)) = Placement.mk k f
    congr 1
    ext i
    have : ∀ p : Fin 16, cell_map 0 p = p := by decide!
    exact congrArg Fin.val (this (f i))
  mul_smul := by
    rintro ⟨a⟩ ⟨b⟩ ⟨k, f⟩
    show Placement.mk k (f.trans (cell_emb ⟨sym_mul a b⟩)) =
      Placement.mk k ((f.trans (cell_emb ⟨b⟩)).trans (cell_emb ⟨a⟩))
    congr 1
    ext i
    have : ∀ s t : Fin 8, ∀ p : Fin 16,
        cell_map (sym_mul s t) p = cell_map s (cell_map t p) := by decide!
    exact congrArg Fin.val (this a b (f i))

/-- The cells of a placement in order. -/
def Placement.toList (z : Placement) : List Nat :=
  List.ofFn (fun i => (z.cells i).val)

/-- The sequence of X of a placement: the first `(k + 1) / 2` cells. -/
def Placement.xs (z : Placement) : List Nat :=
  z.toList.take ((z.k.val + 1) / 2)

/-- The sequence of Y of a placement: the remaining cells. -/
def Placement.ys (z : Placement) : List Nat :=
  z.toList.drop ((z.k.val + 1) / 2)

/-- The canonical code of the state of a placement. -/
def Placement.code (z : Placement) : Nat :=
  (canonicalize train_4x4_m4 z.xs z.ys).code

/-- The constant `EXPECTED_COUNT` of `merge_training_data.cpp`. -/
def EXPECTED_COUNT : Nat := 72864169

/-- The events of a propagation loop of `solve`, in the order of the
statements that produce them: `q.pop()` of the front `x`; the two
assignments `g_states[s].dp[idx] = lbl; g_states[s].depth[idx] =
g_states[parent].depth[pidx] + 1;` with the value `d` that is stored;
`--need[z][p]` with the new value `v`; and `q.push(z)`. -/
inductive Event where
  | pop (x : Nat)
  | write (s idx : Nat) (lbl : Int) (d : Nat) (parent pidx : Nat)
  | dec (z p : Nat) (v : Int)
  | push (z : Nat)
deriving DecidableEq

/-- The events of the innermost loop over the list `zs`, from the state
`ss`: each iteration decrements `need[z][1 - i]`, and when the counter
becomes zero pushes `z` and writes its label and depth. -/
def inner_trace (lbl : Int) (i y : Nat) : List Nat → SolveState → List Event
  | [], _ => []
  | z :: rest, ss =>
    (Event.dec z (1 - i) (ss.need z (1 - i) - 1) ::
      (if ss.need z (1 - i) - 1 = 0 then
        [Event.push z,
          Event.write z (1 - i) lbl (((ss.g_states y).depth i + 1) % 65536) y i]
      else [])) ++
    inner_trace lbl i y rest (pass_inner lbl i y ss z)

/-- The events of the middle loop over the list `ys`, from the state `ss`: an
iteration that does not `continue` writes the label and depth of `y` and runs
the innermost loop. -/
def mid_trace (lbl : Int) (i : Nat) (er_other : Nat → List Nat) (x : Nat) :
    List Nat → SolveState → List Event
  | [], _ => []
  | y :: rest, ss =>
    (if (ss.g_states y).dp i = lbl then []
    else
      Event.write y i lbl (((ss.g_states x).depth (1 - i) + 1) % 65536) x (1 - i) ::
        inner_trace lbl i y (er_other y)
          (SolveState.mk
            (upd ss.g_states y
              ((ss.g_states y).label i lbl (((ss.g_states x).depth (1 - i) + 1) % 65536)))
            ss.need ss.q)) ++
    mid_trace lbl i er_other x rest (pass_mid lbl i er_other x ss y)

/-- The events of a loop `while (!q.empty())` of `solve`, with the fuel of
`pass_loop`. -/
def loop_trace (lbl : Int) (i : Nat) (er er_other : Nat → List Nat) :
    Nat → SolveState → List Event
  | 0, _ => []
  | fuel + 1, ss =>
    match ss.q with
    | [] => []
    | x :: rest =>
      Event.pop x ::
        (mid_trace lbl i er_other x (er x) (SolveState.mk ss.g_states ss.need rest) ++
          loop_trace lbl i er er_other fuel
            ((er x).foldl (pass_mid lbl i er_other x) (SolveState.mk ss.g_states ss.need rest)))

/-- The events of the win propagation of `solve`: the pushes of
`for (uint64_t s : g_wins) q.push(s);` and then the loop. -/
def win_trace (st : TrainState) (order0 order1 wins : List Nat) : List Event :=
  wins.map Event.push ++
    loop_trace 1 0 (reverse_edges order0 st.g_edge0) (reverse_edges order1 st.g_edge1)
      (wins.length + order1.length) (SolveState.mk st.g_states (solve_need st) wins)

/-- The events of the lose propagation of `solve`: the pushes of
`for (uint64_t s : g_loses) q.push(s);` and then the loop. -/
def lose_trace (st : TrainState) (order0 order1 wins loses : List Nat) : List Event :=
  loses.map Event.push ++
    loop_trace (-1) 1 (reverse_edges order1 st.g_edge1) (reverse_edges order0 st.g_edge0)
      ((win_pass st order0 order1 wins).q.length + loses.length + order0.length)
      (SolveState.mk (win_pass st order0 order1 wins).g_states
        (win_pass st order0 order1 wins).need ((win_pass st order0 order1 wins).q ++ loses))

/-- The pair `(s, idx)` that a write event assigns. -/
def Event.written : Event → Option (Nat × Nat)
  | Event.write s idx _ _ _ _ => some (s, idx)
  | _ => none

/-- The pairs `(state, index)` assigned by the events, in order. -/
def writes (tr : List Event) : List (Nat × Nat) :=
  tr.filterMap Event.written

/-- The state that a push event appends to the queue. -/
def Event.pushed : Event → Option Nat
  | Event.push z => some z
  | _ => none

/-- The states pushed by the events, in order. -/
def pushes (tr : List Event) : List Nat :=
  tr.filterMap Event.pushed

/-- The state that a pop event takes from the queue. -/
def Event.popped : Event → Option Nat
  | Event.pop x => some x
  | _ => none

/-- The states popped by the events, in order. -/
def pops (tr : List Event) : List Nat :=
  tr.filterMap Event.popped

/-- The event decrements `need[z][p]`. -/
def Event.is_dec (z p : Nat) : Event → Bool
  | Event.dec z1 p1 _ => decide (z1 = z ∧ p1 = p)
  | _ => false

/-- The number of decrements of `need[z][p]` among the events. -/
def decs (tr : List Event) (z p : Nat) : Nat :=
  tr.countP (Event.is_dec z p)

/-- A write event stores a depth that is not zero: the `uint16_t` increment
did not wrap around. -/
def Event.no_wrap : Event → Prop
  | Event.write _ _ _ d _ _ => d ≠ 0
  | _ => True

/-- The labels of `g` persist in `g2`: a pair that carries the label `lbl`
in `g` carries it in `g2` with the same depth. -/
def Persist (lbl : Int) (g g2 : Nat → StateInfo) : Prop :=
  ∀ s k, (g s).dp k = lbl → (g2 s).dp k = lbl ∧ (g2 s).depth k = (g s).depth k

/-- What a run of events `tr` of a propagation loop does to the labels, from
`g` before it to `g2` after it. Every write event stores the label of the
loop on a pair that did not carry it, the pair carries it afterwards with the
depth stored, the parent is a successor along an edge of the right player,
carries the label and has the depth that was incremented; no pair is written
twice; every pair that gained the label was written; and the labels of `g`
persist. -/
structure SegOK (e : PassEnv) (g g2 : Nat → StateInfo) (tr : List Event) : Prop where
  written : ∀ s k l d p pk, Event.write s k l d p pk ∈ tr →
    l = e.lbl ∧ (g s).dp k ≠ e.lbl ∧ (g2 s).dp k = e.lbl ∧ (g2 s).depth k = d ∧
      (g2 p).dp pk = e.lbl ∧ d = ((g2 p).depth pk + 1) % 65536 ∧
      ((k = e.i ∧ pk = 1 - e.i ∧ p ∈ e.Ei s) ∨ (k = 1 - e.i ∧ pk = e.i ∧ p ∈ e.Ej s))
  nodup : (writes tr).Nodup
  complete : ∀ s, ((g s).dp e.i ≠ e.lbl → (g2 s).dp e.i = e.lbl → (s, e.i) ∈ writes tr) ∧
    ((g s).dp (1 - e.i) ≠ e.lbl → (g2 s).dp (1 - e.i) = e.lbl → (s, 1 - e.i) ∈ writes tr)
  persist : Persist e.lbl g g2

/-- What a run of events does to the counters, from the counters `n` to the counters `n2`: every
counter has gone down by the number of its decrement events, and every
decrement event is on index `1 - i` and leaves a value that is not negative. -/
def DecOK (i : Nat) (n n2 : Nat → Nat → Int) (tr : List Event) : Prop :=
  (∀ t p, n2 t p = n t p - (decs tr t p : Int)) ∧
    (∀ z p v, Event.dec z p v ∈ tr → p = 1 - i ∧ 0 ≤ v)


/-- The breadth-first order of a propagation loop. `D` is the depth of the
state that is being processed (of the last one processed, between two
iterations of the outer loop; `0` at the start) and `hist` lists the states
pushed so far, the initial ones included. The queue is the end of `hist`,
its states have depth at least `D`, all pushed states carry the label and
have depth at most `D + 2`, in non-decreasing order; a state labelled in the
middle loop has depth at most `D + 1`; a state labelled in the innermost
loop is deeper than all its successors; and all depths are below `2 ^ 16`. -/
structure BfsInv (e : PassEnv) (D : Nat) (hist : List Nat) (ss : SolveState) : Prop where
  q_lo : ∀ s ∈ ss.q, D ≤ (ss.g_states s).depth (1 - e.i)
  hist_hi : ∀ s ∈ hist, (ss.g_states s).depth (1 - e.i) ≤ D + 2
  hist_lab : ∀ s ∈ hist, (ss.g_states s).dp (1 - e.i) = e.lbl
  sorted : (hist.map (fun s => (ss.g_states s).depth (1 - e.i))).Pairwise (fun a c => a ≤ c)
  suffix : ∃ done, hist = done ++ ss.q
  fresh_hi : ∀ y, fresh e.lbl e.i e.g0 ss.g_states y = true →
    (ss.g_states y).depth e.i ≤ D + 1
  lt : ∀ z, fresh e.lbl (1 - e.i) e.g0 ss.g_states z = true →
    ∀ y ∈ e.Ej z, (ss.g_states y).depth e.i < (ss.g_states z).depth (1 - e.i)
  bound : ∀ s k, (ss.g_states s).depth k < 65536

/-- The number of pairs `(state, index)` of the states of `U` that carry the
label `lbl` in `g`. -/
def labelled_count (lbl : Int) (U : List Nat) (g : Nat → StateInfo) : Nat :=
  U.countP (fun s => decide ((g s).dp 0 = lbl)) + U.countP (fun s => decide ((g s).dp 1 = lbl))

/-- The labelled states are states of `U`, and every recorded depth of a
labelled pair is below the number of labelled pairs. -/
structure CountInv (lbl : Int) (U : List Nat) (g : Nat → StateInfo) : Prop where
  mem : ∀ s k, (g s).dp k = lbl → s ∈ U
  lt : ∀ s k, (g s).dp k = lbl → (g s).depth k < labelled_count lbl U g


/-- The lists of `n` cells taken from `avail`, each cell used once. -/
def perms_from : Nat → List Nat → List (List Nat)
  | 0, _ => [[]]
  | n + 1, avail =>
    avail.flatMap (fun a => (perms_from n (avail.erase a)).map (fun t => a :: t))

/-- The move lists that can belong to a stored state of the 3x3 board: a
list holds the X sequence from its last position back to its first, followed
by the Y sequence; it is empty or starts with cell 0, 1 or 4 and has at most
five more cells. -/
def key_candidates : List (List Nat) :=
  [] :: [0, 1, 4].flatMap (fun v =>
    (List.range 6).flatMap (fun k =>
      (perms_from k ((List.range 9).erase v)).map (fun t => v :: t)))

/-- The code of the state of a move list: the first half, rounded up and
reversed, is the X sequence, the rest the Y sequence. -/
def key_of_moves (w : List Nat) : Nat :=
  encode_state train_3x3 (w.take ((w.length + 1) / 2)).reverse (w.drop ((w.length + 1) / 2))


/-- A bound on the number of iterations that the propagation of
`train_xwin.cpp` still makes on a table of `n` codes: the length of the queue
plus the number of indices that are not flagged Type B. -/
def TrainXwin.bfs_pending (n : Nat) (st : TrainXwin.BfsState) : Nat :=
  st.bfs.length + (List.range n).countP (fun k => decide (st.dp_flags k &&& 2 = 0))

/-- The records not yet used up by the merge loop: those still in the two
files and those left in the two batches. -/
def merge_pending (s : MergeState) : Nat :=
  (s.xwin.num_records - s.xwin.pos) + (s.xwin_batch.length - s.xwin_idx) +
    ((s.ywin.num_records - s.ywin.pos) + (s.ywin_batch.length - s.ywin_idx))

/-- A reader on the table `file`: the header is the number of records and the
position is within the file. -/
structure ReaderOK (file : List Record) (r : DataReader) : Prop where
  recs : r.records = file
  num : r.num_records = file.length
  pos : r.pos ≤ file.length

/-- The invariant of the merge loop on the tables `x` and `y`: an index is
within its batch, or at its end with the reader at `eof`; `written` counts
the records of `out`. -/
structure MergeInv (x y : List Record) (s : MergeState) : Prop where
  rx : ReaderOK x s.xwin
  ry : ReaderOK y s.ywin
  ix : s.xwin_idx < s.xwin_batch.length ∨
    (s.xwin_idx = s.xwin_batch.length ∧ s.xwin.eof = true)
  iy : s.ywin_idx < s.ywin_batch.length ∨
    (s.ywin_idx = s.ywin_batch.length ∧ s.ywin.eof = true)
  wr : s.written = s.out.length % UINT64_MOD
  pot : s.out.length + merge_pending s ≤ x.length + y.length

/-- The variables of `main` when the merge loop is reached: both readers
opened and their first batches read. -/
def merge_init (batch_size : Nat) (xwin_file ywin_file : List Record) : MergeState :=
  MergeState.mk ((DataReader.open_file xwin_file).read_batch batch_size).1
    ((DataReader.open_file ywin_file).read_batch batch_size).1
    ((DataReader.open_file xwin_file).read_batch batch_size).2.1
    ((DataReader.open_file ywin_file).read_batch batch_size).2.1 0 0 [] 0 0 0 0

/-- The fields of a record fit their types: `uint64_t`, `int8_t`, `int8_t`,
`uint16_t`, `uint16_t`. -/
def Record.InRange (r : Record) : Prop :=
  r.state_code < UINT64_MOD ∧ -128 ≤ r.dp0 ∧ r.dp0 ≤ 127 ∧ -128 ≤ r.dp1 ∧ r.dp1 ≤ 127 ∧
    r.depth0 < 65536 ∧ r.depth1 < 65536

/-- Reading a table to its end with batches of `batch_size` records:
`read_batch` is called until it returns `false`, and the batches are
concatenated; `none` when the fuel runs out or a read fails. -/
def ByteReader.read_all (batch_size : Nat) : Nat → ByteReader → Option (List Record)
  | 0, _ => none
  | fuel + 1, r =>
    match r.read_batch batch_size with
    | none => none
    | some (r2, batch, flag) =>
      if flag then
        match ByteReader.read_all batch_size fuel r2 with
        | none => none
        | some rs => some (batch ++ rs)
      else some []

/-! ## Arithmetic of the encoding -/

theorem train_3x3_consistent : train_3x3.Consistent := by
  refine ⟨rfl, by decide, by decide, by decide⟩

theorem train_4x4_m4_consistent : train_4x4_m4.Consistent := by
  refine ⟨rfl, by decide, by decide, by decide⟩

theorem encode_loop_mod (B : Nat) (pos : List Nat) (code base : Nat) :
    encode_loop B pos code base % UINT64_MOD =
      (code + base * Nat.ofDigits B (digitsOf pos)) % UINT64_MOD := by
  induction pos generalizing code base with
  | nil => simp [encode_loop, digitsOf]
  | cons p rest ih =>
    simp only [encode_loop, digitsOf, List.map_cons, Nat.ofDigits_cons] at ih ⊢
    rw [ih]
    have h1 : (code + (p + 1) * base) % UINT64_MOD ≡ code + (p + 1) * base [MOD UINT64_MOD] :=
      Nat.mod_modEq _ _
    have h2 : (base * B) % UINT64_MOD ≡ base * B [MOD UINT64_MOD] := Nat.mod_modEq _ _
    have h3 := (h1.add (h2.mul_right (Nat.ofDigits B (List.map (· + 1) rest))))
    have h4 : code + (p + 1) * base + base * B * Nat.ofDigits B (List.map (· + 1) rest)
        = code + base * (p + 1 + B * Nat.ofDigits B (List.map (· + 1) rest)) := by ring
    rw [h4] at h3
    exact h3

theorem encode_loop_lt (B : Nat) (pos : List Nat) (code base : Nat) (h : code < UINT64_MOD) :
    encode_loop B pos code base < UINT64_MOD := by
  induction pos generalizing code base with
  | nil => simpa [encode_loop] using h
  | cons p rest ih =>
    simp only [encode_loop]
    exact ih _ _ (Nat.mod_lt _ (by decide))

theorem encode_list_eq_mod (b : Params) (pos : List Nat) :
    encode_list b pos = Nat.ofDigits b.BASE (digitsOf pos) % UINT64_MOD := by
  have h := encode_loop_mod b.BASE pos 0 1
  have hlt := encode_loop_lt b.BASE pos 0 1 (by decide)
  rw [Nat.mod_eq_of_lt hlt] at h
  simpa [encode_list] using h

theorem digitsOf_lt (C : Nat) (pos : List Nat) (h : ∀ p ∈ pos, p < C) :
    ∀ d ∈ digitsOf pos, d < C + 1 := by
  intro d hd
  simp only [digitsOf, List.mem_map] at hd
  obtain ⟨p, hp, rfl⟩ := hd
  exact Nat.succ_lt_succ (h p hp)

theorem ofDigits_digitsOf_lt (b : Params) (hb : b.Consistent) (pos : List Nat)
    (hlen : pos.length ≤ b.MAX_MOVE) (hrange : ∀ p ∈ pos, p < b.CELLS) :
    Nat.ofDigits b.BASE (digitsOf pos) < b.SEPARATOR := by
  obtain ⟨hB, hC, hS, _⟩ := hb
  have h1 : 1 < b.BASE := by omega
  have h2 : ∀ d ∈ digitsOf pos, d < b.BASE := by
    rw [hB]; exact digitsOf_lt _ _ hrange
  have h3 := Nat.ofDigits_lt_base_pow_length h1 h2
  have h4 : (digitsOf pos).length = pos.length := by simp [digitsOf]
  rw [h4] at h3
  rw [hS]
  exact lt_of_lt_of_le h3 (Nat.pow_le_pow_right (by omega) hlen)

theorem separator_lt (b : Params) (hb : b.Consistent) : b.SEPARATOR < UINT64_MOD := by
  obtain ⟨hB, hC, hS, hW⟩ := hb
  rcases Nat.eq_zero_or_pos b.SEPARATOR with h | h
  · rw [h]; decide
  · calc b.SEPARATOR = b.SEPARATOR * 1 := (Nat.mul_one _).symm
      _ ≤ b.SEPARATOR * b.SEPARATOR := Nat.mul_le_mul_left _ h
      _ < UINT64_MOD := hW

/-- Within the piece budget `encode_list` does not wrap around. -/
theorem encode_list_eq (b : Params) (hb : b.Consistent) (pos : List Nat)
    (hlen : pos.length ≤ b.MAX_MOVE) (hrange : ∀ p ∈ pos, p < b.CELLS) :
    encode_list b pos = Nat.ofDigits b.BASE (digitsOf pos) := by
  rw [encode_list_eq_mod]
  exact Nat.mod_eq_of_lt
    (lt_trans (ofDigits_digitsOf_lt b hb pos hlen hrange) (separator_lt b hb))

/-! ## The digit loop of `decode_list` -/

/-- With fuel at least `code` the digit loop returns exactly the base-`B`
digits of `code`, each lowered by one, unless one of them is zero. -/
theorem decode_loop_eq (B : Nat) (hB : 1 < B) (fuel code : Nat) (acc : List Nat)
    (hfuel : code ≤ fuel) :
    decode_loop B fuel code acc =
      if 0 ∈ Nat.digits B code then none
      else some (acc ++ (Nat.digits B code).map (· - 1)) := by
  induction fuel generalizing code acc with
  | zero =>
    have h0 : code = 0 := by omega
    subst h0
    simp [decode_loop]
  | succ fuel ih =>
    rcases Nat.eq_zero_or_pos code with h0 | hpos
    · subst h0
      simp [decode_loop]
    · have hdig := Nat.digits_def' hB hpos
      have hdiv : code / B ≤ fuel := by
        have := Nat.div_lt_self hpos hB
        omega
      simp only [decode_loop, hpos, if_true, gt_iff_lt]
      by_cases hz : code % B = 0
      · simp [hz, hdig]
      · rw [if_neg hz, ih _ _ hdiv, hdig]
        have hz' : ¬ (0 = code % B) := fun h => hz h.symm
        simp [List.mem_cons, hz']

theorem pred_map_nodup (l : List Nat) (h0 : 0 ∉ l) :
    (l.map (· - 1)).Nodup ↔ l.Nodup := by
  constructor
  · exact fun h => List.Nodup.of_map _ h
  · intro h
    refine List.Nodup.map_on ?_ h
    intro x hx y hy hxy
    have hx0 : x ≠ 0 := fun e => h0 (e ▸ hx)
    have hy0 : y ≠ 0 := fun e => h0 (e ▸ hy)
    simp only at hxy
    omega

theorem dedup_length_ne_iff {α : Type} [DecidableEq α] (l : List α) :
    l.dedup.length ≠ l.length ↔ ¬ l.Nodup := by
  constructor
  · intro h hnd
    exact h (by rw [List.dedup_eq_self.mpr hnd])
  · intro h heq
    exact h (List.dedup_eq_self.mp ((List.dedup_sublist l).eq_of_length heq))

/-- Closed form of `decode_list`: the digits of `code` lowered by one, on the
condition that no digit is zero and no digit repeats. -/
theorem decode_list_eq (b : Params) (hB : 1 < b.BASE) (code : Nat) :
    decode_list b code =
      if 0 ∈ Nat.digits b.BASE code ∨ ¬ (Nat.digits b.BASE code).Nodup then none
      else some ((Nat.digits b.BASE code).map (· - 1)) := by
  unfold decode_list
  rw [decode_loop_eq b.BASE hB code code [] (le_refl _)]
  by_cases h0 : 0 ∈ Nat.digits b.BASE code
  · simp [h0]
  · simp only [h0, if_false, List.nil_append, false_or]
    by_cases hnd : (Nat.digits b.BASE code).Nodup
    · have hmap := (pred_map_nodup _ h0).mpr hnd
      have h2 : ¬ (((Nat.digits b.BASE code).map (· - 1)).dedup.length ≠
          ((Nat.digits b.BASE code).map (· - 1)).length) :=
        fun h => (dedup_length_ne_iff _).mp h hmap
      rw [if_neg h2, if_neg (not_not.mpr hnd)]
    · have h3 : ¬ ((Nat.digits b.BASE code).map (· - 1)).Nodup :=
        fun h => hnd ((pred_map_nodup _ h0).mp h)
      have h2 := (dedup_length_ne_iff ((Nat.digits b.BASE code).map (· - 1))).mpr h3
      rw [if_pos h2, if_pos hnd]

theorem digitsOf_pred (pos : List Nat) : (digitsOf pos).map (· - 1) = pos := by
  induction pos with
  | nil => rfl
  | cons p rest ih =>
    simp only [digitsOf, List.map_cons, List.map_map] at ih ⊢
    simp [ih]

theorem zero_not_mem_digitsOf (pos : List Nat) : 0 ∉ digitsOf pos := by
  simp [digitsOf]

theorem digitsOf_nodup (pos : List Nat) (h : pos.Nodup) : (digitsOf pos).Nodup :=
  List.Nodup.map (fun _ _ h => Nat.succ.inj h) h

/-- The base-`B` digits of the uncut sum are the digits written by the encoder. -/
theorem digits_ofDigits_digitsOf (B C : Nat) (hB : B = C + 1) (hC : 1 ≤ C) (pos : List Nat)
    (hrange : ∀ p ∈ pos, p < C) :
    Nat.digits B (Nat.ofDigits B (digitsOf pos)) = digitsOf pos := by
  apply Nat.digits_ofDigits B (by omega)
  · rw [hB]; exact digitsOf_lt _ _ hrange
  · intro hne
    have hmem := List.getLast_mem hne
    intro h0
    exact zero_not_mem_digitsOf pos (h0 ▸ hmem)

/-- Decoding the uncut sum of a duplicate-free sequence in range gives the sequence back. -/
theorem decode_list_ofDigits (b : Params) (hb : b.Consistent) (pos : List Nat)
    (hrange : ∀ p ∈ pos, p < b.CELLS) (hnd : pos.Nodup) :
    decode_list b (Nat.ofDigits b.BASE (digitsOf pos)) = some pos := by
  obtain ⟨hB, hC, _, _⟩ := hb
  rw [decode_list_eq b (by omega), digits_ofDigits_digitsOf b.BASE b.CELLS hB hC pos hrange]
  simp [zero_not_mem_digitsOf, digitsOf_nodup pos hnd, digitsOf_pred]

/-- A successful decode returns the digits of the code lowered by one, none of them zero. -/
theorem decode_list_some (b : Params) (hB : 1 < b.BASE) (code : Nat) (ps : List Nat)
    (h : decode_list b code = some ps) :
    0 ∉ Nat.digits b.BASE code ∧ (Nat.digits b.BASE code).Nodup ∧
      ps = (Nat.digits b.BASE code).map (· - 1) := by
  rw [decode_list_eq b hB code] at h
  by_cases hc : 0 ∈ Nat.digits b.BASE code ∨ ¬ (Nat.digits b.BASE code).Nodup
  · rw [if_pos hc] at h
    exact absurd h (by simp)
  · rw [if_neg hc] at h
    push_neg at hc
    exact ⟨hc.1, hc.2, (Option.some.inj h).symm⟩

theorem digitsOf_pred_map (l : List Nat) (h0 : 0 ∉ l) : digitsOf (l.map (· - 1)) = l := by
  induction l with
  | nil => rfl
  | cons d rest ih =>
    have hd : d ≠ 0 := fun e => h0 (by simp [e])
    have hrest : 0 ∉ rest := fun h => h0 (List.mem_cons_of_mem _ h)
    have ih2 := ih hrest
    simp only [digitsOf, List.map_cons, List.map_map] at ih2 ⊢
    rw [ih2]
    congr 1
    omega

/-! ## The decoders of `train_xwin.cpp` and `count_canonical_4x4_m4.cpp` -/

theorem TrainXwin.decode_loop_digits (fuel code : Nat) (acc : List Int) (hfuel : code ≤ fuel) :
    TrainXwin.decode_loop fuel code acc =
      acc ++ (Nat.digits 17 code).map (fun (d : Nat) => (d : Int) - 1) := by
  induction fuel generalizing code acc with
  | zero =>
    have h0 : code = 0 := by omega
    subst h0
    simp [TrainXwin.decode_loop]
  | succ fuel ih =>
    rcases Nat.eq_zero_or_pos code with h0 | hpos
    · subst h0
      simp [TrainXwin.decode_loop]
    · have hdig := Nat.digits_def' (by decide : 1 < 17) hpos
      have hdiv : code / 17 ≤ fuel := by omega
      have hne : code ≠ 0 := by omega
      simp only [TrainXwin.decode_loop, TrainXwin.BASE, hne, ne_eq, not_false_eq_true, if_true]
      rw [ih _ _ hdiv, hdig]
      simp

theorem TrainXwin.decode_list_digits (code : Nat) :
    TrainXwin.decode_list code = (Nat.digits 17 code).map (fun (d : Nat) => (d : Int) - 1) := by
  unfold TrainXwin.decode_list
  rw [TrainXwin.decode_loop_digits code code [] (le_refl _)]
  simp

theorem CountCanonical.digit_loop_ok (fuel n : Nat) (acc : List Int) (hfuel : n ≤ fuel)
    (h0 : 0 ∉ Nat.digits 17 n) :
    CountCanonical.digit_loop fuel (n : Int) acc =
      (acc ++ (Nat.digits 17 n).map (fun (d : Nat) => (d : Int) - 1), true) := by
  induction fuel generalizing n acc with
  | zero =>
    have hn : n = 0 := by omega
    subst hn
    simp [CountCanonical.digit_loop]
  | succ fuel ih =>
    rcases Nat.eq_zero_or_pos n with hn | hpos
    · subst hn
      simp [CountCanonical.digit_loop]
    · have hdig := Nat.digits_def' (by decide : 1 < 17) hpos
      rw [hdig] at h0 ⊢
      have hd : n % 17 ≠ 0 := fun e => h0 (by simp [e])
      have hrest : 0 ∉ Nat.digits 17 (n / 17) := fun h => h0 (List.mem_cons_of_mem _ h)
      have hdiv : n / 17 ≤ fuel := by omega
      have hne : (n : Int) ≠ 0 := by omega
      have hmod : Int.tmod (n : Int) 17 = ((n % 17 : Nat) : Int) := (Int.ofNat_tmod n 17).symm
      have hdv : Int.tdiv (n : Int) 17 = ((n / 17 : Nat) : Int) := (Int.ofNat_tdiv n 17).symm
      have hmod0 : ¬ (((n % 17 : Nat) : Int) = 0) := by omega
      simp only [CountCanonical.digit_loop, hne, ne_eq, not_false_eq_true, if_true, hmod, hdv,
        hmod0, if_false]
      rw [ih _ _ hdiv hrest]
      simp

theorem CountCanonical.digit_loop_zero (fuel n : Nat) (acc : List Int) (hfuel : n ≤ fuel)
    (h0 : 0 ∈ Nat.digits 17 n) :
    (CountCanonical.digit_loop fuel (n : Int) acc).2 = false := by
  induction fuel generalizing n acc with
  | zero =>
    have hn : n = 0 := by omega
    subst hn
    simp at h0
  | succ fuel ih =>
    rcases Nat.eq_zero_or_pos n with hn | hpos
    · subst hn
      simp at h0
    · have hdig := Nat.digits_def' (by decide : 1 < 17) hpos
      rw [hdig] at h0
      have hdiv : n / 17 ≤ fuel := by omega
      have hne : (n : Int) ≠ 0 := by omega
      have hmod : Int.tmod (n : Int) 17 = ((n % 17 : Nat) : Int) := (Int.ofNat_tmod n 17).symm
      have hdv : Int.tdiv (n : Int) 17 = ((n / 17 : Nat) : Int) := (Int.ofNat_tdiv n 17).symm
      simp only [CountCanonical.digit_loop, hne, ne_eq, not_false_eq_true, if_true, hmod, hdv]
      by_cases hd : n % 17 = 0
      · have : ((n % 17 : Nat) : Int) = 0 := by omega
        rw [if_pos this]
      · have : ¬ (((n % 17 : Nat) : Int) = 0) := by omega
        rw [if_neg this]
        apply ih _ _ hdiv
        rcases List.mem_cons.mp h0 with h | h
        · exact absurd h.symm hd
        · exact h

theorem int_pred_map_nodup (l : List Nat) :
    (l.map (fun (d : Nat) => (d : Int) - 1)).Nodup ↔ l.Nodup := by
  constructor
  · exact fun h => List.Nodup.of_map _ h
  · intro h
    refine List.Nodup.map ?_ h
    intro x y hxy
    simp only at hxy
    omega

theorem int_pred_map_range (l : List Nat) (hl : ∀ d ∈ l, d < 17) (h0 : 0 ∉ l) :
    ∀ p ∈ l.map (fun (d : Nat) => (d : Int) - 1), 0 ≤ p ∧ p < 16 := by
  intro p hp
  obtain ⟨d, hd, rfl⟩ := List.mem_map.mp hp
  have h1 := hl d hd
  have h2 : d ≠ 0 := fun e => h0 (e ▸ hd)
  omega

/-- On a non-negative code without zero digit `decode_and_check` returns the
digits lowered by one, and its flag says whether the digits are distinct:
the range test never rejects. -/
theorem CountCanonical.decode_and_check_eq (n : Nat) (h0 : 0 ∉ Nat.digits 17 n) :
    CountCanonical.decode_and_check (n : Int) =
      ((Nat.digits 17 n).map (fun (d : Nat) => (d : Int) - 1), decide (Nat.digits 17 n).Nodup) := by
  unfold CountCanonical.decode_and_check
  rcases Nat.eq_zero_or_pos n with hn | hpos
  · subst hn
    simp
  · have hne : ¬ ((n : Int) = 0) := by omega
    rw [if_neg hne, Int.natAbs_ofNat, CountCanonical.digit_loop_ok n n [] (le_refl _) h0]
    simp only [List.nil_append]
    have hr := int_pred_map_range (Nat.digits 17 n)
      (fun d hd => Nat.digits_lt_base (by decide) hd) h0
    have hany : ((Nat.digits 17 n).map (fun (d : Nat) => (d : Int) - 1)).any (fun p => decide (p ≥ 16))
        = false := by
      rw [List.any_eq_false]
      intro p hp
      have := (hr p hp).2
      simp only [decide_eq_true_eq]
      omega
    by_cases hnd : (Nat.digits 17 n).Nodup
    · have hmap := (int_pred_map_nodup _).mpr hnd
      have h2 : ¬ (((Nat.digits 17 n).map (fun (d : Nat) => (d : Int) - 1)).length ≠
          ((Nat.digits 17 n).map (fun (d : Nat) => (d : Int) - 1)).dedup.length) :=
        fun h => (dedup_length_ne_iff _).mp (Ne.symm h) hmap
      rw [if_neg h2, hany]
      simp [hnd]
    · have h3 : ¬ ((Nat.digits 17 n).map (fun (d : Nat) => (d : Int) - 1)).Nodup :=
        fun h => hnd ((int_pred_map_nodup _).mp h)
      have h2 := Ne.symm ((dedup_length_ne_iff _).mpr h3)
      rw [if_pos h2]
      simp [hnd]

theorem CountCanonical.decode_and_check_zero (n : Nat) (h0 : 0 ∈ Nat.digits 17 n) :
    (CountCanonical.decode_and_check (n : Int)).2 = false := by
  unfold CountCanonical.decode_and_check
  rcases Nat.eq_zero_or_pos n with hn | hpos
  · subst hn
    simp at h0
  · have hne : ¬ ((n : Int) = 0) := by omega
    rw [if_neg hne, Int.natAbs_ofNat]
    have h := CountCanonical.digit_loop_zero n n [] (le_refl _) h0
    rcases hloop : CountCanonical.digit_loop n (n : Int) [] with ⟨ps, flag⟩
    rw [hloop] at h
    simp only at h
    subst h
    rfl

theorem base_gt_one (b : Params) (hb : b = train_3x3 ∨ b = train_4x4_m4) : 1 < b.BASE := by
  rcases hb with rfl | rfl <;> decide

theorem consistent_of_mem (b : Params) (hb : b = train_3x3 ∨ b = train_4x4_m4) :
    b.Consistent := by
  rcases hb with rfl | rfl
  · exact train_3x3_consistent
  · exact train_4x4_m4_consistent

/-! ## The symmetry tables -/

set_option maxRecDepth 100000 in
theorem transform_closed (b : Params) (hb : b = train_3x3 ∨ b = train_4x4_m4) :
    ∀ s < 8, ∀ t < 8, ∃ u < 8, ∀ p < b.CELLS,
      transform b u p = transform b s (transform b t p) := by
  rcases hb with rfl | rfl <;> decide

set_option maxRecDepth 100000 in
theorem transform_divide (b : Params) (hb : b = train_3x3 ∨ b = train_4x4_m4) :
    ∀ u < 8, ∀ t < 8, ∃ s < 8, ∀ p < b.CELLS,
      transform b s (transform b t p) = transform b u p := by
  rcases hb with rfl | rfl <;> decide

set_option maxRecDepth 100000 in
theorem transform_range (b : Params) (hb : b = train_3x3 ∨ b = train_4x4_m4) :
    ∀ t < 8, ∀ p < b.CELLS, transform b t p < b.CELLS := by
  rcases hb with rfl | rfl <;> decide

set_option maxRecDepth 100000 in
theorem transform_injective (b : Params) (hb : b = train_3x3 ∨ b = train_4x4_m4) :
    ∀ t < 8, ∀ p < b.CELLS, ∀ q < b.CELLS, transform b t p = transform b t q → p = q := by
  rcases hb with rfl | rfl <;> decide

theorem apply_transform_length (b : Params) (pos : List Nat) (t : Nat) :
    (apply_transform b pos t).length = pos.length := by
  simp [apply_transform]

theorem apply_transform_range (b : Params) (hb : b = train_3x3 ∨ b = train_4x4_m4)
    (pos : List Nat) (hrange : ∀ p ∈ pos, p < b.CELLS) (t : Nat) (ht : t < 8) :
    ∀ p ∈ apply_transform b pos t, p < b.CELLS := by
  intro p hp
  obtain ⟨q, hq, rfl⟩ := List.mem_map.mp hp
  exact transform_range b hb t ht q (hrange q hq)

theorem apply_transform_nodup (b : Params) (hb : b = train_3x3 ∨ b = train_4x4_m4)
    (pos : List Nat) (hrange : ∀ p ∈ pos, p < b.CELLS) (hnd : pos.Nodup) (t : Nat) (ht : t < 8) :
    (apply_transform b pos t).Nodup := by
  refine List.Nodup.map_on ?_ hnd
  intro p hp q hq hpq
  exact transform_injective b hb t ht p (hrange p hp) q (hrange q hq) hpq

theorem apply_transform_comp (b : Params) (pos : List Nat) (hrange : ∀ p ∈ pos, p < b.CELLS)
    (s t u : Nat) (h : ∀ p < b.CELLS, transform b u p = transform b s (transform b t p)) :
    apply_transform b (apply_transform b pos t) s = apply_transform b pos u := by
  simp only [apply_transform, List.map_map]
  apply List.map_congr_left
  intro p hp
  exact (h p (hrange p hp)).symm

/-! ## The loop of `canonicalize` -/

theorem code_at_le (b : Params) (x y : List Nat) (t : Nat) : code_at b x y t ≤ UINT64_MAX := by
  have h : code_at b x y t < UINT64_MOD := Nat.mod_lt _ (by decide)
  have h2 : UINT64_MOD = UINT64_MAX + 1 := by decide
  omega

/-- Invariant of the loop of `canonicalize` after the transforms `0 .. n-1`. -/
theorem canonicalize_fold_inv (b : Params) (x y : List Nat) (n : Nat) :
    ∀ r, r = (List.range n).foldl (canonicalize_step b x y) (CanonResult.mk [] [] 0 UINT64_MAX) →
      r.code ≤ UINT64_MAX ∧ (∀ t < n, r.code ≤ code_at b x y t) ∧
      (∀ t < r.trans_id, r.code < code_at b x y t) ∧
      (r.code < UINT64_MAX → r.trans_id < n ∧ r.code = code_at b x y r.trans_id ∧
        r.x = apply_transform b x r.trans_id ∧ r.y = apply_transform b y r.trans_id) ∧
      (r.code = UINT64_MAX → r.trans_id = 0) := by
  induction n with
  | zero =>
    intro r hr
    subst hr
    simp
  | succ n ih =>
    intro r hr
    rw [List.range_succ, List.foldl_append] at hr
    obtain ⟨h1, h2, h3, h4, h5⟩ := ih _ rfl
    generalize (List.range n).foldl (canonicalize_step b x y) (CanonResult.mk [] [] 0 UINT64_MAX)
      = r0 at hr h1 h2 h3 h4 h5
    simp only [List.foldl_cons, List.foldl_nil, canonicalize_step] at hr
    have hfold : encode_state b (apply_transform b x n) (apply_transform b y n)
        = code_at b x y n := rfl
    rw [hfold] at hr
    have hcn := code_at_le b x y n
    by_cases hlt : code_at b x y n < r0.code
    · rw [if_pos hlt] at hr
      subst hr
      refine ⟨hcn, ?_, ?_, ?_, ?_⟩
      · intro t ht
        rcases Nat.lt_succ_iff_lt_or_eq.mp ht with h | h
        · exact le_of_lt (lt_of_lt_of_le hlt (h2 t h))
        · subst h; exact le_refl _
      · intro t ht
        exact lt_of_lt_of_le hlt (h2 t ht)
      · intro _
        exact ⟨Nat.lt_succ_self n, rfl, rfl, rfl⟩
      · intro h
        simp only at h
        omega
    · rw [if_neg hlt] at hr
      subst hr
      refine ⟨h1, ?_, h3, ?_, h5⟩
      · intro t ht
        rcases Nat.lt_succ_iff_lt_or_eq.mp ht with h | h
        · exact h2 t h
        · subst h; exact Nat.le_of_not_lt hlt
      · intro h
        obtain ⟨ha, hb, hc, hd⟩ := h4 h
        exact ⟨Nat.lt_succ_of_lt ha, hb, hc, hd⟩

/-- The returned code is a lower bound of the eight codes. -/
theorem canonicalize_code_le (b : Params) (x y : List Nat) :
    ∀ t < 8, (canonicalize b x y).code ≤ code_at b x y t :=
  (canonicalize_fold_inv b x y 8 _ rfl).2.1

/-- The returned index is below 8, attains the returned code, and every
smaller index gives a strictly larger code. -/
theorem canonicalize_trans_id (b : Params) (x y : List Nat) :
    (canonicalize b x y).trans_id < 8 ∧
      code_at b x y (canonicalize b x y).trans_id = (canonicalize b x y).code ∧
      ∀ t < (canonicalize b x y).trans_id, (canonicalize b x y).code < code_at b x y t := by
  obtain ⟨h1, h2, h3, h4, h5⟩ := canonicalize_fold_inv b x y 8 (canonicalize b x y) rfl
  rcases Nat.lt_or_ge (canonicalize b x y).code UINT64_MAX with hlt | hge
  · obtain ⟨ha, hb, _, _⟩ := h4 hlt
    exact ⟨ha, hb.symm, h3⟩
  · have heq : (canonicalize b x y).code = UINT64_MAX := le_antisymm h1 hge
    have h0 := h5 heq
    refine ⟨by omega, ?_, h3⟩
    rw [h0]
    have hle := h2 0 (by decide)
    have hge0 := code_at_le b x y 0
    omega

/-! ## The state code and its two halves -/

theorem separator_pos (b : Params) (hb : b.Consistent) : 0 < b.SEPARATOR := by
  obtain ⟨hB, hC, hS, _⟩ := hb
  rw [hS]
  exact Nat.pow_pos (by omega)

/-- Within the piece budget `encode_state` does not wrap around. -/
theorem encode_state_eq (b : Params) (hb : b.Consistent) (x y : List Nat)
    (hxl : x.length ≤ b.MAX_MOVE) (hxr : ∀ p ∈ x, p < b.CELLS)
    (hyl : y.length ≤ b.MAX_MOVE) (hyr : ∀ p ∈ y, p < b.CELLS) :
    encode_state b x y = encode_list b x * b.SEPARATOR + encode_list b y ∧
      encode_list b x < b.SEPARATOR ∧ encode_list b y < b.SEPARATOR := by
  have hx := ofDigits_digitsOf_lt b hb x hxl hxr
  have hy := ofDigits_digitsOf_lt b hb y hyl hyr
  rw [← encode_list_eq b hb x hxl hxr] at hx
  rw [← encode_list_eq b hb y hyl hyr] at hy
  refine ⟨?_, hx, hy⟩
  unfold encode_state
  apply Nat.mod_eq_of_lt
  have hW := hb.2.2.2
  have h1 : encode_list b x * b.SEPARATOR + encode_list b y
      < (encode_list b x + 1) * b.SEPARATOR := by
    rw [Nat.add_mul, Nat.one_mul]
    exact Nat.add_lt_add_left hy _
  have h2 : (encode_list b x + 1) * b.SEPARATOR ≤ b.SEPARATOR * b.SEPARATOR :=
    Nat.mul_le_mul_right _ hx
  exact lt_of_lt_of_le h1 (le_trans h2 (le_of_lt hW))

theorem encode_state_div (b : Params) (hb : b.Consistent) (x y : List Nat)
    (hxl : x.length ≤ b.MAX_MOVE) (hxr : ∀ p ∈ x, p < b.CELLS)
    (hyl : y.length ≤ b.MAX_MOVE) (hyr : ∀ p ∈ y, p < b.CELLS) :
    encode_state b x y / b.SEPARATOR = encode_list b x := by
  obtain ⟨h1, _, h3⟩ := encode_state_eq b hb x y hxl hxr hyl hyr
  rw [h1, Nat.mul_comm, Nat.mul_add_div (separator_pos b hb), Nat.div_eq_of_lt h3,
    Nat.add_zero]

theorem encode_state_mod (b : Params) (hb : b.Consistent) (x y : List Nat)
    (hxl : x.length ≤ b.MAX_MOVE) (hxr : ∀ p ∈ x, p < b.CELLS)
    (hyl : y.length ≤ b.MAX_MOVE) (hyr : ∀ p ∈ y, p < b.CELLS) :
    encode_state b x y % b.SEPARATOR = encode_list b y := by
  obtain ⟨h1, _, h3⟩ := encode_state_eq b hb x y hxl hxr hyl hyr
  rw [h1, Nat.mul_comm, Nat.mul_add_mod, Nat.mod_eq_of_lt h3]

/-- Decoding the code of a sequence in range: the sequence itself when it is
duplicate-free, illegal otherwise. -/
theorem decode_list_of_encode_list (b : Params) (hb : b.Consistent) (pos : List Nat)
    (hlen : pos.length ≤ b.MAX_MOVE) (hrange : ∀ p ∈ pos, p < b.CELLS) :
    decode_list b (encode_list b pos) = if pos.Nodup then some pos else none := by
  by_cases hnd : pos.Nodup
  · rw [if_pos hnd, encode_list_eq b hb pos hlen hrange]
    exact decode_list_ofDigits b hb pos hrange hnd
  · rw [if_neg hnd, encode_list_eq b hb pos hlen hrange]
    obtain ⟨hB, hC, _, _⟩ := hb
    rw [decode_list_eq b (by omega), digits_ofDigits_digitsOf b.BASE b.CELLS hB hC pos hrange]
    have h : ¬ (digitsOf pos).Nodup := fun h => hnd (List.Nodup.of_map _ h)
    rw [if_pos (Or.inr h)]

/-! ## `train_xwin.cpp` against the explicit 4x4 trainer -/

theorem TrainXwin.encode_loop_cast (pos : List Nat) (hrange : ∀ p ∈ pos, p < 16)
    (code base : Nat) :
    TrainXwin.encode_loop (pos.map (fun (p : Nat) => (p : Int))) code base =
      TicTacToe.encode_loop 17 pos code base := by
  induction pos generalizing code base with
  | nil => rfl
  | cons p rest ih =>
    have hp : p < 16 := hrange p (List.mem_cons_self _ _)
    have hcast : (((p : Int) + 1) % (UINT64_MOD : Int)).toNat = p + 1 := by
      simp only [UINT64_MOD]
      omega
    simp only [List.map_cons, TrainXwin.encode_loop, TicTacToe.encode_loop, hcast,
      TrainXwin.BASE]
    exact ih (fun q hq => hrange q (List.mem_cons_of_mem _ hq)) _ _

theorem TrainXwin.encode_cast (pos : List Nat) (hrange : ∀ p ∈ pos, p < 16) :
    TrainXwin.encode (pos.map (fun (p : Nat) => (p : Int))) = encode_list train_4x4_m4 pos :=
  TrainXwin.encode_loop_cast pos hrange 0 1

theorem TrainXwin.encode_state_cast (x y : List Nat) (hx : ∀ p ∈ x, p < 16)
    (hy : ∀ p ∈ y, p < 16) :
    TrainXwin.encode_state (x.map (fun (p : Nat) => (p : Int)))
        (y.map (fun (p : Nat) => (p : Int))) = TicTacToe.encode_state train_4x4_m4 x y := by
  unfold TrainXwin.encode_state TicTacToe.encode_state
  rw [TrainXwin.encode_cast x hx, TrainXwin.encode_cast y hy]
  rfl

theorem TrainXwin.decode_list_encode (pos : List Nat) (hlen : pos.length ≤ 4)
    (hrange : ∀ p ∈ pos, p < 16) :
    TrainXwin.decode_list (encode_list train_4x4_m4 pos) =
      pos.map (fun (p : Nat) => (p : Int)) := by
  rw [encode_list_eq train_4x4_m4 train_4x4_m4_consistent pos hlen hrange,
    TrainXwin.decode_list_digits]
  have h := digits_ofDigits_digitsOf 17 16 rfl (by decide) pos hrange
  have h17 : train_4x4_m4.BASE = 17 := rfl
  rw [h17, h]
  simp only [digitsOf, List.map_map]
  apply List.map_congr_left
  intro p _
  simp

theorem TrainXwin.tr_cast (t p : Nat) :
    TrainXwin.tr t (p : Int) = ((transform train_4x4_m4 t p : Nat) : Int) := by
  simp only [TrainXwin.tr, Int.toNat_ofNat]
  rfl

theorem TrainXwin.map_tr_cast (pos : List Nat) (t : Nat) :
    (pos.map (fun (p : Nat) => (p : Int))).map (TrainXwin.tr t) =
      (apply_transform train_4x4_m4 pos t).map (fun (p : Nat) => (p : Int)) := by
  simp only [apply_transform, List.map_map]
  apply List.map_congr_left
  intro p _
  exact TrainXwin.tr_cast t p

theorem TrainXwin.canonicalize_fold_cast (x y : List Nat) (hx : ∀ p ∈ x, p < 16)
    (hy : ∀ p ∈ y, p < 16) (ts : List Nat) (hts : ∀ t ∈ ts, t < 8) (init : Nat)
    (r0 : CanonResult) (h0 : r0.code = init) :
    ts.foldl
        (fun best t =>
          let c := TrainXwin.encode_state
            ((x.map (fun (p : Nat) => (p : Int))).map (TrainXwin.tr t))
            ((y.map (fun (p : Nat) => (p : Int))).map (TrainXwin.tr t))
          if c < best then c else best)
        init =
      (ts.foldl (canonicalize_step train_4x4_m4 x y) r0).code := by
  induction ts generalizing init r0 with
  | nil => exact h0.symm
  | cons t rest ih =>
    simp only [List.foldl_cons]
    apply ih (fun u hu => hts u (List.mem_cons_of_mem _ hu))
    have ht : t < 8 := hts t (List.mem_cons_self _ _)
    have hb : train_4x4_m4 = train_3x3 ∨ train_4x4_m4 = train_4x4_m4 := Or.inr rfl
    rw [TrainXwin.map_tr_cast, TrainXwin.map_tr_cast,
      TrainXwin.encode_state_cast _ _ (apply_transform_range train_4x4_m4 hb x hx t ht)
        (apply_transform_range train_4x4_m4 hb y hy t ht)]
    simp only [canonicalize_step]
    rw [h0]
    by_cases hlt : TicTacToe.encode_state train_4x4_m4 (apply_transform train_4x4_m4 x t)
        (apply_transform train_4x4_m4 y t) < init
    · rw [if_pos hlt, if_pos hlt]
    · rw [if_neg hlt, if_neg hlt, h0]

/-- On cells of the board `canonicalize` of `train_xwin.cpp` returns the code
field of `canonicalize` of `train_4x4_m4.cpp`. -/
theorem TrainXwin.canonicalize_cast (x y : List Nat) (hx : ∀ p ∈ x, p < 16)
    (hy : ∀ p ∈ y, p < 16) :
    TrainXwin.canonicalize (x.map (fun (p : Nat) => (p : Int)))
        (y.map (fun (p : Nat) => (p : Int))) =
      (TicTacToe.canonicalize train_4x4_m4 x y).code :=
  TrainXwin.canonicalize_fold_cast x y hx hy (List.range 8)
    (fun _ ht => List.mem_range.mp ht) UINT64_MAX _ rfl

/-- The canonical code does not change when the state is first transformed. -/
theorem canonicalize_code_transform (b : Params) (hb : b = train_3x3 ∨ b = train_4x4_m4)
    (x y : List Nat) (hx : ∀ p ∈ x, p < b.CELLS) (hy : ∀ p ∈ y, p < b.CELLS)
    (t : Nat) (ht : t < 8) :
    (canonicalize b (apply_transform b x t) (apply_transform b y t)).code =
      (canonicalize b x y).code := by
  apply le_antisymm
  · obtain ⟨hu, hattain, _⟩ := canonicalize_trans_id b x y
    obtain ⟨s, hs, hcomp⟩ := transform_divide b hb _ hu t ht
    have h := canonicalize_code_le b (apply_transform b x t) (apply_transform b y t) s hs
    have hc : code_at b (apply_transform b x t) (apply_transform b y t) s
        = code_at b x y (canonicalize b x y).trans_id := by
      unfold code_at
      rw [apply_transform_comp b x hx s t _ (fun p hp => (hcomp p hp).symm),
        apply_transform_comp b y hy s t _ (fun p hp => (hcomp p hp).symm)]
    rw [hc, hattain] at h
    exact h
  · obtain ⟨hs, hattain, _⟩ :=
      canonicalize_trans_id b (apply_transform b x t) (apply_transform b y t)
    obtain ⟨u, hu, hcomp⟩ := transform_closed b hb _ hs t ht
    have h := canonicalize_code_le b x y u hu
    have hc : code_at b (apply_transform b x t) (apply_transform b y t)
          (canonicalize b (apply_transform b x t) (apply_transform b y t)).trans_id
        = code_at b x y u := by
      unfold code_at
      rw [apply_transform_comp b x hx _ t u hcomp, apply_transform_comp b y hy _ t u hcomp]
    rw [← hattain, hc]
    exact h

/-- On a state within the board and the piece budget the loop of
`canonicalize` replaces its initial `best`: the code is below `UINT64_MAX`. -/
theorem canonicalize_code_lt (b : Params) (hb : b = train_3x3 ∨ b = train_4x4_m4)
    (x y : List Nat) (hxl : x.length ≤ b.MAX_MOVE) (hxr : ∀ p ∈ x, p < b.CELLS)
    (hyl : y.length ≤ b.MAX_MOVE) (hyr : ∀ p ∈ y, p < b.CELLS) :
    (canonicalize b x y).code < UINT64_MAX := by
  have hc := consistent_of_mem b hb
  have h0 := canonicalize_code_le b x y 0 (by decide)
  obtain ⟨h1, h2, h3⟩ := encode_state_eq b hc (apply_transform b x 0) (apply_transform b y 0)
    (by rw [apply_transform_length]; exact hxl)
    (apply_transform_range b hb x hxr 0 (by decide))
    (by rw [apply_transform_length]; exact hyl)
    (apply_transform_range b hb y hyr 0 (by decide))
  have h4 : code_at b x y 0 < b.SEPARATOR * b.SEPARATOR := by
    unfold code_at
    rw [h1]
    calc encode_list b (apply_transform b x 0) * b.SEPARATOR + encode_list b (apply_transform b y 0)
        < encode_list b (apply_transform b x 0) * b.SEPARATOR + b.SEPARATOR :=
          Nat.add_lt_add_left h3 _
      _ = (encode_list b (apply_transform b x 0) + 1) * b.SEPARATOR := by
          rw [Nat.add_mul, Nat.one_mul]
      _ ≤ b.SEPARATOR * b.SEPARATOR := Nat.mul_le_mul_right _ h2
  have h5 := hc.2.2.2
  have h6 : UINT64_MOD = UINT64_MAX + 1 := by decide
  omega

/-! ## Round trips of the sequence encoding -/

/-- C1: for every sequence `p` of pairwise distinct positions in `[0, CELLS)`
of length at most `MAX_MOVE`, in `train_3x3` and in `train_4x4_m4`,
`decode_list (encode_list p)` succeeds and returns exactly `p`, in the same
order. -/
theorem decode_list_encode_list (b : Params) (hb : b = train_3x3 ∨ b = train_4x4_m4)
    (p : List Nat) (hnd : p.Nodup) (hrange : ∀ q ∈ p, q < b.CELLS)
    (hlen : p.length ≤ b.MAX_MOVE) :
    decode_list b (encode_list b p) = some p := by
  have hc := consistent_of_mem b hb
  rw [encode_list_eq b hc p hlen hrange]
  exact decode_list_ofDigits b hc p hrange hnd

theorem decode_list_encode_list_witness :
    ([3, 0, 15] : List Nat).Nodup ∧ (∀ q ∈ ([3, 0, 15] : List Nat), q < train_4x4_m4.CELLS) ∧
      ([3, 0, 15] : List Nat).length ≤ train_4x4_m4.MAX_MOVE ∧
      decode_list train_4x4_m4 (encode_list train_4x4_m4 [3, 0, 15]) = some [3, 0, 15] :=
  ⟨by decide, by decide, by decide,
    decode_list_encode_list train_4x4_m4 (Or.inr rfl) [3, 0, 15] (by decide) (by decide)
      (by decide)⟩

/-- C2: for every `uint64_t` code `c` on which `decode_list` succeeds (no
zero digit in its base-`BASE` expansion, digits pairwise distinct), encoding
the decoded sequence gives `c` back. -/
theorem encode_list_decode_list (b : Params) (hb : b = train_3x3 ∨ b = train_4x4_m4)
    (c : Nat) (hc : c < UINT64_MOD) (p : List Nat) (hdec : decode_list b c = some p) :
    encode_list b p = c := by
  obtain ⟨h0, _, hp⟩ := decode_list_some b (base_gt_one b hb) c p hdec
  rw [encode_list_eq_mod, hp, digitsOf_pred_map _ h0, Nat.ofDigits_digits]
  exact Nat.mod_eq_of_lt hc

theorem encode_list_decode_list_witness :
    (5615 : Nat) < UINT64_MOD ∧
      decode_list train_4x4_m4 5615 = some [4, 6, 1, 0] ∧
      encode_list train_4x4_m4 [4, 6, 1, 0] = 5615 :=
  ⟨by decide, by decide,
    encode_list_decode_list train_4x4_m4 (Or.inr rfl) 5615 (by decide)
      [4, 6, 1, 0] (by decide)⟩

/-- C3: `decode_list c` reports illegal exactly when the base-`BASE`
expansion of `c` (up to its most significant non-zero digit) contains a zero
digit or two equal digits, and whenever it succeeds every decoded position
lies in `[0, CELLS)`. The same holds of `decode_and_check` on the codes
`c ≥ 0`: its flag is false exactly in those two cases, so its separate range
test never rejects, and the positions it accepts lie in `[0, 16)`. -/
theorem decode_list_illegal_iff (b : Params) (hb : b = train_3x3 ∨ b = train_4x4_m4)
    (c : Nat) :
    (decode_list b c = none ↔
        (0 ∈ Nat.digits b.BASE c ∨ ¬ (Nat.digits b.BASE c).Nodup)) ∧
      (∀ ps, decode_list b c = some ps → ∀ p ∈ ps, p < b.CELLS) ∧
      ((CountCanonical.decode_and_check (c : Int)).2 = false ↔
        (0 ∈ Nat.digits 17 c ∨ ¬ (Nat.digits 17 c).Nodup)) ∧
      ((CountCanonical.decode_and_check (c : Int)).2 = true →
        ∀ p ∈ (CountCanonical.decode_and_check (c : Int)).1, 0 ≤ p ∧ p < 16) := by
  have hB := base_gt_one b hb
  have hcons := consistent_of_mem b hb
  refine ⟨?_, ?_, ?_, ?_⟩
  · rw [decode_list_eq b hB c]
    by_cases h : 0 ∈ Nat.digits b.BASE c ∨ ¬ (Nat.digits b.BASE c).Nodup
    · simp [h]
    · rw [if_neg h]
      simp [h]
  · intro ps hps p hp
    obtain ⟨h0, _, rfl⟩ := decode_list_some b hB c ps hps
    obtain ⟨d, hd, rfl⟩ := List.mem_map.mp hp
    have h1 := Nat.digits_lt_base hB hd
    have h2 : d ≠ 0 := fun e => h0 (e ▸ hd)
    have h3 := hcons.1
    omega
  · by_cases h0 : 0 ∈ Nat.digits 17 c
    · simp [CountCanonical.decode_and_check_zero c h0, h0]
    · rw [CountCanonical.decode_and_check_eq c h0]
      simp [h0]
  · intro hflag
    by_cases h0 : 0 ∈ Nat.digits 17 c
    · rw [CountCanonical.decode_and_check_zero c h0] at hflag
      exact absurd hflag (by decide)
    · rw [CountCanonical.decode_and_check_eq c h0]
      exact int_pred_map_range _ (fun d hd => Nat.digits_lt_base (by decide) hd) h0

theorem decode_list_illegal_iff_witness :
    (train_4x4_m4 = train_3x3 ∨ train_4x4_m4 = train_4x4_m4) ∧
      decode_list train_4x4_m4 18 = none ∧ decode_list train_4x4_m4 17 = none ∧
      decode_list train_4x4_m4 35 = some [0, 1] ∧
      (CountCanonical.decode_and_check 18).2 = false :=
  ⟨Or.inr rfl,
    (decode_list_illegal_iff train_4x4_m4 (Or.inr rfl) 18).1.mpr (Or.inr (by norm_num [train_4x4_m4])),
    by decide, by decide, by decide⟩

/-! ## The pair encoding -/

/-- C4: for position sequences `X`, `Y` (pairwise distinct positions) of
length at most `MAX_MOVE` with positions in `[0, CELLS)`, and
`SEPARATOR = BASE ^ MAX_MOVE`, the split of `encode_state X Y` into
`code / SEPARATOR` and `code % SEPARATOR` gives the codes of `X` and of `Y`,
and decoding each half recovers exactly `X` and `Y`: with `decode_list` of
the explicit trainers, which `add_edge` applies to the two halves, on both
boards, and with `decode_state` of `train_xwin.cpp` on the 4x4 board. -/
theorem split_decode_state (b : Params) (hb : b = train_3x3 ∨ b = train_4x4_m4)
    (X Y : List Nat) (hXn : X.Nodup) (hXl : X.length ≤ b.MAX_MOVE)
    (hXr : ∀ p ∈ X, p < b.CELLS) (hYn : Y.Nodup) (hYl : Y.length ≤ b.MAX_MOVE)
    (hYr : ∀ p ∈ Y, p < b.CELLS) :
    b.SEPARATOR = b.BASE ^ b.MAX_MOVE ∧
      encode_state b X Y / b.SEPARATOR = encode_list b X ∧
      encode_state b X Y % b.SEPARATOR = encode_list b Y ∧
      decode_list b (encode_state b X Y / b.SEPARATOR) = some X ∧
      decode_list b (encode_state b X Y % b.SEPARATOR) = some Y ∧
      (b = train_4x4_m4 →
        TrainXwin.SEP = TrainXwin.BASE ^ TrainXwin.MAX_MOVE ∧
        TrainXwin.decode_state
            (TrainXwin.encode_state (X.map (fun (p : Nat) => (p : Int)))
              (Y.map (fun (p : Nat) => (p : Int)))) =
          (X.map (fun (p : Nat) => (p : Int)), Y.map (fun (p : Nat) => (p : Int)))) := by
  have hc := consistent_of_mem b hb
  have hdiv := encode_state_div b hc X Y hXl hXr hYl hYr
  have hmod := encode_state_mod b hc X Y hXl hXr hYl hYr
  refine ⟨hc.2.2.1, hdiv, hmod, ?_, ?_, ?_⟩
  · rw [hdiv, decode_list_of_encode_list b hc X hXl hXr, if_pos hXn]
  · rw [hmod, decode_list_of_encode_list b hc Y hYl hYr, if_pos hYn]
  · intro h4
    subst h4
    refine ⟨by decide, ?_⟩
    rw [TrainXwin.encode_state_cast X Y hXr hYr]
    unfold TrainXwin.decode_state
    have hS : TrainXwin.SEP = train_4x4_m4.SEPARATOR := rfl
    rw [hS, hdiv, hmod, TrainXwin.decode_list_encode X hXl hXr,
      TrainXwin.decode_list_encode Y hYl hYr]

theorem split_decode_state_witness :
    ([3, 0, 15, 4] : List Nat).Nodup ∧
      ([3, 0, 15, 4] : List Nat).length ≤ train_4x4_m4.MAX_MOVE ∧
      (∀ p ∈ ([3, 0, 15, 4] : List Nat), p < train_4x4_m4.CELLS) ∧
      ([7, 2] : List Nat).Nodup ∧
      ([7, 2] : List Nat).length ≤ train_4x4_m4.MAX_MOVE ∧
      (∀ p ∈ ([7, 2] : List Nat), p < train_4x4_m4.CELLS) ∧
      decode_list train_4x4_m4
          (encode_state train_4x4_m4 [3, 0, 15, 4] [7, 2] / train_4x4_m4.SEPARATOR) =
        some [3, 0, 15, 4] ∧
      decode_list train_4x4_m4
          (encode_state train_4x4_m4 [3, 0, 15, 4] [7, 2] % train_4x4_m4.SEPARATOR) =
        some [7, 2] ∧
      TrainXwin.decode_state (TrainXwin.encode_state [3, 0, 15, 4] [7, 2]) =
        ([3, 0, 15, 4], [7, 2]) :=
  ⟨by decide, by decide, by decide, by decide, by decide, by decide,
    (split_decode_state train_4x4_m4 (Or.inr rfl) [3, 0, 15, 4] [7, 2] (by decide) (by decide)
      (by decide) (by decide) (by decide) (by decide)).2.2.2.1,
    (split_decode_state train_4x4_m4 (Or.inr rfl) [3, 0, 15, 4] [7, 2] (by decide) (by decide)
      (by decide) (by decide) (by decide) (by decide)).2.2.2.2.1,
    ((split_decode_state train_4x4_m4 (Or.inr rfl) [3, 0, 15, 4] [7, 2] (by decide) (by decide)
      (by decide) (by decide) (by decide) (by decide)).2.2.2.2.2 rfl).2⟩

/-! ## The symmetry group -/

set_option maxRecDepth 100000 in
/-- C5: in the 3x3 and in the 4x4 `TRANSFORMS` table the eight rows are
pairwise distinct permutations of `[0, CELLS)`, row 0 is the identity, and
the rows are closed under composition and under inverse; each row is one of
the eight symmetries of the square board acting on (row, column). -/
theorem transforms_symmetry_group (b : Params) (hb : b = train_3x3 ∨ b = train_4x4_m4) :
    b.TRANSFORMS.length = 8 ∧ b.TRANSFORMS.Nodup ∧
      (∀ row ∈ b.TRANSFORMS, row.Perm (List.range b.CELLS)) ∧
      b.TRANSFORMS.getD 0 [] = List.range b.CELLS ∧
      (∀ s < 8, ∀ t < 8, ∃ u < 8, ∀ p < b.CELLS,
        transform b u p = transform b s (transform b t p)) ∧
      (∀ t < 8, ∃ u < 8, ∀ p < b.CELLS,
        transform b u (transform b t p) = p ∧ transform b t (transform b u p) = p) ∧
      (∀ t < 8, ∃ k < 8, ∀ r < b.N, ∀ c < b.N,
        transform b t (r * b.N + c) =
          (square_symmetry b.N k (r, c)).1 * b.N + (square_symmetry b.N k (r, c)).2) := by
  rcases hb with rfl | rfl <;> decide

theorem transforms_symmetry_group_witness :
    (train_3x3 = train_3x3 ∨ train_3x3 = train_4x4_m4) ∧
      (∃ u < 8, ∀ p < train_3x3.CELLS,
        transform train_3x3 u p = transform train_3x3 1 (transform train_3x3 4 p)) :=
  ⟨Or.inl rfl, (transforms_symmetry_group train_3x3 (Or.inl rfl)).2.2.2.2.1 1 (by decide) 4
    (by decide)⟩

/-! ## The canonicalizer -/

/-- C6: for every state `(X, Y)` (sequences of length at most `MAX_MOVE` with
positions in `[0, CELLS)`), `canonicalize` returns as `code` the minimum over
the eight transforms `t` of `encode_state (T_t X) (T_t Y)`: it is a lower
bound and it is attained; the returned sequences are `T_trans_id X` and
`T_trans_id Y`, element-wise in the same order, and their `encode_state` is
`code`. -/
theorem canonicalize_min (b : Params) (hb : b = train_3x3 ∨ b = train_4x4_m4)
    (X Y : List Nat) (hXl : X.length ≤ b.MAX_MOVE) (hXr : ∀ p ∈ X, p < b.CELLS)
    (hYl : Y.length ≤ b.MAX_MOVE) (hYr : ∀ p ∈ Y, p < b.CELLS) :
    (∀ t < 8, (canonicalize b X Y).code ≤
        encode_state b (apply_transform b X t) (apply_transform b Y t)) ∧
      (∃ t < 8, (canonicalize b X Y).code =
        encode_state b (apply_transform b X t) (apply_transform b Y t)) ∧
      (canonicalize b X Y).trans_id < 8 ∧
      (canonicalize b X Y).x = apply_transform b X (canonicalize b X Y).trans_id ∧
      (canonicalize b X Y).y = apply_transform b Y (canonicalize b X Y).trans_id ∧
      encode_state b (canonicalize b X Y).x (canonicalize b X Y).y =
        (canonicalize b X Y).code := by
  have hlt := canonicalize_code_lt b hb X Y hXl hXr hYl hYr
  obtain ⟨_, _, _, h4, _⟩ := canonicalize_fold_inv b X Y 8 (canonicalize b X Y) rfl
  obtain ⟨hid, hcode, hx, hy⟩ := h4 hlt
  refine ⟨canonicalize_code_le b X Y, ⟨_, hid, hcode⟩, hid, hx, hy, ?_⟩
  rw [hx, hy]
  exact hcode.symm

theorem canonicalize_min_witness :
    ([5, 3] : List Nat).length ≤ train_3x3.MAX_MOVE ∧
      (∀ p ∈ ([5, 3] : List Nat), p < train_3x3.CELLS) ∧
      ([8] : List Nat).length ≤ train_3x3.MAX_MOVE ∧
      (∀ p ∈ ([8] : List Nat), p < train_3x3.CELLS) ∧
      (canonicalize train_3x3 [5, 3] [8]).x =
        apply_transform train_3x3 [5, 3] (canonicalize train_3x3 [5, 3] [8]).trans_id :=
  ⟨by decide, by decide, by decide, by decide,
    (canonicalize_min train_3x3 (Or.inl rfl) [5, 3] [8] (by decide) (by decide) (by decide)
      (by decide)).2.2.2.1⟩

/-- C7: the canonical code is invariant under the symmetry group: for every
state `(X, Y)` on the board and every transform index `t`,
`canonicalize (T_t X) (T_t Y)` has the code of `canonicalize X Y`, in the
explicit trainers and, on the 4x4 board, in `train_xwin.cpp`. -/
theorem canonicalize_invariant (b : Params) (hb : b = train_3x3 ∨ b = train_4x4_m4)
    (X Y : List Nat) (hXr : ∀ p ∈ X, p < b.CELLS) (hYr : ∀ p ∈ Y, p < b.CELLS)
    (t : Nat) (ht : t < 8) :
    (canonicalize b (apply_transform b X t) (apply_transform b Y t)).code =
        (canonicalize b X Y).code ∧
      (b = train_4x4_m4 →
        TrainXwin.canonicalize
            ((X.map (fun (p : Nat) => (p : Int))).map (TrainXwin.tr t))
            ((Y.map (fun (p : Nat) => (p : Int))).map (TrainXwin.tr t)) =
          TrainXwin.canonicalize (X.map (fun (p : Nat) => (p : Int)))
            (Y.map (fun (p : Nat) => (p : Int)))) := by
  refine ⟨canonicalize_code_transform b hb X Y hXr hYr t ht, ?_⟩
  intro h4
  subst h4
  rw [TrainXwin.map_tr_cast, TrainXwin.map_tr_cast,
    TrainXwin.canonicalize_cast _ _ (apply_transform_range train_4x4_m4 hb X hXr t ht)
      (apply_transform_range train_4x4_m4 hb Y hYr t ht),
    TrainXwin.canonicalize_cast X Y hXr hYr]
  exact canonicalize_code_transform train_4x4_m4 hb X Y hXr hYr t ht

theorem canonicalize_invariant_witness :
    (∀ p ∈ ([1, 6] : List Nat), p < train_4x4_m4.CELLS) ∧
      (∀ p ∈ ([11] : List Nat), p < train_4x4_m4.CELLS) ∧ (3 : Nat) < 8 ∧
      (canonicalize train_4x4_m4 (apply_transform train_4x4_m4 [1, 6] 3)
          (apply_transform train_4x4_m4 [11] 3)).code =
        (canonicalize train_4x4_m4 [1, 6] [11]).code :=
  ⟨by decide, by decide, by decide,
    (canonicalize_invariant train_4x4_m4 (Or.inr rfl) [1, 6] [11] (by decide) (by decide) 3
      (by decide)).1⟩

/-- C8: canonicity of stored codes. For every legal state (duplicate-free
sequences within the budget and the board), with `c` the code returned by
`canonicalize`, both halves of `c` decode, and canonicalizing the decoded
state returns `c` again: `c` is the code of the decoded state itself and a
lower bound of the codes of its eight images. -/
theorem canonical_code_fixed (b : Params) (hb : b = train_3x3 ∨ b = train_4x4_m4)
    (X Y : List Nat) (hXl : X.length ≤ b.MAX_MOVE) (hXr : ∀ p ∈ X, p < b.CELLS)
    (hXn : X.Nodup) (hYl : Y.length ≤ b.MAX_MOVE) (hYr : ∀ p ∈ Y, p < b.CELLS)
    (hYn : Y.Nodup) :
    ∃ x y, decode_list b ((canonicalize b X Y).code / b.SEPARATOR) = some x ∧
      decode_list b ((canonicalize b X Y).code % b.SEPARATOR) = some y ∧
      (canonicalize b x y).code = (canonicalize b X Y).code ∧
      encode_state b x y = (canonicalize b X Y).code ∧
      ∀ t < 8, (canonicalize b X Y).code ≤
        encode_state b (apply_transform b x t) (apply_transform b y t) := by
  have hc := consistent_of_mem b hb
  have hlt := canonicalize_code_lt b hb X Y hXl hXr hYl hYr
  obtain ⟨_, _, _, h4, _⟩ := canonicalize_fold_inv b X Y 8 (canonicalize b X Y) rfl
  obtain ⟨hid, hcode, _, _⟩ := h4 hlt
  have hxl : (apply_transform b X (canonicalize b X Y).trans_id).length ≤ b.MAX_MOVE := by
    rw [apply_transform_length]; exact hXl
  have hyl : (apply_transform b Y (canonicalize b X Y).trans_id).length ≤ b.MAX_MOVE := by
    rw [apply_transform_length]; exact hYl
  have hxr := apply_transform_range b hb X hXr _ hid
  have hyr := apply_transform_range b hb Y hYr _ hid
  have hxn := apply_transform_nodup b hb X hXr hXn _ hid
  have hyn := apply_transform_nodup b hb Y hYr hYn _ hid
  have hinv := canonicalize_code_transform b hb X Y hXr hYr _ hid
  refine ⟨apply_transform b X (canonicalize b X Y).trans_id,
    apply_transform b Y (canonicalize b X Y).trans_id, ?_, ?_, hinv, hcode.symm, ?_⟩
  · rw [hcode]
    unfold code_at
    rw [encode_state_div b hc _ _ hxl hxr hyl hyr, decode_list_of_encode_list b hc _ hxl hxr,
      if_pos hxn]
  · rw [hcode]
    unfold code_at
    rw [encode_state_mod b hc _ _ hxl hxr hyl hyr, decode_list_of_encode_list b hc _ hyl hyr,
      if_pos hyn]
  · intro t ht
    rw [← hinv]
    exact canonicalize_code_le b _ _ t ht

theorem canonical_code_fixed_witness :
    ([8, 4] : List Nat).length ≤ train_3x3.MAX_MOVE ∧
      (∀ p ∈ ([8, 4] : List Nat), p < train_3x3.CELLS) ∧ ([8, 4] : List Nat).Nodup ∧
      ([2] : List Nat).length ≤ train_3x3.MAX_MOVE ∧
      (∀ p ∈ ([2] : List Nat), p < train_3x3.CELLS) ∧ ([2] : List Nat).Nodup ∧
      ∃ x y, decode_list train_3x3
          ((canonicalize train_3x3 [8, 4] [2]).code / train_3x3.SEPARATOR) = some x ∧
        decode_list train_3x3
          ((canonicalize train_3x3 [8, 4] [2]).code % train_3x3.SEPARATOR) = some y ∧
        (canonicalize train_3x3 x y).code = (canonicalize train_3x3 [8, 4] [2]).code ∧
        encode_state train_3x3 x y = (canonicalize train_3x3 [8, 4] [2]).code ∧
        ∀ t < 8, (canonicalize train_3x3 [8, 4] [2]).code ≤
          encode_state train_3x3 (apply_transform train_3x3 x t)
            (apply_transform train_3x3 y t) :=
  ⟨by decide, by decide, by decide, by decide, by decide, by decide,
    canonical_code_fixed train_3x3 (Or.inl rfl) [8, 4] [2] (by decide) (by decide) (by decide)
      (by decide) (by decide) (by decide)⟩

/-- C9: `canonicalize` returns as `trans_id` the smallest transform index
that attains the minimum code: the index is below 8, its code is the
returned code, no transform gives a smaller code, and every transform that
gives the returned code has an index at least `trans_id`. -/
theorem canonicalize_first_wins (b : Params) (X Y : List Nat) :
    (canonicalize b X Y).trans_id < 8 ∧
      encode_state b (apply_transform b X (canonicalize b X Y).trans_id)
          (apply_transform b Y (canonicalize b X Y).trans_id) = (canonicalize b X Y).code ∧
      (∀ t < 8, (canonicalize b X Y).code ≤
        encode_state b (apply_transform b X t) (apply_transform b Y t)) ∧
      (∀ t < 8, encode_state b (apply_transform b X t) (apply_transform b Y t) =
        (canonicalize b X Y).code → (canonicalize b X Y).trans_id ≤ t) := by
  obtain ⟨hid, hattain, hfirst⟩ := canonicalize_trans_id b X Y
  refine ⟨hid, hattain, canonicalize_code_le b X Y, ?_⟩
  intro t _ heq
  by_contra hlt
  have h := hfirst t (Nat.lt_of_not_le hlt)
  have h2 : code_at b X Y t = (canonicalize b X Y).code := heq
  omega

theorem canonicalize_first_wins_witness :
    (canonicalize train_3x3 [4] []).trans_id ≤ 5 :=
  (canonicalize_first_wins train_3x3 [4] []).2.2.2 5 (by decide) (by decide)

/-- C10 (amended): the state `X = (0)`, `Y = ()` canonicalizes to the code
`SEPARATOR` (1000 on the 3x3 board, 83521 on the 4x4 board): its `X` half,
`code / SEPARATOR`, is 1 and its `Y` half, `code % SEPARATOR`, is 0. -/
theorem canonicalize_corner :
    (canonicalize train_3x3 [0] []).code = train_3x3.SEPARATOR ∧
      (canonicalize train_3x3 [0] []).code = 1000 ∧
      (canonicalize train_3x3 [0] []).code / train_3x3.SEPARATOR = 1 ∧
      (canonicalize train_3x3 [0] []).code % train_3x3.SEPARATOR = 0 ∧
      (canonicalize train_4x4_m4 [0] []).code = train_4x4_m4.SEPARATOR ∧
      (canonicalize train_4x4_m4 [0] []).code = 83521 ∧
      (canonicalize train_4x4_m4 [0] []).code / train_4x4_m4.SEPARATOR = 1 ∧
      (canonicalize train_4x4_m4 [0] []).code % train_4x4_m4.SEPARATOR = 0 ∧
      TrainXwin.canonicalize [0] [] = 83521 := by
  decide

/-- C10 as stated fails: the code returned for `X = (0)`, `Y = ()` is not 1,
neither on the 3x3 board nor on the 4x4 board. -/
theorem canonicalize_corner_counterexample :
    (canonicalize train_3x3 [0] []).code ≠ 1 ∧ (canonicalize train_4x4_m4 [0] []).code ≠ 1 ∧
      TrainXwin.canonicalize [0] [] ≠ 1 := by
  decide

/-! ## The board and the terminal predicate -/

theorem getD_set (bd : List Int) (p q : Nat) (v : Int) :
    (bd.set p v).getD q 0 = if p = q ∧ q < bd.length then v else bd.getD q 0 := by
  simp only [List.getD_eq_getElem?_getD, List.getElem?_set]
  by_cases hpq : p = q
  · subst hpq
    by_cases hlt : p < bd.length
    · simp [hlt]
    · have hnone : bd[p]? = none := List.getElem?_eq_none (by omega)
      simp [hlt, hnone]
  · simp [hpq]

theorem mark_length (bd : List Int) (ps : List Nat) (v : Int) :
    (mark bd ps v).length = bd.length := by
  induction ps generalizing bd with
  | nil => rfl
  | cons p rest ih =>
    simp only [mark, List.foldl_cons] at ih ⊢
    rw [ih]
    exact List.length_set _ _ _

theorem mark_getD (bd : List Int) (ps : List Nat) (v : Int) (q : Nat) :
    (mark bd ps v).getD q 0 = if q ∈ ps ∧ q < bd.length then v else bd.getD q 0 := by
  induction ps generalizing bd with
  | nil => simp [mark]
  | cons p rest ih =>
    have h := ih (bd.set p v)
    simp only [mark, List.foldl_cons] at h ⊢
    rw [h, List.length_set, getD_set]
    by_cases hq : q < bd.length
    · by_cases hr : q ∈ rest
      · simp [hq, hr]
      · by_cases hpq : p = q
        · simp [hq, hr, hpq]
        · have hqp : ¬ q = p := fun e => hpq e.symm
          simp [hq, hr, hpq, hqp]
    · simp [hq]

/-- The content of the board of a state. -/
theorem board_of_getD (b : Params) (x y : List Nat) (q : Nat) :
    (board_of b x y).getD q 0 =
      if q ∈ y ∧ q < b.CELLS then -1 else if q ∈ x ∧ q < b.CELLS then 1 else 0 := by
  unfold board_of
  rw [mark_getD, mark_length, mark_getD]
  simp only [List.length_replicate]
  by_cases hy : q ∈ y ∧ q < b.CELLS
  · rw [if_pos hy, if_pos hy]
  · rw [if_neg hy, if_neg hy]
    by_cases hx : q ∈ x ∧ q < b.CELLS
    · rw [if_pos hx, if_pos hx]
    · rw [if_neg hx, if_neg hx]
      simp only [List.getD_eq_getElem?_getD]
      by_cases hq : q < b.CELLS
      · simp [List.getElem?_replicate, hq]
      · simp [List.getElem?_replicate, hq]

/-- The count of an inner loop reaches `m` exactly when the first `m` cells
in its direction pass the test. -/
theorem scan_ge (b : Params) (board : List Int) (val dr dc : Int) (k m : Nat) (r c : Int) :
    m ≤ scan b board val dr dc k r c ↔
      m ≤ k ∧ ∀ j < m, cell_ok b board val (r + ((j : Int) + 1) * dr) (c + ((j : Int) + 1) * dc) := by
  induction k generalizing m r c with
  | zero =>
    simp only [scan, Nat.le_zero]
    constructor
    · intro h; subst h; exact ⟨rfl, fun j hj => absurd hj (Nat.not_lt_zero j)⟩
    · exact fun h => h.1
  | succ k ih =>
    by_cases hok : cell_ok b board val (r + dr) (c + dc)
    · have hstep : scan b board val dr dc (k + 1) r c
          = 1 + scan b board val dr dc k (r + dr) (c + dc) := by
        simp only [scan]
        exact if_pos hok
      rw [hstep]
      cases m with
      | zero => simp
      | succ m =>
        have h1 : m + 1 ≤ 1 + scan b board val dr dc k (r + dr) (c + dc) ↔
            m ≤ scan b board val dr dc k (r + dr) (c + dc) := by omega
        rw [h1, ih m (r + dr) (c + dc)]
        constructor
        · rintro ⟨hm, hall⟩
          refine ⟨by omega, ?_⟩
          intro j hj
          cases j with
          | zero => simpa using hok
          | succ j =>
            have := hall j (by omega)
            have e1 : r + ((((j + 1 : Nat)) : Int) + 1) * dr = r + dr + ((j : Int) + 1) * dr := by
              push_cast; ring
            have e2 : c + ((((j + 1 : Nat)) : Int) + 1) * dc = c + dc + ((j : Int) + 1) * dc := by
              push_cast; ring
            rw [e1, e2]
            exact this
        · rintro ⟨hm, hall⟩
          refine ⟨by omega, ?_⟩
          intro j hj
          have := hall (j + 1) (by omega)
          have e1 : r + ((((j + 1 : Nat)) : Int) + 1) * dr = r + dr + ((j : Int) + 1) * dr := by
            push_cast; ring
          have e2 : c + ((((j + 1 : Nat)) : Int) + 1) * dc = c + dc + ((j : Int) + 1) * dc := by
            push_cast; ring
          rw [e1, e2] at this
          exact this
    · have hstep : scan b board val dr dc (k + 1) r c = 0 := by
        simp only [scan]
        exact if_neg hok
      rw [hstep]
      constructor
      · intro h
        have hm : m = 0 := by omega
        subst hm
        exact ⟨by omega, fun j hj => absurd hj (Nat.not_lt_zero j)⟩
      · rintro ⟨_, hall⟩
        cases m with
        | zero => exact le_refl _
        | succ m =>
          exfalso
          apply hok
          simpa using hall 0 (by omega)

/-- The verdict of `check_win_at` as a window of `MAX_MOVE` cells through
`pos`: `a` cells on one side and `MAX_MOVE - 1 - a` on the other, in one of
the four directions, all passing the test. -/
theorem check_win_at_window (b : Params) (board : List Int) (pos : Nat) :
    check_win_at b board pos = true ↔
      board.getD pos 0 ≠ 0 ∧ ∃ d < 4, ∃ a, a ≤ b.MAX_MOVE - 1 ∧
        (∀ j < a, cell_ok b board (board.getD pos 0)
          (((pos / b.N : Nat) : Int) + ((j : Int) + 1) * DIR_R.getD d 0)
          (((pos % b.N : Nat) : Int) + ((j : Int) + 1) * DIR_C.getD d 0)) ∧
        (∀ j < b.MAX_MOVE - 1 - a, cell_ok b board (board.getD pos 0)
          (((pos / b.N : Nat) : Int) + ((j : Int) + 1) * -(DIR_R.getD d 0))
          (((pos % b.N : Nat) : Int) + ((j : Int) + 1) * -(DIR_C.getD d 0))) := by
  unfold check_win_at
  by_cases hval : board.getD pos 0 = 0
  · simp only [hval, if_true]
    constructor
    · intro h; exact absurd h (by decide)
    · intro h; exact absurd rfl h.1
  · simp only [hval, if_false, List.any_eq_true, List.mem_range, decide_eq_true_eq, ne_eq,
      not_false_eq_true, true_and]
    constructor
    · rintro ⟨d, hd, hsum⟩
      refine ⟨d, hd, scan b board (board.getD pos 0) (DIR_R.getD d 0) (DIR_C.getD d 0)
        (b.MAX_MOVE - 1) ((pos / b.N : Nat) : Int) ((pos % b.N : Nat) : Int), ?_, ?_, ?_⟩
      · exact ((scan_ge b board _ _ _ _ _ _ _).mp (le_refl _)).1
      · exact ((scan_ge b board _ _ _ _ _ _ _).mp (le_refl _)).2
      · have hle : b.MAX_MOVE - 1 - scan b board (board.getD pos 0) (DIR_R.getD d 0)
            (DIR_C.getD d 0) (b.MAX_MOVE - 1) ((pos / b.N : Nat) : Int) ((pos % b.N : Nat) : Int)
            ≤ scan b board (board.getD pos 0) (-(DIR_R.getD d 0)) (-(DIR_C.getD d 0))
              (b.MAX_MOVE - 1) ((pos / b.N : Nat) : Int) ((pos % b.N : Nat) : Int) := by
          omega
        exact ((scan_ge b board _ _ _ _ _ _ _).mp hle).2
    · rintro ⟨d, hd, a, ha, hleft, hright⟩
      refine ⟨d, hd, ?_⟩
      have h1 := (scan_ge b board (board.getD pos 0) (DIR_R.getD d 0) (DIR_C.getD d 0)
        (b.MAX_MOVE - 1) a ((pos / b.N : Nat) : Int) ((pos % b.N : Nat) : Int)).mpr ⟨ha, hleft⟩
      have h2 := (scan_ge b board (board.getD pos 0) (-(DIR_R.getD d 0)) (-(DIR_C.getD d 0))
        (b.MAX_MOVE - 1) (b.MAX_MOVE - 1 - a) ((pos / b.N : Nat) : Int)
        ((pos % b.N : Nat) : Int)).mpr ⟨by omega, hright⟩
      omega

set_option maxRecDepth 100000 in
set_option synthInstance.maxSize 4096 in
set_option synthInstance.maxHeartbeats 400000 in
/-- On both boards a window of `MAX_MOVE` cells that stays on the board
covers a full line through `pos`. -/
theorem window_covers_line (b : Params) (hb : b = train_3x3 ∨ b = train_4x4_m4) :
    ∀ pos < b.CELLS, ∀ d < 4, ∀ a < b.MAX_MOVE,
      (∀ j < a,
        (((pos / b.N : Nat) : Int) + ((j : Int) + 1) * DIR_R.getD d 0 ≥ 0 ∧
          ((pos / b.N : Nat) : Int) + ((j : Int) + 1) * DIR_R.getD d 0 < b.N ∧
          ((pos % b.N : Nat) : Int) + ((j : Int) + 1) * DIR_C.getD d 0 ≥ 0 ∧
          ((pos % b.N : Nat) : Int) + ((j : Int) + 1) * DIR_C.getD d 0 < b.N)) →
      (∀ j < b.MAX_MOVE - 1 - a,
        (((pos / b.N : Nat) : Int) + ((j : Int) + 1) * -(DIR_R.getD d 0) ≥ 0 ∧
          ((pos / b.N : Nat) : Int) + ((j : Int) + 1) * -(DIR_R.getD d 0) < b.N ∧
          ((pos % b.N : Nat) : Int) + ((j : Int) + 1) * -(DIR_C.getD d 0) ≥ 0 ∧
          ((pos % b.N : Nat) : Int) + ((j : Int) + 1) * -(DIR_C.getD d 0) < b.N)) →
      ∃ line ∈ lines b, pos ∈ line ∧ ∀ q ∈ line, q = pos ∨
        (∃ j < a, q = ((((pos / b.N : Nat) : Int) + ((j : Int) + 1) * DIR_R.getD d 0) * b.N +
          (((pos % b.N : Nat) : Int) + ((j : Int) + 1) * DIR_C.getD d 0)).toNat) ∨
        (∃ j < b.MAX_MOVE - 1 - a,
          q = ((((pos / b.N : Nat) : Int) + ((j : Int) + 1) * -(DIR_R.getD d 0)) * b.N +
          (((pos % b.N : Nat) : Int) + ((j : Int) + 1) * -(DIR_C.getD d 0))).toNat) := by
  rcases hb with rfl | rfl <;> decide

set_option maxRecDepth 100000 in
set_option synthInstance.maxSize 4096 in
set_option synthInstance.maxHeartbeats 400000 in
/-- On both boards every full line is, from each of its cells, a window of
`MAX_MOVE` cells on the board in one of the four directions. -/
theorem line_is_window (b : Params) (hb : b = train_3x3 ∨ b = train_4x4_m4) :
    ∀ line ∈ lines b, ∀ pos ∈ line, pos < b.CELLS ∧ ∃ d < 4, ∃ a < b.MAX_MOVE,
      (∀ j < a,
        (((pos / b.N : Nat) : Int) + ((j : Int) + 1) * DIR_R.getD d 0 ≥ 0 ∧
          ((pos / b.N : Nat) : Int) + ((j : Int) + 1) * DIR_R.getD d 0 < b.N ∧
          ((pos % b.N : Nat) : Int) + ((j : Int) + 1) * DIR_C.getD d 0 ≥ 0 ∧
          ((pos % b.N : Nat) : Int) + ((j : Int) + 1) * DIR_C.getD d 0 < b.N) ∧
        ((((pos / b.N : Nat) : Int) + ((j : Int) + 1) * DIR_R.getD d 0) * b.N +
          (((pos % b.N : Nat) : Int) + ((j : Int) + 1) * DIR_C.getD d 0)).toNat ∈ line) ∧
      (∀ j < b.MAX_MOVE - 1 - a,
        (((pos / b.N : Nat) : Int) + ((j : Int) + 1) * -(DIR_R.getD d 0) ≥ 0 ∧
          ((pos / b.N : Nat) : Int) + ((j : Int) + 1) * -(DIR_R.getD d 0) < b.N ∧
          ((pos % b.N : Nat) : Int) + ((j : Int) + 1) * -(DIR_C.getD d 0) ≥ 0 ∧
          ((pos % b.N : Nat) : Int) + ((j : Int) + 1) * -(DIR_C.getD d 0) < b.N) ∧
        ((((pos / b.N : Nat) : Int) + ((j : Int) + 1) * -(DIR_R.getD d 0)) * b.N +
          (((pos % b.N : Nat) : Int) + ((j : Int) + 1) * -(DIR_C.getD d 0))).toNat ∈ line) := by
  rcases hb with rfl | rfl <;> decide

theorem max_move_pos (b : Params) (hb : b = train_3x3 ∨ b = train_4x4_m4) :
    1 ≤ b.MAX_MOVE ∧ b.MAX_MOVE = b.N ∧ 3 ≤ b.MAX_MOVE := by
  rcases hb with rfl | rfl <;> decide

set_option maxRecDepth 100000 in
theorem lines_shape (b : Params) (hb : b = train_3x3 ∨ b = train_4x4_m4) :
    ∀ line ∈ lines b, line.Nodup ∧ line.length = b.MAX_MOVE ∧ ∀ q ∈ line, q < b.CELLS := by
  rcases hb with rfl | rfl <;> decide

/-- The verdict of `check_win_at` on a cell of the board: the cell holds a
piece and lies on a full line all of whose cells hold the same value. -/
theorem check_win_at_line (b : Params) (hb : b = train_3x3 ∨ b = train_4x4_m4)
    (board : List Int) (pos : Nat) (hpos : pos < b.CELLS) :
    check_win_at b board pos = true ↔
      board.getD pos 0 ≠ 0 ∧ ∃ line ∈ lines b, pos ∈ line ∧
        ∀ q ∈ line, board.getD q 0 = board.getD pos 0 := by
  have hM := (max_move_pos b hb).1
  rw [check_win_at_window]
  constructor
  · rintro ⟨hval, d, hd, a, ha, hleft, hright⟩
    refine ⟨hval, ?_⟩
    obtain ⟨line, hline, hmem, hcover⟩ := window_covers_line b hb pos hpos d hd a (by omega)
      (fun j hj => ⟨(hleft j hj).1, (hleft j hj).2.1, (hleft j hj).2.2.1, (hleft j hj).2.2.2.1⟩)
      (fun j hj => ⟨(hright j hj).1, (hright j hj).2.1, (hright j hj).2.2.1,
        (hright j hj).2.2.2.1⟩)
    refine ⟨line, hline, hmem, ?_⟩
    intro q hq
    rcases hcover q hq with h | ⟨j, hj, h⟩ | ⟨j, hj, h⟩
    · rw [h]
    · rw [h]; exact (hleft j hj).2.2.2.2
    · rw [h]; exact (hright j hj).2.2.2.2
  · rintro ⟨hval, line, hline, hmem, hall⟩
    refine ⟨hval, ?_⟩
    obtain ⟨_, d, hd, a, ha, hleft, hright⟩ := line_is_window b hb line hline pos hmem
    refine ⟨d, hd, a, by omega, ?_, ?_⟩
    · intro j hj
      obtain ⟨⟨h1, h2, h3, h4⟩, h5⟩ := hleft j hj
      exact ⟨h1, h2, h3, h4, hall _ h5⟩
    · intro j hj
      obtain ⟨⟨h1, h2, h3, h4⟩, h5⟩ := hright j hj
      exact ⟨h1, h2, h3, h4, hall _ h5⟩

/-- A duplicate-free sequence within the budget that contains a full line
has exactly the cells of that line. -/
theorem full_line_of_subset (b : Params) (hb : b = train_3x3 ∨ b = train_4x4_m4)
    (x : List Nat) (hlen : x.length ≤ b.MAX_MOVE) (line : List Nat)
    (hline : line ∈ lines b) (hsub : ∀ q ∈ line, q ∈ x) :
    x.length = b.MAX_MOVE ∧ FullLine b x := by
  obtain ⟨hlnd, hllen, _⟩ := lines_shape b hb line hline
  have hsp : List.Subperm line x := List.subperm_of_subset hlnd hsub
  have hperm : List.Perm line x := hsp.perm_of_length_le (by omega)
  refine ⟨by rw [← hperm.length_eq, hllen], line, hline, ?_⟩
  intro p
  exact hperm.mem_iff.symm

/-- In a legal state, testing any piece of `X` gives: `X` fills a line. -/
theorem check_win_at_x (b : Params) (hb : b = train_3x3 ∨ b = train_4x4_m4)
    (x y : List Nat) (hl : LegalPair b x y) (p : Nat) (hp : p ∈ x) :
    check_win_at b (board_of b x y) p = true ↔ x.length = b.MAX_MOVE ∧ FullLine b x := by
  obtain ⟨hxn, hyn, hdis, hxl, hyl, hxr, hyr⟩ := hl
  have hpc := hxr p hp
  have hval : (board_of b x y).getD p 0 = 1 := by
    rw [board_of_getD, if_neg (fun h => hdis p hp h.1), if_pos ⟨hp, hpc⟩]
  rw [check_win_at_line b hb _ p hpc, hval]
  constructor
  · rintro ⟨_, line, hline, _, hall⟩
    apply full_line_of_subset b hb x hxl line hline
    intro q hq
    have h := hall q hq
    rw [board_of_getD] at h
    by_cases hy : q ∈ y ∧ q < b.CELLS
    · rw [if_pos hy] at h; exact absurd h (by decide)
    · rw [if_neg hy] at h
      by_cases hx : q ∈ x ∧ q < b.CELLS
      · exact hx.1
      · rw [if_neg hx] at h; exact absurd h (by decide)
  · rintro ⟨_, line, hline, hiff⟩
    refine ⟨by decide, line, hline, (hiff p).mp hp, ?_⟩
    intro q hq
    have hqx := (hiff q).mpr hq
    rw [board_of_getD, if_neg (fun h => hdis q hqx h.1), if_pos ⟨hqx, hxr q hqx⟩]

/-- In a legal state, testing any piece of `Y` gives: `Y` fills a line. -/
theorem check_win_at_y (b : Params) (hb : b = train_3x3 ∨ b = train_4x4_m4)
    (x y : List Nat) (hl : LegalPair b x y) (p : Nat) (hp : p ∈ y) :
    check_win_at b (board_of b x y) p = true ↔ y.length = b.MAX_MOVE ∧ FullLine b y := by
  obtain ⟨hxn, hyn, hdis, hxl, hyl, hxr, hyr⟩ := hl
  have hpc := hyr p hp
  have hval : (board_of b x y).getD p 0 = -1 := by
    rw [board_of_getD, if_pos ⟨hp, hpc⟩]
  rw [check_win_at_line b hb _ p hpc, hval]
  constructor
  · rintro ⟨_, line, hline, _, hall⟩
    apply full_line_of_subset b hb y hyl line hline
    intro q hq
    have h := hall q hq
    rw [board_of_getD] at h
    by_cases hy : q ∈ y ∧ q < b.CELLS
    · exact hy.1
    · rw [if_neg hy] at h
      by_cases hx : q ∈ x ∧ q < b.CELLS
      · rw [if_pos hx] at h; exact absurd h (by decide)
      · rw [if_neg hx] at h; exact absurd h (by decide)
  · rintro ⟨_, line, hline, hiff⟩
    refine ⟨by decide, line, hline, (hiff p).mp hp, ?_⟩
    intro q hq
    have hqy := (hiff q).mpr hq
    rw [board_of_getD, if_pos ⟨hqy, hyr q hqy⟩]

theorem side_guard_eq (b : Params) (hb : b = train_3x3 ∨ b = train_4x4_m4) :
    ∃ g, 1 ≤ g ∧ g ≤ b.MAX_MOVE ∧ ∀ v : List Nat, side_guard b v = decide (v.length ≥ g) := by
  rcases hb with rfl | rfl
  · refine ⟨1, by decide, by decide, ?_⟩
    intro v
    cases v <;> simp [side_guard, train_3x3]
  · refine ⟨3, by decide, by decide, ?_⟩
    intro v
    simp [side_guard, train_4x4_m4]

theorem head_mem_of_ne_nil (v : List Nat) (h : v ≠ []) : v.getD 0 0 ∈ v := by
  cases v with
  | nil => exact absurd rfl h
  | cons a rest => simp

theorem last_mem_of_ne_nil (v : List Nat) (h : v ≠ []) : v.getLastD 0 ∈ v := by
  cases v with
  | nil => exact absurd rfl h
  | cons a rest =>
    rw [List.getLastD_cons, ← List.getLast_eq_getLastD a rest h]
    exact List.getLast_mem h

/-- The guarded test of the `X` side on any of its pieces: `X` fills a line. -/
theorem guarded_win_x (b : Params) (hb : b = train_3x3 ∨ b = train_4x4_m4)
    (x y : List Nat) (hl : LegalPair b x y) (g : Nat) (hg1 : 1 ≤ g) (hg2 : g ≤ b.MAX_MOVE)
    (p : Nat) (hp : x ≠ [] → p ∈ x) :
    (decide (x.length ≥ g) && check_win_at b (board_of b x y) p) = true ↔
      x.length = b.MAX_MOVE ∧ FullLine b x := by
  rw [Bool.and_eq_true, decide_eq_true_eq]
  by_cases hx : x = []
  · subst hx
    simp only [List.length_nil]
    constructor
    · intro h; omega
    · intro h; omega
  · rw [check_win_at_x b hb x y hl p (hp hx)]
    constructor
    · exact fun h => h.2
    · intro h; exact ⟨by omega, h⟩

/-- The guarded test of the `Y` side on any of its pieces: `Y` fills a line. -/
theorem guarded_win_y (b : Params) (hb : b = train_3x3 ∨ b = train_4x4_m4)
    (x y : List Nat) (hl : LegalPair b x y) (g : Nat) (hg1 : 1 ≤ g) (hg2 : g ≤ b.MAX_MOVE)
    (p : Nat) (hp : y ≠ [] → p ∈ y) :
    (decide (y.length ≥ g) && check_win_at b (board_of b x y) p) = true ↔
      y.length = b.MAX_MOVE ∧ FullLine b y := by
  rw [Bool.and_eq_true, decide_eq_true_eq]
  by_cases hy : y = []
  · subst hy
    simp only [List.length_nil]
    constructor
    · intro h; omega
    · intro h; omega
  · rw [check_win_at_y b hb x y hl p (hp hy)]
    constructor
    · exact fun h => h.2
    · intro h; exact ⟨by omega, h⟩

theorem verdict_cases (A B : Bool) (PA PB : Prop) (hA : A = true ↔ PA) (hB : B = true ↔ PB) :
    ((if A then (1 : Int) else if B then -1 else 0) = 1 ↔ PA) ∧
      ((if A then (1 : Int) else if B then -1 else 0) = -1 ↔ ¬ PA ∧ PB) ∧
      ((if A then (1 : Int) else if B then -1 else 0) = 0 ↔ ¬ PA ∧ ¬ PB) := by
  cases A <;> cases B <;> simp at hA hB <;> simp [hA, hB]

theorem verdict_congr (A B A1 B1 : Bool) (PA PB : Prop) (hA : A = true ↔ PA)
    (hB : B = true ↔ PB) (hA1 : A1 = true ↔ PA) (hB1 : B1 = true ↔ PB) :
    (if A then (1 : Int) else if B then -1 else 0) =
      (if A1 then (1 : Int) else if B1 then -1 else 0) := by
  have h1 : A = A1 := Bool.eq_iff_iff.mpr (hA.trans hA1.symm)
  have h2 : B = B1 := Bool.eq_iff_iff.mpr (hB.trans hB1.symm)
  rw [h1, h2]

theorem check_result_verdict (b : Params) (hb : b = train_3x3 ∨ b = train_4x4_m4)
    (X Y : List Nat) (hl : LegalPair b X Y) :
    (side_guard b X && check_win_at b (board_of b X Y) (X.getD 0 0)) = true ↔
        X.length = b.MAX_MOVE ∧ FullLine b X := by
  obtain ⟨g, hg1, hg2, hg⟩ := side_guard_eq b hb
  rw [hg X]
  exact guarded_win_x b hb X Y hl g hg1 hg2 _ (head_mem_of_ne_nil X)

theorem check_result_verdict_y (b : Params) (hb : b = train_3x3 ∨ b = train_4x4_m4)
    (X Y : List Nat) (hl : LegalPair b X Y) :
    (side_guard b Y && check_win_at b (board_of b X Y) (Y.getD 0 0)) = true ↔
        Y.length = b.MAX_MOVE ∧ FullLine b Y := by
  obtain ⟨g, hg1, hg2, hg⟩ := side_guard_eq b hb
  rw [hg Y]
  exact guarded_win_y b hb X Y hl g hg1 hg2 _ (head_mem_of_ne_nil Y)

theorem check_result_guarded_eq (b : Params) (hb : b = train_3x3 ∨ b = train_4x4_m4)
    (X Y : List Nat) (hl : LegalPair b X Y) (g : Nat) (hg1 : 1 ≤ g) (hg2 : g ≤ b.MAX_MOVE) :
    check_result_guarded b g X Y = check_result b X Y := by
  unfold check_result_guarded check_result
  exact verdict_congr _ _ _ _ _ _
    (guarded_win_x b hb X Y hl g hg1 hg2 _ (head_mem_of_ne_nil X))
    (guarded_win_y b hb X Y hl g hg1 hg2 _ (head_mem_of_ne_nil Y))
    (check_result_verdict b hb X Y hl) (check_result_verdict_y b hb X Y hl)

/-! ## Corners of the 3x3 board -/

/-- C11: on the 3x3 board, for every corner cell `k` in `{0, 2, 6, 8}` the
state `X = (k)`, `Y = ()` has the same canonical code as the state
`X = (0)`, `Y = ()`. -/
theorem corner_states_same_code :
    (canonicalize train_3x3 [0] []).code = (canonicalize train_3x3 [0] []).code ∧
      (canonicalize train_3x3 [2] []).code = (canonicalize train_3x3 [0] []).code ∧
      (canonicalize train_3x3 [6] []).code = (canonicalize train_3x3 [0] []).code ∧
      (canonicalize train_3x3 [8] []).code = (canonicalize train_3x3 [0] []).code := by
  decide

/-! ## The terminal predicate -/

/-- C12: for every legal state (duplicate-free disjoint sequences on the
board, lengths at most `MAX_MOVE`, with `N = MAX_MOVE`), `check_result`
returns `1` exactly when `|X| = MAX_MOVE` and the cells of `X` are a full
row, column or diagonal; it returns `-1` exactly when that is not the case
and `|Y| = MAX_MOVE` with the cells of `Y` a full row, column or diagonal;
otherwise it returns `0`. Testing the most recently placed piece of each side
instead of the oldest one gives the same verdict. -/
theorem check_result_full_line (b : Params) (hb : b = train_3x3 ∨ b = train_4x4_m4)
    (X Y : List Nat) (hl : LegalPair b X Y) :
    b.N = b.MAX_MOVE ∧
      (check_result b X Y = 1 ↔ X.length = b.MAX_MOVE ∧ FullLine b X) ∧
      (check_result b X Y = -1 ↔
        ¬ (X.length = b.MAX_MOVE ∧ FullLine b X) ∧ Y.length = b.MAX_MOVE ∧ FullLine b Y) ∧
      (check_result b X Y = 0 ↔
        ¬ (X.length = b.MAX_MOVE ∧ FullLine b X) ∧ ¬ (Y.length = b.MAX_MOVE ∧ FullLine b Y)) ∧
      check_result_last b X Y = check_result b X Y := by
  obtain ⟨g, hg1, hg2, hg⟩ := side_guard_eq b hb
  have hx := check_result_verdict b hb X Y hl
  have hy := check_result_verdict_y b hb X Y hl
  obtain ⟨h1, h2, h3⟩ := verdict_cases _ _ _ _ hx hy
  refine ⟨(max_move_pos b hb).2.1.symm, h1, h2, h3, ?_⟩
  unfold check_result_last check_result
  refine verdict_congr _ _ _ _ _ _ ?_ ?_ hx hy
  · rw [hg X]
    exact guarded_win_x b hb X Y hl g hg1 hg2 _ (last_mem_of_ne_nil X)
  · rw [hg Y]
    exact guarded_win_y b hb X Y hl g hg1 hg2 _ (last_mem_of_ne_nil Y)

theorem check_result_full_line_witness :
    LegalPair train_4x4_m4 [3, 6, 9, 12] [0, 1, 2] ∧
      check_result train_4x4_m4 [3, 6, 9, 12] [0, 1, 2] = 1 ∧
      check_result_last train_4x4_m4 [3, 6, 9, 12] [0, 1, 2] =
        check_result train_4x4_m4 [3, 6, 9, 12] [0, 1, 2] :=
  ⟨by unfold LegalPair; decide, by decide,
    (check_result_full_line train_4x4_m4 (Or.inr rfl) [3, 6, 9, 12] [0, 1, 2]
      (by unfold LegalPair; decide)).2.2.2.2⟩

/-- C13: in the 4x4 trainer, for every legal state, `check_result` (which
tests a side only when its length is at least 3) returns the same value as
the predicate that tests any non-empty side, as the predicate guarded by
length `>= MAX_MOVE - 1`, and as the predicate guarded by length
`>= MAX_MOVE`; `check_result` of `count_win_lose.cpp` returns that value
too. -/
theorem check_result_guard_irrelevant (X Y : List Nat) (hl : LegalPair train_4x4_m4 X Y) :
    check_result train_4x4_m4 X Y = check_result_guarded train_4x4_m4 3 X Y ∧
      check_result_guarded train_4x4_m4 1 X Y = check_result train_4x4_m4 X Y ∧
      check_result_guarded train_4x4_m4 (train_4x4_m4.MAX_MOVE - 1) X Y =
        check_result train_4x4_m4 X Y ∧
      check_result_guarded train_4x4_m4 train_4x4_m4.MAX_MOVE X Y =
        check_result train_4x4_m4 X Y ∧
      CountWinLose.check_result X Y = check_result train_4x4_m4 X Y := by
  have hb : train_4x4_m4 = train_3x3 ∨ train_4x4_m4 = train_4x4_m4 := Or.inr rfl
  refine ⟨(check_result_guarded_eq _ hb X Y hl 3 (by decide) (by decide)).symm,
    check_result_guarded_eq _ hb X Y hl 1 (by decide) (by decide),
    check_result_guarded_eq _ hb X Y hl _ (by decide) (by decide),
    check_result_guarded_eq _ hb X Y hl _ (by decide) (by decide), ?_⟩
  rw [← check_result_guarded_eq _ hb X Y hl 3 (by decide) (by decide)]
  unfold CountWinLose.check_result check_result_guarded
  cases X <;> cases Y <;> simp

theorem check_result_guard_irrelevant_witness :
    LegalPair train_4x4_m4 [5, 1] [2] ∧
      check_result_guarded train_4x4_m4 1 [5, 1] [2] = check_result train_4x4_m4 [5, 1] [2] :=
  ⟨by unfold LegalPair; decide,
    (check_result_guard_irrelevant [5, 1] [2] (by unfold LegalPair; decide)).2.1⟩

/-! ## The move rule -/

theorem empty_cell_not_mem (b : Params) (x y : List Nat) (t : Nat) (ht : t < b.CELLS)
    (hempty : (board_of b x y).getD t 0 = 0) : t ∉ x ∧ t ∉ y := by
  rw [board_of_getD] at hempty
  by_cases hy : t ∈ y ∧ t < b.CELLS
  · rw [if_pos hy] at hempty; exact absurd hempty (by decide)
  · rw [if_neg hy] at hempty
    by_cases hx : t ∈ x ∧ t < b.CELLS
    · rw [if_pos hx] at hempty; exact absurd hempty (by decide)
    · exact ⟨fun h => hx ⟨h, ht⟩, fun h => hy ⟨h, ht⟩⟩

/-- The sequence built by `place`: appended, cut at the front when over the
budget, of length `min (old + 1) MAX_MOVE`, ending in `t`, duplicate-free,
made of `t` and cells of the old sequence. -/
theorem place_spec (b : Params) (hM : 1 ≤ b.MAX_MOVE) (seq : List Nat) (t : Nat)
    (hnd : seq.Nodup) (hlen : seq.length ≤ b.MAX_MOVE) (ht : t ∉ seq) :
    place b seq t = (if seq.length + 1 > b.MAX_MOVE then (seq ++ [t]).drop 1 else seq ++ [t]) ∧
      (place b seq t).length = min (seq.length + 1) b.MAX_MOVE ∧
      (place b seq t).getLast? = some t ∧ (place b seq t).Nodup ∧
      (∀ p ∈ place b seq t, p = t ∨ p ∈ seq) := by
  have hndapp : (seq ++ [t]).Nodup := by
    rw [List.nodup_append]
    refine ⟨hnd, List.nodup_singleton t, ?_⟩
    intro a ha hb
    rw [List.mem_singleton] at hb
    subst hb
    exact absurd ha ht
  unfold place
  rw [List.length_append, List.length_singleton]
  by_cases hover : seq.length + 1 > b.MAX_MOVE
  · rw [if_pos hover, if_pos hover]
    cases seq with
    | nil => simp at hover; omega
    | cons a rest =>
      have hlen2 : rest.length + 1 ≤ b.MAX_MOVE := hlen
      have hover2 : rest.length + 1 + 1 > b.MAX_MOVE := hover
      have htail : (a :: rest ++ [t]).tail = rest ++ [t] := rfl
      have hdrop : (a :: rest ++ [t]).drop 1 = rest ++ [t] := rfl
      rw [htail, hdrop]
      refine ⟨rfl, ?_, by simp, ?_, ?_⟩
      · rw [List.length_append, List.length_singleton, List.length_cons]; omega
      · exact (List.nodup_cons.mp hndapp).2
      · intro p hp
        rcases List.mem_append.mp hp with h | h
        · exact Or.inr (List.mem_cons_of_mem _ h)
        · exact Or.inl (List.mem_singleton.mp h)
  · rw [if_neg hover, if_neg hover]
    refine ⟨rfl, ?_, by simp, hndapp, ?_⟩
    · rw [List.length_append, List.length_singleton]; omega
    · intro p hp
      rcases List.mem_append.mp hp with h | h
      · exact Or.inr h
      · exact Or.inl (List.mem_singleton.mp h)

/-- C15: move rule. For every legal state and every empty cell `t`, the
successor sequence that `train` builds for the moving side is the old
sequence with `t` appended and, if its length then exceeds `MAX_MOVE`, with
its oldest element (index 0) removed; it has length
`min (old length + 1) MAX_MOVE`, ends in `t`, is duplicate-free, lies on the
board and is disjoint from the other side's sequence. On the 4x4 board the
array `ynew` of `get_y_succs` in `train_xwin.cpp` is that same sequence. -/
theorem move_rule (b : Params) (hb : b = train_3x3 ∨ b = train_4x4_m4)
    (X Y : List Nat) (hl : LegalPair b X Y) (t : Nat) (ht : t < b.CELLS)
    (hempty : (board_of b X Y).getD t 0 = 0) :
    (place b X t = (if X.length + 1 > b.MAX_MOVE then (X ++ [t]).drop 1 else X ++ [t]) ∧
        (place b X t).length = min (X.length + 1) b.MAX_MOVE ∧
        (place b X t).getLast? = some t ∧ (place b X t).Nodup ∧
        (∀ p ∈ place b X t, p < b.CELLS) ∧ (∀ p ∈ place b X t, p ∉ Y)) ∧
      (place b Y t = (if Y.length + 1 > b.MAX_MOVE then (Y ++ [t]).drop 1 else Y ++ [t]) ∧
        (place b Y t).length = min (Y.length + 1) b.MAX_MOVE ∧
        (place b Y t).getLast? = some t ∧ (place b Y t).Nodup ∧
        (∀ p ∈ place b Y t, p < b.CELLS) ∧ (∀ p ∈ place b Y t, p ∉ X)) ∧
      (b = train_4x4_m4 →
        TrainXwin.ynew (Y.map (fun (p : Nat) => (p : Int))) (t : Int) =
          (place b Y t).map (fun (p : Nat) => (p : Int))) := by
  obtain ⟨hxn, hyn, hdis, hxl, hyl, hxr, hyr⟩ := hl
  obtain ⟨htx, hty⟩ := empty_cell_not_mem b X Y t ht hempty
  have hM := (max_move_pos b hb).1
  obtain ⟨hx1, hx2, hx3, hx4, hx5⟩ := place_spec b hM X t hxn hxl htx
  obtain ⟨hy1, hy2, hy3, hy4, hy5⟩ := place_spec b hM Y t hyn hyl hty
  refine ⟨⟨hx1, hx2, hx3, hx4, ?_, ?_⟩, ⟨hy1, hy2, hy3, hy4, ?_, ?_⟩, ?_⟩
  · intro p hp
    rcases hx5 p hp with h | h
    · rw [h]; exact ht
    · exact hxr p h
  · intro p hp
    rcases hx5 p hp with h | h
    · rw [h]; exact hty
    · exact hdis p h
  · intro p hp
    rcases hy5 p hp with h | h
    · rw [h]; exact ht
    · exact hyr p h
  · intro p hp hpx
    rcases hy5 p hp with h | h
    · rw [h] at hpx; exact htx hpx
    · exact hdis p hpx h
  · intro h4
    subst h4
    rw [hy1]
    unfold TrainXwin.ynew
    have hlen4 : Y.length ≤ 4 := hyl
    simp only [List.length_map, TrainXwin.MAX_MOVE]
    have hM4 : train_4x4_m4.MAX_MOVE = 4 := rfl
    rw [hM4]
    by_cases hlt : Y.length < 4
    · rw [if_pos hlt, if_neg (by omega)]
      simp
    · rw [if_neg hlt, if_pos (by omega)]
      cases Y with
      | nil => simp at hlt
      | cons a rest =>
        simp only [List.length_cons] at hlt hlen4
        have hr : rest.length = 3 := by omega
        simp [hr, List.take_of_length_le]

theorem move_rule_witness :
    LegalPair train_3x3 [0, 4, 8] [1, 2] ∧ (5 : Nat) < train_3x3.CELLS ∧
      (board_of train_3x3 [0, 4, 8] [1, 2]).getD 5 0 = 0 ∧
      place train_3x3 [0, 4, 8] 5 = [4, 8, 5] ∧
      (place train_3x3 [0, 4, 8] 5).Nodup :=
  ⟨by unfold LegalPair; decide, by decide, by decide, by decide,
    (move_rule train_3x3 (Or.inl rfl) [0, 4, 8] [1, 2] (by unfold LegalPair; decide) 5
      (by decide) (by decide)).1.2.2.2.1⟩

/-! ## Canonical forms of states on the board -/

/-- On a state within the board and the budget the record returned by
`canonicalize` holds the image of the state under `trans_id` and its code. -/
theorem canonicalize_fields (b : Params) (hb : b = train_3x3 ∨ b = train_4x4_m4)
    (x y : List Nat) (hxl : x.length ≤ b.MAX_MOVE) (hxr : ∀ p ∈ x, p < b.CELLS)
    (hyl : y.length ≤ b.MAX_MOVE) (hyr : ∀ p ∈ y, p < b.CELLS) :
    (canonicalize b x y).trans_id < 8 ∧
      (canonicalize b x y).x = apply_transform b x (canonicalize b x y).trans_id ∧
      (canonicalize b x y).y = apply_transform b y (canonicalize b x y).trans_id ∧
      encode_state b (canonicalize b x y).x (canonicalize b x y).y = (canonicalize b x y).code := by
  have hlt := canonicalize_code_lt b hb x y hxl hxr hyl hyr
  obtain ⟨_, _, _, h4, _⟩ := canonicalize_fold_inv b x y 8 (canonicalize b x y) rfl
  obtain ⟨hid, hcode, hx, hy⟩ := h4 hlt
  refine ⟨hid, hx, hy, ?_⟩
  rw [hx, hy]
  exact hcode.symm

theorem apply_transform_disjoint (b : Params) (hb : b = train_3x3 ∨ b = train_4x4_m4)
    (x y : List Nat) (hxr : ∀ p ∈ x, p < b.CELLS) (hyr : ∀ p ∈ y, p < b.CELLS)
    (hdis : ∀ p ∈ x, p ∉ y) (t : Nat) (ht : t < 8) :
    ∀ p ∈ apply_transform b x t, p ∉ apply_transform b y t := by
  intro p hpx hpy
  obtain ⟨q, hq, rfl⟩ := List.mem_map.mp hpx
  obtain ⟨q2, hq2, he⟩ := List.mem_map.mp hpy
  have := transform_injective b hb t ht q2 (hyr q2 hq2) q (hxr q hq) he
  subst this
  exact hdis _ hq hq2

theorem legal_transform (b : Params) (hb : b = train_3x3 ∨ b = train_4x4_m4)
    (x y : List Nat) (hl : LegalPair b x y) (t : Nat) (ht : t < 8) :
    LegalPair b (apply_transform b x t) (apply_transform b y t) := by
  obtain ⟨hxn, hyn, hdis, hxl, hyl, hxr, hyr⟩ := hl
  refine ⟨apply_transform_nodup b hb x hxr hxn t ht, apply_transform_nodup b hb y hyr hyn t ht,
    apply_transform_disjoint b hb x y hxr hyr hdis t ht, ?_, ?_,
    apply_transform_range b hb x hxr t ht, apply_transform_range b hb y hyr t ht⟩
  · rw [apply_transform_length]; exact hxl
  · rw [apply_transform_length]; exact hyl

theorem overlap_false_iff (x y : List Nat) : overlap x y = false ↔ ∀ p ∈ x, p ∉ y := by
  unfold overlap
  rw [List.any_eq_false]
  constructor
  · intro h p hp hy
    exact h p hp (by simpa using hy)
  · intro h p hp
    simpa using h p hp

/-- The canonical code of a state within the board and the budget, when both
of its halves decode, when the decoded lengths are `lx = ly` or `lx = ly + 1`
and when the decoded halves do not overlap, is a stored-state code. -/
theorem stored_of_accept (b : Params) (hb : b = train_3x3 ∨ b = train_4x4_m4)
    (x y : List Nat) (hxl : x.length ≤ b.MAX_MOVE) (hxr : ∀ p ∈ x, p < b.CELLS)
    (hyl : y.length ≤ b.MAX_MOVE) (hyr : ∀ p ∈ y, p < b.CELLS) (x1 y1 : List Nat)
    (hdx : decode_list b ((canonicalize b x y).code / b.SEPARATOR) = some x1)
    (hdy : decode_list b ((canonicalize b x y).code % b.SEPARATOR) = some y1)
    (hlen : x1.length = y1.length ∨ x1.length = y1.length + 1)
    (hov : overlap x1 y1 = false) :
    Stored b (canonicalize b x y).code ∧ x1 = (canonicalize b x y).x ∧
      y1 = (canonicalize b x y).y := by
  have hc := consistent_of_mem b hb
  obtain ⟨hid, hx, hy, hcode⟩ := canonicalize_fields b hb x y hxl hxr hyl hyr
  have hcxl : (canonicalize b x y).x.length ≤ b.MAX_MOVE := by
    rw [hx, apply_transform_length]; exact hxl
  have hcyl : (canonicalize b x y).y.length ≤ b.MAX_MOVE := by
    rw [hy, apply_transform_length]; exact hyl
  have hcxr : ∀ p ∈ (canonicalize b x y).x, p < b.CELLS := by
    rw [hx]; exact apply_transform_range b hb x hxr _ hid
  have hcyr : ∀ p ∈ (canonicalize b x y).y, p < b.CELLS := by
    rw [hy]; exact apply_transform_range b hb y hyr _ hid
  have hdiv := encode_state_div b hc _ _ hcxl hcxr hcyl hcyr
  have hmod := encode_state_mod b hc _ _ hcxl hcxr hcyl hcyr
  rw [hcode] at hdiv hmod
  have hx1 := decode_list_of_encode_list b hc _ hcxl hcxr
  have hy1 := decode_list_of_encode_list b hc _ hcyl hcyr
  rw [← hdiv, hdx] at hx1
  rw [← hmod, hdy] at hy1
  have hxn : (canonicalize b x y).x.Nodup := by
    by_contra h
    rw [if_neg h] at hx1
    exact absurd hx1 (by simp)
  have hyn : (canonicalize b x y).y.Nodup := by
    by_contra h
    rw [if_neg h] at hy1
    exact absurd hy1 (by simp)
  rw [if_pos hxn] at hx1
  rw [if_pos hyn] at hy1
  have ex : x1 = (canonicalize b x y).x := Option.some.inj hx1
  have ey : y1 = (canonicalize b x y).y := Option.some.inj hy1
  refine ⟨⟨x1, y1, hdx, hdy, ?_, hlen, ?_⟩, ex, ey⟩
  · rw [ex, ey]
    refine ⟨hxn, hyn, ?_, hcxl, hcyl, hcxr, hcyr⟩
    rw [ex, ey] at hov
    exact (overlap_false_iff _ _).mp hov
  · rw [ex, ey, hx, hy]
    exact canonicalize_code_transform b hb x y hxr hyr _ hid

/-- The canonical code of a legal state with lengths `lx = ly` or
`lx = ly + 1` is a stored-state code, and decodes to the returned sequences. -/
theorem stored_of_legal (b : Params) (hb : b = train_3x3 ∨ b = train_4x4_m4)
    (x y : List Nat) (hl : LegalPair b x y)
    (hlen : x.length = y.length ∨ x.length = y.length + 1) :
    Stored b (canonicalize b x y).code ∧
      decode_list b ((canonicalize b x y).code / b.SEPARATOR) = some (canonicalize b x y).x ∧
      decode_list b ((canonicalize b x y).code % b.SEPARATOR) = some (canonicalize b x y).y ∧
      LegalPair b (canonicalize b x y).x (canonicalize b x y).y := by
  have hc := consistent_of_mem b hb
  obtain ⟨hid, hx, hy, hcode⟩ := canonicalize_fields b hb x y hl.2.2.2.1 hl.2.2.2.2.2.1
    hl.2.2.2.2.1 hl.2.2.2.2.2.2
  have hlc := legal_transform b hb x y hl _ hid
  rw [← hx, ← hy] at hlc
  obtain ⟨hxn, hyn, hdis, hcxl, hcyl, hcxr, hcyr⟩ := hlc
  have hdiv := encode_state_div b hc _ _ hcxl hcxr hcyl hcyr
  have hmod := encode_state_mod b hc _ _ hcxl hcxr hcyl hcyr
  rw [hcode] at hdiv hmod
  have hx1 := decode_list_of_encode_list b hc _ hcxl hcxr
  have hy1 := decode_list_of_encode_list b hc _ hcyl hcyr
  rw [← hdiv, if_pos hxn] at hx1
  rw [← hmod, if_pos hyn] at hy1
  have hlen2 : (canonicalize b x y).x.length = (canonicalize b x y).y.length ∨
      (canonicalize b x y).x.length = (canonicalize b x y).y.length + 1 := by
    rw [hx, hy, apply_transform_length, apply_transform_length]; exact hlen
  refine ⟨?_, hx1, hy1, ⟨hxn, hyn, hdis, hcxl, hcyl, hcxr, hcyr⟩⟩
  exact (stored_of_accept b hb x y hl.2.2.2.1 hl.2.2.2.2.2.1 hl.2.2.2.2.1 hl.2.2.2.2.2.2 _ _
    hx1 hy1 hlen2 ((overlap_false_iff _ _).mpr hdis)).1

/-! ## The containers during `train` -/

theorem upd_same {α : Type} (m : Nat → α) (k : Nat) (v : α) : upd m k v k = v := by
  simp [upd]

theorem upd_other {α : Type} (m : Nat → α) (k j : Nat) (v : α) (h : j ≠ k) :
    upd m k v j = m j := by
  simp [upd, h]

theorem upd_eq_self {α : Type} (m : Nat → α) (k : Nat) (v : α) (h : m k = v) :
    upd m k v = m := by
  funext j
  by_cases hj : j = k
  · subst hj; rw [upd_same, h]
  · rw [upd_other m k j v hj]

theorem mem_set_insert (l : List Nat) (a c : Nat) : c ∈ set_insert l a ↔ c ∈ l ∨ c = a := by
  unfold set_insert
  by_cases h : a ∈ l
  · rw [if_pos h]
    constructor
    · exact Or.inl
    · rintro (h1 | h1)
      · exact h1
      · rw [h1]; exact h
  · rw [if_neg h, List.mem_append, List.mem_singleton]

theorem TrainInv.not_key_zero {b : Params} {st : TrainState} (h : TrainInv b st) (s : Nat)
    (hs : s ∉ st.keys) :
    st.g_states s = StateInfo.zero ∧ st.g_edge0 s = [] ∧ st.g_edge1 s = [] := by
  refine ⟨h.other_label s (fun hw => hs (h.wins_sub s hw).1) (fun hl => hs (h.loses_sub s hl).1),
    ?_, ?_⟩
  · by_contra hne
    exact hs (h.edge_src0 s hne).1
  · by_contra hne
    exact hs (h.edge_src1 s hne).1

/-- Under the invariant `add_state` only records the key. -/
theorem add_state_eq {b : Params} {st : TrainState} (h : TrainInv b st) (s : Nat) :
    add_state st s = { st with keys := if s ∈ st.keys then st.keys else st.keys ++ [s] } := by
  unfold add_state
  by_cases hs : s ∈ st.keys
  · rw [if_pos hs, if_pos hs]
  · rw [if_neg hs, if_neg hs]
    obtain ⟨h1, h2, h3⟩ := h.not_key_zero s hs
    rw [upd_eq_self _ _ _ h1, upd_eq_self _ _ _ h2, upd_eq_self _ _ _ h3]

theorem mem_keys_add (keys : List Nat) (s c : Nat) :
    c ∈ (if s ∈ keys then keys else keys ++ [s]) ↔ c ∈ keys ∨ c = s := by
  by_cases hs : s ∈ keys
  · rw [if_pos hs]
    constructor
    · exact Or.inl
    · rintro (h1 | h1)
      · exact h1
      · rw [h1]; exact hs
  · rw [if_neg hs, List.mem_append, List.mem_singleton]

theorem nodup_keys_add (keys : List Nat) (s : Nat) (h : keys.Nodup) :
    (if s ∈ keys then keys else keys ++ [s]).Nodup := by
  by_cases hs : s ∈ keys
  · rw [if_pos hs]; exact h
  · rw [if_neg hs, List.nodup_append]
    refine ⟨h, List.nodup_singleton s, ?_⟩
    intro a ha hb
    rw [List.mem_singleton] at hb
    subst hb
    exact hs ha

/-- Adding the key of a stored state keeps the invariant. -/
theorem inv_add_state {b : Params} {st : TrainState} (h : TrainInv b st) (s : Nat)
    (hs : Stored b s) : TrainInv b (add_state st s) := by
  rw [add_state_eq h s]
  exact {
    keys_nodup := nodup_keys_add _ _ h.keys_nodup
    stored := by
      intro c hc
      rcases (mem_keys_add _ _ _).mp hc with h1 | h1
      · exact h.stored c h1
      · rw [h1]; exact hs
    canons_stored := h.canons_stored
    wins_sub := fun c hc => ⟨(mem_keys_add _ _ _).mpr (Or.inl (h.wins_sub c hc).1),
      (h.wins_sub c hc).2⟩
    loses_sub := fun c hc => ⟨(mem_keys_add _ _ _).mpr (Or.inl (h.loses_sub c hc).1),
      (h.loses_sub c hc).2⟩
    wins_label := h.wins_label
    loses_label := h.loses_label
    other_label := h.other_label
    wins_verdict := h.wins_verdict
    loses_verdict := h.loses_verdict
    edge_src0 := fun c hc => ⟨(mem_keys_add _ _ _).mpr (Or.inl (h.edge_src0 c hc).1),
      (h.edge_src0 c hc).2⟩
    edge_src1 := fun c hc => ⟨(mem_keys_add _ _ _).mpr (Or.inl (h.edge_src1 c hc).1),
      (h.edge_src1 c hc).2⟩
    edge_tgt0 := fun c t ht => (mem_keys_add _ _ _).mpr (Or.inl (h.edge_tgt0 c t ht))
    edge_tgt1 := fun c t ht => (mem_keys_add _ _ _).mpr (Or.inl (h.edge_tgt1 c t ht)) }

theorem add_state_fields (st : TrainState) (s : Nat) :
    (add_state st s).canons = st.canons ∧ (add_state st s).g_wins = st.g_wins ∧
      (add_state st s).g_loses = st.g_loses ∧ s ∈ (add_state st s).keys ∧
      ∀ c ∈ st.keys, c ∈ (add_state st s).keys := by
  unfold add_state
  by_cases hs : s ∈ st.keys
  · rw [if_pos hs]
    exact ⟨rfl, rfl, rfl, hs, fun c hc => hc⟩
  · rw [if_neg hs]
    exact ⟨rfl, rfl, rfl, List.mem_append_right _ (List.mem_singleton_self s),
      fun c hc => List.mem_append_left _ hc⟩

/-- A property kept by every step of a left fold holds of its result. -/
theorem foldl_invariant {α β : Type} (P : β → Prop) (f : β → α → β) (l : List α) (init : β)
    (h0 : P init) (hstep : ∀ acc a, a ∈ l → P acc → P (f acc a)) : P (l.foldl f init) := by
  induction l generalizing init with
  | nil => exact h0
  | cons a rest ih =>
    rw [List.foldl_cons]
    apply ih
    · exact hstep init a (List.mem_cons_self _ _) h0
    · intro acc c hc hacc
      exact hstep acc c (List.mem_cons_of_mem _ hc) hacc

/-- An accepted edge keeps the invariant; a rejected one changes nothing. -/
theorem inv_add_edge {b : Params} {st : TrainState} (h : TrainInv b st) (from_s to_s player : Nat)
    (hfrom : EdgeSource b st from_s)
    (hto : ∀ x1 y1, decode_list b (to_s / b.SEPARATOR) = some x1 →
      decode_list b (to_s % b.SEPARATOR) = some y1 →
      (x1.length = y1.length ∨ x1.length = y1.length + 1) → overlap x1 y1 = false →
      Stored b to_s) :
    TrainInv b (add_edge b st from_s to_s player) ∧
      (add_edge b st from_s to_s player).canons = st.canons ∧
      (add_edge b st from_s to_s player).g_wins = st.g_wins ∧
      (add_edge b st from_s to_s player).g_loses = st.g_loses := by
  unfold add_edge
  cases hdx : decode_list b (to_s / b.SEPARATOR) with
  | none => exact ⟨h, rfl, rfl, rfl⟩
  | some x1 =>
    cases hdy : decode_list b (to_s % b.SEPARATOR) with
    | none => exact ⟨h, rfl, rfl, rfl⟩
    | some y1 =>
      simp only []
      by_cases hlen : x1.length ≠ y1.length ∧ x1.length ≠ y1.length + 1
      · rw [if_pos hlen]; exact ⟨h, rfl, rfl, rfl⟩
      · rw [if_neg hlen]
        by_cases hov : overlap x1 y1 = true
        · rw [if_pos hov]; exact ⟨h, rfl, rfl, rfl⟩
        · rw [if_neg hov]
          have hlen2 : x1.length = y1.length ∨ x1.length = y1.length + 1 := by
            by_contra hc
            push_neg at hc
            exact hlen hc
          have hst := hto x1 y1 hdx hdy hlen2 (by simpa using hov)
          obtain ⟨hfs, hfc, hfw, hfl⟩ := hfrom
          have h1 := inv_add_state h from_s hfs
          have h2 := inv_add_state h1 to_s hst
          obtain ⟨e1c, e1w, e1l, e1k, e1m⟩ := add_state_fields st from_s
          obtain ⟨e2c, e2w, e2l, e2k, e2m⟩ := add_state_fields (add_state st from_s) to_s
          have hfk : from_s ∈ (add_state (add_state st from_s) to_s).keys := e2m _ e1k
          have hcan : (add_state (add_state st from_s) to_s).canons = st.canons := by
            rw [e2c, e1c]
          have hwin : (add_state (add_state st from_s) to_s).g_wins = st.g_wins := by
            rw [e2w, e1w]
          have hlos : (add_state (add_state st from_s) to_s).g_loses = st.g_loses := by
            rw [e2l, e1l]
          generalize add_state (add_state st from_s) to_s = st2 at h2 e2k hfk hcan hwin hlos
          by_cases hp : player = 0
          · rw [if_pos hp]
            refine ⟨?_, hcan, hwin, hlos⟩
            exact {
              keys_nodup := h2.keys_nodup
              stored := h2.stored
              canons_stored := h2.canons_stored
              wins_sub := h2.wins_sub
              loses_sub := h2.loses_sub
              wins_label := h2.wins_label
              loses_label := h2.loses_label
              other_label := h2.other_label
              wins_verdict := h2.wins_verdict
              loses_verdict := h2.loses_verdict
              edge_src0 := by
                intro c hc
                by_cases hcf : c = from_s
                · rw [hcf]
                  exact ⟨hfk, by rw [hcan]; exact hfc, by rw [hwin]; exact hfw,
                    by rw [hlos]; exact hfl⟩
                · apply h2.edge_src0 c
                  simpa [upd_other _ _ _ _ hcf] using hc
              edge_src1 := h2.edge_src1
              edge_tgt0 := by
                intro c t ht
                by_cases hcf : c = from_s
                · subst hcf
                  simp only [upd_same, List.mem_append, List.mem_singleton] at ht
                  rcases ht with ht | ht
                  · exact h2.edge_tgt0 c t ht
                  · rw [ht]; exact e2k
                · apply h2.edge_tgt0 c t
                  simpa [upd_other _ _ _ _ hcf] using ht
              edge_tgt1 := h2.edge_tgt1 }
          · rw [if_neg hp]
            refine ⟨?_, hcan, hwin, hlos⟩
            exact {
              keys_nodup := h2.keys_nodup
              stored := h2.stored
              canons_stored := h2.canons_stored
              wins_sub := h2.wins_sub
              loses_sub := h2.loses_sub
              wins_label := h2.wins_label
              loses_label := h2.loses_label
              other_label := h2.other_label
              wins_verdict := h2.wins_verdict
              loses_verdict := h2.loses_verdict
              edge_src0 := h2.edge_src0
              edge_src1 := by
                intro c hc
                by_cases hcf : c = from_s
                · rw [hcf]
                  exact ⟨hfk, by rw [hcan]; exact hfc, by rw [hwin]; exact hfw,
                    by rw [hlos]; exact hfl⟩
                · apply h2.edge_src1 c
                  simpa [upd_other _ _ _ _ hcf] using hc
              edge_tgt0 := h2.edge_tgt0
              edge_tgt1 := by
                intro c t ht
                by_cases hcf : c = from_s
                · subst hcf
                  simp only [upd_same, List.mem_append, List.mem_singleton] at ht
                  rcases ht with ht | ht
                  · exact h2.edge_tgt1 c t ht
                  · rw [ht]; exact e2k
                · apply h2.edge_tgt1 c t
                  simpa [upd_other _ _ _ _ hcf] using ht }

theorem place_in_board (b : Params) (seq : List Nat) (t : Nat) (hlen : seq.length ≤ b.MAX_MOVE)
    (hrange : ∀ p ∈ seq, p < b.CELLS) (ht : t < b.CELLS) :
    (place b seq t).length ≤ b.MAX_MOVE ∧ ∀ p ∈ place b seq t, p < b.CELLS := by
  have hmem : ∀ p ∈ seq ++ [t], p < b.CELLS := by
    intro p hp
    rcases List.mem_append.mp hp with h | h
    · exact hrange p h
    · rw [List.mem_singleton.mp h]; exact ht
  unfold place
  by_cases hover : (seq ++ [t]).length > b.MAX_MOVE
  · rw [if_pos hover]
    refine ⟨?_, fun p hp => hmem p (List.mem_of_mem_tail hp)⟩
    rw [List.length_tail, List.length_append, List.length_singleton]
    omega
  · rw [if_neg hover]
    exact ⟨by omega, hmem⟩

theorem add_state_of_zero (st : TrainState) (s : Nat)
    (hz : s ∉ st.keys → st.g_states s = StateInfo.zero ∧ st.g_edge0 s = [] ∧ st.g_edge1 s = []) :
    add_state st s = { st with keys := if s ∈ st.keys then st.keys else st.keys ++ [s] } := by
  unfold add_state
  by_cases hs : s ∈ st.keys
  · rw [if_pos hs, if_pos hs]
  · rw [if_neg hs, if_neg hs]
    obtain ⟨h1, h2, h3⟩ := hz hs
    rw [upd_eq_self _ _ _ h1, upd_eq_self _ _ _ h2, upd_eq_self _ _ _ h3]

/-- One cell of the edge loop keeps the invariant and leaves `canons`,
`g_wins` and `g_loses` as they are. -/
theorem inv_train_cell {b : Params} (hb : b = train_3x3 ∨ b = train_4x4_m4) {st : TrainState}
    (h : TrainInv b st) (code : Nat) (cx cy : List Nat) (board : List Int) (t : Nat)
    (ht : t < b.CELLS) (hfrom : EdgeSource b st code)
    (hxl : cx.length ≤ b.MAX_MOVE) (hxr : ∀ p ∈ cx, p < b.CELLS)
    (hyl : cy.length ≤ b.MAX_MOVE) (hyr : ∀ p ∈ cy, p < b.CELLS) :
    TrainInv b (train_cell b code cx cy board st t) ∧
      (train_cell b code cx cy board st t).canons = st.canons ∧
      (train_cell b code cx cy board st t).g_wins = st.g_wins ∧
      (train_cell b code cx cy board st t).g_loses = st.g_loses := by
  unfold train_cell
  by_cases hcell : board.getD t 0 ≠ 0
  · rw [if_pos hcell]; exact ⟨h, rfl, rfl, rfl⟩
  · rw [if_neg hcell]
    simp only []
    obtain ⟨hpxl, hpxr⟩ := place_in_board b cx t hxl hxr ht
    obtain ⟨hpyl, hpyr⟩ := place_in_board b cy t hyl hyr ht
    obtain ⟨h1, c1, w1, l1⟩ := inv_add_edge h code (canonicalize b (place b cx t) cy).code 0 hfrom
      (fun x1 y1 hdx hdy hlen hov =>
        (stored_of_accept b hb _ _ hpxl hpxr hyl hyr x1 y1 hdx hdy hlen hov).1)
    have hfrom1 : EdgeSource b (add_edge b st code (canonicalize b (place b cx t) cy).code 0)
        code := by
      obtain ⟨a1, a2, a3, a4⟩ := hfrom
      exact ⟨a1, by rw [c1]; exact a2, by rw [w1]; exact a3, by rw [l1]; exact a4⟩
    obtain ⟨h2, c2, w2, l2⟩ := inv_add_edge h1 code (canonicalize b cx (place b cy t)).code 1
      hfrom1
      (fun x1 y1 hdx hdy hlen hov =>
        (stored_of_accept b hb _ _ hxl hxr hpyl hpyr x1 y1 hdx hdy hlen hov).1)
    exact ⟨h2, by rw [c2, c1], by rw [w2, w1], by rw [l2, l1]⟩

/-- The edge loop over all cells keeps the invariant and leaves `canons`,
`g_wins` and `g_loses` as they are. -/
theorem inv_train_cells {b : Params} (hb : b = train_3x3 ∨ b = train_4x4_m4) {st : TrainState}
    (h : TrainInv b st) (code : Nat) (cx cy : List Nat) (board : List Int)
    (hfrom : EdgeSource b st code)
    (hxl : cx.length ≤ b.MAX_MOVE) (hxr : ∀ p ∈ cx, p < b.CELLS)
    (hyl : cy.length ≤ b.MAX_MOVE) (hyr : ∀ p ∈ cy, p < b.CELLS) :
    TrainInv b ((List.range b.CELLS).foldl (train_cell b code cx cy board) st) ∧
      ((List.range b.CELLS).foldl (train_cell b code cx cy board) st).canons = st.canons ∧
      ((List.range b.CELLS).foldl (train_cell b code cx cy board) st).g_wins = st.g_wins ∧
      ((List.range b.CELLS).foldl (train_cell b code cx cy board) st).g_loses = st.g_loses := by
  apply foldl_invariant
    (fun s => TrainInv b s ∧ s.canons = st.canons ∧ s.g_wins = st.g_wins ∧ s.g_loses = st.g_loses)
  · exact ⟨h, rfl, rfl, rfl⟩
  · rintro acc t ht ⟨ha, hc, hw, hl⟩
    have hfrom1 : EdgeSource b acc code := by
      obtain ⟨a1, a2, a3, a4⟩ := hfrom
      exact ⟨a1, by rw [hc]; exact a2, by rw [hw]; exact a3, by rw [hl]; exact a4⟩
    obtain ⟨h2, c2, w2, l2⟩ := inv_train_cell hb ha code cx cy board t (List.mem_range.mp ht)
      hfrom1 hxl hxr hyl hyr
    exact ⟨h2, by rw [c2, hc], by rw [w2, hw], by rw [l2, hl]⟩

/-- Classifying a new canonical code as a terminal `win` keeps the invariant. -/
theorem inv_classify_win {b : Params} {st : TrainState} (h : TrainInv b st) (code : Nat)
    (hnew : code ∉ st.canons) (hst : Stored b code) (hv : verdict b code = 1) :
    TrainInv b
      (set_dp (add_state { st with canons := set_insert st.canons code,
                                   g_wins := set_insert st.g_wins code } code) code (1)) := by
  have hnw : code ∉ st.g_wins := fun hc => hnew (h.wins_sub code hc).2
  have hnl : code ∉ st.g_loses := fun hc => hnew (h.loses_sub code hc).2
  have hzero := h.other_label code hnw hnl
  rw [add_state_of_zero { st with canons := set_insert st.canons code,
                                   g_wins := set_insert st.g_wins code } code
    (fun hk => h.not_key_zero code hk)]
  unfold set_dp
  simp only [hzero, StateInfo.zero]
  exact {
    keys_nodup := nodup_keys_add _ _ h.keys_nodup
    stored := by
      intro c hc
      rcases (mem_keys_add _ _ _).mp hc with h1 | h1
      · exact h.stored c h1
      · rw [h1]; exact hst
    canons_stored := by
      intro c hc
      rcases (mem_set_insert _ _ _).mp hc with h1 | h1
      · exact h.canons_stored c h1
      · rw [h1]; exact hst
    wins_sub := by
      intro c hc
      rcases (mem_set_insert _ _ _).mp hc with h1 | h1
      · exact ⟨(mem_keys_add _ _ _).mpr (Or.inl (h.wins_sub c h1).1),
          (mem_set_insert _ _ _).mpr (Or.inl (h.wins_sub c h1).2)⟩
      · exact ⟨(mem_keys_add _ _ _).mpr (Or.inr h1), (mem_set_insert _ _ _).mpr (Or.inr h1)⟩
    loses_sub := by
      intro c hc
      exact ⟨(mem_keys_add _ _ _).mpr (Or.inl (h.loses_sub c hc).1),
        (mem_set_insert _ _ _).mpr (Or.inl (h.loses_sub c hc).2)⟩
    wins_label := by
      intro c hc
      rcases (mem_set_insert _ _ _).mp hc with h1 | h1
      · have hne : c ≠ code := fun e => hnew (e ▸ (h.wins_sub c h1).2)
        simp only [upd_other _ _ _ _ hne]
        exact h.wins_label c h1
      · rw [h1]
        simp only [upd_same]
    loses_label := by
      intro c hc
      have hne : c ≠ code := fun e => hnew (e ▸ (h.loses_sub c hc).2)
      simp only [upd_other _ _ _ _ hne]
      exact h.loses_label c hc
    other_label := by
      intro c hcw hcl
      have hne : c ≠ code := by
        intro e
        apply hcw
        exact (mem_set_insert _ _ _).mpr (Or.inr e)
      simp only [upd_other _ _ _ _ hne]
      exact h.other_label c (fun hm => hcw ((mem_set_insert _ _ _).mpr (Or.inl hm))) hcl
    wins_verdict := by
      intro c hc
      rcases (mem_set_insert _ _ _).mp hc with h1 | h1
      · have hne : c ≠ code := fun e => hnew (e ▸ h1)
        rw [← h.wins_verdict c h1]
        constructor
        · intro hm
          rcases (mem_set_insert _ _ _).mp hm with h2 | h2
          · exact h2
          · exact absurd h2 hne
        · exact fun hm => (mem_set_insert _ _ _).mpr (Or.inl hm)
      · rw [h1]
        constructor
        · exact fun _ => hv
        · exact fun _ => (mem_set_insert _ _ _).mpr (Or.inr rfl)
    loses_verdict := by
      intro c hc
      rcases (mem_set_insert _ _ _).mp hc with h1 | h1
      · have hne : c ≠ code := fun e => hnew (e ▸ h1)
        exact h.loses_verdict c h1
      · rw [h1]
        constructor
        · exact fun hm => absurd hm hnl
        · intro hm; rw [hv] at hm; exact absurd hm (by decide)
    edge_src0 := by
      intro c hc
      obtain ⟨a1, a2, a3, a4⟩ := h.edge_src0 c hc
      have hne : c ≠ code := fun e => hnew (e ▸ a2)
      exact ⟨(mem_keys_add _ _ _).mpr (Or.inl a1), (mem_set_insert _ _ _).mpr (Or.inl a2),
        fun hm => (mem_set_insert _ _ _).mp hm |>.elim a3 hne, a4⟩
    edge_src1 := by
      intro c hc
      obtain ⟨a1, a2, a3, a4⟩ := h.edge_src1 c hc
      have hne : c ≠ code := fun e => hnew (e ▸ a2)
      exact ⟨(mem_keys_add _ _ _).mpr (Or.inl a1), (mem_set_insert _ _ _).mpr (Or.inl a2),
        fun hm => (mem_set_insert _ _ _).mp hm |>.elim a3 hne, a4⟩
    edge_tgt0 := fun c t ht => (mem_keys_add _ _ _).mpr (Or.inl (h.edge_tgt0 c t ht))
    edge_tgt1 := fun c t ht => (mem_keys_add _ _ _).mpr (Or.inl (h.edge_tgt1 c t ht)) }

/-- Classifying a new canonical code as a terminal `lose` keeps the invariant. -/
theorem inv_classify_lose {b : Params} {st : TrainState} (h : TrainInv b st) (code : Nat)
    (hnew : code ∉ st.canons) (hst : Stored b code) (hv : verdict b code = -1) :
    TrainInv b
      (set_dp (add_state { st with canons := set_insert st.canons code,
                                   g_loses := set_insert st.g_loses code } code) code (-1)) := by
  have hnw : code ∉ st.g_wins := fun hc => hnew (h.wins_sub code hc).2
  have hnl : code ∉ st.g_loses := fun hc => hnew (h.loses_sub code hc).2
  have hzero := h.other_label code hnw hnl
  rw [add_state_of_zero { st with canons := set_insert st.canons code,
                                   g_loses := set_insert st.g_loses code } code
    (fun hk => h.not_key_zero code hk)]
  unfold set_dp
  simp only [hzero, StateInfo.zero]
  exact {
    keys_nodup := nodup_keys_add _ _ h.keys_nodup
    stored := by
      intro c hc
      rcases (mem_keys_add _ _ _).mp hc with h1 | h1
      · exact h.stored c h1
      · rw [h1]; exact hst
    canons_stored := by
      intro c hc
      rcases (mem_set_insert _ _ _).mp hc with h1 | h1
      · exact h.canons_stored c h1
      · rw [h1]; exact hst
    wins_sub := by
      intro c hc
      exact ⟨(mem_keys_add _ _ _).mpr (Or.inl (h.wins_sub c hc).1),
        (mem_set_insert _ _ _).mpr (Or.inl (h.wins_sub c hc).2)⟩
    loses_sub := by
      intro c hc
      rcases (mem_set_insert _ _ _).mp hc with h1 | h1
      · exact ⟨(mem_keys_add _ _ _).mpr (Or.inl (h.loses_sub c h1).1),
          (mem_set_insert _ _ _).mpr (Or.inl (h.loses_sub c h1).2)⟩
      · exact ⟨(mem_keys_add _ _ _).mpr (Or.inr h1), (mem_set_insert _ _ _).mpr (Or.inr h1)⟩
    wins_label := by
      intro c hc
      have hne : c ≠ code := fun e => hnew (e ▸ (h.wins_sub c hc).2)
      simp only [upd_other _ _ _ _ hne]
      exact h.wins_label c hc
    loses_label := by
      intro c hc
      rcases (mem_set_insert _ _ _).mp hc with h1 | h1
      · have hne : c ≠ code := fun e => hnew (e ▸ (h.loses_sub c h1).2)
        simp only [upd_other _ _ _ _ hne]
        exact h.loses_label c h1
      · rw [h1]
        simp only [upd_same]
    other_label := by
      intro c hcw hcl
      have hne : c ≠ code := by
        intro e
        apply hcl
        exact (mem_set_insert _ _ _).mpr (Or.inr e)
      simp only [upd_other _ _ _ _ hne]
      exact h.other_label c hcw (fun hm => hcl ((mem_set_insert _ _ _).mpr (Or.inl hm)))
    wins_verdict := by
      intro c hc
      rcases (mem_set_insert _ _ _).mp hc with h1 | h1
      · have hne : c ≠ code := fun e => hnew (e ▸ h1)
        exact h.wins_verdict c h1
      · rw [h1]
        constructor
        · exact fun hm => absurd hm hnw
        · intro hm; rw [hv] at hm; exact absurd hm (by decide)
    loses_verdict := by
      intro c hc
      rcases (mem_set_insert _ _ _).mp hc with h1 | h1
      · have hne : c ≠ code := fun e => hnew (e ▸ h1)
        rw [← h.loses_verdict c h1]
        constructor
        · intro hm
          rcases (mem_set_insert _ _ _).mp hm with h2 | h2
          · exact h2
          · exact absurd h2 hne
        · exact fun hm => (mem_set_insert _ _ _).mpr (Or.inl hm)
      · rw [h1]
        constructor
        · exact fun _ => hv
        · exact fun _ => (mem_set_insert _ _ _).mpr (Or.inr rfl)
    edge_src0 := by
      intro c hc
      obtain ⟨a1, a2, a3, a4⟩ := h.edge_src0 c hc
      have hne : c ≠ code := fun e => hnew (e ▸ a2)
      exact ⟨(mem_keys_add _ _ _).mpr (Or.inl a1), (mem_set_insert _ _ _).mpr (Or.inl a2),
        a3, fun hm => (mem_set_insert _ _ _).mp hm |>.elim a4 hne⟩
    edge_src1 := by
      intro c hc
      obtain ⟨a1, a2, a3, a4⟩ := h.edge_src1 c hc
      have hne : c ≠ code := fun e => hnew (e ▸ a2)
      exact ⟨(mem_keys_add _ _ _).mpr (Or.inl a1), (mem_set_insert _ _ _).mpr (Or.inl a2),
        a3, fun hm => (mem_set_insert _ _ _).mp hm |>.elim a4 hne⟩
    edge_tgt0 := fun c t ht => (mem_keys_add _ _ _).mpr (Or.inl (h.edge_tgt0 c t ht))
    edge_tgt1 := fun c t ht => (mem_keys_add _ _ _).mpr (Or.inl (h.edge_tgt1 c t ht)) }

theorem verdict_of_decode (b : Params) (c : Nat) (x y : List Nat)
    (hx : decode_list b (c / b.SEPARATOR) = some x)
    (hy : decode_list b (c % b.SEPARATOR) = some y) : verdict b c = check_result b x y := by
  unfold verdict
  rw [hx, hy]

/-- Recording a new canonical code in `canons` keeps the invariant when the
code is not a terminal one. -/
theorem inv_visit_nonterminal {b : Params} {st : TrainState} (h : TrainInv b st) (code : Nat)
    (hnew : code ∉ st.canons) (hst : Stored b code) (hv1 : verdict b code ≠ 1)
    (hv2 : verdict b code ≠ -1) :
    TrainInv b { st with canons := set_insert st.canons code } := by
  have hnw : code ∉ st.g_wins := fun hc => hnew (h.wins_sub code hc).2
  have hnl : code ∉ st.g_loses := fun hc => hnew (h.loses_sub code hc).2
  exact {
    keys_nodup := h.keys_nodup
    stored := h.stored
    canons_stored := by
      intro c hc
      rcases (mem_set_insert _ _ _).mp hc with h1 | h1
      · exact h.canons_stored c h1
      · rw [h1]; exact hst
    wins_sub := fun c hc => ⟨(h.wins_sub c hc).1,
      (mem_set_insert _ _ _).mpr (Or.inl (h.wins_sub c hc).2)⟩
    loses_sub := fun c hc => ⟨(h.loses_sub c hc).1,
      (mem_set_insert _ _ _).mpr (Or.inl (h.loses_sub c hc).2)⟩
    wins_label := h.wins_label
    loses_label := h.loses_label
    other_label := h.other_label
    wins_verdict := by
      intro c hc
      rcases (mem_set_insert _ _ _).mp hc with h1 | h1
      · exact h.wins_verdict c h1
      · rw [h1]
        exact ⟨fun hm => absurd hm hnw, fun hm => absurd hm hv1⟩
    loses_verdict := by
      intro c hc
      rcases (mem_set_insert _ _ _).mp hc with h1 | h1
      · exact h.loses_verdict c h1
      · rw [h1]
        exact ⟨fun hm => absurd hm hnl, fun hm => absurd hm hv2⟩
    edge_src0 := fun c hc => ⟨(h.edge_src0 c hc).1,
      (mem_set_insert _ _ _).mpr (Or.inl (h.edge_src0 c hc).2.1), (h.edge_src0 c hc).2.2⟩
    edge_src1 := fun c hc => ⟨(h.edge_src1 c hc).1,
      (mem_set_insert _ _ _).mpr (Or.inl (h.edge_src1 c hc).2.1), (h.edge_src1 c hc).2.2⟩
    edge_tgt0 := h.edge_tgt0
    edge_tgt1 := h.edge_tgt1 }

/-- The body of the enumeration loop keeps the invariant, never removes a
code from `canons`, and records the canonical code of every state that passes
its two tests. -/
theorem inv_train_visit {b : Params} (hb : b = train_3x3 ∨ b = train_4x4_m4) {st : TrainState}
    (h : TrainInv b st) (x y : List Nat) (hxn : x.Nodup) (hyn : y.Nodup)
    (hxl : x.length ≤ b.MAX_MOVE) (hyl : y.length ≤ b.MAX_MOVE)
    (hxr : ∀ p ∈ x, p < b.CELLS) (hyr : ∀ p ∈ y, p < b.CELLS) :
    TrainInv b (train_visit b st x y) ∧
      (∀ c ∈ st.canons, c ∈ (train_visit b st x y).canons) ∧
      ((x.length = y.length ∨ x.length = y.length + 1) → (∀ p ∈ x, p ∉ y) →
        (canonicalize b x y).code ∈ (train_visit b st x y).canons) := by
  unfold train_visit
  by_cases hlen : x.length ≠ y.length ∧ x.length ≠ y.length + 1
  · rw [if_pos hlen]
    refine ⟨h, fun c hc => hc, ?_⟩
    intro hl2 _
    rcases hl2 with e | e
    · exact absurd e hlen.1
    · exact absurd e hlen.2
  · rw [if_neg hlen]
    have hlen2 : x.length = y.length ∨ x.length = y.length + 1 := by
      by_contra hc
      push_neg at hc
      exact hlen hc
    by_cases hov : overlap x y = true
    · rw [if_pos hov]
      refine ⟨h, fun c hc => hc, ?_⟩
      intro _ hdis
      have := (overlap_false_iff x y).mpr hdis
      rw [this] at hov
      exact absurd hov (by decide)
    · rw [if_neg hov]
      have hdis : ∀ p ∈ x, p ∉ y := (overlap_false_iff x y).mp (by simpa using hov)
      have hlegal : LegalPair b x y := ⟨hxn, hyn, hdis, hxl, hyl, hxr, hyr⟩
      obtain ⟨hst, hdx, hdy, hlc⟩ := stored_of_legal b hb x y hlegal hlen2
      have hverd := verdict_of_decode b _ _ _ hdx hdy
      simp only []
      by_cases hin : (canonicalize b x y).code ∈ st.canons
      · rw [if_pos hin]
        exact ⟨h, fun c hc => hc, fun _ _ => hin⟩
      · rw [if_neg hin]
        by_cases hr1 : check_result b (canonicalize b x y).x (canonicalize b x y).y = 1
        · rw [if_pos hr1]
          refine ⟨inv_classify_win h _ hin hst (by rw [hverd]; exact hr1), ?_, ?_⟩
          · intro c hc
            change c ∈ (add_state _ _).canons
            rw [(add_state_fields _ _).1]
            exact (mem_set_insert _ _ _).mpr (Or.inl hc)
          · intro _ _
            change _ ∈ (add_state _ _).canons
            rw [(add_state_fields _ _).1]
            exact (mem_set_insert _ _ _).mpr (Or.inr rfl)
        · rw [if_neg hr1]
          by_cases hr2 : check_result b (canonicalize b x y).x (canonicalize b x y).y = -1
          · rw [if_pos hr2]
            refine ⟨inv_classify_lose h _ hin hst (by rw [hverd]; exact hr2), ?_, ?_⟩
            · intro c hc
              change c ∈ (add_state _ _).canons
              rw [(add_state_fields _ _).1]
              exact (mem_set_insert _ _ _).mpr (Or.inl hc)
            · intro _ _
              change _ ∈ (add_state _ _).canons
              rw [(add_state_fields _ _).1]
              exact (mem_set_insert _ _ _).mpr (Or.inr rfl)
          · rw [if_neg hr2]
            have h1 := inv_visit_nonterminal h _ hin hst (by rw [hverd]; exact hr1)
              (by rw [hverd]; exact hr2)
            have hsrc : EdgeSource b
                (TrainState.mk (set_insert st.canons (canonicalize b x y).code) st.keys
                  st.g_states st.g_edge0 st.g_edge1 st.g_wins st.g_loses)
                (canonicalize b x y).code :=
              ⟨hst, (mem_set_insert _ _ _).mpr (Or.inr rfl),
                fun hc => hin (h.wins_sub _ hc).2, fun hc => hin (h.loses_sub _ hc).2⟩
            obtain ⟨h2, c2, _, _⟩ := inv_train_cells hb h1 _ _ _
              (board_of b (canonicalize b x y).x (canonicalize b x y).y) hsrc
              hlc.2.2.2.1 hlc.2.2.2.2.2.1 hlc.2.2.2.2.1 hlc.2.2.2.2.2.2
            refine ⟨h2, ?_, ?_⟩
            · intro c hc
              rw [c2]
              exact (mem_set_insert _ _ _).mpr (Or.inl hc)
            · intro _ _
              rw [c2]
              exact (mem_set_insert _ _ _).mpr (Or.inr rfl)

/-! ## The enumerations of `train` -/

theorem digits_length_le (B M m : Nat) (hB : 1 < B) (hm : m < B ^ M) :
    (Nat.digits B m).length ≤ M := by
  rcases Nat.eq_zero_or_pos m with h0 | hpos
  · subst h0; simp
  · have h1 := Nat.base_pow_length_digits_le B m hB (by omega)
    have h2 : B * m < B ^ (M + 1) := by
      rw [pow_succ, Nat.mul_comm]
      exact Nat.mul_lt_mul_of_pos_right hm (by omega)
    have h3 : B ^ (Nat.digits B m).length < B ^ (M + 1) := lt_of_le_of_lt h1 h2
    have h4 := (Nat.pow_lt_pow_iff_right hB).mp h3
    omega

/-- A code below `SEPARATOR` that decodes gives a duplicate-free sequence on
the board, within the budget, whose code it is. -/
theorem decode_valid (b : Params) (hb : b = train_3x3 ∨ b = train_4x4_m4) (c : Nat)
    (hc : c < b.SEPARATOR) (ps : List Nat) (hd : decode_list b c = some ps) :
    ps.Nodup ∧ (∀ p ∈ ps, p < b.CELLS) ∧ ps.length ≤ b.MAX_MOVE ∧ encode_list b ps = c := by
  have hB := base_gt_one b hb
  have hcons := consistent_of_mem b hb
  obtain ⟨h0, hnd, hps⟩ := decode_list_some b hB c ps hd
  refine ⟨?_, ?_, ?_, ?_⟩
  · rw [hps]; exact (pred_map_nodup _ h0).mpr hnd
  · intro p hp
    rw [hps] at hp
    obtain ⟨d, hdm, rfl⟩ := List.mem_map.mp hp
    have h1 := Nat.digits_lt_base hB hdm
    have h2 : d ≠ 0 := fun e => h0 (e ▸ hdm)
    have h3 := hcons.1
    omega
  · rw [hps, List.length_map]
    apply digits_length_le b.BASE b.MAX_MOVE c hB
    rw [← hcons.2.2.1]; exact hc
  · rw [encode_list_eq_mod, hps, digitsOf_pred_map _ h0, Nat.ofDigits_digits]
    exact Nat.mod_eq_of_lt (lt_trans hc (separator_lt b hcons))

theorem inv_init (b : Params) : TrainInv b TrainState.init := by
  exact {
    keys_nodup := List.nodup_nil
    stored := fun s hs => absurd hs (List.not_mem_nil s)
    canons_stored := fun s hs => absurd hs (List.not_mem_nil s)
    wins_sub := fun s hs => absurd hs (List.not_mem_nil s)
    loses_sub := fun s hs => absurd hs (List.not_mem_nil s)
    wins_label := fun s hs => absurd hs (List.not_mem_nil s)
    loses_label := fun s hs => absurd hs (List.not_mem_nil s)
    other_label := fun _ _ _ => rfl
    wins_verdict := fun s hs => absurd hs (List.not_mem_nil s)
    loses_verdict := fun s hs => absurd hs (List.not_mem_nil s)
    edge_src0 := fun s hs => absurd rfl hs
    edge_src1 := fun s hs => absurd rfl hs
    edge_tgt0 := fun s t ht => absurd ht (List.not_mem_nil t)
    edge_tgt1 := fun s t ht => absurd ht (List.not_mem_nil t) }

/-- A property that every step of a left fold keeps and that the step on
one element of the list establishes holds of the result. -/
theorem foldl_establish {α β : Type} (I Q : β → Prop) (f : β → α → β) (l : List α) (init : β)
    (a : α) (ha : a ∈ l) (h0 : I init) (hI : ∀ acc c, c ∈ l → I acc → I (f acc c))
    (hest : ∀ acc, I acc → Q (f acc a)) (hkeep : ∀ acc c, c ∈ l → I acc → Q acc → Q (f acc c)) :
    Q (l.foldl f init) := by
  induction l generalizing init with
  | nil => exact absurd ha (List.not_mem_nil a)
  | cons c rest ih =>
    rw [List.foldl_cons]
    have hI1 : I (f init c) := hI init c (List.mem_cons_self _ _) h0
    rcases List.mem_cons.mp ha with h1 | h1
    · subst h1
      have hq : Q (f init a) := hest init h0
      have : I (rest.foldl f (f init a)) ∧ Q (rest.foldl f (f init a)) := by
        apply foldl_invariant (fun s => I s ∧ Q s)
        · exact ⟨hI1, hq⟩
        · rintro acc d hd ⟨h2, h3⟩
          exact ⟨hI acc d (List.mem_cons_of_mem _ hd) h2,
            hkeep acc d (List.mem_cons_of_mem _ hd) h2 h3⟩
      exact this.2
    · exact ih (f init c) h1 hI1
        (fun acc d hd => hI acc d (List.mem_cons_of_mem _ hd))
        (fun acc d hd => hkeep acc d (List.mem_cons_of_mem _ hd))

theorem Train3x3.inv_train_step {st : TrainState} (h : TrainInv train_3x3 st) (code : Nat)
    (hcode : code < train_3x3.SEPARATOR * train_3x3.SEPARATOR) :
    TrainInv train_3x3 (Train3x3.train_step st code) ∧
      ∀ c ∈ st.canons, c ∈ (Train3x3.train_step st code).canons := by
  have hb : train_3x3 = train_3x3 ∨ train_3x3 = train_4x4_m4 := Or.inl rfl
  unfold Train3x3.train_step
  cases hdx : decode_list train_3x3 (code / train_3x3.SEPARATOR) with
  | none => exact ⟨h, fun c hc => hc⟩
  | some x =>
    cases hdy : decode_list train_3x3 (code % train_3x3.SEPARATOR) with
    | none => exact ⟨h, fun c hc => hc⟩
    | some y =>
      have hx := decode_valid train_3x3 hb _
        (Nat.div_lt_of_lt_mul hcode) x hdx
      have hy := decode_valid train_3x3 hb _ (Nat.mod_lt _ (by decide)) y hdy
      have := inv_train_visit hb h x y hx.1 hy.1 hx.2.2.1 hy.2.2.1 hx.2.1 hy.2.1
      exact ⟨this.1, this.2.1⟩

/-- The invariant holds after `train` of `train_3x3.cpp`. -/
theorem Train3x3.train_inv_3x3 : TrainInv train_3x3 Train3x3.train := by
  unfold Train3x3.train
  apply foldl_invariant (TrainInv train_3x3)
  · exact inv_init _
  · intro acc code hcode hacc
    exact (Train3x3.inv_train_step hacc code (List.mem_range.mp hcode)).1

/-- `train` of `train_3x3.cpp` records the canonical code of every legal
state whose lengths are `lx = ly` or `lx = ly + 1`. -/
theorem Train3x3.train_complete_3x3 (x y : List Nat) (hl : LegalPair train_3x3 x y)
    (hlen : x.length = y.length ∨ x.length = y.length + 1) :
    (canonicalize train_3x3 x y).code ∈ Train3x3.train.canons := by
  have hb : train_3x3 = train_3x3 ∨ train_3x3 = train_4x4_m4 := Or.inl rfl
  have hc := train_3x3_consistent
  obtain ⟨hxn, hyn, hdis, hxl, hyl, hxr, hyr⟩ := hl
  obtain ⟨he, hex, hey⟩ := encode_state_eq train_3x3 hc x y hxl hxr hyl hyr
  have hdiv := encode_state_div train_3x3 hc x y hxl hxr hyl hyr
  have hmod := encode_state_mod train_3x3 hc x y hxl hxr hyl hyr
  have hlt : encode_state train_3x3 x y < train_3x3.SEPARATOR * train_3x3.SEPARATOR := by
    rw [he]
    calc encode_list train_3x3 x * train_3x3.SEPARATOR + encode_list train_3x3 y
        < encode_list train_3x3 x * train_3x3.SEPARATOR + train_3x3.SEPARATOR :=
          Nat.add_lt_add_left hey _
      _ = (encode_list train_3x3 x + 1) * train_3x3.SEPARATOR := by
          rw [Nat.add_mul, Nat.one_mul]
      _ ≤ train_3x3.SEPARATOR * train_3x3.SEPARATOR := Nat.mul_le_mul_right _ hex
  unfold Train3x3.train
  apply foldl_establish (TrainInv train_3x3)
    (fun s => (canonicalize train_3x3 x y).code ∈ s.canons) Train3x3.train_step _ _
    (encode_state train_3x3 x y) (List.mem_range.mpr hlt) (inv_init _)
  · intro acc code hcode hacc
    exact (Train3x3.inv_train_step hacc code (List.mem_range.mp hcode)).1
  · intro acc hacc
    unfold Train3x3.train_step
    rw [hdiv, hmod, decode_list_of_encode_list train_3x3 hc x hxl hxr, if_pos hxn,
      decode_list_of_encode_list train_3x3 hc y hyl hyr, if_pos hyn]
    exact (inv_train_visit hb hacc x y hxn hyn hxl hyl hxr hyr).2.2 hlen hdis
  · intro acc code hcode hacc hq
    exact (Train3x3.inv_train_step hacc code (List.mem_range.mp hcode)).2 _ hq


/-- With fuel at least `tmp` the unchecked loop appends the base-17 digits
of `tmp`, each lowered by one. -/
theorem Train4x4.raw_decode_loop_eq (fuel tmp : Nat) (x : List Nat) (hfuel : tmp ≤ fuel) :
    Train4x4.raw_decode_loop fuel tmp x =
      x ++ (Nat.digits train_4x4_m4.BASE tmp).map (· - 1) := by
  have hB : 1 < train_4x4_m4.BASE := by decide
  induction fuel generalizing tmp x with
  | zero =>
    have h0 : tmp = 0 := by omega
    subst h0
    simp [Train4x4.raw_decode_loop]
  | succ fuel ih =>
    rcases Nat.eq_zero_or_pos tmp with h0 | hpos
    · subst h0
      simp [Train4x4.raw_decode_loop]
    · have hdig := Nat.digits_def' hB hpos
      have hdiv : tmp / train_4x4_m4.BASE ≤ fuel := by
        have := Nat.div_lt_self hpos hB
        omega
      have hne : tmp ≠ 0 := by omega
      unfold Train4x4.raw_decode_loop
      rw [if_pos hne, ih _ _ hdiv, hdig]
      simp

/-- On a code that `decode_list` accepts, the unchecked loops of `train`
read the same sequence. -/
theorem Train4x4.raw_decode_of_decode (c : Nat) (ps : List Nat)
    (h : decode_list train_4x4_m4 c = some ps) : Train4x4.raw_decode c = ps := by
  obtain ⟨_, _, hps⟩ := decode_list_some train_4x4_m4 (by decide) c ps h
  unfold Train4x4.raw_decode
  rw [Train4x4.raw_decode_loop_eq c c [] (Nat.le_refl _), hps]
  rfl

/-- The members of the two lists built by the loop of `precompute_valid`. -/
theorem Train4x4.mem_precompute_fold (l : List Nat) (acc : List Nat × List Nat) (c : Nat) :
    (c ∈ (l.foldl Train4x4.precompute_step acc).2 ↔
      c ∈ acc.2 ∨ (c ∈ l ∧ ∃ ps, decode_list train_4x4_m4 c = some ps)) ∧
    (c ∈ (l.foldl Train4x4.precompute_step acc).1 ↔
      c ∈ acc.1 ∨ (c ∈ l ∧ ∃ ps, decode_list train_4x4_m4 c = some ps ∧
        (ps.isEmpty || [1, 2, 6].contains (ps.getLastD 0 + 1)) = true)) := by
  induction l generalizing acc with
  | nil => simp
  | cons a rest ih =>
    rw [List.foldl_cons]
    have h := ih (Train4x4.precompute_step acc a)
    rw [h.1, h.2]
    unfold Train4x4.precompute_step
    cases hd : decode_list train_4x4_m4 a with
    | none =>
      simp only [List.mem_cons]
      constructor
      · constructor
        · rintro (h1 | ⟨h1, h2⟩)
          · exact Or.inl h1
          · exact Or.inr ⟨Or.inr h1, h2⟩
        · rintro (h1 | ⟨h1 | h1, ps, h2⟩)
          · exact Or.inl h1
          · rw [h1, hd] at h2; exact absurd h2 (by simp)
          · exact Or.inr ⟨h1, ps, h2⟩
      · constructor
        · rintro (h1 | ⟨h1, h2⟩)
          · exact Or.inl h1
          · exact Or.inr ⟨Or.inr h1, h2⟩
        · rintro (h1 | ⟨h1 | h1, ps, h2, _⟩)
          · exact Or.inl h1
          · rw [h1, hd] at h2; exact absurd h2 (by simp)
          · exact Or.inr ⟨h1, ps, by assumption, by assumption⟩
    | some qs =>
      by_cases ht : (qs.isEmpty || [1, 2, 6].contains (qs.getLastD 0 + 1)) = true
      · simp only [ht, if_true, List.mem_cons, List.mem_append, List.not_mem_nil, or_false]
        constructor
        · constructor
          · rintro ((h1 | h1) | ⟨h1, h2⟩)
            · exact Or.inl h1
            · exact Or.inr ⟨Or.inl h1, qs, h1 ▸ hd⟩
            · exact Or.inr ⟨Or.inr h1, h2⟩
          · rintro (h1 | ⟨h1 | h1, h2⟩)
            · exact Or.inl (Or.inl h1)
            · exact Or.inl (Or.inr h1)
            · exact Or.inr ⟨h1, h2⟩
        · constructor
          · rintro ((h1 | h1) | ⟨h1, h2⟩)
            · exact Or.inl h1
            · exact Or.inr ⟨Or.inl h1, qs, h1 ▸ hd, ht⟩
            · exact Or.inr ⟨Or.inr h1, h2⟩
          · rintro (h1 | ⟨h1 | h1, h2⟩)
            · exact Or.inl (Or.inl h1)
            · exact Or.inl (Or.inr h1)
            · exact Or.inr ⟨h1, h2⟩
      · simp only [ht, Bool.false_eq_true, if_false, List.mem_cons, List.mem_append,
          List.not_mem_nil, or_false]
        constructor
        · constructor
          · rintro ((h1 | h1) | ⟨h1, h2⟩)
            · exact Or.inl h1
            · exact Or.inr ⟨Or.inl h1, qs, h1 ▸ hd⟩
            · exact Or.inr ⟨Or.inr h1, h2⟩
          · rintro (h1 | ⟨h1 | h1, h2⟩)
            · exact Or.inl (Or.inl h1)
            · exact Or.inl (Or.inr h1)
            · exact Or.inr ⟨h1, h2⟩
        · constructor
          · rintro (h1 | ⟨h1, h2⟩)
            · exact Or.inl h1
            · exact Or.inr ⟨Or.inr h1, h2⟩
          · rintro (h1 | ⟨h1 | h1, ps, h2, h3⟩)
            · exact Or.inl h1
            · rw [h1, hd] at h2
              rw [Option.some.inj h2] at ht
              exact absurd h3 ht
            · exact Or.inr ⟨h1, ps, h2, h3⟩

/-- The list `y_valid`: the codes below `SEPARATOR` that decode. -/
theorem Train4x4.mem_y_valid (c : Nat) :
    c ∈ Train4x4.precompute_valid.2 ↔
      c < train_4x4_m4.SEPARATOR ∧ ∃ ps, decode_list train_4x4_m4 c = some ps := by
  unfold Train4x4.precompute_valid
  rw [(Train4x4.mem_precompute_fold _ _ c).1]
  simp [List.mem_range]

/-- The list `x_valid`: the codes of `y_valid` that are empty or whose most
significant digit is 1, 2 or 6. -/
theorem Train4x4.mem_x_valid (c : Nat) :
    c ∈ Train4x4.precompute_valid.1 ↔
      c < train_4x4_m4.SEPARATOR ∧ ∃ ps, decode_list train_4x4_m4 c = some ps ∧
        (ps.isEmpty || [1, 2, 6].contains (ps.getLastD 0 + 1)) = true := by
  unfold Train4x4.precompute_valid
  rw [(Train4x4.mem_precompute_fold _ _ c).2]
  simp [List.mem_range]


theorem Train4x4.inv_visit {st : TrainState} (h : TrainInv train_4x4_m4 st) (xc yc : Nat)
    (hx : Train4x4.ValidCode xc) (hy : Train4x4.ValidCode yc) :
    TrainInv train_4x4_m4
        (train_visit train_4x4_m4 st (Train4x4.raw_decode xc) (Train4x4.raw_decode yc)) ∧
      (∀ c ∈ st.canons, c ∈ (train_visit train_4x4_m4 st (Train4x4.raw_decode xc)
        (Train4x4.raw_decode yc)).canons) ∧
      ((Train4x4.raw_decode xc).length = (Train4x4.raw_decode yc).length ∨
          (Train4x4.raw_decode xc).length = (Train4x4.raw_decode yc).length + 1 →
        (∀ p ∈ Train4x4.raw_decode xc, p ∉ Train4x4.raw_decode yc) →
        (canonicalize train_4x4_m4 (Train4x4.raw_decode xc) (Train4x4.raw_decode yc)).code ∈
          (train_visit train_4x4_m4 st (Train4x4.raw_decode xc)
            (Train4x4.raw_decode yc)).canons) := by
  have hb : train_4x4_m4 = train_3x3 ∨ train_4x4_m4 = train_4x4_m4 := Or.inr rfl
  obtain ⟨hxlt, x, hdx⟩ := hx
  obtain ⟨hylt, y, hdy⟩ := hy
  rw [Train4x4.raw_decode_of_decode xc x hdx, Train4x4.raw_decode_of_decode yc y hdy]
  have hxv := decode_valid train_4x4_m4 hb xc hxlt x hdx
  have hyv := decode_valid train_4x4_m4 hb yc hylt y hdy
  exact inv_train_visit hb h x y hxv.1 hyv.1 hxv.2.2.1 hyv.2.2.1 hxv.2.1 hyv.2.1

theorem Train4x4.inv_inner {st : TrainState} (h : TrainInv train_4x4_m4 st) (xc : Nat)
    (hx : Train4x4.ValidCode xc) (ys : List Nat) (hys : ∀ yc ∈ ys, Train4x4.ValidCode yc) :
    TrainInv train_4x4_m4
        (ys.foldl (fun st2 y_code => train_visit train_4x4_m4 st2 (Train4x4.raw_decode xc)
          (Train4x4.raw_decode y_code)) st) ∧
      ∀ c ∈ st.canons, c ∈ (ys.foldl (fun st2 y_code => train_visit train_4x4_m4 st2
        (Train4x4.raw_decode xc) (Train4x4.raw_decode y_code)) st).canons := by
  apply foldl_invariant (fun s => TrainInv train_4x4_m4 s ∧ ∀ c ∈ st.canons, c ∈ s.canons)
  · exact ⟨h, fun c hc => hc⟩
  · rintro acc yc hyc ⟨h1, h2⟩
    have := Train4x4.inv_visit h1 xc yc hx (hys yc hyc)
    exact ⟨this.1, fun c hc => this.2.1 c (h2 c hc)⟩

/-- The invariant holds after `train` of `train_4x4_m4.cpp` on lists of
valid codes. -/
theorem Train4x4.train_inv_4x4 (xs ys : List Nat) (hxs : ∀ xc ∈ xs, Train4x4.ValidCode xc)
    (hys : ∀ yc ∈ ys, Train4x4.ValidCode yc) :
    TrainInv train_4x4_m4 (Train4x4.train xs ys) := by
  unfold Train4x4.train
  apply foldl_invariant (TrainInv train_4x4_m4)
  · exact inv_init _
  · intro acc xc hxc hacc
    exact (Train4x4.inv_inner hacc xc (hxs xc hxc) ys hys).1

/-- `train` of `train_4x4_m4.cpp` records the canonical code of every legal
state with `lx = ly` or `lx = ly + 1` whose two codes are in its lists. -/
theorem Train4x4.train_complete_4x4 (xs ys : List Nat) (hxs : ∀ xc ∈ xs, Train4x4.ValidCode xc)
    (hys : ∀ yc ∈ ys, Train4x4.ValidCode yc) (x y : List Nat)
    (hl : LegalPair train_4x4_m4 x y)
    (hlen : x.length = y.length ∨ x.length = y.length + 1)
    (hx : encode_list train_4x4_m4 x ∈ xs) (hy : encode_list train_4x4_m4 y ∈ ys) :
    (canonicalize train_4x4_m4 x y).code ∈ (Train4x4.train xs ys).canons := by
  have hc := train_4x4_m4_consistent
  obtain ⟨hxn, hyn, hdis, hxl, hyl, hxr, hyr⟩ := hl
  have hdx : decode_list train_4x4_m4 (encode_list train_4x4_m4 x) = some x := by
    rw [decode_list_of_encode_list train_4x4_m4 hc x hxl hxr, if_pos hxn]
  have hdy : decode_list train_4x4_m4 (encode_list train_4x4_m4 y) = some y := by
    rw [decode_list_of_encode_list train_4x4_m4 hc y hyl hyr, if_pos hyn]
  have hrx := Train4x4.raw_decode_of_decode _ x hdx
  have hry := Train4x4.raw_decode_of_decode _ y hdy
  unfold Train4x4.train
  apply foldl_establish (TrainInv train_4x4_m4)
    (fun s => (canonicalize train_4x4_m4 x y).code ∈ s.canons) _ xs TrainState.init
    (encode_list train_4x4_m4 x) hx (inv_init _)
  · intro acc xc hxc hacc
    exact (Train4x4.inv_inner hacc xc (hxs xc hxc) ys hys).1
  · intro acc hacc
    apply foldl_establish (TrainInv train_4x4_m4)
      (fun s => (canonicalize train_4x4_m4 x y).code ∈ s.canons) _ ys acc
      (encode_list train_4x4_m4 y) hy hacc
    · intro acc2 yc hyc hacc2
      exact (Train4x4.inv_visit hacc2 _ yc (hxs _ hx) (hys yc hyc)).1
    · intro acc2 hacc2
      have := (Train4x4.inv_visit hacc2 _ _ (hxs _ hx) (hys _ hy)).2.2
      rw [hrx, hry] at this
      show (canonicalize train_4x4_m4 x y).code ∈ (train_visit train_4x4_m4 acc2
        (Train4x4.raw_decode (encode_list train_4x4_m4 x))
        (Train4x4.raw_decode (encode_list train_4x4_m4 y))).canons
      rw [hrx, hry]
      exact this hlen hdis
    · intro acc2 yc hyc hacc2 hq
      exact (Train4x4.inv_visit hacc2 _ yc (hxs _ hx) (hys yc hyc)).2.1 _ hq
  · intro acc xc hxc hacc hq
    exact (Train4x4.inv_inner hacc xc (hxs xc hxc) ys hys).2 _ hq

theorem Train4x4.x_valid_valid : ∀ xc ∈ Train4x4.precompute_valid.1, Train4x4.ValidCode xc := by
  intro xc h
  obtain ⟨h1, ps, h2, _⟩ := (Train4x4.mem_x_valid xc).mp h
  exact ⟨h1, ps, h2⟩

theorem Train4x4.y_valid_valid : ∀ yc ∈ Train4x4.precompute_valid.2, Train4x4.ValidCode yc :=
  fun yc h => (Train4x4.mem_y_valid yc).mp h

/-- The invariant holds after `train` on either board. -/
theorem inv_train_result (b : Params) (hb : b = train_3x3 ∨ b = train_4x4_m4) :
    TrainInv b (train_result b) := by
  rcases hb with rfl | rfl
  · exact Train3x3.train_inv_3x3
  · exact Train4x4.train_inv_4x4 _ _ Train4x4.x_valid_valid Train4x4.y_valid_valid


/-! ## The symmetry-break prune of `precompute_valid` -/

/-- Of two sequences of the same length, the one with the smaller last
position has the smaller code. -/
theorem encode_list_lt_of_last_lt (b : Params) (hb : b.Consistent) (i1 i2 : List Nat)
    (a c : Nat) (hlen : i1.length = i2.length) (hl : (i2 ++ [c]).length ≤ b.MAX_MOVE)
    (h1 : ∀ p ∈ i1 ++ [a], p < b.CELLS) (h2 : ∀ p ∈ i2 ++ [c], p < b.CELLS) (hac : a < c) :
    encode_list b (i1 ++ [a]) < encode_list b (i2 ++ [c]) := by
  have hl1 : (i1 ++ [a]).length ≤ b.MAX_MOVE := by
    rw [List.length_append] at hl ⊢
    rw [hlen]; exact hl
  have hB : 1 < b.BASE := by have := hb.1; have := hb.2.1; omega
  rw [encode_list_eq b hb _ hl1 h1, encode_list_eq b hb _ hl h2]
  unfold digitsOf
  rw [List.map_append, List.map_append, Nat.ofDigits_append, Nat.ofDigits_append,
    List.length_map, List.length_map, hlen]
  simp only [List.map_cons, List.map_nil, Nat.ofDigits_singleton]
  have hi1 : Nat.ofDigits b.BASE (i1.map (· + 1)) < b.BASE ^ i2.length := by
    have hd : ∀ d ∈ i1.map (· + 1), d < b.BASE := by
      intro d hd
      obtain ⟨p, hp, rfl⟩ := List.mem_map.mp hd
      have := h1 p (List.mem_append_left _ hp)
      have := hb.1
      omega
    have := Nat.ofDigits_lt_base_pow_length hB hd
    rw [List.length_map, hlen] at this
    exact this
  calc Nat.ofDigits b.BASE (i1.map (· + 1)) + b.BASE ^ i2.length * (a + 1)
      < b.BASE ^ i2.length + b.BASE ^ i2.length * (a + 1) := Nat.add_lt_add_right hi1 _
    _ = b.BASE ^ i2.length * (a + 1 + 1) := by ring
    _ ≤ b.BASE ^ i2.length * (c + 1) := Nat.mul_le_mul_left _ (by omega)
    _ ≤ Nat.ofDigits b.BASE (i2.map (· + 1)) + b.BASE ^ i2.length * (c + 1) :=
        Nat.le_add_left _ _

/-- A smaller X code gives a smaller state code. -/
theorem encode_state_lt_of_x (b : Params) (hb : b.Consistent) (x1 y1 x2 y2 : List Nat)
    (hx1l : x1.length ≤ b.MAX_MOVE) (hx1r : ∀ p ∈ x1, p < b.CELLS)
    (hy1l : y1.length ≤ b.MAX_MOVE) (hy1r : ∀ p ∈ y1, p < b.CELLS)
    (hx2l : x2.length ≤ b.MAX_MOVE) (hx2r : ∀ p ∈ x2, p < b.CELLS)
    (hy2l : y2.length ≤ b.MAX_MOVE) (hy2r : ∀ p ∈ y2, p < b.CELLS)
    (h : encode_list b x1 < encode_list b x2) :
    encode_state b x1 y1 < encode_state b x2 y2 := by
  obtain ⟨he1, _, hy1⟩ := encode_state_eq b hb x1 y1 hx1l hx1r hy1l hy1r
  obtain ⟨he2, _, _⟩ := encode_state_eq b hb x2 y2 hx2l hx2r hy2l hy2r
  rw [he1, he2]
  calc encode_list b x1 * b.SEPARATOR + encode_list b y1
      < encode_list b x1 * b.SEPARATOR + b.SEPARATOR := Nat.add_lt_add_left hy1 _
    _ = (encode_list b x1 + 1) * b.SEPARATOR := by rw [Nat.add_mul, Nat.one_mul]
    _ ≤ encode_list b x2 * b.SEPARATOR := Nat.mul_le_mul_right _ h
    _ ≤ encode_list b x2 * b.SEPARATOR + encode_list b y2 := Nat.le_add_right _ _

set_option maxRecDepth 100000 in
/-- Every cell of the 4x4 board other than 0, 1 and 5 is moved to a smaller
cell by one of the eight transforms. -/
theorem smaller_image_4x4 : ∀ p < 16, p ≠ 0 → p ≠ 1 → p ≠ 5 →
    ∃ s < 8, transform train_4x4_m4 s p < p := by
  decide

/-- In the canonical representative of a state of the 4x4 board within
budget whose X is not empty, the last position of X is 0, 1 or 5. -/
theorem canonical_last_4x4 (x y : List Nat) (hxl : x.length ≤ train_4x4_m4.MAX_MOVE)
    (hxr : ∀ p ∈ x, p < train_4x4_m4.CELLS) (hyl : y.length ≤ train_4x4_m4.MAX_MOVE)
    (hyr : ∀ p ∈ y, p < train_4x4_m4.CELLS) (hx : x ≠ []) :
    (canonicalize train_4x4_m4 x y).x ≠ [] ∧
      ((canonicalize train_4x4_m4 x y).x.getLastD 0 = 0 ∨
        (canonicalize train_4x4_m4 x y).x.getLastD 0 = 1 ∨
        (canonicalize train_4x4_m4 x y).x.getLastD 0 = 5) := by
  have hb : train_4x4_m4 = train_3x3 ∨ train_4x4_m4 = train_4x4_m4 := Or.inr rfl
  have hc := train_4x4_m4_consistent
  obtain ⟨htid, hrx, hry, henc⟩ := canonicalize_fields train_4x4_m4 hb x y hxl hxr hyl hyr
  obtain ⟨ini, l, rfl⟩ : ∃ ini l, x = ini ++ [l] :=
    ⟨x.dropLast, x.getLast hx, (List.dropLast_append_getLast hx).symm⟩
  have hxeq : (canonicalize train_4x4_m4 (ini ++ [l]) y).x =
      apply_transform train_4x4_m4 ini (canonicalize train_4x4_m4 (ini ++ [l]) y).trans_id ++
        [transform train_4x4_m4 (canonicalize train_4x4_m4 (ini ++ [l]) y).trans_id l] := by
    rw [hrx]; unfold apply_transform; rw [List.map_append]; rfl
  have hlast : (canonicalize train_4x4_m4 (ini ++ [l]) y).x.getLastD 0 =
      transform train_4x4_m4 (canonicalize train_4x4_m4 (ini ++ [l]) y).trans_id l := by
    rw [hxeq, List.getLastD_eq_getLast?, List.getLast?_append]
    simp
  refine ⟨by rw [hxeq]; simp, ?_⟩
  rw [hlast]
  by_contra hne
  push_neg at hne
  have hlr : l < train_4x4_m4.CELLS := hxr l (List.mem_append_right _ (List.mem_singleton_self l))
  have hpr := transform_range train_4x4_m4 hb _ htid l hlr
  obtain ⟨s, hs, hlt⟩ := smaller_image_4x4 _ hpr hne.1 hne.2.1 hne.2.2
  obtain ⟨u, hu, hcomp⟩ := transform_closed train_4x4_m4 hb s hs _ htid
  have hmin := canonicalize_code_le train_4x4_m4 (ini ++ [l]) y u hu
  have hxs := apply_transform_comp train_4x4_m4 (ini ++ [l]) hxr s _ u hcomp
  have hys := apply_transform_comp train_4x4_m4 y hyr s _ u hcomp
  have hlt2 : code_at train_4x4_m4 (ini ++ [l]) y u <
      (canonicalize train_4x4_m4 (ini ++ [l]) y).code := by
    unfold code_at
    rw [← hxs, ← hys, ← henc, hrx, hry]
    have hrxr := apply_transform_range train_4x4_m4 hb (ini ++ [l]) hxr _ htid
    have hryr := apply_transform_range train_4x4_m4 hb y hyr _ htid
    apply encode_state_lt_of_x train_4x4_m4 hc
    · rw [apply_transform_length, apply_transform_length]; exact hxl
    · exact apply_transform_range train_4x4_m4 hb _ hrxr s hs
    · rw [apply_transform_length, apply_transform_length]; exact hyl
    · exact apply_transform_range train_4x4_m4 hb _ hryr s hs
    · rw [apply_transform_length]; exact hxl
    · exact hrxr
    · rw [apply_transform_length]; exact hyl
    · exact hryr
    · have e1 : apply_transform train_4x4_m4 (ini ++ [l])
          (canonicalize train_4x4_m4 (ini ++ [l]) y).trans_id =
          apply_transform train_4x4_m4 ini (canonicalize train_4x4_m4 (ini ++ [l]) y).trans_id ++
          [transform train_4x4_m4 (canonicalize train_4x4_m4 (ini ++ [l]) y).trans_id l] := by
        unfold apply_transform; rw [List.map_append]; rfl
      have e2 : apply_transform train_4x4_m4 (apply_transform train_4x4_m4 (ini ++ [l])
          (canonicalize train_4x4_m4 (ini ++ [l]) y).trans_id) s =
          apply_transform train_4x4_m4 (apply_transform train_4x4_m4 ini
            (canonicalize train_4x4_m4 (ini ++ [l]) y).trans_id) s ++
          [transform train_4x4_m4 s
            (transform train_4x4_m4 (canonicalize train_4x4_m4 (ini ++ [l]) y).trans_id l)] := by
        rw [e1]; unfold apply_transform; rw [List.map_append]; rfl
      have hrxr1 := hrxr
      rw [e1] at hrxr1
      have hrxr2 := apply_transform_range train_4x4_m4 hb _ hrxr s hs
      rw [e2] at hrxr2
      rw [e2, e1]
      apply encode_list_lt_of_last_lt train_4x4_m4 hc _ _ _ _ _ _ hrxr2 hrxr1 hlt
      · rw [apply_transform_length]
      · rw [← e1, apply_transform_length]; exact hxl
  omega


/-- The X half of the canonical representative of a legal state of the 4x4
board is in `x_valid`, the Y half in `y_valid`. -/
theorem Train4x4.canonical_in_valid (x y : List Nat) (hl : LegalPair train_4x4_m4 x y)
    (hlen : x.length = y.length ∨ x.length = y.length + 1) :
    encode_list train_4x4_m4 (canonicalize train_4x4_m4 x y).x ∈ Train4x4.precompute_valid.1 ∧
      encode_list train_4x4_m4 (canonicalize train_4x4_m4 x y).y ∈
        Train4x4.precompute_valid.2 := by
  have hb : train_4x4_m4 = train_3x3 ∨ train_4x4_m4 = train_4x4_m4 := Or.inr rfl
  have hc := train_4x4_m4_consistent
  obtain ⟨_, _, _, hcl⟩ := stored_of_legal train_4x4_m4 hb x y hl hlen
  obtain ⟨hxn, hyn, hdis, hxl, hyl, hxr, hyr⟩ := hl
  obtain ⟨hcxn, hcyn, _, hcxl, hcyl, hcxr, hcyr⟩ := hcl
  obtain ⟨_, hex, hey⟩ := encode_state_eq train_4x4_m4 hc _ _ hcxl hcxr hcyl hcyr
  have hdx := decode_list_of_encode_list train_4x4_m4 hc _ hcxl hcxr
  have hdy := decode_list_of_encode_list train_4x4_m4 hc _ hcyl hcyr
  rw [if_pos hcxn] at hdx
  rw [if_pos hcyn] at hdy
  constructor
  · rw [Train4x4.mem_x_valid]
    refine ⟨hex, _, hdx, ?_⟩
    by_cases hx : x = []
    · have : (canonicalize train_4x4_m4 x y).x = [] := by
        rw [(canonicalize_fields train_4x4_m4 hb x y hxl hxr hyl hyr).2.1, hx]; rfl
      rw [this]; rfl
    · obtain ⟨_, h⟩ := canonical_last_4x4 x y hxl hxr hyl hyr hx
      rcases h with h | h | h <;> rw [h] <;> simp
  · rw [Train4x4.mem_y_valid]
    exact ⟨hey, _, hdy⟩

/-- Canonicalizing the canonical representative gives the same code. -/
theorem canonicalize_idem (b : Params) (hb : b = train_3x3 ∨ b = train_4x4_m4)
    (x y : List Nat) (hxl : x.length ≤ b.MAX_MOVE) (hxr : ∀ p ∈ x, p < b.CELLS)
    (hyl : y.length ≤ b.MAX_MOVE) (hyr : ∀ p ∈ y, p < b.CELLS) :
    (canonicalize b (canonicalize b x y).x (canonicalize b x y).y).code =
      (canonicalize b x y).code := by
  obtain ⟨htid, hrx, hry, _⟩ := canonicalize_fields b hb x y hxl hxr hyl hyr
  rw [hrx, hry]
  exact canonicalize_code_transform b hb x y hxr hyr _ htid

/-- On the 4x4 board `train` over lists that contain `x_valid` and consist
of valid codes records exactly the stored codes. -/
theorem Train4x4.canons_iff_4x4 (xs : List Nat) (hxs : ∀ xc ∈ xs, Train4x4.ValidCode xc)
    (hsup : ∀ xc ∈ Train4x4.precompute_valid.1, xc ∈ xs) (c : Nat) :
    c ∈ (Train4x4.train xs Train4x4.precompute_valid.2).canons ↔ Stored train_4x4_m4 c := by
  have hb : train_4x4_m4 = train_3x3 ∨ train_4x4_m4 = train_4x4_m4 := Or.inr rfl
  constructor
  · exact (Train4x4.train_inv_4x4 xs _ hxs Train4x4.y_valid_valid).canons_stored c
  · rintro ⟨x, y, _, _, hl, hlen, hcode⟩
    obtain ⟨_, _, _, hcl⟩ := stored_of_legal train_4x4_m4 hb x y hl hlen
    obtain ⟨hvx, hvy⟩ := Train4x4.canonical_in_valid x y hl hlen
    have hlen2 : (canonicalize train_4x4_m4 x y).x.length =
          (canonicalize train_4x4_m4 x y).y.length ∨
        (canonicalize train_4x4_m4 x y).x.length =
          (canonicalize train_4x4_m4 x y).y.length + 1 := by
      obtain ⟨_, hrx, hry, _⟩ := canonicalize_fields train_4x4_m4 hb x y hl.2.2.2.1
        hl.2.2.2.2.2.1 hl.2.2.2.2.1 hl.2.2.2.2.2.2
      rw [hrx, hry, apply_transform_length, apply_transform_length]
      exact hlen
    have := Train4x4.train_complete_4x4 xs _ hxs Train4x4.y_valid_valid _ _ hcl hlen2
      (hsup _ hvx) hvy
    rw [canonicalize_idem train_4x4_m4 hb x y hl.2.2.2.1 hl.2.2.2.2.2.1 hl.2.2.2.2.1
      hl.2.2.2.2.2.2, hcode] at this
    exact this

/-- After `train` the set `canons` holds exactly the stored codes: the
canonical codes of the legal states with `lx = ly` or `lx = ly + 1`. -/
theorem canons_iff (b : Params) (hb : b = train_3x3 ∨ b = train_4x4_m4) (c : Nat) :
    c ∈ (train_result b).canons ↔ Stored b c := by
  rcases hb with rfl | rfl
  · constructor
    · exact Train3x3.train_inv_3x3.canons_stored c
    · rintro ⟨x, y, _, _, hl, hlen, hcode⟩
      rw [← hcode]
      exact Train3x3.train_complete_3x3 x y hl hlen
  · exact Train4x4.canons_iff_4x4 _ Train4x4.x_valid_valid (fun _ h => h) c

/-- After `train` the canonical code of every legal state with `lx = ly` or
`lx = ly + 1` is in `canons`. -/
theorem train_result_complete (b : Params) (hb : b = train_3x3 ∨ b = train_4x4_m4)
    (x y : List Nat) (hl : LegalPair b x y)
    (hlen : x.length = y.length ∨ x.length = y.length + 1) :
    (canonicalize b x y).code ∈ (train_result b).canons :=
  (canons_iff b hb _).mpr (stored_of_legal b hb x y hl hlen).1


/-! ## The stored states -/

/-- A stored code whose state `check_result` classifies as `+1` is in
`g_wins` after `train`. -/
theorem terminal_win_mem (b : Params) (hb : b = train_3x3 ∨ b = train_4x4_m4) (s : Nat)
    (hs : Stored b s) (hv : verdict b s = 1) : s ∈ (train_result b).g_wins :=
  ((inv_train_result b hb).wins_verdict s ((canons_iff b hb s).mpr hs)).mpr hv

/-- A stored code whose state `check_result` classifies as `-1` is in
`g_loses` after `train`. -/
theorem terminal_lose_mem (b : Params) (hb : b = train_3x3 ∨ b = train_4x4_m4) (s : Nat)
    (hs : Stored b s) (hv : verdict b s = -1) : s ∈ (train_result b).g_loses :=
  ((inv_train_result b hb).loses_verdict s ((canons_iff b hb s).mpr hs)).mpr hv

set_option maxRecDepth 100000 in
/-- The 3x3 state `X = (2, 1, 0)`, `Y = (5, 4)` is stored with code 123056. -/
theorem stored_123056 : Stored train_3x3 123056 :=
  ⟨[2, 1, 0], [5, 4], by decide, by decide, by unfold LegalPair; decide, Or.inr rfl,
    by decide⟩

/-- C16: every state code that `train` stores in `g_states` - as a key, as
the source of an edge, as an edge target accepted by `add_edge`, or as a
terminal of `g_wins` or `g_loses` - is a key whose two halves decode to
duplicate-free sequences `X` and `Y` that are disjoint, with `|X| = |Y|` or
`|X| = |Y| + 1`, and the code is canonical: it is the code that
`canonicalize` gives to `(X, Y)`. -/
theorem stored_states_legal (b : Params) (hb : b = train_3x3 ∨ b = train_4x4_m4) (s : Nat)
    (hs : s ∈ (train_result b).keys ∨ (train_result b).g_edge0 s ≠ [] ∨
      (train_result b).g_edge1 s ≠ [] ∨ (∃ u, s ∈ (train_result b).g_edge0 u) ∨
      (∃ u, s ∈ (train_result b).g_edge1 u) ∨ s ∈ (train_result b).g_wins ∨
      s ∈ (train_result b).g_loses) :
    s ∈ (train_result b).keys ∧
      ∃ x y, decode_list b (s / b.SEPARATOR) = some x ∧
        decode_list b (s % b.SEPARATOR) = some y ∧ x.Nodup ∧ y.Nodup ∧
        (∀ p ∈ x, p ∉ y) ∧ (x.length = y.length ∨ x.length = y.length + 1) ∧
        (canonicalize b x y).code = s ∧ encode_state b x y = s := by
  have hinv := inv_train_result b hb
  have hkey : s ∈ (train_result b).keys := by
    rcases hs with h | h | h | ⟨u, h⟩ | ⟨u, h⟩ | h | h
    · exact h
    · exact (hinv.edge_src0 s h).1
    · exact (hinv.edge_src1 s h).1
    · exact hinv.edge_tgt0 u s h
    · exact hinv.edge_tgt1 u s h
    · exact (hinv.wins_sub s h).1
    · exact (hinv.loses_sub s h).1
  refine ⟨hkey, ?_⟩
  obtain ⟨x, y, hdx, hdy, hl, hlen, hcode⟩ := hinv.stored s hkey
  refine ⟨x, y, hdx, hdy, hl.1, hl.2.1, hl.2.2.1, hlen, hcode, ?_⟩
  have hc := consistent_of_mem b hb
  obtain ⟨hxn, hyn, hdis, hxl, hyl, hxr, hyr⟩ := hl
  have hsep : 0 < b.SEPARATOR := separator_pos b hc
  have hx := decode_valid b hb _ (by
    obtain ⟨_, _, _, h4⟩ := canonicalize_fields b hb x y hxl hxr hyl hyr
    obtain ⟨htid, hrx, hry, _⟩ := canonicalize_fields b hb x y hxl hxr hyl hyr
    have hrxl : (canonicalize b x y).x.length ≤ b.MAX_MOVE := by
      rw [hrx, apply_transform_length]; exact hxl
    have hryl : (canonicalize b x y).y.length ≤ b.MAX_MOVE := by
      rw [hry, apply_transform_length]; exact hyl
    have hrxr : ∀ p ∈ (canonicalize b x y).x, p < b.CELLS := by
      rw [hrx]; exact apply_transform_range b hb x hxr _ htid
    have hryr : ∀ p ∈ (canonicalize b x y).y, p < b.CELLS := by
      rw [hry]; exact apply_transform_range b hb y hyr _ htid
    rw [← hcode, ← h4, encode_state_div b hc _ _ hrxl hrxr hryl hryr]
    exact (encode_state_eq b hc _ _ hrxl hrxr hryl hryr).2.1) x hdx
  have hy := decode_valid b hb _ (Nat.mod_lt _ hsep) y hdy
  rw [(encode_state_eq b hc x y hxl hxr hyl hyr).1, hx.2.2.2, hy.2.2.2]
  exact Nat.div_add_mod' s b.SEPARATOR

theorem stored_states_legal_witness :
    (123056 : Nat) ∈ (train_result train_3x3).keys ∧
      ∃ x y, decode_list train_3x3 (123056 / train_3x3.SEPARATOR) = some x ∧
        decode_list train_3x3 (123056 % train_3x3.SEPARATOR) = some y ∧ x.Nodup ∧ y.Nodup ∧
        (∀ p ∈ x, p ∉ y) ∧ (x.length = y.length ∨ x.length = y.length + 1) ∧
        (canonicalize train_3x3 x y).code = 123056 ∧ encode_state train_3x3 x y = 123056 :=
  stored_states_legal train_3x3 (Or.inl rfl) 123056
    (Or.inr (Or.inr (Or.inr (Or.inr (Or.inr (Or.inl
      (terminal_win_mem train_3x3 (Or.inl rfl) 123056 stored_123056 (by decide))))))))


/-- C17: the symmetry-break prune of `precompute_valid` is sound on the 4x4
board. For every legal state with non-empty X, the X half of the canonical
code decodes to the X sequence of the canonical representative, whose last
position plus one is the most significant base-17 digit of that half, and
this digit is 1, 2 or 6, so the half is in `x_valid`. Hence `train` on
`(x_valid, y_valid)` and `train` on all valid X codes `(y_valid, y_valid)`
collect the same set `canons` of canonical codes. -/
theorem prune_sound (x y : List Nat) (hl : LegalPair train_4x4_m4 x y) (hx : x ≠ []) :
    (∃ ps, decode_list train_4x4_m4
          ((canonicalize train_4x4_m4 x y).code / train_4x4_m4.SEPARATOR) = some ps ∧
        ps = (canonicalize train_4x4_m4 x y).x ∧ ps ≠ [] ∧
        (Nat.digits train_4x4_m4.BASE
          ((canonicalize train_4x4_m4 x y).code / train_4x4_m4.SEPARATOR)).getLastD 0 =
            ps.getLastD 0 + 1 ∧
        (ps.getLastD 0 + 1 = 1 ∨ ps.getLastD 0 + 1 = 2 ∨ ps.getLastD 0 + 1 = 6) ∧
        (canonicalize train_4x4_m4 x y).code / train_4x4_m4.SEPARATOR ∈
          Train4x4.precompute_valid.1) ∧
      ∀ c, c ∈ (Train4x4.train Train4x4.precompute_valid.1
            Train4x4.precompute_valid.2).canons ↔
          c ∈ (Train4x4.train Train4x4.precompute_valid.2
            Train4x4.precompute_valid.2).canons := by
  have hb : train_4x4_m4 = train_3x3 ∨ train_4x4_m4 = train_4x4_m4 := Or.inr rfl
  have hc := train_4x4_m4_consistent
  constructor
  · obtain ⟨hxn, hyn, hdis, hxl, hyl, hxr, hyr⟩ := hl
    obtain ⟨htid, hrx, hry, henc⟩ := canonicalize_fields train_4x4_m4 hb x y hxl hxr hyl hyr
    have hrxl : (canonicalize train_4x4_m4 x y).x.length ≤ train_4x4_m4.MAX_MOVE := by
      rw [hrx, apply_transform_length]; exact hxl
    have hryl : (canonicalize train_4x4_m4 x y).y.length ≤ train_4x4_m4.MAX_MOVE := by
      rw [hry, apply_transform_length]; exact hyl
    have hrxr : ∀ p ∈ (canonicalize train_4x4_m4 x y).x, p < train_4x4_m4.CELLS := by
      rw [hrx]; exact apply_transform_range train_4x4_m4 hb x hxr _ htid
    have hryr : ∀ p ∈ (canonicalize train_4x4_m4 x y).y, p < train_4x4_m4.CELLS := by
      rw [hry]; exact apply_transform_range train_4x4_m4 hb y hyr _ htid
    have hrxn : (canonicalize train_4x4_m4 x y).x.Nodup := by
      rw [hrx]; exact apply_transform_nodup train_4x4_m4 hb x hxr hxn _ htid
    have hdiv := encode_state_div train_4x4_m4 hc _ _ hrxl hrxr hryl hryr
    rw [henc] at hdiv
    have hdec := decode_list_of_encode_list train_4x4_m4 hc _ hrxl hrxr
    rw [if_pos hrxn] at hdec
    obtain ⟨hne, hlast⟩ := canonical_last_4x4 x y hxl hxr hyl hyr hx
    have hlast2 : (canonicalize train_4x4_m4 x y).x.getLastD 0 + 1 = 1 ∨
        (canonicalize train_4x4_m4 x y).x.getLastD 0 + 1 = 2 ∨
        (canonicalize train_4x4_m4 x y).x.getLastD 0 + 1 = 6 := by
      rcases hlast with h | h | h <;> rw [h] <;> simp
    refine ⟨_, by rw [hdiv]; exact hdec, rfl, hne, ?_, hlast2, ?_⟩
    · rw [hdiv, encode_list_eq train_4x4_m4 hc _ hrxl hrxr,
        digits_ofDigits_digitsOf train_4x4_m4.BASE train_4x4_m4.CELLS rfl (by decide) _ hrxr]
      unfold digitsOf
      obtain ⟨ini, l, hil⟩ : ∃ ini l, (canonicalize train_4x4_m4 x y).x = ini ++ [l] :=
        ⟨_, _, (List.dropLast_append_getLast hne).symm⟩
      rw [hil, List.map_append, List.getLastD_eq_getLast?, List.getLastD_eq_getLast?,
        List.getLast?_append, List.getLast?_append]
      simp
    · rw [hdiv, Train4x4.mem_x_valid]
      refine ⟨(encode_state_eq train_4x4_m4 hc _ _ hrxl hrxr hryl hryr).2.1, _, hdec, ?_⟩
      rcases hlast with h | h | h <;> rw [h] <;> simp
  · intro c
    rw [Train4x4.canons_iff_4x4 _ Train4x4.x_valid_valid (fun _ h => h) c,
      Train4x4.canons_iff_4x4 _ Train4x4.y_valid_valid (fun xc h => by
        obtain ⟨h1, ps, h2, _⟩ := (Train4x4.mem_x_valid xc).mp h
        exact (Train4x4.mem_y_valid xc).mpr ⟨h1, ps, h2⟩) c]

set_option maxRecDepth 100000 in
theorem prune_sound_witness :
    LegalPair train_4x4_m4 [15, 6] [9] ∧
      (canonicalize train_4x4_m4 [15, 6] [9]).code / train_4x4_m4.SEPARATOR ∈
        Train4x4.precompute_valid.1 :=
  ⟨by unfold LegalPair; decide,
    (prune_sound [15, 6] [9] (by unfold LegalPair; decide) (by decide)).1.choose_spec.2.2.2.2.2⟩


/-! ## The propagation loops of `solve` -/

theorem StateInfo.label_dp (info : StateInfo) (i : Nat) (lbl : Int) (d : Nat) :
    (info.label i lbl d).dp i = lbl := by
  unfold StateInfo.label StateInfo.dp
  by_cases h : i = 0 <;> simp [h]

theorem StateInfo.label_depth (info : StateInfo) (i : Nat) (lbl : Int) (d : Nat) :
    (info.label i lbl d).depth i = d := by
  unfold StateInfo.label StateInfo.depth
  by_cases h : i = 0 <;> simp [h]

theorem StateInfo.label_dp_other (info : StateInfo) (i k : Nat) (lbl : Int) (d : Nat)
    (h : i = 0 ↔ k ≠ 0) : (info.label i lbl d).dp k = info.dp k := by
  unfold StateInfo.label StateInfo.dp
  by_cases hi : i = 0
  · have hk : k ≠ 0 := h.mp hi
    simp [hi, hk]
  · have hk : k = 0 := by
      by_contra hk
      exact hi (h.mpr hk)
    simp [hi, hk]

theorem StateInfo.label_depth_other (info : StateInfo) (i k : Nat) (lbl : Int) (d : Nat)
    (h : i = 0 ↔ k ≠ 0) : (info.label i lbl d).depth k = info.depth k := by
  unfold StateInfo.label StateInfo.depth
  by_cases hi : i = 0
  · have hk : k ≠ 0 := h.mp hi
    simp [hi, hk]
  · have hk : k = 0 := by
      by_contra hk
      exact hi (h.mpr hk)
    simp [hi, hk]

theorem idx_ij (i : Nat) : i = 0 ↔ 1 - i ≠ 0 := by omega

theorem idx_ji (i : Nat) : 1 - i = 0 ↔ i ≠ 0 := by omega

/-- Writing the label at index `k` of state `s` leaves the other index of
every state unchanged. -/
theorem labelled_other (g : Nat → StateInfo) (s k k2 : Nat) (lbl : Int) (d : Nat)
    (h : k = 0 ↔ k2 ≠ 0) (t : Nat) :
    ((upd g s ((g s).label k lbl d)) t).dp k2 = (g t).dp k2 ∧
      ((upd g s ((g s).label k lbl d)) t).depth k2 = (g t).depth k2 := by
  by_cases ht : t = s
  · subst ht
    rw [upd_same]
    exact ⟨StateInfo.label_dp_other _ _ _ _ _ h, StateInfo.label_depth_other _ _ _ _ _ h⟩
  · rw [upd_other _ _ _ _ ht]
    exact ⟨rfl, rfl⟩

theorem fresh_iff (lbl : Int) (i : Nat) (g0 g : Nat → StateInfo) (y : Nat) :
    fresh lbl i g0 g y = true ↔ (g y).dp i = lbl ∧ (g0 y).dp i ≠ lbl := by
  unfold fresh
  exact decide_eq_true_iff

/-- The set of freshly labelled states of the other index is unchanged by a
write at index `k`. -/
theorem fresh_other (lbl lbl2 : Int) (g0 g : Nat → StateInfo) (s k k2 : Nat) (d : Nat)
    (h : k = 0 ↔ k2 ≠ 0) :
    fresh lbl k2 g0 (upd g s ((g s).label k lbl2 d)) = fresh lbl k2 g0 g := by
  funext t
  unfold fresh
  rw [(labelled_other g s k k2 lbl2 d h t).1]

theorem countP_upd (p q : Nat → Bool) (y : Nat) (l : List Nat) (h1 : p y = false)
    (h2 : q y = true) (h3 : ∀ t, t ≠ y → q t = p t) :
    l.countP q = l.countP p + l.count y := by
  induction l with
  | nil => simp
  | cons a rest ih =>
    by_cases ha : a = y
    · subst ha
      rw [List.countP_cons_of_pos _ _ h2, List.countP_cons_of_neg _ _ (by simp [h1]),
        List.count_cons_self, ih]
      omega
    · rw [List.count_cons_of_ne (fun e => ha e.symm)]
      by_cases hp : p a = true
      · rw [List.countP_cons_of_pos _ _ hp,
          List.countP_cons_of_pos _ _ (by rw [h3 a ha]; exact hp), ih]
        omega
      · rw [List.countP_cons_of_neg _ _ hp,
          List.countP_cons_of_neg _ _ (by rw [h3 a ha]; exact hp), ih]

theorem mem_reverse_edges (order : List Nat) (edge : Nat → List Nat) (t s : Nat) :
    s ∈ reverse_edges order edge t ↔ s ∈ order ∧ t ∈ edge s := by
  unfold reverse_edges
  simp only [List.mem_flatMap, List.mem_filterMap]
  constructor
  · rintro ⟨a, ha, u, hu, h⟩
    by_cases hut : u = t
    · rw [if_pos hut] at h
      have : a = s := Option.some.inj h
      subst this; subst hut
      exact ⟨ha, hu⟩
    · rw [if_neg hut] at h
      exact absurd h (by simp)
  · rintro ⟨hs, ht⟩
    exact ⟨s, hs, t, ht, by simp⟩

theorem count_filterMap_edge (l : List Nat) (t a s : Nat) :
    (l.filterMap (fun u => if u = t then some a else none)).count s =
      if a = s then l.count t else 0 := by
  induction l with
  | nil => simp
  | cons u rest ih =>
    by_cases hut : u = t <;> by_cases has : a = s <;>
      simp [List.filterMap_cons, hut, has, List.count_cons] at ih ⊢ <;> omega

/-- In the reverse edge list of `t`, a source `s` of a duplicate-free order
occurs as often as `t` occurs among the edges of `s`. -/
theorem count_reverse_edges (order : List Nat) (edge : Nat → List Nat) (t s : Nat)
    (hnd : order.Nodup) (hs : s ∈ order) :
    (reverse_edges order edge t).count s = (edge s).count t := by
  unfold reverse_edges
  induction order with
  | nil => exact absurd hs (List.not_mem_nil s)
  | cons a rest ih =>
    rw [List.flatMap_cons, List.count_append, count_filterMap_edge]
    have hnd2 := List.nodup_cons.mp hnd
    by_cases has : a = s
    · subst has
      rw [if_pos rfl]
      have : (List.flatMap rest
          (fun s2 => (edge s2).filterMap (fun u => if u = t then some s2 else none))).count a
          = 0 := by
        apply List.count_eq_zero_of_not_mem
        intro hmem
        have := (mem_reverse_edges rest edge t a).mp hmem
        exact hnd2.1 this.1
      rw [this]; rfl
    · rw [if_neg has, Nat.zero_add]
      rcases List.mem_cons.mp hs with h | h
      · exact absurd h.symm has
      · exact ih hnd2.2 h

/-- The middle loop labels `y`: the invariant holds at the entry of the
innermost loop over the reverse edges of `y`. -/
theorem pass_label_inv (e : PassEnv) (he : PassHyp e) (x y : Nat) (ss : SolveState)
    (h : PassInv e [] ss) (hx : (ss.g_states x).dp (1 - e.i) = e.lbl) (hxy : x ∈ e.Ei y)
    (hy : (ss.g_states y).dp e.i ≠ e.lbl) (d : Nat)
    (hd : d = ((ss.g_states x).depth (1 - e.i) + 1) % 65536) (g2 : Nat → StateInfo)
    (hg2 : g2 = upd ss.g_states y ((ss.g_states y).label e.i e.lbl d)) :
    PassInv e (reverse_edges e.oj e.Ej y) (SolveState.mk g2 ss.need ss.q) ∧
      fresh e.lbl e.i e.g0 g2 y = true := by
  have hoj : ∀ t, (g2 t).dp (1 - e.i) = (ss.g_states t).dp (1 - e.i) ∧
      (g2 t).depth (1 - e.i) = (ss.g_states t).depth (1 - e.i) := by
    intro t; rw [hg2]
    exact labelled_other ss.g_states y e.i (1 - e.i) e.lbl d (idx_ij e.i) t
  have hsame : ∀ t, t ≠ y → g2 t = ss.g_states t := by
    intro t ht; rw [hg2]; exact upd_other _ _ _ _ ht
  have hyy : (g2 y).dp e.i = e.lbl := by
    rw [hg2, upd_same]; exact StateInfo.label_dp _ _ _ _
  have hyd : (g2 y).depth e.i = d := by
    rw [hg2, upd_same]; exact StateInfo.label_depth _ _ _ _
  have hg0y : (e.g0 y).dp e.i ≠ e.lbl := by
    rw [← (h.keep_i y hy).1]; exact hy
  have hfj : fresh e.lbl (1 - e.i) e.g0 g2 = fresh e.lbl (1 - e.i) e.g0 ss.g_states := by
    rw [hg2]; exact fresh_other e.lbl e.lbl e.g0 ss.g_states y e.i (1 - e.i) d (idx_ij e.i)
  have hfy : fresh e.lbl e.i e.g0 ss.g_states y = false := by
    rw [Bool.eq_false_iff]
    intro hf
    exact hy ((fresh_iff _ _ _ _ _).mp hf).1
  have hfy2 : fresh e.lbl e.i e.g0 g2 y = true := (fresh_iff _ _ _ _ _).mpr ⟨hyy, hg0y⟩
  have hft : ∀ t, t ≠ y → fresh e.lbl e.i e.g0 g2 t = fresh e.lbl e.i e.g0 ss.g_states t := by
    intro t ht; unfold fresh; rw [hsame t ht]
  have hmono : ∀ t, fresh e.lbl e.i e.g0 ss.g_states t = true →
      fresh e.lbl e.i e.g0 g2 t = true := by
    intro t h1
    by_cases ht : t = y
    · subst ht; exact hfy2
    · rw [hft t ht]; exact h1
  have hney : ∀ t, fresh e.lbl e.i e.g0 ss.g_states t = true → t ≠ y := by
    intro t h1 ht
    rw [ht, hfy] at h1
    exact Bool.false_ne_true h1
  refine ⟨?_, hfy2⟩
  exact {
    queue := fun q hq => (hoj q).1.trans (h.queue q hq)
    frame_i := by
      intro s hs
      have hsy : s ≠ y := by
        intro e2; subst e2; rw [hs] at hxy; exact List.not_mem_nil _ hxy
      show (g2 s).dp e.i = _ ∧ (g2 s).depth e.i = _
      rw [hsame s hsy]; exact h.frame_i s hs
    frame_j := by
      intro s hs
      show (g2 s).dp (1 - e.i) = _ ∧ (g2 s).depth (1 - e.i) = _
      rw [(hoj s).1, (hoj s).2]; exact h.frame_j s hs
    keep_i := by
      intro s hs
      have hs2 : (g2 s).dp e.i ≠ e.lbl := hs
      have hsy : s ≠ y := by
        intro e2; subst e2; exact hs2 hyy
      show (g2 s).dp e.i = _ ∧ (g2 s).depth e.i = _
      rw [hsame s hsy] at hs2 ⊢
      exact h.keep_i s hs2
    keep_j := by
      intro s hs
      have hs2 : (g2 s).dp (1 - e.i) ≠ e.lbl := hs
      show (g2 s).dp (1 - e.i) = _ ∧ (g2 s).depth (1 - e.i) = _
      rw [(hoj s).1] at hs2
      rw [(hoj s).1, (hoj s).2]; exact h.keep_j s hs2
    sound_i := by
      intro y0 hf
      have hf2 : fresh e.lbl e.i e.g0 g2 y0 = true := hf
      show ∃ x0 ∈ e.Ei y0, (g2 x0).dp (1 - e.i) = e.lbl ∧
        (g2 y0).depth e.i = ((g2 x0).depth (1 - e.i) + 1) % 65536
      by_cases hy0 : y0 = y
      · subst hy0
        exact ⟨x, hxy, (hoj x).1.trans hx, by rw [hyd, (hoj x).2]; exact hd⟩
      · rw [hft y0 hy0] at hf2
        obtain ⟨x0, hx0, h1, h2⟩ := h.sound_i y0 hf2
        exact ⟨x0, hx0, (hoj x0).1.trans h1, by rw [hsame y0 hy0, (hoj x0).2]; exact h2⟩
    sound_j := by
      intro z hf
      have hf2 : fresh e.lbl (1 - e.i) e.g0 g2 z = true := hf
      rw [hfj] at hf2
      obtain ⟨h1, y1, hy1, h2⟩ := h.sound_j z hf2
      show (∀ t ∈ e.Ej z, fresh e.lbl e.i e.g0 g2 t = true) ∧
        ∃ t ∈ e.Ej z, (g2 z).depth (1 - e.i) = ((g2 t).depth e.i + 1) % 65536
      refine ⟨fun t ht => hmono t (h1 t ht), y1, hy1, ?_⟩
      rw [(hoj z).2, hsame y1 (hney y1 (h1 y1 hy1))]; exact h2
    count := by
      intro z hz
      show ss.need z (1 - e.i) = ((e.Ej z).length : Int) -
        ((e.Ej z).countP (fresh e.lbl e.i e.g0 g2) : Int) +
        ((reverse_edges e.oj e.Ej y).count z : Int)
      have h1 := h.count z hz
      have h2 := countP_upd (fresh e.lbl e.i e.g0 ss.g_states) (fresh e.lbl e.i e.g0 g2) y
        (e.Ej z) hfy hfy2 hft
      have h3 := count_reverse_edges e.oj e.Ej y z he.nodup hz
      rw [h1, h2, h3]
      simp only [List.count_nil]
      push_cast
      ring
    need_out := fun z hz => h.need_out z hz
    need_other := fun z p hp => h.need_other z p hp
    safe_i := by
      intro s hp
      show (g2 s).dp e.i ≠ e.lbl
      by_cases hsy : s = y
      · subst hsy
        exact absurd hx (h.safe_j x (he.step_i s hp x hxy))
      · rw [hsame s hsy]; exact h.safe_i s hp
    safe_j := by
      intro s hp
      show (g2 s).dp (1 - e.i) ≠ e.lbl
      rw [(hoj s).1]; exact h.safe_j s hp
    rem_unl := by
      intro z hz
      show (g2 z).dp (1 - e.i) ≠ e.lbl
      rw [(hoj z).1]
      intro hzl
      obtain ⟨_, hyz⟩ := (mem_reverse_edges _ _ _ _).mp hz
      by_cases hpre : (e.g0 z).dp (1 - e.i) = e.lbl
      · rw [he.pre_j z hpre] at hyz
        exact List.not_mem_nil _ hyz
      · have hfz : fresh e.lbl (1 - e.i) e.g0 ss.g_states z = true :=
          (fresh_iff _ _ _ _ _).mpr ⟨hzl, hpre⟩
        exact hney y ((h.sound_j z hfz).1 y hyz) rfl }

/-- One iteration of the innermost loop keeps the invariant. -/
theorem pass_inner_inv (e : PassEnv) (he : PassHyp e) (y z : Nat) (rem : List Nat)
    (ss : SolveState) (h : PassInv e (z :: rem) ss) (hz : z ∈ e.oj) (hyz : y ∈ e.Ej z)
    (hy : fresh e.lbl e.i e.g0 ss.g_states y = true) :
    PassInv e rem (pass_inner e.lbl e.i y ss z) ∧
      fresh e.lbl e.i e.g0 (pass_inner e.lbl e.i y ss z).g_states y = true := by
  have hcnt := h.count z hz
  rw [List.count_cons_self] at hcnt
  have hle : (e.Ej z).countP (fresh e.lbl e.i e.g0 ss.g_states) ≤ (e.Ej z).length :=
    List.countP_le_length _
  have hneed1 : ∀ s p (n : Int), p ≠ 1 - e.i →
      (if s = z ∧ p = 1 - e.i then n else ss.need s p) = ss.need s p := by
    intro s p n hp
    rw [if_neg (fun hh => hp hh.2)]
  have hneed2 : ∀ s (n : Int), s ≠ z →
      (if s = z ∧ 1 - e.i = 1 - e.i then n else ss.need s (1 - e.i)) = ss.need s (1 - e.i) := by
    intro s n hs
    rw [if_neg (fun hh => hs hh.1)]
  have hneed3 : ∀ (n : Int),
      (if z = z ∧ 1 - e.i = 1 - e.i then n else ss.need z (1 - e.i)) = n := by
    intro n
    rw [if_pos ⟨rfl, rfl⟩]
  unfold pass_inner
  by_cases hn : ss.need z (1 - e.i) - 1 = 0
  · simp only [hn, if_true]
    have hall : (e.Ej z).countP (fresh e.lbl e.i e.g0 ss.g_states) = (e.Ej z).length := by
      omega
    have hzrem : rem.count z = 0 := by omega
    have hallf := List.countP_eq_length.mp hall
    have hznot : z ∉ rem := List.count_eq_zero.mp hzrem
    have hzu : (ss.g_states z).dp (1 - e.i) ≠ e.lbl := h.rem_unl z (List.mem_cons_self _ _)
    obtain ⟨g2, hg2⟩ : ∃ g2, g2 = upd ss.g_states z ((ss.g_states z).label (1 - e.i) e.lbl
        (((ss.g_states y).depth e.i + 1) % 65536)) := ⟨_, rfl⟩
    rw [← hg2]
    have hoi : ∀ t, (g2 t).dp e.i = (ss.g_states t).dp e.i ∧
        (g2 t).depth e.i = (ss.g_states t).depth e.i := by
      intro t; rw [hg2]
      exact labelled_other ss.g_states z (1 - e.i) e.i e.lbl _ (idx_ji e.i) t
    have hsame : ∀ t, t ≠ z → g2 t = ss.g_states t := by
      intro t ht; rw [hg2]; exact upd_other _ _ _ _ ht
    have hzz : (g2 z).dp (1 - e.i) = e.lbl := by
      rw [hg2, upd_same]; exact StateInfo.label_dp _ _ _ _
    have hzd : (g2 z).depth (1 - e.i) = ((ss.g_states y).depth e.i + 1) % 65536 := by
      rw [hg2, upd_same]; exact StateInfo.label_depth _ _ _ _
    have hg0z : (e.g0 z).dp (1 - e.i) ≠ e.lbl := by
      rw [← (h.keep_j z hzu).1]; exact hzu
    have hfi : fresh e.lbl e.i e.g0 g2 = fresh e.lbl e.i e.g0 ss.g_states := by
      rw [hg2]
      exact fresh_other e.lbl e.lbl e.g0 ss.g_states z (1 - e.i) e.i _ (idx_ji e.i)
    have hftj : ∀ t, t ≠ z →
        fresh e.lbl (1 - e.i) e.g0 g2 t = fresh e.lbl (1 - e.i) e.g0 ss.g_states t := by
      intro t ht; unfold fresh; rw [hsame t ht]
    refine ⟨?_, by rw [hfi]; exact hy⟩
    exact {
      queue := by
        intro q hq
        show (g2 q).dp (1 - e.i) = e.lbl
        by_cases hqz : q = z
        · rw [hqz]; exact hzz
        · rw [hsame q hqz]
          rcases List.mem_append.mp hq with h1 | h1
          · exact h.queue q h1
          · exact absurd (List.mem_singleton.mp h1) hqz
      frame_i := by
        intro s hs
        show (g2 s).dp e.i = _ ∧ (g2 s).depth e.i = _
        rw [(hoi s).1, (hoi s).2]; exact h.frame_i s hs
      frame_j := by
        intro s hs
        have hsz : s ≠ z := by
          intro e2; subst e2; rw [hs] at hyz; exact List.not_mem_nil _ hyz
        show (g2 s).dp (1 - e.i) = _ ∧ (g2 s).depth (1 - e.i) = _
        rw [hsame s hsz]; exact h.frame_j s hs
      keep_i := by
        intro s hs
        have hs2 : (g2 s).dp e.i ≠ e.lbl := hs
        show (g2 s).dp e.i = _ ∧ (g2 s).depth e.i = _
        rw [(hoi s).1] at hs2
        rw [(hoi s).1, (hoi s).2]; exact h.keep_i s hs2
      keep_j := by
        intro s hs
        have hs2 : (g2 s).dp (1 - e.i) ≠ e.lbl := hs
        have hsz : s ≠ z := by
          intro e2; subst e2; exact hs2 hzz
        show (g2 s).dp (1 - e.i) = _ ∧ (g2 s).depth (1 - e.i) = _
        rw [hsame s hsz] at hs2 ⊢
        exact h.keep_j s hs2
      sound_i := by
        intro y0 hf
        have hf2 : fresh e.lbl e.i e.g0 g2 y0 = true := hf
        rw [hfi] at hf2
        obtain ⟨x0, hx0, h1, h2⟩ := h.sound_i y0 hf2
        have hx0z : x0 ≠ z := by
          intro e2; rw [e2] at h1; exact hzu h1
        show ∃ x1 ∈ e.Ei y0, (g2 x1).dp (1 - e.i) = e.lbl ∧
          (g2 y0).depth e.i = ((g2 x1).depth (1 - e.i) + 1) % 65536
        exact ⟨x0, hx0, by rw [hsame x0 hx0z]; exact h1,
          by rw [(hoi y0).2, hsame x0 hx0z]; exact h2⟩
      sound_j := by
        intro z0 hf
        have hf2 : fresh e.lbl (1 - e.i) e.g0 g2 z0 = true := hf
        show (∀ t ∈ e.Ej z0, fresh e.lbl e.i e.g0 g2 t = true) ∧
          ∃ t ∈ e.Ej z0, (g2 z0).depth (1 - e.i) = ((g2 t).depth e.i + 1) % 65536
        rw [hfi]
        by_cases hz0 : z0 = z
        · rw [hz0]
          exact ⟨hallf, y, hyz, by rw [hzd, (hoi y).2]⟩
        · rw [hftj z0 hz0] at hf2
          obtain ⟨h1, y1, hy1, h2⟩ := h.sound_j z0 hf2
          exact ⟨h1, y1, hy1, by rw [hsame z0 hz0, (hoi y1).2]; exact h2⟩
      count := by
        intro z0 hz0
        show (if z0 = z ∧ 1 - e.i = 1 - e.i then (0 : Int) else ss.need z0 (1 - e.i)) =
          ((e.Ej z0).length : Int) - ((e.Ej z0).countP (fresh e.lbl e.i e.g0 g2) : Int) +
          (rem.count z0 : Int)
        rw [hfi]
        by_cases hzz0 : z0 = z
        · rw [hzz0, hneed3, hall, hzrem]
          simp
        · rw [hneed2 z0 _ hzz0, h.count z0 hz0, List.count_cons_of_ne hzz0]
      need_out := by
        intro z0 hz0
        have hzz0 : z0 ≠ z := fun e2 => hz0 (e2 ▸ hz)
        show (if z0 = z ∧ 1 - e.i = 1 - e.i then (0 : Int) else ss.need z0 (1 - e.i)) = _
        rw [hneed2 z0 _ hzz0]; exact h.need_out z0 hz0
      need_other := by
        intro z0 p hp
        show (if z0 = z ∧ p = 1 - e.i then (0 : Int) else ss.need z0 p) = _
        rw [hneed1 z0 p _ hp]; exact h.need_other z0 p hp
      safe_i := by
        intro s hp
        show (g2 s).dp e.i ≠ e.lbl
        rw [(hoi s).1]; exact h.safe_i s hp
      safe_j := by
        intro s hp
        show (g2 s).dp (1 - e.i) ≠ e.lbl
        by_cases hsz : s = z
        · subst hsz
          obtain ⟨x0, hx0, hpx⟩ := he.step_j s hp (List.ne_nil_of_mem hyz)
          exact absurd ((fresh_iff _ _ _ _ _).mp (hallf x0 hx0)).1 (h.safe_i x0 hpx)
        · rw [hsame s hsz]; exact h.safe_j s hp
      rem_unl := by
        intro z0 hz0
        have hzz0 : z0 ≠ z := fun e2 => hznot (e2 ▸ hz0)
        show (g2 z0).dp (1 - e.i) ≠ e.lbl
        rw [hsame z0 hzz0]; exact h.rem_unl z0 (List.mem_cons_of_mem _ hz0) }
  · simp only [hn, if_false]
    refine ⟨?_, hy⟩
    exact {
      queue := h.queue
      frame_i := h.frame_i
      frame_j := h.frame_j
      keep_i := h.keep_i
      keep_j := h.keep_j
      sound_i := h.sound_i
      sound_j := h.sound_j
      count := by
        intro z0 hz0
        show (if z0 = z ∧ 1 - e.i = 1 - e.i then ss.need z (1 - e.i) - 1
            else ss.need z0 (1 - e.i)) =
          ((e.Ej z0).length : Int) -
            ((e.Ej z0).countP (fresh e.lbl e.i e.g0 ss.g_states) : Int) + (rem.count z0 : Int)
        by_cases hzz0 : z0 = z
        · rw [hzz0, hneed3, hcnt]
          push_cast
          ring
        · rw [hneed2 z0 _ hzz0, h.count z0 hz0, List.count_cons_of_ne hzz0]
      need_out := by
        intro z0 hz0
        have hzz0 : z0 ≠ z := fun e2 => hz0 (e2 ▸ hz)
        show (if z0 = z ∧ 1 - e.i = 1 - e.i then ss.need z (1 - e.i) - 1
            else ss.need z0 (1 - e.i)) = _
        rw [hneed2 z0 _ hzz0]; exact h.need_out z0 hz0
      need_other := by
        intro z0 p hp
        show (if z0 = z ∧ p = 1 - e.i then ss.need z (1 - e.i) - 1 else ss.need z0 p) = _
        rw [hneed1 z0 p _ hp]; exact h.need_other z0 p hp
      safe_i := h.safe_i
      safe_j := h.safe_j
      rem_unl := fun z0 hz0 => h.rem_unl z0 (List.mem_cons_of_mem _ hz0) }

theorem StateInfo.label_dp_mono (info : StateInfo) (i k : Nat) (lbl : Int) (d : Nat)
    (h : info.dp k = lbl) : (info.label i lbl d).dp k = lbl := by
  unfold StateInfo.label StateInfo.dp at *
  by_cases hi : i = 0 <;> by_cases hk : k = 0 <;> simp [hi, hk] at h ⊢ <;> exact h

/-- A label equal to `lbl` is never changed by the innermost loop body. -/
theorem pass_inner_mono (lbl : Int) (i y z : Nat) (ss : SolveState) (s k : Nat)
    (h : (ss.g_states s).dp k = lbl) : ((pass_inner lbl i y ss z).g_states s).dp k = lbl := by
  unfold pass_inner
  by_cases hn : ss.need z (1 - i) - 1 = 0
  · simp only [hn, if_true]
    by_cases hs : s = z
    · subst hs
      rw [upd_same]
      exact StateInfo.label_dp_mono _ _ _ _ _ h
    · rw [upd_other _ _ _ _ hs]; exact h
  · simp only [hn, if_false]
    exact h

theorem pass_inner_queue (lbl : Int) (i y z : Nat) (ss : SolveState) (x : Nat)
    (h : x ∈ ss.q) : x ∈ (pass_inner lbl i y ss z).q := by
  unfold pass_inner
  by_cases hn : ss.need z (1 - i) - 1 = 0
  · simp only [hn, if_true]
    exact List.mem_append_left _ h
  · simp only [hn, if_false]
    exact h

theorem pass_mid_mono (lbl : Int) (i : Nat) (ero : Nat → List Nat) (x y : Nat)
    (ss : SolveState) (s k : Nat) (h : (ss.g_states s).dp k = lbl) :
    ((pass_mid lbl i ero x ss y).g_states s).dp k = lbl := by
  unfold pass_mid
  by_cases hy : (ss.g_states y).dp i = lbl
  · rw [if_pos hy]; exact h
  · rw [if_neg hy]
    refine foldl_invariant (fun (st : SolveState) => (st.g_states s).dp k = lbl) _ _ _ ?_ ?_
    · show ((upd ss.g_states y _) s).dp k = lbl
      by_cases hs : s = y
      · subst hs
        rw [upd_same]
        exact StateInfo.label_dp_mono _ _ _ _ _ h
      · rw [upd_other _ _ _ _ hs]; exact h
    · intro acc z _ hacc
      exact pass_inner_mono lbl i y z acc s k hacc

theorem pass_mid_queue (lbl : Int) (i : Nat) (ero : Nat → List Nat) (x y : Nat)
    (ss : SolveState) (s : Nat) (h : s ∈ ss.q) : s ∈ (pass_mid lbl i ero x ss y).q := by
  unfold pass_mid
  by_cases hy : (ss.g_states y).dp i = lbl
  · rw [if_pos hy]; exact h
  · rw [if_neg hy]
    refine foldl_invariant (fun (st : SolveState) => s ∈ st.q) _ _ _ ?_ ?_
    · exact h
    · intro acc z _ hacc
      exact pass_inner_queue lbl i y z acc s hacc

/-- After the middle loop body, `y` carries the label at index `i`. -/
theorem pass_mid_labels (lbl : Int) (i : Nat) (ero : Nat → List Nat) (x y : Nat)
    (ss : SolveState) : ((pass_mid lbl i ero x ss y).g_states y).dp i = lbl := by
  by_cases hy : (ss.g_states y).dp i = lbl
  · exact pass_mid_mono lbl i ero x y ss y i hy
  · unfold pass_mid
    rw [if_neg hy]
    refine foldl_invariant (fun (st : SolveState) => (st.g_states y).dp i = lbl) _ _ _ ?_ ?_
    · show ((upd ss.g_states y _) y).dp i = lbl
      rw [upd_same]
      exact StateInfo.label_dp _ _ _ _
    · intro acc z _ hacc
      exact pass_inner_mono lbl i y z acc y i hacc

theorem pass_loop_mono (lbl : Int) (i : Nat) (er ero : Nat → List Nat) (fuel : Nat)
    (ss : SolveState) (s k : Nat) (h : (ss.g_states s).dp k = lbl) :
    ((pass_loop lbl i er ero fuel ss).g_states s).dp k = lbl := by
  induction fuel generalizing ss with
  | zero => exact h
  | succ fuel ih =>
    unfold pass_loop
    cases hq : ss.q with
    | nil => exact h
    | cons x rest =>
      simp only []
      apply ih
      refine foldl_invariant (fun (st : SolveState) => (st.g_states s).dp k = lbl) _ _ _ ?_ ?_
      · exact h
      · intro acc y _ hacc
        exact pass_mid_mono lbl i ero x y acc s k hacc

/-- The innermost loop keeps the invariant. -/
theorem pass_inner_fold_inv (e : PassEnv) (he : PassHyp e) (y : Nat) (rem : List Nat)
    (ss : SolveState) (h : PassInv e rem ss) (hrem : ∀ z ∈ rem, z ∈ e.oj ∧ y ∈ e.Ej z)
    (hy : fresh e.lbl e.i e.g0 ss.g_states y = true) :
    PassInv e [] (rem.foldl (pass_inner e.lbl e.i y) ss) := by
  induction rem generalizing ss with
  | nil => exact h
  | cons z rest ih =>
    rw [List.foldl_cons]
    obtain ⟨h1, h2⟩ := pass_inner_inv e he y z rest ss h (hrem z (List.mem_cons_self _ _)).1
      (hrem z (List.mem_cons_self _ _)).2 hy
    exact ih _ h1 (fun z2 hz2 => hrem z2 (List.mem_cons_of_mem _ hz2)) h2

/-- The middle loop body keeps the invariant. -/
theorem pass_mid_inv (e : PassEnv) (he : PassHyp e) (x y : Nat) (ss : SolveState)
    (h : PassInv e [] ss) (hx : (ss.g_states x).dp (1 - e.i) = e.lbl) (hxy : x ∈ e.Ei y) :
    PassInv e [] (pass_mid e.lbl e.i (reverse_edges e.oj e.Ej) x ss y) := by
  unfold pass_mid
  by_cases hy : (ss.g_states y).dp e.i = e.lbl
  · rw [if_pos hy]; exact h
  · rw [if_neg hy]
    obtain ⟨h1, h2⟩ := pass_label_inv e he x y ss h hx hxy hy _ rfl _ rfl
    exact pass_inner_fold_inv e he y _ _ h1
      (fun z hz => (mem_reverse_edges _ _ _ _).mp hz) h2

/-- The middle loop keeps the invariant. -/
theorem pass_mid_fold_inv (e : PassEnv) (he : PassHyp e) (x : Nat) (ys : List Nat)
    (ss : SolveState) (h : PassInv e [] ss) (hx : (ss.g_states x).dp (1 - e.i) = e.lbl)
    (hys : ∀ y ∈ ys, x ∈ e.Ei y) :
    PassInv e [] (ys.foldl (pass_mid e.lbl e.i (reverse_edges e.oj e.Ej) x) ss) := by
  have := foldl_invariant
    (fun (st : SolveState) => PassInv e [] st ∧ (st.g_states x).dp (1 - e.i) = e.lbl)
    (pass_mid e.lbl e.i (reverse_edges e.oj e.Ej) x) ys ss ⟨h, hx⟩
    (fun acc y hy hacc => ⟨pass_mid_inv e he x y acc hacc.1 hacc.2 (hys y hy),
      pass_mid_mono _ _ _ _ _ _ _ _ hacc.2⟩)
  exact this.1

/-- A propagation loop keeps the invariant. -/
theorem pass_loop_inv (e : PassEnv) (he : PassHyp e) (fuel : Nat) (ss : SolveState)
    (h : PassInv e [] ss) :
    PassInv e []
      (pass_loop e.lbl e.i (reverse_edges e.oi e.Ei) (reverse_edges e.oj e.Ej) fuel ss) := by
  induction fuel generalizing ss with
  | zero => exact h
  | succ fuel ih =>
    unfold pass_loop
    cases hq : ss.q with
    | nil => exact h
    | cons x rest =>
      simp only []
      apply ih
      apply pass_mid_fold_inv e he x
      · exact {
          queue := fun q hq2 => h.queue q (by rw [hq]; exact List.mem_cons_of_mem _ hq2)
          frame_i := h.frame_i
          frame_j := h.frame_j
          keep_i := h.keep_i
          keep_j := h.keep_j
          sound_i := h.sound_i
          sound_j := h.sound_j
          count := h.count
          need_out := h.need_out
          need_other := h.need_other
          safe_i := h.safe_i
          safe_j := h.safe_j
          rem_unl := h.rem_unl }
      · exact h.queue x (by rw [hq]; exact List.mem_cons_self _ _)
      · intro y hy
        exact ((mem_reverse_edges _ _ _ _).mp hy).2

/-! ### Termination of the propagation loops -/

theorem pass_inner_need (lbl : Int) (i y z : Nat) (ss : SolveState) (t : Nat) :
    (pass_inner lbl i y ss z).need t (1 - i) =
      if t = z then ss.need z (1 - i) - 1 else ss.need t (1 - i) := by
  unfold pass_inner
  by_cases hn : ss.need z (1 - i) - 1 = 0
  · rw [if_pos hn]
    show (if t = z ∧ 1 - i = 1 - i then ss.need z (1 - i) - 1 else ss.need t (1 - i)) = _
    by_cases ht : t = z
    · rw [if_pos ⟨ht, rfl⟩, if_pos ht]
    · rw [if_neg (fun hh => ht hh.1), if_neg ht]
  · rw [if_neg hn]
    show (if t = z ∧ 1 - i = 1 - i then ss.need z (1 - i) - 1 else ss.need t (1 - i)) = _
    by_cases ht : t = z
    · rw [if_pos ⟨ht, rfl⟩, if_pos ht]
    · rw [if_neg (fun hh => ht hh.1), if_neg ht]

theorem pass_inner_q (lbl : Int) (i y z : Nat) (ss : SolveState) :
    (pass_inner lbl i y ss z).q =
      if ss.need z (1 - i) - 1 = 0 then ss.q ++ [z] else ss.q := by
  unfold pass_inner
  by_cases hn : ss.need z (1 - i) - 1 = 0
  · rw [if_pos hn, if_pos hn]
  · rw [if_neg hn, if_neg hn]

theorem pass_inner_pending (lbl : Int) (i y z : Nat) (oj : List Nat) (ss : SolveState)
    (hz : z ∈ oj) : pending oj i (pass_inner lbl i y ss z) ≤ pending oj i ss := by
  unfold pending
  rw [pass_inner_q]
  by_cases hn : ss.need z (1 - i) - 1 = 0
  · rw [if_pos hn]
    have h1 := countP_upd
      (fun t => decide (0 < (pass_inner lbl i y ss z).need t (1 - i)))
      (fun t => decide (0 < ss.need t (1 - i))) z oj
      (by
        rw [decide_eq_false_iff_not, pass_inner_need, if_pos rfl]
        omega)
      (by
        rw [decide_eq_true_iff]
        omega)
      (by
        intro t ht
        show decide (0 < ss.need t (1 - i)) =
          decide (0 < (pass_inner lbl i y ss z).need t (1 - i))
        rw [pass_inner_need, if_neg ht])
    have h2 : 1 ≤ oj.count z := List.one_le_count_iff.mpr hz
    rw [h1, List.length_append, List.length_singleton]
    omega
  · rw [if_neg hn]
    apply Nat.add_le_add_left
    apply List.countP_mono_left
    intro t _ ht
    rw [decide_eq_true_iff] at ht ⊢
    rw [pass_inner_need] at ht
    by_cases htz : t = z
    · rw [if_pos htz] at ht
      rw [htz]
      omega
    · rw [if_neg htz] at ht
      exact ht

theorem pass_mid_pending (lbl : Int) (i : Nat) (oj : List Nat) (Ej : Nat → List Nat)
    (x y : Nat) (ss : SolveState) :
    pending oj i (pass_mid lbl i (reverse_edges oj Ej) x ss y) ≤ pending oj i ss := by
  unfold pass_mid
  by_cases hy : (ss.g_states y).dp i = lbl
  · rw [if_pos hy]
  · rw [if_neg hy]
    refine foldl_invariant (fun (st : SolveState) => pending oj i st ≤ pending oj i ss)
      _ _ _ ?_ ?_
    · exact Nat.le_refl _
    · intro acc z hz hacc
      exact Nat.le_trans
        (pass_inner_pending lbl i y z oj acc ((mem_reverse_edges _ _ _ _).mp hz).1) hacc

theorem pass_mid_fold_pending (lbl : Int) (i : Nat) (oj : List Nat) (Ej : Nat → List Nat)
    (x : Nat) (ys : List Nat) (ss : SolveState) :
    pending oj i (ys.foldl (pass_mid lbl i (reverse_edges oj Ej) x) ss) ≤ pending oj i ss := by
  refine foldl_invariant (fun (st : SolveState) => pending oj i st ≤ pending oj i ss)
    _ _ _ ?_ ?_
  · exact Nat.le_refl _
  · intro acc y _ hacc
    exact Nat.le_trans (pass_mid_pending lbl i oj Ej x y acc) hacc

/-- With fuel at least `pending` a propagation loop stops on the empty
queue: the `while (!q.empty())` loop terminates and the fuel is not used up
before. -/
theorem pass_loop_done (lbl : Int) (i : Nat) (er : Nat → List Nat) (oj : List Nat)
    (Ej : Nat → List Nat) (fuel : Nat) (ss : SolveState) (h : pending oj i ss ≤ fuel) :
    (pass_loop lbl i er (reverse_edges oj Ej) fuel ss).q = [] := by
  induction fuel generalizing ss with
  | zero =>
    unfold pass_loop
    unfold pending at h
    exact List.length_eq_zero.mp (by omega)
  | succ fuel ih =>
    unfold pass_loop
    cases hq : ss.q with
    | nil => simp only []; exact hq
    | cons x rest =>
      simp only []
      apply ih
      have h1 := pass_mid_fold_pending lbl i oj Ej x (er x)
        (SolveState.mk ss.g_states ss.need rest)
      have h2 : pending oj i (SolveState.mk ss.g_states ss.need rest) + 1 = pending oj i ss := by
        unfold pending
        rw [hq]
        simp only [List.length_cons]
        omega
      omega

/-- With enough fuel every state on the queue is popped: all its
predecessors along the reverse edges carry the label in the end. -/
theorem pass_loop_reaches (lbl : Int) (i : Nat) (er : Nat → List Nat) (oj : List Nat)
    (Ej : Nat → List Nat) (fuel : Nat) (ss : SolveState) (h : pending oj i ss ≤ fuel)
    (x : Nat) (hx : x ∈ ss.q) (y : Nat) (hy : y ∈ er x) :
    ((pass_loop lbl i er (reverse_edges oj Ej) fuel ss).g_states y).dp i = lbl := by
  induction fuel generalizing ss with
  | zero =>
    unfold pending at h
    have : ss.q = [] := List.length_eq_zero.mp (by omega)
    rw [this] at hx
    exact absurd hx (List.not_mem_nil x)
  | succ fuel ih =>
    unfold pass_loop
    cases hq : ss.q with
    | nil => rw [hq] at hx; exact absurd hx (List.not_mem_nil x)
    | cons x0 rest =>
      simp only []
      have h1 := pass_mid_fold_pending lbl i oj Ej x0 (er x0)
        (SolveState.mk ss.g_states ss.need rest)
      have h2 : pending oj i (SolveState.mk ss.g_states ss.need rest) + 1 = pending oj i ss := by
        unfold pending
        rw [hq]
        simp only [List.length_cons]
        omega
      rw [hq] at hx
      rcases List.mem_cons.mp hx with hx0 | hx0
      · subst hx0
        apply pass_loop_mono
        have : ∀ (ys : List Nat) (st : SolveState), y ∈ ys →
            ((ys.foldl (pass_mid lbl i (reverse_edges oj Ej) x) st).g_states y).dp i = lbl := by
          intro ys
          induction ys with
          | nil => intro st hy2; exact absurd hy2 (List.not_mem_nil y)
          | cons a rest2 ih2 =>
            intro st hy2
            rw [List.foldl_cons]
            rcases List.mem_cons.mp hy2 with hya | hya
            · subst hya
              refine foldl_invariant (fun (st2 : SolveState) => (st2.g_states y).dp i = lbl)
                _ _ _ ?_ ?_
              · exact pass_mid_labels lbl i _ x y st
              · intro acc y2 _ hacc
                exact pass_mid_mono lbl i _ x y2 acc y i hacc
            · exact ih2 _ hya
        exact this _ _ hy
      · apply ih _ (by omega)
        refine foldl_invariant (fun (st2 : SolveState) => x ∈ st2.q) _ _ _ ?_ ?_
        · exact hx0
        · intro acc y2 _ hacc
          exact pass_mid_queue lbl i _ x0 y2 acc x hacc

/-! ### The two loops of `solve` -/

theorem solve_eq (st : TrainState) (order0 order1 wins loses : List Nat) :
    solve st order0 order1 wins loses =
      pass_loop (-1) 1 (reverse_edges order1 st.g_edge1) (reverse_edges order0 st.g_edge0)
        ((win_pass st order0 order1 wins).q.length + loses.length + order0.length)
        (SolveState.mk (win_pass st order0 order1 wins).g_states
          (win_pass st order0 order1 wins).need
          ((win_pass st order0 order1 wins).q ++ loses)) := rfl

/-- The labels that `train` leaves: `+1` at an index only on `g_wins`, `-1`
only on `g_loses`. -/
theorem GraphInv.dp_cases {st : TrainState} (G : GraphInv st) (s k : Nat) :
    ((st.g_states s).dp k = 1 ↔ s ∈ st.g_wins) ∧ ((st.g_states s).dp k = -1 ↔ s ∈ st.g_loses) := by
  by_cases hw : s ∈ st.g_wins
  · have h1 := G.wins_label s hw
    have hnl : s ∉ st.g_loses := by
      intro hl
      have h2 := G.loses_label s hl
      rw [h1] at h2
      exact absurd (congrArg StateInfo.dp0 h2) (by decide)
    rw [h1]
    unfold StateInfo.dp
    by_cases hk : k = 0 <;> simp [hk, hw, hnl]
  · by_cases hl : s ∈ st.g_loses
    · rw [G.loses_label s hl]
      unfold StateInfo.dp
      by_cases hk : k = 0 <;> simp [hk, hw, hl]
    · rw [G.other_label s hw hl]
      unfold StateInfo.dp StateInfo.zero
      by_cases hk : k = 0 <;> simp [hk, hw, hl]

theorem win_hyp (st : TrainState) (G : GraphInv st) (order0 order1 : List Nat)
    (h1 : order1.Nodup) : PassHyp (win_env st order0 order1) :=
  { nodup := h1
    pre_j := fun s hs => (G.wins_edge s ((G.dp_cases s 1).1.mp hs)).2
    step_i := fun _ hp => False.elim hp
    step_j := fun _ hp => False.elim hp }

theorem fresh_self (lbl : Int) (i : Nat) (g : Nat → StateInfo) (y : Nat) :
    fresh lbl i g g y = false := by
  rw [Bool.eq_false_iff]
  intro h
  have := (fresh_iff _ _ _ _ _).mp h
  exact this.2 this.1

theorem win_init (st : TrainState) (G : GraphInv st) (order0 order1 wins : List Nat)
    (hw : ∀ s ∈ wins, s ∈ st.g_wins) :
    PassInv (win_env st order0 order1) []
      (SolveState.mk st.g_states (solve_need st) wins) :=
  { queue := fun x hx => (G.dp_cases x 1).1.mpr (hw x hx)
    frame_i := fun _ _ => ⟨rfl, rfl⟩
    frame_j := fun _ _ => ⟨rfl, rfl⟩
    keep_i := fun _ _ => ⟨rfl, rfl⟩
    keep_j := fun _ _ => ⟨rfl, rfl⟩
    sound_i := fun y hy => by
      have : fresh 1 0 st.g_states st.g_states y = true := hy
      rw [fresh_self] at this
      exact absurd this Bool.false_ne_true
    sound_j := fun z hz => by
      have : fresh 1 1 st.g_states st.g_states z = true := hz
      rw [fresh_self] at this
      exact absurd this Bool.false_ne_true
    count := fun z _ => by
      show solve_need st z 1 = ((st.g_edge1 z).length : Int) -
        ((st.g_edge1 z).countP (fresh 1 0 st.g_states st.g_states) : Int) +
        (([] : List Nat).count z : Int)
      have : (st.g_edge1 z).countP (fresh 1 0 st.g_states st.g_states) = 0 := by
        rw [List.countP_eq_zero]
        intro a _
        rw [fresh_self]
        exact Bool.false_ne_true
      rw [this]
      unfold solve_need
      simp
    need_out := fun _ _ => rfl
    need_other := fun _ _ _ => rfl
    safe_i := fun _ hp => False.elim hp
    safe_j := fun _ hp => False.elim hp
    rem_unl := fun z hz => absurd hz (List.not_mem_nil z) }

/-- The invariant after the win propagation. -/
theorem win_inv (st : TrainState) (G : GraphInv st) (order0 order1 wins : List Nat)
    (h1 : order1.Nodup) (hw : ∀ s ∈ wins, s ∈ st.g_wins) :
    PassInv (win_env st order0 order1) [] (win_pass st order0 order1 wins) :=
  pass_loop_inv (win_env st order0 order1) (win_hyp st G order0 order1 h1) _ _
    (win_init st G order0 order1 wins hw)

/-- The win propagation stops on the empty queue. -/
theorem win_done (st : TrainState) (order0 order1 wins : List Nat) :
    (win_pass st order0 order1 wins).q = [] := by
  unfold win_pass
  apply pass_loop_done
  unfold pending
  exact Nat.add_le_add_left (List.countP_le_length _) _

theorem lose_hyp (st : TrainState) (G : GraphInv st) (order0 order1 wins : List Nat)
    (h0 : order0.Nodup) (h1 : order1.Nodup) (hw : ∀ s ∈ wins, s ∈ st.g_wins) :
    PassHyp (lose_env st order0 order1 wins) := by
  have hwin := win_inv st G order0 order1 wins h1 hw
  exact {
    nodup := h0
    pre_j := by
      intro s hs
      have hs2 : ((win_pass st order0 order1 wins).g_states s).dp 0 = -1 := hs
      have hne : ((win_pass st order0 order1 wins).g_states s).dp 0 ≠ 1 := by
        rw [hs2]; decide
      have := (hwin.keep_i s hne).1
      have h3 : (st.g_states s).dp 0 = -1 := by rw [← hs2]; exact this.symm
      exact (G.loses_edge s ((G.dp_cases s 0).2.mp h3)).1
    step_i := by
      intro y hp x hx
      have hp2 : ((win_pass st order0 order1 wins).g_states y).dp 1 = 1 := hp
      show ((win_pass st order0 order1 wins).g_states x).dp 0 = 1
      have hx2 : x ∈ st.g_edge1 y := hx
      by_cases hpre : (st.g_states y).dp 1 = 1
      · rw [(G.wins_edge y ((G.dp_cases y 1).1.mp hpre)).2] at hx2
        exact absurd hx2 (List.not_mem_nil x)
      · have hf : fresh 1 1 st.g_states (win_pass st order0 order1 wins).g_states y = true :=
          (fresh_iff _ _ _ _ _).mpr ⟨hp2, hpre⟩
        exact ((fresh_iff _ _ _ _ _).mp ((hwin.sound_j y hf).1 x hx2)).1
    step_j := by
      intro z hp hne
      have hp2 : ((win_pass st order0 order1 wins).g_states z).dp 0 = 1 := hp
      have hne2 : st.g_edge0 z ≠ [] := hne
      by_cases hpre : (st.g_states z).dp 0 = 1
      · exact absurd (G.wins_edge z ((G.dp_cases z 0).1.mp hpre)).1 hne2
      · have hf : fresh 1 0 st.g_states (win_pass st order0 order1 wins).g_states z = true :=
          (fresh_iff _ _ _ _ _).mpr ⟨hp2, hpre⟩
        obtain ⟨x, hx, h3, _⟩ := hwin.sound_i z hf
        exact ⟨x, hx, h3⟩ }

theorem lose_init (st : TrainState) (G : GraphInv st) (order0 order1 wins loses : List Nat)
    (h1 : order1.Nodup) (hw : ∀ s ∈ wins, s ∈ st.g_wins) (hl : ∀ s ∈ loses, s ∈ st.g_loses) :
    PassInv (lose_env st order0 order1 wins) []
      (SolveState.mk (win_pass st order0 order1 wins).g_states
        (win_pass st order0 order1 wins).need ((win_pass st order0 order1 wins).q ++ loses)) := by
  have hwin := win_inv st G order0 order1 wins h1 hw
  exact {
    queue := by
      intro x hx
      rw [win_done, List.nil_append] at hx
      show ((win_pass st order0 order1 wins).g_states x).dp 0 = -1
      have := (hwin.frame_i x (G.loses_edge x (hl x hx)).1).1
      have h2 : ((win_pass st order0 order1 wins).g_states x).dp 0 = (st.g_states x).dp 0 := this
      rw [h2]
      exact (G.dp_cases x 0).2.mpr (hl x hx)
    frame_i := fun _ _ => ⟨rfl, rfl⟩
    frame_j := fun _ _ => ⟨rfl, rfl⟩
    keep_i := fun _ _ => ⟨rfl, rfl⟩
    keep_j := fun _ _ => ⟨rfl, rfl⟩
    sound_i := fun y hy => by
      have : fresh (-1) 1 (win_pass st order0 order1 wins).g_states
          (win_pass st order0 order1 wins).g_states y = true := hy
      rw [fresh_self] at this
      exact absurd this Bool.false_ne_true
    sound_j := fun z hz => by
      have : fresh (-1) 0 (win_pass st order0 order1 wins).g_states
          (win_pass st order0 order1 wins).g_states z = true := hz
      rw [fresh_self] at this
      exact absurd this Bool.false_ne_true
    count := fun z _ => by
      show (win_pass st order0 order1 wins).need z 0 = ((st.g_edge0 z).length : Int) -
        ((st.g_edge0 z).countP (fresh (-1) 1 (win_pass st order0 order1 wins).g_states
          (win_pass st order0 order1 wins).g_states) : Int) + (([] : List Nat).count z : Int)
      have : (st.g_edge0 z).countP (fresh (-1) 1 (win_pass st order0 order1 wins).g_states
          (win_pass st order0 order1 wins).g_states) = 0 := by
        rw [List.countP_eq_zero]
        intro a _
        rw [fresh_self]
        exact Bool.false_ne_true
      rw [this]
      have h2 : (win_pass st order0 order1 wins).need z 0 = solve_need st z 0 :=
        hwin.need_other z 0 (show (0 : Nat) ≠ 1 - 0 by decide)
      rw [h2]
      unfold solve_need
      simp
    need_out := fun _ _ => rfl
    need_other := fun _ _ _ => rfl
    safe_i := fun s hp => by
      have hp2 : ((win_pass st order0 order1 wins).g_states s).dp 1 = 1 := hp
      show ((win_pass st order0 order1 wins).g_states s).dp 1 ≠ -1
      rw [hp2]; decide
    safe_j := fun s hp => by
      have hp2 : ((win_pass st order0 order1 wins).g_states s).dp 0 = 1 := hp
      show ((win_pass st order0 order1 wins).g_states s).dp 0 ≠ -1
      rw [hp2]; decide
    rem_unl := fun z hz => absurd hz (List.not_mem_nil z) }

/-- The invariant of the lose propagation holds at the end of `solve`. -/
theorem lose_inv (st : TrainState) (G : GraphInv st) (order0 order1 wins loses : List Nat)
    (h0 : order0.Nodup) (h1 : order1.Nodup) (hw : ∀ s ∈ wins, s ∈ st.g_wins)
    (hl : ∀ s ∈ loses, s ∈ st.g_loses) :
    PassInv (lose_env st order0 order1 wins) [] (solve st order0 order1 wins loses) := by
  rw [solve_eq]
  exact pass_loop_inv (lose_env st order0 order1 wins)
    (lose_hyp st G order0 order1 wins h0 h1 hw) _ _
    (lose_init st G order0 order1 wins loses h1 hw hl)

/-- The function `solve` stops: both loops end on the empty queue before
their fuel is used up. -/
theorem solve_done (st : TrainState) (order0 order1 wins loses : List Nat) :
    (solve st order0 order1 wins loses).q = [] := by
  rw [solve_eq]
  apply pass_loop_done
  unfold pending
  show ((win_pass st order0 order1 wins).q ++ loses).length + _ ≤ _
  rw [List.length_append]
  exact Nat.add_le_add_left (List.countP_le_length _) _

theorem StateInfo.ext_idx (a b : StateInfo) (h0 : a.dp 0 = b.dp 0) (h1 : a.dp 1 = b.dp 1)
    (h2 : a.depth 0 = b.depth 0) (h3 : a.depth 1 = b.depth 1) : a = b := by
  cases a
  cases b
  simp only [StateInfo.dp, StateInfo.depth] at h0 h1 h2 h3
  simp at h0 h1 h2 h3
  simp [h0, h1, h2, h3]

/-- The function `solve` never writes the record of a state without edges. -/
theorem solve_terminal (st : TrainState) (G : GraphInv st) (order0 order1 wins loses : List Nat)
    (h0 : order0.Nodup) (h1 : order1.Nodup) (hw : ∀ s ∈ wins, s ∈ st.g_wins)
    (hl : ∀ s ∈ loses, s ∈ st.g_loses) (s : Nat) (he0 : st.g_edge0 s = [])
    (he1 : st.g_edge1 s = []) :
    (solve st order0 order1 wins loses).g_states s = st.g_states s := by
  have hwin := win_inv st G order0 order1 wins h1 hw
  have hlose := lose_inv st G order0 order1 wins loses h0 h1 hw hl
  have a1 := hwin.frame_i s he0
  have a2 := hwin.frame_j s he1
  have b1 := hlose.frame_i s he1
  have b2 := hlose.frame_j s he0
  exact StateInfo.ext_idx _ _ (b2.1.trans a1.1) (b1.1.trans a2.1) (b2.2.trans a1.2)
    (b1.2.trans a2.2)

/-- Win soundness of `solve`: a state outside `g_wins` that ends with
`dp[0] = +1` has a player-0 edge to a state that ends with `dp[1] = +1` and
whose `depth[1]`, incremented as a `uint16_t`, is its `depth[0]`. -/
theorem solve_win_sound (st : TrainState) (G : GraphInv st)
    (order0 order1 wins loses : List Nat) (h0 : order0.Nodup) (h1 : order1.Nodup)
    (hw : ∀ s ∈ wins, s ∈ st.g_wins) (hl : ∀ s ∈ loses, s ∈ st.g_loses) (y : Nat)
    (hy : y ∉ st.g_wins) (hdp : ((solve st order0 order1 wins loses).g_states y).dp 0 = 1) :
    ∃ x ∈ st.g_edge0 y, ((solve st order0 order1 wins loses).g_states x).dp 1 = 1 ∧
      ((solve st order0 order1 wins loses).g_states y).depth 0 =
        (((solve st order0 order1 wins loses).g_states x).depth 1 + 1) % 65536 ∧
      ((solve st order0 order1 wins loses).g_states x).depth 1 < 65536 := by
  have hwin := win_inv st G order0 order1 wins h1 hw
  have hlose := lose_inv st G order0 order1 wins loses h0 h1 hw hl
  have hne : ((solve st order0 order1 wins loses).g_states y).dp 0 ≠ -1 := by
    rw [hdp]; decide
  have hk := hlose.keep_j y hne
  have hk1 : ((solve st order0 order1 wins loses).g_states y).dp 0 =
      ((win_pass st order0 order1 wins).g_states y).dp 0 := hk.1
  have hk2 : ((solve st order0 order1 wins loses).g_states y).depth 0 =
      ((win_pass st order0 order1 wins).g_states y).depth 0 := hk.2
  have hpre : (st.g_states y).dp 0 ≠ 1 := fun h => hy ((G.dp_cases y 0).1.mp h)
  have hf : fresh 1 0 st.g_states (win_pass st order0 order1 wins).g_states y = true :=
    (fresh_iff _ _ _ _ _).mpr ⟨by rw [← hk1]; exact hdp, hpre⟩
  obtain ⟨x, hx, hx1, hx2⟩ := hwin.sound_i y hf
  have hx1b : ((win_pass st order0 order1 wins).g_states x).dp 1 = 1 := hx1
  have hx2b : ((win_pass st order0 order1 wins).g_states y).depth 0 =
      (((win_pass st order0 order1 wins).g_states x).depth 1 + 1) % 65536 := hx2
  have hsafe : ((solve st order0 order1 wins loses).g_states x).dp 1 ≠ -1 :=
    hlose.safe_i x hx1b
  have hkx := hlose.keep_i x hsafe
  have hkx1 : ((solve st order0 order1 wins loses).g_states x).dp 1 =
      ((win_pass st order0 order1 wins).g_states x).dp 1 := hkx.1
  have hkx2 : ((solve st order0 order1 wins loses).g_states x).depth 1 =
      ((win_pass st order0 order1 wins).g_states x).depth 1 := hkx.2
  refine ⟨x, hx, by rw [hkx1]; exact hx1b, by rw [hk2, hkx2]; exact hx2b, ?_⟩
  rw [hkx2]
  by_cases hprex : (st.g_states x).dp 1 = 1
  · have hxw := (G.dp_cases x 1).1.mp hprex
    have hfr := (hwin.frame_j x (G.wins_edge x hxw).2).2
    have hfr2 : ((win_pass st order0 order1 wins).g_states x).depth 1 =
        (st.g_states x).depth 1 := hfr
    rw [hfr2, G.wins_label x hxw]
    decide
  · have hfx : fresh 1 1 st.g_states (win_pass st order0 order1 wins).g_states x = true :=
      (fresh_iff _ _ _ _ _).mpr ⟨hx1b, hprex⟩
    obtain ⟨_, y2, _, hd⟩ := hwin.sound_j x hfx
    have hd2 : ((win_pass st order0 order1 wins).g_states x).depth 1 =
        (((win_pass st order0 order1 wins).g_states y2).depth 0 + 1) % 65536 := hd
    rw [hd2]
    exact Nat.mod_lt _ (by decide)

/-- A state of the traversal order with a player-0 edge to a member of the
initial queue ends with `dp[0] = +1`. -/
theorem solve_win_in_one (st : TrainState) (G : GraphInv st)
    (order0 order1 wins loses : List Nat) (h0 : order0.Nodup) (h1 : order1.Nodup)
    (hw : ∀ s ∈ wins, s ∈ st.g_wins) (hl : ∀ s ∈ loses, s ∈ st.g_loses) (y t : Nat)
    (hy : y ∈ order0) (ht : t ∈ wins) (hedge : t ∈ st.g_edge0 y) :
    ((solve st order0 order1 wins loses).g_states y).dp 0 = 1 := by
  have hlose := lose_inv st G order0 order1 wins loses h0 h1 hw hl
  have h1w : ((win_pass st order0 order1 wins).g_states y).dp 0 = 1 := by
    unfold win_pass
    apply pass_loop_reaches 1 0 _ order1 st.g_edge1 _ _ _ t ht y
      ((mem_reverse_edges _ _ _ _).mpr ⟨hy, hedge⟩)
    unfold pending
    exact Nat.add_le_add_left (List.countP_le_length _) _
  have hsafe : ((solve st order0 order1 wins loses).g_states y).dp 0 ≠ -1 :=
    hlose.safe_j y h1w
  have hk := hlose.keep_j y hsafe
  have hk1 : ((solve st order0 order1 wins loses).g_states y).dp 0 =
      ((win_pass st order0 order1 wins).g_states y).dp 0 := hk.1
  rw [hk1]; exact h1w


/-- At every stage of the two loops of `solve` (after any number of
iterations of the win loop, and after any number of iterations of the lose
loop), the record of a state without edges is the one that `train` left. -/
theorem solve_terminal_stages (st : TrainState) (G : GraphInv st)
    (order0 order1 wins loses : List Nat) (h0 : order0.Nodup) (h1 : order1.Nodup)
    (hw : ∀ s ∈ wins, s ∈ st.g_wins) (hl : ∀ s ∈ loses, s ∈ st.g_loses) (s : Nat)
    (he0 : st.g_edge0 s = []) (he1 : st.g_edge1 s = []) (f : Nat) :
    (pass_loop 1 0 (reverse_edges order0 st.g_edge0) (reverse_edges order1 st.g_edge1) f
        (SolveState.mk st.g_states (solve_need st) wins)).g_states s = st.g_states s ∧
      (pass_loop (-1) 1 (reverse_edges order1 st.g_edge1) (reverse_edges order0 st.g_edge0) f
        (SolveState.mk (win_pass st order0 order1 wins).g_states
          (win_pass st order0 order1 wins).need
          ((win_pass st order0 order1 wins).q ++ loses))).g_states s = st.g_states s := by
  have hwin := win_inv st G order0 order1 wins h1 hw
  have a1 := hwin.frame_i s he0
  have a2 := hwin.frame_j s he1
  have hw2 := pass_loop_inv (win_env st order0 order1) (win_hyp st G order0 order1 h1) f _
    (win_init st G order0 order1 wins hw)
  have hl2 := pass_loop_inv (lose_env st order0 order1 wins)
    (lose_hyp st G order0 order1 wins h0 h1 hw) f _
    (lose_init st G order0 order1 wins loses h1 hw hl)
  have c1 := hw2.frame_i s he0
  have c2 := hw2.frame_j s he1
  have b1 := hl2.frame_i s he1
  have b2 := hl2.frame_j s he0
  constructor
  · exact StateInfo.ext_idx _ _ c1.1 c2.1 c1.2 c2.2
  · exact StateInfo.ext_idx _ _ (b2.1.trans a1.1) (b1.1.trans a2.1) (b2.2.trans a1.2)
      (b1.2.trans a2.2)

/-! ## The solver on the graph built by `train` -/

/-- The containers built by `train` satisfy what `solve` needs. -/
theorem graph_inv_of_train {b : Params} {st : TrainState} (h : TrainInv b st) : GraphInv st :=
  { wins_label := h.wins_label
    loses_label := h.loses_label
    other_label := h.other_label
    wins_edge := by
      intro s hs
      constructor
      · by_contra hne
        exact (h.edge_src0 s hne).2.2.1 hs
      · by_contra hne
        exact (h.edge_src1 s hne).2.2.1 hs
    loses_edge := by
      intro s hs
      constructor
      · by_contra hne
        exact (h.edge_src0 s hne).2.2.2 hs
      · by_contra hne
        exact (h.edge_src1 s hne).2.2.2 hs }

set_option maxRecDepth 100000 in
/-- The 4x4 state `X = (3, 2, 1, 0)`, `Y = (7, 6, 5)`, the canonical
representative of `X = (0, 1, 2, 3)`, `Y = (4, 5, 6)`, is stored with code
463209327. -/
theorem stored_463209327 : Stored train_4x4_m4 463209327 :=
  ⟨[3, 2, 1, 0], [7, 6, 5], by decide, by decide, by unfold LegalPair; decide, Or.inr rfl,
    by decide⟩

set_option maxRecDepth 100000 in
/-- C14: a stored state that `check_result` classifies as `+1` (resp. `-1`)
is in `g_wins` (resp. `g_loses`) after `train`, its record after `train` is
`dp = (+1, +1)` (resp. `(-1, -1)`), `depth = (0, 0)`, and `solve`, for every
order in which the unordered containers are traversed, leaves that record
unchanged - at every stage of the win loop and of the lose loop, and at
the end - and stops on the empty queue. On the 4x4 board `check_result`
gives `+1` for `X = (0, 1, 2, 3)`, `Y = (4, 5, 6)`, and the record of its
canonical code is `(+1, +1, 0, 0)` after `train` and after `solve`. -/
theorem terminal_labels (b : Params) (hb : b = train_3x3 ∨ b = train_4x4_m4)
    (order0 order1 wins loses : List Nat) (h0 : order0.Perm (train_result b).keys)
    (h1 : order1.Perm (train_result b).keys) (hw : wins.Perm (train_result b).g_wins)
    (hl : loses.Perm (train_result b).g_loses) :
    (∀ s, Stored b s → verdict b s = 1 →
      s ∈ (train_result b).g_wins ∧ (train_result b).g_states s = StateInfo.mk 1 1 0 0 ∧
      (solve (train_result b) order0 order1 wins loses).g_states s = StateInfo.mk 1 1 0 0) ∧
    (∀ s, Stored b s → verdict b s = -1 →
      s ∈ (train_result b).g_loses ∧
      (train_result b).g_states s = StateInfo.mk (-1) (-1) 0 0 ∧
      (solve (train_result b) order0 order1 wins loses).g_states s =
        StateInfo.mk (-1) (-1) 0 0) ∧
    (∀ s, s ∈ (train_result b).g_wins ↔ Stored b s ∧ verdict b s = 1) ∧
    (∀ s, s ∈ (train_result b).g_loses ↔ Stored b s ∧ verdict b s = -1) ∧
    (∀ s, s ∈ (train_result b).g_wins ∨ s ∈ (train_result b).g_loses → ∀ f,
      (pass_loop 1 0 (reverse_edges order0 (train_result b).g_edge0)
        (reverse_edges order1 (train_result b).g_edge1) f
        (SolveState.mk (train_result b).g_states (solve_need (train_result b)) wins)).g_states
          s = (train_result b).g_states s ∧
      (pass_loop (-1) 1 (reverse_edges order1 (train_result b).g_edge1)
        (reverse_edges order0 (train_result b).g_edge0) f
        (SolveState.mk (win_pass (train_result b) order0 order1 wins).g_states
          (win_pass (train_result b) order0 order1 wins).need
          ((win_pass (train_result b) order0 order1 wins).q ++ loses))).g_states s =
        (train_result b).g_states s) ∧
    (solve (train_result b) order0 order1 wins loses).q = [] ∧
    check_result train_4x4_m4 [0, 1, 2, 3] [4, 5, 6] = 1 ∧
    (canonicalize train_4x4_m4 [0, 1, 2, 3] [4, 5, 6]).code = 463209327 ∧
    (b = train_4x4_m4 →
      (train_result b).g_states 463209327 = StateInfo.mk 1 1 0 0 ∧
      (solve (train_result b) order0 order1 wins loses).g_states 463209327 =
        StateInfo.mk 1 1 0 0) := by
  have hinv := inv_train_result b hb
  have G := graph_inv_of_train hinv
  have hn0 : order0.Nodup := h0.nodup_iff.mpr hinv.keys_nodup
  have hn1 : order1.Nodup := h1.nodup_iff.mpr hinv.keys_nodup
  have hws : ∀ s ∈ wins, s ∈ (train_result b).g_wins := fun s hs => hw.subset hs
  have hls : ∀ s ∈ loses, s ∈ (train_result b).g_loses := fun s hs => hl.subset hs
  have hwin : ∀ s, Stored b s → verdict b s = 1 →
      s ∈ (train_result b).g_wins ∧ (train_result b).g_states s = StateInfo.mk 1 1 0 0 ∧
      (solve (train_result b) order0 order1 wins loses).g_states s = StateInfo.mk 1 1 0 0 := by
    intro s hs hv
    have hmem := terminal_win_mem b hb s hs hv
    have hlab := hinv.wins_label s hmem
    refine ⟨hmem, hlab, ?_⟩
    rw [solve_terminal _ G order0 order1 wins loses hn0 hn1 hws hls s (G.wins_edge s hmem).1
      (G.wins_edge s hmem).2]
    exact hlab
  refine ⟨hwin, ?_, ?_, ?_, ?_, solve_done _ _ _ _ _, by decide, by decide, ?_⟩
  · intro s hs hv
    have hmem := terminal_lose_mem b hb s hs hv
    have hlab := hinv.loses_label s hmem
    refine ⟨hmem, hlab, ?_⟩
    rw [solve_terminal _ G order0 order1 wins loses hn0 hn1 hws hls s (G.loses_edge s hmem).1
      (G.loses_edge s hmem).2]
    exact hlab
  · intro s
    constructor
    · intro hs
      have hc := (hinv.wins_sub s hs).2
      exact ⟨hinv.canons_stored s hc, (hinv.wins_verdict s hc).mp hs⟩
    · rintro ⟨hs, hv⟩
      exact terminal_win_mem b hb s hs hv
  · intro s
    constructor
    · intro hs
      have hc := (hinv.loses_sub s hs).2
      exact ⟨hinv.canons_stored s hc, (hinv.loses_verdict s hc).mp hs⟩
    · rintro ⟨hs, hv⟩
      exact terminal_lose_mem b hb s hs hv
  · intro s hs f
    have he : (train_result b).g_edge0 s = [] ∧ (train_result b).g_edge1 s = [] := by
      rcases hs with h | h
      · exact G.wins_edge s h
      · exact G.loses_edge s h
    exact solve_terminal_stages _ G order0 order1 wins loses hn0 hn1 hws hls s he.1 he.2 f
  · intro hb4
    subst hb4
    exact (hwin 463209327 stored_463209327 (by decide)).2

theorem terminal_labels_witness :
    (solve (train_result train_4x4_m4) (train_result train_4x4_m4).keys
        (train_result train_4x4_m4).keys (train_result train_4x4_m4).g_wins
        (train_result train_4x4_m4).g_loses).g_states 463209327 = StateInfo.mk 1 1 0 0 :=
  ((terminal_labels train_4x4_m4 (Or.inr rfl) _ _ _ _ (List.Perm.refl _) (List.Perm.refl _)
    (List.Perm.refl _) (List.Perm.refl _)).2.2.2.2.2.2.2.2 rfl).2


/-! ## The edges built by `train` -/

theorem add_state_maps {b : Params} {st : TrainState} (h : TrainInv b st) (s : Nat) :
    (add_state st s).g_edge0 = st.g_edge0 ∧ (add_state st s).g_edge1 = st.g_edge1 ∧
      (add_state st s).g_states = st.g_states := by
  rw [add_state_eq h s]
  exact ⟨rfl, rfl, rfl⟩

/-- The function `add_edge` in terms of its tests `edge_ok`. -/
theorem add_edge_eq (b : Params) (st : TrainState) (from_s to_s player : Nat) :
    add_edge b st from_s to_s player =
      if edge_ok b to_s = true then
        (if player = 0 then
          TrainState.mk (add_state (add_state st from_s) to_s).canons
            (add_state (add_state st from_s) to_s).keys
            (add_state (add_state st from_s) to_s).g_states
            (upd (add_state (add_state st from_s) to_s).g_edge0 from_s
              ((add_state (add_state st from_s) to_s).g_edge0 from_s ++ [to_s]))
            (add_state (add_state st from_s) to_s).g_edge1
            (add_state (add_state st from_s) to_s).g_wins
            (add_state (add_state st from_s) to_s).g_loses
        else
          TrainState.mk (add_state (add_state st from_s) to_s).canons
            (add_state (add_state st from_s) to_s).keys
            (add_state (add_state st from_s) to_s).g_states
            (add_state (add_state st from_s) to_s).g_edge0
            (upd (add_state (add_state st from_s) to_s).g_edge1 from_s
              ((add_state (add_state st from_s) to_s).g_edge1 from_s ++ [to_s]))
            (add_state (add_state st from_s) to_s).g_wins
            (add_state (add_state st from_s) to_s).g_loses)
      else st := by
  unfold add_edge edge_ok
  cases hdx : decode_list b (to_s / b.SEPARATOR) with
  | none => simp
  | some x1 =>
    cases hdy : decode_list b (to_s % b.SEPARATOR) with
    | none => simp
    | some y1 =>
      simp only []
      by_cases hlen : x1.length ≠ y1.length ∧ x1.length ≠ y1.length + 1
      · simp [hlen]
      · by_cases hov : overlap x1 y1 = true
        · simp [hlen, hov]
        · simp only [hlen, hov, if_false, Bool.false_eq_true, if_true]

/-- The edge maps after `add_edge`: the target is appended to the list of
`from_s` for the player when the target passes the tests. -/
theorem add_edge_edges {b : Params} {st : TrainState} (h : TrainInv b st)
    (from_s to_s player : Nat) (hfs : Stored b from_s) :
    (add_edge b st from_s to_s player).g_edge0 =
        (if edge_ok b to_s = true ∧ player = 0 then
          upd st.g_edge0 from_s (st.g_edge0 from_s ++ [to_s]) else st.g_edge0) ∧
      (add_edge b st from_s to_s player).g_edge1 =
        (if edge_ok b to_s = true ∧ player ≠ 0 then
          upd st.g_edge1 from_s (st.g_edge1 from_s ++ [to_s]) else st.g_edge1) := by
  rw [add_edge_eq]
  by_cases hok : edge_ok b to_s = true
  · rw [if_pos hok]
    have h1 := inv_add_state h from_s hfs
    obtain ⟨a0, a1, _⟩ := add_state_maps h from_s
    obtain ⟨b0, b1, _⟩ := add_state_maps h1 to_s
    by_cases hp : player = 0
    · rw [if_pos hp, if_pos ⟨hok, hp⟩, if_neg (fun hh => hh.2 hp)]
      exact ⟨by rw [b0, a0], by rw [b1, a1]⟩
    · rw [if_neg hp, if_neg (fun hh => hp hh.2), if_pos ⟨hok, hp⟩]
      exact ⟨by rw [b0, a0], by rw [b1, a1]⟩
  · rw [if_neg hok, if_neg (fun hh => hok hh.1), if_neg (fun hh => hok hh.1)]
    exact ⟨rfl, rfl⟩

theorem add_edge_edges_zero {b : Params} {st : TrainState} (h : TrainInv b st)
    (from_s to_s : Nat) (hfs : Stored b from_s) :
    (add_edge b st from_s to_s 0).g_edge0 =
        (if edge_ok b to_s = true then
          upd st.g_edge0 from_s (st.g_edge0 from_s ++ [to_s]) else st.g_edge0) ∧
      (add_edge b st from_s to_s 0).g_edge1 = st.g_edge1 := by
  obtain ⟨e0, e1⟩ := add_edge_edges h from_s to_s 0 hfs
  constructor
  · rw [e0]
    by_cases hok : edge_ok b to_s = true
    · rw [if_pos ⟨hok, rfl⟩, if_pos hok]
    · rw [if_neg (fun hh => hok hh.1), if_neg hok]
  · rw [e1, if_neg (fun hh => hh.2 rfl)]

theorem add_edge_edges_one {b : Params} {st : TrainState} (h : TrainInv b st)
    (from_s to_s : Nat) (hfs : Stored b from_s) :
    (add_edge b st from_s to_s 1).g_edge0 = st.g_edge0 ∧
      (add_edge b st from_s to_s 1).g_edge1 =
        (if edge_ok b to_s = true then
          upd st.g_edge1 from_s (st.g_edge1 from_s ++ [to_s]) else st.g_edge1) := by
  obtain ⟨e0, e1⟩ := add_edge_edges h from_s to_s 1 hfs
  have h10 : (1 : Nat) ≠ 0 := by decide
  constructor
  · rw [e0, if_neg (fun hh => h10 hh.2)]
  · rw [e1]
    by_cases hok : edge_ok b to_s = true
    · rw [if_pos ⟨hok, h10⟩, if_pos hok]
    · rw [if_neg (fun hh => hok hh.1), if_neg hok]

theorem cell_edges_zero (b : Params) (cx cy : List Nat) (t : Nat) :
    cell_edges b 0 cx cy t =
      if (board_of b cx cy).getD t 0 ≠ 0 then []
      else if edge_ok b (canonicalize b (place b cx t) cy).code = true then
        [(canonicalize b (place b cx t) cy).code]
      else [] := by
  unfold cell_edges
  rw [if_pos rfl]

theorem cell_edges_one (b : Params) (cx cy : List Nat) (t : Nat) :
    cell_edges b 1 cx cy t =
      if (board_of b cx cy).getD t 0 ≠ 0 then []
      else if edge_ok b (canonicalize b cx (place b cy t)).code = true then
        [(canonicalize b cx (place b cy t)).code]
      else [] := by
  unfold cell_edges
  rw [if_neg (by decide : ¬ ((1 : Nat) = 0))]

/-- The edge maps after one iteration of the cell loop. -/
theorem train_cell_edges {b : Params} (hb : b = train_3x3 ∨ b = train_4x4_m4)
    {st : TrainState} (h : TrainInv b st) (code : Nat) (cx cy : List Nat) (t : Nat)
    (ht : t < b.CELLS) (hfrom : EdgeSource b st code)
    (hxl : cx.length ≤ b.MAX_MOVE) (hxr : ∀ p ∈ cx, p < b.CELLS)
    (hyl : cy.length ≤ b.MAX_MOVE) (hyr : ∀ p ∈ cy, p < b.CELLS) (s : Nat) :
    (train_cell b code cx cy (board_of b cx cy) st t).g_edge0 s =
        (if s = code then st.g_edge0 code ++ cell_edges b 0 cx cy t else st.g_edge0 s) ∧
      (train_cell b code cx cy (board_of b cx cy) st t).g_edge1 s =
        (if s = code then st.g_edge1 code ++ cell_edges b 1 cx cy t else st.g_edge1 s) := by
  rw [cell_edges_zero, cell_edges_one]
  unfold train_cell
  by_cases hcell : (board_of b cx cy).getD t 0 ≠ 0
  · rw [if_pos hcell, if_pos hcell, if_pos hcell]
    by_cases hs : s = code
    · rw [if_pos hs, if_pos hs, hs, List.append_nil, List.append_nil]; exact ⟨rfl, rfl⟩
    · rw [if_neg hs, if_neg hs]; exact ⟨rfl, rfl⟩
  · rw [if_neg hcell, if_neg hcell, if_neg hcell]
    obtain ⟨hpxl, hpxr⟩ := place_in_board b cx t hxl hxr ht
    obtain ⟨h1, c1, w1, l1⟩ := inv_add_edge h code (canonicalize b (place b cx t) cy).code 0 hfrom
      (fun x1 y1 hdx hdy hlen hov =>
        (stored_of_accept b hb _ _ hpxl hpxr hyl hyr x1 y1 hdx hdy hlen hov).1)
    obtain ⟨e0, e1⟩ := add_edge_edges_zero h code (canonicalize b (place b cx t) cy).code hfrom.1
    obtain ⟨f0, f1⟩ := add_edge_edges_one h1 code (canonicalize b cx (place b cy t)).code hfrom.1
    show (add_edge b (add_edge b st code (canonicalize b (place b cx t) cy).code 0) code
        (canonicalize b cx (place b cy t)).code 1).g_edge0 s = _ ∧
      (add_edge b (add_edge b st code (canonicalize b (place b cx t) cy).code 0) code
        (canonicalize b cx (place b cy t)).code 1).g_edge1 s = _
    rw [f0, f1, e0, e1]
    constructor
    · by_cases hok : edge_ok b (canonicalize b (place b cx t) cy).code = true
      · rw [if_pos hok, if_pos hok]
        by_cases hs : s = code
        · rw [if_pos hs, hs, upd_same]
        · rw [if_neg hs, upd_other _ _ _ _ hs]
      · rw [if_neg hok, if_neg hok]
        by_cases hs : s = code
        · rw [if_pos hs, hs, List.append_nil]
        · rw [if_neg hs]
    · by_cases hok : edge_ok b (canonicalize b cx (place b cy t)).code = true
      · rw [if_pos hok, if_pos hok]
        by_cases hs : s = code
        · rw [if_pos hs, hs, upd_same]
        · rw [if_neg hs, upd_other _ _ _ _ hs]
      · rw [if_neg hok, if_neg hok]
        by_cases hs : s = code
        · rw [if_pos hs, hs, List.append_nil]
        · rw [if_neg hs]

/-- The edge maps after the cell loop over a list of cells. -/
theorem train_cells_edges {b : Params} (hb : b = train_3x3 ∨ b = train_4x4_m4)
    (code : Nat) (cx cy : List Nat)
    (hxl : cx.length ≤ b.MAX_MOVE) (hxr : ∀ p ∈ cx, p < b.CELLS)
    (hyl : cy.length ≤ b.MAX_MOVE) (hyr : ∀ p ∈ cy, p < b.CELLS) (l : List Nat)
    (hl : ∀ t ∈ l, t < b.CELLS) {st : TrainState} (h : TrainInv b st)
    (hfrom : EdgeSource b st code) (s : Nat) :
    (l.foldl (train_cell b code cx cy (board_of b cx cy)) st).g_edge0 s =
        (if s = code then st.g_edge0 code ++ l.flatMap (cell_edges b 0 cx cy)
          else st.g_edge0 s) ∧
      (l.foldl (train_cell b code cx cy (board_of b cx cy)) st).g_edge1 s =
        (if s = code then st.g_edge1 code ++ l.flatMap (cell_edges b 1 cx cy)
          else st.g_edge1 s) := by
  induction l generalizing st with
  | nil =>
    simp only [List.foldl_nil, List.flatMap_nil, List.append_nil]
    by_cases hs : s = code
    · rw [if_pos hs, if_pos hs, hs]; exact ⟨rfl, rfl⟩
    · rw [if_neg hs, if_neg hs]; exact ⟨rfl, rfl⟩
  | cons t rest ih =>
    rw [List.foldl_cons]
    have htc := hl t (List.mem_cons_self _ _)
    obtain ⟨h2, c2, w2, l2⟩ := inv_train_cell hb h code cx cy (board_of b cx cy) t htc hfrom
      hxl hxr hyl hyr
    have hfrom2 : EdgeSource b (train_cell b code cx cy (board_of b cx cy) st t) code := by
      obtain ⟨a1, a2, a3, a4⟩ := hfrom
      exact ⟨a1, by rw [c2]; exact a2, by rw [w2]; exact a3, by rw [l2]; exact a4⟩
    obtain ⟨i0, i1⟩ := ih (fun t2 ht2 => hl t2 (List.mem_cons_of_mem _ ht2)) h2 hfrom2
    obtain ⟨k0, k1⟩ := train_cell_edges hb h code cx cy t htc hfrom hxl hxr hyl hyr s
    obtain ⟨m0, m1⟩ := train_cell_edges hb h code cx cy t htc hfrom hxl hxr hyl hyr code
    rw [i0, i1, List.flatMap_cons, List.flatMap_cons]
    by_cases hs : s = code
    · rw [if_pos hs, if_pos hs, if_pos hs, if_pos hs, m0, m1, if_pos rfl, if_pos rfl,
        List.append_assoc, List.append_assoc]
      exact ⟨rfl, rfl⟩
    · rw [if_neg hs, if_neg hs, if_neg hs, if_neg hs, k0, k1, if_neg hs, if_neg hs]
      exact ⟨rfl, rfl⟩


theorem add_state_edge_other (st : TrainState) (s c : Nat) (h : c ≠ s) :
    (add_state st s).g_edge0 c = st.g_edge0 c ∧ (add_state st s).g_edge1 c = st.g_edge1 c := by
  unfold add_state
  by_cases hs : s ∈ st.keys
  · rw [if_pos hs]; exact ⟨rfl, rfl⟩
  · rw [if_neg hs]
    exact ⟨upd_other _ _ _ _ h, upd_other _ _ _ _ h⟩

theorem successors_of_decode (b : Params) (p c : Nat) (x y : List Nat)
    (hx : decode_list b (c / b.SEPARATOR) = some x)
    (hy : decode_list b (c % b.SEPARATOR) = some y) :
    successors b p c = (List.range b.CELLS).flatMap (cell_edges b p x y) := by
  unfold successors
  rw [hx, hy]

/-- The body of the enumeration loop keeps the edge lists of the visited
non-terminal codes equal to the generated lists. -/
theorem edge_inv_train_visit {b : Params} (hb : b = train_3x3 ∨ b = train_4x4_m4)
    {st : TrainState} (h : TrainInv b st) (he : EdgeInv b st) (x y : List Nat)
    (hxn : x.Nodup) (hyn : y.Nodup) (hxl : x.length ≤ b.MAX_MOVE) (hyl : y.length ≤ b.MAX_MOVE)
    (hxr : ∀ p ∈ x, p < b.CELLS) (hyr : ∀ p ∈ y, p < b.CELLS) :
    EdgeInv b (train_visit b st x y) := by
  unfold train_visit
  by_cases hlen : x.length ≠ y.length ∧ x.length ≠ y.length + 1
  · rw [if_pos hlen]; exact he
  · rw [if_neg hlen]
    have hlen2 : x.length = y.length ∨ x.length = y.length + 1 := by
      by_contra hc
      push_neg at hc
      exact hlen hc
    by_cases hov : overlap x y = true
    · rw [if_pos hov]; exact he
    · rw [if_neg hov]
      have hdis : ∀ p ∈ x, p ∉ y := (overlap_false_iff x y).mp (by simpa using hov)
      have hlegal : LegalPair b x y := ⟨hxn, hyn, hdis, hxl, hyl, hxr, hyr⟩
      obtain ⟨hst, hdx, hdy, hlc⟩ := stored_of_legal b hb x y hlegal hlen2
      have hverd := verdict_of_decode b _ _ _ hdx hdy
      simp only []
      by_cases hin : (canonicalize b x y).code ∈ st.canons
      · rw [if_pos hin]; exact he
      · rw [if_neg hin]
        by_cases hr1 : check_result b (canonicalize b x y).x (canonicalize b x y).y = 1
        · rw [if_pos hr1]
          intro s hs hsw hsl
          have hs1 : s ∈ set_insert st.canons (canonicalize b x y).code := by
            have : s ∈ (add_state _ _).canons := hs
            rw [(add_state_fields _ _).1] at this
            exact this
          have hsw1 : s ∉ set_insert st.g_wins (canonicalize b x y).code := by
            intro hc
            apply hsw
            show s ∈ (add_state _ _).g_wins
            rw [(add_state_fields _ _).2.1]
            exact hc
          have hsl1 : s ∉ st.g_loses := by
            intro hc
            apply hsl
            show s ∈ (add_state _ _).g_loses
            rw [(add_state_fields _ _).2.2.1]
            exact hc
          have hne : s ≠ (canonicalize b x y).code :=
            fun e => hsw1 ((mem_set_insert _ _ _).mpr (Or.inr e))
          have hsc : s ∈ st.canons := by
            rcases (mem_set_insert _ _ _).mp hs1 with h1 | h1
            · exact h1
            · exact absurd h1 hne
          have hsw0 : s ∉ st.g_wins :=
            fun hc => hsw1 ((mem_set_insert _ _ _).mpr (Or.inl hc))
          obtain ⟨e0, e1⟩ := he s hsc hsw0 hsl1
          obtain ⟨a0, a1⟩ := add_state_edge_other
            (TrainState.mk (set_insert st.canons (canonicalize b x y).code) st.keys st.g_states
              st.g_edge0 st.g_edge1 (set_insert st.g_wins (canonicalize b x y).code) st.g_loses)
            (canonicalize b x y).code s hne
          exact ⟨a0.trans e0, a1.trans e1⟩
        · rw [if_neg hr1]
          by_cases hr2 : check_result b (canonicalize b x y).x (canonicalize b x y).y = -1
          · rw [if_pos hr2]
            intro s hs hsw hsl
            have hs1 : s ∈ set_insert st.canons (canonicalize b x y).code := by
              have : s ∈ (add_state _ _).canons := hs
              rw [(add_state_fields _ _).1] at this
              exact this
            have hsl1 : s ∉ set_insert st.g_loses (canonicalize b x y).code := by
              intro hc
              apply hsl
              show s ∈ (add_state _ _).g_loses
              rw [(add_state_fields _ _).2.2.1]
              exact hc
            have hsw1 : s ∉ st.g_wins := by
              intro hc
              apply hsw
              show s ∈ (add_state _ _).g_wins
              rw [(add_state_fields _ _).2.1]
              exact hc
            have hne : s ≠ (canonicalize b x y).code :=
              fun e => hsl1 ((mem_set_insert _ _ _).mpr (Or.inr e))
            have hsc : s ∈ st.canons := by
              rcases (mem_set_insert _ _ _).mp hs1 with h1 | h1
              · exact h1
              · exact absurd h1 hne
            have hsl0 : s ∉ st.g_loses :=
              fun hc => hsl1 ((mem_set_insert _ _ _).mpr (Or.inl hc))
            obtain ⟨e0, e1⟩ := he s hsc hsw1 hsl0
            obtain ⟨a0, a1⟩ := add_state_edge_other
              (TrainState.mk (set_insert st.canons (canonicalize b x y).code) st.keys st.g_states
                st.g_edge0 st.g_edge1 st.g_wins (set_insert st.g_loses (canonicalize b x y).code))
              (canonicalize b x y).code s hne
            exact ⟨a0.trans e0, a1.trans e1⟩
          · rw [if_neg hr2]
            have h1 := inv_visit_nonterminal h _ hin hst (by rw [hverd]; exact hr1)
              (by rw [hverd]; exact hr2)
            have hsrc : EdgeSource b
                (TrainState.mk (set_insert st.canons (canonicalize b x y).code) st.keys
                  st.g_states st.g_edge0 st.g_edge1 st.g_wins st.g_loses)
                (canonicalize b x y).code :=
              ⟨hst, (mem_set_insert _ _ _).mpr (Or.inr rfl),
                fun hc => hin (h.wins_sub _ hc).2, fun hc => hin (h.loses_sub _ hc).2⟩
            obtain ⟨h2, c2, w2, l2⟩ := inv_train_cells hb h1 _ _ _
              (board_of b (canonicalize b x y).x (canonicalize b x y).y) hsrc
              hlc.2.2.2.1 hlc.2.2.2.2.2.1 hlc.2.2.2.2.1 hlc.2.2.2.2.2.2
            intro s hs hsw hsl
            rw [c2] at hs
            rw [w2] at hsw
            rw [l2] at hsl
            obtain ⟨k0, k1⟩ := train_cells_edges hb (canonicalize b x y).code
              (canonicalize b x y).x (canonicalize b x y).y
              hlc.2.2.2.1 hlc.2.2.2.2.2.1 hlc.2.2.2.2.1 hlc.2.2.2.2.2.2 (List.range b.CELLS)
              (fun t ht => List.mem_range.mp ht) h1 hsrc s
            rw [k0, k1]
            by_cases hsc : s = (canonicalize b x y).code
            · rw [if_pos hsc, if_pos hsc, hsc,
                successors_of_decode b 0 _ _ _ hdx hdy, successors_of_decode b 1 _ _ _ hdx hdy]
              have z0 : st.g_edge0 (canonicalize b x y).code = [] := by
                by_contra hne
                exact hin (h.edge_src0 _ hne).2.1
              have z1 : st.g_edge1 (canonicalize b x y).code = [] := by
                by_contra hne
                exact hin (h.edge_src1 _ hne).2.1
              show st.g_edge0 _ ++ _ = _ ∧ st.g_edge1 _ ++ _ = _
              rw [z0, z1, List.nil_append, List.nil_append]
              exact ⟨rfl, rfl⟩
            · rw [if_neg hsc, if_neg hsc]
              have hs0 : s ∈ st.canons := by
                rcases (mem_set_insert _ _ _).mp hs with h3 | h3
                · exact h3
                · exact absurd h3 hsc
              exact he s hs0 hsw hsl


theorem edge_inv_init (b : Params) : EdgeInv b TrainState.init :=
  fun s hs => absurd hs (List.not_mem_nil s)

theorem Train3x3.edge_inv_3x3 : EdgeInv train_3x3 Train3x3.train := by
  have hb : train_3x3 = train_3x3 ∨ train_3x3 = train_4x4_m4 := Or.inl rfl
  unfold Train3x3.train
  have := foldl_invariant (fun s => TrainInv train_3x3 s ∧ EdgeInv train_3x3 s)
    Train3x3.train_step (List.range (train_3x3.SEPARATOR * train_3x3.SEPARATOR))
    TrainState.init ⟨inv_init _, edge_inv_init _⟩ (by
      rintro acc code hcode ⟨h1, h2⟩
      refine ⟨(Train3x3.inv_train_step h1 code (List.mem_range.mp hcode)).1, ?_⟩
      unfold Train3x3.train_step
      cases hdx : decode_list train_3x3 (code / train_3x3.SEPARATOR) with
      | none => exact h2
      | some x =>
        cases hdy : decode_list train_3x3 (code % train_3x3.SEPARATOR) with
        | none => exact h2
        | some y =>
          have hx := decode_valid train_3x3 hb _
            (Nat.div_lt_of_lt_mul (List.mem_range.mp hcode)) x hdx
          have hy := decode_valid train_3x3 hb _ (Nat.mod_lt _ (by decide)) y hdy
          exact edge_inv_train_visit hb h1 h2 x y hx.1 hy.1 hx.2.2.1 hy.2.2.1 hx.2.1 hy.2.1)
  exact this.2

theorem Train4x4.edge_inv_4x4 (xs ys : List Nat) (hxs : ∀ xc ∈ xs, Train4x4.ValidCode xc)
    (hys : ∀ yc ∈ ys, Train4x4.ValidCode yc) :
    EdgeInv train_4x4_m4 (Train4x4.train xs ys) := by
  have hb : train_4x4_m4 = train_3x3 ∨ train_4x4_m4 = train_4x4_m4 := Or.inr rfl
  unfold Train4x4.train
  have := foldl_invariant (fun s => TrainInv train_4x4_m4 s ∧ EdgeInv train_4x4_m4 s)
    (fun st x_code => ys.foldl (fun st2 y_code => train_visit train_4x4_m4 st2
      (Train4x4.raw_decode x_code) (Train4x4.raw_decode y_code)) st) xs
    TrainState.init ⟨inv_init _, edge_inv_init _⟩ (by
      rintro acc xc hxc hacc
      apply foldl_invariant (fun s => TrainInv train_4x4_m4 s ∧ EdgeInv train_4x4_m4 s)
      · exact hacc
      · rintro acc2 yc hyc ⟨h1, h2⟩
        refine ⟨(Train4x4.inv_visit h1 xc yc (hxs xc hxc) (hys yc hyc)).1, ?_⟩
        obtain ⟨hxlt, x, hdx⟩ := hxs xc hxc
        obtain ⟨hylt, y, hdy⟩ := hys yc hyc
        rw [Train4x4.raw_decode_of_decode xc x hdx, Train4x4.raw_decode_of_decode yc y hdy]
        have hxv := decode_valid train_4x4_m4 hb xc hxlt x hdx
        have hyv := decode_valid train_4x4_m4 hb yc hylt y hdy
        exact edge_inv_train_visit hb h1 h2 x y hxv.1 hyv.1 hxv.2.2.1 hyv.2.2.1 hxv.2.1
          hyv.2.1)
  exact this.2

/-- After `train` the edge lists of every stored non-terminal code are
exactly the lists generated by the cell loop for its state. -/
theorem edges_of_train (b : Params) (hb : b = train_3x3 ∨ b = train_4x4_m4) (s : Nat)
    (hs : Stored b s) (h1 : verdict b s ≠ 1) (h2 : verdict b s ≠ -1) :
    (train_result b).g_edge0 s = successors b 0 s ∧
      (train_result b).g_edge1 s = successors b 1 s := by
  have hinv := inv_train_result b hb
  have hc := (canons_iff b hb s).mpr hs
  have he : EdgeInv b (train_result b) := by
    rcases hb with rfl | rfl
    · exact Train3x3.edge_inv_3x3
    · exact Train4x4.edge_inv_4x4 _ _ Train4x4.x_valid_valid Train4x4.y_valid_valid
  exact he s hc (fun hw => h1 ((hinv.wins_verdict s hc).mp hw))
    (fun hl => h2 ((hinv.loses_verdict s hc).mp hl))


/-! ### Completeness of the propagation loops -/

theorem pass_inner_new (lbl : Int) (i y z : Nat) (ss : SolveState) (s : Nat)
    (h : ((pass_inner lbl i y ss z).g_states s).dp (1 - i) = lbl) :
    (ss.g_states s).dp (1 - i) = lbl ∨ s ∈ (pass_inner lbl i y ss z).q := by
  unfold pass_inner at h ⊢
  by_cases hn : ss.need z (1 - i) - 1 = 0
  · rw [if_pos hn] at h ⊢
    by_cases hs : s = z
    · right
      rw [hs]
      exact List.mem_append_right _ (List.mem_singleton_self z)
    · left
      have h2 : ((upd ss.g_states z _) s).dp (1 - i) = lbl := h
      rw [upd_other _ _ _ _ hs] at h2
      exact h2
  · rw [if_neg hn] at h
    exact Or.inl h

theorem pass_inner_zero_label (lbl : Int) (i y z : Nat) (ss : SolveState)
    (hn : ss.need z (1 - i) - 1 = 0) :
    ((pass_inner lbl i y ss z).g_states z).dp (1 - i) = lbl := by
  unfold pass_inner
  rw [if_pos hn]
  show ((upd ss.g_states z _) z).dp (1 - i) = lbl
  rw [upd_same]
  exact StateInfo.label_dp _ _ _ _

theorem pass_inner_done (lbl : Int) (i : Nat) (er : Nat → List Nat) (oj : List Nat)
    (Ej : Nat → List Nat) (hold : List Nat) (y z : Nat) (ss : SolveState)
    (h : PassDone lbl i er oj Ej hold ss) :
    PassDone lbl i er oj Ej hold (pass_inner lbl i y ss z) := by
  constructor
  · intro s hs
    rcases pass_inner_new lbl i y z ss s hs with h1 | h1
    · rcases h.1 s h1 with h2 | h2 | h2
      · exact Or.inl (pass_inner_queue lbl i y z ss s h2)
      · exact Or.inr (Or.inl h2)
      · exact Or.inr (Or.inr (fun y2 hy2 => pass_inner_mono lbl i y z ss y2 i (h2 y2 hy2)))
    · exact Or.inl h1
  · intro z2 hz2 hne hneed
    rw [pass_inner_need] at hneed
    by_cases hzz : z2 = z
    · rw [if_pos hzz] at hneed
      rw [hzz]
      by_cases hn : ss.need z (1 - i) - 1 = 0
      · exact pass_inner_zero_label lbl i y z ss hn
      · apply pass_inner_mono
        apply h.2 z (hzz ▸ hz2) (hzz ▸ hne)
        omega
    · rw [if_neg hzz] at hneed
      exact pass_inner_mono lbl i y z ss z2 (1 - i) (h.2 z2 hz2 hne hneed)

theorem pass_mid_done (lbl : Int) (i : Nat) (er ero : Nat → List Nat) (oj : List Nat)
    (Ej : Nat → List Nat) (hold : List Nat) (x y : Nat) (ss : SolveState)
    (h : PassDone lbl i er oj Ej hold ss) :
    PassDone lbl i er oj Ej hold (pass_mid lbl i ero x ss y) := by
  unfold pass_mid
  by_cases hy : (ss.g_states y).dp i = lbl
  · rw [if_pos hy]; exact h
  · rw [if_neg hy]
    refine foldl_invariant (fun (st : SolveState) => PassDone lbl i er oj Ej hold st)
      _ _ _ ?_ ?_
    · have hoj := labelled_other ss.g_states y i (1 - i) lbl
        (((ss.g_states x).depth (1 - i) + 1) % 65536) (idx_ij i)
      constructor
      · intro s hs
        have hs2 : ((upd ss.g_states y _) s).dp (1 - i) = lbl := hs
        rw [(hoj s).1] at hs2
        rcases h.1 s hs2 with h2 | h2 | h2
        · exact Or.inl h2
        · exact Or.inr (Or.inl h2)
        · refine Or.inr (Or.inr (fun y2 hy2 => ?_))
          show ((upd ss.g_states y _) y2).dp i = lbl
          by_cases hyy : y2 = y
          · rw [hyy, upd_same]; exact StateInfo.label_dp _ _ _ _
          · rw [upd_other _ _ _ _ hyy]; exact h2 y2 hy2
      · intro z hz hne hneed
        show ((upd ss.g_states y _) z).dp (1 - i) = lbl
        rw [(hoj z).1]
        exact h.2 z hz hne hneed
    · intro acc z _ hacc
      exact pass_inner_done lbl i er oj Ej hold y z acc hacc

/-- After the middle loop over a list, every state of the list carries the
label at index `i`. -/
theorem pass_mid_fold_labels (lbl : Int) (i : Nat) (ero : Nat → List Nat) (x : Nat)
    (ys : List Nat) (st : SolveState) (y : Nat) (hy : y ∈ ys) :
    ((ys.foldl (pass_mid lbl i ero x) st).g_states y).dp i = lbl := by
  induction ys generalizing st with
  | nil => exact absurd hy (List.not_mem_nil y)
  | cons a rest ih =>
    rw [List.foldl_cons]
    rcases List.mem_cons.mp hy with hya | hya
    · subst hya
      refine foldl_invariant (fun (st2 : SolveState) => (st2.g_states y).dp i = lbl)
        _ _ _ ?_ ?_
      · exact pass_mid_labels lbl i _ x y st
      · intro acc y2 _ hacc
        exact pass_mid_mono lbl i _ x y2 acc y i hacc
    · exact ih _ hya

theorem pass_loop_complete (lbl : Int) (i : Nat) (er ero : Nat → List Nat) (oj : List Nat)
    (Ej : Nat → List Nat) (fuel : Nat) (ss : SolveState)
    (h : PassDone lbl i er oj Ej [] ss) :
    PassDone lbl i er oj Ej [] (pass_loop lbl i er ero fuel ss) := by
  induction fuel generalizing ss with
  | zero => exact h
  | succ fuel ih =>
    unfold pass_loop
    cases hq : ss.q with
    | nil => exact h
    | cons x rest =>
      simp only []
      apply ih
      have h1 : PassDone lbl i er oj Ej [x] (SolveState.mk ss.g_states ss.need rest) := by
        constructor
        · intro s hs
          rcases h.1 s hs with h2 | h2 | h2
          · rw [hq] at h2
            rcases List.mem_cons.mp h2 with h3 | h3
            · exact Or.inr (Or.inl (h3 ▸ List.mem_singleton_self x))
            · exact Or.inl h3
          · exact absurd h2 (List.not_mem_nil s)
          · exact Or.inr (Or.inr h2)
        · exact h.2
      have h2 : PassDone lbl i er oj Ej [x]
          ((er x).foldl (pass_mid lbl i ero x) (SolveState.mk ss.g_states ss.need rest)) := by
        refine foldl_invariant (fun (st : SolveState) => PassDone lbl i er oj Ej [x] st)
          _ _ _ h1 ?_
        intro acc y _ hacc
        exact pass_mid_done lbl i er ero oj Ej [x] x y acc hacc
      constructor
      · intro s hs
        rcases h2.1 s hs with h3 | h3 | h3
        · exact Or.inl h3
        · have hsx : s = x := List.mem_singleton.mp h3
          rw [hsx]
          exact Or.inr (Or.inr (fun y hy => pass_mid_fold_labels lbl i ero x (er x) _ y hy))
        · exact Or.inr (Or.inr h3)
      · exact h2.2

/-- The completeness side holds after the win propagation when the initial
queue holds all of `g_wins`. -/
theorem win_complete (st : TrainState) (G : GraphInv st) (order0 order1 wins : List Nat)
    (hw : ∀ s, s ∈ st.g_wins → s ∈ wins) :
    PassDone 1 0 (reverse_edges order0 st.g_edge0) order1 st.g_edge1 []
      (win_pass st order0 order1 wins) := by
  unfold win_pass
  apply pass_loop_complete
  constructor
  · intro s hs
    exact Or.inl (hw s ((G.dp_cases s 1).1.mp hs))
  · intro z _ hne hneed
    have h2 : solve_need st z 1 ≤ 0 := hneed
    unfold solve_need at h2
    rw [if_neg (by decide)] at h2
    have : 0 < (st.g_edge1 z).length := List.length_pos.mpr hne
    omega

/-- Rule of the win propagation for the player to move: a state of the
traversal order with a player-0 edge to a state labelled `+1` at index 1
is labelled `+1` at index 0. -/
theorem win_rule_x (st : TrainState) (G : GraphInv st) (order0 order1 wins : List Nat)
    (hw : ∀ s, s ∈ st.g_wins → s ∈ wins) (y x : Nat) (hy : y ∈ order0)
    (hx : x ∈ st.g_edge0 y)
    (hl : ((win_pass st order0 order1 wins).g_states x).dp 1 = 1) :
    ((win_pass st order0 order1 wins).g_states y).dp 0 = 1 := by
  have h := (win_complete st G order0 order1 wins hw).1 x hl
  rw [win_done] at h
  rcases h with h | h | h
  · exact absurd h (List.not_mem_nil x)
  · exact absurd h (List.not_mem_nil x)
  · exact h y ((mem_reverse_edges _ _ _ _).mpr ⟨hy, hx⟩)

/-- Rule of the win propagation for the opponent: a state of the traversal
order that has player-1 edges, all of them to non-terminal states labelled
`+1` at index 0, is labelled `+1` at index 1. -/
theorem win_rule_y (st : TrainState) (G : GraphInv st) (order0 order1 wins : List Nat)
    (h1 : order1.Nodup) (hws : ∀ s ∈ wins, s ∈ st.g_wins)
    (hw : ∀ s, s ∈ st.g_wins → s ∈ wins) (z : Nat) (hz : z ∈ order1)
    (hne : st.g_edge1 z ≠ [])
    (hall : ∀ t ∈ st.g_edge1 z, t ∉ st.g_wins ∧
      ((win_pass st order0 order1 wins).g_states t).dp 0 = 1) :
    ((win_pass st order0 order1 wins).g_states z).dp 1 = 1 := by
  have hinv := win_inv st G order0 order1 wins h1 hws
  apply (win_complete st G order0 order1 wins hw).2 z hz hne
  have hc := hinv.count z hz
  have hc2 : (win_pass st order0 order1 wins).need z 1 = ((st.g_edge1 z).length : Int) -
      ((st.g_edge1 z).countP
        (fresh 1 0 st.g_states (win_pass st order0 order1 wins).g_states) : Int) +
      (([] : List Nat).count z : Int) := hc
  have hcp : (st.g_edge1 z).countP
      (fresh 1 0 st.g_states (win_pass st order0 order1 wins).g_states) =
      (st.g_edge1 z).length := by
    rw [List.countP_eq_length]
    intro t ht
    obtain ⟨ht1, ht2⟩ := hall t ht
    exact (fresh_iff _ _ _ _ _).mpr ⟨ht2, fun hh => ht1 ((G.dp_cases t 0).1.mp hh)⟩
  show (win_pass st order0 order1 wins).need z 1 ≤ 0
  rw [hc2, hcp]
  simp

/-- A label `+1` left by the win propagation is still there after `solve`,
with the same depth. -/
theorem solve_keeps_win (st : TrainState) (G : GraphInv st)
    (order0 order1 wins loses : List Nat) (h0 : order0.Nodup) (h1 : order1.Nodup)
    (hw : ∀ s ∈ wins, s ∈ st.g_wins) (hl : ∀ s ∈ loses, s ∈ st.g_loses) (s : Nat) :
    (((win_pass st order0 order1 wins).g_states s).dp 0 = 1 →
      ((solve st order0 order1 wins loses).g_states s).dp 0 = 1 ∧
      ((solve st order0 order1 wins loses).g_states s).depth 0 =
        ((win_pass st order0 order1 wins).g_states s).depth 0) ∧
    (((win_pass st order0 order1 wins).g_states s).dp 1 = 1 →
      ((solve st order0 order1 wins loses).g_states s).dp 1 = 1 ∧
      ((solve st order0 order1 wins loses).g_states s).depth 1 =
        ((win_pass st order0 order1 wins).g_states s).depth 1) := by
  have hlose := lose_inv st G order0 order1 wins loses h0 h1 hw hl
  constructor
  · intro hs
    have hsafe : ((solve st order0 order1 wins loses).g_states s).dp 0 ≠ -1 :=
      hlose.safe_j s hs
    have hk := hlose.keep_j s hsafe
    have hk1 : ((solve st order0 order1 wins loses).g_states s).dp 0 =
        ((win_pass st order0 order1 wins).g_states s).dp 0 := hk.1
    exact ⟨hk1.trans hs, hk.2⟩
  · intro hs
    have hsafe : ((solve st order0 order1 wins loses).g_states s).dp 1 ≠ -1 :=
      hlose.safe_i s hs
    have hk := hlose.keep_i s hsafe
    have hk1 : ((solve st order0 order1 wins loses).g_states s).dp 1 =
        ((win_pass st order0 order1 wins).g_states s).dp 1 := hk.1
    exact ⟨hk1.trans hs, hk.2⟩


/-! ## Strategy certificates -/

theorem stored_of_ok (b : Params) (c : Nat) (h : stored_ok b c = true) : Stored b c := by
  unfold stored_ok at h
  cases hdx : decode_list b (c / b.SEPARATOR) with
  | none => simp [hdx] at h
  | some x =>
    cases hdy : decode_list b (c % b.SEPARATOR) with
    | none => simp [hdx, hdy] at h
    | some y =>
      simp only [hdx, hdy, Bool.and_eq_true, decide_eq_true_eq, Bool.not_eq_true',
        List.all_eq_true] at h
      obtain ⟨⟨⟨⟨⟨⟨⟨⟨h1, h2⟩, h3⟩, h4⟩, h5⟩, h6⟩, h7⟩, h8⟩, h9⟩ := h
      exact ⟨x, y, hdx, hdy, ⟨h1, h2, (overlap_false_iff x y).mp h3, h4, h5, h6, h7⟩, h8, h9⟩

/-- Soundness of the certificate check: every state that an accepted
certificate lists with index 0 is a non-terminal state labelled `+1` at
index 0 by the win propagation of `solve`, and every state listed with
index 1 is labelled `+1` at index 1, whatever the traversal orders. -/
theorem cert_sound (b : Params) (hb : b = train_3x3 ∨ b = train_4x4_m4)
    (order0 order1 wins : List Nat) (h0 : order0.Perm (train_result b).keys)
    (h1 : order1.Perm (train_result b).keys) (hw : wins.Perm (train_result b).g_wins)
    (cert : List (Nat × Nat)) (w : List Nat × List Nat) (hc : cert_check b cert = some w) :
    (∀ s ∈ w.1, s ∉ (train_result b).g_wins ∧
      ((win_pass (train_result b) order0 order1 wins).g_states s).dp 0 = 1) ∧
    (∀ s ∈ w.2, ((win_pass (train_result b) order0 order1 wins).g_states s).dp 1 = 1) := by
  have hinv := inv_train_result b hb
  have G := graph_inv_of_train hinv
  have hn1 : order1.Nodup := h1.nodup_iff.mpr hinv.keys_nodup
  have hws : ∀ s ∈ wins, s ∈ (train_result b).g_wins := fun s hs => hw.subset hs
  have hwc : ∀ s, s ∈ (train_result b).g_wins → s ∈ wins := fun s hs => hw.symm.subset hs
  have key := foldl_invariant
    (fun (acc : Option (List Nat × List Nat)) => ∀ w, acc = some w →
      (∀ s ∈ w.1, s ∉ (train_result b).g_wins ∧
        ((win_pass (train_result b) order0 order1 wins).g_states s).dp 0 = 1) ∧
      (∀ s ∈ w.2, ((win_pass (train_result b) order0 order1 wins).g_states s).dp 1 = 1))
    (cert_step b) cert (some ([], []))
    (by
      intro w hw2
      have : w = ([], []) := (Option.some.inj hw2).symm
      rw [this]
      exact ⟨fun s hs => absurd hs (List.not_mem_nil s),
        fun s hs => absurd hs (List.not_mem_nil s)⟩)
    (by
      intro acc e _ hacc w2 hw2
      unfold cert_step at hw2
      cases hacc2 : acc with
      | none => rw [hacc2] at hw2; exact absurd hw2 (by simp)
      | some w1 =>
        rw [hacc2] at hw2
        simp only [] at hw2
        obtain ⟨ia, ib⟩ := hacc w1 hacc2
        by_cases he : e.1 = 0
        · rw [if_pos he] at hw2
          by_cases h3 : (stored_ok b e.2 && decide (verdict b e.2 = 0) &&
              (successors b 0 e.2).any (fun x => w1.2.contains x)) = true
          · rw [if_pos h3] at hw2
            have hw3 : w2 = (e.2 :: w1.1, w1.2) := (Option.some.inj hw2).symm
            rw [hw3]
            simp only [Bool.and_eq_true, decide_eq_true_eq, List.any_eq_true] at h3
            obtain ⟨⟨hs1, hv⟩, x, hx, hxw⟩ := h3
            have hst := stored_of_ok b e.2 hs1
            have hed := (edges_of_train b hb e.2 hst (by rw [hv]; decide)
              (by rw [hv]; decide)).1
            have hxe : x ∈ (train_result b).g_edge0 e.2 := by rw [hed]; exact hx
            have hkey : e.2 ∈ (train_result b).keys :=
              (hinv.edge_src0 e.2 (List.ne_nil_of_mem hxe)).1
            have hnw : e.2 ∉ (train_result b).g_wins :=
              (hinv.edge_src0 e.2 (List.ne_nil_of_mem hxe)).2.2.1
            have hxl := ib x (by simpa using hxw)
            refine ⟨?_, ib⟩
            intro s hs
            rcases List.mem_cons.mp hs with h4 | h4
            · rw [h4]
              exact ⟨hnw, win_rule_x _ G order0 order1 wins hwc e.2 x (h0.symm.subset hkey)
                hxe hxl⟩
            · exact ia s h4
          · rw [if_neg h3] at hw2
            exact absurd hw2 (by simp)
        · rw [if_neg he] at hw2
          by_cases h3 : (stored_ok b e.2 && decide (verdict b e.2 = 1)) = true
          · rw [if_pos h3] at hw2
            have hw3 : w2 = (w1.1, e.2 :: w1.2) := (Option.some.inj hw2).symm
            rw [hw3]
            simp only [Bool.and_eq_true, decide_eq_true_eq] at h3
            obtain ⟨hs1, hv⟩ := h3
            have hmem := terminal_win_mem b hb e.2 (stored_of_ok b e.2 hs1) hv
            refine ⟨ia, ?_⟩
            intro s hs
            rcases List.mem_cons.mp hs with h4 | h4
            · rw [h4]
              unfold win_pass
              apply pass_loop_mono
              exact (G.dp_cases e.2 1).1.mpr hmem
            · exact ib s h4
          · rw [if_neg h3] at hw2
            by_cases h5 : (stored_ok b e.2 && decide (verdict b e.2 = 0) &&
                !(successors b 1 e.2).isEmpty &&
                (successors b 1 e.2).all (fun t => w1.1.contains t)) = true
            · rw [if_pos h5] at hw2
              have hw3 : w2 = (w1.1, e.2 :: w1.2) := (Option.some.inj hw2).symm
              rw [hw3]
              simp only [Bool.and_eq_true, decide_eq_true_eq, List.all_eq_true,
                Bool.not_eq_true', List.isEmpty_eq_false] at h5
              obtain ⟨⟨⟨hs1, hv⟩, hne⟩, hall⟩ := h5
              have hst := stored_of_ok b e.2 hs1
              have hed := (edges_of_train b hb e.2 hst (by rw [hv]; decide)
                (by rw [hv]; decide)).2
              have hne2 : (train_result b).g_edge1 e.2 ≠ [] := by rw [hed]; exact hne
              have hkey : e.2 ∈ (train_result b).keys := (hinv.edge_src1 e.2 hne2).1
              refine ⟨ia, ?_⟩
              intro s hs
              rcases List.mem_cons.mp hs with h4 | h4
              · rw [h4]
                apply win_rule_y _ G order0 order1 wins hn1 hws hwc e.2
                  (h1.symm.subset hkey) hne2
                intro t ht
                rw [hed] at ht
                exact ia t (by simpa using hall t ht)
              · exact ib s h4
            · rw [if_neg h5] at hw2
              exact absurd hw2 (by simp))
  exact key w hc


/-! ## Soundness of the labels `+1` and the record of the empty board -/

/-- C20: win soundness of `solve` on the graph built by `train`, for every
order in which the unordered containers are traversed. A state `y` that is
not a terminal of `g_wins` and ends with `dp[0] = +1` has a player-0 edge to
a state `x` that ends with `dp[1] = +1`; the `depth[0]` of `y` is the
`depth[1]` of `x` incremented as a `uint16_t`, so `depth[1]` of `x` is
`depth[0] - 1` in `uint16_t` arithmetic, and as integers whenever
`depth[0]` is not `0`. -/
theorem win_soundness (b : Params) (hb : b = train_3x3 ∨ b = train_4x4_m4)
    (order0 order1 wins loses : List Nat) (h0 : order0.Perm (train_result b).keys)
    (h1 : order1.Perm (train_result b).keys) (hw : wins.Perm (train_result b).g_wins)
    (hl : loses.Perm (train_result b).g_loses) (y : Nat)
    (hy : y ∉ (train_result b).g_wins)
    (hdp : ((solve (train_result b) order0 order1 wins loses).g_states y).dp 0 = 1) :
    ∃ x ∈ (train_result b).g_edge0 y,
      ((solve (train_result b) order0 order1 wins loses).g_states x).dp 1 = 1 ∧
      ((solve (train_result b) order0 order1 wins loses).g_states y).depth 0 =
        (((solve (train_result b) order0 order1 wins loses).g_states x).depth 1 + 1) % 65536 ∧
      ((solve (train_result b) order0 order1 wins loses).g_states x).depth 1 =
        (((solve (train_result b) order0 order1 wins loses).g_states y).depth 0 + 65535) %
          65536 ∧
      (((solve (train_result b) order0 order1 wins loses).g_states y).depth 0 ≠ 0 →
        ((solve (train_result b) order0 order1 wins loses).g_states x).depth 1 =
          ((solve (train_result b) order0 order1 wins loses).g_states y).depth 0 - 1) := by
  have hinv := inv_train_result b hb
  have G := graph_inv_of_train hinv
  have hn0 : order0.Nodup := h0.nodup_iff.mpr hinv.keys_nodup
  have hn1 : order1.Nodup := h1.nodup_iff.mpr hinv.keys_nodup
  obtain ⟨x, hx, hx1, hx2, hx3⟩ := solve_win_sound _ G order0 order1 wins loses hn0 hn1
    (fun s hs => hw.subset hs) (fun s hs => hl.subset hs) y hy hdp
  refine ⟨x, hx, hx1, hx2, ?_, ?_⟩
  · rw [hx2]; omega
  · intro hne
    rw [hx2] at hne ⊢
    omega

/-- The function `solve` never writes index 1 of a state without player-1
edges. -/
theorem solve_frame_idx1 (st : TrainState) (G : GraphInv st)
    (order0 order1 wins loses : List Nat) (h0 : order0.Nodup) (h1 : order1.Nodup)
    (hw : ∀ s ∈ wins, s ∈ st.g_wins) (hl : ∀ s ∈ loses, s ∈ st.g_loses) (s : Nat)
    (he1 : st.g_edge1 s = []) :
    ((solve st order0 order1 wins loses).g_states s).dp 1 = (st.g_states s).dp 1 ∧
      ((solve st order0 order1 wins loses).g_states s).depth 1 = (st.g_states s).depth 1 := by
  have hwin := win_inv st G order0 order1 wins h1 hw
  have hlose := lose_inv st G order0 order1 wins loses h0 h1 hw hl
  have a := hwin.frame_j s he1
  have c := hlose.frame_i s he1
  exact ⟨c.1.trans a.1, c.2.trans a.2⟩

/-- The empty board of the 3x3 trainer is stored with code 0. -/
theorem stored_zero_3x3 : Stored train_3x3 0 :=
  stored_of_ok train_3x3 0 (by decide)

set_option maxRecDepth 1000000 in
/-- The strategy certificate of the 3x3 board is accepted and lists the
empty board with index 0. -/
theorem win_cert_3x3_ok : cert_wins train_3x3 win_cert_3x3 0 = true := by
  decide!

/-- On the 3x3 board, for every traversal order, `solve` ends with the
record of the empty board (code 0) at `dp[0] = +1`, `dp[1] = 0`,
`depth[1] = 0`, and code 0 is not a terminal. -/
theorem empty_board_win (order0 order1 wins loses : List Nat)
    (h0 : order0.Perm (train_result train_3x3).keys)
    (h1 : order1.Perm (train_result train_3x3).keys)
    (hw : wins.Perm (train_result train_3x3).g_wins)
    (hl : loses.Perm (train_result train_3x3).g_loses) :
    (0 : Nat) ∉ (train_result train_3x3).g_wins ∧
      ((solve (train_result train_3x3) order0 order1 wins loses).g_states 0).dp 0 = 1 ∧
      ((solve (train_result train_3x3) order0 order1 wins loses).g_states 0).dp 1 = 0 ∧
      ((solve (train_result train_3x3) order0 order1 wins loses).g_states 0).depth 1 = 0 := by
  have hb : train_3x3 = train_3x3 ∨ train_3x3 = train_4x4_m4 := Or.inl rfl
  have hinv := inv_train_result train_3x3 hb
  have G := graph_inv_of_train hinv
  have hn0 : order0.Nodup := h0.nodup_iff.mpr hinv.keys_nodup
  have hn1 : order1.Nodup := h1.nodup_iff.mpr hinv.keys_nodup
  have hws : ∀ s ∈ wins, s ∈ (train_result train_3x3).g_wins := fun s hs => hw.subset hs
  have hls : ∀ s ∈ loses, s ∈ (train_result train_3x3).g_loses := fun s hs => hl.subset hs
  have hcert := win_cert_3x3_ok
  unfold cert_wins at hcert
  cases hcc : cert_check train_3x3 win_cert_3x3 with
  | none => rw [hcc] at hcert; exact absurd hcert (by simp)
  | some w =>
    rw [hcc] at hcert
    have hmem : (0 : Nat) ∈ w.1 := by simpa using hcert
    obtain ⟨hnw, hlab⟩ := (cert_sound train_3x3 hb order0 order1 wins h0 h1 hw win_cert_3x3 w
      hcc).1 0 hmem
    have hfin := (solve_keeps_win _ G order0 order1 wins loses hn0 hn1 hws hls 0).1 hlab
    have hv : verdict train_3x3 0 = 0 := by decide
    have hc := (canons_iff train_3x3 hb 0).mpr stored_zero_3x3
    have hnl : (0 : Nat) ∉ (train_result train_3x3).g_loses := by
      intro hh
      have := (hinv.loses_verdict 0 hc).mp hh
      rw [hv] at this
      exact absurd this (by decide)
    have he1 : (train_result train_3x3).g_edge1 0 = [] := by
      rw [(edges_of_train train_3x3 hb 0 stored_zero_3x3 (by rw [hv]; decide)
        (by rw [hv]; decide)).2]
      decide
    obtain ⟨c1, c2⟩ := solve_frame_idx1 _ G order0 order1 wins loses hn0 hn1 hws hls 0 he1
    have hz := hinv.other_label 0 hnw hnl
    refine ⟨hnw, hfin.1, ?_, ?_⟩
    · rw [c1, hz]; rfl
    · rw [c2, hz]; rfl

theorem win_soundness_witness :
    ∃ x ∈ (train_result train_3x3).g_edge0 0,
      ((solve (train_result train_3x3) (train_result train_3x3).keys
        (train_result train_3x3).keys (train_result train_3x3).g_wins
        (train_result train_3x3).g_loses).g_states x).dp 1 = 1 :=
  let ⟨x, hx, h1, _⟩ := win_soundness train_3x3 (Or.inl rfl) _ _ _ _ (List.Perm.refl _)
    (List.Perm.refl _) (List.Perm.refl _) (List.Perm.refl _) 0
    (empty_board_win _ _ _ _ (List.Perm.refl _) (List.Perm.refl _) (List.Perm.refl _)
      (List.Perm.refl _)).1
    (empty_board_win _ _ _ _ (List.Perm.refl _) (List.Perm.refl _) (List.Perm.refl _)
      (List.Perm.refl _)).2.1
  ⟨x, hx, h1⟩


/-- C19 (amended): on the 3x3 board the canonical code of the empty board is
0, and after `train` followed by `solve`, for every order in which the
unordered containers are traversed, the record of code 0 has `dp0 = +1`
(X forces a win from the empty board, so the record is not all zero),
`dp1 = 0` and `depth1 = 0`; its `depth0` is the `depth1`, incremented as a
`uint16_t`, of a successor labelled `+1`. -/
theorem empty_board_record (order0 order1 wins loses : List Nat)
    (h0 : order0.Perm (train_result train_3x3).keys)
    (h1 : order1.Perm (train_result train_3x3).keys)
    (hw : wins.Perm (train_result train_3x3).g_wins)
    (hl : loses.Perm (train_result train_3x3).g_loses) :
    (canonicalize train_3x3 [] []).code = 0 ∧
      ((solve (train_result train_3x3) order0 order1 wins loses).g_states 0).dp 0 = 1 ∧
      ((solve (train_result train_3x3) order0 order1 wins loses).g_states 0).dp 1 = 0 ∧
      ((solve (train_result train_3x3) order0 order1 wins loses).g_states 0).depth 1 = 0 ∧
      (solve (train_result train_3x3) order0 order1 wins loses).g_states 0 ≠
        StateInfo.mk 0 0 0 0 ∧
      ∃ x ∈ (train_result train_3x3).g_edge0 0,
        ((solve (train_result train_3x3) order0 order1 wins loses).g_states x).dp 1 = 1 ∧
        ((solve (train_result train_3x3) order0 order1 wins loses).g_states 0).depth 0 =
          (((solve (train_result train_3x3) order0 order1 wins loses).g_states x).depth 1 + 1) %
            65536 := by
  have hb : train_3x3 = train_3x3 ∨ train_3x3 = train_4x4_m4 := Or.inl rfl
  have hinv := inv_train_result train_3x3 hb
  have G := graph_inv_of_train hinv
  have hn0 : order0.Nodup := h0.nodup_iff.mpr hinv.keys_nodup
  have hn1 : order1.Nodup := h1.nodup_iff.mpr hinv.keys_nodup
  obtain ⟨hnw, hd0, hd1, hp1⟩ := empty_board_win order0 order1 wins loses h0 h1 hw hl
  obtain ⟨x, hx, hx1, hx2, _⟩ := solve_win_sound _ G order0 order1 wins loses hn0 hn1
    (fun s hs => hw.subset hs) (fun s hs => hl.subset hs) 0 hnw hd0
  refine ⟨by decide, hd0, hd1, hp1, ?_, x, hx, hx1, hx2⟩
  intro heq
  rw [heq] at hd0
  exact absurd hd0 (by decide)

theorem empty_board_record_witness :
    ((solve (train_result train_3x3) (train_result train_3x3).keys
      (train_result train_3x3).keys (train_result train_3x3).g_wins
      (train_result train_3x3).g_loses).g_states 0).dp 1 = 0 :=
  (empty_board_record _ _ _ _ (List.Perm.refl _) (List.Perm.refl _) (List.Perm.refl _)
    (List.Perm.refl _)).2.2.1

/-- C19, counterexample: with the containers traversed in insertion order,
the record of the empty board after `train` and `solve` on the 3x3 board has
`dp0 = +1`; it is not the all-zero record of the claim. -/
theorem empty_board_record_counterexample :
    ¬ (((solve (train_result train_3x3) (train_result train_3x3).keys
        (train_result train_3x3).keys (train_result train_3x3).g_wins
        (train_result train_3x3).g_loses).g_states 0).dp 0 = 0 ∧
      ((solve (train_result train_3x3) (train_result train_3x3).keys
        (train_result train_3x3).keys (train_result train_3x3).g_wins
        (train_result train_3x3).g_loses).g_states 0).dp 1 = 0 ∧
      ((solve (train_result train_3x3) (train_result train_3x3).keys
        (train_result train_3x3).keys (train_result train_3x3).g_wins
        (train_result train_3x3).g_loses).g_states 0).depth 0 = 0 ∧
      ((solve (train_result train_3x3) (train_result train_3x3).keys
        (train_result train_3x3).keys (train_result train_3x3).g_wins
        (train_result train_3x3).g_loses).g_states 0).depth 1 = 0) := by
  intro h
  have := (empty_board_win _ _ _ _ (List.Perm.refl (train_result train_3x3).keys)
    (List.Perm.refl (train_result train_3x3).keys)
    (List.Perm.refl (train_result train_3x3).g_wins)
    (List.Perm.refl (train_result train_3x3).g_loses)).2.1
  rw [h.1] at this
  exact absurd this (by decide)


/-! ## Counting the orbits of the placements -/

theorem smul_placement (g : Sym8) (k : Fin 9) (f : Fin k ↪ Fin 16) :
    g • Placement.mk k f = Placement.mk k (f.trans (cell_emb g)) := rfl

theorem placement_fixed_iff (g : Sym8) (k : Fin 9) (f : Fin k ↪ Fin 16) :
    g • Placement.mk k f = Placement.mk k f ↔ ∀ i, cell_map g.idx (f i) = f i := by
  rw [smul_placement]
  constructor
  · intro h i
    have h2 : f.trans (cell_emb g) = f := eq_of_heq (Placement.mk.inj h).2
    exact congrArg (fun (e : Fin k ↪ Fin 16) => e i) h2
  · intro h
    have h2 : f.trans (cell_emb g) = f := by
      ext i
      exact congrArg Fin.val (h i)
    rw [h2]

/-- The placements correspond to the pairs of a length and an injective
sequence of that length. -/
theorem placement_equiv : Nonempty (Placement ≃ Σ k : Fin 9, (Fin k ↪ Fin 16)) :=
  ⟨{ toFun := fun z => ⟨z.k, z.cells⟩
     invFun := fun w => ⟨w.1, w.2⟩
     left_inv := fun _ => rfl
     right_inv := fun _ => rfl }⟩

theorem placement_finite : Finite Placement := by
  obtain ⟨e⟩ := placement_equiv
  exact Finite.of_equiv _ e.symm

/-- The placements fixed by a symmetry are the placements on its fixed
cells. -/
theorem fixed_equiv (g : Sym8) :
    Nonempty (MulAction.fixedBy Placement g ≃
      Σ k : Fin 9, (Fin k ↪ {p : Fin 16 // cell_map g.idx p = p})) :=
  ⟨{ toFun := fun z => ⟨z.1.k,
       ⟨fun i => ⟨z.1.cells i, (placement_fixed_iff g z.1.k z.1.cells).mp z.2 i⟩,
        fun i j h => z.1.cells.injective (congrArg Subtype.val h)⟩⟩
     invFun := fun w => ⟨⟨w.1, w.2.trans (Function.Embedding.subtype _)⟩,
       (placement_fixed_iff g w.1 _).mpr (fun i => (w.2 i).2)⟩
     left_inv := fun z => by
       apply Subtype.ext
       rfl
     right_inv := fun w => by
       rfl }⟩

/-- The number of placements fixed by a symmetry with `m` fixed cells: the
injective sequences of length at most 8 in `m` cells. -/
theorem card_fixed (g : Sym8) :
    Nat.card (MulAction.fixedBy Placement g) =
      ∑ k : Fin 9, (Fintype.card {p : Fin 16 // cell_map g.idx p = p}).descFactorial k := by
  obtain ⟨e⟩ := fixed_equiv g
  rw [Nat.card_congr e, Nat.card_eq_fintype_card, Fintype.card_sigma]
  apply Finset.sum_congr rfl
  intro k _
  rw [Fintype.card_embedding_eq, Fintype.card_fin]

/-- The numbers of fixed cells of the eight transforms: all 16 for the
identity, the 4 cells of a diagonal for the two diagonal flips, none for the
rotations and the axis flips. -/
theorem fixed_cells (t : Fin 8) :
    Fintype.card {p : Fin 16 // cell_map t p = p} =
      ([16, 0, 0, 0, 0, 0, 4, 4] : List Nat).getD t 0 := by
  rw [Fintype.card_subtype]
  revert t
  decide!

/-- Burnside count: the placements have 72864169 orbits under the eight
symmetries. -/
theorem card_orbits :
    Nat.card (Quotient (MulAction.orbitRel Sym8 Placement)) = 72864169 := by
  classical
  haveI := placement_finite
  haveI : Fintype Placement := Fintype.ofFinite _
  haveI : Fintype (Quotient (MulAction.orbitRel Sym8 Placement)) := Fintype.ofFinite _
  haveI : ∀ a : Sym8, Fintype (MulAction.fixedBy Placement a) := fun a => Fintype.ofFinite _
  have hb := MulAction.sum_card_fixedBy_eq_card_orbits_mul_card_group Sym8 Placement
  have hcard : Fintype.card Sym8 = 8 := by
    rw [Fintype.card_congr (⟨Sym8.idx, Sym8.mk, fun _ => rfl, fun _ => rfl⟩ : Sym8 ≃ Fin 8),
      Fintype.card_fin]
  have hsum : (∑ a : Sym8, Fintype.card (MulAction.fixedBy Placement a)) = 582913352 := by
    have h1 : ∀ a : Sym8, Fintype.card (MulAction.fixedBy Placement a) =
        ∑ k : Fin 9, (([16, 0, 0, 0, 0, 0, 4, 4] : List Nat).getD a.idx 0).descFactorial k := by
      intro a
      rw [← Nat.card_eq_fintype_card, card_fixed a, fixed_cells]
    rw [Finset.sum_congr rfl (fun a _ => h1 a)]
    rw [← Equiv.sum_comp (⟨Sym8.mk, Sym8.idx, fun _ => rfl, fun _ => rfl⟩ : Fin 8 ≃ Sym8)]
    show (∑ t : Fin 8, ∑ k : Fin 9,
      (([16, 0, 0, 0, 0, 0, 4, 4] : List Nat).getD t 0).descFactorial k) = 582913352
    decide!
  rw [hsum, hcard] at hb
  rw [Nat.card_eq_fintype_card]
  omega

/-! ## Placements and legal states -/

theorem placement_toList_length (z : Placement) : z.toList.length = z.k.val := by
  unfold Placement.toList
  rw [List.length_ofFn]

theorem placement_toList_nodup (z : Placement) : z.toList.Nodup := by
  unfold Placement.toList
  rw [List.nodup_ofFn]
  intro i j h
  exact z.cells.injective (Fin.val_injective h)

theorem placement_toList_range (z : Placement) : ∀ p ∈ z.toList, p < 16 := by
  intro p hp
  unfold Placement.toList at hp
  obtain ⟨i, hi⟩ := (List.mem_ofFn _ _).mp hp
  rw [← hi]
  exact (z.cells i).isLt

theorem placement_split (z : Placement) : z.xs ++ z.ys = z.toList :=
  List.take_append_drop _ _

/-- The state of a placement is legal with `lx = ly` or `lx = ly + 1`. -/
theorem placement_legal (z : Placement) :
    LegalPair train_4x4_m4 z.xs z.ys ∧
      (z.xs.length = z.ys.length ∨ z.xs.length = z.ys.length + 1) := by
  have hk : z.k.val < 9 := z.k.isLt
  have hlen := placement_toList_length z
  have hnd := placement_toList_nodup z
  rw [← placement_split z] at hnd
  have hx : z.xs.length = (z.k.val + 1) / 2 := by
    unfold Placement.xs
    rw [List.length_take, hlen]
    omega
  have hy : z.ys.length = z.k.val - (z.k.val + 1) / 2 := by
    unfold Placement.ys
    rw [List.length_drop, hlen]
  have hr : ∀ p ∈ z.xs ++ z.ys, p < 16 := by
    rw [placement_split]; exact placement_toList_range z
  obtain ⟨h1, h2, h3⟩ := List.nodup_append.mp hnd
  refine ⟨⟨h1, h2, fun p hp hq => h3 hp hq, ?_, ?_, ?_, ?_⟩, ?_⟩
  · show z.xs.length ≤ 4
    omega
  · show z.ys.length ≤ 4
    omega
  · intro p hp
    exact hr p (List.mem_append_left _ hp)
  · intro p hp
    exact hr p (List.mem_append_right _ hp)
  · omega

/-- A placement is determined by its list of cells. -/
theorem placement_ext (z1 z2 : Placement) (h : z1.toList = z2.toList) : z1 = z2 := by
  obtain ⟨k1, f1⟩ := z1
  obtain ⟨k2, f2⟩ := z2
  have hk : k1 = k2 := by
    apply Fin.ext
    have := congrArg List.length h
    rw [placement_toList_length, placement_toList_length] at this
    exact this
  subst hk
  congr 1
  unfold Placement.toList at h
  have h2 := List.ofFn_injective h
  ext i
  exact congrFun h2 i

/-- Every legal state with `lx = ly` or `lx = ly + 1` is the state of a
placement. -/
theorem placement_of_legal (x y : List Nat) (hl : LegalPair train_4x4_m4 x y)
    (hlen : x.length = y.length ∨ x.length = y.length + 1) :
    ∃ z : Placement, z.xs = x ∧ z.ys = y := by
  obtain ⟨hxn, hyn, hdis, hxl, hyl, hxr, hyr⟩ := hl
  have hxl4 : x.length ≤ 4 := hxl
  have hyl4 : y.length ≤ 4 := hyl
  have hnd : (x ++ y).Nodup := List.nodup_append.mpr ⟨hxn, hyn, fun p hp hq => hdis p hp hq⟩
  have hr : ∀ p ∈ x ++ y, p < 16 := by
    intro p hp
    rcases List.mem_append.mp hp with h | h
    · exact hxr p h
    · exact hyr p h
  have hk : (x ++ y).length < 9 := by
    rw [List.length_append]; omega
  refine ⟨Placement.mk ⟨(x ++ y).length, hk⟩
    ⟨fun i => ⟨(x ++ y).get i, hr _ (List.get_mem _ _ _)⟩, ?_⟩, ?_⟩
  · intro i j h
    have h2 : (x ++ y).get i = (x ++ y).get j := congrArg Fin.val h
    exact (List.nodup_iff_injective_get.mp hnd) h2
  · have htl : (Placement.mk ⟨(x ++ y).length, hk⟩
        ⟨fun i => ⟨(x ++ y).get i, hr _ (List.get_mem _ _ _)⟩,
          fun i j h => (List.nodup_iff_injective_get.mp hnd)
            (congrArg Fin.val h : (x ++ y).get i = (x ++ y).get j)⟩).toList = x ++ y := by
      unfold Placement.toList
      exact List.ofFn_get (x ++ y)
    have hm : ((x ++ y).length + 1) / 2 = x.length := by
      rw [List.length_append]; omega
    constructor
    · unfold Placement.xs
      rw [htl]
      show List.take (((x ++ y).length + 1) / 2) (x ++ y) = x
      rw [hm, List.take_left']
      rfl
    · unfold Placement.ys
      rw [htl]
      show List.drop (((x ++ y).length + 1) / 2) (x ++ y) = y
      rw [hm, List.drop_left']
      rfl

theorem cell_map_val (t : Fin 8) (p : Fin 16) :
    (cell_map t p).val = transform train_4x4_m4 t.val p.val := by
  have h := transform_range train_4x4_m4 (Or.inr rfl) t.val t.isLt p.val p.isLt
  have h16 : train_4x4_m4.CELLS = 16 := rfl
  rw [h16] at h
  show transform train_4x4_m4 t.val p.val % 16 = _
  exact Nat.mod_eq_of_lt h

/-- A symmetry acts on the cell list of a placement by the table row. -/
theorem smul_toList (g : Sym8) (z : Placement) :
    (g • z).toList = apply_transform train_4x4_m4 z.toList g.idx.val := by
  obtain ⟨k, f⟩ := z
  rw [smul_placement]
  unfold Placement.toList apply_transform
  rw [List.map_ofFn]
  congr 1
  funext i
  exact cell_map_val g.idx (f i)

theorem smul_k (g : Sym8) (z : Placement) : (g • z).k = z.k := rfl

theorem smul_xs (g : Sym8) (z : Placement) :
    (g • z).xs = apply_transform train_4x4_m4 z.xs g.idx.val := by
  unfold Placement.xs
  rw [smul_toList, smul_k]
  unfold apply_transform
  rw [List.map_take]

theorem smul_ys (g : Sym8) (z : Placement) :
    (g • z).ys = apply_transform train_4x4_m4 z.ys g.idx.val := by
  unfold Placement.ys
  rw [smul_toList, smul_k]
  unfold apply_transform
  rw [List.map_drop]

/-- The canonical code is constant on the orbits. -/
theorem code_smul (g : Sym8) (z : Placement) : (g • z).code = z.code := by
  unfold Placement.code
  rw [smul_xs, smul_ys]
  obtain ⟨hl, _⟩ := placement_legal z
  exact canonicalize_code_transform train_4x4_m4 (Or.inr rfl) z.xs z.ys hl.2.2.2.2.2.1
    hl.2.2.2.2.2.2 g.idx.val g.idx.isLt

/-- The state code determines a legal state. -/
theorem encode_state_injective (b : Params) (hb : b = train_3x3 ∨ b = train_4x4_m4)
    (x1 y1 x2 y2 : List Nat) (h1 : LegalPair b x1 y1) (h2 : LegalPair b x2 y2)
    (h : encode_state b x1 y1 = encode_state b x2 y2) : x1 = x2 ∧ y1 = y2 := by
  have hc := consistent_of_mem b hb
  obtain ⟨a1, a2, _, a4, a5, a6, a7⟩ := h1
  obtain ⟨b1, b2, _, b4, b5, b6, b7⟩ := h2
  have hd := congrArg (fun c => c / b.SEPARATOR) h
  have hm := congrArg (fun c => c % b.SEPARATOR) h
  simp only [] at hd hm
  rw [encode_state_div b hc x1 y1 a4 a6 a5 a7, encode_state_div b hc x2 y2 b4 b6 b5 b7] at hd
  rw [encode_state_mod b hc x1 y1 a4 a6 a5 a7, encode_state_mod b hc x2 y2 b4 b6 b5 b7] at hm
  have e1 := decode_list_of_encode_list b hc x1 a4 a6
  have e2 := decode_list_of_encode_list b hc x2 b4 b6
  have e3 := decode_list_of_encode_list b hc y1 a5 a7
  have e4 := decode_list_of_encode_list b hc y2 b5 b7
  rw [if_pos a1] at e1
  rw [if_pos b1] at e2
  rw [if_pos a2] at e3
  rw [if_pos b2] at e4
  rw [hd, e2] at e1
  rw [hm, e4] at e3
  exact ⟨(Option.some.inj e1).symm, (Option.some.inj e3).symm⟩

/-- Two placements with the same canonical code are in the same orbit. -/
theorem orbit_of_code_eq (z1 z2 : Placement) (h : z1.code = z2.code) :
    ∃ g : Sym8, g • z1 = z2 := by
  have hb : train_4x4_m4 = train_3x3 ∨ train_4x4_m4 = train_4x4_m4 := Or.inr rfl
  obtain ⟨hl1, _⟩ := placement_legal z1
  obtain ⟨hl2, _⟩ := placement_legal z2
  obtain ⟨t1, r1x, r1y, c1⟩ := canonicalize_fields train_4x4_m4 hb z1.xs z1.ys hl1.2.2.2.1
    hl1.2.2.2.2.2.1 hl1.2.2.2.2.1 hl1.2.2.2.2.2.2
  obtain ⟨t2, r2x, r2y, c2⟩ := canonicalize_fields train_4x4_m4 hb z2.xs z2.ys hl2.2.2.2.1
    hl2.2.2.2.2.2.1 hl2.2.2.2.2.1 hl2.2.2.2.2.2.2
  have hcode : encode_state train_4x4_m4 (canonicalize train_4x4_m4 z1.xs z1.ys).x
      (canonicalize train_4x4_m4 z1.xs z1.ys).y =
      encode_state train_4x4_m4 (canonicalize train_4x4_m4 z2.xs z2.ys).x
        (canonicalize train_4x4_m4 z2.xs z2.ys).y := by
    rw [c1, c2]; exact h
  rw [r1x, r1y, r2x, r2y] at hcode
  obtain ⟨ex, ey⟩ := encode_state_injective train_4x4_m4 hb _ _ _ _
    (legal_transform train_4x4_m4 hb z1.xs z1.ys hl1 _ t1)
    (legal_transform train_4x4_m4 hb z2.xs z2.ys hl2 _ t2) hcode
  have hsm : (Sym8.mk ⟨_, t1⟩) • z1 = (Sym8.mk ⟨_, t2⟩) • z2 := by
    apply placement_ext
    rw [← placement_split, ← placement_split, smul_xs, smul_ys, smul_xs, smul_ys]
    show apply_transform train_4x4_m4 z1.xs _ ++ apply_transform train_4x4_m4 z1.ys _ =
      apply_transform train_4x4_m4 z2.xs _ ++ apply_transform train_4x4_m4 z2.ys _
    rw [ex, ey]
  refine ⟨(Sym8.mk ⟨_, t2⟩)⁻¹ * (Sym8.mk ⟨_, t1⟩), ?_⟩
  rw [mul_smul, hsm, inv_smul_smul]

/-- The canonical codes of the placements are the stored codes. -/
theorem stored_iff_code (c : Nat) : Stored train_4x4_m4 c ↔ ∃ z : Placement, z.code = c := by
  constructor
  · rintro ⟨x, y, _, _, hl, hlen, hc⟩
    obtain ⟨z, hzx, hzy⟩ := placement_of_legal x y hl hlen
    refine ⟨z, ?_⟩
    unfold Placement.code
    rw [hzx, hzy]; exact hc
  · rintro ⟨z, hz⟩
    obtain ⟨hl, hlen⟩ := placement_legal z
    rw [← hz]
    exact (stored_of_legal train_4x4_m4 (Or.inr rfl) z.xs z.ys hl hlen).1

/-- The stored codes of the 4x4 board are in bijection with the orbits of
the placements: there are 72864169 of them. -/
theorem card_stored : Set.ncard {c | Stored train_4x4_m4 c} = 72864169 := by
  have hwd : ∀ a b : Placement, (MulAction.orbitRel Sym8 Placement).r a b →
      a.code = b.code := by
    intro a b hab
    obtain ⟨g, hg⟩ := (MulAction.orbitRel_apply.mp hab)
    rw [← hg]
    exact code_smul g b
  have hinj : Function.Injective
      (Quotient.lift Placement.code hwd :
        Quotient (MulAction.orbitRel Sym8 Placement) → Nat) := by
    intro q1 q2
    refine Quotient.inductionOn₂ q1 q2 ?_
    intro a b hab
    have hab2 : a.code = b.code := hab
    obtain ⟨g, hg⟩ := orbit_of_code_eq b a hab2.symm
    apply Quotient.sound
    exact MulAction.orbitRel_apply.mpr ⟨g, hg⟩
  have hrange : {c | Stored train_4x4_m4 c} =
      Set.range (Quotient.lift Placement.code hwd :
        Quotient (MulAction.orbitRel Sym8 Placement) → Nat) := by
    ext c
    rw [Set.mem_setOf_eq, stored_iff_code, Set.mem_range]
    constructor
    · rintro ⟨z, hz⟩
      exact ⟨Quotient.mk _ z, hz⟩
    · rintro ⟨q, hq⟩
      revert hq
      refine Quotient.inductionOn q ?_
      intro z hz
      exact ⟨z, hz⟩
  rw [hrange, ← Set.Nat.card_coe_set_eq, Nat.card_range_of_injective hinj, card_orbits]

/-! ## The set `canons` has no repetition -/

theorem nodup_set_insert (l : List Nat) (a : Nat) (h : l.Nodup) : (set_insert l a).Nodup := by
  unfold set_insert
  exact nodup_keys_add l a h

/-- The body of the enumeration loop keeps `canons` free of repetitions. -/
theorem canons_nodup_visit {b : Params} (hb : b = train_3x3 ∨ b = train_4x4_m4)
    {st : TrainState} (h : TrainInv b st) (hn : st.canons.Nodup) (x y : List Nat)
    (hxn : x.Nodup) (hyn : y.Nodup) (hxl : x.length ≤ b.MAX_MOVE) (hyl : y.length ≤ b.MAX_MOVE)
    (hxr : ∀ p ∈ x, p < b.CELLS) (hyr : ∀ p ∈ y, p < b.CELLS) :
    (train_visit b st x y).canons.Nodup := by
  unfold train_visit
  by_cases hlen : x.length ≠ y.length ∧ x.length ≠ y.length + 1
  · rw [if_pos hlen]; exact hn
  · rw [if_neg hlen]
    have hlen2 : x.length = y.length ∨ x.length = y.length + 1 := by
      by_contra hc
      push_neg at hc
      exact hlen hc
    by_cases hov : overlap x y = true
    · rw [if_pos hov]; exact hn
    · rw [if_neg hov]
      have hdis : ∀ p ∈ x, p ∉ y := (overlap_false_iff x y).mp (by simpa using hov)
      have hlegal : LegalPair b x y := ⟨hxn, hyn, hdis, hxl, hyl, hxr, hyr⟩
      obtain ⟨hst, hdx, hdy, hlc⟩ := stored_of_legal b hb x y hlegal hlen2
      have hverd := verdict_of_decode b _ _ _ hdx hdy
      simp only []
      by_cases hin : (canonicalize b x y).code ∈ st.canons
      · rw [if_pos hin]; exact hn
      · rw [if_neg hin]
        by_cases hr1 : check_result b (canonicalize b x y).x (canonicalize b x y).y = 1
        · rw [if_pos hr1]
          show (add_state _ _).canons.Nodup
          rw [(add_state_fields _ _).1]
          exact nodup_set_insert _ _ hn
        · rw [if_neg hr1]
          by_cases hr2 : check_result b (canonicalize b x y).x (canonicalize b x y).y = -1
          · rw [if_pos hr2]
            show (add_state _ _).canons.Nodup
            rw [(add_state_fields _ _).1]
            exact nodup_set_insert _ _ hn
          · rw [if_neg hr2]
            have h1 := inv_visit_nonterminal h _ hin hst (by rw [hverd]; exact hr1)
              (by rw [hverd]; exact hr2)
            have hsrc : EdgeSource b
                (TrainState.mk (set_insert st.canons (canonicalize b x y).code) st.keys
                  st.g_states st.g_edge0 st.g_edge1 st.g_wins st.g_loses)
                (canonicalize b x y).code :=
              ⟨hst, (mem_set_insert _ _ _).mpr (Or.inr rfl),
                fun hc => hin (h.wins_sub _ hc).2, fun hc => hin (h.loses_sub _ hc).2⟩
            obtain ⟨_, c2, _, _⟩ := inv_train_cells hb h1 _ _ _
              (board_of b (canonicalize b x y).x (canonicalize b x y).y) hsrc
              hlc.2.2.2.1 hlc.2.2.2.2.2.1 hlc.2.2.2.2.1 hlc.2.2.2.2.2.2
            rw [c2]
            exact nodup_set_insert _ _ hn

/-- After `train` the set `canons` is free of repetitions. -/
theorem canons_nodup (b : Params) (hb : b = train_3x3 ∨ b = train_4x4_m4) :
    (train_result b).canons.Nodup := by
  rcases hb with rfl | rfl
  · have hb : train_3x3 = train_3x3 ∨ train_3x3 = train_4x4_m4 := Or.inl rfl
    have := foldl_invariant (fun s => TrainInv train_3x3 s ∧ s.canons.Nodup)
      Train3x3.train_step (List.range (train_3x3.SEPARATOR * train_3x3.SEPARATOR))
      TrainState.init ⟨inv_init _, List.nodup_nil⟩ (by
        rintro acc code hcode ⟨h1, h2⟩
        refine ⟨(Train3x3.inv_train_step h1 code (List.mem_range.mp hcode)).1, ?_⟩
        unfold Train3x3.train_step
        cases hdx : decode_list train_3x3 (code / train_3x3.SEPARATOR) with
        | none => exact h2
        | some x =>
          cases hdy : decode_list train_3x3 (code % train_3x3.SEPARATOR) with
          | none => exact h2
          | some y =>
            have hx := decode_valid train_3x3 hb _
              (Nat.div_lt_of_lt_mul (List.mem_range.mp hcode)) x hdx
            have hy := decode_valid train_3x3 hb _ (Nat.mod_lt _ (by decide)) y hdy
            exact canons_nodup_visit hb h1 h2 x y hx.1 hy.1 hx.2.2.1 hy.2.2.1 hx.2.1 hy.2.1)
    exact this.2
  · have hb : train_4x4_m4 = train_3x3 ∨ train_4x4_m4 = train_4x4_m4 := Or.inr rfl
    have := foldl_invariant (fun s => TrainInv train_4x4_m4 s ∧ s.canons.Nodup)
      (fun st x_code => Train4x4.precompute_valid.2.foldl
        (fun st2 y_code => train_visit train_4x4_m4 st2
          (Train4x4.raw_decode x_code) (Train4x4.raw_decode y_code)) st)
      Train4x4.precompute_valid.1
      TrainState.init ⟨inv_init _, List.nodup_nil⟩ (by
        rintro acc xc hxc hacc
        apply foldl_invariant (fun s => TrainInv train_4x4_m4 s ∧ s.canons.Nodup)
        · exact hacc
        · rintro acc2 yc hyc ⟨h1, h2⟩
          refine ⟨(Train4x4.inv_visit h1 xc yc (Train4x4.x_valid_valid xc hxc)
            (Train4x4.y_valid_valid yc hyc)).1, ?_⟩
          obtain ⟨hxlt, x, hdx⟩ := Train4x4.x_valid_valid xc hxc
          obtain ⟨hylt, y, hdy⟩ := Train4x4.y_valid_valid yc hyc
          rw [Train4x4.raw_decode_of_decode xc x hdx, Train4x4.raw_decode_of_decode yc y hdy]
          have hxv := decode_valid train_4x4_m4 hb xc hxlt x hdx
          have hyv := decode_valid train_4x4_m4 hb yc hylt y hdy
          exact canons_nodup_visit hb h1 h2 x y hxv.1 hyv.1 hxv.2.2.1 hyv.2.2.1 hxv.2.1
            hyv.2.1)
    exact this.2

/-- C18: on the 4x4 board with at most 4 pieces a side, the number of
distinct canonical codes over all legal states (duplicate-free disjoint
sequences on the board with `|X|, |Y| <= 4` and `|X| - |Y|` in `{0, 1}`) is
exactly 72864169, the constant `EXPECTED_COUNT` of the merger; these codes
are the members of the set `canons` that `train` collects, which has no
repetition and therefore has 72864169 members. -/
theorem canonical_count :
    Set.ncard {c | ∃ x y, LegalPair train_4x4_m4 x y ∧
        (x.length = y.length ∨ x.length = y.length + 1) ∧
        c = (canonicalize train_4x4_m4 x y).code} = EXPECTED_COUNT ∧
      EXPECTED_COUNT = 72864169 ∧
      (∀ c, c ∈ (train_result train_4x4_m4).canons ↔
        ∃ x y, LegalPair train_4x4_m4 x y ∧
          (x.length = y.length ∨ x.length = y.length + 1) ∧
          c = (canonicalize train_4x4_m4 x y).code) ∧
      (train_result train_4x4_m4).canons.Nodup ∧
      (train_result train_4x4_m4).canons.length = EXPECTED_COUNT := by
  have hb : train_4x4_m4 = train_3x3 ∨ train_4x4_m4 = train_4x4_m4 := Or.inr rfl
  have hset : ∀ c, (∃ x y, LegalPair train_4x4_m4 x y ∧
        (x.length = y.length ∨ x.length = y.length + 1) ∧
        c = (canonicalize train_4x4_m4 x y).code) ↔ Stored train_4x4_m4 c := by
    intro c
    constructor
    · rintro ⟨x, y, hl, hlen, hc⟩
      rw [hc]
      exact (stored_of_legal train_4x4_m4 hb x y hl hlen).1
    · rintro ⟨x, y, _, _, hl, hlen, hc⟩
      exact ⟨x, y, hl, hlen, hc.symm⟩
  have hs1 : {c | ∃ x y, LegalPair train_4x4_m4 x y ∧
        (x.length = y.length ∨ x.length = y.length + 1) ∧
        c = (canonicalize train_4x4_m4 x y).code} = {c | Stored train_4x4_m4 c} := by
    ext c
    exact hset c
  have hs2 : ((train_result train_4x4_m4).canons.toFinset : Set Nat) =
      {c | Stored train_4x4_m4 c} := by
    ext c
    rw [Finset.mem_coe, List.mem_toFinset, Set.mem_setOf_eq]
    exact canons_iff train_4x4_m4 hb c
  have hnd := canons_nodup train_4x4_m4 hb
  refine ⟨?_, rfl, ?_, hnd, ?_⟩
  · rw [hs1]; exact card_stored
  · intro c
    rw [hset c]
    exact canons_iff train_4x4_m4 hb c
  · rw [← List.toFinset_card_of_nodup hnd, ← Set.ncard_coe_Finset, hs2]
    exact card_stored

/-! ## The merger: `Record::merge` and the merge loop -/

/-- C29: `Record::merge` combines field by field. Each of `dp0`, `dp1`,
`depth0`, `depth1` of the result is the receiver's value when that is not
zero and the other record's value otherwise, and `state_code` is the
receiver's. When no field is non-zero in both records, the four fields do
not depend on which record is the receiver, and two records of the same
`state_code` (the only case in which `main` calls `merge`) merge to the same
record in both orders. -/
theorem record_merge_fields (r other : Record) :
    (r.merge other).state_code = r.state_code ∧
      (r.merge other).dp0 = (if r.dp0 ≠ 0 then r.dp0 else other.dp0) ∧
      (r.merge other).dp1 = (if r.dp1 ≠ 0 then r.dp1 else other.dp1) ∧
      (r.merge other).depth0 = (if r.depth0 ≠ 0 then r.depth0 else other.depth0) ∧
      (r.merge other).depth1 = (if r.depth1 ≠ 0 then r.depth1 else other.depth1) ∧
      ((r.dp0 = 0 ∨ other.dp0 = 0) → (r.dp1 = 0 ∨ other.dp1 = 0) →
        (r.depth0 = 0 ∨ other.depth0 = 0) → (r.depth1 = 0 ∨ other.depth1 = 0) →
        (r.merge other).dp0 = (other.merge r).dp0 ∧ (r.merge other).dp1 = (other.merge r).dp1 ∧
        (r.merge other).depth0 = (other.merge r).depth0 ∧
        (r.merge other).depth1 = (other.merge r).depth1 ∧
        (r.state_code = other.state_code → r.merge other = other.merge r)) := by
  refine ⟨rfl, ?_, ?_, ?_, ?_, ?_⟩
  · show (if r.dp0 = 0 then other.dp0 else r.dp0) = _
    by_cases h : r.dp0 = 0 <;> simp [h]
  · show (if r.dp1 = 0 then other.dp1 else r.dp1) = _
    by_cases h : r.dp1 = 0 <;> simp [h]
  · show (if r.depth0 = 0 then other.depth0 else r.depth0) = _
    by_cases h : r.depth0 = 0 <;> simp [h]
  · show (if r.depth1 = 0 then other.depth1 else r.depth1) = _
    by_cases h : r.depth1 = 0 <;> simp [h]
  · intro h0 h1 h2 h3
    have e0 : (r.merge other).dp0 = (other.merge r).dp0 := by
      show (if r.dp0 = 0 then other.dp0 else r.dp0) = (if other.dp0 = 0 then r.dp0 else other.dp0)
      rcases h0 with h | h
      · rw [if_pos h]; by_cases g : other.dp0 = 0
        · rw [if_pos g, g, h]
        · rw [if_neg g]
      · rw [if_pos h]; by_cases g : r.dp0 = 0
        · rw [if_pos g, g, h]
        · rw [if_neg g]
    have e1 : (r.merge other).dp1 = (other.merge r).dp1 := by
      show (if r.dp1 = 0 then other.dp1 else r.dp1) = (if other.dp1 = 0 then r.dp1 else other.dp1)
      rcases h1 with h | h
      · rw [if_pos h]; by_cases g : other.dp1 = 0
        · rw [if_pos g, g, h]
        · rw [if_neg g]
      · rw [if_pos h]; by_cases g : r.dp1 = 0
        · rw [if_pos g, g, h]
        · rw [if_neg g]
    have e2 : (r.merge other).depth0 = (other.merge r).depth0 := by
      show (if r.depth0 = 0 then other.depth0 else r.depth0) =
        (if other.depth0 = 0 then r.depth0 else other.depth0)
      rcases h2 with h | h
      · rw [if_pos h]; by_cases g : other.depth0 = 0
        · rw [if_pos g, g, h]
        · rw [if_neg g]
      · rw [if_pos h]; by_cases g : r.depth0 = 0
        · rw [if_pos g, g, h]
        · rw [if_neg g]
    have e3 : (r.merge other).depth1 = (other.merge r).depth1 := by
      show (if r.depth1 = 0 then other.depth1 else r.depth1) =
        (if other.depth1 = 0 then r.depth1 else other.depth1)
      rcases h3 with h | h
      · rw [if_pos h]; by_cases g : other.depth1 = 0
        · rw [if_pos g, g, h]
        · rw [if_neg g]
      · rw [if_pos h]; by_cases g : r.depth1 = 0
        · rw [if_pos g, g, h]
        · rw [if_neg g]
    refine ⟨e0, e1, e2, e3, ?_⟩
    intro hc
    have ec : (r.merge other).state_code = (other.merge r).state_code := hc
    cases hm : r.merge other
    cases hm2 : other.merge r
    rw [hm, hm2] at e0 e1 e2 e3 ec
    simp only at e0 e1 e2 e3 ec
    rw [e0, e1, e2, e3, ec]

/-- Two tables that each fit into one batch: both readers are at `eof` after
the first `read_batch`, the merge loop is not entered, and nothing is
written. -/
theorem merge_small_tables (batch_size : Nat) (hb : batch_size < UINT64_MOD)
    (xwin_file ywin_file : List Record) (hx : xwin_file.length ≤ batch_size)
    (hy : ywin_file.length ≤ batch_size) :
    merge_main batch_size xwin_file ywin_file = some (0, []) := by
  have key : ∀ file : List Record, file.length ≤ batch_size →
      ((DataReader.open_file file).read_batch batch_size).1.eof = true := by
    intro file hf
    have hm : (file.length + UINT64_MOD - 0) % UINT64_MOD = file.length := by
      rw [Nat.sub_zero, Nat.add_mod_right]
      exact Nat.mod_eq_of_lt (by omega)
    unfold DataReader.read_batch DataReader.open_file
    simp only [hm]
    by_cases h0 : min batch_size file.length = 0
    · rw [if_pos h0]
      have : file.length = 0 := by
        rcases Nat.min_eq_zero_iff.mp h0 with h | h
        · omega
        · exact h
      simp [DataReader.eof, this]
    · rw [if_neg h0]
      simp [DataReader.eof, Nat.min_eq_right hf]
  unfold merge_main
  have hloop : ∀ fuel (s : MergeState), s.xwin.eof = true → s.ywin.eof = true →
      merge_loop batch_size fuel s = some s := by
    intro fuel s h1 h2
    cases fuel with
    | zero => rfl
    | succ n =>
      unfold merge_loop
      rw [if_neg (by simp [h1, h2])]
  simp only []
  rw [hloop _ _ (key _ hx) (key _ hy)]

/-- C30 (the code at the failing inputs): with the batch size of `main`, the
tables `[(10, +1, +1, 0, 0)]` and `[(20, 0, -1, 2, 2)]` merge to an empty
output with header 0, because both readers are at `eof` before the loop is
entered; and with batches of 2 records the tables with codes `1, 3, 5` and
`2` merge to the three records `1, 2, 3`: the record with code 5, read into
the last batch, is never written. -/
theorem merge_drops_records :
    merge_main BATCH_SIZE [Record.mk 10 1 1 0 0] [Record.mk 20 0 (-1) 2 2] = some (0, []) ∧
      merge_main 2 [Record.mk 1 1 1 0 0, Record.mk 3 1 0 1 0, Record.mk 5 1 1 1 1]
          [Record.mk 2 0 1 0 0] =
        some (3, [Record.mk 1 1 1 0 0, Record.mk 2 0 1 0 0, Record.mk 3 1 0 1 0]) := by
  constructor <;> decide

/-! ## The buffers of the predecessor synthesis -/

set_option maxRecDepth 1000000 in
/-- C27 (the code at the failing input): the terminal state `X = (0,1,2,3)`,
`Y = (4,5,6)` is stored with code 463209327, `check_result` classifies it
`+1` (so `main` of `train_xwin.cpp` pushes it on the queue and passes its
decoding `([3,2,1,0], [7,6,5])` to `get_x_preds`). It has `lx = 4 > ly = 3`
and nine free cells, so one no-overflow predecessor and nine overflow
predecessors are added; the ten codes are distinct. With the arrays of 9
entries of the source the tenth is written past their end; with 10 entries
the function returns the ten codes. -/
theorem get_x_preds_overflow :
    Stored train_4x4_m4 463209327 ∧ verdict train_4x4_m4 463209327 = 1 ∧
      TrainXwin.decode_state 463209327 = ([3, 2, 1, 0], [7, 6, 5]) ∧
      TrainXwin.get_x_preds (TrainXwin.decode_state 463209327).1
        (TrainXwin.decode_state 463209327).2 = none ∧
      TrainXwin.get_x_preds_cap 10 (TrainXwin.decode_state 463209327).1
          (TrainXwin.decode_state 463209327).2 =
        some [52870654, 899188947, 899523031, 899606552, 899690073, 899773594, 899857115,
          899940636, 900024157, 900107678] ∧
      ([52870654, 899188947, 899523031, 899606552, 899690073, 899773594, 899857115,
          899940636, 900024157, 900107678] : List Nat).Nodup ∧
      ([52870654, 899188947, 899523031, 899606552, 899690073, 899773594, 899857115,
          899940636, 900024157, 900107678] : List Nat).length = 10 := by
  refine ⟨stored_463209327, by decide, by decide!, by decide!, by decide!, by decide, rfl⟩


/-! ## Predecessor and successor synthesis -/

/-- The mask test reads bit `f` of the mask. -/
theorem TrainXwin.occupied_iff (occ f : Nat) (hf : f < 32) :
    TrainXwin.occupied occ f = true ↔ occ.testBit f = true := by
  unfold TrainXwin.occupied
  rw [Nat.one_shiftLeft, Nat.mod_eq_of_lt (show 2 ^ f < 4294967296 from
    (Nat.pow_lt_pow_right (by decide) hf).trans_le (by decide))]
  constructor
  · intro h
    have hne : occ &&& 2 ^ f ≠ 0 := by simpa using h
    obtain ⟨i, hi⟩ := Nat.ne_zero_implies_bit_true hne
    rw [Nat.testBit_and, Nat.testBit_two_pow] at hi
    simp only [Bool.and_eq_true, decide_eq_true_eq] at hi
    rw [hi.2]; exact hi.1
  · intro h
    have : (occ &&& 2 ^ f).testBit f = true := by
      rw [Nat.testBit_and, Nat.testBit_two_pow_self, h]; rfl
    have hne : occ &&& 2 ^ f ≠ 0 := by
      intro h0
      rw [h0, Nat.zero_testBit] at this
      exact absurd this (by decide)
    simpa using hne

/-- Bit `f` of the mask after one of the two loops of `occ`. -/
theorem TrainXwin.occ_loop_testBit (l : List Int) (init f : Nat) (hf : f < 32) :
    (l.foldl (fun occ p => (occ ||| (1 <<< p.toNat) % 4294967296) % 4294967296) init).testBit f =
      (init.testBit f || decide (∃ p ∈ l, p.toNat = f)) := by
  induction l generalizing init with
  | nil => simp
  | cons a t ih =>
    rw [List.foldl_cons, ih]
    have e : 4294967296 = 2 ^ 32 := by norm_num
    rw [e, Nat.testBit_mod_two_pow, Nat.testBit_or, Nat.testBit_mod_two_pow, Nat.one_shiftLeft,
      Nat.testBit_two_pow]
    by_cases h1 : a.toNat = f
    · simp [h1, hf]
    · have h2 : ¬ (∃ p ∈ a :: t, p.toNat = f) ↔ ¬ (∃ p ∈ t, p.toNat = f) := by
        simp [h1]
      by_cases h3 : ∃ p ∈ t, p.toNat = f
      · have h4 : ∃ p ∈ a :: t, p.toNat = f := by
          obtain ⟨p, hp, hpf⟩ := h3
          exact ⟨p, List.mem_cons_of_mem _ hp, hpf⟩
        simp [h3, h4]
      · have h4 : ¬ ∃ p ∈ a :: t, p.toNat = f := h2.mpr h3
        simp [h1, h3, h4, hf]

/-- On positions given as natural numbers, a cell below 32 is occupied
exactly when it is in one of the two sequences. -/
theorem TrainXwin.occupied_mask (x y : List Nat) (f : Nat) (hf : f < 32) :
    TrainXwin.occupied (TrainXwin.occ_mask (x.map (fun (p : Nat) => (p : Int)))
      (y.map (fun (p : Nat) => (p : Int)))) f = true ↔ f ∈ x ∨ f ∈ y := by
  rw [TrainXwin.occupied_iff _ _ hf]
  unfold TrainXwin.occ_mask
  rw [TrainXwin.occ_loop_testBit _ _ _ hf, TrainXwin.occ_loop_testBit _ _ _ hf]
  simp only [Nat.zero_testBit, Bool.false_or, Bool.or_eq_true, decide_eq_true_eq,
    List.mem_map, exists_exists_and_eq_and, Int.toNat_ofNat]
  constructor
  · rintro (⟨p, hp, rfl⟩ | ⟨p, hp, rfl⟩)
    · exact Or.inl hp
    · exact Or.inr hp
  · rintro (h | h)
    · exact Or.inl ⟨f, h, rfl⟩
    · exact Or.inr ⟨f, h, rfl⟩

/-- The lambda `add` on arrays that are still intact. -/
theorem TrainXwin.add_some_eq (cap : Nat) (out : List Nat) (c : Nat) :
    TrainXwin.add cap (some out) c =
      if c ∈ out then some out else if out.length < cap then some (out ++ [c]) else none :=
  rfl

/-- Once a write has gone past the arrays the result stays undefined. -/
theorem TrainXwin.add_fold_none (cap : Nat) (skip : Nat → Bool) (g : Nat → Nat)
    (fs : List Nat) :
    fs.foldl (fun acc f => if skip f = true then acc else TrainXwin.add cap acc (g f)) none =
      none := by
  induction fs with
  | nil => rfl
  | cons a t ih =>
    rw [List.foldl_cons]
    by_cases h : skip a = true
    · rw [if_pos h]; exact ih
    · rw [if_neg h]; exact ih

/-- The codes in the output of a cell loop: those already there and the code
of every cell that is not skipped. -/
theorem TrainXwin.add_fold_mem (cap : Nat) (skip : Nat → Bool) (g : Nat → Nat)
    (fs : List Nat) (acc0 l : List Nat)
    (h : fs.foldl (fun acc f => if skip f = true then acc else TrainXwin.add cap acc (g f))
      (some acc0) = some l) (c : Nat) :
    c ∈ l ↔ c ∈ acc0 ∨ ∃ f ∈ fs, skip f = false ∧ g f = c := by
  induction fs generalizing acc0 with
  | nil =>
    simp only [List.foldl_nil, Option.some.injEq] at h
    subst h
    simp
  | cons a t ih =>
    rw [List.foldl_cons] at h
    by_cases hs : skip a = true
    · rw [if_pos hs] at h
      rw [ih acc0 h]
      constructor
      · rintro (h1 | ⟨f, hf, h2, h3⟩)
        · exact Or.inl h1
        · exact Or.inr ⟨f, List.mem_cons_of_mem _ hf, h2, h3⟩
      · rintro (h1 | ⟨f, hf, h2, h3⟩)
        · exact Or.inl h1
        · rcases List.mem_cons.mp hf with rfl | hf
          · rw [hs] at h2; exact absurd h2 (by decide)
          · exact Or.inr ⟨f, hf, h2, h3⟩
    · rw [if_neg hs] at h
      have hs2 : skip a = false := by simpa using hs
      rw [TrainXwin.add_some_eq] at h
      by_cases hm : g a ∈ acc0
      · rw [if_pos hm] at h
        rw [ih acc0 h]
        constructor
        · rintro (h1 | ⟨f, hf, h2, h3⟩)
          · exact Or.inl h1
          · exact Or.inr ⟨f, List.mem_cons_of_mem _ hf, h2, h3⟩
        · rintro (h1 | ⟨f, hf, h2, h3⟩)
          · exact Or.inl h1
          · rcases List.mem_cons.mp hf with rfl | hf
            · rw [← h3]; exact Or.inl hm
            · exact Or.inr ⟨f, hf, h2, h3⟩
      · rw [if_neg hm] at h
        by_cases hl : acc0.length < cap
        · rw [if_pos hl] at h
          rw [ih _ h]
          constructor
          · rintro (h1 | ⟨f, hf, h2, h3⟩)
            · rcases List.mem_append.mp h1 with h1 | h1
              · exact Or.inl h1
              · rw [List.mem_singleton] at h1
                exact Or.inr ⟨a, List.mem_cons_self _ _, hs2, h1.symm⟩
            · exact Or.inr ⟨f, List.mem_cons_of_mem _ hf, h2, h3⟩
          · rintro (h1 | ⟨f, hf, h2, h3⟩)
            · exact Or.inl (List.mem_append_left _ h1)
            · rcases List.mem_cons.mp hf with rfl | hf
              · exact Or.inl (List.mem_append_right _ (by rw [h3]; exact List.mem_singleton_self _))
              · exact Or.inr ⟨f, hf, h2, h3⟩
        · rw [if_neg hl, TrainXwin.add_fold_none] at h
          exact absurd h (by simp)

/-- A cell loop stays inside arrays of `cap` entries when the output so far
and the cells that are not skipped together are at most `cap`. -/
theorem TrainXwin.add_fold_some (cap : Nat) (skip : Nat → Bool) (g : Nat → Nat)
    (fs : List Nat) (acc0 : List Nat)
    (h : acc0.length + fs.countP (fun f => !skip f) ≤ cap) :
    ∃ l, fs.foldl (fun acc f => if skip f = true then acc else TrainXwin.add cap acc (g f))
      (some acc0) = some l := by
  induction fs generalizing acc0 with
  | nil => exact ⟨acc0, rfl⟩
  | cons a t ih =>
    rw [List.foldl_cons]
    by_cases hs : skip a = true
    · rw [if_pos hs]
      apply ih
      rw [List.countP_cons_of_neg _ _ (by simp [hs])] at h
      exact h
    · rw [if_neg hs]
      rw [List.countP_cons_of_pos _ _ (by simp [hs])] at h
      rw [TrainXwin.add_some_eq]
      by_cases hm : g a ∈ acc0
      · rw [if_pos hm]; apply ih; omega
      · rw [if_neg hm, if_pos (by omega)]
        apply ih
        rw [List.length_append, List.length_singleton]; omega

/-- The arrays `ynew` and `xnew` of the successor functions, on positions
given as natural numbers within the budget, are the sequence built by
`place`. -/
theorem TrainXwin.ynew_cast (y : List Nat) (hl : y.length ≤ 4) (t : Nat) :
    TrainXwin.ynew (y.map (fun (p : Nat) => (p : Int))) (t : Int) =
        (place train_4x4_m4 y t).map (fun (p : Nat) => (p : Int)) ∧
      TrainYwin.xnew (y.map (fun (p : Nat) => (p : Int))) (t : Int) =
        (place train_4x4_m4 y t).map (fun (p : Nat) => (p : Int)) := by
  have hM : train_4x4_m4.MAX_MOVE = 4 := rfl
  have hM2 : TrainXwin.MAX_MOVE = 4 := rfl
  by_cases h : y.length < 4
  · have h2 : ¬ (y.length + 1 > 4) := by omega
    simp [TrainXwin.ynew, TrainYwin.xnew, place, hM, hM2, h, h2]
  · have h4 : y.length = 4 := by omega
    cases y with
    | nil => simp at h4
    | cons a rest =>
      have hr : rest.length = 3 := by simpa using h4
      simp [TrainXwin.ynew, TrainYwin.xnew, place, hM, hM2, List.take_of_length_le, hr]

/-- Membership in the output of `get_x_preds`, for a state given by
positions on the board: the no-overflow predecessor when `lx > ly`, and the
overflow predecessors of the free cells when `lx = MAX_MOVE`. -/
theorem TrainXwin.get_x_preds_mem (cap : Nat) (x y : List Nat) (hx : ∀ p ∈ x, p < 16)
    (hy : ∀ p ∈ y, p < 16) (l : List Nat)
    (h : TrainXwin.get_x_preds_cap cap (x.map (fun (p : Nat) => (p : Int)))
      (y.map (fun (p : Nat) => (p : Int))) = some l) (c : Nat) :
    c ∈ l ↔
      (x.length > y.length ∧ c = (TicTacToe.canonicalize train_4x4_m4 (x.take (x.length - 1)) y).code) ∨
      (x.length = 4 ∧ ∃ f < 16, f ∉ x ∧ f ∉ y ∧
        c = (TicTacToe.canonicalize train_4x4_m4 (f :: x.take (x.length - 1)) y).code) := by
  have htk : ∀ p ∈ x.take (x.length - 1), p < 16 := fun p hp => hx p (List.mem_of_mem_take hp)
  have e1 : TrainXwin.canonicalize ((x.map (fun (p : Nat) => (p : Int))).take (x.length - 1))
      (y.map (fun (p : Nat) => (p : Int))) =
      (TicTacToe.canonicalize train_4x4_m4 (x.take (x.length - 1)) y).code := by
    rw [← List.map_take]
    exact TrainXwin.canonicalize_cast _ _ htk hy
  have e2 : ∀ f : Nat, f < 16 → TrainXwin.canonicalize
      ((f : Int) :: (x.map (fun (p : Nat) => (p : Int))).take (x.length - 1))
      (y.map (fun (p : Nat) => (p : Int))) =
      (TicTacToe.canonicalize train_4x4_m4 (f :: x.take (x.length - 1)) y).code := by
    intro f hf
    rw [← List.map_take]
    have := TrainXwin.canonicalize_cast (f :: x.take (x.length - 1)) y
      (fun p hp => by
        rcases List.mem_cons.mp hp with rfl | hp
        · exact hf
        · exact htk p hp) hy
    rw [List.map_cons] at this
    exact this
  unfold TrainXwin.get_x_preds_cap at h
  rw [List.length_map, List.length_map] at h
  by_cases h0 : x.length = 0
  · rw [if_pos h0] at h
    simp only [Option.some.injEq] at h
    subst h
    constructor
    · intro hc; exact absurd hc (List.not_mem_nil _)
    · rintro (⟨h1, _⟩ | ⟨h1, _⟩) <;> omega
  · rw [if_neg h0] at h
    simp only at h
    rw [e1] at h
    have hfold : ∀ acc0 : Option (List Nat),
        (List.range TrainXwin.CELLS).foldl
          (fun acc f =>
            if TrainXwin.occupied (TrainXwin.occ_mask (x.map (fun (p : Nat) => (p : Int)))
                (y.map (fun (p : Nat) => (p : Int)))) f = true then acc
            else TrainXwin.add cap acc (TrainXwin.canonicalize
              ((f : Int) :: (x.map (fun (p : Nat) => (p : Int))).take (x.length - 1))
              (y.map (fun (p : Nat) => (p : Int))))) acc0 =
        (List.range TrainXwin.CELLS).foldl
          (fun acc f =>
            if (decide (f ∈ x ∨ f ∈ y)) = true then acc
            else TrainXwin.add cap acc
              ((fun f => (TicTacToe.canonicalize train_4x4_m4 (f :: x.take (x.length - 1)) y).code) f))
          acc0 := by
      intro acc0
      apply List.foldl_ext
      intro acc f hf
      have hf16 : f < 16 := List.mem_range.mp hf
      rw [e2 f hf16]
      by_cases ho : f ∈ x ∨ f ∈ y
      · rw [if_pos ((TrainXwin.occupied_mask x y f (by omega)).mpr ho), if_pos (by simpa using ho)]
      · rw [if_neg (fun hh => ho ((TrainXwin.occupied_mask x y f (by omega)).mp hh)),
          if_neg (by simpa using ho)]
    rw [hfold] at h
    have hskip : ∀ f, decide (f ∈ x ∨ f ∈ y) = false ↔ f ∉ x ∧ f ∉ y := by
      intro f; simp
    by_cases hgt : x.length > y.length
    · rw [if_pos hgt, TrainXwin.add_some_eq, if_neg (List.not_mem_nil _)] at h
      by_cases hcap : ([] : List Nat).length < cap
      · rw [if_pos hcap] at h
        by_cases h4 : x.length = TrainXwin.MAX_MOVE
        · rw [if_pos h4] at h
          rw [TrainXwin.add_fold_mem cap _ _ _ _ _ h c]
          constructor
          · rintro (h1 | ⟨f, hf, h2, h3⟩)
            · left; exact ⟨hgt, by simpa using h1⟩
            · right
              exact ⟨h4, f, List.mem_range.mp hf, ((hskip f).mp h2).1, ((hskip f).mp h2).2,
                h3.symm⟩
          · rintro (⟨_, h1⟩ | ⟨_, f, hf, h2, h3, h5⟩)
            · left; simp [h1]
            · right
              exact ⟨f, List.mem_range.mpr hf, (hskip f).mpr ⟨h2, h3⟩, h5.symm⟩
        · rw [if_neg h4] at h
          simp only [List.nil_append, Option.some.injEq] at h
          subst h
          constructor
          · intro h1; left; exact ⟨hgt, by simpa using h1⟩
          · rintro (⟨_, h1⟩ | ⟨h1, _⟩)
            · simp [h1]
            · exact absurd h1 h4
      · rw [if_neg hcap] at h
        by_cases h4 : x.length = TrainXwin.MAX_MOVE
        · rw [if_pos h4, TrainXwin.add_fold_none] at h
          exact absurd h (by simp)
        · rw [if_neg h4] at h
          exact absurd h (by simp)
    · rw [if_neg hgt] at h
      by_cases h4 : x.length = TrainXwin.MAX_MOVE
      · rw [if_pos h4] at h
        rw [TrainXwin.add_fold_mem cap _ _ _ _ _ h c]
        constructor
        · rintro (h1 | ⟨f, hf, h2, h3⟩)
          · exact absurd h1 (List.not_mem_nil _)
          · right
            exact ⟨h4, f, List.mem_range.mp hf, ((hskip f).mp h2).1, ((hskip f).mp h2).2,
              h3.symm⟩
        · rintro (⟨h1, _⟩ | ⟨_, f, hf, h2, h3, h5⟩)
          · exact absurd h1 hgt
          · right
            exact ⟨f, List.mem_range.mpr hf, (hskip f).mpr ⟨h2, h3⟩, h5.symm⟩
      · rw [if_neg h4] at h
        simp only [Option.some.injEq] at h
        subst h
        constructor
        · intro h1; exact absurd h1 (List.not_mem_nil _)
        · rintro (⟨h1, _⟩ | ⟨h1, _⟩)
          · exact absurd h1 hgt
          · exact absurd h1 h4

/-- Membership in the output of `get_y_preds`, for a state given by
positions on the board: the no-overflow predecessor, and the overflow
predecessors of the free cells when `ly = MAX_MOVE`. -/
theorem TrainXwin.get_y_preds_mem (cap : Nat) (x y : List Nat) (hx : ∀ p ∈ x, p < 16)
    (hy : ∀ p ∈ y, p < 16) (l : List Nat)
    (h : TrainXwin.get_y_preds_cap cap (x.map (fun (p : Nat) => (p : Int)))
      (y.map (fun (p : Nat) => (p : Int))) = some l) (c : Nat) :
    c ∈ l ↔
      (y.length ≠ 0 ∧ c = (TicTacToe.canonicalize train_4x4_m4 x (y.take (y.length - 1))).code) ∨
      (y.length = 4 ∧ ∃ f < 16, f ∉ x ∧ f ∉ y ∧
        c = (TicTacToe.canonicalize train_4x4_m4 x (f :: y.take (y.length - 1))).code) := by
  have htk : ∀ p ∈ y.take (y.length - 1), p < 16 := fun p hp => hy p (List.mem_of_mem_take hp)
  have e1 : TrainXwin.canonicalize (x.map (fun (p : Nat) => (p : Int)))
      ((y.map (fun (p : Nat) => (p : Int))).take (y.length - 1)) =
      (TicTacToe.canonicalize train_4x4_m4 x (y.take (y.length - 1))).code := by
    rw [← List.map_take]
    exact TrainXwin.canonicalize_cast _ _ hx htk
  have e2 : ∀ f : Nat, f < 16 → TrainXwin.canonicalize (x.map (fun (p : Nat) => (p : Int)))
      ((f : Int) :: (y.map (fun (p : Nat) => (p : Int))).take (y.length - 1)) =
      (TicTacToe.canonicalize train_4x4_m4 x (f :: y.take (y.length - 1))).code := by
    intro f hf
    rw [← List.map_take]
    have := TrainXwin.canonicalize_cast x (f :: y.take (y.length - 1)) hx
      (fun p hp => by
        rcases List.mem_cons.mp hp with rfl | hp
        · exact hf
        · exact htk p hp)
    rw [List.map_cons] at this
    exact this
  unfold TrainXwin.get_y_preds_cap at h
  rw [List.length_map] at h
  by_cases h0 : y.length = 0
  · rw [if_pos h0] at h
    simp only [Option.some.injEq] at h
    subst h
    constructor
    · intro hc; exact absurd hc (List.not_mem_nil _)
    · rintro (⟨h1, _⟩ | ⟨h1, _⟩)
      · exact absurd h0 h1
      · omega
  · rw [if_neg h0] at h
    simp only at h
    rw [e1] at h
    have hfold : ∀ acc0 : Option (List Nat),
        (List.range TrainXwin.CELLS).foldl
          (fun acc f =>
            if TrainXwin.occupied (TrainXwin.occ_mask (x.map (fun (p : Nat) => (p : Int)))
                (y.map (fun (p : Nat) => (p : Int)))) f = true then acc
            else TrainXwin.add cap acc (TrainXwin.canonicalize
              (x.map (fun (p : Nat) => (p : Int)))
              ((f : Int) :: (y.map (fun (p : Nat) => (p : Int))).take (y.length - 1)))) acc0 =
        (List.range TrainXwin.CELLS).foldl
          (fun acc f =>
            if (decide (f ∈ x ∨ f ∈ y)) = true then acc
            else TrainXwin.add cap acc
              ((fun f => (TicTacToe.canonicalize train_4x4_m4 x
                (f :: y.take (y.length - 1))).code) f))
          acc0 := by
      intro acc0
      apply List.foldl_ext
      intro acc f hf
      have hf16 : f < 16 := List.mem_range.mp hf
      rw [e2 f hf16]
      by_cases ho : f ∈ x ∨ f ∈ y
      · rw [if_pos ((TrainXwin.occupied_mask x y f (by omega)).mpr ho), if_pos (by simpa using ho)]
      · rw [if_neg (fun hh => ho ((TrainXwin.occupied_mask x y f (by omega)).mp hh)),
          if_neg (by simpa using ho)]
    rw [hfold] at h
    have hskip : ∀ f, decide (f ∈ x ∨ f ∈ y) = false ↔ f ∉ x ∧ f ∉ y := by
      intro f; simp
    rw [TrainXwin.add_some_eq, if_neg (List.not_mem_nil _)] at h
    by_cases hcap : ([] : List Nat).length < cap
    · rw [if_pos hcap] at h
      by_cases h4 : y.length = TrainXwin.MAX_MOVE
      · rw [if_pos h4] at h
        rw [TrainXwin.add_fold_mem cap _ _ _ _ _ h c]
        constructor
        · rintro (h1 | ⟨f, hf, h2, h3⟩)
          · left; exact ⟨h0, by simpa using h1⟩
          · right
            exact ⟨h4, f, List.mem_range.mp hf, ((hskip f).mp h2).1, ((hskip f).mp h2).2,
              h3.symm⟩
        · rintro (⟨_, h1⟩ | ⟨_, f, hf, h2, h3, h5⟩)
          · left; simp [h1]
          · right
            exact ⟨f, List.mem_range.mpr hf, (hskip f).mpr ⟨h2, h3⟩, h5.symm⟩
      · rw [if_neg h4] at h
        simp only [List.nil_append, Option.some.injEq] at h
        subst h
        constructor
        · intro h1; left; exact ⟨h0, by simpa using h1⟩
        · rintro (⟨_, h1⟩ | ⟨h1, _⟩)
          · simp [h1]
          · exact absurd h1 h4
    · rw [if_neg hcap] at h
      by_cases h4 : y.length = TrainXwin.MAX_MOVE
      · rw [if_pos h4, TrainXwin.add_fold_none] at h
        exact absurd h (by simp)
      · rw [if_neg h4] at h
        exact absurd h (by simp)

/-- Membership in the output of `get_y_succs`, for a state given by
positions on the board: the canonical codes of the states after Y places on
a free cell, kept when `lx >= lnew`. -/
theorem TrainXwin.get_y_succs_mem (x y : List Nat) (hx : ∀ p ∈ x, p < 16)
    (hy : ∀ p ∈ y, p < 16) (hyl : y.length ≤ 4) (l : List Nat)
    (h : TrainXwin.get_y_succs (x.map (fun (p : Nat) => (p : Int)))
      (y.map (fun (p : Nat) => (p : Int))) = some l) (c : Nat) :
    c ∈ l ↔ ∃ pos < 16, pos ∉ x ∧ pos ∉ y ∧ ¬ (x.length < (place train_4x4_m4 y pos).length) ∧
      c = (TicTacToe.canonicalize train_4x4_m4 x (place train_4x4_m4 y pos)).code := by
  have hpl : ∀ pos < 16, ∀ p ∈ place train_4x4_m4 y pos, p < 16 := by
    intro pos hpos p hp
    unfold place at hp
    have hsub : p ∈ y ++ [pos] := by
      by_cases hc : (y ++ [pos]).length > train_4x4_m4.MAX_MOVE
      · rw [if_pos hc] at hp; exact List.mem_of_mem_tail hp
      · rw [if_neg hc] at hp; exact hp
    rcases List.mem_append.mp hsub with h1 | h1
    · exact hy p h1
    · rw [List.mem_singleton.mp h1]; exact hpos
  unfold TrainXwin.get_y_succs at h
  simp only at h
  have hfold : (List.range TrainXwin.CELLS).foldl
        (fun acc pos =>
          if TrainXwin.occupied (TrainXwin.occ_mask (x.map (fun (p : Nat) => (p : Int)))
              (y.map (fun (p : Nat) => (p : Int)))) pos = true then acc
          else if (x.map (fun (p : Nat) => (p : Int))).length <
              (TrainXwin.ynew (y.map (fun (p : Nat) => (p : Int))) (pos : Int)).length then acc
          else TrainXwin.add 16 acc (TrainXwin.canonicalize (x.map (fun (p : Nat) => (p : Int)))
            (TrainXwin.ynew (y.map (fun (p : Nat) => (p : Int))) (pos : Int)))) (some []) =
      (List.range TrainXwin.CELLS).foldl
        (fun acc pos =>
          if (decide (pos ∈ x ∨ pos ∈ y) ||
              decide (x.length < (place train_4x4_m4 y pos).length)) = true then acc
          else TrainXwin.add 16 acc
            ((fun pos => (TicTacToe.canonicalize train_4x4_m4 x
              (place train_4x4_m4 y pos)).code) pos))
        (some []) := by
    apply List.foldl_ext
    intro acc f hf
    have hf16 : f < 16 := List.mem_range.mp hf
    rw [(TrainXwin.ynew_cast y hyl f).1, TrainXwin.canonicalize_cast _ _ hx (hpl f hf16),
      List.length_map, List.length_map]
    by_cases ho : f ∈ x ∨ f ∈ y
    · rw [if_pos ((TrainXwin.occupied_mask x y f (by omega)).mpr ho), if_pos (by simp [ho])]
    · rw [if_neg (fun hh => ho ((TrainXwin.occupied_mask x y f (by omega)).mp hh))]
      by_cases hc : x.length < (place train_4x4_m4 y f).length
      · rw [if_pos hc, if_pos (by simp [hc])]
      · rw [if_neg hc, if_neg (by simp [ho, hc])]
  rw [hfold] at h
  rw [TrainXwin.add_fold_mem 16 _ _ _ _ _ h c]
  constructor
  · rintro (h1 | ⟨f, hf, h2, h3⟩)
    · exact absurd h1 (List.not_mem_nil _)
    · simp only [Bool.or_eq_false_iff, decide_eq_false_iff_not, not_or] at h2
      exact ⟨f, List.mem_range.mp hf, h2.1.1, h2.1.2, h2.2, h3.symm⟩
  · rintro ⟨f, hf, h2, h3, h4, h5⟩
    right
    refine ⟨f, List.mem_range.mpr hf, ?_, h5.symm⟩
    simp only [Bool.or_eq_false_iff, decide_eq_false_iff_not, not_or]
    exact ⟨⟨h2, h3⟩, h4⟩

/-- Membership in the output of `get_x_succs`, for a state given by
positions on the board: the canonical codes of the states after X places on
a free cell, kept when `ly >= lnew - 1`. -/
theorem TrainYwin.get_x_succs_mem (x y : List Nat) (hx : ∀ p ∈ x, p < 16)
    (hy : ∀ p ∈ y, p < 16) (hxl : x.length ≤ 4) (l : List Nat)
    (h : TrainYwin.get_x_succs (x.map (fun (p : Nat) => (p : Int)))
      (y.map (fun (p : Nat) => (p : Int))) = some l) (c : Nat) :
    c ∈ l ↔ ∃ pos < 16, pos ∉ x ∧ pos ∉ y ∧
      ¬ ((y.length : Int) < ((place train_4x4_m4 x pos).length : Int) - 1) ∧
      c = (TicTacToe.canonicalize train_4x4_m4 (place train_4x4_m4 x pos) y).code := by
  have hpl : ∀ pos < 16, ∀ p ∈ place train_4x4_m4 x pos, p < 16 := by
    intro pos hpos p hp
    unfold place at hp
    have hsub : p ∈ x ++ [pos] := by
      by_cases hc : (x ++ [pos]).length > train_4x4_m4.MAX_MOVE
      · rw [if_pos hc] at hp; exact List.mem_of_mem_tail hp
      · rw [if_neg hc] at hp; exact hp
    rcases List.mem_append.mp hsub with h1 | h1
    · exact hx p h1
    · rw [List.mem_singleton.mp h1]; exact hpos
  unfold TrainYwin.get_x_succs at h
  simp only at h
  have hfold : (List.range TrainXwin.CELLS).foldl
        (fun acc pos =>
          if TrainXwin.occupied (TrainXwin.occ_mask (x.map (fun (p : Nat) => (p : Int)))
              (y.map (fun (p : Nat) => (p : Int)))) pos = true then acc
          else if ((y.map (fun (p : Nat) => (p : Int))).length : Int) <
              ((TrainYwin.xnew (x.map (fun (p : Nat) => (p : Int))) (pos : Int)).length : Int) - 1
            then acc
          else TrainXwin.add 16 acc (TrainXwin.canonicalize
            (TrainYwin.xnew (x.map (fun (p : Nat) => (p : Int))) (pos : Int))
            (y.map (fun (p : Nat) => (p : Int))))) (some []) =
      (List.range TrainXwin.CELLS).foldl
        (fun acc pos =>
          if (decide (pos ∈ x ∨ pos ∈ y) ||
              decide ((y.length : Int) < ((place train_4x4_m4 x pos).length : Int) - 1)) = true
            then acc
          else TrainXwin.add 16 acc
            ((fun pos => (TicTacToe.canonicalize train_4x4_m4
              (place train_4x4_m4 x pos) y).code) pos))
        (some []) := by
    apply List.foldl_ext
    intro acc f hf
    have hf16 : f < 16 := List.mem_range.mp hf
    rw [(TrainXwin.ynew_cast x hxl f).2, TrainXwin.canonicalize_cast _ _ (hpl f hf16) hy,
      List.length_map, List.length_map]
    by_cases ho : f ∈ x ∨ f ∈ y
    · rw [if_pos ((TrainXwin.occupied_mask x y f (by omega)).mpr ho), if_pos (by simp [ho])]
    · rw [if_neg (fun hh => ho ((TrainXwin.occupied_mask x y f (by omega)).mp hh))]
      by_cases hc : (y.length : Int) < ((place train_4x4_m4 x f).length : Int) - 1
      · rw [if_pos hc, if_pos (by simp [hc])]
      · rw [if_neg hc, if_neg (by simp [ho, hc])]
  rw [hfold] at h
  rw [TrainXwin.add_fold_mem 16 _ _ _ _ _ h c]
  constructor
  · rintro (h1 | ⟨f, hf, h2, h3⟩)
    · exact absurd h1 (List.not_mem_nil _)
    · simp only [Bool.or_eq_false_iff, decide_eq_false_iff_not, not_or] at h2
      exact ⟨f, List.mem_range.mp hf, h2.1.1, h2.1.2, h2.2, h3.symm⟩
  · rintro ⟨f, hf, h2, h3, h4, h5⟩
    right
    refine ⟨f, List.mem_range.mpr hf, ?_, h5.symm⟩
    simp only [Bool.or_eq_false_iff, decide_eq_false_iff_not, not_or]
    exact ⟨⟨h2, h3⟩, h4⟩

/-- The number of cells of `0..n-1` that lie in a duplicate-free list of
cells below `n` is the length of the list. -/
theorem countP_range_mem (n : Nat) (l : List Nat) (hnd : l.Nodup) (hr : ∀ p ∈ l, p < n) :
    (List.range n).countP (fun f => decide (f ∈ l)) = l.length := by
  rw [List.countP_eq_length_filter]
  apply List.Perm.length_eq
  rw [List.perm_ext_iff_of_nodup ((List.nodup_range n).filter _) hnd]
  intro a
  simp only [List.mem_filter, List.mem_range, decide_eq_true_eq]
  exact ⟨fun h => h.2, fun h => ⟨hr a h, h⟩⟩

/-- The number of free cells of a legal state of the 4x4 board. -/
theorem free_cells_count (x y : List Nat) (hl : LegalPair train_4x4_m4 x y) :
    (List.range 16).countP (fun f => !decide (f ∈ x ∨ f ∈ y)) = 16 - (x.length + y.length) := by
  obtain ⟨hxn, hyn, hdis, _, _, hxr, hyr⟩ := hl
  have hnd : (x ++ y).Nodup := by
    rw [List.nodup_append]
    exact ⟨hxn, hyn, fun a ha hb => hdis a ha hb⟩
  have hr : ∀ p ∈ x ++ y, p < 16 := by
    intro p hp
    rcases List.mem_append.mp hp with h | h
    · exact hxr p h
    · exact hyr p h
  have h1 := countP_range_mem 16 (x ++ y) hnd hr
  have h2 := List.length_eq_countP_add_countP (fun f => decide (f ∈ x ++ y)) (List.range 16)
  rw [List.length_range, h1, List.length_append] at h2
  have h3 : (List.range 16).countP (fun f => !decide (f ∈ x ∨ f ∈ y)) =
      (List.range 16).countP (fun a => decide ¬(decide (a ∈ x ++ y)) = true) := by
    apply List.countP_congr
    intro a _
    simp [List.mem_append]
  rw [h3]
  omega

/-- The cell loop of `get_x_preds`, for a state given by positions on the
board. -/
theorem TrainXwin.x_preds_fold (cap : Nat) (x y : List Nat) (hx : ∀ p ∈ x, p < 16)
    (hy : ∀ p ∈ y, p < 16) (acc0 : Option (List Nat)) :
    (List.range TrainXwin.CELLS).foldl
        (fun acc f =>
          if TrainXwin.occupied (TrainXwin.occ_mask (x.map (fun (p : Nat) => (p : Int)))
              (y.map (fun (p : Nat) => (p : Int)))) f = true then acc
          else TrainXwin.add cap acc (TrainXwin.canonicalize
            ((f : Int) :: (x.map (fun (p : Nat) => (p : Int))).take (x.length - 1))
            (y.map (fun (p : Nat) => (p : Int))))) acc0 =
      (List.range TrainXwin.CELLS).foldl
        (fun acc f =>
          if (decide (f ∈ x ∨ f ∈ y)) = true then acc
          else TrainXwin.add cap acc
            ((fun f => (TicTacToe.canonicalize train_4x4_m4 (f :: x.take (x.length - 1)) y).code)
              f))
        acc0 := by
  apply List.foldl_ext
  intro acc f hf
  have hf16 : f < 16 := List.mem_range.mp hf
  have e2 : TrainXwin.canonicalize
      ((f : Int) :: (x.map (fun (p : Nat) => (p : Int))).take (x.length - 1))
      (y.map (fun (p : Nat) => (p : Int))) =
      (TicTacToe.canonicalize train_4x4_m4 (f :: x.take (x.length - 1)) y).code := by
    rw [← List.map_take]
    have := TrainXwin.canonicalize_cast (f :: x.take (x.length - 1)) y
      (fun p hp => by
        rcases List.mem_cons.mp hp with rfl | hp
        · exact hf16
        · exact hx p (List.mem_of_mem_take hp)) hy
    rw [List.map_cons] at this
    exact this
  rw [e2]
  by_cases ho : f ∈ x ∨ f ∈ y
  · rw [if_pos ((TrainXwin.occupied_mask x y f (by omega)).mpr ho), if_pos (by simpa using ho)]
  · rw [if_neg (fun hh => ho ((TrainXwin.occupied_mask x y f (by omega)).mp hh)),
      if_neg (by simpa using ho)]

/-- The cell loop of `get_y_preds`, for a state given by positions on the
board. -/
theorem TrainXwin.y_preds_fold (cap : Nat) (x y : List Nat) (hx : ∀ p ∈ x, p < 16)
    (hy : ∀ p ∈ y, p < 16) (acc0 : Option (List Nat)) :
    (List.range TrainXwin.CELLS).foldl
        (fun acc f =>
          if TrainXwin.occupied (TrainXwin.occ_mask (x.map (fun (p : Nat) => (p : Int)))
              (y.map (fun (p : Nat) => (p : Int)))) f = true then acc
          else TrainXwin.add cap acc (TrainXwin.canonicalize
            (x.map (fun (p : Nat) => (p : Int)))
            ((f : Int) :: (y.map (fun (p : Nat) => (p : Int))).take (y.length - 1)))) acc0 =
      (List.range TrainXwin.CELLS).foldl
        (fun acc f =>
          if (decide (f ∈ x ∨ f ∈ y)) = true then acc
          else TrainXwin.add cap acc
            ((fun f => (TicTacToe.canonicalize train_4x4_m4 x (f :: y.take (y.length - 1))).code)
              f))
        acc0 := by
  apply List.foldl_ext
  intro acc f hf
  have hf16 : f < 16 := List.mem_range.mp hf
  have e2 : TrainXwin.canonicalize (x.map (fun (p : Nat) => (p : Int)))
      ((f : Int) :: (y.map (fun (p : Nat) => (p : Int))).take (y.length - 1)) =
      (TicTacToe.canonicalize train_4x4_m4 x (f :: y.take (y.length - 1))).code := by
    rw [← List.map_take]
    have := TrainXwin.canonicalize_cast x (f :: y.take (y.length - 1)) hx
      (fun p hp => by
        rcases List.mem_cons.mp hp with rfl | hp
        · exact hf16
        · exact hy p (List.mem_of_mem_take hp))
    rw [List.map_cons] at this
    exact this
  rw [e2]
  by_cases ho : f ∈ x ∨ f ∈ y
  · rw [if_pos ((TrainXwin.occupied_mask x y f (by omega)).mpr ho), if_pos (by simpa using ho)]
  · rw [if_neg (fun hh => ho ((TrainXwin.occupied_mask x y f (by omega)).mp hh)),
      if_neg (by simpa using ho)]

/-- On a legal state, `get_x_preds` stays inside arrays of `cap` entries when
`cap` is at least 10, and also when `cap` is 9 unless `lx = 4` and `ly = 3`. -/
theorem TrainXwin.get_x_preds_some (cap : Nat) (x y : List Nat)
    (hl : LegalPair train_4x4_m4 x y) (hlen : x.length = y.length ∨ x.length = y.length + 1)
    (hcap : 10 ≤ cap ∨ (9 ≤ cap ∧ ¬ (x.length = 4 ∧ y.length = 3))) :
    ∃ l, TrainXwin.get_x_preds_cap cap (x.map (fun (p : Nat) => (p : Int)))
      (y.map (fun (p : Nat) => (p : Int))) = some l := by
  have hfree := free_cells_count x y hl
  obtain ⟨_, _, _, hxl, hyl, hxr, hyr⟩ := hl
  have hM : train_4x4_m4.MAX_MOVE = 4 := rfl
  rw [hM] at hxl hyl
  unfold TrainXwin.get_x_preds_cap
  rw [List.length_map, List.length_map]
  by_cases h0 : x.length = 0
  · rw [if_pos h0]; exact ⟨[], rfl⟩
  · rw [if_neg h0]
    simp only
    rw [TrainXwin.x_preds_fold cap x y hxr hyr]
    by_cases hgt : x.length > y.length
    · rw [if_pos hgt, TrainXwin.add_some_eq, if_neg (List.not_mem_nil _),
        if_pos (show ([] : List Nat).length < cap by simp; omega)]
      by_cases h4 : x.length = TrainXwin.MAX_MOVE
      · rw [if_pos h4]
        apply TrainXwin.add_fold_some
        show _ + (List.range 16).countP _ ≤ cap
        rw [hfree]
        have h4b : x.length = 4 := h4
        simp only [List.nil_append, List.length_singleton]
        omega
      · rw [if_neg h4]; exact ⟨_, rfl⟩
    · rw [if_neg hgt]
      by_cases h4 : x.length = TrainXwin.MAX_MOVE
      · rw [if_pos h4]
        apply TrainXwin.add_fold_some
        show _ + (List.range 16).countP _ ≤ cap
        rw [hfree]
        have h4b : x.length = 4 := h4
        simp only [List.length_nil]
        omega
      · rw [if_neg h4]; exact ⟨_, rfl⟩

/-- On a legal state `get_y_preds` stays inside its arrays of 9 entries. -/
theorem TrainXwin.get_y_preds_some (x y : List Nat)
    (hl : LegalPair train_4x4_m4 x y) (hlen : x.length = y.length ∨ x.length = y.length + 1) :
    ∃ l, TrainXwin.get_y_preds (x.map (fun (p : Nat) => (p : Int)))
      (y.map (fun (p : Nat) => (p : Int))) = some l := by
  have hfree := free_cells_count x y hl
  obtain ⟨_, _, _, hxl, hyl, hxr, hyr⟩ := hl
  have hM : train_4x4_m4.MAX_MOVE = 4 := rfl
  rw [hM] at hxl hyl
  unfold TrainXwin.get_y_preds TrainXwin.get_y_preds_cap
  rw [List.length_map]
  by_cases h0 : y.length = 0
  · rw [if_pos h0]; exact ⟨[], rfl⟩
  · rw [if_neg h0]
    simp only
    rw [TrainXwin.y_preds_fold 9 x y hxr hyr]
    rw [TrainXwin.add_some_eq, if_neg (List.not_mem_nil _),
      if_pos (show ([] : List Nat).length < 9 by simp)]
    by_cases h4 : y.length = TrainXwin.MAX_MOVE
    · rw [if_pos h4]
      apply TrainXwin.add_fold_some
      show _ + (List.range 16).countP _ ≤ 9
      rw [hfree]
      have h4b : y.length = 4 := h4
      simp only [List.nil_append, List.length_singleton]
      omega
    · rw [if_neg h4]; exact ⟨_, rfl⟩

/-- The successor functions stay inside their arrays of 16 entries on every
input. -/
theorem TrainXwin.get_succs_some (x y : List Int) :
    (∃ l, TrainXwin.get_y_succs x y = some l) ∧ (∃ l, TrainYwin.get_x_succs x y = some l) := by
  constructor
  · unfold TrainXwin.get_y_succs
    simp only
    have e : (fun (acc : Option (List Nat)) (pos : Nat) =>
          if TrainXwin.occupied (TrainXwin.occ_mask x y) pos = true then acc
          else if x.length < (TrainXwin.ynew y (pos : Int)).length then acc
          else TrainXwin.add 16 acc (TrainXwin.canonicalize x (TrainXwin.ynew y (pos : Int)))) =
        (fun acc pos =>
          if (TrainXwin.occupied (TrainXwin.occ_mask x y) pos ||
              decide (x.length < (TrainXwin.ynew y (pos : Int)).length)) = true then acc
          else TrainXwin.add 16 acc
            ((fun pos => TrainXwin.canonicalize x (TrainXwin.ynew y ((pos : Nat) : Int))) pos)) := by
      funext acc pos
      by_cases h1 : TrainXwin.occupied (TrainXwin.occ_mask x y) pos = true
      · simp [h1]
      · by_cases h2 : x.length < (TrainXwin.ynew y (pos : Int)).length
        · simp [h1, h2]
        · simp [h1, h2]
    rw [e]
    apply TrainXwin.add_fold_some
    have : (List.range TrainXwin.CELLS).countP
        (fun pos => !(TrainXwin.occupied (TrainXwin.occ_mask x y) pos ||
          decide (x.length < (TrainXwin.ynew y ((pos : Nat) : Int)).length))) ≤
        (List.range TrainXwin.CELLS).length := List.countP_le_length _
    rw [List.length_range] at this
    simpa using this
  · unfold TrainYwin.get_x_succs
    simp only
    have e : (fun (acc : Option (List Nat)) (pos : Nat) =>
          if TrainXwin.occupied (TrainXwin.occ_mask x y) pos = true then acc
          else if (y.length : Int) < ((TrainYwin.xnew x (pos : Int)).length : Int) - 1 then acc
          else TrainXwin.add 16 acc (TrainXwin.canonicalize (TrainYwin.xnew x (pos : Int)) y)) =
        (fun acc pos =>
          if (TrainXwin.occupied (TrainXwin.occ_mask x y) pos ||
              decide ((y.length : Int) < ((TrainYwin.xnew x (pos : Int)).length : Int) - 1)) = true
            then acc
          else TrainXwin.add 16 acc
            ((fun pos => TrainXwin.canonicalize (TrainYwin.xnew x ((pos : Nat) : Int)) y) pos)) := by
      funext acc pos
      by_cases h1 : TrainXwin.occupied (TrainXwin.occ_mask x y) pos = true
      · simp [h1]
      · by_cases h2 : (y.length : Int) < ((TrainYwin.xnew x (pos : Int)).length : Int) - 1
        · simp [h1, h2]
        · simp [h1, h2]
    rw [e]
    apply TrainXwin.add_fold_some
    have : (List.range TrainXwin.CELLS).countP
        (fun pos => !(TrainXwin.occupied (TrainXwin.occ_mask x y) pos ||
          decide ((y.length : Int) < ((TrainYwin.xnew x ((pos : Nat) : Int)).length : Int) - 1))) ≤
        (List.range TrainXwin.CELLS).length := List.countP_le_length _
    rw [List.length_range] at this
    simpa using this

/-- The image of a cell outside a sequence is outside the image of the
sequence. -/
theorem apply_transform_not_mem (b : Params) (hb : b = train_3x3 ∨ b = train_4x4_m4)
    (l : List Nat) (hr : ∀ p ∈ l, p < b.CELLS) (q : Nat) (hq : q < b.CELLS) (t : Nat)
    (ht : t < 8) (h : q ∉ l) : transform b t q ∉ apply_transform b l t := by
  intro hm
  unfold apply_transform at hm
  obtain ⟨p, hp, he⟩ := List.mem_map.mp hm
  have := transform_injective b hb t ht p (hr p hp) q hq he
  rw [this] at hp
  exact h hp

/-- The two halves of a stored code are the codes of the sequences it
decodes to. -/
theorem stored_halves (b : Params) (hb : b = train_3x3 ∨ b = train_4x4_m4) (c : Nat)
    (x y : List Nat) (hdx : decode_list b (c / b.SEPARATOR) = some x)
    (hdy : decode_list b (c % b.SEPARATOR) = some y) (hl : LegalPair b x y)
    (hcode : (canonicalize b x y).code = c) :
    encode_list b x = c / b.SEPARATOR ∧ encode_list b y = c % b.SEPARATOR ∧
      encode_state b x y = c := by
  have hc := consistent_of_mem b hb
  obtain ⟨hxn, hyn, hdis, hxl, hyl, hxr, hyr⟩ := hl
  have hsep : 0 < b.SEPARATOR := separator_pos b hc
  obtain ⟨htid, hrx, hry, h4⟩ := canonicalize_fields b hb x y hxl hxr hyl hyr
  have hrxl : (canonicalize b x y).x.length ≤ b.MAX_MOVE := by
    rw [hrx, apply_transform_length]; exact hxl
  have hryl : (canonicalize b x y).y.length ≤ b.MAX_MOVE := by
    rw [hry, apply_transform_length]; exact hyl
  have hrxr : ∀ p ∈ (canonicalize b x y).x, p < b.CELLS := by
    rw [hrx]; exact apply_transform_range b hb x hxr _ htid
  have hryr : ∀ p ∈ (canonicalize b x y).y, p < b.CELLS := by
    rw [hry]; exact apply_transform_range b hb y hyr _ htid
  have hlt : c / b.SEPARATOR < b.SEPARATOR := by
    rw [← hcode, ← h4, encode_state_div b hc _ _ hrxl hrxr hryl hryr]
    exact (encode_state_eq b hc _ _ hrxl hrxr hryl hryr).2.1
  have hx := decode_valid b hb _ hlt x hdx
  have hy := decode_valid b hb _ (Nat.mod_lt _ hsep) y hdy
  refine ⟨hx.2.2.2, hy.2.2.2, ?_⟩
  rw [(encode_state_eq b hc x y hxl hxr hyl hyr).1, hx.2.2.2, hy.2.2.2]
  exact Nat.div_add_mod' c b.SEPARATOR

/-- The function `decode_state` of `train_xwin.cpp` on a stored code gives
the sequences that `decode_list` of the explicit trainer gives. -/
theorem TrainXwin.decode_state_stored (c : Nat) (x y : List Nat)
    (hdx : TicTacToe.decode_list train_4x4_m4 (c / train_4x4_m4.SEPARATOR) = some x)
    (hdy : TicTacToe.decode_list train_4x4_m4 (c % train_4x4_m4.SEPARATOR) = some y)
    (hl : LegalPair train_4x4_m4 x y) (hcode : (TicTacToe.canonicalize train_4x4_m4 x y).code = c) :
    TrainXwin.decode_state c =
      (x.map (fun (p : Nat) => (p : Int)), y.map (fun (p : Nat) => (p : Int))) := by
  obtain ⟨h1, h2, _⟩ := stored_halves train_4x4_m4 (Or.inr rfl) c x y hdx hdy hl hcode
  unfold TrainXwin.decode_state
  have hS : TrainXwin.SEP = train_4x4_m4.SEPARATOR := rfl
  rw [hS, ← h1, ← h2, TrainXwin.decode_list_encode x hl.2.2.2.1 hl.2.2.2.2.2.1,
    TrainXwin.decode_list_encode y hl.2.2.2.2.1 hl.2.2.2.2.2.2]

/-- The sequences that the canonical code of a legal pair decodes to are the
images of the pair under one of the eight transforms. -/
theorem canon_decode (b : Params) (hb : b = train_3x3 ∨ b = train_4x4_m4) (x y : List Nat)
    (hl : LegalPair b x y) (px py : List Nat)
    (hdx : decode_list b ((canonicalize b x y).code / b.SEPARATOR) = some px)
    (hdy : decode_list b ((canonicalize b x y).code % b.SEPARATOR) = some py) :
    ∃ t < 8, px = apply_transform b x t ∧ py = apply_transform b y t := by
  have hc := consistent_of_mem b hb
  obtain ⟨htid, hrx, hry, hcode⟩ := canonicalize_fields b hb x y hl.2.2.2.1 hl.2.2.2.2.2.1
    hl.2.2.2.2.1 hl.2.2.2.2.2.2
  have hlc := legal_transform b hb x y hl _ htid
  rw [← hrx, ← hry] at hlc
  obtain ⟨hxn, hyn, _, hcxl, hcyl, hcxr, hcyr⟩ := hlc
  have hdiv := encode_state_div b hc _ _ hcxl hcxr hcyl hcyr
  have hmod := encode_state_mod b hc _ _ hcxl hcxr hcyl hcyr
  rw [hcode] at hdiv hmod
  have hx1 := decode_list_of_encode_list b hc _ hcxl hcxr
  have hy1 := decode_list_of_encode_list b hc _ hcyl hcyr
  rw [← hdiv, if_pos hxn, hdx] at hx1
  rw [← hmod, if_pos hyn, hdy] at hy1
  refine ⟨_, htid, ?_, ?_⟩
  · rw [← hrx]; exact Option.some.inj hx1
  · rw [← hry]; exact Option.some.inj hy1

/-- A sequence that is not empty is its first `length - 1` entries followed
by its last entry. -/
theorem take_append_last (x : List Nat) (h : x ≠ []) :
    ∃ l, x = x.take (x.length - 1) ++ [l] ∧ l ∈ x ∧ (x.Nodup → l ∉ x.take (x.length - 1)) := by
  refine ⟨x.getLast h, ?_, List.getLast_mem h, ?_⟩
  · rw [← List.dropLast_eq_take]; exact (List.dropLast_append_getLast h).symm
  · intro hnd hm
    have e : x = x.take (x.length - 1) ++ [x.getLast h] := by
      rw [← List.dropLast_eq_take]; exact (List.dropLast_append_getLast h).symm
    rw [e, List.nodup_append] at hnd
    exact hnd.2.2 hm (List.mem_singleton_self _)

/-- The transform of a sequence followed by a cell. -/
theorem apply_transform_snoc (b : Params) (ini : List Nat) (l t : Nat) :
    apply_transform b (ini ++ [l]) t = apply_transform b ini t ++ [transform b t l] := by
  unfold apply_transform; rw [List.map_append]; rfl

/-- The transform of a cell followed by a sequence. -/
theorem apply_transform_cons (b : Params) (f : Nat) (ini : List Nat) (t : Nat) :
    apply_transform b (f :: ini) t = transform b t f :: apply_transform b ini t := by
  unfold apply_transform; rfl

/-- Undoing a synthesized predecessor move on one side. The sequence `s` is
`ini` followed by `l`; the predecessor sequence `s0` is `ini` (no overflow,
`s` within the budget) or a free cell followed by `ini` (overflow, `s` of
length `MAX_MOVE`). Placing the image of `l` on the image of `s0` gives the
image of `s`. -/
theorem place_undo (ini : List Nat) (l : Nat) (s0 : List Nat) (t : Nat)
    (hlen : (ini ++ [l]).length ≤ 4)
    (h0 : s0 = ini ∨ ((ini ++ [l]).length = 4 ∧ ∃ f, s0 = f :: ini)) :
    place train_4x4_m4 (apply_transform train_4x4_m4 s0 t) (transform train_4x4_m4 t l) =
      apply_transform train_4x4_m4 (ini ++ [l]) t := by
  have hM : train_4x4_m4.MAX_MOVE = 4 := rfl
  rw [List.length_append, List.length_singleton] at hlen h0
  unfold place
  rw [List.length_append, List.length_singleton, apply_transform_length, hM,
    apply_transform_snoc]
  rcases h0 with rfl | ⟨h4, f, rfl⟩
  · rw [if_neg (by omega)]
  · rw [if_pos (by rw [List.length_cons]; omega), apply_transform_cons]
    rfl

/-- A move on one side, seen from the successor. The sequence after placing
`pos` on `p` is `p` followed by `pos` when `p` is below the budget, and the
tail of `p` followed by `pos` when `p` has length `MAX_MOVE`; its first
`length - 1` entries are then `p`, resp. the tail of `p`. -/
theorem place_take (p : List Nat) (pos t : Nat) (hlen : p.length ≤ 4) :
    (p.length < 4 ∧
      (apply_transform train_4x4_m4 (place train_4x4_m4 p pos) t).take
        ((apply_transform train_4x4_m4 (place train_4x4_m4 p pos) t).length - 1) =
          apply_transform train_4x4_m4 p t ∧
      (place train_4x4_m4 p pos).length = p.length + 1) ∨
    (p.length = 4 ∧ ∃ h tl, p = h :: tl ∧ place train_4x4_m4 p pos = tl ++ [pos] ∧
      (apply_transform train_4x4_m4 (place train_4x4_m4 p pos) t).take
        ((apply_transform train_4x4_m4 (place train_4x4_m4 p pos) t).length - 1) =
          apply_transform train_4x4_m4 tl t ∧
      (place train_4x4_m4 p pos).length = 4) := by
  have hM : train_4x4_m4.MAX_MOVE = 4 := rfl
  by_cases h : p.length < 4
  · left
    have hp : place train_4x4_m4 p pos = p ++ [pos] := by
      unfold place
      rw [List.length_append, List.length_singleton, hM, if_neg (by omega)]
    refine ⟨h, ?_, ?_⟩
    · rw [hp, apply_transform_snoc, List.length_append, List.length_singleton,
        Nat.add_sub_cancel, List.take_left']
      rfl
    · rw [hp, List.length_append, List.length_singleton]
  · right
    have h4 : p.length = 4 := by omega
    cases p with
    | nil => simp at h4
    | cons a tl =>
      have hp : place train_4x4_m4 (a :: tl) pos = tl ++ [pos] := by
        unfold place
        rw [List.length_append, List.length_singleton, hM, if_pos (by omega)]
        rfl
      have htl : tl.length = 3 := by simpa using h4
      refine ⟨h4, a, tl, rfl, hp, ?_, ?_⟩
      · rw [hp, apply_transform_snoc, List.length_append, List.length_singleton,
          Nat.add_sub_cancel, List.take_left']
        rfl
      · rw [hp, List.length_append, List.length_singleton, htl]

/-- From a synthesized X-predecessor to the X-successor: when the state
`(sx, sy)` is legal and `(x0, sy)` is one of the predecessors that
`get_x_preds` builds for it, the canonical representative `(px, py)` of the
predecessor has a free cell on which X's move leads to the canonical code of
`(sx, sy)`, and `get_x_succs` keeps that move. -/
theorem x_pred_to_succ (sx sy : List Nat) (hls : LegalPair train_4x4_m4 sx sy)
    (hlens : sx.length = sy.length ∨ sx.length = sy.length + 1) (x0 : List Nat)
    (hx0 : (sx.length > sy.length ∧ x0 = sx.take (sx.length - 1)) ∨
      (sx.length = 4 ∧ ∃ f < 16, f ∉ sx ∧ f ∉ sy ∧ x0 = f :: sx.take (sx.length - 1)))
    (px py : List Nat)
    (hdx : decode_list train_4x4_m4
      ((canonicalize train_4x4_m4 x0 sy).code / train_4x4_m4.SEPARATOR) = some px)
    (hdy : decode_list train_4x4_m4
      ((canonicalize train_4x4_m4 x0 sy).code % train_4x4_m4.SEPARATOR) = some py) :
    ∃ pos < 16, pos ∉ px ∧ pos ∉ py ∧
      ¬ ((py.length : Int) < ((place train_4x4_m4 px pos).length : Int) - 1) ∧
      (canonicalize train_4x4_m4 (place train_4x4_m4 px pos) py).code =
        (canonicalize train_4x4_m4 sx sy).code := by
  have hb : train_4x4_m4 = train_3x3 ∨ train_4x4_m4 = train_4x4_m4 := Or.inr rfl
  have hM : train_4x4_m4.MAX_MOVE = 4 := rfl
  have hC : train_4x4_m4.CELLS = 16 := rfl
  have hne : sx ≠ [] := by
    intro h
    rw [h] at hx0
    rcases hx0 with ⟨h1, _⟩ | ⟨h1, _⟩ <;> simp at h1
  obtain ⟨ini, l, rfl⟩ : ∃ ini l, sx = ini ++ [l] :=
    ⟨sx.dropLast, sx.getLast hne, (List.dropLast_append_getLast hne).symm⟩
  have htake : (ini ++ [l]).take ((ini ++ [l]).length - 1) = ini := by simp
  rw [htake] at hx0
  obtain ⟨hxn, hyn, hdis, hxl, hyl, hxr, hyr⟩ := hls
  rw [hM] at hxl hyl
  rw [hC] at hxr hyr
  have hin : ini.Nodup := (List.nodup_append.mp hxn).1
  have hlini : l ∉ ini := fun h => (List.nodup_append.mp hxn).2.2 h (List.mem_singleton_self l)
  have hl16 : l < 16 := hxr l (List.mem_append_right _ (List.mem_singleton_self l))
  have hlsy : l ∉ sy := hdis l (List.mem_append_right _ (List.mem_singleton_self l))
  have hlen1 : (ini ++ [l]).length = ini.length + 1 := by simp
  have hl0 : LegalPair train_4x4_m4 x0 sy ∧ l ∉ x0 ∧
      (x0 = ini ∨ ((ini ++ [l]).length = 4 ∧ ∃ f, x0 = f :: ini)) := by
    rcases hx0 with ⟨h1, rfl⟩ | ⟨h4, f, hf, hfx, hfy, rfl⟩
    · refine ⟨⟨hin, hyn, ?_, ?_, ?_, ?_, ?_⟩, hlini, Or.inl rfl⟩
      · intro p hp; exact hdis p (List.mem_append_left _ hp)
      · rw [hM]; omega
      · rw [hM]; exact hyl
      · intro p hp; exact hxr p (List.mem_append_left _ hp)
      · exact hyr
    · refine ⟨⟨?_, hyn, ?_, ?_, ?_, ?_, ?_⟩, ?_, Or.inr ⟨h4, f, rfl⟩⟩
      · rw [List.nodup_cons]
        exact ⟨fun h => hfx (List.mem_append_left _ h), hin⟩
      · intro p hp
        rcases List.mem_cons.mp hp with rfl | hp
        · exact hfy
        · exact hdis p (List.mem_append_left _ hp)
      · rw [hM, List.length_cons]; omega
      · rw [hM]; exact hyl
      · intro p hp
        rcases List.mem_cons.mp hp with rfl | hp
        · exact hf
        · exact hxr p (List.mem_append_left _ hp)
      · exact hyr
      · intro h
        rcases List.mem_cons.mp h with rfl | h
        · exact hfx (List.mem_append_right _ (List.mem_singleton_self _))
        · exact hlini h
  obtain ⟨hl0, hlx0, hshape⟩ := hl0
  obtain ⟨t, ht, rfl, rfl⟩ := canon_decode train_4x4_m4 hb x0 sy hl0 px py hdx hdy
  have hplace := place_undo ini l x0 t (by rw [hlen1]; rw [hlen1] at hxl; exact hxl) hshape
  refine ⟨transform train_4x4_m4 t l, transform_range train_4x4_m4 hb t ht l hl16, ?_, ?_, ?_, ?_⟩
  · exact apply_transform_not_mem train_4x4_m4 hb x0 hl0.2.2.2.2.2.1 l hl16 t ht hlx0
  · exact apply_transform_not_mem train_4x4_m4 hb sy hyr l hl16 t ht hlsy
  · rw [hplace, apply_transform_length, apply_transform_length]
    rcases hlens with h | h <;> omega
  · rw [hplace]
    exact canonicalize_code_transform train_4x4_m4 hb (ini ++ [l]) sy hxr hyr t ht

/-- From a synthesized Y-predecessor to the Y-successor: when the state
`(sx, sy)` is legal, `(sx, y0)` is one of the predecessors that
`get_y_preds` builds for it and the canonical representative `(px, py)` of
the predecessor has `lx = ly` or `lx = ly + 1`, the representative has a
free cell on which Y's move leads to the canonical code of `(sx, sy)`, and
`get_y_succs` keeps that move. -/
theorem y_pred_to_succ (sx sy : List Nat) (hls : LegalPair train_4x4_m4 sx sy)
    (hlens : sx.length = sy.length ∨ sx.length = sy.length + 1) (y0 : List Nat)
    (hy0 : (sy.length ≠ 0 ∧ y0 = sy.take (sy.length - 1)) ∨
      (sy.length = 4 ∧ ∃ f < 16, f ∉ sx ∧ f ∉ sy ∧ y0 = f :: sy.take (sy.length - 1)))
    (px py : List Nat)
    (hdx : decode_list train_4x4_m4
      ((canonicalize train_4x4_m4 sx y0).code / train_4x4_m4.SEPARATOR) = some px)
    (hdy : decode_list train_4x4_m4
      ((canonicalize train_4x4_m4 sx y0).code % train_4x4_m4.SEPARATOR) = some py)
    (hlenp : px.length = py.length ∨ px.length = py.length + 1) :
    ∃ pos < 16, pos ∉ px ∧ pos ∉ py ∧ ¬ (px.length < (place train_4x4_m4 py pos).length) ∧
      (canonicalize train_4x4_m4 px (place train_4x4_m4 py pos)).code =
        (canonicalize train_4x4_m4 sx sy).code := by
  have hb : train_4x4_m4 = train_3x3 ∨ train_4x4_m4 = train_4x4_m4 := Or.inr rfl
  have hM : train_4x4_m4.MAX_MOVE = 4 := rfl
  have hC : train_4x4_m4.CELLS = 16 := rfl
  have hne : sy ≠ [] := by
    intro h
    rw [h] at hy0
    rcases hy0 with ⟨h1, _⟩ | ⟨h1, _⟩ <;> simp at h1
  obtain ⟨ini, l, rfl⟩ : ∃ ini l, sy = ini ++ [l] :=
    ⟨sy.dropLast, sy.getLast hne, (List.dropLast_append_getLast hne).symm⟩
  have htake : (ini ++ [l]).take ((ini ++ [l]).length - 1) = ini := by simp
  rw [htake] at hy0
  obtain ⟨hxn, hyn, hdis, hxl, hyl, hxr, hyr⟩ := hls
  rw [hM] at hxl hyl
  rw [hC] at hxr hyr
  have hin : ini.Nodup := (List.nodup_append.mp hyn).1
  have hlini : l ∉ ini := fun h => (List.nodup_append.mp hyn).2.2 h (List.mem_singleton_self l)
  have hl16 : l < 16 := hyr l (List.mem_append_right _ (List.mem_singleton_self l))
  have hlsx : l ∉ sx := fun h => hdis l h (List.mem_append_right _ (List.mem_singleton_self l))
  have hlen1 : (ini ++ [l]).length = ini.length + 1 := by simp
  have hl0 : LegalPair train_4x4_m4 sx y0 ∧ l ∉ y0 ∧
      (y0 = ini ∨ ((ini ++ [l]).length = 4 ∧ ∃ f, y0 = f :: ini)) := by
    rcases hy0 with ⟨h1, rfl⟩ | ⟨h4, f, hf, hfx, hfy, rfl⟩
    · refine ⟨⟨hxn, hin, ?_, ?_, ?_, ?_, ?_⟩, hlini, Or.inl rfl⟩
      · intro p hp hq; exact hdis p hp (List.mem_append_left _ hq)
      · rw [hM]; exact hxl
      · rw [hM]; omega
      · exact hxr
      · intro p hp; exact hyr p (List.mem_append_left _ hp)
    · refine ⟨⟨hxn, ?_, ?_, ?_, ?_, ?_, ?_⟩, ?_, Or.inr ⟨h4, f, rfl⟩⟩
      · rw [List.nodup_cons]
        exact ⟨fun h => hfy (List.mem_append_left _ h), hin⟩
      · intro p hp hq
        rcases List.mem_cons.mp hq with rfl | hq
        · exact hfx hp
        · exact hdis p hp (List.mem_append_left _ hq)
      · rw [hM]; exact hxl
      · rw [hM, List.length_cons]; omega
      · exact hxr
      · intro p hp
        rcases List.mem_cons.mp hp with rfl | hp
        · exact hf
        · exact hyr p (List.mem_append_left _ hp)
      · intro h
        rcases List.mem_cons.mp h with rfl | h
        · exact hfy (List.mem_append_right _ (List.mem_singleton_self _))
        · exact hlini h
  obtain ⟨hl0, hly0, hshape⟩ := hl0
  obtain ⟨t, ht, rfl, rfl⟩ := canon_decode train_4x4_m4 hb sx y0 hl0 px py hdx hdy
  have hplace := place_undo ini l y0 t (by rw [hlen1]; rw [hlen1] at hyl; exact hyl) hshape
  rw [apply_transform_length, apply_transform_length] at hlenp
  refine ⟨transform train_4x4_m4 t l, transform_range train_4x4_m4 hb t ht l hl16, ?_, ?_, ?_, ?_⟩
  · exact apply_transform_not_mem train_4x4_m4 hb sx hxr l hl16 t ht hlsx
  · exact apply_transform_not_mem train_4x4_m4 hb y0 hl0.2.2.2.2.2.2 l hl16 t ht hly0
  · rw [hplace, apply_transform_length, apply_transform_length]
    rcases hshape with rfl | ⟨h4, f, rfl⟩
    · rw [hlen1]; omega
    · rw [List.length_cons] at hlenp
      rw [hlen1] at h4 ⊢
      omega
  · rw [hplace]
    exact canonicalize_code_transform train_4x4_m4 hb sx (ini ++ [l]) hxr hyr t ht

/-- The pair after a move of one side on a free cell is legal. -/
theorem place_legal (a c : List Nat) (hnd : a.Nodup) (hdis : ∀ p ∈ a, p ∉ c)
    (hal : a.length ≤ 4) (har : ∀ p ∈ a, p < 16) (pos : Nat) (hpos : pos < 16)
    (h1 : pos ∉ a) (h2 : pos ∉ c) :
    (place train_4x4_m4 a pos).Nodup ∧ (place train_4x4_m4 a pos).length ≤ 4 ∧
      (∀ p ∈ place train_4x4_m4 a pos, p < 16) ∧
      (∀ p ∈ place train_4x4_m4 a pos, p ∉ c) := by
  obtain ⟨_, h4, _, h6, h7⟩ := place_spec train_4x4_m4 (by decide) a pos hnd hal h1
  refine ⟨h6, ?_, ?_, ?_⟩
  · rw [h4]; exact Nat.min_le_right _ _
  · intro p hp
    rcases h7 p hp with rfl | h
    · exact hpos
    · exact har p h
  · intro p hp
    rcases h7 p hp with rfl | h
    · exact h2
    · exact hdis p h

/-- From an X-successor to the synthesized X-predecessor: when `(px, py)` is
a legal state with `lx = ly` or `lx = ly + 1` and X's move on the free cell
`pos` passes the filter of `get_x_succs`, the canonical representative
`(sx, sy)` of the successor has `(px, py)` among the predecessors that
`get_x_preds` builds. -/
theorem x_succ_to_pred (px py : List Nat) (hlp : LegalPair train_4x4_m4 px py)
    (hlenp : px.length = py.length ∨ px.length = py.length + 1) (pos : Nat) (hpos : pos < 16)
    (h1 : pos ∉ px) (h2 : pos ∉ py)
    (hc : ¬ ((py.length : Int) < ((place train_4x4_m4 px pos).length : Int) - 1))
    (sx sy : List Nat)
    (hdx : decode_list train_4x4_m4
      ((canonicalize train_4x4_m4 (place train_4x4_m4 px pos) py).code /
        train_4x4_m4.SEPARATOR) = some sx)
    (hdy : decode_list train_4x4_m4
      ((canonicalize train_4x4_m4 (place train_4x4_m4 px pos) py).code %
        train_4x4_m4.SEPARATOR) = some sy) :
    (sx.length > sy.length ∧
      (canonicalize train_4x4_m4 (sx.take (sx.length - 1)) sy).code =
        (canonicalize train_4x4_m4 px py).code) ∨
    (sx.length = 4 ∧ ∃ f < 16, f ∉ sx ∧ f ∉ sy ∧
      (canonicalize train_4x4_m4 (f :: sx.take (sx.length - 1)) sy).code =
        (canonicalize train_4x4_m4 px py).code) := by
  have hb : train_4x4_m4 = train_3x3 ∨ train_4x4_m4 = train_4x4_m4 := Or.inr rfl
  have hM : train_4x4_m4.MAX_MOVE = 4 := rfl
  have hC : train_4x4_m4.CELLS = 16 := rfl
  obtain ⟨hxn, hyn, hdis, hxl, hyl, hxr, hyr⟩ := hlp
  rw [hM] at hxl hyl
  rw [hC] at hxr hyr
  obtain ⟨g1, g2, g3, g4⟩ := place_legal px py hxn hdis hxl hxr pos hpos h1 h2
  have hln : LegalPair train_4x4_m4 (place train_4x4_m4 px pos) py :=
    ⟨g1, hyn, g4, g2, hyl, g3, hyr⟩
  obtain ⟨t, ht, rfl, rfl⟩ := canon_decode train_4x4_m4 hb _ py hln sx sy hdx hdy
  rcases place_take px pos t hxl with ⟨hlt, htk, hlen⟩ | ⟨h4, h, tl, rfl, hpl, htk, hlen⟩
  · left
    rw [htk]
    refine ⟨?_, canonicalize_code_transform train_4x4_m4 hb px py hxr hyr t ht⟩
    rw [apply_transform_length, apply_transform_length, hlen]
    rw [hlen] at hc
    push_cast at hc
    omega
  · right
    refine ⟨by rw [apply_transform_length]; exact hlen, transform train_4x4_m4 t h,
      transform_range train_4x4_m4 hb t ht h (hxr h (List.mem_cons_self _ _)), ?_, ?_, ?_⟩
    · apply apply_transform_not_mem train_4x4_m4 hb _ g3 h (hxr h (List.mem_cons_self _ _)) t ht
      rw [hpl]
      intro hm
      rcases List.mem_append.mp hm with hm | hm
      · exact (List.nodup_cons.mp hxn).1 hm
      · rw [List.mem_singleton] at hm
        rw [← hm] at h1
        exact h1 (List.mem_cons_self _ _)
    · exact apply_transform_not_mem train_4x4_m4 hb py hyr h (hxr h (List.mem_cons_self _ _)) t ht
        (hdis h (List.mem_cons_self _ _))
    · rw [htk, ← apply_transform_cons]
      exact canonicalize_code_transform train_4x4_m4 hb (h :: tl) py hxr hyr t ht

/-- From a Y-successor to the synthesized Y-predecessor: when `(px, py)` is a
legal state and Y places on the free cell `pos`, the canonical
representative `(sx, sy)` of the successor has `(px, py)` among the
predecessors that `get_y_preds` builds. -/
theorem y_succ_to_pred (px py : List Nat) (hlp : LegalPair train_4x4_m4 px py) (pos : Nat)
    (hpos : pos < 16) (h1 : pos ∉ px) (h2 : pos ∉ py) (sx sy : List Nat)
    (hdx : decode_list train_4x4_m4
      ((canonicalize train_4x4_m4 px (place train_4x4_m4 py pos)).code /
        train_4x4_m4.SEPARATOR) = some sx)
    (hdy : decode_list train_4x4_m4
      ((canonicalize train_4x4_m4 px (place train_4x4_m4 py pos)).code %
        train_4x4_m4.SEPARATOR) = some sy) :
    (sy.length ≠ 0 ∧
      (canonicalize train_4x4_m4 sx (sy.take (sy.length - 1))).code =
        (canonicalize train_4x4_m4 px py).code) ∨
    (sy.length = 4 ∧ ∃ f < 16, f ∉ sx ∧ f ∉ sy ∧
      (canonicalize train_4x4_m4 sx (f :: sy.take (sy.length - 1))).code =
        (canonicalize train_4x4_m4 px py).code) := by
  have hb : train_4x4_m4 = train_3x3 ∨ train_4x4_m4 = train_4x4_m4 := Or.inr rfl
  have hM : train_4x4_m4.MAX_MOVE = 4 := rfl
  have hC : train_4x4_m4.CELLS = 16 := rfl
  obtain ⟨hxn, hyn, hdis, hxl, hyl, hxr, hyr⟩ := hlp
  rw [hM] at hxl hyl
  rw [hC] at hxr hyr
  obtain ⟨g1, g2, g3, g4⟩ := place_legal py px hyn (fun p hp hq => hdis p hq hp) hyl hyr pos
    hpos h2 h1
  have hln : LegalPair train_4x4_m4 px (place train_4x4_m4 py pos) :=
    ⟨hxn, g1, fun p hp hq => g4 p hq hp, hxl, g2, hxr, g3⟩
  obtain ⟨t, ht, rfl, rfl⟩ := canon_decode train_4x4_m4 hb px _ hln sx sy hdx hdy
  rcases place_take py pos t hyl with ⟨hlt, htk, hlen⟩ | ⟨h4, h, tl, rfl, hpl, htk, hlen⟩
  · left
    rw [htk]
    refine ⟨?_, canonicalize_code_transform train_4x4_m4 hb px py hxr hyr t ht⟩
    rw [apply_transform_length, hlen]
    omega
  · right
    refine ⟨by rw [apply_transform_length]; exact hlen, transform train_4x4_m4 t h,
      transform_range train_4x4_m4 hb t ht h (hyr h (List.mem_cons_self _ _)), ?_, ?_, ?_⟩
    · exact apply_transform_not_mem train_4x4_m4 hb px hxr h (hyr h (List.mem_cons_self _ _)) t ht
        (fun hm => hdis h hm (List.mem_cons_self _ _))
    · apply apply_transform_not_mem train_4x4_m4 hb _ g3 h (hyr h (List.mem_cons_self _ _)) t ht
      rw [hpl]
      intro hm
      rcases List.mem_append.mp hm with hm | hm
      · exact (List.nodup_cons.mp hyn).1 hm
      · rw [List.mem_singleton] at hm
        rw [← hm] at h2
        exact h2 (List.mem_cons_self _ _)
    · rw [htk, ← apply_transform_cons]
      exact canonicalize_code_transform train_4x4_m4 hb px (h :: tl) hxr hyr t ht

/-- The synthesis of X-predecessors against the generation of X-successors,
for two stored codes `cp` and `cs` of the 4x4 board and arrays of `cap`
entries in `get_x_preds`: `get_x_succs` stays inside its arrays, whenever
`get_x_preds` stays inside its arrays it lists `cp` for `cs` exactly when
`get_x_succs` lists `cs` for `cp`, and it does stay inside arrays of 10
entries. -/
theorem x_preds_inverse (cap : Nat) (cp cs : Nat) (hp : Stored train_4x4_m4 cp)
    (hs : Stored train_4x4_m4 cs) :
    ∃ ls, TrainYwin.get_x_succs (TrainXwin.decode_state cp).1 (TrainXwin.decode_state cp).2 =
        some ls ∧
      (∀ lp, TrainXwin.get_x_preds_cap cap (TrainXwin.decode_state cs).1
        (TrainXwin.decode_state cs).2 = some lp → (cp ∈ lp ↔ cs ∈ ls)) ∧
      (10 ≤ cap → ∃ lp, TrainXwin.get_x_preds_cap cap (TrainXwin.decode_state cs).1
        (TrainXwin.decode_state cs).2 = some lp) := by
  obtain ⟨px, py, hpdx, hpdy, hlp, hlenp, hpc⟩ := hp
  obtain ⟨sx, sy, hsdx, hsdy, hls, hlens, hsc⟩ := hs
  rw [TrainXwin.decode_state_stored cp px py hpdx hpdy hlp hpc,
    TrainXwin.decode_state_stored cs sx sy hsdx hsdy hls hsc]
  obtain ⟨ls, hls2⟩ := (TrainXwin.get_succs_some (px.map (fun (p : Nat) => (p : Int)))
    (py.map (fun (p : Nat) => (p : Int)))).2
  have hM : train_4x4_m4.MAX_MOVE = 4 := rfl
  have hC : train_4x4_m4.CELLS = 16 := rfl
  refine ⟨ls, hls2, ?_, ?_⟩
  · intro lp hlp2
    rw [TrainXwin.get_x_preds_mem cap sx sy hls.2.2.2.2.2.1 hls.2.2.2.2.2.2 lp hlp2 cp,
      TrainYwin.get_x_succs_mem px py hlp.2.2.2.2.2.1 hlp.2.2.2.2.2.2 hlp.2.2.2.1 ls hls2 cs]
    constructor
    · intro h
      have hx0 : ∃ x0, cp = (canonicalize train_4x4_m4 x0 sy).code ∧
          ((sx.length > sy.length ∧ x0 = sx.take (sx.length - 1)) ∨
            (sx.length = 4 ∧ ∃ f < 16, f ∉ sx ∧ f ∉ sy ∧ x0 = f :: sx.take (sx.length - 1))) := by
        rcases h with ⟨h1, h2⟩ | ⟨h1, f, hf, h2, h3, h4⟩
        · exact ⟨_, h2, Or.inl ⟨h1, rfl⟩⟩
        · exact ⟨_, h4, Or.inr ⟨h1, f, hf, h2, h3, rfl⟩⟩
      obtain ⟨x0, hcp, hx0⟩ := hx0
      rw [hcp] at hpdx hpdy
      obtain ⟨pos, hpos, g1, g2, g3, g4⟩ := x_pred_to_succ sx sy hls hlens x0 hx0 px py hpdx hpdy
      exact ⟨pos, hpos, g1, g2, g3, by rw [g4, hsc]⟩
    · rintro ⟨pos, hpos, g1, g2, g3, g4⟩
      rw [g4] at hsdx hsdy
      rcases x_succ_to_pred px py hlp hlenp pos hpos g1 g2 g3 sx sy hsdx hsdy with
        ⟨h1, h2⟩ | ⟨h1, f, hf, h2, h3, h4⟩
      · exact Or.inl ⟨h1, by rw [h2, hpc]⟩
      · exact Or.inr ⟨h1, f, hf, h2, h3, by rw [h4, hpc]⟩
  · intro hcap
    exact TrainXwin.get_x_preds_some cap sx sy hls hlens (Or.inl hcap)

/-- C26: the synthesis of Y-predecessors is the exact inverse of the
generation of Y-successors. For two stored codes `cp` and `cs` of the 4x4
board (the canonical codes of legal states with `lx = ly` or `lx = ly + 1`),
decoded as `main` decodes them, `get_y_preds` and `get_y_succs` stay inside
their arrays, and `cp` is in the output of `get_y_preds` for `cs` exactly
when `cs` is in the output of `get_y_succs` for `cp`. -/
theorem y_preds_inverse (cp cs : Nat) (hp : Stored train_4x4_m4 cp)
    (hs : Stored train_4x4_m4 cs) :
    ∃ lp ls, TrainXwin.get_y_preds (TrainXwin.decode_state cs).1 (TrainXwin.decode_state cs).2 =
        some lp ∧
      TrainXwin.get_y_succs (TrainXwin.decode_state cp).1 (TrainXwin.decode_state cp).2 =
        some ls ∧
      (cp ∈ lp ↔ cs ∈ ls) := by
  obtain ⟨px, py, hpdx, hpdy, hlp, hlenp, hpc⟩ := hp
  obtain ⟨sx, sy, hsdx, hsdy, hls, hlens, hsc⟩ := hs
  rw [TrainXwin.decode_state_stored cp px py hpdx hpdy hlp hpc,
    TrainXwin.decode_state_stored cs sx sy hsdx hsdy hls hsc]
  obtain ⟨ls, hls2⟩ := (TrainXwin.get_succs_some (px.map (fun (p : Nat) => (p : Int)))
    (py.map (fun (p : Nat) => (p : Int)))).1
  obtain ⟨lp, hlp2⟩ := TrainXwin.get_y_preds_some sx sy hls hlens
  refine ⟨lp, ls, hlp2, hls2, ?_⟩
  rw [TrainXwin.get_y_preds_mem 9 sx sy hls.2.2.2.2.2.1 hls.2.2.2.2.2.2 lp hlp2 cp,
    TrainXwin.get_y_succs_mem px py hlp.2.2.2.2.2.1 hlp.2.2.2.2.2.2 hlp.2.2.2.2.1 ls hls2 cs]
  constructor
  · intro h
    have hy0 : ∃ y0, cp = (canonicalize train_4x4_m4 sx y0).code ∧
        ((sy.length ≠ 0 ∧ y0 = sy.take (sy.length - 1)) ∨
          (sy.length = 4 ∧ ∃ f < 16, f ∉ sx ∧ f ∉ sy ∧ y0 = f :: sy.take (sy.length - 1))) := by
      rcases h with ⟨h1, h2⟩ | ⟨h1, f, hf, h2, h3, h4⟩
      · exact ⟨_, h2, Or.inl ⟨h1, rfl⟩⟩
      · exact ⟨_, h4, Or.inr ⟨h1, f, hf, h2, h3, rfl⟩⟩
    obtain ⟨y0, hcp, hy0⟩ := hy0
    rw [hcp] at hpdx hpdy
    obtain ⟨pos, hpos, g1, g2, g3, g4⟩ :=
      y_pred_to_succ sx sy hls hlens y0 hy0 px py hpdx hpdy hlenp
    exact ⟨pos, hpos, g1, g2, g3, by rw [g4, hsc]⟩
  · rintro ⟨pos, hpos, g1, g2, _, g4⟩
    rw [g4] at hsdx hsdy
    rcases y_succ_to_pred px py hlp pos hpos g1 g2 sx sy hsdx hsdy with
      ⟨h1, h2⟩ | ⟨h1, f, hf, h2, h3, h4⟩
    · exact Or.inl ⟨h1, by rw [h2, hpc]⟩
    · exact Or.inr ⟨h1, f, hf, h2, h3, by rw [h4, hpc]⟩

set_option maxRecDepth 1000000 in
theorem y_preds_inverse_witness :
    Stored train_4x4_m4 83521 ∧ Stored train_4x4_m4 83523 ∧
      ∃ lp ls, TrainXwin.get_y_preds (TrainXwin.decode_state 83523).1
          (TrainXwin.decode_state 83523).2 = some lp ∧
        TrainXwin.get_y_succs (TrainXwin.decode_state 83521).1
          (TrainXwin.decode_state 83521).2 = some ls ∧
        ((83521 : Nat) ∈ lp ↔ (83523 : Nat) ∈ ls) :=
  ⟨stored_of_ok train_4x4_m4 83521 (by decide), stored_of_ok train_4x4_m4 83523 (by decide),
    y_preds_inverse 83521 83523 (stored_of_ok train_4x4_m4 83521 (by decide))
      (stored_of_ok train_4x4_m4 83523 (by decide))⟩

set_option maxRecDepth 1000000 in
/-- C25 (the code at the failing input, and the rule where the arrays
suffice): for all stored codes `cp` and `cs` of the 4x4 board `get_x_succs`
stays inside its arrays, `cp` is in the output of `get_x_preds` for `cs`
exactly when `cs` is in the output of `get_x_succs` for `cp` whenever
`get_x_preds` stays inside its arrays of 9 entries, and with arrays of 10
entries it always does and the equivalence holds throughout. For the stored
terminal code 463209327 (`lx = 4`, `ly = 3`) the tenth predecessor
900107678 is written past the arrays of `get_x_preds`, although
`get_x_succs` lists 463209327 for 900107678. -/
theorem x_preds_inverse_overflow :
    (∀ cp cs, Stored train_4x4_m4 cp → Stored train_4x4_m4 cs →
      ∃ ls, TrainYwin.get_x_succs (TrainXwin.decode_state cp).1
          (TrainXwin.decode_state cp).2 = some ls ∧
        (∀ lp, TrainXwin.get_x_preds (TrainXwin.decode_state cs).1
          (TrainXwin.decode_state cs).2 = some lp → (cp ∈ lp ↔ cs ∈ ls)) ∧
        ∃ lp, TrainXwin.get_x_preds_cap 10 (TrainXwin.decode_state cs).1
          (TrainXwin.decode_state cs).2 = some lp ∧ (cp ∈ lp ↔ cs ∈ ls)) ∧
      Stored train_4x4_m4 463209327 ∧ Stored train_4x4_m4 900107678 ∧
      TrainXwin.get_x_preds (TrainXwin.decode_state 463209327).1
        (TrainXwin.decode_state 463209327).2 = none ∧
      ∃ ls, TrainYwin.get_x_succs (TrainXwin.decode_state 900107678).1
          (TrainXwin.decode_state 900107678).2 = some ls ∧ (463209327 : Nat) ∈ ls := by
  have hgen : ∀ cp cs, Stored train_4x4_m4 cp → Stored train_4x4_m4 cs →
      ∃ ls, TrainYwin.get_x_succs (TrainXwin.decode_state cp).1
          (TrainXwin.decode_state cp).2 = some ls ∧
        (∀ lp, TrainXwin.get_x_preds (TrainXwin.decode_state cs).1
          (TrainXwin.decode_state cs).2 = some lp → (cp ∈ lp ↔ cs ∈ ls)) ∧
        ∃ lp, TrainXwin.get_x_preds_cap 10 (TrainXwin.decode_state cs).1
          (TrainXwin.decode_state cs).2 = some lp ∧ (cp ∈ lp ↔ cs ∈ ls) := by
    intro cp cs hp hs
    obtain ⟨ls, h1, h2, _⟩ := x_preds_inverse 9 cp cs hp hs
    obtain ⟨ls2, h4, h5, h6⟩ := x_preds_inverse 10 cp cs hp hs
    obtain ⟨lp, h7⟩ := h6 (Nat.le_refl 10)
    have e : ls2 = ls := Option.some.inj (h4.symm.trans h1)
    subst e
    exact ⟨ls2, h1, h2, lp, h7, h5 lp h7⟩
  have hs1 : Stored train_4x4_m4 463209327 := stored_463209327
  have hs2 : Stored train_4x4_m4 900107678 := stored_of_ok train_4x4_m4 900107678 (by decide)
  refine ⟨hgen, hs1, hs2, by decide!, ?_⟩
  obtain ⟨ls, h1, _, lp, h3, h4⟩ := hgen 900107678 463209327 hs2 hs1
  refine ⟨ls, h1, h4.mp ?_⟩
  have hval : TrainXwin.get_x_preds_cap 10 (TrainXwin.decode_state 463209327).1
      (TrainXwin.decode_state 463209327).2 =
      some [52870654, 899188947, 899523031, 899606552, 899690073, 899773594, 899857115,
        899940636, 900024157, 900107678] := by decide!
  rw [hval] at h3
  rw [← Option.some.inj h3]
  decide


/-! ## The events of the propagation loops -/

theorem writes_append (a c : List Event) : writes (a ++ c) = writes a ++ writes c := by
  unfold writes; rw [List.filterMap_append]

theorem pushes_append (a c : List Event) : pushes (a ++ c) = pushes a ++ pushes c := by
  unfold pushes; rw [List.filterMap_append]

theorem pops_append (a c : List Event) : pops (a ++ c) = pops a ++ pops c := by
  unfold pops; rw [List.filterMap_append]

theorem decs_append (a c : List Event) (z p : Nat) :
    decs (a ++ c) z p = decs a z p + decs c z p := by
  unfold decs; rw [List.countP_append]

theorem inner_trace_nil (lbl : Int) (i y : Nat) (ss : SolveState) :
    inner_trace lbl i y [] ss = [] := rfl

theorem inner_trace_cons (lbl : Int) (i y z : Nat) (rest : List Nat) (ss : SolveState) :
    inner_trace lbl i y (z :: rest) ss =
      (Event.dec z (1 - i) (ss.need z (1 - i) - 1) ::
        (if ss.need z (1 - i) - 1 = 0 then
          [Event.push z,
            Event.write z (1 - i) lbl (((ss.g_states y).depth i + 1) % 65536) y i]
        else [])) ++
      inner_trace lbl i y rest (pass_inner lbl i y ss z) := rfl

theorem mid_trace_nil (lbl : Int) (i : Nat) (ero : Nat → List Nat) (x : Nat)
    (ss : SolveState) : mid_trace lbl i ero x [] ss = [] := rfl

theorem mid_trace_cons (lbl : Int) (i : Nat) (ero : Nat → List Nat) (x y : Nat)
    (rest : List Nat) (ss : SolveState) :
    mid_trace lbl i ero x (y :: rest) ss =
      (if (ss.g_states y).dp i = lbl then []
      else
        Event.write y i lbl (((ss.g_states x).depth (1 - i) + 1) % 65536) x (1 - i) ::
          inner_trace lbl i y (ero y)
            (SolveState.mk
              (upd ss.g_states y
                ((ss.g_states y).label i lbl (((ss.g_states x).depth (1 - i) + 1) % 65536)))
              ss.need ss.q)) ++
      mid_trace lbl i ero x rest (pass_mid lbl i ero x ss y) := rfl

theorem loop_trace_zero (lbl : Int) (i : Nat) (er ero : Nat → List Nat) (ss : SolveState) :
    loop_trace lbl i er ero 0 ss = [] := rfl

theorem loop_trace_empty (lbl : Int) (i : Nat) (er ero : Nat → List Nat) (fuel : Nat)
    (ss : SolveState) (h : ss.q = []) : loop_trace lbl i er ero fuel ss = [] := by
  cases fuel with
  | zero => rfl
  | succ n => unfold loop_trace; rw [h]

theorem loop_trace_step (lbl : Int) (i : Nat) (er ero : Nat → List Nat) (fuel : Nat)
    (ss : SolveState) (x : Nat) (rest : List Nat) (h : ss.q = x :: rest) :
    loop_trace lbl i er ero (fuel + 1) ss =
      Event.pop x ::
        (mid_trace lbl i ero x (er x) (SolveState.mk ss.g_states ss.need rest) ++
          loop_trace lbl i er ero fuel
            ((er x).foldl (pass_mid lbl i ero x) (SolveState.mk ss.g_states ss.need rest))) := by
  rw [loop_trace]; rw [h]

theorem pass_loop_step (lbl : Int) (i : Nat) (er ero : Nat → List Nat) (fuel : Nat)
    (ss : SolveState) (x : Nat) (rest : List Nat) (h : ss.q = x :: rest) :
    pass_loop lbl i er ero (fuel + 1) ss =
      pass_loop lbl i er ero fuel
        ((er x).foldl (pass_mid lbl i ero x) (SolveState.mk ss.g_states ss.need rest)) := by
  rw [pass_loop]; rw [h]

theorem pass_loop_empty (lbl : Int) (i : Nat) (er ero : Nat → List Nat) (fuel : Nat)
    (ss : SolveState) (h : ss.q = []) : pass_loop lbl i er ero fuel ss = ss := by
  cases fuel with
  | zero => rfl
  | succ n => rw [pass_loop]; rw [h]

theorem pass_mid_skip (lbl : Int) (i : Nat) (ero : Nat → List Nat) (x y : Nat)
    (ss : SolveState) (h : (ss.g_states y).dp i = lbl) : pass_mid lbl i ero x ss y = ss := by
  unfold pass_mid; rw [if_pos h]

theorem pass_mid_label (lbl : Int) (i : Nat) (ero : Nat → List Nat) (x y : Nat)
    (ss : SolveState) (h : (ss.g_states y).dp i ≠ lbl) :
    pass_mid lbl i ero x ss y =
      (ero y).foldl (pass_inner lbl i y)
        (SolveState.mk
          (upd ss.g_states y
            ((ss.g_states y).label i lbl (((ss.g_states x).depth (1 - i) + 1) % 65536)))
          ss.need ss.q) := by
  unfold pass_mid; rw [if_neg h]

/-- The queue after the innermost loop is the queue before it followed by
the states it pushed; it pops nothing. -/
theorem inner_trace_queue (lbl : Int) (i y : Nat) (zs : List Nat) (ss : SolveState) :
    (zs.foldl (pass_inner lbl i y) ss).q = ss.q ++ pushes (inner_trace lbl i y zs ss) ∧
      pops (inner_trace lbl i y zs ss) = [] := by
  induction zs generalizing ss with
  | nil => simp [inner_trace_nil, pushes, pops]
  | cons z rest ih =>
    rw [List.foldl_cons, inner_trace_cons, pushes_append, pops_append, (ih _).1, (ih _).2,
      pass_inner_q]
    by_cases h : ss.need z (1 - i) - 1 = 0
    · rw [if_pos h, if_pos h]
      simp [pushes, pops, Event.pushed, Event.popped]
    · rw [if_neg h, if_neg h]
      simp [pushes, pops, Event.pushed, Event.popped]

/-- The queue after the middle loop is the queue before it followed by the
states it pushed; it pops nothing. -/
theorem mid_trace_queue (lbl : Int) (i : Nat) (ero : Nat → List Nat) (x : Nat)
    (ys : List Nat) (ss : SolveState) :
    (ys.foldl (pass_mid lbl i ero x) ss).q = ss.q ++ pushes (mid_trace lbl i ero x ys ss) ∧
      pops (mid_trace lbl i ero x ys ss) = [] := by
  induction ys generalizing ss with
  | nil => simp [mid_trace_nil, pushes, pops]
  | cons y rest ih =>
    rw [List.foldl_cons, mid_trace_cons, pushes_append, pops_append, (ih _).1, (ih _).2]
    by_cases h : (ss.g_states y).dp i = lbl
    · rw [if_pos h, pass_mid_skip lbl i ero x y ss h]
      simp [pushes, pops]
    · rw [if_neg h, pass_mid_label lbl i ero x y ss h]
      have hq := inner_trace_queue lbl i y (ero y)
        (SolveState.mk
          (upd ss.g_states y
            ((ss.g_states y).label i lbl (((ss.g_states x).depth (1 - i) + 1) % 65536)))
          ss.need ss.q)
      rw [hq.1]
      have e1 : pushes (Event.write y i lbl (((ss.g_states x).depth (1 - i) + 1) % 65536) x
          (1 - i) :: inner_trace lbl i y (ero y)
            (SolveState.mk
              (upd ss.g_states y
                ((ss.g_states y).label i lbl (((ss.g_states x).depth (1 - i) + 1) % 65536)))
              ss.need ss.q)) =
          pushes (inner_trace lbl i y (ero y)
            (SolveState.mk
              (upd ss.g_states y
                ((ss.g_states y).label i lbl (((ss.g_states x).depth (1 - i) + 1) % 65536)))
              ss.need ss.q)) := by
        simp [pushes, Event.pushed]
      have e2 : pops (Event.write y i lbl (((ss.g_states x).depth (1 - i) + 1) % 65536) x
          (1 - i) :: inner_trace lbl i y (ero y)
            (SolveState.mk
              (upd ss.g_states y
                ((ss.g_states y).label i lbl (((ss.g_states x).depth (1 - i) + 1) % 65536)))
              ss.need ss.q)) = [] := by
        have := hq.2
        simp only [pops] at this ⊢
        rw [List.filterMap_cons]
        simpa [Event.popped] using this
      rw [e1, e2]
      simp

/-- First in, first out: the queue at the start of a loop followed by the
states the loop pushes is the list of the states it pops followed by the
queue at its end. -/
theorem loop_trace_queue (lbl : Int) (i : Nat) (er ero : Nat → List Nat) (fuel : Nat)
    (ss : SolveState) :
    ss.q ++ pushes (loop_trace lbl i er ero fuel ss) =
      pops (loop_trace lbl i er ero fuel ss) ++ (pass_loop lbl i er ero fuel ss).q := by
  induction fuel generalizing ss with
  | zero => simp [loop_trace_zero, pushes, pops, pass_loop]
  | succ n ih =>
    cases hq : ss.q with
    | nil =>
      rw [loop_trace_empty lbl i er ero _ ss hq, pass_loop_empty lbl i er ero _ ss hq, hq]
      simp [pushes, pops]
    | cons x rest =>
      rw [loop_trace_step lbl i er ero n ss x rest hq, pass_loop_step lbl i er ero n ss x rest hq]
      have hm := mid_trace_queue lbl i ero x (er x) (SolveState.mk ss.g_states ss.need rest)
      have e1 : pushes (Event.pop x ::
          (mid_trace lbl i ero x (er x) (SolveState.mk ss.g_states ss.need rest) ++
            loop_trace lbl i er ero n
              ((er x).foldl (pass_mid lbl i ero x) (SolveState.mk ss.g_states ss.need rest)))) =
          pushes (mid_trace lbl i ero x (er x) (SolveState.mk ss.g_states ss.need rest)) ++
            pushes (loop_trace lbl i er ero n
              ((er x).foldl (pass_mid lbl i ero x) (SolveState.mk ss.g_states ss.need rest))) := by
        rw [← pushes_append]; simp [pushes, Event.pushed]
      have e2 : pops (Event.pop x ::
          (mid_trace lbl i ero x (er x) (SolveState.mk ss.g_states ss.need rest) ++
            loop_trace lbl i er ero n
              ((er x).foldl (pass_mid lbl i ero x) (SolveState.mk ss.g_states ss.need rest)))) =
          x :: pops (loop_trace lbl i er ero n
              ((er x).foldl (pass_mid lbl i ero x) (SolveState.mk ss.g_states ss.need rest))) := by
        have : pops (mid_trace lbl i ero x (er x) (SolveState.mk ss.g_states ss.need rest) ++
            loop_trace lbl i er ero n
              ((er x).foldl (pass_mid lbl i ero x) (SolveState.mk ss.g_states ss.need rest))) =
            pops (loop_trace lbl i er ero n
              ((er x).foldl (pass_mid lbl i ero x) (SolveState.mk ss.g_states ss.need rest))) := by
          rw [pops_append, hm.2, List.nil_append]
        rw [← this]
        simp [pops, Event.popped]
      rw [e1, e2]
      have := ih ((er x).foldl (pass_mid lbl i ero x) (SolveState.mk ss.g_states ss.need rest))
      rw [hm.1] at this
      simp only [List.cons_append, List.append_assoc] at this ⊢
      rw [this]

/-! ### Every label is written once -/

theorem mem_writes (tr : List Event) (s k : Nat) :
    (s, k) ∈ writes tr ↔ ∃ l d p pk, Event.write s k l d p pk ∈ tr := by
  unfold writes
  rw [List.mem_filterMap]
  constructor
  · rintro ⟨ev, hev, h⟩
    cases ev with
    | write s1 k1 l d p pk =>
      simp only [Event.written, Option.some.injEq, Prod.mk.injEq] at h
      obtain ⟨rfl, rfl⟩ := h
      exact ⟨l, d, p, pk, hev⟩
    | pop x => simp [Event.written] at h
    | dec z p v => simp [Event.written] at h
    | push z => simp [Event.written] at h
  · rintro ⟨l, d, p, pk, h⟩
    exact ⟨_, h, rfl⟩

theorem Persist.refl (lbl : Int) (g : Nat → StateInfo) : Persist lbl g g :=
  fun _ _ h => ⟨h, rfl⟩

theorem Persist.trans {lbl : Int} {g g1 g2 : Nat → StateInfo} (h1 : Persist lbl g g1)
    (h2 : Persist lbl g1 g2) : Persist lbl g g2 := by
  intro s k h
  obtain ⟨a, c⟩ := h1 s k h
  obtain ⟨a2, c2⟩ := h2 s k a
  exact ⟨a2, c2.trans c⟩

/-- Events without a write leave the labels as they are. -/
theorem SegOK.of_no_write (e : PassEnv) (g : Nat → StateInfo) (tr : List Event)
    (h : writes tr = []) : SegOK e g g tr := by
  refine ⟨?_, by rw [h]; exact List.nodup_nil, ?_, Persist.refl _ _⟩
  · intro s k l d p pk hm
    have : (s, k) ∈ writes tr := (mem_writes tr s k).mpr ⟨l, d, p, pk, hm⟩
    rw [h] at this
    exact absurd this (List.not_mem_nil _)
  · intro s
    exact ⟨fun h1 h2 => absurd h2 h1, fun h1 h2 => absurd h2 h1⟩

/-- Two runs of events one after the other. -/
theorem SegOK.append {e : PassEnv} {g g1 g2 : Nat → StateInfo} {a c : List Event}
    (h1 : SegOK e g g1 a) (h2 : SegOK e g1 g2 c) : SegOK e g g2 (a ++ c) := by
  refine ⟨?_, ?_, ?_, h1.persist.trans h2.persist⟩
  · intro s k l d p pk hm
    rcases List.mem_append.mp hm with hm | hm
    · obtain ⟨a1, a2, a3, a4, a5, a6, a7⟩ := h1.written s k l d p pk hm
      obtain ⟨c1, c2⟩ := h2.persist s k a3
      obtain ⟨c3, c4⟩ := h2.persist p pk a5
      exact ⟨a1, a2, c1, c2.trans a4, c3, by rw [c4]; exact a6, a7⟩
    · obtain ⟨a1, a2, a3, a4, a5, a6, a7⟩ := h2.written s k l d p pk hm
      refine ⟨a1, ?_, a3, a4, a5, a6, a7⟩
      intro hh
      exact a2 (h1.persist s k hh).1
  · rw [writes_append, List.nodup_append]
    refine ⟨h1.nodup, h2.nodup, ?_⟩
    rintro ⟨s, k⟩ hm1 hm2
    obtain ⟨l, d, p, pk, hw1⟩ := (mem_writes a s k).mp hm1
    obtain ⟨l2, d2, p2, pk2, hw2⟩ := (mem_writes c s k).mp hm2
    exact (h2.written s k l2 d2 p2 pk2 hw2).2.1 (h1.written s k l d p pk hw1).2.2.1
  · intro s
    constructor
    · intro hn hl
      rw [writes_append]
      by_cases hm : (g1 s).dp e.i = e.lbl
      · exact List.mem_append_left _ ((h1.complete s).1 hn hm)
      · exact List.mem_append_right _ ((h2.complete s).1 hm hl)
    · intro hn hl
      rw [writes_append]
      by_cases hm : (g1 s).dp (1 - e.i) = e.lbl
      · exact List.mem_append_left _ ((h1.complete s).2 hn hm)
      · exact List.mem_append_right _ ((h2.complete s).2 hm hl)

/-- Two indices that select the same component. -/
theorem dp_same_field (info : StateInfo) (k k2 : Nat) (h : k = 0 ↔ k2 = 0) :
    info.dp k = info.dp k2 ∧ info.depth k = info.depth k2 := by
  unfold StateInfo.dp StateInfo.depth
  by_cases hk : k = 0
  · rw [if_pos hk, if_pos (h.mp hk), if_pos hk, if_pos (h.mp hk)]; exact ⟨rfl, rfl⟩
  · rw [if_neg hk, if_neg (fun hh => hk (h.mpr hh)), if_neg hk, if_neg (fun hh => hk (h.mpr hh))]
    exact ⟨rfl, rfl⟩

/-- Writing the label on a pair that did not carry it: one write event. -/
theorem SegOK.label (e : PassEnv) (g : Nat → StateInfo) (s k : Nat) (d p pk : Nat)
    (hn : (g s).dp k ≠ e.lbl) (hp : (g p).dp pk = e.lbl)
    (hd : d = ((g p).depth pk + 1) % 65536) (hk : k = 0 ↔ pk ≠ 0)
    (hedge : (k = e.i ∧ pk = 1 - e.i ∧ p ∈ e.Ei s) ∨ (k = 1 - e.i ∧ pk = e.i ∧ p ∈ e.Ej s)) :
    SegOK e g (upd g s ((g s).label k e.lbl d)) [Event.write s k e.lbl d p pk] := by
  have hother := labelled_other g s k pk e.lbl d hk
  have hsame : ((upd g s ((g s).label k e.lbl d)) s).dp k = e.lbl ∧
      ((upd g s ((g s).label k e.lbl d)) s).depth k = d := by
    rw [upd_same]; exact ⟨StateInfo.label_dp _ _ _ _, StateInfo.label_depth _ _ _ _⟩
  have hpers : Persist e.lbl g (upd g s ((g s).label k e.lbl d)) := by
    intro t k2 h
    by_cases hts : t = s
    · subst hts
      by_cases hf : k2 = 0 ↔ k = 0
      · exact absurd ((dp_same_field _ k2 k hf).1 ▸ h) hn
      · have hk2 : k = 0 ↔ k2 ≠ 0 := by
          constructor
          · intro h0 h2; exact hf ⟨fun _ => h0, fun _ => h2⟩
          · intro h2; by_contra h0; exact hf ⟨fun hh => absurd hh h2, fun hh => absurd hh h0⟩
        have := labelled_other g t k k2 e.lbl d hk2 t
        exact ⟨this.1.trans h, this.2⟩
    · rw [upd_other _ _ _ _ hts]; exact ⟨h, rfl⟩
  refine ⟨?_, ?_, ?_, hpers⟩
  · intro s1 k1 l1 d1 p1 pk1 hm
    rw [List.mem_singleton] at hm
    injection hm with e1 e2 e3 e4 e5 e6
    subst e1 e2 e3 e4 e5 e6
    refine ⟨rfl, hn, hsame.1, hsame.2, ?_, ?_, hedge⟩
    · rw [(hother p1).1]; exact hp
    · rw [(hother p1).2]; exact hd
  · simp [writes, Event.written]
  · intro t
    have hw : writes [Event.write s k e.lbl d p pk] = [(s, k)] := by
      simp [writes, Event.written]
    rw [hw]
    constructor
    · intro h1 h2
      by_cases hts : t = s
      · subst hts
        rcases hedge with ⟨hki, _, _⟩ | ⟨hki, hpk, _⟩
        · rw [hki]; exact List.mem_singleton_self _
        · exfalso
          rw [← hpk, (hother t).1] at h2
          rw [← hpk] at h1
          exact h1 h2
      · rw [upd_other _ _ _ _ hts] at h2; exact absurd h2 h1
    · intro h1 h2
      by_cases hts : t = s
      · subst hts
        rcases hedge with ⟨hki, hpk, _⟩ | ⟨hki, _, _⟩
        · exfalso
          rw [← hpk, (hother t).1] at h2
          rw [← hpk] at h1
          exact h1 h2
        · rw [hki]; exact List.mem_singleton_self _
      · rw [upd_other _ _ _ _ hts] at h2; exact absurd h2 h1

/-- Popping the front keeps the invariant. -/
theorem PassInv.pop {e : PassEnv} {ss : SolveState} (h : PassInv e [] ss) (x : Nat)
    (rest : List Nat) (hq : ss.q = x :: rest) :
    PassInv e [] (SolveState.mk ss.g_states ss.need rest) ∧
      (ss.g_states x).dp (1 - e.i) = e.lbl :=
  ⟨{ queue := fun q hq2 => h.queue q (by rw [hq]; exact List.mem_cons_of_mem _ hq2)
     frame_i := h.frame_i
     frame_j := h.frame_j
     keep_i := h.keep_i
     keep_j := h.keep_j
     sound_i := h.sound_i
     sound_j := h.sound_j
     count := h.count
     need_out := h.need_out
     need_other := h.need_other
     safe_i := h.safe_i
     safe_j := h.safe_j
     rem_unl := h.rem_unl },
   h.queue x (by rw [hq]; exact List.mem_cons_self _ _)⟩

theorem pass_inner_states (lbl : Int) (i y z : Nat) (ss : SolveState) :
    (pass_inner lbl i y ss z).g_states =
      if ss.need z (1 - i) - 1 = 0 then
        upd ss.g_states z
          ((ss.g_states z).label (1 - i) lbl (((ss.g_states y).depth i + 1) % 65536))
      else ss.g_states := by
  unfold pass_inner
  by_cases h : ss.need z (1 - i) - 1 = 0
  · simp only [h, if_true]
  · simp only [h, if_false]

/-- One iteration of the innermost loop. -/
theorem seg_inner_step (e : PassEnv) (y z : Nat) (rem : List Nat) (ss : SolveState)
    (h : PassInv e (z :: rem) ss) (hyz : y ∈ e.Ej z)
    (hy : fresh e.lbl e.i e.g0 ss.g_states y = true) :
    SegOK e ss.g_states (pass_inner e.lbl e.i y ss z).g_states
      (Event.dec z (1 - e.i) (ss.need z (1 - e.i) - 1) ::
        (if ss.need z (1 - e.i) - 1 = 0 then
          [Event.push z,
            Event.write z (1 - e.i) e.lbl (((ss.g_states y).depth e.i + 1) % 65536) y e.i]
        else [])) := by
  rw [pass_inner_states]
  by_cases hn : ss.need z (1 - e.i) - 1 = 0
  · rw [if_pos hn, if_pos hn]
    have hsplit : (Event.dec z (1 - e.i) (ss.need z (1 - e.i) - 1) ::
        [Event.push z,
          Event.write z (1 - e.i) e.lbl (((ss.g_states y).depth e.i + 1) % 65536) y e.i]) =
        [Event.dec z (1 - e.i) (ss.need z (1 - e.i) - 1), Event.push z] ++
          [Event.write z (1 - e.i) e.lbl (((ss.g_states y).depth e.i + 1) % 65536) y e.i] := rfl
    rw [hsplit]
    apply SegOK.append (SegOK.of_no_write e ss.g_states _ (by simp [writes, Event.written]))
    exact SegOK.label e ss.g_states z (1 - e.i) _ y e.i
      (h.rem_unl z (List.mem_cons_self _ _)) ((fresh_iff _ _ _ _ _).mp hy).1 rfl
      (idx_ji e.i) (Or.inr ⟨rfl, rfl, hyz⟩)
  · rw [if_neg hn, if_neg hn]
    exact SegOK.of_no_write e ss.g_states _ (by simp [writes, Event.written])

/-- The innermost loop. -/
theorem seg_inner_fold (e : PassEnv) (he : PassHyp e) (y : Nat) (rem : List Nat)
    (ss : SolveState) (h : PassInv e rem ss) (hrem : ∀ z ∈ rem, z ∈ e.oj ∧ y ∈ e.Ej z)
    (hy : fresh e.lbl e.i e.g0 ss.g_states y = true) :
    SegOK e ss.g_states (rem.foldl (pass_inner e.lbl e.i y) ss).g_states
      (inner_trace e.lbl e.i y rem ss) := by
  induction rem generalizing ss with
  | nil => exact SegOK.of_no_write e ss.g_states _ rfl
  | cons z rest ih =>
    rw [List.foldl_cons, inner_trace_cons]
    have hz := hrem z (List.mem_cons_self _ _)
    obtain ⟨h2, hy2⟩ := pass_inner_inv e he y z rest ss h hz.1 hz.2 hy
    exact SegOK.append (seg_inner_step e y z rest ss h hz.2 hy)
      (ih _ h2 (fun t ht => hrem t (List.mem_cons_of_mem _ ht)) hy2)

/-- One iteration of the middle loop. -/
theorem seg_mid_step (e : PassEnv) (he : PassHyp e) (x y : Nat) (ss : SolveState)
    (h : PassInv e [] ss) (hx : (ss.g_states x).dp (1 - e.i) = e.lbl) (hxy : x ∈ e.Ei y) :
    SegOK e ss.g_states (pass_mid e.lbl e.i (reverse_edges e.oj e.Ej) x ss y).g_states
      (if (ss.g_states y).dp e.i = e.lbl then []
      else
        Event.write y e.i e.lbl (((ss.g_states x).depth (1 - e.i) + 1) % 65536) x (1 - e.i) ::
          inner_trace e.lbl e.i y (reverse_edges e.oj e.Ej y)
            (SolveState.mk
              (upd ss.g_states y
                ((ss.g_states y).label e.i e.lbl
                  (((ss.g_states x).depth (1 - e.i) + 1) % 65536)))
              ss.need ss.q)) := by
  by_cases hg : (ss.g_states y).dp e.i = e.lbl
  · rw [if_pos hg, pass_mid_skip _ _ _ _ _ _ hg]
    exact SegOK.of_no_write e ss.g_states _ rfl
  · rw [if_neg hg, pass_mid_label _ _ _ _ _ _ hg]
    obtain ⟨h2, hy2⟩ := pass_label_inv e he x y ss h hx hxy hg _ rfl _ rfl
    have hl := SegOK.label e ss.g_states y e.i
      (((ss.g_states x).depth (1 - e.i) + 1) % 65536) x (1 - e.i) hg hx rfl (idx_ij e.i)
      (Or.inl ⟨rfl, rfl, hxy⟩)
    have hf := seg_inner_fold e he y (reverse_edges e.oj e.Ej y) _ h2
      (fun z hz => (mem_reverse_edges _ _ _ _).mp hz) hy2
    exact SegOK.append hl hf

/-- The middle loop. -/
theorem seg_mid_fold (e : PassEnv) (he : PassHyp e) (x : Nat) (ys : List Nat)
    (ss : SolveState) (h : PassInv e [] ss) (hx : (ss.g_states x).dp (1 - e.i) = e.lbl)
    (hys : ∀ y ∈ ys, x ∈ e.Ei y) :
    SegOK e ss.g_states (ys.foldl (pass_mid e.lbl e.i (reverse_edges e.oj e.Ej) x) ss).g_states
      (mid_trace e.lbl e.i (reverse_edges e.oj e.Ej) x ys ss) := by
  induction ys generalizing ss with
  | nil => exact SegOK.of_no_write e ss.g_states _ rfl
  | cons y rest ih =>
    rw [List.foldl_cons, mid_trace_cons]
    have hxy := hys y (List.mem_cons_self _ _)
    exact SegOK.append (seg_mid_step e he x y ss h hx hxy)
      (ih _ (pass_mid_inv e he x y ss h hx hxy) (pass_mid_mono _ _ _ _ _ _ _ _ hx)
        (fun t ht => hys t (List.mem_cons_of_mem _ ht)))

/-- A propagation loop: every label is written once, on a pair that did not
carry it, and persists. -/
theorem seg_loop (e : PassEnv) (he : PassHyp e) (fuel : Nat) (ss : SolveState)
    (h : PassInv e [] ss) :
    SegOK e ss.g_states
      (pass_loop e.lbl e.i (reverse_edges e.oi e.Ei) (reverse_edges e.oj e.Ej) fuel
        ss).g_states
      (loop_trace e.lbl e.i (reverse_edges e.oi e.Ei) (reverse_edges e.oj e.Ej) fuel ss) := by
  induction fuel generalizing ss with
  | zero => exact SegOK.of_no_write e ss.g_states _ rfl
  | succ n ih =>
    cases hq : ss.q with
    | nil =>
      rw [loop_trace_empty _ _ _ _ _ ss hq, pass_loop_empty _ _ _ _ _ ss hq]
      exact SegOK.of_no_write e ss.g_states _ rfl
    | cons x rest =>
      rw [loop_trace_step _ _ _ _ n ss x rest hq, pass_loop_step _ _ _ _ n ss x rest hq]
      obtain ⟨hpop, hx⟩ := h.pop x rest hq
      have hys : ∀ y ∈ reverse_edges e.oi e.Ei x, x ∈ e.Ei y :=
        fun y hy => ((mem_reverse_edges _ _ _ _).mp hy).2
      have hm := seg_mid_fold e he x (reverse_edges e.oi e.Ei x) _ hpop hx hys
      have hl := ih _ (pass_mid_fold_inv e he x _ _ hpop hx hys)
      have := SegOK.append (SegOK.of_no_write e ss.g_states [Event.pop x]
        (by simp [writes, Event.written])) (SegOK.append hm hl)
      exact this

theorem writes_map_push (l : List Nat) : writes (l.map Event.push) = [] := by
  induction l with
  | nil => rfl
  | cons a t ih =>
    rw [List.map_cons]
    show writes ([Event.push a] ++ t.map Event.push) = []
    rw [writes_append, ih]
    rfl

/-- The win propagation of `solve` writes every label once. -/
theorem win_seg (st : TrainState) (G : GraphInv st) (order0 order1 wins : List Nat)
    (h1 : order1.Nodup) (hw : ∀ s ∈ wins, s ∈ st.g_wins) :
    SegOK (win_env st order0 order1) st.g_states (win_pass st order0 order1 wins).g_states
      (win_trace st order0 order1 wins) := by
  unfold win_trace
  apply SegOK.append (SegOK.of_no_write _ _ _ (writes_map_push wins))
  exact seg_loop (win_env st order0 order1) (win_hyp st G order0 order1 h1) _ _
    (win_init st G order0 order1 wins hw)

/-- The lose propagation of `solve` writes every label once. -/
theorem lose_seg (st : TrainState) (G : GraphInv st) (order0 order1 wins loses : List Nat)
    (h0 : order0.Nodup) (h1 : order1.Nodup) (hw : ∀ s ∈ wins, s ∈ st.g_wins)
    (hl : ∀ s ∈ loses, s ∈ st.g_loses) :
    SegOK (lose_env st order0 order1 wins) (win_pass st order0 order1 wins).g_states
      (solve st order0 order1 wins loses).g_states
      (lose_trace st order0 order1 wins loses) := by
  unfold lose_trace
  apply SegOK.append (SegOK.of_no_write _ _ _ (writes_map_push loses))
  rw [solve_eq]
  exact seg_loop (lose_env st order0 order1 wins)
    (lose_hyp st G order0 order1 wins h0 h1 hw) _ _
    (lose_init st G order0 order1 wins loses h1 hw hl)

/-- A state with an edge is not a terminal, and `train` left its record at
zero. -/
theorem GraphInv.edge_zero {st : TrainState} (G : GraphInv st) (s : Nat)
    (h : st.g_edge0 s ≠ [] ∨ st.g_edge1 s ≠ []) :
    s ∉ st.g_wins ∧ s ∉ st.g_loses ∧ st.g_states s = StateInfo.zero := by
  have hw : s ∉ st.g_wins := by
    intro hh
    obtain ⟨a, c⟩ := G.wins_edge s hh
    rcases h with h | h
    · exact h a
    · exact h c
  have hl : s ∉ st.g_loses := by
    intro hh
    obtain ⟨a, c⟩ := G.loses_edge s hh
    rcases h with h | h
    · exact h a
    · exact h c
  exact ⟨hw, hl, G.other_label s hw hl⟩

/-- The writes of `solve` on a graph without edges out of its terminals:
no pair `(state, index)` is written twice in the two loops together; a
written pair was undetermined with depth zero before `solve` and belongs to
a state that is not a terminal, it holds the written label and depth at the
end; a pair written by the lose propagation did not carry a label after the
win propagation; and every pair whose label or depth differs at the end from
the one `train` left is among the written ones. -/
theorem solve_writes (st : TrainState) (G : GraphInv st)
    (order0 order1 wins loses : List Nat) (h0 : order0.Nodup) (h1 : order1.Nodup)
    (hw : ∀ s ∈ wins, s ∈ st.g_wins) (hl : ∀ s ∈ loses, s ∈ st.g_loses) :
    (writes (win_trace st order0 order1 wins ++
      lose_trace st order0 order1 wins loses)).Nodup ∧
    (∀ s k l d p pk, Event.write s k l d p pk ∈
        win_trace st order0 order1 wins ++ lose_trace st order0 order1 wins loses →
      (st.g_states s).dp k = 0 ∧ (st.g_states s).depth k = 0 ∧ s ∉ st.g_wins ∧
      s ∉ st.g_loses ∧ (l = 1 ∨ l = -1) ∧ (k = 0 ∨ k = 1) ∧
      ((solve st order0 order1 wins loses).g_states s).dp k = l ∧
      ((solve st order0 order1 wins loses).g_states s).depth k = d) ∧
    (∀ s k l d p pk, Event.write s k l d p pk ∈ lose_trace st order0 order1 wins loses →
      l = -1 ∧ ((win_pass st order0 order1 wins).g_states s).dp k = 0) ∧
    (∀ s k, k = 0 ∨ k = 1 →
      ((solve st order0 order1 wins loses).g_states s).dp k ≠ (st.g_states s).dp k ∨
        ((solve st order0 order1 wins loses).g_states s).depth k ≠ (st.g_states s).depth k →
      (s, k) ∈ writes (win_trace st order0 order1 wins ++
        lose_trace st order0 order1 wins loses)) := by
  have hwin := win_seg st G order0 order1 wins h1 hw
  have hlose := lose_seg st G order0 order1 wins loses h0 h1 hw hl
  have hwi := win_inv st G order0 order1 wins h1 hw
  have hli := lose_inv st G order0 order1 wins loses h0 h1 hw hl
  have hkeep := solve_keeps_win st G order0 order1 wins loses h0 h1 hw hl
  -- facts on a write of the win propagation
  have fw : ∀ s k l d p pk, Event.write s k l d p pk ∈ win_trace st order0 order1 wins →
      (st.g_states s).dp k = 0 ∧ (st.g_states s).depth k = 0 ∧ s ∉ st.g_wins ∧
      s ∉ st.g_loses ∧ l = 1 ∧ (k = 0 ∨ k = 1) ∧
      ((win_pass st order0 order1 wins).g_states s).dp k = 1 ∧
      ((solve st order0 order1 wins loses).g_states s).dp k = l ∧
      ((solve st order0 order1 wins loses).g_states s).depth k = d := by
    intro s k l d p pk hm
    obtain ⟨a1, _, a3, a4, _, _, a7⟩ := hwin.written s k l d p pk hm
    have a1b : l = 1 := a1
    have a3b : ((win_pass st order0 order1 wins).g_states s).dp k = 1 := a3
    have hedge : st.g_edge0 s ≠ [] ∨ st.g_edge1 s ≠ [] := by
      rcases a7 with ⟨_, _, hp⟩ | ⟨_, _, hp⟩
      · exact Or.inl (List.ne_nil_of_mem hp)
      · exact Or.inr (List.ne_nil_of_mem hp)
    obtain ⟨z1, z2, z3⟩ := G.edge_zero s hedge
    have hk : k = 0 ∨ k = 1 := by
      rcases a7 with ⟨hk, _, _⟩ | ⟨hk, _, _⟩
      · exact Or.inl hk
      · exact Or.inr hk
    refine ⟨by rw [z3]; unfold StateInfo.dp StateInfo.zero; simp,
      by rw [z3]; unfold StateInfo.depth StateInfo.zero; simp, z1, z2, a1b, hk, a3b, ?_, ?_⟩
    · rcases hk with rfl | rfl
      · rw [a1b]; exact ((hkeep s).1 a3b).1
      · rw [a1b]; exact ((hkeep s).2 a3b).1
    · rcases hk with rfl | rfl
      · rw [((hkeep s).1 a3b).2]; exact a4
      · rw [((hkeep s).2 a3b).2]; exact a4
  -- facts on a write of the lose propagation
  have fl : ∀ s k l d p pk, Event.write s k l d p pk ∈ lose_trace st order0 order1 wins loses →
      (st.g_states s).dp k = 0 ∧ (st.g_states s).depth k = 0 ∧ s ∉ st.g_wins ∧
      s ∉ st.g_loses ∧ l = -1 ∧ (k = 0 ∨ k = 1) ∧
      ((win_pass st order0 order1 wins).g_states s).dp k = 0 ∧
      ((solve st order0 order1 wins loses).g_states s).dp k = l ∧
      ((solve st order0 order1 wins loses).g_states s).depth k = d := by
    intro s k l d p pk hm
    obtain ⟨a1, _, a3, a4, _, _, a7⟩ := hlose.written s k l d p pk hm
    have a1b : l = -1 := a1
    have a3b : ((solve st order0 order1 wins loses).g_states s).dp k = -1 := a3
    have hedge : st.g_edge0 s ≠ [] ∨ st.g_edge1 s ≠ [] := by
      rcases a7 with ⟨_, _, hp⟩ | ⟨_, _, hp⟩
      · exact Or.inr (List.ne_nil_of_mem hp)
      · exact Or.inl (List.ne_nil_of_mem hp)
    obtain ⟨z1, z2, z3⟩ := G.edge_zero s hedge
    have hk : k = 0 ∨ k = 1 := by
      rcases a7 with ⟨hk, _, _⟩ | ⟨hk, _, _⟩
      · exact Or.inr hk
      · exact Or.inl hk
    have hz : (st.g_states s).dp k = 0 := by
      rw [z3]; unfold StateInfo.dp StateInfo.zero; simp
    have hne1 : ((win_pass st order0 order1 wins).g_states s).dp k ≠ 1 := by
      intro hh
      rcases hk with rfl | rfl
      · have := ((hkeep s).1 hh).1
        rw [a3b] at this
        exact absurd this (by decide)
      · have := ((hkeep s).2 hh).1
        rw [a3b] at this
        exact absurd this (by decide)
    have hw0 : ((win_pass st order0 order1 wins).g_states s).dp k = 0 := by
      rcases hk with rfl | rfl
      · exact (hwi.keep_i s hne1).1.trans hz
      · exact (hwi.keep_j s hne1).1.trans hz
    exact ⟨hz, by rw [z3]; unfold StateInfo.depth StateInfo.zero; simp, z1, z2, a1b, hk, hw0,
      by rw [a1b]; exact a3b, a4⟩
  refine ⟨?_, ?_, ?_, ?_⟩
  · rw [writes_append, List.nodup_append]
    refine ⟨hwin.nodup, hlose.nodup, ?_⟩
    rintro ⟨s, k⟩ hm1 hm2
    obtain ⟨l, d, p, pk, hw1⟩ := (mem_writes _ s k).mp hm1
    obtain ⟨l2, d2, p2, pk2, hw2⟩ := (mem_writes _ s k).mp hm2
    have a := (fw s k l d p pk hw1).2.2.2.2.2.2.1
    have c := (fl s k l2 d2 p2 pk2 hw2).2.2.2.2.2.2.1
    rw [a] at c
    exact absurd c (by decide)
  · intro s k l d p pk hm
    rcases List.mem_append.mp hm with hm | hm
    · obtain ⟨c1, c2, c3, c4, c5, c6, _, c8, c9⟩ := fw s k l d p pk hm
      exact ⟨c1, c2, c3, c4, Or.inl c5, c6, c8, c9⟩
    · obtain ⟨c1, c2, c3, c4, c5, c6, _, c8, c9⟩ := fl s k l d p pk hm
      exact ⟨c1, c2, c3, c4, Or.inr c5, c6, c8, c9⟩
  · intro s k l d p pk hm
    obtain ⟨_, _, _, _, c5, _, c7, _, _⟩ := fl s k l d p pk hm
    exact ⟨c5, c7⟩
  · intro s k hk hdiff
    rw [writes_append]
    -- the lose propagation
    have hLk : ((solve st order0 order1 wins loses).g_states s).dp k ≠ -1 →
        ((solve st order0 order1 wins loses).g_states s).dp k =
          ((win_pass st order0 order1 wins).g_states s).dp k ∧
        ((solve st order0 order1 wins loses).g_states s).depth k =
          ((win_pass st order0 order1 wins).g_states s).depth k := by
      intro hne
      rcases hk with rfl | rfl
      · exact hli.keep_j s hne
      · exact hli.keep_i s hne
    have hWk : ((win_pass st order0 order1 wins).g_states s).dp k ≠ 1 →
        ((win_pass st order0 order1 wins).g_states s).dp k = (st.g_states s).dp k ∧
        ((win_pass st order0 order1 wins).g_states s).depth k = (st.g_states s).depth k := by
      intro hne
      rcases hk with rfl | rfl
      · exact hwi.keep_i s hne
      · exact hwi.keep_j s hne
    have hWc : (st.g_states s).dp k ≠ 1 →
        ((win_pass st order0 order1 wins).g_states s).dp k = 1 →
        (s, k) ∈ writes (win_trace st order0 order1 wins) := by
      intro a c
      rcases hk with rfl | rfl
      · exact (hwin.complete s).1 a c
      · exact (hwin.complete s).2 a c
    have hLc : ((win_pass st order0 order1 wins).g_states s).dp k ≠ -1 →
        ((solve st order0 order1 wins loses).g_states s).dp k = -1 →
        (s, k) ∈ writes (lose_trace st order0 order1 wins loses) := by
      intro a c
      rcases hk with rfl | rfl
      · exact (hlose.complete s).2 a c
      · exact (hlose.complete s).1 a c
    -- the record after the win propagation against the one of `train`
    have hW : ((win_pass st order0 order1 wins).g_states s).dp k ≠ (st.g_states s).dp k ∨
        ((win_pass st order0 order1 wins).g_states s).depth k ≠ (st.g_states s).depth k →
        (s, k) ∈ writes (win_trace st order0 order1 wins) := by
      intro hd
      by_cases hw1 : ((win_pass st order0 order1 wins).g_states s).dp k = 1
      · by_cases hs1 : (st.g_states s).dp k = 1
        · exfalso
          obtain ⟨_, c⟩ := hwin.persist s k hs1
          rcases hd with hd | hd
          · exact hd (hw1.trans hs1.symm)
          · exact hd c
        · exact hWc hs1 hw1
      · exfalso
        obtain ⟨a, c⟩ := hWk hw1
        rcases hd with hd | hd
        · exact hd a
        · exact hd c
    by_cases hf : ((solve st order0 order1 wins loses).g_states s).dp k = -1
    · by_cases hm : ((win_pass st order0 order1 wins).g_states s).dp k = -1
      · obtain ⟨_, c⟩ := hlose.persist s k hm
        apply List.mem_append_left
        apply hW
        rcases hdiff with hd | hd
        · left; rw [hm, ← hf]; exact hd
        · right; rw [← c]; exact hd
      · exact List.mem_append_right _ (hLc hm hf)
    · obtain ⟨a, c⟩ := hLk hf
      apply List.mem_append_left
      apply hW
      rcases hdiff with hd | hd
      · left; rw [← a]; exact hd
      · right; rw [← c]; exact hd

/-! ### The counters stay non-negative -/

theorem pass_inner_need_other (lbl : Int) (i y z : Nat) (ss : SolveState) (t p : Nat)
    (hp : p ≠ 1 - i) : (pass_inner lbl i y ss z).need t p = ss.need t p := by
  unfold pass_inner
  by_cases hn : ss.need z (1 - i) - 1 = 0
  · simp only [hn, if_true]
    rw [if_neg (fun hh => hp hh.2)]
  · simp only [hn, if_false]
    rw [if_neg (fun hh => hp hh.2)]

theorem mem_dec_cons_iff (z p : Nat) (v : Int) (tl : List Event) (z1 p1 : Nat) (v1 : Int)
    (h : ∀ ev ∈ tl, ∀ a c w, ev ≠ Event.dec a c w) :
    Event.dec z1 p1 v1 ∈ Event.dec z p v :: tl ↔ z1 = z ∧ p1 = p ∧ v1 = v := by
  constructor
  · intro hm
    rcases List.mem_cons.mp hm with hm | hm
    · injection hm with a c d
      exact ⟨a, c, d⟩
    · exact absurd rfl (h _ hm z1 p1 v1)
  · rintro ⟨rfl, rfl, rfl⟩
    exact List.mem_cons_self _ _

theorem DecOK.dec_append {i : Nat} {n n1 n2 : Nat → Nat → Int} {a c : List Event}
    (h1 : DecOK i n n1 a) (h2 : DecOK i n1 n2 c) : DecOK i n n2 (a ++ c) := by
  constructor
  · intro t p
    rw [h2.1, h1.1, decs_append]
    push_cast
    ring
  · intro z p v hm
    rcases List.mem_append.mp hm with hm | hm
    · exact h1.2 z p v hm
    · exact h2.2 z p v hm

theorem DecOK.of_no_dec (i : Nat) (n : Nat → Nat → Int) (tr : List Event)
    (h : ∀ ev ∈ tr, ∀ a c w, ev ≠ Event.dec a c w) : DecOK i n n tr := by
  constructor
  · intro t p
    have : decs tr t p = 0 := by
      unfold decs
      rw [List.countP_eq_zero]
      intro ev hev
      cases ev with
      | dec a c w => exact absurd rfl (h _ hev a c w)
      | pop x => simp [Event.is_dec]
      | write s k l d p pk => simp [Event.is_dec]
      | push z => simp [Event.is_dec]
    rw [this]; simp
  · intro z p v hm
    exact absurd rfl (h _ hm z p v)

/-- One iteration of the innermost loop decrements the counter of `z` to a
value that is not negative. -/
theorem dec_inner_step (e : PassEnv) (y z : Nat) (rem : List Nat) (ss : SolveState)
    (h : PassInv e (z :: rem) ss) (hz : z ∈ e.oj) :
    DecOK e.i ss.need (pass_inner e.lbl e.i y ss z).need
      (Event.dec z (1 - e.i) (ss.need z (1 - e.i) - 1) ::
        (if ss.need z (1 - e.i) - 1 = 0 then
          [Event.push z,
            Event.write z (1 - e.i) e.lbl (((ss.g_states y).depth e.i + 1) % 65536) y e.i]
        else [])) := by
  have hnd : ∀ ev ∈ (if ss.need z (1 - e.i) - 1 = 0 then
      [Event.push z,
        Event.write z (1 - e.i) e.lbl (((ss.g_states y).depth e.i + 1) % 65536) y e.i]
      else []), ∀ a c w, ev ≠ Event.dec a c w := by
    intro ev hev a c w
    by_cases hn : ss.need z (1 - e.i) - 1 = 0
    · rw [if_pos hn] at hev
      rcases List.mem_cons.mp hev with rfl | hev
      · intro hh; cases hh
      · rw [List.mem_singleton] at hev
        rw [hev]; intro hh; cases hh
    · rw [if_neg hn] at hev
      exact absurd hev (List.not_mem_nil _)
  constructor
  · intro t p
    have hd0 := (DecOK.of_no_dec e.i ss.need _ hnd).1 t p
    have hsplit : decs (Event.dec z (1 - e.i) (ss.need z (1 - e.i) - 1) ::
        (if ss.need z (1 - e.i) - 1 = 0 then
          [Event.push z,
            Event.write z (1 - e.i) e.lbl (((ss.g_states y).depth e.i + 1) % 65536) y e.i]
        else [])) t p =
        (if z = t ∧ 1 - e.i = p then 1 else 0) +
        decs (if ss.need z (1 - e.i) - 1 = 0 then
          [Event.push z,
            Event.write z (1 - e.i) e.lbl (((ss.g_states y).depth e.i + 1) % 65536) y e.i]
        else []) t p := by
      unfold decs
      rw [List.countP_cons]
      simp only [Event.is_dec]
      by_cases hc : z = t ∧ 1 - e.i = p
      · simp [hc]; omega
      · simp [hc]
    have hd1 : (decs (if ss.need z (1 - e.i) - 1 = 0 then
          [Event.push z,
            Event.write z (1 - e.i) e.lbl (((ss.g_states y).depth e.i + 1) % 65536) y e.i]
        else []) t p : Int) = 0 := by
      have := hd0
      omega
    rw [hsplit]
    push_cast
    rw [hd1]
    by_cases hp : p = 1 - e.i
    · subst hp
      rw [pass_inner_need]
      by_cases ht : t = z
      · subst ht
        rw [if_pos rfl, if_pos ⟨rfl, rfl⟩]; simp
      · rw [if_neg ht, if_neg (fun hh => ht hh.1.symm)]; simp
    · rw [pass_inner_need_other _ _ _ _ _ _ _ hp, if_neg (fun hh => hp hh.2.symm)]; simp
  · intro z1 p1 v1 hm
    obtain ⟨rfl, rfl, rfl⟩ := (mem_dec_cons_iff z (1 - e.i) _ _ z1 p1 v1 hnd).mp hm
    refine ⟨rfl, ?_⟩
    have hc := h.count z1 hz
    have hle : (e.Ej z1).countP (fresh e.lbl e.i e.g0 ss.g_states) ≤ (e.Ej z1).length :=
      List.countP_le_length _
    have hcnt : (z1 :: rem).count z1 = rem.count z1 + 1 := by simp
    rw [hcnt] at hc
    push_cast at hc
    omega

/-- The innermost loop. -/
theorem dec_inner_fold (e : PassEnv) (he : PassHyp e) (y : Nat) (rem : List Nat)
    (ss : SolveState) (h : PassInv e rem ss) (hrem : ∀ z ∈ rem, z ∈ e.oj ∧ y ∈ e.Ej z)
    (hy : fresh e.lbl e.i e.g0 ss.g_states y = true) :
    DecOK e.i ss.need (rem.foldl (pass_inner e.lbl e.i y) ss).need
      (inner_trace e.lbl e.i y rem ss) := by
  induction rem generalizing ss with
  | nil => exact DecOK.of_no_dec _ _ _ (fun ev hev => absurd hev (List.not_mem_nil _))
  | cons z rest ih =>
    rw [List.foldl_cons, inner_trace_cons]
    have hz := hrem z (List.mem_cons_self _ _)
    obtain ⟨h2, hy2⟩ := pass_inner_inv e he y z rest ss h hz.1 hz.2 hy
    exact DecOK.dec_append (dec_inner_step e y z rest ss h hz.1)
      (ih _ h2 (fun t ht => hrem t (List.mem_cons_of_mem _ ht)) hy2)

/-- The middle loop. -/
theorem dec_mid_fold (e : PassEnv) (he : PassHyp e) (x : Nat) (ys : List Nat)
    (ss : SolveState) (h : PassInv e [] ss) (hx : (ss.g_states x).dp (1 - e.i) = e.lbl)
    (hys : ∀ y ∈ ys, x ∈ e.Ei y) :
    DecOK e.i ss.need (ys.foldl (pass_mid e.lbl e.i (reverse_edges e.oj e.Ej) x) ss).need
      (mid_trace e.lbl e.i (reverse_edges e.oj e.Ej) x ys ss) := by
  induction ys generalizing ss with
  | nil => exact DecOK.of_no_dec _ _ _ (fun ev hev => absurd hev (List.not_mem_nil _))
  | cons y rest ih =>
    rw [List.foldl_cons, mid_trace_cons]
    have hxy := hys y (List.mem_cons_self _ _)
    refine DecOK.dec_append ?_
      (ih _ (pass_mid_inv e he x y ss h hx hxy) (pass_mid_mono _ _ _ _ _ _ _ _ hx)
        (fun t ht => hys t (List.mem_cons_of_mem _ ht)))
    by_cases hg : (ss.g_states y).dp e.i = e.lbl
    · rw [if_pos hg, pass_mid_skip _ _ _ _ _ _ hg]
      exact DecOK.of_no_dec _ _ _ (fun ev hev => absurd hev (List.not_mem_nil _))
    · rw [if_neg hg, pass_mid_label _ _ _ _ _ _ hg]
      obtain ⟨h2, hy2⟩ := pass_label_inv e he x y ss h hx hxy hg _ rfl _ rfl
      have hf := dec_inner_fold e he y (reverse_edges e.oj e.Ej y) _ h2
        (fun z hz => (mem_reverse_edges _ _ _ _).mp hz) hy2
      have hone : DecOK e.i ss.need ss.need
          [Event.write y e.i e.lbl (((ss.g_states x).depth (1 - e.i) + 1) % 65536) x
            (1 - e.i)] := by
        apply DecOK.of_no_dec
        intro ev hev a c w
        rw [List.mem_singleton] at hev
        rw [hev]; intro hh; cases hh
      exact DecOK.dec_append hone hf

/-- A propagation loop: every decrement leaves a counter that is not
negative, and a counter goes down by the number of its decrements. -/
theorem dec_loop (e : PassEnv) (he : PassHyp e) (fuel : Nat) (ss : SolveState)
    (h : PassInv e [] ss) :
    DecOK e.i ss.need
      (pass_loop e.lbl e.i (reverse_edges e.oi e.Ei) (reverse_edges e.oj e.Ej) fuel ss).need
      (loop_trace e.lbl e.i (reverse_edges e.oi e.Ei) (reverse_edges e.oj e.Ej) fuel ss) := by
  induction fuel generalizing ss with
  | zero => exact DecOK.of_no_dec _ _ _ (fun ev hev => absurd hev (List.not_mem_nil _))
  | succ n ih =>
    cases hq : ss.q with
    | nil =>
      rw [loop_trace_empty _ _ _ _ _ ss hq, pass_loop_empty _ _ _ _ _ ss hq]
      exact DecOK.of_no_dec _ _ _ (fun ev hev => absurd hev (List.not_mem_nil _))
    | cons x rest =>
      rw [loop_trace_step _ _ _ _ n ss x rest hq, pass_loop_step _ _ _ _ n ss x rest hq]
      obtain ⟨hpop, hx⟩ := h.pop x rest hq
      have hys : ∀ y ∈ reverse_edges e.oi e.Ei x, x ∈ e.Ei y :=
        fun y hy => ((mem_reverse_edges _ _ _ _).mp hy).2
      have hm := dec_mid_fold e he x (reverse_edges e.oi e.Ei x) _ hpop hx hys
      have hl := ih _ (pass_mid_fold_inv e he x _ _ hpop hx hys)
      have hone : DecOK e.i ss.need ss.need [Event.pop x] := by
        apply DecOK.of_no_dec
        intro ev hev a c w
        rw [List.mem_singleton] at hev
        rw [hev]; intro hh; cases hh
      exact DecOK.dec_append hone (DecOK.dec_append hm hl)

theorem no_dec_map_push (l : List Nat) :
    ∀ ev ∈ l.map Event.push, ∀ a c w, ev ≠ Event.dec a c w := by
  intro ev hev a c w
  obtain ⟨z, _, rfl⟩ := List.mem_map.mp hev
  intro hh; cases hh

/-- The counters of `solve` on a graph without edges out of its terminals:
every decrement of the two loops leaves a value that is not negative, each
counter `need[z][p]` ends at the number of player-`p` edges of `z` minus the
number of its decrements, that end value is not negative, and so the number
of decrements is at most the number of edges. -/
theorem solve_need_nonneg (st : TrainState) (G : GraphInv st)
    (order0 order1 wins loses : List Nat) (h0 : order0.Nodup) (h1 : order1.Nodup)
    (hw : ∀ s ∈ wins, s ∈ st.g_wins) (hl : ∀ s ∈ loses, s ∈ st.g_loses) :
    (∀ z p v, Event.dec z p v ∈
        win_trace st order0 order1 wins ++ lose_trace st order0 order1 wins loses →
      (p = 0 ∨ p = 1) ∧ 0 ≤ v) ∧
    (∀ z p, p = 0 ∨ p = 1 →
      (solve st order0 order1 wins loses).need z p =
        solve_need st z p -
          (decs (win_trace st order0 order1 wins ++ lose_trace st order0 order1 wins loses)
            z p : Int) ∧
      0 ≤ (solve st order0 order1 wins loses).need z p) ∧
    (∀ z, decs (win_trace st order0 order1 wins ++ lose_trace st order0 order1 wins loses)
        z 0 ≤ (st.g_edge0 z).length ∧
      decs (win_trace st order0 order1 wins ++ lose_trace st order0 order1 wins loses)
        z 1 ≤ (st.g_edge1 z).length) := by
  have hwi := win_inv st G order0 order1 wins h1 hw
  have hli := lose_inv st G order0 order1 wins loses h0 h1 hw hl
  have dwin : DecOK 0 (solve_need st) (win_pass st order0 order1 wins).need
      (win_trace st order0 order1 wins) := by
    unfold win_trace
    apply DecOK.dec_append (DecOK.of_no_dec _ _ _ (no_dec_map_push wins))
    exact dec_loop (win_env st order0 order1) (win_hyp st G order0 order1 h1) _ _
      (win_init st G order0 order1 wins hw)
  have dlose : DecOK 1 (win_pass st order0 order1 wins).need
      (solve st order0 order1 wins loses).need (lose_trace st order0 order1 wins loses) := by
    unfold lose_trace
    apply DecOK.dec_append (DecOK.of_no_dec _ _ _ (no_dec_map_push loses))
    rw [solve_eq]
    exact dec_loop (lose_env st order0 order1 wins)
      (lose_hyp st G order0 order1 wins h0 h1 hw) _ _
      (lose_init st G order0 order1 wins loses h1 hw hl)
  have hinit : ∀ z p, 0 ≤ solve_need st z p := by
    intro z p
    unfold solve_need
    by_cases hp : p = 0
    · rw [if_pos hp]; exact Int.natCast_nonneg _
    · rw [if_neg hp]; exact Int.natCast_nonneg _
  have hrel : ∀ z p, (solve st order0 order1 wins loses).need z p =
      solve_need st z p -
        (decs (win_trace st order0 order1 wins ++ lose_trace st order0 order1 wins loses)
          z p : Int) := by
    intro z p
    rw [dlose.1, dwin.1, decs_append]
    push_cast
    ring
  -- the counters of index 1 after the win propagation
  have hw1 : ∀ z, 0 ≤ (win_pass st order0 order1 wins).need z 1 := by
    intro z
    by_cases hz : z ∈ order1
    · have hc := hwi.count z hz
      have hle : (st.g_edge1 z).countP
          (fresh 1 0 st.g_states (win_pass st order0 order1 wins).g_states) ≤
          (st.g_edge1 z).length := List.countP_le_length _
      have hc2 : (win_pass st order0 order1 wins).need z 1 =
          ((st.g_edge1 z).length : Int) -
            ((st.g_edge1 z).countP
              (fresh 1 0 st.g_states (win_pass st order0 order1 wins).g_states) : Int) +
            (([] : List Nat).count z : Int) := hc
      rw [hc2]
      simp only [List.count_nil, Nat.cast_zero, add_zero]
      omega
    · have hc : (win_pass st order0 order1 wins).need z 1 = solve_need st z 1 :=
        hwi.need_out z hz
      rw [hc]; exact hinit z 1
  have hw0 : ∀ z, (win_pass st order0 order1 wins).need z 0 = solve_need st z 0 := by
    intro z
    exact hwi.need_other z 0 (show (0 : Nat) ≠ 1 - 0 by decide)
  have hfin : ∀ z p, p = 0 ∨ p = 1 → 0 ≤ (solve st order0 order1 wins loses).need z p := by
    intro z p hp
    rcases hp with rfl | rfl
    · by_cases hz : z ∈ order0
      · have hc2 : (solve st order0 order1 wins loses).need z 0 =
            ((st.g_edge0 z).length : Int) -
              ((st.g_edge0 z).countP
                (fresh (-1) 1 (win_pass st order0 order1 wins).g_states
                  (solve st order0 order1 wins loses).g_states) : Int) +
              (([] : List Nat).count z : Int) := hli.count z hz
        have hle : (st.g_edge0 z).countP
            (fresh (-1) 1 (win_pass st order0 order1 wins).g_states
              (solve st order0 order1 wins loses).g_states) ≤
            (st.g_edge0 z).length := List.countP_le_length _
        rw [hc2]
        simp only [List.count_nil, Nat.cast_zero, add_zero]
        omega
      · have hc : (solve st order0 order1 wins loses).need z 0 =
            (win_pass st order0 order1 wins).need z 0 := hli.need_out z hz
        rw [hc, hw0]; exact hinit z 0
    · have hc : (solve st order0 order1 wins loses).need z 1 =
          (win_pass st order0 order1 wins).need z 1 :=
        hli.need_other z 1 (show (1 : Nat) ≠ 1 - 1 by decide)
      rw [hc]; exact hw1 z
  refine ⟨?_, fun z p hp => ⟨hrel z p, hfin z p hp⟩, ?_⟩
  · intro z p v hm
    rcases List.mem_append.mp hm with hm | hm
    · obtain ⟨a, c⟩ := dwin.2 z p v hm
      exact ⟨Or.inr a, c⟩
    · obtain ⟨a, c⟩ := dlose.2 z p v hm
      exact ⟨Or.inl a, c⟩
  · intro z
    have a0 := hrel z 0
    have a1 := hrel z 1
    have c0 := hfin z 0 (Or.inl rfl)
    have c1 := hfin z 1 (Or.inr rfl)
    have e0 : solve_need st z 0 = ((st.g_edge0 z).length : Int) := by
      unfold solve_need; rw [if_pos rfl]
    have e1 : solve_need st z 1 = ((st.g_edge1 z).length : Int) := by
      unfold solve_need; rw [if_neg (by decide)]
    rw [e0] at a0
    rw [e1] at a1
    constructor <;> omega

/-! ### The breadth-first order of the propagation loops -/

theorem StateInfo.label_depth_lt (info : StateInfo) (i k : Nat) (lbl : Int) (d : Nat)
    (h : info.depth k < 65536) (hd : d < 65536) : (info.label i lbl d).depth k < 65536 := by
  unfold StateInfo.label StateInfo.depth at *
  by_cases hi : i = 0 <;> by_cases hk : k = 0 <;> simp_all

/-- Labelling `z` in the innermost loop with depth `D + 2` and pushing it
keeps the breadth-first order. -/
theorem bfs_push (e : PassEnv) (D : Nat) (hist : List Nat) (ss ss2 : SolveState) (z : Nat)
    (B : BfsInv e D hist ss) (hz : (ss.g_states z).dp (1 - e.i) ≠ e.lbl)
    (hg : ss2.g_states =
      upd ss.g_states z ((ss.g_states z).label (1 - e.i) e.lbl (D + 2)))
    (hq2 : ss2.q = ss.q ++ [z]) (hD : D + 2 < 65536)
    (hall : ∀ y ∈ e.Ej z, (ss.g_states y).depth e.i ≤ D + 1) :
    BfsInv e D (hist ++ [z]) ss2 := by
  have hi : ∀ t, (ss2.g_states t).dp e.i = (ss.g_states t).dp e.i ∧
      (ss2.g_states t).depth e.i = (ss.g_states t).depth e.i := by
    intro t; rw [hg]; exact labelled_other _ _ _ _ _ _ (idx_ji e.i) t
  have hz2 : (ss2.g_states z).dp (1 - e.i) = e.lbl ∧ (ss2.g_states z).depth (1 - e.i) = D + 2 := by
    rw [hg, upd_same]; exact ⟨StateInfo.label_dp _ _ _ _, StateInfo.label_depth _ _ _ _⟩
  have hne : ∀ t, t ≠ z → ss2.g_states t = ss.g_states t := by
    intro t ht; rw [hg, upd_other _ _ _ _ ht]
  have hhist : ∀ s ∈ hist, s ≠ z := by
    intro s hs hsz
    rw [hsz] at hs
    exact hz (B.hist_lab z hs)
  have hfi : fresh e.lbl e.i e.g0 ss2.g_states = fresh e.lbl e.i e.g0 ss.g_states := by
    rw [hg]; exact fresh_other _ _ _ _ _ _ _ _ (idx_ji e.i)
  obtain ⟨done, hdone⟩ := B.suffix
  refine ⟨?_, ?_, ?_, ?_, ⟨done, ?_⟩, ?_, ?_, ?_⟩
  · intro s hs
    rw [hq2] at hs
    rcases List.mem_append.mp hs with hs | hs
    · have : s ∈ hist := by rw [hdone]; exact List.mem_append_right _ hs
      rw [hne s (hhist s this)]; exact B.q_lo s hs
    · rw [List.mem_singleton.mp hs, hz2.2]; omega
  · intro s hs
    rcases List.mem_append.mp hs with hs | hs
    · rw [hne s (hhist s hs)]; exact B.hist_hi s hs
    · rw [List.mem_singleton.mp hs, hz2.2]
  · intro s hs
    rcases List.mem_append.mp hs with hs | hs
    · rw [hne s (hhist s hs)]; exact B.hist_lab s hs
    · rw [List.mem_singleton.mp hs]; exact hz2.1
  · rw [List.map_append, List.pairwise_append]
    have hmap : hist.map (fun s => (ss2.g_states s).depth (1 - e.i)) =
        hist.map (fun s => (ss.g_states s).depth (1 - e.i)) := by
      apply List.map_congr_left
      intro s hs
      rw [hne s (hhist s hs)]
    rw [hmap]
    refine ⟨B.sorted, by simp, ?_⟩
    intro a ha c hc
    obtain ⟨s, hs, rfl⟩ := List.mem_map.mp ha
    simp only [List.map_cons, List.map_nil, List.mem_singleton] at hc
    rw [hc, hz2.2]
    exact B.hist_hi s hs
  · rw [hq2, hdone, List.append_assoc]
  · intro y hy
    rw [hfi] at hy
    rw [(hi y).2]
    exact B.fresh_hi y hy
  · intro z1 hz1 y hy
    rw [(hi y).2]
    by_cases hzz : z1 = z
    · subst hzz
      rw [hz2.2]
      have := hall y hy
      omega
    · have hf : fresh e.lbl (1 - e.i) e.g0 ss.g_states z1 = true := by
        rw [fresh_iff] at hz1 ⊢
        rw [hne z1 hzz] at hz1
        exact hz1
      rw [hne z1 hzz]
      exact B.lt z1 hf y hy
  · intro s k
    by_cases hsz : s = z
    · subst hsz
      rw [hg, upd_same]
      exact StateInfo.label_depth_lt _ _ _ _ _ (B.bound s k) hD
    · rw [hne s hsz]; exact B.bound s k

/-- Labelling `y` in the middle loop with depth `D + 1` keeps the
breadth-first order. -/
theorem bfs_label (e : PassEnv) (D : Nat) (hist : List Nat) (ss ss2 : SolveState) (y : Nat)
    (B : BfsInv e D hist ss) (hy : (ss.g_states y).dp e.i ≠ e.lbl)
    (hg : ss2.g_states = upd ss.g_states y ((ss.g_states y).label e.i e.lbl (D + 1)))
    (hq2 : ss2.q = ss.q) (hD : D + 1 < 65536)
    (hsound : ∀ z, fresh e.lbl (1 - e.i) e.g0 ss.g_states z = true →
      ∀ t ∈ e.Ej z, (ss.g_states t).dp e.i = e.lbl) :
    BfsInv e D hist ss2 := by
  have hj : ∀ t, (ss2.g_states t).dp (1 - e.i) = (ss.g_states t).dp (1 - e.i) ∧
      (ss2.g_states t).depth (1 - e.i) = (ss.g_states t).depth (1 - e.i) := by
    intro t; rw [hg]; exact labelled_other _ _ _ _ _ _ (idx_ij e.i) t
  have hy2 : (ss2.g_states y).depth e.i = D + 1 := by
    rw [hg, upd_same]; exact StateInfo.label_depth _ _ _ _
  have hne : ∀ t, t ≠ y → ss2.g_states t = ss.g_states t := by
    intro t ht; rw [hg, upd_other _ _ _ _ ht]
  have hfj : fresh e.lbl (1 - e.i) e.g0 ss2.g_states = fresh e.lbl (1 - e.i) e.g0 ss.g_states := by
    rw [hg]; exact fresh_other _ _ _ _ _ _ _ _ (idx_ij e.i)
  obtain ⟨done, hdone⟩ := B.suffix
  refine ⟨?_, ?_, ?_, ?_, ⟨done, ?_⟩, ?_, ?_, ?_⟩
  · intro s hs
    rw [hq2] at hs
    rw [(hj s).2]; exact B.q_lo s hs
  · intro s hs
    rw [(hj s).2]; exact B.hist_hi s hs
  · intro s hs
    rw [(hj s).1]; exact B.hist_lab s hs
  · have hmap : hist.map (fun s => (ss2.g_states s).depth (1 - e.i)) =
        hist.map (fun s => (ss.g_states s).depth (1 - e.i)) := by
      apply List.map_congr_left
      intro s _
      exact (hj s).2
    rw [hmap]; exact B.sorted
  · rw [hq2]; exact hdone
  · intro t ht
    by_cases hty : t = y
    · subst hty; rw [hy2]
    · have hf : fresh e.lbl e.i e.g0 ss.g_states t = true := by
        rw [fresh_iff] at ht ⊢
        rw [hne t hty] at ht
        exact ht
      rw [hne t hty]
      exact B.fresh_hi t hf
  · intro z hz t ht
    rw [hfj] at hz
    have hty : t ≠ y := by
      intro hh
      rw [hh] at ht
      exact hy (hsound z hz y ht)
    rw [hne t hty, (hj z).2]
    exact B.lt z hz t ht
  · intro s k
    by_cases hsy : s = y
    · subst hsy
      rw [hg, upd_same]
      exact StateInfo.label_depth_lt _ _ _ _ _ (B.bound s k) hD
    · rw [hne s hsy]; exact B.bound s k

theorem pushes_inner_step (z p : Nat) (v : Int) (lbl : Int) (d y i : Nat) (c : Prop)
    [Decidable c] :
    pushes (Event.dec z p v :: (if c then [Event.push z, Event.write z p lbl d y i] else [])) =
      if c then [z] else [] := by
  by_cases h : c
  · rw [if_pos h, if_pos h]; rfl
  · rw [if_neg h, if_neg h]; rfl

/-- A depth that is written without wrapping is the successor. -/
theorem no_wrap_succ (n : Nat) (h : n < 65536) (h2 : (n + 1) % 65536 ≠ 0) :
    (n + 1) % 65536 = n + 1 ∧ n + 1 < 65536 := by
  have : n + 1 < 65536 := by
    by_contra hc
    have : n + 1 = 65536 := by omega
    rw [this] at h2
    exact h2 (by decide)
  exact ⟨Nat.mod_eq_of_lt this, this⟩

/-- One iteration of the innermost loop keeps the breadth-first order. -/
theorem bfs_inner_step (e : PassEnv) (he : PassHyp e) (y z : Nat) (rem : List Nat)
    (ss : SolveState) (D : Nat) (hist : List Nat)
    (h : PassInv e (z :: rem) ss) (hz : z ∈ e.oj) (hyz : y ∈ e.Ej z)
    (hy : fresh e.lbl e.i e.g0 ss.g_states y = true) (B : BfsInv e D hist ss)
    (hyd : (ss.g_states y).depth e.i = D + 1)
    (hnw : ∀ ev ∈ (Event.dec z (1 - e.i) (ss.need z (1 - e.i) - 1) ::
        (if ss.need z (1 - e.i) - 1 = 0 then
          [Event.push z,
            Event.write z (1 - e.i) e.lbl (((ss.g_states y).depth e.i + 1) % 65536) y e.i]
        else [])), Event.no_wrap ev) :
    BfsInv e D
      (hist ++ pushes (Event.dec z (1 - e.i) (ss.need z (1 - e.i) - 1) ::
        (if ss.need z (1 - e.i) - 1 = 0 then
          [Event.push z,
            Event.write z (1 - e.i) e.lbl (((ss.g_states y).depth e.i + 1) % 65536) y e.i]
        else [])))
      (pass_inner e.lbl e.i y ss z) := by
  rw [pushes_inner_step]
  by_cases hn : ss.need z (1 - e.i) - 1 = 0
  · rw [if_pos hn]
    rw [if_pos hn] at hnw
    have hd0 : ((ss.g_states y).depth e.i + 1) % 65536 ≠ 0 :=
      hnw (Event.write z (1 - e.i) e.lbl (((ss.g_states y).depth e.i + 1) % 65536) y e.i)
        (by simp)
    obtain ⟨hd1, hd2⟩ := no_wrap_succ _ (B.bound y e.i) hd0
    rw [hyd] at hd1 hd2
    obtain ⟨h2, _⟩ := pass_inner_inv e he y z rem ss h hz hyz hy
    have hzu := h.rem_unl z (List.mem_cons_self _ _)
    have hg : (pass_inner e.lbl e.i y ss z).g_states =
        upd ss.g_states z ((ss.g_states z).label (1 - e.i) e.lbl (D + 1 + 1)) := by
      rw [pass_inner_states, if_pos hn, hyd, hd1]
    have hq : (pass_inner e.lbl e.i y ss z).q = ss.q ++ [z] := by
      rw [pass_inner_q, if_pos hn]
    have hzf : fresh e.lbl (1 - e.i) e.g0 (pass_inner e.lbl e.i y ss z).g_states z = true := by
      rw [fresh_iff, hg, upd_same]
      refine ⟨StateInfo.label_dp _ _ _ _, ?_⟩
      rw [← (h.keep_j z hzu).1]
      exact hzu
    have hfi : fresh e.lbl e.i e.g0 (pass_inner e.lbl e.i y ss z).g_states =
        fresh e.lbl e.i e.g0 ss.g_states := by
      rw [hg]; exact fresh_other _ _ _ _ _ _ _ _ (idx_ji e.i)
    apply bfs_push e D hist ss _ z B hzu hg hq hd2
    intro t ht
    have := (h2.sound_j z hzf).1 t ht
    rw [hfi] at this
    exact B.fresh_hi t this
  · rw [if_neg hn, List.append_nil]
    have hg : (pass_inner e.lbl e.i y ss z).g_states = ss.g_states := by
      rw [pass_inner_states, if_neg hn]
    have hq : (pass_inner e.lbl e.i y ss z).q = ss.q := by
      rw [pass_inner_q, if_neg hn]
    exact ⟨by rw [hq, hg]; exact B.q_lo, by rw [hg]; exact B.hist_hi,
      by rw [hg]; exact B.hist_lab, by rw [hg]; exact B.sorted, by rw [hq]; exact B.suffix,
      by rw [hg]; exact B.fresh_hi, by rw [hg]; exact B.lt, by rw [hg]; exact B.bound⟩

/-- The innermost loop keeps the breadth-first order. -/
theorem bfs_inner_fold (e : PassEnv) (he : PassHyp e) (y : Nat) (rem : List Nat)
    (ss : SolveState) (D : Nat) (hist : List Nat) (h : PassInv e rem ss)
    (hrem : ∀ z ∈ rem, z ∈ e.oj ∧ y ∈ e.Ej z)
    (hy : fresh e.lbl e.i e.g0 ss.g_states y = true) (B : BfsInv e D hist ss)
    (hyd : (ss.g_states y).depth e.i = D + 1)
    (hnw : ∀ ev ∈ inner_trace e.lbl e.i y rem ss, Event.no_wrap ev) :
    BfsInv e D (hist ++ pushes (inner_trace e.lbl e.i y rem ss))
      (rem.foldl (pass_inner e.lbl e.i y) ss) := by
  induction rem generalizing ss hist with
  | nil =>
    rw [inner_trace_nil, List.foldl_nil]
    show BfsInv e D (hist ++ []) ss
    rw [List.append_nil]; exact B
  | cons z rest ih =>
    rw [List.foldl_cons, inner_trace_cons, pushes_append, ← List.append_assoc]
    rw [inner_trace_cons] at hnw
    have hz := hrem z (List.mem_cons_self _ _)
    obtain ⟨h2, hy2⟩ := pass_inner_inv e he y z rest ss h hz.1 hz.2 hy
    have B2 := bfs_inner_step e he y z rest ss D hist h hz.1 hz.2 hy B hyd
      (fun ev hev => hnw ev (List.mem_append_left _ hev))
    have hseg := seg_inner_step e y z rest ss h hz.2 hy
    have hyd2 : ((pass_inner e.lbl e.i y ss z).g_states y).depth e.i = D + 1 := by
      rw [(hseg.persist y e.i ((fresh_iff _ _ _ _ _).mp hy).1).2]; exact hyd
    exact ih _ _ h2 (fun t ht => hrem t (List.mem_cons_of_mem _ ht)) hy2 B2 hyd2
      (fun ev hev => hnw ev (List.mem_append_right _ hev))

theorem pushes_write_cons (s k : Nat) (l : Int) (d p pk : Nat) (tr : List Event) :
    pushes (Event.write s k l d p pk :: tr) = pushes tr := rfl

/-- One iteration of the middle loop keeps the breadth-first order. -/
theorem bfs_mid_step (e : PassEnv) (he : PassHyp e) (x y : Nat) (ss : SolveState)
    (D : Nat) (hist : List Nat)
    (h : PassInv e [] ss) (hx : (ss.g_states x).dp (1 - e.i) = e.lbl) (hxy : x ∈ e.Ei y)
    (B : BfsInv e D hist ss) (hxd : (ss.g_states x).depth (1 - e.i) = D)
    (hnw : ∀ ev ∈ (if (ss.g_states y).dp e.i = e.lbl then []
      else
        Event.write y e.i e.lbl (((ss.g_states x).depth (1 - e.i) + 1) % 65536) x (1 - e.i) ::
          inner_trace e.lbl e.i y (reverse_edges e.oj e.Ej y)
            (SolveState.mk
              (upd ss.g_states y
                ((ss.g_states y).label e.i e.lbl
                  (((ss.g_states x).depth (1 - e.i) + 1) % 65536)))
              ss.need ss.q)), Event.no_wrap ev) :
    BfsInv e D
      (hist ++ pushes (if (ss.g_states y).dp e.i = e.lbl then []
      else
        Event.write y e.i e.lbl (((ss.g_states x).depth (1 - e.i) + 1) % 65536) x (1 - e.i) ::
          inner_trace e.lbl e.i y (reverse_edges e.oj e.Ej y)
            (SolveState.mk
              (upd ss.g_states y
                ((ss.g_states y).label e.i e.lbl
                  (((ss.g_states x).depth (1 - e.i) + 1) % 65536)))
              ss.need ss.q)))
      (pass_mid e.lbl e.i (reverse_edges e.oj e.Ej) x ss y) := by
  by_cases hg : (ss.g_states y).dp e.i = e.lbl
  · rw [if_pos hg, pass_mid_skip _ _ _ _ _ _ hg]
    show BfsInv e D (hist ++ []) ss
    rw [List.append_nil]; exact B
  · rw [if_neg hg, pass_mid_label _ _ _ _ _ _ hg, pushes_write_cons]
    rw [if_neg hg] at hnw
    have hd0 : ((ss.g_states x).depth (1 - e.i) + 1) % 65536 ≠ 0 :=
      hnw (Event.write y e.i e.lbl (((ss.g_states x).depth (1 - e.i) + 1) % 65536) x (1 - e.i))
        (List.mem_cons_self _ _)
    obtain ⟨hd1, hd2⟩ := no_wrap_succ _ (B.bound x (1 - e.i)) hd0
    obtain ⟨h2, hy2⟩ := pass_label_inv e he x y ss h hx hxy hg _ rfl _ rfl
    have B2 : BfsInv e D hist (SolveState.mk
        (upd ss.g_states y
          ((ss.g_states y).label e.i e.lbl (((ss.g_states x).depth (1 - e.i) + 1) % 65536)))
        ss.need ss.q) := by
      refine bfs_label e D hist ss (SolveState.mk _ ss.need ss.q) y B hg ?_ rfl
        (by rw [← hxd]; exact hd2) ?_
      · show upd ss.g_states y _ = upd ss.g_states y _
        rw [hd1, hxd]
      · intro z hz t ht
        exact ((fresh_iff _ _ _ _ _).mp ((h.sound_j z hz).1 t ht)).1
    apply bfs_inner_fold e he y (reverse_edges e.oj e.Ej y) _ D hist h2
      (fun z hz => (mem_reverse_edges _ _ _ _).mp hz) hy2 B2
    · show ((upd ss.g_states y _) y).depth e.i = D + 1
      rw [upd_same, StateInfo.label_depth, hd1, hxd]
    · intro ev hev
      exact hnw ev (List.mem_cons_of_mem _ hev)

/-- The middle loop keeps the breadth-first order. -/
theorem bfs_mid_fold (e : PassEnv) (he : PassHyp e) (x : Nat) (ys : List Nat)
    (ss : SolveState) (D : Nat) (hist : List Nat)
    (h : PassInv e [] ss) (hx : (ss.g_states x).dp (1 - e.i) = e.lbl)
    (hys : ∀ y ∈ ys, x ∈ e.Ei y)
    (B : BfsInv e D hist ss) (hxd : (ss.g_states x).depth (1 - e.i) = D)
    (hnw : ∀ ev ∈ mid_trace e.lbl e.i (reverse_edges e.oj e.Ej) x ys ss, Event.no_wrap ev) :
    BfsInv e D (hist ++ pushes (mid_trace e.lbl e.i (reverse_edges e.oj e.Ej) x ys ss))
      (ys.foldl (pass_mid e.lbl e.i (reverse_edges e.oj e.Ej) x) ss) := by
  induction ys generalizing ss hist with
  | nil =>
    rw [mid_trace_nil, List.foldl_nil]
    show BfsInv e D (hist ++ []) ss
    rw [List.append_nil]; exact B
  | cons y rest ih =>
    rw [List.foldl_cons, mid_trace_cons, pushes_append, ← List.append_assoc]
    rw [mid_trace_cons] at hnw
    have hxy := hys y (List.mem_cons_self _ _)
    have B2 := bfs_mid_step e he x y ss D hist h hx hxy B hxd
      (fun ev hev => hnw ev (List.mem_append_left _ hev))
    have hseg := seg_mid_step e he x y ss h hx hxy
    obtain ⟨hx2, hxd2⟩ := hseg.persist x (1 - e.i) hx
    exact ih _ _ (pass_mid_inv e he x y ss h hx hxy) hx2
      (fun t ht => hys t (List.mem_cons_of_mem _ ht)) B2 (hxd2.trans hxd)
      (fun ev hev => hnw ev (List.mem_append_right _ hev))

/-- Popping the front of the queue: the breadth-first order holds at the
depth of the popped state. -/
theorem bfs_pop (e : PassEnv) (ss : SolveState) (D : Nat) (hist : List Nat) (x : Nat)
    (rest : List Nat) (hq : ss.q = x :: rest) (B : BfsInv e D hist ss) :
    BfsInv e ((ss.g_states x).depth (1 - e.i)) hist
      (SolveState.mk ss.g_states ss.need rest) := by
  have hDx : D ≤ (ss.g_states x).depth (1 - e.i) :=
    B.q_lo x (by rw [hq]; exact List.mem_cons_self _ _)
  obtain ⟨done, hdone⟩ := B.suffix
  refine ⟨?_, ?_, B.hist_lab, B.sorted, ⟨done ++ [x], ?_⟩, ?_, B.lt, B.bound⟩
  · intro s hs
    have hsorted := B.sorted
    rw [hdone, hq, List.map_append, List.pairwise_append] at hsorted
    have := hsorted.2.1
    rw [List.map_cons, List.pairwise_cons] at this
    exact this.1 _ (List.mem_map.mpr ⟨s, hs, rfl⟩)
  · intro s hs
    have := B.hist_hi s hs
    show (ss.g_states s).depth (1 - e.i) ≤ (ss.g_states x).depth (1 - e.i) + 2
    omega
  · show hist = (done ++ [x]) ++ rest
    rw [hdone, hq, List.append_assoc]; rfl
  · intro t ht
    have := B.fresh_hi t ht
    show (ss.g_states t).depth e.i ≤ (ss.g_states x).depth (1 - e.i) + 1
    omega

theorem pushes_pop_cons (x : Nat) (tr : List Event) :
    pushes (Event.pop x :: tr) = pushes tr := rfl

/-- A propagation loop keeps the breadth-first order, as long as no written
depth wraps. -/
theorem bfs_loop (e : PassEnv) (he : PassHyp e) (fuel : Nat) (ss : SolveState)
    (D : Nat) (hist : List Nat) (h : PassInv e [] ss) (B : BfsInv e D hist ss)
    (hnw : ∀ ev ∈ loop_trace e.lbl e.i (reverse_edges e.oi e.Ei) (reverse_edges e.oj e.Ej)
      fuel ss, Event.no_wrap ev) :
    ∃ D2, BfsInv e D2
      (hist ++ pushes (loop_trace e.lbl e.i (reverse_edges e.oi e.Ei)
        (reverse_edges e.oj e.Ej) fuel ss))
      (pass_loop e.lbl e.i (reverse_edges e.oi e.Ei) (reverse_edges e.oj e.Ej) fuel ss) := by
  induction fuel generalizing ss hist D with
  | zero =>
    refine ⟨D, ?_⟩
    rw [loop_trace_zero]
    show BfsInv e D (hist ++ []) ss
    rw [List.append_nil]; exact B
  | succ n ih =>
    cases hq : ss.q with
    | nil =>
      refine ⟨D, ?_⟩
      rw [loop_trace_empty _ _ _ _ _ ss hq, pass_loop_empty _ _ _ _ _ ss hq]
      show BfsInv e D (hist ++ []) ss
      rw [List.append_nil]; exact B
    | cons x rest =>
      rw [loop_trace_step _ _ _ _ n ss x rest hq, pass_loop_step _ _ _ _ n ss x rest hq,
        pushes_pop_cons, pushes_append, ← List.append_assoc]
      rw [loop_trace_step _ _ _ _ n ss x rest hq] at hnw
      obtain ⟨hpop, hx⟩ := h.pop x rest hq
      have hys : ∀ y ∈ reverse_edges e.oi e.Ei x, x ∈ e.Ei y :=
        fun y hy => ((mem_reverse_edges _ _ _ _).mp hy).2
      have B1 := bfs_pop e ss D hist x rest hq B
      have B2 := bfs_mid_fold e he x (reverse_edges e.oi e.Ei x) _ _ hist hpop hx hys B1 rfl
        (fun ev hev => hnw ev (List.mem_cons_of_mem _ (List.mem_append_left _ hev)))
      exact ih _ _ _ (pass_mid_fold_inv e he x _ _ hpop hx hys) B2
        (fun ev hev => hnw ev (List.mem_cons_of_mem _ (List.mem_append_right _ hev)))

/-! ### A bound on the depths: no wrap on a small graph -/

theorem StateInfo.dp_succ (info : StateInfo) (k : Nat) (hk : k ≠ 0) :
    info.dp k = info.dp 1 ∧ info.depth k = info.depth 1 := by
  unfold StateInfo.dp StateInfo.depth
  rw [if_neg hk, if_neg hk, if_neg (by decide), if_neg (by decide)]
  exact ⟨rfl, rfl⟩

theorem labelled_count_le (lbl : Int) (U : List Nat) (g : Nat → StateInfo) :
    labelled_count lbl U g ≤ 2 * U.length := by
  unfold labelled_count
  have h1 : U.countP (fun s => decide ((g s).dp 0 = lbl)) ≤ U.length := List.countP_le_length _
  have h2 : U.countP (fun s => decide ((g s).dp 1 = lbl)) ≤ U.length := List.countP_le_length _
  omega

theorem labelled_count_pos (lbl : Int) (U : List Nat) (g : Nat → StateInfo) (s k : Nat)
    (hs : s ∈ U) (h : (g s).dp k = lbl) : 0 < labelled_count lbl U g := by
  unfold labelled_count
  by_cases hk : k = 0
  · subst hk
    have : 0 < U.countP (fun s => decide ((g s).dp 0 = lbl)) :=
      List.countP_pos_iff.mpr ⟨s, hs, by simpa using h⟩
    omega
  · rw [(StateInfo.dp_succ _ k hk).1] at h
    have : 0 < U.countP (fun s => decide ((g s).dp 1 = lbl)) :=
      List.countP_pos_iff.mpr ⟨s, hs, by simpa using h⟩
    omega

/-- Labelled pairs of depth zero satisfy the bound. -/
theorem CountInv.init (lbl : Int) (U : List Nat) (g : Nat → StateInfo)
    (h : ∀ s k, (g s).dp k = lbl → s ∈ U ∧ (g s).depth k = 0) : CountInv lbl U g :=
  ⟨fun s k hs => (h s k hs).1, fun s k hs => by
    rw [(h s k hs).2]; exact labelled_count_pos lbl U g s k (h s k hs).1 hs⟩

/-- Writing the label on a pair that did not carry it, with a depth that is
at most the number of labelled pairs, keeps the bound and raises the
number. -/
theorem CountInv.count_label (lbl : Int) (U : List Nat) (g : Nat → StateInfo) (s k d : Nat)
    (C : CountInv lbl U g) (hs : s ∈ U) (hn : (g s).dp k ≠ lbl)
    (hd : d ≤ labelled_count lbl U g) :
    CountInv lbl U (upd g s ((g s).label k lbl d)) ∧
      labelled_count lbl U g + 1 ≤ labelled_count lbl U (upd g s ((g s).label k lbl d)) := by
  have hcs : 1 ≤ U.count s := List.count_pos_iff.mpr hs
  have hsame : ((upd g s ((g s).label k lbl d)) s).dp k = lbl ∧
      ((upd g s ((g s).label k lbl d)) s).depth k = d := by
    rw [upd_same]; exact ⟨StateInfo.label_dp _ _ _ _, StateInfo.label_depth _ _ _ _⟩
  have hne : ∀ t, t ≠ s → (upd g s ((g s).label k lbl d)) t = g t :=
    fun t ht => upd_other _ _ _ _ ht
  have hcount : labelled_count lbl U g + 1 ≤
      labelled_count lbl U (upd g s ((g s).label k lbl d)) := by
    unfold labelled_count
    by_cases hk : k = 0
    · subst hk
      have h0 := countP_upd (fun t => decide ((g t).dp 0 = lbl))
        (fun t => decide (((upd g s ((g s).label 0 lbl d)) t).dp 0 = lbl)) s U
        (by simpa using hn) (by simpa using hsame.1)
        (fun t ht => by show decide _ = decide _; rw [hne t ht])
      have h1 : U.countP (fun t => decide (((upd g s ((g s).label 0 lbl d)) t).dp 1 = lbl)) =
          U.countP (fun t => decide ((g t).dp 1 = lbl)) := by
        congr 1
        funext t
        rw [(labelled_other g s 0 1 lbl d (by decide) t).1]
      rw [h0, h1]
      omega
    · have hn1 : (g s).dp 1 ≠ lbl := by
        rw [← (StateInfo.dp_succ _ k hk).1]; exact hn
      have hs1 : ((upd g s ((g s).label k lbl d)) s).dp 1 = lbl := by
        rw [← (StateInfo.dp_succ _ k hk).1]; exact hsame.1
      have h0 := countP_upd (fun t => decide ((g t).dp 1 = lbl))
        (fun t => decide (((upd g s ((g s).label k lbl d)) t).dp 1 = lbl)) s U
        (by simpa using hn1) (by simpa using hs1)
        (fun t ht => by show decide _ = decide _; rw [hne t ht])
      have h1 : U.countP (fun t => decide (((upd g s ((g s).label k lbl d)) t).dp 0 = lbl)) =
          U.countP (fun t => decide ((g t).dp 0 = lbl)) := by
        congr 1
        funext t
        rw [(labelled_other g s k 0 lbl d (by simp [hk]) t).1]
      rw [h0, h1]
      omega
  refine ⟨⟨?_, ?_⟩, hcount⟩
  · intro t k2 h
    by_cases hts : t = s
    · rw [hts]; exact hs
    · rw [hne t hts] at h; exact C.mem t k2 h
  · intro t k2 h
    by_cases hts : t = s
    · subst hts
      by_cases hf : k2 = 0 ↔ k = 0
      · rw [(dp_same_field _ k2 k hf).2, hsame.2]
        omega
      · have hk2 : k = 0 ↔ k2 ≠ 0 := by
          constructor
          · intro h0 h2; exact hf ⟨fun _ => h0, fun _ => h2⟩
          · intro h2; by_contra h0; exact hf ⟨fun hh => absurd hh h2, fun hh => absurd hh h0⟩
        have ho := labelled_other g t k k2 lbl d hk2 t
        rw [ho.1] at h
        rw [ho.2]
        have := C.lt t k2 h
        omega
    · rw [hne t hts] at h ⊢
      have := C.lt t k2 h
      omega

/-- The depth written from a labelled parent on a graph with at most
`2 ^ 15` states does not wrap, and is at most the number of labelled
pairs. -/
theorem CountInv.step (lbl : Int) (U : List Nat) (g : Nat → StateInfo) (s k p pk : Nat)
    (hU : 2 * U.length ≤ 65536)
    (C : CountInv lbl U g) (hs : s ∈ U) (hn : (g s).dp k ≠ lbl) (hp : (g p).dp pk = lbl) :
    CountInv lbl U (upd g s ((g s).label k lbl (((g p).depth pk + 1) % 65536))) ∧
      ((g p).depth pk + 1) % 65536 ≠ 0 := by
  have hlt := C.lt p pk hp
  have hle : ((g p).depth pk + 1) % 65536 ≤ labelled_count lbl U g :=
    Nat.le_trans (Nat.mod_le _ _) hlt
  obtain ⟨C2, hc⟩ := CountInv.count_label lbl U g s k _ C hs hn hle
  refine ⟨C2, ?_⟩
  have := labelled_count_le lbl U (upd g s ((g s).label k lbl (((g p).depth pk + 1) % 65536)))
  rw [Nat.mod_eq_of_lt (by omega)]
  omega

/-- One iteration of the innermost loop on a small graph. -/
theorem count_inner_step (e : PassEnv) (U : List Nat) (hU : 2 * U.length ≤ 65536)
    (y z : Nat) (rem : List Nat) (ss : SolveState)
    (h : PassInv e (z :: rem) ss) (hz : z ∈ U)
    (hy : fresh e.lbl e.i e.g0 ss.g_states y = true) (C : CountInv e.lbl U ss.g_states) :
    CountInv e.lbl U (pass_inner e.lbl e.i y ss z).g_states ∧
      ∀ ev ∈ (Event.dec z (1 - e.i) (ss.need z (1 - e.i) - 1) ::
        (if ss.need z (1 - e.i) - 1 = 0 then
          [Event.push z,
            Event.write z (1 - e.i) e.lbl (((ss.g_states y).depth e.i + 1) % 65536) y e.i]
        else [])), Event.no_wrap ev := by
  rw [pass_inner_states]
  by_cases hn : ss.need z (1 - e.i) - 1 = 0
  · rw [if_pos hn, if_pos hn]
    obtain ⟨C2, hd⟩ := CountInv.step e.lbl U ss.g_states z (1 - e.i) y e.i hU C hz
      (h.rem_unl z (List.mem_cons_self _ _)) ((fresh_iff _ _ _ _ _).mp hy).1
    refine ⟨C2, ?_⟩
    intro ev hev
    simp only [List.mem_cons, List.mem_singleton, List.not_mem_nil, or_false] at hev
    rcases hev with rfl | rfl | rfl
    · trivial
    · trivial
    · exact hd
  · rw [if_neg hn, if_neg hn]
    refine ⟨C, ?_⟩
    intro ev hev
    simp only [List.mem_cons, List.mem_singleton, List.not_mem_nil, or_false] at hev
    rw [hev]; trivial

/-- The innermost loop on a small graph. -/
theorem count_inner_fold (e : PassEnv) (he : PassHyp e) (U : List Nat)
    (hU : 2 * U.length ≤ 65536) (hoj : ∀ z ∈ e.oj, z ∈ U) (y : Nat) (rem : List Nat)
    (ss : SolveState) (h : PassInv e rem ss) (hrem : ∀ z ∈ rem, z ∈ e.oj ∧ y ∈ e.Ej z)
    (hy : fresh e.lbl e.i e.g0 ss.g_states y = true) (C : CountInv e.lbl U ss.g_states) :
    CountInv e.lbl U (rem.foldl (pass_inner e.lbl e.i y) ss).g_states ∧
      ∀ ev ∈ inner_trace e.lbl e.i y rem ss, Event.no_wrap ev := by
  induction rem generalizing ss with
  | nil => exact ⟨C, fun ev hev => absurd hev (List.not_mem_nil _)⟩
  | cons z rest ih =>
    rw [List.foldl_cons, inner_trace_cons]
    have hz := hrem z (List.mem_cons_self _ _)
    obtain ⟨h2, hy2⟩ := pass_inner_inv e he y z rest ss h hz.1 hz.2 hy
    obtain ⟨C2, hw⟩ := count_inner_step e U hU y z rest ss h (hoj z hz.1) hy C
    obtain ⟨C3, hw3⟩ := ih _ h2 (fun t ht => hrem t (List.mem_cons_of_mem _ ht)) hy2 C2
    refine ⟨C3, ?_⟩
    intro ev hev
    rcases List.mem_append.mp hev with hev | hev
    · exact hw ev hev
    · exact hw3 ev hev

/-- One iteration of the middle loop on a small graph. -/
theorem count_mid_step (e : PassEnv) (he : PassHyp e) (U : List Nat)
    (hU : 2 * U.length ≤ 65536) (hoj : ∀ z ∈ e.oj, z ∈ U) (x y : Nat) (ss : SolveState)
    (h : PassInv e [] ss) (hx : (ss.g_states x).dp (1 - e.i) = e.lbl) (hxy : x ∈ e.Ei y)
    (hyU : y ∈ U) (C : CountInv e.lbl U ss.g_states) :
    CountInv e.lbl U (pass_mid e.lbl e.i (reverse_edges e.oj e.Ej) x ss y).g_states ∧
      ∀ ev ∈ (if (ss.g_states y).dp e.i = e.lbl then []
      else
        Event.write y e.i e.lbl (((ss.g_states x).depth (1 - e.i) + 1) % 65536) x (1 - e.i) ::
          inner_trace e.lbl e.i y (reverse_edges e.oj e.Ej y)
            (SolveState.mk
              (upd ss.g_states y
                ((ss.g_states y).label e.i e.lbl
                  (((ss.g_states x).depth (1 - e.i) + 1) % 65536)))
              ss.need ss.q)), Event.no_wrap ev := by
  by_cases hg : (ss.g_states y).dp e.i = e.lbl
  · rw [if_pos hg, pass_mid_skip _ _ _ _ _ _ hg]
    exact ⟨C, fun ev hev => absurd hev (List.not_mem_nil _)⟩
  · rw [if_neg hg, pass_mid_label _ _ _ _ _ _ hg]
    obtain ⟨h2, hy2⟩ := pass_label_inv e he x y ss h hx hxy hg _ rfl _ rfl
    obtain ⟨C2, hd⟩ := CountInv.step e.lbl U ss.g_states y e.i x (1 - e.i) hU C hyU hg hx
    obtain ⟨C3, hw3⟩ := count_inner_fold e he U hU hoj y (reverse_edges e.oj e.Ej y) _ h2
      (fun z hz => (mem_reverse_edges _ _ _ _).mp hz) hy2 C2
    refine ⟨C3, ?_⟩
    intro ev hev
    rcases List.mem_cons.mp hev with hev | hev
    · rw [hev]; exact hd
    · exact hw3 ev hev

/-- The middle loop on a small graph. -/
theorem count_mid_fold (e : PassEnv) (he : PassHyp e) (U : List Nat)
    (hU : 2 * U.length ≤ 65536) (hoj : ∀ z ∈ e.oj, z ∈ U) (x : Nat) (ys : List Nat)
    (ss : SolveState) (h : PassInv e [] ss) (hx : (ss.g_states x).dp (1 - e.i) = e.lbl)
    (hys : ∀ y ∈ ys, x ∈ e.Ei y ∧ y ∈ U) (C : CountInv e.lbl U ss.g_states) :
    CountInv e.lbl U
        (ys.foldl (pass_mid e.lbl e.i (reverse_edges e.oj e.Ej) x) ss).g_states ∧
      ∀ ev ∈ mid_trace e.lbl e.i (reverse_edges e.oj e.Ej) x ys ss, Event.no_wrap ev := by
  induction ys generalizing ss with
  | nil => exact ⟨C, fun ev hev => absurd hev (List.not_mem_nil _)⟩
  | cons y rest ih =>
    rw [List.foldl_cons, mid_trace_cons]
    have hxy := hys y (List.mem_cons_self _ _)
    obtain ⟨C2, hw⟩ := count_mid_step e he U hU hoj x y ss h hx hxy.1 hxy.2 C
    obtain ⟨C3, hw3⟩ := ih _ (pass_mid_inv e he x y ss h hx hxy.1)
      (pass_mid_mono _ _ _ _ _ _ _ _ hx) (fun t ht => hys t (List.mem_cons_of_mem _ ht)) C2
    refine ⟨C3, ?_⟩
    intro ev hev
    rcases List.mem_append.mp hev with hev | hev
    · exact hw ev hev
    · exact hw3 ev hev

/-- A propagation loop on a graph with at most `2 ^ 15` states: no written
depth wraps. -/
theorem count_loop (e : PassEnv) (he : PassHyp e) (U : List Nat)
    (hU : 2 * U.length ≤ 65536) (hoi : ∀ z ∈ e.oi, z ∈ U) (hoj : ∀ z ∈ e.oj, z ∈ U)
    (fuel : Nat) (ss : SolveState) (h : PassInv e [] ss) (C : CountInv e.lbl U ss.g_states) :
    CountInv e.lbl U
        (pass_loop e.lbl e.i (reverse_edges e.oi e.Ei) (reverse_edges e.oj e.Ej) fuel
          ss).g_states ∧
      ∀ ev ∈ loop_trace e.lbl e.i (reverse_edges e.oi e.Ei) (reverse_edges e.oj e.Ej) fuel ss,
        Event.no_wrap ev := by
  induction fuel generalizing ss with
  | zero => exact ⟨C, fun ev hev => absurd hev (List.not_mem_nil _)⟩
  | succ n ih =>
    cases hq : ss.q with
    | nil =>
      rw [loop_trace_empty _ _ _ _ _ ss hq, pass_loop_empty _ _ _ _ _ ss hq]
      exact ⟨C, fun ev hev => absurd hev (List.not_mem_nil _)⟩
    | cons x rest =>
      rw [loop_trace_step _ _ _ _ n ss x rest hq, pass_loop_step _ _ _ _ n ss x rest hq]
      obtain ⟨hpop, hx⟩ := h.pop x rest hq
      have hys : ∀ y ∈ reverse_edges e.oi e.Ei x, x ∈ e.Ei y :=
        fun y hy => ((mem_reverse_edges _ _ _ _).mp hy).2
      have hys2 : ∀ y ∈ reverse_edges e.oi e.Ei x, x ∈ e.Ei y ∧ y ∈ U :=
        fun y hy => ⟨hys y hy, hoi y ((mem_reverse_edges _ _ _ _).mp hy).1⟩
      obtain ⟨C2, hw⟩ := count_mid_fold e he U hU hoj x (reverse_edges e.oi e.Ei x) _ hpop hx
        hys2 C
      obtain ⟨C3, hw3⟩ := ih _ (pass_mid_fold_inv e he x _ _ hpop hx hys) C2
      refine ⟨C3, ?_⟩
      intro ev hev
      rcases List.mem_cons.mp hev with hev | hev
      · rw [hev]; trivial
      · rcases List.mem_append.mp hev with hev | hev
        · exact hw ev hev
        · exact hw3 ev hev


/-! ### The two loops of `solve` in breadth-first order -/

theorem pushes_map_push (l : List Nat) : pushes (l.map Event.push) = l := by
  induction l with
  | nil => rfl
  | cons a t ih =>
    rw [List.map_cons]
    show pushes ([Event.push a] ++ t.map Event.push) = a :: t
    rw [pushes_append, ih]
    rfl

theorem pops_map_push (l : List Nat) : pops (l.map Event.push) = [] := by
  induction l with
  | nil => rfl
  | cons a t ih =>
    rw [List.map_cons]
    show pops ([Event.push a] ++ t.map Event.push) = []
    rw [pops_append, ih]
    rfl

theorem no_wrap_map_push (l : List Nat) : ∀ ev ∈ l.map Event.push, Event.no_wrap ev := by
  intro ev hev
  obtain ⟨a, _, rfl⟩ := List.mem_map.mp hev
  trivial

/-- Every depth that `train` leaves is zero. -/
theorem GraphInv.depth_zero {st : TrainState} (G : GraphInv st) (s k : Nat) :
    (st.g_states s).depth k = 0 := by
  by_cases hw : s ∈ st.g_wins
  · rw [G.wins_label s hw]; unfold StateInfo.depth; by_cases hk : k = 0 <;> simp [hk]
  · by_cases hl : s ∈ st.g_loses
    · rw [G.loses_label s hl]; unfold StateInfo.depth; by_cases hk : k = 0 <;> simp [hk]
    · rw [G.other_label s hw hl]
      unfold StateInfo.depth StateInfo.zero; by_cases hk : k = 0 <;> simp [hk]

/-- A label `-1` after the win propagation is a label of `train`, on a
terminal of `g_loses`, with depth zero. -/
theorem win_pass_lose_label (st : TrainState) (G : GraphInv st)
    (order0 order1 wins : List Nat) (h1 : order1.Nodup) (hw : ∀ s ∈ wins, s ∈ st.g_wins)
    (s k : Nat) (h : ((win_pass st order0 order1 wins).g_states s).dp k = -1) :
    s ∈ st.g_loses ∧ ((win_pass st order0 order1 wins).g_states s).depth k = 0 := by
  have hwi := win_inv st G order0 order1 wins h1 hw
  by_cases hk : k = 0
  · subst hk
    have hne : ((win_pass st order0 order1 wins).g_states s).dp 0 ≠ 1 := by rw [h]; decide
    obtain ⟨a, c⟩ := hwi.keep_i s hne
    have a2 : ((win_pass st order0 order1 wins).g_states s).dp 0 = (st.g_states s).dp 0 := a
    have c2 : ((win_pass st order0 order1 wins).g_states s).depth 0 =
        (st.g_states s).depth 0 := c
    rw [a2] at h
    exact ⟨(G.dp_cases s 0).2.mp h, by rw [c2]; exact G.depth_zero s 0⟩
  · obtain ⟨e1, e2⟩ := StateInfo.dp_succ ((win_pass st order0 order1 wins).g_states s) k hk
    rw [e1] at h
    rw [e2]
    have hne : ((win_pass st order0 order1 wins).g_states s).dp 1 ≠ 1 := by rw [h]; decide
    obtain ⟨a, c⟩ := hwi.keep_j s hne
    have a2 : ((win_pass st order0 order1 wins).g_states s).dp 1 = (st.g_states s).dp 1 := a
    have c2 : ((win_pass st order0 order1 wins).g_states s).depth 1 =
        (st.g_states s).depth 1 := c
    rw [a2] at h
    exact ⟨(G.dp_cases s 1).2.mp h, by rw [c2]; exact G.depth_zero s 1⟩

/-- On a graph with at most `2 ^ 15` states no depth written by `solve`
wraps. -/
theorem solve_no_wrap_small (st : TrainState) (G : GraphInv st)
    (order0 order1 wins loses : List Nat) (h0 : order0.Nodup) (h1 : order1.Nodup)
    (hw : ∀ s ∈ wins, s ∈ st.g_wins) (hl : ∀ s ∈ loses, s ∈ st.g_loses)
    (U : List Nat) (hU : 2 * U.length ≤ 65536) (h0U : ∀ s ∈ order0, s ∈ U)
    (h1U : ∀ s ∈ order1, s ∈ U) (hwU : ∀ s ∈ st.g_wins, s ∈ U)
    (hlU : ∀ s ∈ st.g_loses, s ∈ U) :
    ∀ ev ∈ win_trace st order0 order1 wins ++ lose_trace st order0 order1 wins loses,
      Event.no_wrap ev := by
  have C1 : CountInv 1 U st.g_states :=
    CountInv.init 1 U st.g_states
      (fun s k h => ⟨hwU s ((G.dp_cases s k).1.mp h), G.depth_zero s k⟩)
  have L1 := count_loop (win_env st order0 order1) (win_hyp st G order0 order1 h1) U hU
    h0U h1U (wins.length + order1.length) (SolveState.mk st.g_states (solve_need st) wins)
    (win_init st G order0 order1 wins hw) C1
  have C2 : CountInv (-1) U (win_pass st order0 order1 wins).g_states :=
    CountInv.init (-1) U _ (fun s k h => by
      obtain ⟨a, c⟩ := win_pass_lose_label st G order0 order1 wins h1 hw s k h
      exact ⟨hlU s a, c⟩)
  have L2 := count_loop (lose_env st order0 order1 wins)
    (lose_hyp st G order0 order1 wins h0 h1 hw) U hU h1U h0U
    ((win_pass st order0 order1 wins).q.length + loses.length + order0.length)
    (SolveState.mk (win_pass st order0 order1 wins).g_states
      (win_pass st order0 order1 wins).need ((win_pass st order0 order1 wins).q ++ loses))
    (lose_init st G order0 order1 wins loses h1 hw hl) C2
  intro ev hev
  rcases List.mem_append.mp hev with hev | hev
  · unfold win_trace at hev
    rcases List.mem_append.mp hev with hev | hev
    · exact no_wrap_map_push wins ev hev
    · exact L1.2 ev hev
  · unfold lose_trace at hev
    rcases List.mem_append.mp hev with hev | hev
    · exact no_wrap_map_push loses ev hev
    · exact L2.2 ev hev

/-- The breadth-first order holds after each of the two loops of `solve`,
as long as no written depth wraps: `hist` is the list of the states pushed
in the loop. -/
theorem solve_bfs (st : TrainState) (G : GraphInv st)
    (order0 order1 wins loses : List Nat) (h0 : order0.Nodup) (h1 : order1.Nodup)
    (hw : ∀ s ∈ wins, s ∈ st.g_wins) (hl : ∀ s ∈ loses, s ∈ st.g_loses)
    (hnw : ∀ ev ∈ win_trace st order0 order1 wins ++ lose_trace st order0 order1 wins loses,
      Event.no_wrap ev) :
    (∃ D, BfsInv (win_env st order0 order1) D (pushes (win_trace st order0 order1 wins))
      (win_pass st order0 order1 wins)) ∧
    (∃ D, BfsInv (lose_env st order0 order1 wins) D
      (pushes (lose_trace st order0 order1 wins loses))
      (solve st order0 order1 wins loses)) := by
  have hwi := win_inv st G order0 order1 wins h1 hw
  have B0 : BfsInv (win_env st order0 order1) 0 wins
      (SolveState.mk st.g_states (solve_need st) wins) := by
    refine ⟨fun s _ => Nat.zero_le _, ?_, ?_, ?_, ⟨[], rfl⟩, ?_, ?_, ?_⟩
    · intro s _
      show (st.g_states s).depth _ ≤ _
      rw [G.depth_zero]; omega
    · intro s hs
      exact (G.dp_cases s 1).1.mpr (hw s hs)
    · apply List.pairwise_map.mpr
      apply List.pairwise_of_forall_mem_list
      intro a _ c _
      show (st.g_states a).depth _ ≤ (st.g_states c).depth _
      rw [G.depth_zero, G.depth_zero]
    · intro y hy
      have := (fresh_iff _ _ _ _ _).mp hy
      exact absurd this.1 this.2
    · intro z hz
      have := (fresh_iff _ _ _ _ _).mp hz
      exact absurd this.1 this.2
    · intro s k
      show (st.g_states s).depth k < 65536
      rw [G.depth_zero]; decide
  obtain ⟨D1, B1⟩ := bfs_loop (win_env st order0 order1) (win_hyp st G order0 order1 h1)
    (wins.length + order1.length) _ 0 wins (win_init st G order0 order1 wins hw) B0
    (fun ev hev => hnw ev (List.mem_append_left _ (List.mem_append_right _ hev)))
  have B1w : BfsInv (win_env st order0 order1) D1 (pushes (win_trace st order0 order1 wins))
      (win_pass st order0 order1 wins) := by
    unfold win_trace
    rw [pushes_append, pushes_map_push]
    exact B1
  refine ⟨⟨D1, B1w⟩, ?_⟩
  have hq : (win_pass st order0 order1 wins).q ++ loses = loses := by
    rw [win_done]; rfl
  have hli := lose_init st G order0 order1 wins loses h1 hw hl
  have hld : ∀ s ∈ loses, ((win_pass st order0 order1 wins).g_states s).depth 0 = 0 := by
    intro s hs
    have := hli.queue s (by
      show s ∈ (win_pass st order0 order1 wins).q ++ loses
      exact List.mem_append_right _ hs)
    exact (win_pass_lose_label st G order0 order1 wins h1 hw s 0 this).2
  have B2 : BfsInv (lose_env st order0 order1 wins) 0 loses
      (SolveState.mk (win_pass st order0 order1 wins).g_states
        (win_pass st order0 order1 wins).need
        ((win_pass st order0 order1 wins).q ++ loses)) := by
    refine ⟨fun s _ => Nat.zero_le _, ?_, ?_, ?_, ⟨[], ?_⟩, ?_, ?_, ?_⟩
    · intro s hs
      show ((win_pass st order0 order1 wins).g_states s).depth 0 ≤ _
      rw [hld s hs]; omega
    · intro s hs
      exact hli.queue s (by
        show s ∈ (win_pass st order0 order1 wins).q ++ loses
        exact List.mem_append_right _ hs)
    · apply List.pairwise_map.mpr
      apply List.pairwise_of_forall_mem_list
      intro a ha c hc
      show ((win_pass st order0 order1 wins).g_states a).depth 0 ≤
        ((win_pass st order0 order1 wins).g_states c).depth 0
      rw [hld a ha, hld c hc]
    · show loses = [] ++ ((win_pass st order0 order1 wins).q ++ loses)
      rw [hq]; rfl
    · intro y hy
      have := (fresh_iff _ _ _ _ _).mp hy
      exact absurd this.1 this.2
    · intro z hz
      have := (fresh_iff _ _ _ _ _).mp hz
      exact absurd this.1 this.2
    · exact B1w.bound
  obtain ⟨D2, B3⟩ := bfs_loop (lose_env st order0 order1 wins)
    (lose_hyp st G order0 order1 wins h0 h1 hw)
    ((win_pass st order0 order1 wins).q.length + loses.length + order0.length) _ 0 loses
    hli B2
    (fun ev hev => hnw ev (List.mem_append_right _ (List.mem_append_right _ hev)))
  refine ⟨D2, ?_⟩
  unfold lose_trace
  rw [pushes_append, pushes_map_push, solve_eq]
  exact B3

/-- Loss soundness of `solve`, as long as no written depth wraps: every
player-0 edge of a state that ends with `dp[0] = -1` leads to a state that
ends with `dp[1] = -1` and a smaller depth. -/
theorem solve_lose_sound (st : TrainState) (G : GraphInv st)
    (order0 order1 wins loses : List Nat) (h0 : order0.Nodup) (h1 : order1.Nodup)
    (hw : ∀ s ∈ wins, s ∈ st.g_wins) (hl : ∀ s ∈ loses, s ∈ st.g_loses)
    (hnw : ∀ ev ∈ win_trace st order0 order1 wins ++ lose_trace st order0 order1 wins loses,
      Event.no_wrap ev)
    (z : Nat) (hz : ((solve st order0 order1 wins loses).g_states z).dp 0 = -1) :
    ∀ y ∈ st.g_edge0 z,
      ((solve st order0 order1 wins loses).g_states y).dp 1 = -1 ∧
      ((solve st order0 order1 wins loses).g_states y).depth 1 <
        ((solve st order0 order1 wins loses).g_states z).depth 0 := by
  intro y hy
  obtain ⟨_, ⟨D, B⟩⟩ := solve_bfs st G order0 order1 wins loses h0 h1 hw hl hnw
  have hli := lose_inv st G order0 order1 wins loses h0 h1 hw hl
  obtain ⟨_, hzl, _⟩ := G.edge_zero z (Or.inl (List.ne_nil_of_mem hy))
  have hz0 : ((win_pass st order0 order1 wins).g_states z).dp 0 ≠ -1 := by
    intro hh
    exact hzl (win_pass_lose_label st G order0 order1 wins h1 hw z 0 hh).1
  have hf : fresh (lose_env st order0 order1 wins).lbl (1 - (lose_env st order0 order1 wins).i)
      (lose_env st order0 order1 wins).g0 (solve st order0 order1 wins loses).g_states z
        = true := by
    rw [fresh_iff]
    exact ⟨hz, hz0⟩
  have hs := (hli.sound_j z hf).1 y hy
  have hd := B.lt z hf y hy
  exact ⟨((fresh_iff _ _ _ _ _).mp hs).1, hd⟩

/-- The breadth-first order of the two loops of `solve`, as long as no
written depth wraps: each loop pops the states in the order in which they
were pushed, and all of them; the recorded depths of the pushed states are
in non-decreasing order; and every write assigns the label of its parent
and the depth of its parent plus one. -/
theorem solve_bfs_order (st : TrainState) (G : GraphInv st)
    (order0 order1 wins loses : List Nat) (h0 : order0.Nodup) (h1 : order1.Nodup)
    (hw : ∀ s ∈ wins, s ∈ st.g_wins) (hl : ∀ s ∈ loses, s ∈ st.g_loses)
    (hnw : ∀ ev ∈ win_trace st order0 order1 wins ++ lose_trace st order0 order1 wins loses,
      Event.no_wrap ev) :
    pops (win_trace st order0 order1 wins) = pushes (win_trace st order0 order1 wins) ∧
    pops (lose_trace st order0 order1 wins loses) =
      pushes (lose_trace st order0 order1 wins loses) ∧
    ((pushes (win_trace st order0 order1 wins)).map
      (fun s => ((solve st order0 order1 wins loses).g_states s).depth 1)).Pairwise
        (fun a c => a ≤ c) ∧
    ((pushes (lose_trace st order0 order1 wins loses)).map
      (fun s => ((solve st order0 order1 wins loses).g_states s).depth 0)).Pairwise
        (fun a c => a ≤ c) ∧
    (∀ s ∈ pushes (win_trace st order0 order1 wins),
      ((solve st order0 order1 wins loses).g_states s).dp 1 = 1) ∧
    (∀ s ∈ pushes (lose_trace st order0 order1 wins loses),
      ((solve st order0 order1 wins loses).g_states s).dp 0 = -1) ∧
    (∀ s k l d p pk, Event.write s k l d p pk ∈
        win_trace st order0 order1 wins ++ lose_trace st order0 order1 wins loses →
      ((solve st order0 order1 wins loses).g_states s).dp k = l ∧
      ((solve st order0 order1 wins loses).g_states p).dp pk = l ∧
      ((solve st order0 order1 wins loses).g_states s).depth k = d ∧
      d = ((solve st order0 order1 wins loses).g_states p).depth pk + 1) := by
  obtain ⟨⟨D1, B1⟩, ⟨D2, B2⟩⟩ := solve_bfs st G order0 order1 wins loses h0 h1 hw hl hnw
  have hwin := win_seg st G order0 order1 wins h1 hw
  have hlose := lose_seg st G order0 order1 wins loses h0 h1 hw hl
  have hkeep := solve_keeps_win st G order0 order1 wins loses h0 h1 hw hl
  refine ⟨?_, ?_, ?_, ?_, ?_, ?_, ?_⟩
  · unfold win_trace
    rw [pops_append, pushes_append, pops_map_push, pushes_map_push, List.nil_append]
    have := loop_trace_queue 1 0 (reverse_edges order0 st.g_edge0)
      (reverse_edges order1 st.g_edge1) (wins.length + order1.length)
      (SolveState.mk st.g_states (solve_need st) wins)
    have hd : (pass_loop 1 0 (reverse_edges order0 st.g_edge0)
      (reverse_edges order1 st.g_edge1) (wins.length + order1.length)
      (SolveState.mk st.g_states (solve_need st) wins)).q = [] :=
      win_done st order0 order1 wins
    rw [hd, List.append_nil] at this
    exact this.symm
  · unfold lose_trace
    rw [pops_append, pushes_append, pops_map_push, pushes_map_push, List.nil_append]
    have := loop_trace_queue (-1) 1 (reverse_edges order1 st.g_edge1)
      (reverse_edges order0 st.g_edge0)
      ((win_pass st order0 order1 wins).q.length + loses.length + order0.length)
      (SolveState.mk (win_pass st order0 order1 wins).g_states
        (win_pass st order0 order1 wins).need ((win_pass st order0 order1 wins).q ++ loses))
    have hd := solve_done st order0 order1 wins loses
    rw [solve_eq] at hd
    rw [hd, List.append_nil] at this
    have hq : (win_pass st order0 order1 wins).q ++ loses = loses := by
      rw [win_done]; rfl
    rw [← this]
    show (win_pass st order0 order1 wins).q ++ loses ++ _ = _
    rw [hq]
  · have hmap : (pushes (win_trace st order0 order1 wins)).map
        (fun s => ((solve st order0 order1 wins loses).g_states s).depth 1) =
        (pushes (win_trace st order0 order1 wins)).map
          (fun s => ((win_pass st order0 order1 wins).g_states s).depth 1) := by
      apply List.map_congr_left
      intro s hs
      exact ((hkeep s).2 (B1.hist_lab s hs)).2
    rw [hmap]
    exact B1.sorted
  · exact B2.sorted
  · intro s hs
    exact ((hkeep s).2 (B1.hist_lab s hs)).1
  · intro s hs
    exact B2.hist_lab s hs
  · intro s k l d p pk hm
    rcases List.mem_append.mp hm with hm1 | hm1
    · obtain ⟨a1, _, a3, a4, a5, a6, a7⟩ := hwin.written s k l d p pk hm1
      have a1b : l = 1 := a1
      have a3b : ((win_pass st order0 order1 wins).g_states s).dp k = 1 := a3
      have a5b : ((win_pass st order0 order1 wins).g_states p).dp pk = 1 := a5
      have hd0 : d ≠ 0 := hnw _ hm
      rw [a6] at hd0
      obtain ⟨hd1, _⟩ := no_wrap_succ _ (B1.bound p pk) hd0
      rw [hd1] at a6
      have hks : (k = 0 ∧ pk = 1) ∨ (k = 1 ∧ pk = 0) := by
        rcases a7 with ⟨hk, hpk, _⟩ | ⟨hk, hpk, _⟩
        · exact Or.inl ⟨hk, hpk⟩
        · exact Or.inr ⟨hk, hpk⟩
      rcases hks with ⟨rfl, rfl⟩ | ⟨rfl, rfl⟩
      · obtain ⟨c1, c2⟩ := (hkeep s).1 a3b
        obtain ⟨c3, c4⟩ := (hkeep p).2 a5b
        exact ⟨by rw [a1b]; exact c1, by rw [a1b]; exact c3, by rw [c2]; exact a4,
          by rw [c4]; exact a6⟩
      · obtain ⟨c1, c2⟩ := (hkeep s).2 a3b
        obtain ⟨c3, c4⟩ := (hkeep p).1 a5b
        exact ⟨by rw [a1b]; exact c1, by rw [a1b]; exact c3, by rw [c2]; exact a4,
          by rw [c4]; exact a6⟩
    · obtain ⟨a1, _, a3, a4, a5, a6, _⟩ := hlose.written s k l d p pk hm1
      have hd0 : d ≠ 0 := hnw _ hm
      rw [a6] at hd0
      obtain ⟨hd1, _⟩ := no_wrap_succ _ (B2.bound p pk) hd0
      rw [hd1] at a6
      exact ⟨by rw [a1]; exact a3, by rw [a1]; exact a5, a4, a6⟩

/-! ### The number of states of the 3x3 graph -/

set_option maxRecDepth 100000 in
/-- Every cell of the 3x3 board other than 0, 1 and 4 is moved to a smaller
cell by one of the eight transforms. -/
theorem smaller_image_3x3 : ∀ p < 9, p ≠ 0 → p ≠ 1 → p ≠ 4 →
    ∃ s < 8, transform train_3x3 s p < p := by
  decide

/-- In the canonical representative of a state of the 3x3 board within
budget whose X is not empty, the last position of X is 0, 1 or 4. -/
theorem canonical_last_3x3 (x y : List Nat) (hxl : x.length ≤ train_3x3.MAX_MOVE)
    (hxr : ∀ p ∈ x, p < train_3x3.CELLS) (hyl : y.length ≤ train_3x3.MAX_MOVE)
    (hyr : ∀ p ∈ y, p < train_3x3.CELLS) (hx : x ≠ []) :
    (canonicalize train_3x3 x y).x ≠ [] ∧
      ((canonicalize train_3x3 x y).x.getLastD 0 = 0 ∨
        (canonicalize train_3x3 x y).x.getLastD 0 = 1 ∨
        (canonicalize train_3x3 x y).x.getLastD 0 = 4) := by
  have hb : train_3x3 = train_3x3 ∨ train_3x3 = train_4x4_m4 := Or.inl rfl
  have hc := train_3x3_consistent
  obtain ⟨htid, hrx, hry, henc⟩ := canonicalize_fields train_3x3 hb x y hxl hxr hyl hyr
  obtain ⟨ini, l, rfl⟩ : ∃ ini l, x = ini ++ [l] :=
    ⟨x.dropLast, x.getLast hx, (List.dropLast_append_getLast hx).symm⟩
  have hxeq : (canonicalize train_3x3 (ini ++ [l]) y).x =
      apply_transform train_3x3 ini (canonicalize train_3x3 (ini ++ [l]) y).trans_id ++
        [transform train_3x3 (canonicalize train_3x3 (ini ++ [l]) y).trans_id l] := by
    rw [hrx]; unfold apply_transform; rw [List.map_append]; rfl
  have hlast : (canonicalize train_3x3 (ini ++ [l]) y).x.getLastD 0 =
      transform train_3x3 (canonicalize train_3x3 (ini ++ [l]) y).trans_id l := by
    rw [hxeq, List.getLastD_eq_getLast?, List.getLast?_append]
    simp
  refine ⟨by rw [hxeq]; simp, ?_⟩
  rw [hlast]
  by_contra hne
  push_neg at hne
  have hlr : l < train_3x3.CELLS := hxr l (List.mem_append_right _ (List.mem_singleton_self l))
  have hpr := transform_range train_3x3 hb _ htid l hlr
  obtain ⟨s, hs, hlt⟩ := smaller_image_3x3 _ hpr hne.1 hne.2.1 hne.2.2
  obtain ⟨u, hu, hcomp⟩ := transform_closed train_3x3 hb s hs _ htid
  have hmin := canonicalize_code_le train_3x3 (ini ++ [l]) y u hu
  have hxs := apply_transform_comp train_3x3 (ini ++ [l]) hxr s _ u hcomp
  have hys := apply_transform_comp train_3x3 y hyr s _ u hcomp
  have hlt2 : code_at train_3x3 (ini ++ [l]) y u <
      (canonicalize train_3x3 (ini ++ [l]) y).code := by
    unfold code_at
    rw [← hxs, ← hys, ← henc, hrx, hry]
    have hrxr := apply_transform_range train_3x3 hb (ini ++ [l]) hxr _ htid
    have hryr := apply_transform_range train_3x3 hb y hyr _ htid
    apply encode_state_lt_of_x train_3x3 hc
    · rw [apply_transform_length, apply_transform_length]; exact hxl
    · exact apply_transform_range train_3x3 hb _ hrxr s hs
    · rw [apply_transform_length, apply_transform_length]; exact hyl
    · exact apply_transform_range train_3x3 hb _ hryr s hs
    · rw [apply_transform_length]; exact hxl
    · exact hrxr
    · rw [apply_transform_length]; exact hyl
    · exact hryr
    · have e1 : apply_transform train_3x3 (ini ++ [l])
          (canonicalize train_3x3 (ini ++ [l]) y).trans_id =
          apply_transform train_3x3 ini (canonicalize train_3x3 (ini ++ [l]) y).trans_id ++
          [transform train_3x3 (canonicalize train_3x3 (ini ++ [l]) y).trans_id l] := by
        unfold apply_transform; rw [List.map_append]; rfl
      have e2 : apply_transform train_3x3 (apply_transform train_3x3 (ini ++ [l])
          (canonicalize train_3x3 (ini ++ [l]) y).trans_id) s =
          apply_transform train_3x3 (apply_transform train_3x3 ini
            (canonicalize train_3x3 (ini ++ [l]) y).trans_id) s ++
          [transform train_3x3 s
            (transform train_3x3 (canonicalize train_3x3 (ini ++ [l]) y).trans_id l)] := by
        rw [e1]; unfold apply_transform; rw [List.map_append]; rfl
      have hrxr1 := hrxr
      rw [e1] at hrxr1
      have hrxr2 := apply_transform_range train_3x3 hb _ hrxr s hs
      rw [e2] at hrxr2
      rw [e2, e1]
      apply encode_list_lt_of_last_lt train_3x3 hc _ _ _ _ _ _ hrxr2 hrxr1 hlt
      · rw [apply_transform_length]
      · rw [← e1, apply_transform_length]; exact hxl
  omega



theorem perms_from_length (n : Nat) (avail : List Nat) :
    (perms_from n avail).length = avail.length.descFactorial n := by
  induction n generalizing avail with
  | zero => simp [perms_from]
  | succ n ih =>
    unfold perms_from
    rw [List.length_flatMap]
    have hmap : avail.map (List.length ∘ fun a =>
        (perms_from n (avail.erase a)).map (fun t => a :: t)) =
        avail.map (fun _ => (avail.length - 1).descFactorial n) := by
      apply List.map_congr_left
      intro a ha
      show ((perms_from n (avail.erase a)).map (fun t => a :: t)).length = _
      rw [List.length_map, ih, List.length_erase_of_mem ha]
    rw [hmap, List.map_const', List.sum_replicate, smul_eq_mul]
    cases hl : avail.length with
    | zero => simp
    | succ m => rw [Nat.succ_descFactorial_succ]; simp

theorem mem_perms_from (n : Nat) (avail w : List Nat) (hn : w.Nodup) (hl : w.length = n)
    (hw : ∀ p ∈ w, p ∈ avail) : w ∈ perms_from n avail := by
  induction n generalizing avail w with
  | zero =>
    rw [List.length_eq_zero.mp hl]
    simp [perms_from]
  | succ n ih =>
    cases w with
    | nil => simp at hl
    | cons a t =>
      unfold perms_from
      rw [List.mem_flatMap]
      refine ⟨a, hw a (List.mem_cons_self _ _), ?_⟩
      rw [List.mem_map]
      refine ⟨t, ?_, rfl⟩
      rw [List.nodup_cons] at hn
      apply ih _ _ hn.2 (by simpa using hl)
      intro p hp
      have hpa : p ≠ a := fun h => hn.1 (h ▸ hp)
      exact (List.mem_erase_of_ne hpa).mpr (hw p (List.mem_cons_of_mem _ hp))

theorem perms_flat_length (v : Nat) (hv : ((List.range 9).erase v).length = 8) :
    ((List.range 6).flatMap (fun k =>
      (perms_from k ((List.range 9).erase v)).map (fun t => v :: t))).length = 8801 := by
  have hr : List.range 6 = [0, 1, 2, 3, 4, 5] := by decide
  rw [hr]
  simp only [List.flatMap_cons, List.flatMap_nil, List.length_append,
    List.length_map, perms_from_length, hv, List.length_nil, List.append_nil]
  norm_num [Nat.descFactorial]

theorem key_candidates_length : key_candidates.length = 26404 := by
  unfold key_candidates
  rw [List.length_cons]
  simp only [List.flatMap_cons, List.flatMap_nil, List.length_append, List.length_nil,
    perms_flat_length 0 (by decide), perms_flat_length 1 (by decide),
    perms_flat_length 4 (by decide)]

/-- A stored state of the 3x3 board is coded by one of the candidate move
lists. -/
theorem stored_key_candidate (c : Nat) (h : Stored train_3x3 c) :
    ∃ w ∈ key_candidates, key_of_moves w = c := by
  have hb : train_3x3 = train_3x3 ∨ train_3x3 = train_4x4_m4 := Or.inl rfl
  obtain ⟨x, y, hdx, hdy, hl, hlen, hcode⟩ := h
  obtain ⟨_, _, henc⟩ := stored_halves train_3x3 hb c x y hdx hdy hl hcode
  obtain ⟨_, hcx, _, _⟩ := stored_of_legal train_3x3 hb x y hl hlen
  rw [hcode, hdx] at hcx
  have hxc : (canonicalize train_3x3 x y).x = x := (Option.some.inj hcx).symm
  obtain ⟨hxn, hyn, hdis, hxl, hyl, hxr, hyr⟩ := hl
  have hxl3 : x.length ≤ 3 := hxl
  have hyl3 : y.length ≤ 3 := hyl
  have hxr9 : ∀ p ∈ x, p < 9 := hxr
  have hyr9 : ∀ p ∈ y, p < 9 := hyr
  refine ⟨x.reverse ++ y, ?_, ?_⟩
  · by_cases hx : x = []
    · subst hx
      have hy : y = [] := by
        apply List.length_eq_zero.mp
        simp at hlen
        omega
      subst hy
      exact List.mem_cons_self _ _
    · obtain ⟨_, hlast⟩ := canonical_last_3x3 x y hxl hxr hyl hyr hx
      rw [hxc] at hlast
      obtain ⟨ini, l, rfl⟩ : ∃ ini l, x = ini ++ [l] :=
        ⟨x.dropLast, x.getLast hx, (List.dropLast_append_getLast hx).symm⟩
      have hl2 : (ini ++ [l]).getLastD 0 = l := by
        rw [List.getLastD_eq_getLast?, List.getLast?_append]
        simp
      rw [hl2] at hlast
      have hrev : (ini ++ [l]).reverse ++ y = l :: (ini.reverse ++ y) := by
        rw [List.reverse_append]; rfl
      rw [hrev]
      unfold key_candidates
      apply List.mem_cons_of_mem
      rw [List.mem_flatMap]
      refine ⟨l, by rcases hlast with h | h | h <;> simp [h], ?_⟩
      rw [List.mem_flatMap]
      refine ⟨(ini.reverse ++ y).length, ?_, ?_⟩
      · rw [List.mem_range, List.length_append, List.length_reverse]
        rw [List.length_append] at hxl3
        simp at hxl3
        omega
      · rw [List.mem_map]
        refine ⟨ini.reverse ++ y, ?_, rfl⟩
        have hnd := List.nodup_append.mp hxn
        apply mem_perms_from _ _ _ _ rfl
        · intro p hp
          have hpl : p ≠ l := by
            intro hpl
            rcases List.mem_append.mp hp with hp | hp
            · exact hnd.2.2 (List.mem_reverse.mp hp)
                (by rw [hpl]; exact List.mem_singleton_self _)
            · exact hdis l (List.mem_append_right _ (List.mem_singleton_self _)) (hpl ▸ hp)
          have hp9 : p < 9 := by
            rcases List.mem_append.mp hp with hp | hp
            · exact hxr9 p (List.mem_append_left _ (List.mem_reverse.mp hp))
            · exact hyr9 p hp
          exact (List.mem_erase_of_ne hpl).mpr (List.mem_range.mpr hp9)
        · rw [List.nodup_append]
          refine ⟨List.nodup_reverse.mpr hnd.1, hyn, ?_⟩
          intro a ha hay
          exact hdis a (List.mem_append_left _ (List.mem_reverse.mp ha)) hay
  · unfold key_of_moves
    have hhalf : ((x.reverse ++ y).length + 1) / 2 = x.reverse.length := by
      rw [List.length_append, List.length_reverse]
      omega
    rw [hhalf, List.take_left, List.drop_left, List.reverse_reverse]
    exact henc

/-- The 3x3 graph has at most 26404 states. -/
theorem keys_3x3_length : (train_result train_3x3).keys.length ≤ 26404 := by
  have hinv := inv_train_result train_3x3 (Or.inl rfl)
  have hsub : (train_result train_3x3).keys ⊆ key_candidates.map key_of_moves := by
    intro c hc
    obtain ⟨w, hw, hwc⟩ := stored_key_candidate c (hinv.stored c hc)
    exact List.mem_map.mpr ⟨w, hw, hwc⟩
  have := (List.subperm_of_subset hinv.keys_nodup hsub).length_le
  rw [List.length_map, key_candidates_length] at this
  exact this


/-! ## The propagation of `solve` on the graph built by `train` -/

/-- On the graph built by `train` no depth written by `solve` wraps around
as a `uint16_t`: on the 3x3 board because a depth is below the number of
labelled pairs, which is at most twice the number of states; on the 4x4
board when no label of a state that is not a terminal is recorded with depth
zero. -/
theorem train_no_wrap (b : Params) (hb : b = train_3x3 ∨ b = train_4x4_m4)
    (order0 order1 wins loses : List Nat) (h0 : order0.Perm (train_result b).keys)
    (h1 : order1.Perm (train_result b).keys) (hw : wins.Perm (train_result b).g_wins)
    (hl : loses.Perm (train_result b).g_loses)
    (hnw : b = train_4x4_m4 → ∀ s, s ∉ (train_result b).g_wins →
      s ∉ (train_result b).g_loses →
      (((solve (train_result b) order0 order1 wins loses).g_states s).dp 0 ≠ 0 →
        ((solve (train_result b) order0 order1 wins loses).g_states s).depth 0 ≠ 0) ∧
      (((solve (train_result b) order0 order1 wins loses).g_states s).dp 1 ≠ 0 →
        ((solve (train_result b) order0 order1 wins loses).g_states s).depth 1 ≠ 0)) :
    ∀ ev ∈ win_trace (train_result b) order0 order1 wins ++
        lose_trace (train_result b) order0 order1 wins loses, Event.no_wrap ev := by
  have hinv := inv_train_result b hb
  have G := graph_inv_of_train hinv
  have hn0 : order0.Nodup := h0.nodup_iff.mpr hinv.keys_nodup
  have hn1 : order1.Nodup := h1.nodup_iff.mpr hinv.keys_nodup
  rcases hb with rfl | rfl
  · have hk := keys_3x3_length
    exact solve_no_wrap_small _ G order0 order1 wins loses hn0 hn1
      (fun s hs => hw.subset hs) (fun s hs => hl.subset hs) (train_result train_3x3).keys
      (by omega) (fun s hs => h0.subset hs) (fun s hs => h1.subset hs)
      (fun s hs => (hinv.wins_sub s hs).1) (fun s hs => (hinv.loses_sub s hs).1)
  · intro ev hev
    cases ev with
    | pop x => trivial
    | dec z p v => trivial
    | push z => trivial
    | write s k l d p pk =>
      obtain ⟨_, _, hsw, hsl, hl1, hk, hdp, hdep⟩ :=
        (solve_writes _ G order0 order1 wins loses hn0 hn1 (fun s hs => hw.subset hs)
          (fun s hs => hl.subset hs)).2.1 s k l d p pk hev
      have hl0 : l ≠ 0 := by rcases hl1 with rfl | rfl <;> decide
      show d ≠ 0
      rw [← hdep]
      rcases hk with rfl | rfl
      · exact (hnw rfl s hsw hsl).1 (by rw [hdp]; exact hl0)
      · exact (hnw rfl s hsw hsl).2 (by rw [hdp]; exact hl0)

/-- C21: loss soundness of `solve` on the graph built by `train`, for every
order in which the unordered containers are traversed. For every state `z`
that ends with `dp[0] = -1`, every player-0 edge of `z` leads to a state `y`
that ends with `dp[1] = -1` and with `depth[1]` strictly less than the
`depth[0]` of `z`. On the 3x3 board this holds as it stands (no `uint16_t`
depth can wrap there); on the 4x4 board it holds when no label of a state
that is not a terminal is recorded with depth zero, that is, when no depth
wrapped around. -/
theorem loss_soundness (b : Params) (hb : b = train_3x3 ∨ b = train_4x4_m4)
    (order0 order1 wins loses : List Nat) (h0 : order0.Perm (train_result b).keys)
    (h1 : order1.Perm (train_result b).keys) (hw : wins.Perm (train_result b).g_wins)
    (hl : loses.Perm (train_result b).g_loses)
    (hnw : b = train_4x4_m4 → ∀ s, s ∉ (train_result b).g_wins →
      s ∉ (train_result b).g_loses →
      (((solve (train_result b) order0 order1 wins loses).g_states s).dp 0 ≠ 0 →
        ((solve (train_result b) order0 order1 wins loses).g_states s).depth 0 ≠ 0) ∧
      (((solve (train_result b) order0 order1 wins loses).g_states s).dp 1 ≠ 0 →
        ((solve (train_result b) order0 order1 wins loses).g_states s).depth 1 ≠ 0))
    (z : Nat)
    (hz : ((solve (train_result b) order0 order1 wins loses).g_states z).dp 0 = -1) :
    ∀ y ∈ (train_result b).g_edge0 z,
      ((solve (train_result b) order0 order1 wins loses).g_states y).dp 1 = -1 ∧
      ((solve (train_result b) order0 order1 wins loses).g_states y).depth 1 <
        ((solve (train_result b) order0 order1 wins loses).g_states z).depth 0 := by
  have hinv := inv_train_result b hb
  have G := graph_inv_of_train hinv
  have hn0 : order0.Nodup := h0.nodup_iff.mpr hinv.keys_nodup
  have hn1 : order1.Nodup := h1.nodup_iff.mpr hinv.keys_nodup
  exact solve_lose_sound _ G order0 order1 wins loses hn0 hn1 (fun s hs => hw.subset hs)
    (fun s hs => hl.subset hs) (train_no_wrap b hb order0 order1 wins loses h0 h1 hw hl hnw)
    z hz

/-- C22: every label and depth is written at most once during `solve` on
the graph built by `train`, for every order in which the unordered
containers are traversed. Among the writes of the win loop followed by those
of the lose loop no pair `(state, index)` occurs twice; a written pair was
undetermined with depth zero after `train`, belongs to a state that is not a
terminal, receives `+1` or `-1`, and holds the written label and depth when
`solve` returns; a pair written by the lose loop was still undetermined
after the win loop, so no `+1` is overwritten; and a pair whose label or
depth differs at the end from the one `train` left has been written. -/
theorem write_once (b : Params) (hb : b = train_3x3 ∨ b = train_4x4_m4)
    (order0 order1 wins loses : List Nat) (h0 : order0.Perm (train_result b).keys)
    (h1 : order1.Perm (train_result b).keys) (hw : wins.Perm (train_result b).g_wins)
    (hl : loses.Perm (train_result b).g_loses) :
    (writes (win_trace (train_result b) order0 order1 wins ++
      lose_trace (train_result b) order0 order1 wins loses)).Nodup ∧
    (∀ s k l d p pk, Event.write s k l d p pk ∈
        win_trace (train_result b) order0 order1 wins ++
          lose_trace (train_result b) order0 order1 wins loses →
      ((train_result b).g_states s).dp k = 0 ∧ ((train_result b).g_states s).depth k = 0 ∧
      s ∉ (train_result b).g_wins ∧ s ∉ (train_result b).g_loses ∧ (l = 1 ∨ l = -1) ∧
      (k = 0 ∨ k = 1) ∧
      ((solve (train_result b) order0 order1 wins loses).g_states s).dp k = l ∧
      ((solve (train_result b) order0 order1 wins loses).g_states s).depth k = d) ∧
    (∀ s k l d p pk, Event.write s k l d p pk ∈
        lose_trace (train_result b) order0 order1 wins loses →
      l = -1 ∧ ((win_pass (train_result b) order0 order1 wins).g_states s).dp k = 0) ∧
    (∀ s k, k = 0 ∨ k = 1 →
      ((solve (train_result b) order0 order1 wins loses).g_states s).dp k ≠
          ((train_result b).g_states s).dp k ∨
        ((solve (train_result b) order0 order1 wins loses).g_states s).depth k ≠
          ((train_result b).g_states s).depth k →
      (s, k) ∈ writes (win_trace (train_result b) order0 order1 wins ++
        lose_trace (train_result b) order0 order1 wins loses)) := by
  have hinv := inv_train_result b hb
  have G := graph_inv_of_train hinv
  have hn0 : order0.Nodup := h0.nodup_iff.mpr hinv.keys_nodup
  have hn1 : order1.Nodup := h1.nodup_iff.mpr hinv.keys_nodup
  exact solve_writes _ G order0 order1 wins loses hn0 hn1 (fun s hs => hw.subset hs)
    (fun s hs => hl.subset hs)

theorem write_once_witness :
    (writes (win_trace (train_result train_3x3) (train_result train_3x3).keys
        (train_result train_3x3).keys (train_result train_3x3).g_wins ++
      lose_trace (train_result train_3x3) (train_result train_3x3).keys
        (train_result train_3x3).keys (train_result train_3x3).g_wins
        (train_result train_3x3).g_loses)).Nodup :=
  (write_once train_3x3 (Or.inl rfl) _ _ _ _ (List.Perm.refl _) (List.Perm.refl _)
    (List.Perm.refl _) (List.Perm.refl _)).1

/-- C23: the breadth-first order of the two loops of `solve` on the graph
built by `train`, for every order in which the unordered containers are
traversed. In each loop the states are popped in the order in which they
were pushed, and every pushed state is popped; the recorded depths of the
pushed states (`depth[1]` in the win loop, `depth[0]` in the lose loop), in
the order of the pushes, are non-decreasing; and every write gives the
written state the label of the state it is derived from (the popped state in
the middle loop, the state just labelled in the innermost loop) and a depth
that is exactly one more than the depth of that state. On the 3x3 board this
holds as it stands; on the 4x4 board it holds when no label of a state that
is not a terminal is recorded with depth zero, that is, when no `uint16_t`
depth wrapped around. -/
theorem bfs_order (b : Params) (hb : b = train_3x3 ∨ b = train_4x4_m4)
    (order0 order1 wins loses : List Nat) (h0 : order0.Perm (train_result b).keys)
    (h1 : order1.Perm (train_result b).keys) (hw : wins.Perm (train_result b).g_wins)
    (hl : loses.Perm (train_result b).g_loses)
    (hnw : b = train_4x4_m4 → ∀ s, s ∉ (train_result b).g_wins →
      s ∉ (train_result b).g_loses →
      (((solve (train_result b) order0 order1 wins loses).g_states s).dp 0 ≠ 0 →
        ((solve (train_result b) order0 order1 wins loses).g_states s).depth 0 ≠ 0) ∧
      (((solve (train_result b) order0 order1 wins loses).g_states s).dp 1 ≠ 0 →
        ((solve (train_result b) order0 order1 wins loses).g_states s).depth 1 ≠ 0)) :
    pops (win_trace (train_result b) order0 order1 wins) =
      pushes (win_trace (train_result b) order0 order1 wins) ∧
    pops (lose_trace (train_result b) order0 order1 wins loses) =
      pushes (lose_trace (train_result b) order0 order1 wins loses) ∧
    ((pushes (win_trace (train_result b) order0 order1 wins)).map
      (fun s => ((solve (train_result b) order0 order1 wins loses).g_states s).depth 1)).Pairwise
        (fun a c => a ≤ c) ∧
    ((pushes (lose_trace (train_result b) order0 order1 wins loses)).map
      (fun s => ((solve (train_result b) order0 order1 wins loses).g_states s).depth 0)).Pairwise
        (fun a c => a ≤ c) ∧
    (∀ s ∈ pushes (win_trace (train_result b) order0 order1 wins),
      ((solve (train_result b) order0 order1 wins loses).g_states s).dp 1 = 1) ∧
    (∀ s ∈ pushes (lose_trace (train_result b) order0 order1 wins loses),
      ((solve (train_result b) order0 order1 wins loses).g_states s).dp 0 = -1) ∧
    (∀ s k l d p pk, Event.write s k l d p pk ∈
        win_trace (train_result b) order0 order1 wins ++
          lose_trace (train_result b) order0 order1 wins loses →
      ((solve (train_result b) order0 order1 wins loses).g_states s).dp k = l ∧
      ((solve (train_result b) order0 order1 wins loses).g_states p).dp pk = l ∧
      ((solve (train_result b) order0 order1 wins loses).g_states s).depth k = d ∧
      d = ((solve (train_result b) order0 order1 wins loses).g_states p).depth pk + 1) := by
  have hinv := inv_train_result b hb
  have G := graph_inv_of_train hinv
  have hn0 : order0.Nodup := h0.nodup_iff.mpr hinv.keys_nodup
  have hn1 : order1.Nodup := h1.nodup_iff.mpr hinv.keys_nodup
  exact solve_bfs_order _ G order0 order1 wins loses hn0 hn1 (fun s hs => hw.subset hs)
    (fun s hs => hl.subset hs) (train_no_wrap b hb order0 order1 wins loses h0 h1 hw hl hnw)

theorem bfs_order_witness :
    pops (win_trace (train_result train_3x3) (train_result train_3x3).keys
        (train_result train_3x3).keys (train_result train_3x3).g_wins) =
      pushes (win_trace (train_result train_3x3) (train_result train_3x3).keys
        (train_result train_3x3).keys (train_result train_3x3).g_wins) :=
  (bfs_order train_3x3 (Or.inl rfl) _ _ _ _ (List.Perm.refl _) (List.Perm.refl _)
    (List.Perm.refl _) (List.Perm.refl _)
    (fun h => absurd (congrArg Params.N h) (by decide))).1

/-- C24: no counter `need[z][p]` of `solve` becomes negative on the graph
built by `train`, for every order in which the unordered containers are
traversed. Every decrement of the two loops leaves a value that is not
negative; each counter ends at the number of player-`p` edges of `z` minus
the number of its decrements, and that end value is not negative; so
`need[z][p]` is decremented at most as many times as `z` has player-`p`
edges. -/
theorem need_nonneg (b : Params) (hb : b = train_3x3 ∨ b = train_4x4_m4)
    (order0 order1 wins loses : List Nat) (h0 : order0.Perm (train_result b).keys)
    (h1 : order1.Perm (train_result b).keys) (hw : wins.Perm (train_result b).g_wins)
    (hl : loses.Perm (train_result b).g_loses) :
    (∀ z p v, Event.dec z p v ∈
        win_trace (train_result b) order0 order1 wins ++
          lose_trace (train_result b) order0 order1 wins loses →
      (p = 0 ∨ p = 1) ∧ 0 ≤ v) ∧
    (∀ z p, p = 0 ∨ p = 1 →
      (solve (train_result b) order0 order1 wins loses).need z p =
        solve_need (train_result b) z p -
          (decs (win_trace (train_result b) order0 order1 wins ++
            lose_trace (train_result b) order0 order1 wins loses) z p : Int) ∧
      0 ≤ (solve (train_result b) order0 order1 wins loses).need z p) ∧
    (∀ z, decs (win_trace (train_result b) order0 order1 wins ++
          lose_trace (train_result b) order0 order1 wins loses) z 0 ≤
        ((train_result b).g_edge0 z).length ∧
      decs (win_trace (train_result b) order0 order1 wins ++
          lose_trace (train_result b) order0 order1 wins loses) z 1 ≤
        ((train_result b).g_edge1 z).length) := by
  have hinv := inv_train_result b hb
  have G := graph_inv_of_train hinv
  have hn0 : order0.Nodup := h0.nodup_iff.mpr hinv.keys_nodup
  have hn1 : order1.Nodup := h1.nodup_iff.mpr hinv.keys_nodup
  exact solve_need_nonneg _ G order0 order1 wins loses hn0 hn1 (fun s hs => hw.subset hs)
    (fun s hs => hl.subset hs)

theorem need_nonneg_witness :
    decs (win_trace (train_result train_3x3) (train_result train_3x3).keys
        (train_result train_3x3).keys (train_result train_3x3).g_wins ++
      lose_trace (train_result train_3x3) (train_result train_3x3).keys
        (train_result train_3x3).keys (train_result train_3x3).g_wins
        (train_result train_3x3).g_loses) 0 0 ≤
      ((train_result train_3x3).g_edge0 0).length :=
  ((need_nonneg train_3x3 (Or.inl rfl) _ _ _ _ (List.Perm.refl _) (List.Perm.refl _)
    (List.Perm.refl _) (List.Perm.refl _)).2.2 0).1


/-! ## The single-sided tables of `train_xwin.cpp` and `train_ywin.cpp` -/

theorem or_two_and_one (a : Nat) : (a ||| 2) &&& 1 = a &&& 1 := by
  rw [Nat.and_one_is_mod, Nat.and_one_is_mod]
  have h : (a ||| 2).testBit 0 = a.testBit 0 := by
    rw [Nat.testBit_or]; simp
  rw [Nat.testBit_zero, Nat.testBit_zero] at h
  have h1 := Nat.mod_two_eq_zero_or_one (a ||| 2)
  have h2 := Nat.mod_two_eq_zero_or_one a
  rcases h1 with h1 | h1 <;> rcases h2 with h2 | h2 <;> simp [h1, h2] at h ⊢

theorem or_one_and_one (a : Nat) : (a ||| 1) &&& 1 ≠ 0 := by
  rw [Nat.and_one_is_mod]
  have h : (a ||| 1).testBit 0 = true := by
    rw [Nat.testBit_or]; simp
  rw [Nat.testBit_zero] at h
  have := of_decide_eq_true h
  omega

theorem TrainXwin.find_idx_some (codes : List Nat) (code j : Nat)
    (h : TrainXwin.find_idx codes code = some j) : codes.getD j 0 = code := by
  unfold TrainXwin.find_idx at h
  by_cases hc : codes.get? (codes.findIdx (fun c => decide (code ≤ c))) = some code
  · rw [if_pos hc] at h
    rw [← Option.some.inj h, List.getD_eq_getElem?_getD, ← List.get?_eq_getElem?, hc]
    rfl
  · rw [if_neg hc] at h
    exact absurd h (by simp)

/-- The innermost loop keeps the Type A flags and the queue entries. -/
theorem TrainXwin.bfs_inner_keeps (codes : List Nat) (j : Nat) (st : TrainXwin.BfsState)
    (q : Nat) :
    (∀ t, (TrainXwin.bfs_inner codes j st q).dp_flags t &&& 1 = st.dp_flags t &&& 1) ∧
      ∀ i ∈ st.bfs, i ∈ (TrainXwin.bfs_inner codes j st q).bfs := by
  unfold TrainXwin.bfs_inner
  cases hf : TrainXwin.find_idx codes q with
  | none => exact ⟨fun _ => rfl, fun _ h => h⟩
  | some k =>
    simp only []
    by_cases h2 : st.dp_flags k &&& 2 ≠ 0
    · rw [if_pos h2]; exact ⟨fun _ => rfl, fun _ h => h⟩
    · rw [if_neg h2]
      by_cases hn : st.need k > 0
      · rw [if_pos hn]
        by_cases h0 : st.need k - 1 = 0
        · rw [if_pos h0]
          refine ⟨?_, fun i h => List.mem_append_left _ h⟩
          intro t
          show (upd st.dp_flags k (st.dp_flags k ||| 2)) t &&& 1 = _
          unfold upd
          by_cases htk : t = k
          · rw [if_pos htk, htk]; exact or_two_and_one _
          · rw [if_neg htk]
        · rw [if_neg h0]; exact ⟨fun _ => rfl, fun _ h => h⟩
      · rw [if_neg hn]; exact ⟨fun _ => rfl, fun _ h => h⟩

theorem TrainXwin.bfs_inner_fold_keeps (codes : List Nat) (j : Nat) (qs : List Nat)
    (st : TrainXwin.BfsState) :
    (∀ t, (qs.foldl (TrainXwin.bfs_inner codes j) st).dp_flags t &&& 1 =
        st.dp_flags t &&& 1) ∧
      ∀ i ∈ st.bfs, i ∈ (qs.foldl (TrainXwin.bfs_inner codes j) st).bfs := by
  induction qs generalizing st with
  | nil => exact ⟨fun _ => rfl, fun _ h => h⟩
  | cons q rest ih =>
    rw [List.foldl_cons]
    obtain ⟨a1, a2⟩ := TrainXwin.bfs_inner_keeps codes j st q
    obtain ⟨c1, c2⟩ := ih (TrainXwin.bfs_inner codes j st q)
    exact ⟨fun t => (c1 t).trans (a1 t), fun i h => c2 i (a2 i h)⟩

/-- The middle loop body never clears a Type A flag, keeps the queue
entries, and leaves the predecessor it handles flagged Type A. -/
theorem TrainXwin.bfs_mid_keeps (codes : List Nat) (i : Nat) (st st2 : TrainXwin.BfsState)
    (p : Nat) (h : TrainXwin.bfs_mid codes i (some st) p = some st2) :
    (∀ t, st.dp_flags t &&& 1 ≠ 0 → st2.dp_flags t &&& 1 ≠ 0) ∧
      (∀ k ∈ st.bfs, k ∈ st2.bfs) ∧
      ∀ j, TrainXwin.find_idx codes p = some j → st2.dp_flags j &&& 1 ≠ 0 := by
  unfold TrainXwin.bfs_mid at h
  simp only [] at h
  cases hf : TrainXwin.find_idx codes p with
  | none =>
    rw [hf] at h
    simp only [] at h
    rw [← Option.some.inj h]
    exact ⟨fun _ ht => ht, fun _ hk => hk, fun j hj => absurd hj (by simp)⟩
  | some j =>
    rw [hf] at h
    simp only [] at h
    by_cases h1 : st.dp_flags j &&& 1 ≠ 0
    · rw [if_pos h1] at h
      rw [← Option.some.inj h]
      refine ⟨fun _ ht => ht, fun _ hk => hk, ?_⟩
      intro j2 hj2
      rw [← Option.some.inj hj2]; exact h1
    · rw [if_neg h1] at h
      cases hy : TrainXwin.get_y_preds (TrainXwin.decode_state (codes.getD j 0)).1
          (TrainXwin.decode_state (codes.getD j 0)).2 with
      | none => rw [hy] at h; exact absurd h (by simp)
      | some qs =>
        rw [hy] at h
        simp only [] at h
        obtain ⟨a1, a2⟩ := TrainXwin.bfs_inner_fold_keeps codes j qs
          (TrainXwin.BfsState.mk st.need (upd st.dp_flags j (st.dp_flags j ||| 1))
            (upd st.depth_0 j ((st.depth_1 i + 1) % 65536)) st.depth_1 st.bfs)
        rw [Option.some.inj h] at a1 a2
        have hset : ∀ t, st.dp_flags t &&& 1 ≠ 0 →
            (upd st.dp_flags j (st.dp_flags j ||| 1)) t &&& 1 ≠ 0 := by
          intro t ht
          unfold upd
          by_cases htj : t = j
          · rw [if_pos htj]; exact or_one_and_one _
          · rw [if_neg htj]; exact ht
        refine ⟨?_, a2, ?_⟩
        · intro t ht
          rw [a1 t]
          exact hset t ht
        · intro j2 hj2
          rw [← Option.some.inj hj2, a1 j]
          show (upd st.dp_flags j (st.dp_flags j ||| 1)) j &&& 1 ≠ 0
          rw [upd_same]
          exact or_one_and_one _

theorem TrainXwin.bfs_mid_none (codes : List Nat) (i : Nat) (ps : List Nat) :
    ps.foldl (TrainXwin.bfs_mid codes i) none = none := by
  induction ps with
  | nil => rfl
  | cons p rest ih => rw [List.foldl_cons]; exact ih

theorem TrainXwin.bfs_mid_fold_keeps (codes : List Nat) (i : Nat) (ps : List Nat)
    (st st2 : TrainXwin.BfsState)
    (h : ps.foldl (TrainXwin.bfs_mid codes i) (some st) = some st2) :
    (∀ t, st.dp_flags t &&& 1 ≠ 0 → st2.dp_flags t &&& 1 ≠ 0) ∧
      (∀ k ∈ st.bfs, k ∈ st2.bfs) ∧
      ∀ p ∈ ps, ∀ j, TrainXwin.find_idx codes p = some j → st2.dp_flags j &&& 1 ≠ 0 := by
  induction ps generalizing st with
  | nil =>
    rw [List.foldl_nil] at h
    rw [← Option.some.inj h]
    exact ⟨fun _ ht => ht, fun _ hk => hk, fun p hp => absurd hp (List.not_mem_nil p)⟩
  | cons p rest ih =>
    rw [List.foldl_cons] at h
    cases hm : TrainXwin.bfs_mid codes i (some st) p with
    | none =>
      rw [hm, TrainXwin.bfs_mid_none] at h
      exact absurd h (by simp)
    | some st1 =>
      rw [hm] at h
      obtain ⟨a1, a2, a3⟩ := TrainXwin.bfs_mid_keeps codes i st st1 p hm
      obtain ⟨c1, c2, c3⟩ := ih st1 h
      refine ⟨fun t ht => c1 t (a1 t ht), fun k hk => c2 k (a2 k hk), ?_⟩
      intro p2 hp2 j hj
      rcases List.mem_cons.mp hp2 with hp | hp
      · rw [hp] at hj
        exact c1 j (a3 j hj)
      · exact c3 p2 hp j hj

/-- The propagation never clears a Type A flag. -/
theorem TrainXwin.bfs_loop_keeps (cap : Nat) (codes : List Nat) (fuel : Nat)
    (st st2 : TrainXwin.BfsState)
    (h : TrainXwin.bfs_loop cap codes fuel st = some st2) :
    ∀ t, st.dp_flags t &&& 1 ≠ 0 → st2.dp_flags t &&& 1 ≠ 0 := by
  induction fuel generalizing st with
  | zero =>
    unfold TrainXwin.bfs_loop at h
    rw [← Option.some.inj h]
    exact fun _ ht => ht
  | succ n ih =>
    unfold TrainXwin.bfs_loop at h
    cases hq : st.bfs with
    | nil =>
      rw [hq] at h
      simp only [] at h
      rw [← Option.some.inj h]
      exact fun _ ht => ht
    | cons i rest =>
      rw [hq] at h
      simp only [] at h
      cases hx : TrainXwin.get_x_preds_cap cap (TrainXwin.decode_state (codes.getD i 0)).1
          (TrainXwin.decode_state (codes.getD i 0)).2 with
      | none => rw [hx] at h; exact absurd h (by simp)
      | some ps =>
        rw [hx] at h
        simp only [] at h
        cases hm : ps.foldl (TrainXwin.bfs_mid codes i)
            (some (TrainXwin.BfsState.mk st.need st.dp_flags st.depth_0 st.depth_1 rest)) with
        | none => rw [hm] at h; exact absurd h (by simp)
        | some st1 =>
          rw [hm] at h
          simp only [] at h
          obtain ⟨a1, _, _⟩ := TrainXwin.bfs_mid_fold_keeps codes i ps _ st1 hm
          exact fun t ht => ih st1 h t (a1 t ht)

/-- When the propagation ends on the empty queue, every state of `codes`
that is an X-predecessor of a state that was on the queue is flagged
Type A. -/
theorem TrainXwin.bfs_loop_flags (cap : Nat) (codes : List Nat) (fuel : Nat)
    (st st2 : TrainXwin.BfsState) (h : TrainXwin.bfs_loop cap codes fuel st = some st2)
    (hq2 : st2.bfs = []) (i : Nat) (hi : i ∈ st.bfs) (ps : List Nat)
    (hps : TrainXwin.get_x_preds_cap cap (TrainXwin.decode_state (codes.getD i 0)).1
      (TrainXwin.decode_state (codes.getD i 0)).2 = some ps)
    (p : Nat) (hp : p ∈ ps) (j : Nat) (hj : TrainXwin.find_idx codes p = some j) :
    st2.dp_flags j &&& 1 ≠ 0 := by
  induction fuel generalizing st with
  | zero =>
    unfold TrainXwin.bfs_loop at h
    rw [Option.some.inj h, hq2] at hi
    exact absurd hi (List.not_mem_nil i)
  | succ n ih =>
    unfold TrainXwin.bfs_loop at h
    cases hq : st.bfs with
    | nil =>
      rw [hq] at hi
      exact absurd hi (List.not_mem_nil i)
    | cons i0 rest =>
      rw [hq] at h
      simp only [] at h
      cases hx : TrainXwin.get_x_preds_cap cap (TrainXwin.decode_state (codes.getD i0 0)).1
          (TrainXwin.decode_state (codes.getD i0 0)).2 with
      | none => rw [hx] at h; exact absurd h (by simp)
      | some ps0 =>
        rw [hx] at h
        simp only [] at h
        cases hm : ps0.foldl (TrainXwin.bfs_mid codes i0)
            (some (TrainXwin.BfsState.mk st.need st.dp_flags st.depth_0 st.depth_1 rest)) with
        | none => rw [hm] at h; exact absurd h (by simp)
        | some st1 =>
          rw [hm] at h
          simp only [] at h
          obtain ⟨_, a2, a3⟩ := TrainXwin.bfs_mid_fold_keeps codes i0 ps0 _ st1 hm
          rw [hq] at hi
          rcases List.mem_cons.mp hi with hi0 | hi0
          · rw [hi0, hx] at hps
            rw [← Option.some.inj hps] at hp
            exact TrainXwin.bfs_loop_keeps cap codes n st1 st2 h j (a3 p hp j hj)
          · exact ih st1 h (a2 i hi0)

/-! ### Completeness of the lose propagation, and a lost state of the 3x3 board -/

/-- The completeness side holds after the lose propagation when the queue
of the second loop holds all of `g_loses`. -/
theorem lose_complete (st : TrainState) (G : GraphInv st)
    (order0 order1 wins loses : List Nat) (h1 : order1.Nodup)
    (hw : ∀ s ∈ wins, s ∈ st.g_wins) (hlc : ∀ s, s ∈ st.g_loses → s ∈ loses) :
    PassDone (-1) 1 (reverse_edges order1 st.g_edge1) order0 st.g_edge0 []
      (solve st order0 order1 wins loses) := by
  have hwi := win_inv st G order0 order1 wins h1 hw
  rw [solve_eq]
  apply pass_loop_complete
  constructor
  · intro s hs
    have hs0 : ((win_pass st order0 order1 wins).g_states s).dp 0 = -1 := hs
    exact Or.inl (List.mem_append_right _
      (hlc s (win_pass_lose_label st G order0 order1 wins h1 hw s 0 hs0).1))
  · intro z _ hne hneed
    have h2 : (win_pass st order0 order1 wins).need z 0 ≤ 0 := hneed
    have h3 : (win_pass st order0 order1 wins).need z 0 = solve_need st z 0 :=
      hwi.need_other z 0 (show (0 : Nat) ≠ 1 - 0 by decide)
    rw [h3] at h2
    unfold solve_need at h2
    rw [if_pos rfl] at h2
    have : 0 < (st.g_edge0 z).length := List.length_pos.mpr hne
    omega

/-- Rule of the lose propagation for the opponent: a state of the traversal
order with a player-1 edge to a state that ends with `dp[0] = -1` ends with
`dp[1] = -1`. -/
theorem lose_rule_y (st : TrainState) (G : GraphInv st)
    (order0 order1 wins loses : List Nat) (h1 : order1.Nodup)
    (hw : ∀ s ∈ wins, s ∈ st.g_wins) (hlc : ∀ s, s ∈ st.g_loses → s ∈ loses) (y t : Nat)
    (hy : y ∈ order1) (ht : t ∈ st.g_edge1 y)
    (hl : ((solve st order0 order1 wins loses).g_states t).dp 0 = -1) :
    ((solve st order0 order1 wins loses).g_states y).dp 1 = -1 := by
  have h := (lose_complete st G order0 order1 wins loses h1 hw hlc).1 t hl
  rw [solve_done] at h
  rcases h with h | h | h
  · exact absurd h (List.not_mem_nil t)
  · exact absurd h (List.not_mem_nil t)
  · exact h y ((mem_reverse_edges _ _ _ _).mpr ⟨hy, ht⟩)

/-- Rule of the lose propagation for the player to move: a state of the
traversal order that has player-0 edges, all of them to states outside
`g_loses` that end with `dp[1] = -1`, ends with `dp[0] = -1`. -/
theorem lose_rule_x (st : TrainState) (G : GraphInv st)
    (order0 order1 wins loses : List Nat) (h0 : order0.Nodup) (h1 : order1.Nodup)
    (hw : ∀ s ∈ wins, s ∈ st.g_wins) (hls : ∀ s ∈ loses, s ∈ st.g_loses)
    (hlc : ∀ s, s ∈ st.g_loses → s ∈ loses) (z : Nat)
    (hz : z ∈ order0) (hne : st.g_edge0 z ≠ [])
    (hall : ∀ t ∈ st.g_edge0 z, t ∉ st.g_loses ∧
      ((solve st order0 order1 wins loses).g_states t).dp 1 = -1) :
    ((solve st order0 order1 wins loses).g_states z).dp 0 = -1 := by
  have hinv := lose_inv st G order0 order1 wins loses h0 h1 hw hls
  apply (lose_complete st G order0 order1 wins loses h1 hw hlc).2 z hz hne
  have hc := hinv.count z hz
  have hc2 : (solve st order0 order1 wins loses).need z 0 = ((st.g_edge0 z).length : Int) -
      ((st.g_edge0 z).countP
        (fresh (-1) 1 (win_pass st order0 order1 wins).g_states
          (solve st order0 order1 wins loses).g_states) : Int) +
      (([] : List Nat).count z : Int) := hc
  have hcp : (st.g_edge0 z).countP
      (fresh (-1) 1 (win_pass st order0 order1 wins).g_states
        (solve st order0 order1 wins loses).g_states) = (st.g_edge0 z).length := by
    rw [List.countP_eq_length]
    intro t ht
    obtain ⟨ht1, ht2⟩ := hall t ht
    exact (fresh_iff _ _ _ _ _).mpr
      ⟨ht2, fun hh => ht1 (win_pass_lose_label st G order0 order1 wins h1 hw t 1 hh).1⟩
  show (solve st order0 order1 wins loses).need z 0 ≤ 0
  rw [hc2, hcp]
  simp

set_option maxRecDepth 100000 in
/-- A state of the 3x3 board that is lost for the player to move and is not
a terminal: `X = (3, 1, 0)`, `Y = (2, 5, 4)`, code 124563. Each of its three
player-0 edges leads to a state from which player 1 reaches a terminal of
`g_loses` in one move, so `solve` labels the three successors `-1` at index 1
and then the state itself `-1` at index 0. -/
theorem lost_state_3x3 (order0 order1 wins loses : List Nat)
    (h0 : order0.Perm (train_result train_3x3).keys)
    (h1 : order1.Perm (train_result train_3x3).keys)
    (hw : wins.Perm (train_result train_3x3).g_wins)
    (hl : loses.Perm (train_result train_3x3).g_loses) :
    (train_result train_3x3).g_edge0 124563 = [136589, 278569, 196523] ∧
      ((solve (train_result train_3x3) order0 order1 wins loses).g_states 124563).dp 0 = -1 := by
  have hb : train_3x3 = train_3x3 ∨ train_3x3 = train_4x4_m4 := Or.inl rfl
  have hinv := inv_train_result train_3x3 hb
  have G := graph_inv_of_train hinv
  have hn0 : order0.Nodup := h0.nodup_iff.mpr hinv.keys_nodup
  have hn1 : order1.Nodup := h1.nodup_iff.mpr hinv.keys_nodup
  have hws : ∀ s ∈ wins, s ∈ (train_result train_3x3).g_wins := fun s hs => hw.subset hs
  have hls : ∀ s ∈ loses, s ∈ (train_result train_3x3).g_loses := fun s hs => hl.subset hs
  have hlc : ∀ s, s ∈ (train_result train_3x3).g_loses → s ∈ loses :=
    fun s hs => hl.symm.subset hs
  -- a terminal of `g_loses` keeps `dp[0] = -1`
  have hterm : ∀ t, stored_ok train_3x3 t = true → verdict train_3x3 t = -1 →
      ((solve (train_result train_3x3) order0 order1 wins loses).g_states t).dp 0 = -1 := by
    intro t hs hv
    have hmem := terminal_lose_mem train_3x3 hb t (stored_of_ok _ _ hs) hv
    rw [solve_terminal _ G order0 order1 wins loses hn0 hn1 hws hls t (G.loses_edge t hmem).1
      (G.loses_edge t hmem).2, hinv.loses_label t hmem]
    rfl
  -- a state with a player-1 edge to such a terminal ends with `dp[1] = -1`
  have hmid : ∀ y t, stored_ok train_3x3 y = true → verdict train_3x3 y = 0 →
      t ∈ successors train_3x3 1 y → stored_ok train_3x3 t = true →
      verdict train_3x3 t = -1 →
      y ∉ (train_result train_3x3).g_loses ∧
      ((solve (train_result train_3x3) order0 order1 wins loses).g_states y).dp 1 = -1 := by
    intro y t hs hv ht hst hvt
    have hsy := stored_of_ok _ _ hs
    have hed := (edges_of_train train_3x3 hb y hsy (by rw [hv]; decide)
      (by rw [hv]; decide)).2
    have hte : t ∈ (train_result train_3x3).g_edge1 y := by rw [hed]; exact ht
    have hsrc := hinv.edge_src1 y (List.ne_nil_of_mem hte)
    exact ⟨hsrc.2.2.2, lose_rule_y _ G order0 order1 wins loses hn1 hws hlc y t
      (h1.symm.subset hsrc.1) hte (hterm t hst hvt)⟩
  have hv : verdict train_3x3 124563 = 0 := by decide
  have hs : Stored train_3x3 124563 := stored_of_ok _ _ (by decide)
  have hed : (train_result train_3x3).g_edge0 124563 = [136589, 278569, 196523] := by
    rw [(edges_of_train train_3x3 hb 124563 hs (by rw [hv]; decide) (by rw [hv]; decide)).1]
    decide
  refine ⟨hed, ?_⟩
  have hne : (train_result train_3x3).g_edge0 124563 ≠ [] := by rw [hed]; simp
  apply lose_rule_x _ G order0 order1 wins loses hn0 hn1 hws hls hlc 124563
    (h0.symm.subset (hinv.edge_src0 124563 hne).1) hne
  intro t ht
  rw [hed] at ht
  simp only [List.mem_cons, List.mem_singleton, List.not_mem_nil, or_false] at ht
  rcases ht with rfl | rfl | rfl
  · exact hmid 136589 136258 (by decide) (by decide) (by decide) (by decide) (by decide)
  · exact hmid 278569 278456 (by decide) (by decide) (by decide) (by decide) (by decide)
  · exact hmid 196523 196852 (by decide) (by decide) (by decide) (by decide) (by decide)

theorem loss_soundness_witness :
    (136589 : Nat) ∈ (train_result train_3x3).g_edge0 124563 ∧
      ((solve (train_result train_3x3) (train_result train_3x3).keys
        (train_result train_3x3).keys (train_result train_3x3).g_wins
        (train_result train_3x3).g_loses).g_states 136589).dp 1 = -1 ∧
      ((solve (train_result train_3x3) (train_result train_3x3).keys
        (train_result train_3x3).keys (train_result train_3x3).g_wins
        (train_result train_3x3).g_loses).g_states 136589).depth 1 <
      ((solve (train_result train_3x3) (train_result train_3x3).keys
        (train_result train_3x3).keys (train_result train_3x3).g_wins
        (train_result train_3x3).g_loses).g_states 124563).depth 0 :=
  have hmem : (136589 : Nat) ∈ (train_result train_3x3).g_edge0 124563 := by
    rw [(lost_state_3x3 _ _ _ _ (List.Perm.refl _) (List.Perm.refl _) (List.Perm.refl _)
      (List.Perm.refl _)).1]
    decide
  ⟨hmem,
    loss_soundness train_3x3 (Or.inl rfl) _ _ _ _ (List.Perm.refl _) (List.Perm.refl _)
      (List.Perm.refl _) (List.Perm.refl _)
      (fun h => absurd (congrArg Params.N h) (by decide)) 124563
      (lost_state_3x3 _ _ _ _ (List.Perm.refl _) (List.Perm.refl _) (List.Perm.refl _)
        (List.Perm.refl _)).2 136589 hmem⟩


/-! ### Termination of the propagation of `train_xwin.cpp` -/

theorem or_two_and_two (a : Nat) : (a ||| 2) &&& 2 ≠ 0 := by
  intro h
  have h1 : ((a ||| 2) &&& 2).testBit 1 = false := by rw [h]; exact Nat.zero_testBit 1
  rw [Nat.testBit_and, Nat.testBit_or] at h1
  have h2 : Nat.testBit 2 1 = true := by decide
  rw [h2, Bool.or_true, Bool.and_true] at h1
  exact absurd h1 (by decide)

theorem or_one_and_two (a : Nat) : (a ||| 1) &&& 2 = a &&& 2 := by
  apply Nat.eq_of_testBit_eq
  intro i
  rw [Nat.testBit_and, Nat.testBit_and, Nat.testBit_or]
  by_cases h2 : Nat.testBit 2 i = true
  · have h1 : Nat.testBit 1 i = false := by
      cases i with
      | zero => exact absurd h2 (by decide)
      | succ n =>
        rw [Nat.testBit_succ]
        show Nat.testBit 0 n = false
        exact Nat.zero_testBit n
    rw [h1, Bool.or_false]
  · have h2f : Nat.testBit 2 i = false := by simpa using h2
    rw [h2f, Bool.and_false, Bool.and_false]

theorem TrainXwin.find_idx_lt (codes : List Nat) (code j : Nat)
    (h : TrainXwin.find_idx codes code = some j) : j < codes.length := by
  unfold TrainXwin.find_idx at h
  by_cases hc : codes.get? (codes.findIdx (fun c => decide (code ≤ c))) = some code
  · rw [if_pos hc] at h
    rw [← Option.some.inj h]
    by_contra hge
    rw [List.get?_eq_none.mpr (Nat.le_of_not_lt hge)] at hc
    exact absurd hc (by simp)
  · rw [if_neg hc] at h
    exact absurd h (by simp)

theorem getD_mem_of_lt (codes : List Nat) (i : Nat) (h : i < codes.length) :
    codes.getD i 0 ∈ codes := by
  rw [List.getD_eq_getElem?_getD, List.getElem?_eq_getElem h]
  exact List.getElem_mem h

/-- A stored code decodes to a state on which both predecessor functions
stay inside their arrays, when those of `get_x_preds` have 10 entries. -/
theorem TrainXwin.preds_some (cap : Nat) (hcap : 10 ≤ cap) (c : Nat)
    (h : Stored train_4x4_m4 c) :
    (∃ l, TrainXwin.get_x_preds_cap cap (TrainXwin.decode_state c).1
        (TrainXwin.decode_state c).2 = some l) ∧
      ∃ l, TrainXwin.get_y_preds (TrainXwin.decode_state c).1
        (TrainXwin.decode_state c).2 = some l := by
  obtain ⟨x, y, hdx, hdy, hl, hlen, hcode⟩ := h
  rw [TrainXwin.decode_state_stored c x y hdx hdy hl hcode]
  exact ⟨TrainXwin.get_x_preds_some cap x y hl hlen (Or.inl hcap),
    TrainXwin.get_y_preds_some x y hl hlen⟩

/-- The innermost loop body keeps the queue inside the table and does not
raise the bound on the iterations. -/
theorem TrainXwin.bfs_inner_pending (codes : List Nat) (j : Nat) (st : TrainXwin.BfsState)
    (q : Nat) (hW : ∀ i ∈ st.bfs, i < codes.length) :
    (∀ i ∈ (TrainXwin.bfs_inner codes j st q).bfs, i < codes.length) ∧
      TrainXwin.bfs_pending codes.length (TrainXwin.bfs_inner codes j st q) ≤
        TrainXwin.bfs_pending codes.length st := by
  unfold TrainXwin.bfs_inner
  cases hf : TrainXwin.find_idx codes q with
  | none => exact ⟨hW, Nat.le_refl _⟩
  | some k =>
    simp only []
    have hk := TrainXwin.find_idx_lt codes q k hf
    by_cases h2 : st.dp_flags k &&& 2 ≠ 0
    · rw [if_pos h2]; exact ⟨hW, Nat.le_refl _⟩
    · rw [if_neg h2]
      by_cases hn : st.need k > 0
      · rw [if_pos hn]
        by_cases h0 : st.need k - 1 = 0
        · rw [if_pos h0]
          constructor
          · intro i hi
            rcases List.mem_append.mp hi with hi | hi
            · exact hW i hi
            · rw [List.mem_singleton.mp hi]; exact hk
          · unfold TrainXwin.bfs_pending
            show (st.bfs ++ [k]).length +
              (List.range codes.length).countP
                (fun t => decide ((upd st.dp_flags k (st.dp_flags k ||| 2)) t &&& 2 = 0)) ≤ _
            have hcu := countP_upd
              (fun t => decide ((upd st.dp_flags k (st.dp_flags k ||| 2)) t &&& 2 = 0))
              (fun t => decide (st.dp_flags t &&& 2 = 0)) k (List.range codes.length)
              (by
                show decide ((upd st.dp_flags k (st.dp_flags k ||| 2)) k &&& 2 = 0) = false
                rw [upd_same]
                exact decide_eq_false (or_two_and_two _))
              (by
                show decide (st.dp_flags k &&& 2 = 0) = true
                exact decide_eq_true (by simpa using h2))
              (fun t ht => by
                show decide (st.dp_flags t &&& 2 = 0) =
                  decide ((upd st.dp_flags k (st.dp_flags k ||| 2)) t &&& 2 = 0)
                rw [upd_other _ _ _ _ ht])
            have hc1 : (List.range codes.length).count k = 1 :=
              List.count_eq_one_of_mem (List.nodup_range _) (List.mem_range.mpr hk)
            rw [hcu, hc1, List.length_append]
            simp only [List.length_singleton]
            omega
        · rw [if_neg h0]; exact ⟨hW, Nat.le_refl _⟩
      · rw [if_neg hn]; exact ⟨hW, Nat.le_refl _⟩

theorem TrainXwin.bfs_inner_fold_pending (codes : List Nat) (j : Nat) (qs : List Nat)
    (st : TrainXwin.BfsState) (hW : ∀ i ∈ st.bfs, i < codes.length) :
    (∀ i ∈ (qs.foldl (TrainXwin.bfs_inner codes j) st).bfs, i < codes.length) ∧
      TrainXwin.bfs_pending codes.length (qs.foldl (TrainXwin.bfs_inner codes j) st) ≤
        TrainXwin.bfs_pending codes.length st := by
  induction qs generalizing st with
  | nil => exact ⟨hW, Nat.le_refl _⟩
  | cons q rest ih =>
    rw [List.foldl_cons]
    obtain ⟨a1, a2⟩ := TrainXwin.bfs_inner_pending codes j st q hW
    obtain ⟨c1, c2⟩ := ih _ a1
    exact ⟨c1, Nat.le_trans c2 a2⟩

/-- On a table of stored codes the middle loop body stays inside the
arrays, keeps the queue inside the table and does not raise the bound on the
iterations. -/
theorem TrainXwin.bfs_mid_some (codes : List Nat) (hS : ∀ c ∈ codes, Stored train_4x4_m4 c)
    (i : Nat) (st : TrainXwin.BfsState) (p : Nat) (hW : ∀ t ∈ st.bfs, t < codes.length) :
    ∃ st2, TrainXwin.bfs_mid codes i (some st) p = some st2 ∧
      (∀ t ∈ st2.bfs, t < codes.length) ∧
      TrainXwin.bfs_pending codes.length st2 ≤ TrainXwin.bfs_pending codes.length st := by
  unfold TrainXwin.bfs_mid
  simp only []
  cases hf : TrainXwin.find_idx codes p with
  | none => exact ⟨st, rfl, hW, Nat.le_refl _⟩
  | some j =>
    simp only []
    have hj := TrainXwin.find_idx_lt codes p j hf
    by_cases h1 : st.dp_flags j &&& 1 ≠ 0
    · rw [if_pos h1]; exact ⟨st, rfl, hW, Nat.le_refl _⟩
    · rw [if_neg h1]
      obtain ⟨qs, hqs⟩ := (TrainXwin.preds_some 10 (Nat.le_refl _) _
        (hS _ (getD_mem_of_lt codes j hj))).2
      rw [hqs]
      simp only []
      refine ⟨_, rfl, ?_⟩
      have hp : TrainXwin.bfs_pending codes.length
          (TrainXwin.BfsState.mk st.need (upd st.dp_flags j (st.dp_flags j ||| 1))
            (upd st.depth_0 j ((st.depth_1 i + 1) % 65536)) st.depth_1 st.bfs) =
          TrainXwin.bfs_pending codes.length st := by
        unfold TrainXwin.bfs_pending
        congr 2
        funext t
        show decide ((upd st.dp_flags j (st.dp_flags j ||| 1)) t &&& 2 = 0) =
          decide (st.dp_flags t &&& 2 = 0)
        unfold upd
        by_cases htj : t = j
        · rw [if_pos htj, or_one_and_two, htj]
        · rw [if_neg htj]
      obtain ⟨a1, a2⟩ := TrainXwin.bfs_inner_fold_pending codes j qs
        (TrainXwin.BfsState.mk st.need (upd st.dp_flags j (st.dp_flags j ||| 1))
          (upd st.depth_0 j ((st.depth_1 i + 1) % 65536)) st.depth_1 st.bfs) hW
      exact ⟨a1, by rw [← hp]; exact a2⟩

theorem TrainXwin.bfs_mid_fold_some (codes : List Nat)
    (hS : ∀ c ∈ codes, Stored train_4x4_m4 c) (i : Nat) (ps : List Nat)
    (st : TrainXwin.BfsState) (hW : ∀ t ∈ st.bfs, t < codes.length) :
    ∃ st2, ps.foldl (TrainXwin.bfs_mid codes i) (some st) = some st2 ∧
      (∀ t ∈ st2.bfs, t < codes.length) ∧
      TrainXwin.bfs_pending codes.length st2 ≤ TrainXwin.bfs_pending codes.length st := by
  induction ps generalizing st with
  | nil => exact ⟨st, rfl, hW, Nat.le_refl _⟩
  | cons p rest ih =>
    rw [List.foldl_cons]
    obtain ⟨st1, h1, a1, a2⟩ := TrainXwin.bfs_mid_some codes hS i st p hW
    rw [h1]
    obtain ⟨st2, h2, c1, c2⟩ := ih st1 a1
    exact ⟨st2, h2, c1, Nat.le_trans c2 a2⟩

/-- On a table of stored codes, with arrays of at least 10 entries in
`get_x_preds` and fuel at least the bound, the propagation stays inside its
arrays and ends on the empty queue. -/
theorem TrainXwin.bfs_loop_done (cap : Nat) (hcap : 10 ≤ cap) (codes : List Nat)
    (hS : ∀ c ∈ codes, Stored train_4x4_m4 c) (fuel : Nat) (st : TrainXwin.BfsState)
    (hW : ∀ t ∈ st.bfs, t < codes.length)
    (hfuel : TrainXwin.bfs_pending codes.length st ≤ fuel) :
    ∃ st2, TrainXwin.bfs_loop cap codes fuel st = some st2 ∧ st2.bfs = [] := by
  induction fuel generalizing st with
  | zero =>
    unfold TrainXwin.bfs_loop
    refine ⟨st, rfl, ?_⟩
    unfold TrainXwin.bfs_pending at hfuel
    exact List.length_eq_zero.mp (by omega)
  | succ n ih =>
    unfold TrainXwin.bfs_loop
    cases hq : st.bfs with
    | nil => exact ⟨st, rfl, hq⟩
    | cons i rest =>
      simp only []
      have hi : i < codes.length := hW i (by rw [hq]; exact List.mem_cons_self _ _)
      obtain ⟨ps, hps⟩ := (TrainXwin.preds_some cap hcap _
        (hS _ (getD_mem_of_lt codes i hi))).1
      rw [hps]
      simp only []
      have hW1 : ∀ t ∈ (TrainXwin.BfsState.mk st.need st.dp_flags st.depth_0 st.depth_1
          rest).bfs, t < codes.length :=
        fun t ht => hW t (by rw [hq]; exact List.mem_cons_of_mem _ ht)
      obtain ⟨st1, h1, a1, a2⟩ := TrainXwin.bfs_mid_fold_some codes hS i ps _ hW1
      rw [h1]
      simp only []
      apply ih st1 a1
      have hp : TrainXwin.bfs_pending codes.length
          (TrainXwin.BfsState.mk st.need st.dp_flags st.depth_0 st.depth_1 rest) + 1 =
          TrainXwin.bfs_pending codes.length st := by
        unfold TrainXwin.bfs_pending
        rw [hq]
        simp only [List.length_cons]
        omega
      omega


set_option maxRecDepth 1000000 in
/-- C28 (the code at the failing input): the state `X = (8,0,1,2)`,
`Y = (4,5,6,7)` is stored with code 899798159 and decodes to
`([11,3,2,1], [7,6,5,4])`; `check_result` gives `-1` on each of its eight
images, so `train_ywin.cpp` seeds it as a Y-win terminal and saves `dp0 = -1`
for it, while `train_xwin.cpp` does not treat it as a terminal. The state
`X = (0,1,2,3)`, `Y = (4,5,6,7)` is stored with code 463233892;
`check_result` gives `+1` on each of its eight images, so `train_xwin.cpp`
pushes it on the queue; `get_x_preds` returns eight codes for it, among them
899798159 (with arrays of 9 entries as in the source, and with 10). Hence,
whenever the propagation of `train_xwin.cpp` ends on the empty queue, the
record it saves for 899798159 has `dp0 = +1`; and with arrays of 10 entries
the propagation on a table of stored codes does stay inside its arrays and
end on the empty queue. Both tables then hold a non-zero `dp0` for this
code, and `Record::merge` keeps the value of its receiver: `+1` or `-1`,
depending on the order of its arguments. -/
theorem tables_conflict :
    Stored train_4x4_m4 899798159 ∧ Stored train_4x4_m4 463233892 ∧
      (canonicalize train_4x4_m4 [8, 0, 1, 2] [4, 5, 6, 7]).code = 899798159 ∧
      (canonicalize train_4x4_m4 [0, 1, 2, 3] [4, 5, 6, 7]).code = 463233892 ∧
      TrainXwin.decode_state 899798159 = ([11, 3, 2, 1], [7, 6, 5, 4]) ∧
      TrainXwin.decode_state 463233892 = ([3, 2, 1, 0], [7, 6, 5, 4]) ∧
      (∀ k < 8, TrainXwin.check_result (([11, 3, 2, 1] : List Int).map (TrainXwin.tr k))
        (([7, 6, 5, 4] : List Int).map (TrainXwin.tr k)) = -1) ∧
      (∀ k < 8, TrainXwin.check_result (([3, 2, 1, 0] : List Int).map (TrainXwin.tr k))
        (([7, 6, 5, 4] : List Int).map (TrainXwin.tr k)) = 1) ∧
      TrainXwin.get_x_preds [3, 2, 1, 0] [7, 6, 5, 4] =
        some [899547596, 899631117, 899714638, 899798159, 899881680, 899965201, 900048722,
          900132243] ∧
      TrainXwin.get_x_preds_cap 10 [3, 2, 1, 0] [7, 6, 5, 4] =
        some [899547596, 899631117, 899714638, 899798159, 899881680, 899965201, 900048722,
          900132243] ∧
      (∀ (cap : Nat) (codes : List Nat) (fuel : Nat) (st st2 : TrainXwin.BfsState) (i j : Nat),
        cap = 9 ∨ cap = 10 → i ∈ st.bfs → codes.getD i 0 = 463233892 →
        TrainXwin.find_idx codes 899798159 = some j →
        TrainXwin.bfs_loop cap codes fuel st = some st2 → st2.bfs = [] →
        (TrainXwin.save_record codes st2 j).state_code = 899798159 ∧
          (TrainXwin.save_record codes st2 j).dp0 = 1) ∧
      (∀ (codes : List Nat) (st : TrainXwin.BfsState) (i j : Nat),
        (∀ c ∈ codes, Stored train_4x4_m4 c) → (∀ t ∈ st.bfs, t < codes.length) →
        i ∈ st.bfs → codes.getD i 0 = 463233892 →
        TrainXwin.find_idx codes 899798159 = some j →
        ∃ st2, TrainXwin.bfs_loop 10 codes (TrainXwin.bfs_pending codes.length st) st =
            some st2 ∧ st2.bfs = [] ∧
          (TrainXwin.save_record codes st2 j).state_code = 899798159 ∧
          (TrainXwin.save_record codes st2 j).dp0 = 1) ∧
      (∀ (codes : List Nat) (dp_flags depth_0 depth_1 : Nat → Nat) (j : Nat),
        codes.getD j 0 = 899798159 → dp_flags j &&& 1 ≠ 0 →
        (TrainYwin.save_record codes dp_flags depth_0 depth_1 j).state_code = 899798159 ∧
          (TrainYwin.save_record codes dp_flags depth_0 depth_1 j).dp0 = -1) ∧
      (∀ r o : Record, r.dp0 = 1 → o.dp0 = -1 →
        (r.merge o).dp0 = 1 ∧ (o.merge r).dp0 = -1) := by
  have hp9 : TrainXwin.get_x_preds [3, 2, 1, 0] [7, 6, 5, 4] =
      some [899547596, 899631117, 899714638, 899798159, 899881680, 899965201, 900048722,
        900132243] := by decide!
  have hp10 : TrainXwin.get_x_preds_cap 10 [3, 2, 1, 0] [7, 6, 5, 4] =
      some [899547596, 899631117, 899714638, 899798159, 899881680, 899965201, 900048722,
        900132243] := by decide!
  have hdt : TrainXwin.decode_state 463233892 = ([3, 2, 1, 0], [7, 6, 5, 4]) := by decide!
  refine ⟨stored_of_ok _ _ (by decide!), stored_of_ok _ _ (by decide!), by decide!, by decide!,
    by decide!, hdt, by decide!, by decide!, hp9, hp10, ?_, ?_, ?_, ?_⟩
  · intro cap codes fuel st st2 i j hcap hi hci hj hloop hq
    have hcj := TrainXwin.find_idx_some codes 899798159 j hj
    have hps : TrainXwin.get_x_preds_cap cap (TrainXwin.decode_state (codes.getD i 0)).1
        (TrainXwin.decode_state (codes.getD i 0)).2 =
        some [899547596, 899631117, 899714638, 899798159, 899881680, 899965201, 900048722,
          900132243] := by
      rw [hci, hdt]
      rcases hcap with rfl | rfl
      · exact hp9
      · exact hp10
    have hflag := TrainXwin.bfs_loop_flags cap codes fuel st st2 hloop hq i hi _ hps
      899798159 (by decide) j hj
    unfold TrainXwin.save_record
    exact ⟨hcj, by rw [if_pos hflag]⟩
  · intro codes st i j hS hW hi hci hj
    obtain ⟨st2, hloop, hq⟩ := TrainXwin.bfs_loop_done 10 (Nat.le_refl _) codes hS
      (TrainXwin.bfs_pending codes.length st) st hW (Nat.le_refl _)
    have hcj := TrainXwin.find_idx_some codes 899798159 j hj
    have hps : TrainXwin.get_x_preds_cap 10 (TrainXwin.decode_state (codes.getD i 0)).1
        (TrainXwin.decode_state (codes.getD i 0)).2 =
        some [899547596, 899631117, 899714638, 899798159, 899881680, 899965201, 900048722,
          900132243] := by
      rw [hci, hdt]; exact hp10
    have hflag := TrainXwin.bfs_loop_flags 10 codes _ st st2 hloop hq i hi _ hps
      899798159 (by decide) j hj
    refine ⟨st2, hloop, hq, ?_⟩
    unfold TrainXwin.save_record
    exact ⟨hcj, by rw [if_pos hflag]⟩
  · intro codes dp_flags depth_0 depth_1 j hcj hflag
    unfold TrainYwin.save_record
    exact ⟨hcj, by rw [if_pos hflag]⟩
  · intro r o hr ho
    unfold Record.merge
    constructor
    · simp [hr]
    · simp [ho]

/-! ## The merge loop: termination, index safety and the header count -/

theorem read_batch_ok (file : List Record) (hf : file.length < UINT64_MOD) (r : DataReader)
    (h : ReaderOK file r) (bs : Nat) (hbs : 1 ≤ bs) :
    ReaderOK file (r.read_batch bs).1 ∧
      (r.read_batch bs).2.1.length + (file.length - (r.read_batch bs).1.pos) =
        file.length - r.pos ∧
      (r.eof = false → 0 < (r.read_batch bs).2.1.length) := by
  obtain ⟨h1, h2, h3⟩ := h
  have hm : (r.num_records + UINT64_MOD - r.pos) % UINT64_MOD = file.length - r.pos := by
    rw [h2]
    have : file.length + UINT64_MOD - r.pos = (file.length - r.pos) + UINT64_MOD := by omega
    rw [this, Nat.add_mod_right]
    exact Nat.mod_eq_of_lt (by omega)
  unfold DataReader.read_batch
  simp only [hm]
  by_cases h0 : min bs (file.length - r.pos) = 0
  · rw [if_pos h0]
    have h4 : file.length - r.pos = 0 := by
      rcases Nat.min_eq_zero_iff.mp h0 with h | h <;> omega
    refine ⟨⟨h1, h2, h3⟩, by simp, ?_⟩
    intro he
    simp only [DataReader.eof, decide_eq_false_iff_not, ge_iff_le, not_le] at he
    omega
  · rw [if_neg h0]
    refine ⟨⟨h1, h2, ?_⟩, ?_, ?_⟩
    · show r.pos + min bs (file.length - r.pos) ≤ file.length
      omega
    · show ((r.records.drop r.pos).take (min bs (file.length - r.pos))).length +
        (file.length - (r.pos + min bs (file.length - r.pos))) = file.length - r.pos
      rw [List.length_take, List.length_drop, h1]
      omega
    · intro _
      show 0 < ((r.records.drop r.pos).take (min bs (file.length - r.pos))).length
      rw [List.length_take, List.length_drop, h1]
      omega

theorem idx_cases (i len : Nat) (e : Bool) (hle : i ≤ len) (hc : ¬ (i ≥ len ∧ e = false)) :
    i < len ∨ (i = len ∧ e = true) := by
  rcases Nat.lt_or_ge i len with h | h
  · exact Or.inl h
  · right
    refine ⟨by omega, ?_⟩
    cases e
    · exact absurd ⟨h, rfl⟩ hc
    · rfl

theorem merge_reload_inv (x y : List Record) (hx : x.length < UINT64_MOD)
    (hy : y.length < UINT64_MOD) (bs : Nat) (hbs : 1 ≤ bs) (s : MergeState)
    (rx : ReaderOK x s.xwin) (ry : ReaderOK y s.ywin)
    (ix : s.xwin_idx ≤ s.xwin_batch.length) (iy : s.ywin_idx ≤ s.ywin_batch.length)
    (wr : s.written = s.out.length % UINT64_MOD)
    (pot : s.out.length + merge_pending s ≤ x.length + y.length) :
    MergeInv x y (merge_reload bs s) ∧ merge_pending (merge_reload bs s) = merge_pending s ∧
      (merge_reload bs s).out = s.out := by
  obtain ⟨hX1, hX2, hX3⟩ := read_batch_ok x hx s.xwin rx bs hbs
  obtain ⟨hY1, hY2, hY3⟩ := read_batch_ok y hy s.ywin ry bs hbs
  have nx := rx.num
  have ny := ry.num
  have px := rx.pos
  have py := ry.pos
  have a1 := hX1.num
  have a2 := hY1.num
  unfold merge_pending at pot
  unfold merge_reload
  simp only []
  split_ifs with c1 c2 c2
  · have c3 := c1.1
    have c4 := c2.1
    dsimp only at c4
    have hp : merge_pending (MergeState.mk (s.xwin.read_batch bs).1 (s.ywin.read_batch bs).1
        (s.xwin.read_batch bs).2.1 (s.ywin.read_batch bs).2.1 0 0 s.out s.written s.xonly
        s.yonly s.both) = merge_pending s := by
      unfold merge_pending
      dsimp only
      omega
    refine ⟨⟨hX1, hY1, Or.inl (hX3 c1.2), Or.inl (hY3 c2.2), wr, ?_⟩, hp, rfl⟩
    show s.out.length + merge_pending _ ≤ _
    rw [hp]
    unfold merge_pending
    omega
  · have c3 := c1.1
    have hp : merge_pending (MergeState.mk (s.xwin.read_batch bs).1 s.ywin
        (s.xwin.read_batch bs).2.1 s.ywin_batch 0 s.ywin_idx s.out s.written s.xonly
        s.yonly s.both) = merge_pending s := by
      unfold merge_pending
      dsimp only
      omega
    refine ⟨⟨hX1, ry, Or.inl (hX3 c1.2), idx_cases _ _ _ iy c2, wr, ?_⟩, hp, rfl⟩
    show s.out.length + merge_pending _ ≤ _
    rw [hp]
    unfold merge_pending
    omega
  · have c4 := c2.1
    have hp : merge_pending (MergeState.mk s.xwin (s.ywin.read_batch bs).1
        s.xwin_batch (s.ywin.read_batch bs).2.1 s.xwin_idx 0 s.out s.written s.xonly
        s.yonly s.both) = merge_pending s := by
      unfold merge_pending
      dsimp only
      omega
    refine ⟨⟨rx, hY1, idx_cases _ _ _ ix c1, Or.inl (hY3 c2.2), wr, ?_⟩, hp, rfl⟩
    show s.out.length + merge_pending _ ≤ _
    rw [hp]
    unfold merge_pending
    omega
  · refine ⟨⟨rx, ry, idx_cases _ _ _ ix c1, idx_cases _ _ _ iy c2, wr, ?_⟩, rfl, rfl⟩
    unfold merge_pending
    omega
theorem get_some_lt {α : Type} (l : List α) (i : Nat) (a : α) (h : l.get? i = some a) :
    i < l.length := by
  by_contra hc
  rw [List.get?_eq_none.mpr (by omega)] at h
  exact Option.noConfusion h

theorem merge_advance (x y : List Record) (hx : x.length < UINT64_MOD)
    (hy : y.length < UINT64_MOD) (bs : Nat) (hbs : 1 ≤ bs) (s t : MergeState)
    (h : MergeInv x y s) (current : Record)
    (e1 : t.xwin = s.xwin) (e2 : t.ywin = s.ywin) (e3 : t.xwin_batch = s.xwin_batch)
    (e4 : t.ywin_batch = s.ywin_batch) (e5 : t.out = s.out ++ [current])
    (e6 : t.written = (s.written + 1) % UINT64_MOD)
    (i1 : s.xwin_idx ≤ t.xwin_idx) (i2 : t.xwin_idx ≤ s.xwin_batch.length)
    (i3 : s.ywin_idx ≤ t.ywin_idx) (i4 : t.ywin_idx ≤ s.ywin_batch.length)
    (i5 : s.xwin_idx + s.ywin_idx < t.xwin_idx + t.ywin_idx) :
    MergeInv x y (merge_reload bs t) ∧ merge_pending (merge_reload bs t) < merge_pending s ∧
      (merge_reload bs t).out = s.out ++ [current] := by
  have hp : merge_pending t < merge_pending s := by
    unfold merge_pending
    rw [e1, e2, e3, e4]
    omega
  have hr := merge_reload_inv x y hx hy bs hbs t (e1 ▸ h.rx) (e2 ▸ h.ry) (e3 ▸ i2) (e4 ▸ i4)
    (by rw [e6, e5, h.wr, List.length_append, List.length_singleton, Nat.mod_add_mod])
    (by
      have := h.pot
      rw [e5, List.length_append, List.length_singleton]
      omega)
  exact ⟨hr.1, by rw [hr.2.1]; exact hp, by rw [hr.2.2, e5]⟩

theorem merge_step_inv (x y : List Record) (hx : x.length < UINT64_MOD)
    (hy : y.length < UINT64_MOD) (bs : Nat) (hbs : 1 ≤ bs) (s : MergeState)
    (h : MergeInv x y s) (hc : s.xwin.eof = false ∨ s.ywin.eof = false) :
    ∃ s1 current, merge_step bs s = some s1 ∧ MergeInv x y s1 ∧
      merge_pending s1 < merge_pending s ∧ s1.out = s.out ++ [current] := by
  unfold merge_step
  rcases hgx : s.xwin_batch.get? s.xwin_idx with _ | a <;>
    rcases hgy : s.ywin_batch.get? s.ywin_idx with _ | c
  · exfalso
    have h1 := List.get?_eq_none.mp hgx
    have h2 := List.get?_eq_none.mp hgy
    rcases hc with e | e
    · rcases h.ix with i | i
      · omega
      · rw [i.2] at e
        exact Bool.noConfusion e
    · rcases h.iy with i | i
      · omega
      · rw [i.2] at e
        exact Bool.noConfusion e
  · have h2 := get_some_lt _ _ _ hgy
    have h1 := List.get?_eq_none.mp hgx
    have hix : s.xwin_idx = s.xwin_batch.length := by
      rcases h.ix with i | i
      · omega
      · exact i.1
    simp only [Bool.false_eq_true, if_false]
    exact ⟨_, c, rfl, merge_advance x y hx hy bs hbs s _ h c rfl rfl rfl rfl rfl rfl
      (Nat.le_refl _) (by simp only [merge_write]; omega) (Nat.le_succ _) h2 (by simp only [merge_write]; omega)⟩
  · have h1 := get_some_lt _ _ _ hgx
    have h2 := List.get?_eq_none.mp hgy
    have hiy : s.ywin_idx = s.ywin_batch.length := by
      rcases h.iy with i | i
      · omega
      · exact i.1
    simp only [if_true, hgy]
    exact ⟨_, a, rfl, merge_advance x y hx hy bs hbs s _ h a rfl rfl rfl rfl rfl rfl
      (Nat.le_succ _) h1 (Nat.le_refl _) (by simp only [merge_write]; omega) (by simp only [merge_write]; omega)⟩
  · have h1 := get_some_lt _ _ _ hgx
    have h2 := get_some_lt _ _ _ hgy
    by_cases hle : a.state_code ≤ c.state_code
    · simp only [hle, decide_True, if_true, hgy]
      by_cases heq : c.state_code = a.state_code
      · rw [if_pos heq]
        exact ⟨_, a.merge c, rfl, merge_advance x y hx hy bs hbs s _ h (a.merge c) rfl rfl rfl
          rfl rfl rfl (Nat.le_succ _) h1 (Nat.le_succ _) h2 (by simp only [merge_write]; omega)⟩
      · rw [if_neg heq]
        exact ⟨_, a, rfl, merge_advance x y hx hy bs hbs s _ h a rfl rfl rfl rfl rfl rfl
          (Nat.le_succ _) h1 (Nat.le_refl _) (by simp only [merge_write]; omega) (by simp only [merge_write]; omega)⟩
    · simp only [hle, decide_False, Bool.false_eq_true, if_false]
      exact ⟨_, c, rfl, merge_advance x y hx hy bs hbs s _ h c rfl rfl rfl rfl rfl rfl
        (Nat.le_refl _) (by simp only [merge_write]; omega) (Nat.le_succ _) h2 (by simp only [merge_write]; omega)⟩
theorem merge_loop_inv (x y : List Record) (hx : x.length < UINT64_MOD)
    (hy : y.length < UINT64_MOD) (bs : Nat) (hbs : 1 ≤ bs) :
    ∀ (fuel : Nat) (s : MergeState), MergeInv x y s → merge_pending s ≤ fuel →
      ∃ s1, merge_loop bs fuel s = some s1 ∧ MergeInv x y s1 ∧ s1.xwin.eof = true ∧
        s1.ywin.eof = true := by
  have hz : ∀ s : MergeState, MergeInv x y s → (s.xwin.eof = false ∨ s.ywin.eof = false) →
      0 < merge_pending s := by
    intro s h hc
    unfold merge_pending
    rcases hc with e | e <;>
      simp only [DataReader.eof, decide_eq_false_iff_not, ge_iff_le, not_le] at e <;> omega
  intro fuel
  induction fuel with
  | zero =>
    intro s h hp
    refine ⟨s, rfl, h, ?_, ?_⟩
    · by_contra hc
      have := hz s h (Or.inl (by simpa using hc))
      omega
    · by_contra hc
      have := hz s h (Or.inr (by simpa using hc))
      omega
  | succ n ih =>
    intro s h hp
    unfold merge_loop
    by_cases hc : s.xwin.eof = false ∨ s.ywin.eof = false
    · rw [if_pos hc]
      obtain ⟨s1, _, hs, hi, hlt, _⟩ := merge_step_inv x y hx hy bs hbs s h hc
      rw [hs]
      exact ih s1 hi (by omega)
    · rw [if_neg hc]
      refine ⟨s, rfl, h, ?_, ?_⟩
      · by_contra hc2
        exact hc (Or.inl (by simpa using hc2))
      · by_contra hc2
        exact hc (Or.inr (by simpa using hc2))

theorem merge_init_inv (x y : List Record) (hx : x.length < UINT64_MOD)
    (hy : y.length < UINT64_MOD) (bs : Nat) (hbs : 1 ≤ bs) :
    MergeInv x y (merge_init bs x y) ∧ merge_pending (merge_init bs x y) ≤ x.length + y.length := by
  have ox : ReaderOK x (DataReader.open_file x) := ⟨rfl, rfl, Nat.zero_le _⟩
  have oy : ReaderOK y (DataReader.open_file y) := ⟨rfl, rfl, Nat.zero_le _⟩
  obtain ⟨hX1, hX2, hX3⟩ := read_batch_ok x hx _ ox bs hbs
  obtain ⟨hY1, hY2, hY3⟩ := read_batch_ok y hy _ oy bs hbs
  have a1 := hX1.num
  have a2 := hY1.num
  have p1 : (DataReader.open_file x).pos = 0 := rfl
  have p2 : (DataReader.open_file y).pos = 0 := rfl
  have hp : merge_pending (merge_init bs x y) ≤ x.length + y.length := by
    unfold merge_pending merge_init
    dsimp only
    omega
  have key : ∀ (f : List Record) (r : DataReader) (b : List Record), ReaderOK f r →
      b.length + (f.length - r.pos) = f.length → ((DataReader.open_file f).eof = false →
        0 < b.length) → 0 < b.length ∨ (0 = b.length ∧ r.eof = true) := by
    intro f r b hr hl he
    cases hf : (DataReader.open_file f).eof
    · exact Or.inl (he hf)
    · right
      simp only [DataReader.eof, DataReader.open_file, decide_eq_true_eq, ge_iff_le] at hf
      have hn := hr.num
      have hq := hr.pos
      refine ⟨by omega, ?_⟩
      simp only [DataReader.eof, decide_eq_true_eq, ge_iff_le]
      omega
  refine ⟨⟨hX1, hY1, key x _ _ hX1 hX2 hX3, key y _ _ hY1 hY2 hY3, rfl, ?_⟩, hp⟩
  show 0 + _ ≤ _
  omega

theorem merge_main_run (x y : List Record) (hx : x.length < UINT64_MOD)
    (hy : y.length < UINT64_MOD) (bs : Nat) (hbs : 1 ≤ bs) :
    ∃ s, merge_loop bs (x.length + y.length) (merge_init bs x y) = some s ∧ MergeInv x y s ∧
      s.xwin.eof = true ∧ s.ywin.eof = true ∧ merge_main bs x y = some (s.written, s.out) := by
  obtain ⟨hi, hp⟩ := merge_init_inv x y hx hy bs hbs
  obtain ⟨s, hs, h, e1, e2⟩ := merge_loop_inv x y hx hy bs hbs _ _ hi hp
  refine ⟨s, hs, h, e1, e2, ?_⟩
  unfold merge_main
  simp only []
  have : merge_loop bs (x.length + y.length)
      (MergeState.mk ((DataReader.open_file x).read_batch bs).1
        ((DataReader.open_file y).read_batch bs).1
        ((DataReader.open_file x).read_batch bs).2.1
        ((DataReader.open_file y).read_batch bs).2.1 0 0 [] 0 0 0 0) = some s := hs
  rw [this]

/-- C39: for tables whose headers fit a `uint64_t` and every batch size of at
least 1, the merge loop started by `main` runs to its end (both readers at
`eof`) within `|xwin| + |ywin|` iterations and no iteration reads
`xwin_batch[xwin_idx]` or `ywin_batch[ywin_idx]` at an index at or beyond the
size of the batch: the loop of the model, which gives `none` at such a read,
gives a final state. -/
theorem merge_reads_in_range (batch_size : Nat) (hb : 1 ≤ batch_size)
    (xwin_file ywin_file : List Record) (hx : xwin_file.length < UINT64_MOD)
    (hy : ywin_file.length < UINT64_MOD) :
    ∃ s, merge_loop batch_size (xwin_file.length + ywin_file.length)
        (merge_init batch_size xwin_file ywin_file) = some s ∧
      s.xwin.eof = true ∧ s.ywin.eof = true ∧
      merge_main batch_size xwin_file ywin_file = some (s.written, s.out) := by
  obtain ⟨s, hs, _, e1, e2, hm⟩ := merge_main_run xwin_file ywin_file hx hy batch_size hb
  exact ⟨s, hs, e1, e2, hm⟩

theorem merge_reads_in_range_witness :
    ∃ s, merge_loop 2 (3 + 1)
        (merge_init 2 [Record.mk 1 1 1 0 0, Record.mk 3 1 0 1 0, Record.mk 5 1 1 1 1]
          [Record.mk 2 0 1 0 0]) = some s ∧
      s.xwin.eof = true ∧ s.ywin.eof = true ∧
      merge_main 2 [Record.mk 1 1 1 0 0, Record.mk 3 1 0 1 0, Record.mk 5 1 1 1 1]
        [Record.mk 2 0 1 0 0] = some (s.written, s.out) :=
  merge_reads_in_range 2 (by decide)
    [Record.mk 1 1 1 0 0, Record.mk 3 1 0 1 0, Record.mk 5 1 1 1 1] [Record.mk 2 0 1 0 0]
    (by decide) (by decide)

/-- C32: for tables whose headers fit a `uint64_t` and every batch size of at
least 1, `main` of the merger ends with a header `n` and a list `out` of
written records such that `n` is the number of records of `out` as a
`uint64_t`; `out` has at most `|xwin| + |ywin|` records, so `n` is the number
of written records whenever the two inputs have fewer than `2^64` records
together. -/
theorem merge_header_count (batch_size : Nat) (hb : 1 ≤ batch_size)
    (xwin_file ywin_file : List Record) (hx : xwin_file.length < UINT64_MOD)
    (hy : ywin_file.length < UINT64_MOD) :
    ∃ n out, merge_main batch_size xwin_file ywin_file = some (n, out) ∧
      n = out.length % UINT64_MOD ∧ out.length ≤ xwin_file.length + ywin_file.length ∧
      (xwin_file.length + ywin_file.length < UINT64_MOD → n = out.length) := by
  obtain ⟨s, _, h, _, _, hm⟩ := merge_main_run xwin_file ywin_file hx hy batch_size hb
  have hp := h.pot
  refine ⟨s.written, s.out, hm, h.wr, by omega, ?_⟩
  intro hlt
  rw [h.wr]
  exact Nat.mod_eq_of_lt (by omega)

theorem merge_header_count_witness :
    ∃ n out, merge_main 2 [Record.mk 1 1 1 0 0, Record.mk 3 1 0 1 0, Record.mk 5 1 1 1 1]
        [Record.mk 2 0 1 0 0] = some (n, out) ∧
      n = out.length % UINT64_MOD ∧ out.length ≤ 3 + 1 ∧
      (3 + 1 < UINT64_MOD → n = out.length) :=
  merge_header_count 2 (by decide)
    [Record.mk 1 1 1 0 0, Record.mk 3 1 0 1 0, Record.mk 5 1 1 1 1] [Record.mk 2 0 1 0 0]
    (by decide) (by decide)
theorem merge_reload_fields (bs : Nat) (t : MergeState) :
    (merge_reload bs t).out = t.out ∧ (merge_reload bs t).written = t.written ∧
      (merge_reload bs t).both = t.both ∧ (merge_reload bs t).xonly = t.xonly ∧
      (merge_reload bs t).yonly = t.yonly := by
  unfold merge_reload
  simp only []
  split_ifs <;> exact ⟨rfl, rfl, rfl, rfl, rfl⟩

/-- C31 (the behaviour of the code): when the records at the two indices
have the same `state_code`, the loop body does not fail and has no branch
that reports anything: it writes the single record `a.merge c`, counted in
`written` and in `both`, whatever the other fields are. In that record each
field that is non-zero in the xwin record `a` keeps the value of `a`, also
when the ywin record `c` holds another non-zero value, and each field that
is zero in `a` takes the value of `c`. -/
theorem merge_same_code (batch_size : Nat) (s : MergeState) (a c : Record)
    (ha : s.xwin_batch.get? s.xwin_idx = some a) (hc : s.ywin_batch.get? s.ywin_idx = some c)
    (he : a.state_code = c.state_code) :
    ∃ s1, merge_step batch_size s = some s1 ∧ s1.out = s.out ++ [a.merge c] ∧
      s1.written = (s.written + 1) % UINT64_MOD ∧ s1.both = (s.both + 1) % UINT64_MOD ∧
      s1.xonly = s.xonly ∧ s1.yonly = s.yonly ∧
      (a.dp0 ≠ 0 → (a.merge c).dp0 = a.dp0) ∧ (a.dp1 ≠ 0 → (a.merge c).dp1 = a.dp1) ∧
      (a.depth0 ≠ 0 → (a.merge c).depth0 = a.depth0) ∧
      (a.depth1 ≠ 0 → (a.merge c).depth1 = a.depth1) ∧
      (a.dp0 = 0 → (a.merge c).dp0 = c.dp0) ∧ (a.dp1 = 0 → (a.merge c).dp1 = c.dp1) ∧
      (a.depth0 = 0 → (a.merge c).depth0 = c.depth0) ∧
      (a.depth1 = 0 → (a.merge c).depth1 = c.depth1) := by
  unfold merge_step
  simp only [ha, hc, he, le_refl, decide_True, if_true]
  obtain ⟨h1, h2, h3, h4, h5⟩ := merge_reload_fields batch_size
    (merge_write (MergeState.mk s.xwin s.ywin s.xwin_batch s.ywin_batch (s.xwin_idx + 1)
      (s.ywin_idx + 1) s.out s.written s.xonly s.yonly ((s.both + 1) % UINT64_MOD)) (a.merge c))
  refine ⟨_, rfl, h1, h2, h3, h4, h5, ?_, ?_, ?_, ?_, ?_, ?_, ?_, ?_⟩ <;> intro h <;>
    simp only [Record.merge, h, if_true, if_false]

theorem merge_same_code_witness :
    ∃ s1, merge_step 1 (merge_init 1 [Record.mk 10 1 1 0 0]
          [Record.mk 10 (-1) 0 5 3, Record.mk 20 0 (-1) 2 2]) = some s1 ∧
      s1.out = [] ++ [(Record.mk 10 1 1 0 0).merge (Record.mk 10 (-1) 0 5 3)] ∧
      s1.written = (0 + 1) % UINT64_MOD ∧ s1.both = (0 + 1) % UINT64_MOD ∧
      s1.xonly = 0 ∧ s1.yonly = 0 ∧
      ((1 : Int) ≠ 0 → ((Record.mk 10 1 1 0 0).merge (Record.mk 10 (-1) 0 5 3)).dp0 = 1) ∧
      ((1 : Int) ≠ 0 → ((Record.mk 10 1 1 0 0).merge (Record.mk 10 (-1) 0 5 3)).dp1 = 1) ∧
      ((0 : Nat) ≠ 0 → ((Record.mk 10 1 1 0 0).merge (Record.mk 10 (-1) 0 5 3)).depth0 = 0) ∧
      ((0 : Nat) ≠ 0 → ((Record.mk 10 1 1 0 0).merge (Record.mk 10 (-1) 0 5 3)).depth1 = 0) ∧
      ((1 : Int) = 0 → ((Record.mk 10 1 1 0 0).merge (Record.mk 10 (-1) 0 5 3)).dp0 = -1) ∧
      ((1 : Int) = 0 → ((Record.mk 10 1 1 0 0).merge (Record.mk 10 (-1) 0 5 3)).dp1 = 0) ∧
      ((0 : Nat) = 0 → ((Record.mk 10 1 1 0 0).merge (Record.mk 10 (-1) 0 5 3)).depth0 = 5) ∧
      ((0 : Nat) = 0 → ((Record.mk 10 1 1 0 0).merge (Record.mk 10 (-1) 0 5 3)).depth1 = 3) :=
  merge_same_code 1 (merge_init 1 [Record.mk 10 1 1 0 0]
    [Record.mk 10 (-1) 0 5 3, Record.mk 20 0 (-1) 2 2]) (Record.mk 10 1 1 0 0)
    (Record.mk 10 (-1) 0 5 3) (by decide) (by decide) rfl

/-- C31 (the claim fails on its own example): with batches of one record the
tables `[(10, +1, +1, 0, 0)]` and `[(10, -1, 0, 5, 3), (20, 0, -1, 2, 2)]`
merge without any failure to the header 1 and the single combined record
`(10, +1, +1, 5, 3)`, in which `dp0 = +1` of xwin silently replaces `dp0 = -1`
of ywin; with the batch size of `main` the same tables merge to an empty
output with header 0. No collision is detected in either run. -/
theorem merge_no_collision_check :
    merge_main 1 [Record.mk 10 1 1 0 0] [Record.mk 10 (-1) 0 5 3, Record.mk 20 0 (-1) 2 2] =
        some (1, [Record.mk 10 1 1 5 3]) ∧
      merge_main BATCH_SIZE [Record.mk 10 1 1 0 0]
          [Record.mk 10 (-1) 0 5 3, Record.mk 20 0 (-1) 2 2] = some (0, []) := by
  constructor <;> decide

/-! ## The binary search of the implicit mode -/

theorem findIdx_sorted (c : Nat) : ∀ codes : List Nat, codes.Pairwise (· < ·) → c ∈ codes →
    codes.get? (codes.findIdx (fun x => decide (c ≤ x))) = some c := by
  intro codes
  induction codes with
  | nil => intro _ hm; cases hm
  | cons a rest ih =>
    intro hs hm
    rw [List.pairwise_cons] at hs
    rw [List.findIdx_cons]
    by_cases hle : c ≤ a
    · have hca : c = a := by
        rcases List.mem_cons.mp hm with h | h
        · exact h
        · have := hs.1 c h
          omega
      simp [hle, hca]
    · have hin : c ∈ rest := by
        rcases List.mem_cons.mp hm with h | h
        · omega
        · exact h
      simp only [hle, decide_False, cond_false, List.get?_cons_succ]
      exact ih hs.2 hin

/-- C38: on a strictly ascending array `codes`, `find_idx` returns for a code
`c` that occurs in the array an index `i` within the array with
`codes[i] = c`, and it returns `-1` (`none`) exactly when `c` does not occur;
every index it returns holds `c`. -/
theorem find_idx_sorted (codes : List Nat) (c : Nat) (hs : codes.Pairwise (· < ·)) :
    (c ∈ codes → ∃ i, TrainXwin.find_idx codes c = some i ∧ i < codes.length ∧
        codes.get? i = some c) ∧
      (TrainXwin.find_idx codes c = none ↔ c ∉ codes) ∧
      (∀ i, TrainXwin.find_idx codes c = some i → codes.get? i = some c) := by
  have h3 : ∀ i, TrainXwin.find_idx codes c = some i → codes.get? i = some c := by
    intro i hi
    unfold TrainXwin.find_idx at hi
    split_ifs at hi with h
    rw [← Option.some.inj hi]
    exact h
  have h1 : c ∈ codes → ∃ i, TrainXwin.find_idx codes c = some i ∧ i < codes.length ∧
      codes.get? i = some c := by
    intro hm
    have hg := findIdx_sorted c codes hs hm
    refine ⟨codes.findIdx (fun x => decide (c ≤ x)), ?_, get_some_lt _ _ _ hg, hg⟩
    unfold TrainXwin.find_idx
    rw [if_pos hg]
  refine ⟨h1, ⟨?_, ?_⟩, h3⟩
  · intro hn hm
    obtain ⟨i, hi, _⟩ := h1 hm
    rw [hn] at hi
    exact Option.noConfusion hi
  · intro hn
    cases hf : TrainXwin.find_idx codes c with
    | none => rfl
    | some i => exact absurd (List.get?_mem (h3 i hf)) hn

theorem find_idx_sorted_witness :
    ((5 : Nat) ∈ [2, 5, 9, 14] → ∃ i, TrainXwin.find_idx [2, 5, 9, 14] 5 = some i ∧
        i < [2, 5, 9, 14].length ∧ [2, 5, 9, 14].get? i = some 5) ∧
      (TrainXwin.find_idx [2, 5, 9, 14] 5 = none ↔ (5 : Nat) ∉ [2, 5, 9, 14]) ∧
      (∀ i, TrainXwin.find_idx [2, 5, 9, 14] 5 = some i → [2, 5, 9, 14].get? i = some 5) :=
  find_idx_sorted [2, 5, 9, 14] 5 (by decide)

/-! ## Symmetry of the terminal predicate -/

set_option maxRecDepth 100000 in
theorem transform_lines (b : Params) (hb : b = train_3x3 ∨ b = train_4x4_m4) :
    ∀ t < 8, ∀ line ∈ lines b, ∃ line2 ∈ lines b,
      (∀ q ∈ apply_transform b line t, q ∈ line2) ∧
        (∀ q ∈ line2, q ∈ apply_transform b line t) := by
  rcases hb with rfl | rfl <;> decide

theorem transform_zero (b : Params) (hb : b = train_3x3 ∨ b = train_4x4_m4) :
    ∀ p < b.CELLS, transform b 0 p = p := by
  rcases hb with rfl | rfl <;> decide

theorem full_line_transform (b : Params) (hb : b = train_3x3 ∨ b = train_4x4_m4)
    (X : List Nat) (t : Nat) (ht : t < 8) (h : FullLine b X) :
    FullLine b (apply_transform b X t) := by
  obtain ⟨line, hl, hm⟩ := h
  obtain ⟨line2, hl2, h1, h2⟩ := transform_lines b hb t ht line hl
  refine ⟨line2, hl2, ?_⟩
  intro p
  constructor
  · intro hp
    obtain ⟨q, hq, rfl⟩ := List.mem_map.mp hp
    exact h1 _ (List.mem_map.mpr ⟨q, (hm q).mp hq, rfl⟩)
  · intro hp
    obtain ⟨q, hq, rfl⟩ := List.mem_map.mp (h2 p hp)
    exact List.mem_map.mpr ⟨q, (hm q).mpr hq, rfl⟩

theorem full_line_transform_iff (b : Params) (hb : b = train_3x3 ∨ b = train_4x4_m4)
    (X : List Nat) (hr : ∀ p ∈ X, p < b.CELLS) (t : Nat) (ht : t < 8) :
    FullLine b (apply_transform b X t) ↔ FullLine b X := by
  constructor
  · intro h
    obtain ⟨s, hs, hcomp⟩ := transform_divide b hb 0 (by decide) t ht
    have h2 := full_line_transform b hb _ s hs h
    have he : apply_transform b (apply_transform b X t) s = X := by
      rw [apply_transform_comp b X hr s t 0 (fun p hp => (hcomp p hp).symm)]
      unfold apply_transform
      conv_rhs => rw [← List.map_id X]
      apply List.map_congr_left
      intro p hp
      exact transform_zero b hb p (hr p hp)
    rw [he] at h2
    exact h2
  · exact full_line_transform b hb X t ht

theorem check_result_transform (b : Params) (hb : b = train_3x3 ∨ b = train_4x4_m4)
    (X Y : List Nat) (hl : LegalPair b X Y) (t : Nat) (ht : t < 8) :
    check_result b (apply_transform b X t) (apply_transform b Y t) = check_result b X Y := by
  have hl2 := legal_transform b hb X Y hl t ht
  have hx := check_result_verdict b hb X Y hl
  have hy := check_result_verdict_y b hb X Y hl
  have hx2 := check_result_verdict b hb _ _ hl2
  have hy2 := check_result_verdict_y b hb _ _ hl2
  rw [apply_transform_length, full_line_transform_iff b hb X hl.2.2.2.2.2.1 t ht] at hx2
  rw [apply_transform_length, full_line_transform_iff b hb Y hl.2.2.2.2.2.2 t ht] at hy2
  unfold check_result
  exact verdict_congr _ _ _ _ _ _ hx2 hy2 hx hy

theorem check_result_canonical (b : Params) (hb : b = train_3x3 ∨ b = train_4x4_m4)
    (X Y : List Nat) (hl : LegalPair b X Y) :
    check_result b (canonicalize b X Y).x (canonicalize b X Y).y = check_result b X Y := by
  obtain ⟨hid, hx, hy, _⟩ := canonicalize_fields b hb X Y hl.2.2.2.1 hl.2.2.2.2.2.1
    hl.2.2.2.2.1 hl.2.2.2.2.2.2
  rw [hx, hy]
  exact check_result_transform b hb X Y hl _ hid

theorem TrainXwin.check_result_cast (X Y : List Nat) :
    TrainXwin.check_result (X.map (fun (p : Nat) => (p : Int)))
        (Y.map (fun (p : Nat) => (p : Int))) = TicTacToe.check_result train_4x4_m4 X Y := by
  have hm : ∀ l : List Nat, (l.map (fun (p : Nat) => (p : Int))).map Int.toNat = l := by
    intro l
    rw [List.map_map]
    conv_rhs => rw [← List.map_id l]
    apply List.map_congr_left
    intro p _
    rfl
  have hg : ∀ l : List Nat, ((l.map (fun (p : Nat) => (p : Int))).getD 0 0).toNat = l.getD 0 0 := by
    intro l
    cases l <;> rfl
  have hs : ∀ l : List Nat, side_guard train_4x4_m4 l = decide (l.length ≥ 3) := by
    intro l
    simp [side_guard, train_4x4_m4]
  unfold TrainXwin.check_result TicTacToe.check_result
  simp only [hm, hg, hs, List.length_map]

/-- C36: for every legal pair `(X, Y)` on either board and every transform
`t`, `check_result` has the same value on `(T_t(X), T_t(Y))` as on `(X, Y)`,
and the same value on the canonical representative `(cr.x, cr.y)` that
`train` classifies. On the 4x4 board `check_result` of `train_xwin.cpp` and
`train_ywin.cpp`, called on the enumerated pair, returns the value that
`check_result` of `train_4x4_m4.cpp` returns on the canonical
representative, and it is invariant under the transforms `tr` of the
implicit mode. -/
theorem check_result_symmetric (b : Params) (hb : b = train_3x3 ∨ b = train_4x4_m4)
    (X Y : List Nat) (hl : LegalPair b X Y) :
    (∀ t < 8, check_result b (apply_transform b X t) (apply_transform b Y t) =
        check_result b X Y) ∧
      check_result b (canonicalize b X Y).x (canonicalize b X Y).y = check_result b X Y ∧
      (b = train_4x4_m4 →
        TrainXwin.check_result (X.map (fun (p : Nat) => (p : Int)))
            (Y.map (fun (p : Nat) => (p : Int))) =
          check_result b (canonicalize b X Y).x (canonicalize b X Y).y ∧
        ∀ t < 8, TrainXwin.check_result
            ((X.map (fun (p : Nat) => (p : Int))).map (TrainXwin.tr t))
            ((Y.map (fun (p : Nat) => (p : Int))).map (TrainXwin.tr t)) =
          TrainXwin.check_result (X.map (fun (p : Nat) => (p : Int)))
            (Y.map (fun (p : Nat) => (p : Int)))) := by
  refine ⟨fun t ht => check_result_transform b hb X Y hl t ht,
    check_result_canonical b hb X Y hl, ?_⟩
  intro h4
  subst h4
  refine ⟨?_, ?_⟩
  · rw [TrainXwin.check_result_cast, check_result_canonical train_4x4_m4 hb X Y hl]
  · intro t ht
    rw [TrainXwin.map_tr_cast, TrainXwin.map_tr_cast, TrainXwin.check_result_cast,
      TrainXwin.check_result_cast]
    exact check_result_transform train_4x4_m4 hb X Y hl t ht

theorem check_result_symmetric_witness :
    LegalPair train_4x4_m4 [13, 9, 5, 1] [0, 2, 7] ∧
      check_result train_4x4_m4 (apply_transform train_4x4_m4 [13, 9, 5, 1] 1)
          (apply_transform train_4x4_m4 [0, 2, 7] 1) =
        check_result train_4x4_m4 [13, 9, 5, 1] [0, 2, 7] ∧
      check_result train_4x4_m4 [13, 9, 5, 1] [0, 2, 7] = 1 :=
  ⟨by unfold LegalPair; decide,
    (check_result_symmetric train_4x4_m4 (Or.inr rfl) [13, 9, 5, 1] [0, 2, 7]
      (by unfold LegalPair; decide)).1 1 (by decide), by decide⟩

/-! ## Successor synthesis against the edges of `train` -/

theorem edge_ok_canon (b : Params) (hb : b = train_3x3 ∨ b = train_4x4_m4) (x y : List Nat)
    (hl : LegalPair b x y) :
    edge_ok b (canonicalize b x y).code =
      decide (x.length = y.length ∨ x.length = y.length + 1) := by
  have hc := consistent_of_mem b hb
  obtain ⟨htid, hrx, hry, hcode⟩ := canonicalize_fields b hb x y hl.2.2.2.1 hl.2.2.2.2.2.1
    hl.2.2.2.2.1 hl.2.2.2.2.2.2
  have hlc := legal_transform b hb x y hl _ htid
  rw [← hrx, ← hry] at hlc
  obtain ⟨hxn, hyn, hdis, hcxl, hcyl, hcxr, hcyr⟩ := hlc
  have hdiv := encode_state_div b hc _ _ hcxl hcxr hcyl hcyr
  have hmod := encode_state_mod b hc _ _ hcxl hcxr hcyl hcyr
  rw [hcode] at hdiv hmod
  have hx1 := decode_list_of_encode_list b hc _ hcxl hcxr
  have hy1 := decode_list_of_encode_list b hc _ hcyl hcyr
  rw [← hdiv, if_pos hxn] at hx1
  rw [← hmod, if_pos hyn] at hy1
  have hlx : (canonicalize b x y).x.length = x.length := by rw [hrx, apply_transform_length]
  have hly : (canonicalize b x y).y.length = y.length := by rw [hry, apply_transform_length]
  have hov : overlap (canonicalize b x y).x (canonicalize b x y).y = false :=
    (overlap_false_iff _ _).mpr hdis
  unfold edge_ok
  rw [hx1, hy1]
  simp only [hov, hlx, hly]
  by_cases h : x.length = y.length ∨ x.length = y.length + 1
  · have h2 : ¬ (x.length ≠ y.length ∧ x.length ≠ y.length + 1) := by omega
    simp [h, h2]
  · have h2 : x.length ≠ y.length ∧ x.length ≠ y.length + 1 := by omega
    simp [h, h2]

theorem empty_cell_iff (b : Params) (x y : List Nat) (t : Nat) (ht : t < b.CELLS) :
    (board_of b x y).getD t 0 = 0 ↔ t ∉ x ∧ t ∉ y := by
  constructor
  · exact empty_cell_not_mem b x y t ht
  · rintro ⟨h1, h2⟩
    rw [board_of_getD, if_neg (fun h => h2 h.1), if_neg (fun h => h1 h.1)]

theorem mem_successors_y (s : Nat) (x y : List Nat)
    (hdx : decode_list train_4x4_m4 (s / train_4x4_m4.SEPARATOR) = some x)
    (hdy : decode_list train_4x4_m4 (s % train_4x4_m4.SEPARATOR) = some y)
    (hl : LegalPair train_4x4_m4 x y) (hlen : x.length = y.length ∨ x.length = y.length + 1)
    (c : Nat) :
    c ∈ successors train_4x4_m4 1 s ↔ ∃ pos < 16, pos ∉ x ∧ pos ∉ y ∧
      ¬ (x.length < (place train_4x4_m4 y pos).length) ∧
      c = (canonicalize train_4x4_m4 x (place train_4x4_m4 y pos)).code := by
  obtain ⟨hxn, hyn, hdis, hxl, hyl, hxr, hyr⟩ := hl
  have hC : train_4x4_m4.CELLS = 16 := rfl
  have hM : train_4x4_m4.MAX_MOVE = 4 := rfl
  rw [hM] at hxl hyl
  rw [hC] at hxr hyr
  rw [successors_of_decode train_4x4_m4 1 s x y hdx hdy, List.mem_flatMap]
  have key : ∀ pos < 16, pos ∉ x → pos ∉ y →
      (edge_ok train_4x4_m4 (canonicalize train_4x4_m4 x (place train_4x4_m4 y pos)).code = true ↔
        ¬ (x.length < (place train_4x4_m4 y pos).length)) := by
    intro pos hpos h1 h2
    obtain ⟨p1, p2, p3, p4⟩ := place_legal y x hyn (fun p hp hq => hdis p hq hp) hyl hyr pos
      hpos h2 h1
    obtain ⟨_, q2, _⟩ := place_spec train_4x4_m4 (by decide) y pos hyn (by rw [hM]; exact hyl) h2
    rw [edge_ok_canon train_4x4_m4 (Or.inr rfl) x _
      ⟨hxn, p1, fun p hp hq => p4 p hq hp, by rw [hM]; exact hxl, by rw [hM]; exact p2,
        by rw [hC]; exact hxr, by rw [hC]; exact p3⟩, decide_eq_true_iff]
    rw [hM] at q2
    omega
  constructor
  · rintro ⟨pos, hpos, hm⟩
    have hpos2 : pos < 16 := List.mem_range.mp hpos
    unfold cell_edges at hm
    by_cases he : (board_of train_4x4_m4 x y).getD pos 0 ≠ 0
    · rw [if_pos he] at hm
      cases hm
    · rw [if_neg he, if_neg (by decide)] at hm
      obtain ⟨h1, h2⟩ := (empty_cell_iff train_4x4_m4 x y pos hpos2).mp (not_not.mp he)
      by_cases hok : edge_ok train_4x4_m4
          (canonicalize train_4x4_m4 x (place train_4x4_m4 y pos)).code = true
      · rw [if_pos hok] at hm
        exact ⟨pos, hpos2, h1, h2, (key pos hpos2 h1 h2).mp hok, List.mem_singleton.mp hm⟩
      · rw [if_neg hok] at hm
        cases hm
  · rintro ⟨pos, hpos, h1, h2, h3, hcode⟩
    refine ⟨pos, List.mem_range.mpr hpos, ?_⟩
    unfold cell_edges
    rw [hcode]
    rw [if_neg (not_not.mpr ((empty_cell_iff train_4x4_m4 x y pos hpos).mpr ⟨h1, h2⟩)),
      if_neg (by decide), if_pos ((key pos hpos h1 h2).mpr h3)]
    exact List.mem_singleton_self _

theorem mem_successors_x (s : Nat) (x y : List Nat)
    (hdx : decode_list train_4x4_m4 (s / train_4x4_m4.SEPARATOR) = some x)
    (hdy : decode_list train_4x4_m4 (s % train_4x4_m4.SEPARATOR) = some y)
    (hl : LegalPair train_4x4_m4 x y) (hlen : x.length = y.length ∨ x.length = y.length + 1)
    (c : Nat) :
    c ∈ successors train_4x4_m4 0 s ↔ ∃ pos < 16, pos ∉ x ∧ pos ∉ y ∧
      ¬ ((y.length : Int) < ((place train_4x4_m4 x pos).length : Int) - 1) ∧
      c = (canonicalize train_4x4_m4 (place train_4x4_m4 x pos) y).code := by
  obtain ⟨hxn, hyn, hdis, hxl, hyl, hxr, hyr⟩ := hl
  have hC : train_4x4_m4.CELLS = 16 := rfl
  have hM : train_4x4_m4.MAX_MOVE = 4 := rfl
  rw [hM] at hxl hyl
  rw [hC] at hxr hyr
  rw [successors_of_decode train_4x4_m4 0 s x y hdx hdy, List.mem_flatMap]
  have key : ∀ pos < 16, pos ∉ x → pos ∉ y →
      (edge_ok train_4x4_m4 (canonicalize train_4x4_m4 (place train_4x4_m4 x pos) y).code = true ↔
        ¬ ((y.length : Int) < ((place train_4x4_m4 x pos).length : Int) - 1)) := by
    intro pos hpos h1 h2
    obtain ⟨p1, p2, p3, p4⟩ := place_legal x y hxn hdis hxl hxr pos hpos h1 h2
    obtain ⟨_, q2, _⟩ := place_spec train_4x4_m4 (by decide) x pos hxn (by rw [hM]; exact hxl) h1
    rw [edge_ok_canon train_4x4_m4 (Or.inr rfl) _ y
      ⟨p1, hyn, p4, by rw [hM]; exact p2, by rw [hM]; exact hyl,
        by rw [hC]; exact p3, by rw [hC]; exact hyr⟩, decide_eq_true_iff]
    rw [hM] at q2
    omega
  constructor
  · rintro ⟨pos, hpos, hm⟩
    have hpos2 : pos < 16 := List.mem_range.mp hpos
    unfold cell_edges at hm
    by_cases he : (board_of train_4x4_m4 x y).getD pos 0 ≠ 0
    · rw [if_pos he] at hm
      cases hm
    · rw [if_neg he, if_pos rfl] at hm
      obtain ⟨h1, h2⟩ := (empty_cell_iff train_4x4_m4 x y pos hpos2).mp (not_not.mp he)
      by_cases hok : edge_ok train_4x4_m4
          (canonicalize train_4x4_m4 (place train_4x4_m4 x pos) y).code = true
      · rw [if_pos hok] at hm
        exact ⟨pos, hpos2, h1, h2, (key pos hpos2 h1 h2).mp hok, List.mem_singleton.mp hm⟩
      · rw [if_neg hok] at hm
        cases hm
  · rintro ⟨pos, hpos, h1, h2, h3, hcode⟩
    refine ⟨pos, List.mem_range.mpr hpos, ?_⟩
    unfold cell_edges
    rw [hcode]
    rw [if_neg (not_not.mpr ((empty_cell_iff train_4x4_m4 x y pos hpos).mpr ⟨h1, h2⟩)),
      if_pos rfl, if_pos ((key pos hpos h1 h2).mpr h3)]
    exact List.mem_singleton_self _

theorem verdict_values (b : Params) (c : Nat) :
    verdict b c = 0 ∨ verdict b c = 1 ∨ verdict b c = -1 := by
  unfold verdict
  split
  · unfold check_result
    simp only []
    split_ifs
    · exact Or.inr (Or.inl rfl)
    · exact Or.inr (Or.inr rfl)
    · exact Or.inl rfl
  · exact Or.inl rfl

theorem terminal_no_edges (b : Params) (hb : b = train_3x3 ∨ b = train_4x4_m4) (s : Nat)
    (hs : Stored b s) (hv : verdict b s ≠ 0) :
    (train_result b).g_edge0 s = [] ∧ (train_result b).g_edge1 s = [] := by
  have hg := graph_inv_of_train (inv_train_result b hb)
  rcases verdict_values b s with h | h | h
  · exact absurd h hv
  · exact hg.wins_edge s (terminal_win_mem b hb s hs h)
  · exact hg.loses_edge s (terminal_lose_mem b hb s hs h)

/-- C37 (restated for the states where `train` builds edges): for every
stored 4x4 state, `get_y_succs` and `get_x_succs` return lists whose codes
are exactly the targets that the cell loop of `train` passes through the
tests of `add_edge` for player 1 and for player 0 (`successors`). When
`check_result` is `0` on the state, `train` runs that loop on it, so the
codes of `get_y_succs` are exactly the entries of `g_edge1` and those of
`get_x_succs` exactly the entries of `g_edge0`; when `check_result` is not
`0`, `train` leaves the loop before the cells are visited and both edge
lists are empty. -/
theorem succs_match_edges (s : Nat) (hs : Stored train_4x4_m4 s) :
    ∃ ly lx,
      TrainXwin.get_y_succs (TrainXwin.decode_state s).1 (TrainXwin.decode_state s).2 =
        some ly ∧
      TrainYwin.get_x_succs (TrainXwin.decode_state s).1 (TrainXwin.decode_state s).2 =
        some lx ∧
      (∀ c, c ∈ ly ↔ c ∈ successors train_4x4_m4 1 s) ∧
      (∀ c, c ∈ lx ↔ c ∈ successors train_4x4_m4 0 s) ∧
      (verdict train_4x4_m4 s = 0 →
        (train_result train_4x4_m4).g_edge1 s = successors train_4x4_m4 1 s ∧
        (train_result train_4x4_m4).g_edge0 s = successors train_4x4_m4 0 s ∧
        (∀ c, c ∈ ly ↔ c ∈ (train_result train_4x4_m4).g_edge1 s) ∧
        (∀ c, c ∈ lx ↔ c ∈ (train_result train_4x4_m4).g_edge0 s)) ∧
      (verdict train_4x4_m4 s ≠ 0 →
        (train_result train_4x4_m4).g_edge1 s = [] ∧
        (train_result train_4x4_m4).g_edge0 s = []) := by
  have hs2 := hs
  obtain ⟨x, y, hdx, hdy, hl, hlen, hcode⟩ := hs
  rw [TrainXwin.decode_state_stored s x y hdx hdy hl hcode]
  obtain ⟨⟨ly, hly⟩, ⟨lx, hlx⟩⟩ := TrainXwin.get_succs_some (x.map (fun (p : Nat) => (p : Int)))
    (y.map (fun (p : Nat) => (p : Int)))
  have h1 : ∀ c, c ∈ ly ↔ c ∈ successors train_4x4_m4 1 s := by
    intro c
    rw [TrainXwin.get_y_succs_mem x y hl.2.2.2.2.2.1 hl.2.2.2.2.2.2 hl.2.2.2.2.1 ly hly c,
      mem_successors_y s x y hdx hdy hl hlen c]
  have h0 : ∀ c, c ∈ lx ↔ c ∈ successors train_4x4_m4 0 s := by
    intro c
    rw [TrainYwin.get_x_succs_mem x y hl.2.2.2.2.2.1 hl.2.2.2.2.2.2 hl.2.2.2.1 lx hlx c,
      mem_successors_x s x y hdx hdy hl hlen c]
  refine ⟨ly, lx, hly, hlx, h1, h0, ?_, ?_⟩
  · intro hv
    obtain ⟨e0, e1⟩ := edges_of_train train_4x4_m4 (Or.inr rfl) s hs2 (by rw [hv]; decide)
      (by rw [hv]; decide)
    refine ⟨e1, e0, ?_, ?_⟩
    · intro c
      rw [e1]
      exact h1 c
    · intro c
      rw [e0]
      exact h0 c
  · intro hv
    obtain ⟨e0, e1⟩ := terminal_no_edges train_4x4_m4 (Or.inr rfl) s hs2 hv
    exact ⟨e1, e0⟩

set_option maxRecDepth 1000000 in
theorem succs_match_edges_witness :
    Stored train_4x4_m4 83521 ∧ verdict train_4x4_m4 83521 = 0 ∧
      ∃ ly lx,
        TrainXwin.get_y_succs (TrainXwin.decode_state 83521).1
          (TrainXwin.decode_state 83521).2 = some ly ∧
        TrainYwin.get_x_succs (TrainXwin.decode_state 83521).1
          (TrainXwin.decode_state 83521).2 = some lx ∧
        (∀ c, c ∈ ly ↔ c ∈ (train_result train_4x4_m4).g_edge1 83521) ∧
        (∀ c, c ∈ lx ↔ c ∈ (train_result train_4x4_m4).g_edge0 83521) := by
  have hs : Stored train_4x4_m4 83521 := stored_of_ok train_4x4_m4 83521 (by decide)
  have hv : verdict train_4x4_m4 83521 = 0 := by decide
  obtain ⟨ly, lx, a1, a2, _, _, a5, _⟩ := succs_match_edges 83521 hs
  exact ⟨hs, hv, ly, lx, a1, a2, (a5 hv).2.2.1, (a5 hv).2.2.2⟩

set_option maxRecDepth 1000000 in
/-- C37 (the claim fails at a terminal state): the stored state
`X = (0,1,2,3)`, `Y = (4,5,6)` with code 463209327 is classified `+1` by
`check_result`, so `train` records it in `g_wins` and continues with the
next state before any cell is visited: its edge lists are empty. On the
same state `get_y_succs` returns nine codes and `get_x_succs` returns nine
codes. -/
theorem succs_at_terminal :
    Stored train_4x4_m4 463209327 ∧ verdict train_4x4_m4 463209327 = 1 ∧
      (train_result train_4x4_m4).g_edge1 463209327 = [] ∧
      (train_result train_4x4_m4).g_edge0 463209327 = [] ∧
      TrainXwin.get_y_succs (TrainXwin.decode_state 463209327).1
          (TrainXwin.decode_state 463209327).2 =
        some [463233892, 463253544, 463258457, 463263370, 463268283, 463273196, 463278109,
          463283022, 463287935] ∧
      TrainYwin.get_x_succs (TrainXwin.decode_state 463209327).1
          (TrainXwin.decode_state 463209327).2 =
        some [852667807, 929590955, 2570945647, 2865942895, 1224588203, 519252282,
          1155599645, 1229348957, 814249530] := by
  have hv : verdict train_4x4_m4 463209327 = 1 := by decide
  obtain ⟨e0, e1⟩ := terminal_no_edges train_4x4_m4 (Or.inr rfl) 463209327 stored_463209327
    (by rw [hv]; decide)
  exact ⟨stored_463209327, hv, e1, e0, by decide!, by decide!⟩

/-! ## The order of the written tables -/

theorem sort_strict (keys : List Nat) (hk : keys.Nodup) :
    (keys.insertionSort (fun a c => a ≤ c)).Pairwise (· < ·) ∧
      (keys.insertionSort (fun a c => a ≤ c)).Perm keys := by
  have hp := List.perm_insertionSort (fun (a c : Nat) => a ≤ c) keys
  have hs := List.sorted_insertionSort (fun (a c : Nat) => a ≤ c) keys
  exact ⟨List.Sorted.lt_of_le hs (hp.nodup_iff.mpr hk), hp⟩

theorem getD_strict (codes : List Nat) (hc : codes.Pairwise (· < ·)) (i j : Nat) (hij : i < j)
    (hj : j < codes.length) : codes.getD i 0 < codes.getD j 0 := by
  have hi : i < codes.length := by omega
  rw [List.getD_eq_getElem codes 0 hi, List.getD_eq_getElem codes 0 hj]
  exact List.pairwise_iff_getElem.mp hc i j hi hj hij

theorem indices_strict (codes : List Nat) (hc : codes.Pairwise (· < ·)) (N : Nat)
    (hN : N ≤ codes.length) (p : Nat → Bool) :
    (((List.range N).filter p).map (fun i => codes.getD i 0)).Pairwise (· < ·) := by
  rw [List.pairwise_map]
  have h1 : ((List.range N).filter p).Pairwise (fun i j => i < j ∧ j < N) := by
    apply List.Pairwise.sublist (List.filter_sublist _)
    have h2 : (List.range N).Pairwise (· < ·) := List.pairwise_lt_range N
    have h3 : (List.range N).Pairwise (fun _ j => j < N) := by
      rw [List.pairwise_iff_forall_sublist]
      intro a c hs
      exact List.mem_range.mp (hs.subset (List.mem_cons_of_mem _ (List.mem_singleton_self _)))
    exact h2.and h3
  exact h1.imp (fun h => getD_strict codes hc _ _ h.1 (by omega))

/-- C35: every table writer emits records whose `state_code` is strictly
ascending, hence without a duplicate. `save` of the explicit trainers, for
any `g_states` (a map: its keys are distinct, in any iteration order): the
codes written are the keys, each once, in strictly ascending order, and the
header is their number. Phase 4 of `train_xwin.cpp` and of `train_ywin.cpp`,
for any flags and depths over a strictly ascending array `codes`: the codes
written are strictly ascending and occur in `codes`; the array that `main`
builds by sorting a set is strictly ascending. -/
theorem writers_sorted (keys : List Nat) (g_states : Nat → StateInfo) (hk : keys.Nodup)
    (codes : List Nat) (hc : codes.Pairwise (· < ·)) (st : TrainXwin.BfsState)
    (dp_flags depth_0 depth_1 : Nat → Nat) :
    (((save keys g_states).2.map Record.state_code).Pairwise (· < ·) ∧
        ((save keys g_states).2.map Record.state_code).Perm keys ∧
        (save keys g_states).1 = (save keys g_states).2.length ∧
        ∀ r ∈ (save keys g_states).2, r = Record.mk r.state_code (g_states r.state_code).dp0
          (g_states r.state_code).dp1 (g_states r.state_code).depth0
          (g_states r.state_code).depth1) ∧
      (((TrainXwin.save codes st).2.map Record.state_code).Pairwise (· < ·) ∧
        (∀ r ∈ (TrainXwin.save codes st).2, r.state_code ∈ codes) ∧
        (TrainXwin.save codes st).1 = (TrainXwin.save codes st).2.length) ∧
      (((TrainYwin.save codes dp_flags depth_0 depth_1).2.map Record.state_code).Pairwise
          (· < ·) ∧
        (∀ r ∈ (TrainYwin.save codes dp_flags depth_0 depth_1).2, r.state_code ∈ codes) ∧
        (TrainYwin.save codes dp_flags depth_0 depth_1).1 =
          (TrainYwin.save codes dp_flags depth_0 depth_1).2.length) ∧
      (keys.insertionSort (fun a c => a ≤ c)).Pairwise (· < ·) := by
  obtain ⟨hs, hp⟩ := sort_strict keys hk
  have hN : codes.length % 4294967296 ≤ codes.length := Nat.mod_le _ _
  have hmem : ∀ i ∈ (List.range (codes.length % 4294967296)), codes.getD i 0 ∈ codes := by
    intro i hi
    have hi2 : i < codes.length := by
      have := List.mem_range.mp hi
      omega
    rw [List.getD_eq_getElem codes 0 hi2]
    exact List.getElem_mem hi2
  refine ⟨⟨?_, ?_, ?_, ?_⟩, ⟨?_, ?_, ?_⟩, ⟨?_, ?_, ?_⟩, hs⟩
  · simp only [save, List.map_map]
    have e : (Record.state_code ∘ fun k => Record.mk k (g_states k).dp0 (g_states k).dp1
        (g_states k).depth0 (g_states k).depth1) = id := rfl
    rw [e, List.map_id]
    exact hs
  · simp only [save, List.map_map]
    have e : (Record.state_code ∘ fun k => Record.mk k (g_states k).dp0 (g_states k).dp1
        (g_states k).depth0 (g_states k).depth1) = id := rfl
    rw [e, List.map_id]
    exact hp
  · simp only [save, List.length_map]
  · intro r hr
    simp only [save, List.mem_map] at hr
    obtain ⟨k, _, rfl⟩ := hr
    rfl
  · simp only [TrainXwin.save, List.map_map]
    exact indices_strict codes hc _ hN _
  · intro r hr
    simp only [TrainXwin.save, List.mem_map, List.mem_filter] at hr
    obtain ⟨i, ⟨hi, _⟩, rfl⟩ := hr
    exact hmem i hi
  · simp only [TrainXwin.save, List.length_map]
  · simp only [TrainYwin.save, List.map_map]
    exact indices_strict codes hc _ hN _
  · intro r hr
    simp only [TrainYwin.save, List.mem_map, List.mem_filter] at hr
    obtain ⟨i, ⟨hi, _⟩, rfl⟩ := hr
    exact hmem i hi
  · simp only [TrainYwin.save, List.length_map]

theorem writers_sorted_witness :
    ([5, 2, 9] : List Nat).Nodup ∧ ([2, 5, 9] : List Nat).Pairwise (· < ·) ∧
      (save [5, 2, 9] (fun _ => StateInfo.zero)).2.map Record.state_code = [2, 5, 9] ∧
      ((save [5, 2, 9] (fun _ => StateInfo.zero)).2.map Record.state_code).Pairwise (· < ·) ∧
      ((TrainXwin.save [2, 5, 9] (TrainXwin.BfsState.mk (fun _ => 0) (fun i => (i + 1) % 2)
        (fun _ => 0) (fun _ => 0) [])).2.map Record.state_code).Pairwise (· < ·) :=
  ⟨by decide, by decide, by decide,
    (writers_sorted [5, 2, 9] (fun _ => StateInfo.zero) (by decide) [2, 5, 9] (by decide)
      (TrainXwin.BfsState.mk (fun _ => 0) (fun i => (i + 1) % 2) (fun _ => 0) (fun _ => 0) [])
      (fun i => (i + 1) % 2) (fun _ => 0) (fun _ => 0)).1.1,
    (writers_sorted [5, 2, 9] (fun _ => StateInfo.zero) (by decide) [2, 5, 9] (by decide)
      (TrainXwin.BfsState.mk (fun _ => 0) (fun i => (i + 1) % 2) (fun _ => 0) (fun _ => 0) [])
      (fun i => (i + 1) % 2) (fun _ => 0) (fun _ => 0)).2.1.1⟩

/-! ## The byte layout of the tables -/

theorem le_bytes_length : ∀ (k n : Nat), (le_bytes k n).length = k := by
  intro k
  induction k with
  | zero => intro n; rfl
  | succ k ih => intro n; simp [le_bytes, ih]

theorem le_bytes_lt : ∀ (k n : Nat), ∀ x ∈ le_bytes k n, x < 256 := by
  intro k
  induction k with
  | zero => intro n x hx; cases hx
  | succ k ih =>
    intro n x hx
    simp only [le_bytes, List.mem_cons] at hx
    rcases hx with rfl | hx
    · exact Nat.mod_lt _ (by decide)
    · exact ih _ x hx

theorem le_value_le_bytes : ∀ (k n : Nat), n < 256 ^ k → le_value (le_bytes k n) = n := by
  intro k
  induction k with
  | zero =>
    intro n h
    simp only [pow_zero, Nat.lt_one_iff] at h
    simp [le_bytes, le_value, h]
  | succ k ih =>
    intro n h
    have h2 : n / 256 < 256 ^ k := by
      rw [Nat.div_lt_iff_lt_mul (by decide)]
      rw [pow_succ] at h
      exact h
    simp only [le_bytes, le_value, ih _ h2]
    omega

theorem le_value_lt : ∀ bs : List Nat, (∀ x ∈ bs, x < 256) → le_value bs < 256 ^ bs.length := by
  intro bs
  induction bs with
  | nil => intro _; simp [le_value]
  | cons a t ih =>
    intro h
    have h1 := h a (List.mem_cons_self _ _)
    have h2 := ih (fun x hx => h x (List.mem_cons_of_mem _ hx))
    simp only [le_value, List.length_cons, pow_succ]
    omega

theorem le_bytes_le_value : ∀ bs : List Nat, (∀ x ∈ bs, x < 256) →
    le_bytes bs.length (le_value bs) = bs := by
  intro bs
  induction bs with
  | nil => intro _; rfl
  | cons a t ih =>
    intro h
    have h1 := h a (List.mem_cons_self _ _)
    have h2 := ih (fun x hx => h x (List.mem_cons_of_mem _ hx))
    simp only [le_value, List.length_cons, le_bytes]
    have e1 : (a + 256 * le_value t) % 256 = a := by omega
    have e2 : (a + 256 * le_value t) / 256 = le_value t := by omega
    rw [e1, e2, h2]

theorem int8_round (v : Int) (h1 : -128 ≤ v) (h2 : v ≤ 127) :
    byte_int8 (int8_byte v) = v ∧ int8_byte v < 256 := by
  unfold byte_int8 int8_byte
  have h3 : 0 ≤ v % 256 := Int.emod_nonneg _ (by decide)
  have h4 : v % 256 < 256 := Int.emod_lt_of_pos _ (by decide)
  have h5 : ((v % 256).toNat : Int) = v % 256 := Int.toNat_of_nonneg h3
  constructor
  · split_ifs with h <;> omega
  · omega

theorem byte_round (x : Nat) (h : x < 256) :
    int8_byte (byte_int8 x) = x ∧ -128 ≤ byte_int8 x ∧ byte_int8 x ≤ 127 := by
  unfold byte_int8 int8_byte
  split_ifs with h1
  · refine ⟨?_, by omega, by omega⟩
    omega
  · refine ⟨?_, by omega, by omega⟩
    omega

theorem record_bytes_length (r : Record) : (record_bytes r).length = 14 := by
  simp [record_bytes, le_bytes_length]

theorem record_bytes_lt (r : Record) (h : r.InRange) : ∀ x ∈ record_bytes r, x < 256 := by
  obtain ⟨_, h1, h2, h3, h4, _, _⟩ := h
  intro x hx
  simp only [record_bytes, List.mem_append, List.mem_singleton] at hx
  rcases hx with (((hx | hx) | hx) | hx) | hx
  · exact le_bytes_lt _ _ x hx
  · rw [hx]; exact (int8_round _ h1 h2).2
  · rw [hx]; exact (int8_round _ h3 h4).2
  · exact le_bytes_lt _ _ x hx
  · exact le_bytes_lt _ _ x hx
theorem parse_record_bytes (r : Record) (h : r.InRange) : parse_record (record_bytes r) = r := by
  obtain ⟨h0, h1, h2, h3, h4, h5, h6⟩ := h
  have hM : UINT64_MOD = 18446744073709551616 := by decide
  rw [hM] at h0
  have e1 : le_value (le_bytes 8 r.state_code) = r.state_code :=
    le_value_le_bytes 8 _ (by norm_num; exact h0)
  have e2 : le_value (le_bytes 2 r.depth0) = r.depth0 :=
    le_value_le_bytes 2 _ (by norm_num; exact h5)
  have e3 : le_value (le_bytes 2 r.depth1) = r.depth1 :=
    le_value_le_bytes 2 _ (by norm_num; exact h6)
  have t1 : (record_bytes r).take 8 = le_bytes 8 r.state_code := by
    simp [record_bytes, le_bytes]
  have t2 : (record_bytes r).getD 8 0 = int8_byte r.dp0 := by
    simp [record_bytes, le_bytes]
  have t3 : (record_bytes r).getD 9 0 = int8_byte r.dp1 := by
    simp [record_bytes, le_bytes]
  have t4 : ((record_bytes r).drop 10).take 2 = le_bytes 2 r.depth0 := by
    simp [record_bytes, le_bytes]
  have t5 : ((record_bytes r).drop 12).take 2 = le_bytes 2 r.depth1 := by
    simp [record_bytes, le_bytes]
  unfold parse_record
  rw [t1, t2, t3, t4, t5, e1, e2, e3, (int8_round _ h1 h2).1, (int8_round _ h3 h4).1]

theorem list_length_succ {α : Type} (l : List α) (n : Nat) (h : l.length = n + 1) :
    ∃ a t, l = a :: t ∧ t.length = n := by
  cases l with
  | nil => simp at h
  | cons a t => exact ⟨a, t, rfl, by simpa using h⟩

theorem record_bytes_parse (c : List Nat) (hl : c.length = 14) (hb : ∀ x ∈ c, x < 256) :
    record_bytes (parse_record c) = c ∧ (parse_record c).InRange := by
  obtain ⟨c0, t0, rfl, hl0⟩ := list_length_succ c 13 hl
  obtain ⟨c1, t1, rfl, hl1⟩ := list_length_succ t0 12 hl0
  obtain ⟨c2, t2, rfl, hl2⟩ := list_length_succ t1 11 hl1
  obtain ⟨c3, t3, rfl, hl3⟩ := list_length_succ t2 10 hl2
  obtain ⟨c4, t4, rfl, hl4⟩ := list_length_succ t3 9 hl3
  obtain ⟨c5, t5, rfl, hl5⟩ := list_length_succ t4 8 hl4
  obtain ⟨c6, t6, rfl, hl6⟩ := list_length_succ t5 7 hl5
  obtain ⟨c7, t7, rfl, hl7⟩ := list_length_succ t6 6 hl6
  obtain ⟨c8, t8, rfl, hl8⟩ := list_length_succ t7 5 hl7
  obtain ⟨c9, t9, rfl, hl9⟩ := list_length_succ t8 4 hl8
  obtain ⟨c10, t10, rfl, hl10⟩ := list_length_succ t9 3 hl9
  obtain ⟨c11, t11, rfl, hl11⟩ := list_length_succ t10 2 hl10
  obtain ⟨c12, t12, rfl, hl12⟩ := list_length_succ t11 1 hl11
  obtain ⟨c13, t13, rfl, hl13⟩ := list_length_succ t12 0 hl12
  have ht : t13 = [] := List.length_eq_zero.mp hl13
  subst ht
  have hA : ∀ x ∈ [c0, c1, c2, c3, c4, c5, c6, c7], x < 256 := by
    intro x hx
    apply hb
    simp only [List.mem_cons, List.mem_singleton, List.not_mem_nil, or_false] at hx ⊢
    tauto
  have hC : ∀ x ∈ [c10, c11], x < 256 := by
    intro x hx
    apply hb
    simp only [List.mem_cons, List.mem_singleton, List.not_mem_nil, or_false] at hx ⊢
    tauto
  have hD : ∀ x ∈ [c12, c13], x < 256 := by
    intro x hx
    apply hb
    simp only [List.mem_cons, List.mem_singleton, List.not_mem_nil, or_false] at hx ⊢
    tauto
  have h8 : c8 < 256 := hb c8 (by simp)
  have h9 : c9 < 256 := hb c9 (by simp)
  have p : parse_record [c0, c1, c2, c3, c4, c5, c6, c7, c8, c9, c10, c11, c12, c13] =
      Record.mk (le_value [c0, c1, c2, c3, c4, c5, c6, c7]) (byte_int8 c8) (byte_int8 c9)
        (le_value [c10, c11]) (le_value [c12, c13]) := rfl
  rw [p]
  have hM : UINT64_MOD = 18446744073709551616 := by decide
  have eA : le_bytes 8 (le_value [c0, c1, c2, c3, c4, c5, c6, c7]) =
      [c0, c1, c2, c3, c4, c5, c6, c7] := le_bytes_le_value _ hA
  have eC : le_bytes 2 (le_value [c10, c11]) = [c10, c11] := le_bytes_le_value _ hC
  have eD : le_bytes 2 (le_value [c12, c13]) = [c12, c13] := le_bytes_le_value _ hD
  have lA := le_value_lt _ hA
  have lC := le_value_lt _ hC
  have lD := le_value_lt _ hD
  simp only [List.length_cons, List.length_nil] at lA lC lD
  norm_num at lA lC lD
  refine ⟨?_, ?_⟩
  · unfold record_bytes
    simp only []
    rw [eA, eC, eD, (byte_round c8 h8).1, (byte_round c9 h9).1]
    rfl
  · refine ⟨?_, (byte_round c8 h8).2.1, (byte_round c8 h8).2.2, (byte_round c9 h9).2.1,
      (byte_round c9 h9).2.2, lC, lD⟩
    rw [hM]
    exact lA
theorem read_records_bytes : ∀ (rs : List Record) (tail : List Nat), (∀ r ∈ rs, r.InRange) →
    ByteReader.read_records rs.length (rs.flatMap record_bytes ++ tail) = some (rs, tail) := by
  intro rs
  induction rs with
  | nil => intro tail _; rfl
  | cons r t ih =>
    intro tail h
    have hr := h r (List.mem_cons_self _ _)
    have e : (r :: t).flatMap record_bytes ++ tail =
        record_bytes r ++ (t.flatMap record_bytes ++ tail) := by
      rw [List.flatMap_cons, List.append_assoc]
    have hlen := record_bytes_length r
    rw [e, List.length_cons]
    unfold ByteReader.read_records
    rw [if_neg (by rw [List.length_append, hlen]; omega)]
    have e1 : (record_bytes r ++ (t.flatMap record_bytes ++ tail)).drop 14 =
        t.flatMap record_bytes ++ tail := by
      rw [← hlen]; exact List.drop_left _ _
    have e2 : (record_bytes r ++ (t.flatMap record_bytes ++ tail)).take 14 = record_bytes r := by
      rw [← hlen]; exact List.take_left _ _
    rw [e1, e2, ih tail (fun x hx => h x (List.mem_cons_of_mem _ hx)), parse_record_bytes r hr]

theorem read_records_take (l : List Record) (h : ∀ r ∈ l, r.InRange) (k : Nat)
    (hk : k ≤ l.length) :
    ByteReader.read_records k (l.flatMap record_bytes) =
      some (l.take k, (l.drop k).flatMap record_bytes) := by
  have e : l.flatMap record_bytes =
      (l.take k).flatMap record_bytes ++ (l.drop k).flatMap record_bytes := by
    rw [← List.flatMap_append, List.take_append_drop]
  have hl : (l.take k).length = k := by rw [List.length_take]; omega
  have h2 := read_records_bytes (l.take k) ((l.drop k).flatMap record_bytes)
    (fun r hr => h r (List.mem_of_mem_take hr))
  rw [hl] at h2
  rw [e]
  exact h2

/-- The reader on the bytes of a written table behaves as the reader on its
records. -/
theorem read_batch_bytes (records : List Record) (h : ∀ r ∈ records, r.InRange)
    (hR : records.length < UINT64_MOD) (pos : Nat) (hp : pos ≤ records.length) (bs : Nat) :
    (ByteReader.mk ((records.drop pos).flatMap record_bytes) records.length pos).read_batch bs =
      some (ByteReader.mk
          ((records.drop ((DataReader.mk records records.length pos).read_batch bs).1.pos).flatMap
            record_bytes) records.length
          ((DataReader.mk records records.length pos).read_batch bs).1.pos,
        ((DataReader.mk records records.length pos).read_batch bs).2.1,
        ((DataReader.mk records records.length pos).read_batch bs).2.2) := by
  have hm : (records.length + UINT64_MOD - pos) % UINT64_MOD = records.length - pos := by
    have : records.length + UINT64_MOD - pos = (records.length - pos) + UINT64_MOD := by omega
    rw [this, Nat.add_mod_right]
    exact Nat.mod_eq_of_lt (by omega)
  unfold ByteReader.read_batch DataReader.read_batch
  simp only [hm]
  by_cases h0 : min bs (records.length - pos) = 0
  · simp only [h0, if_true]
  · simp only [h0, if_false]
    rw [read_records_take (records.drop pos) (fun r hr => h r (List.mem_of_mem_drop hr)) _
      (by rw [List.length_drop]; exact Nat.min_le_right _ _)]
    simp only [List.drop_drop]

theorem read_all_bytes (records : List Record) (h : ∀ r ∈ records, r.InRange)
    (hR : records.length < UINT64_MOD) (bs : Nat) (hbs : 1 ≤ bs) :
    ∀ (fuel pos : Nat), pos ≤ records.length → records.length - pos < fuel →
      ByteReader.read_all bs fuel
          (ByteReader.mk ((records.drop pos).flatMap record_bytes) records.length pos) =
        some (records.drop pos) := by
  intro fuel
  induction fuel with
  | zero => intro pos _ hf; omega
  | succ n ih =>
    intro pos hp hf
    have hm : (records.length + UINT64_MOD - pos) % UINT64_MOD = records.length - pos := by
      have : records.length + UINT64_MOD - pos = (records.length - pos) + UINT64_MOD := by omega
      rw [this, Nat.add_mod_right]
      exact Nat.mod_eq_of_lt (by omega)
    unfold ByteReader.read_all
    rw [read_batch_bytes records h hR pos hp bs]
    simp only []
    unfold DataReader.read_batch
    simp only [hm]
    by_cases h0 : min bs (records.length - pos) = 0
    · have hpe : pos = records.length := by
        rcases Nat.min_eq_zero_iff.mp h0 with h1 | h1 <;> omega
      simp only [h0, if_true, Bool.false_eq_true, if_false]
      rw [hpe, List.drop_length]
    · simp only [h0, if_false, if_true]
      rw [ih (pos + min bs (records.length - pos)) (by omega) (by omega)]
      simp only []
      conv_rhs => rw [← List.take_append_drop (min bs (records.length - pos)) (records.drop pos)]
      rw [List.drop_drop]

theorem chunks_parse : ∀ (R : Nat) (rest : List Nat), rest.length = 14 * R →
    (∀ x ∈ rest, x < 256) →
    ∃ rs : List Record, rs.length = R ∧ (∀ r ∈ rs, r.InRange) ∧
      rs.flatMap record_bytes = rest := by
  intro R
  induction R with
  | zero =>
    intro rest hl _
    refine ⟨[], rfl, ?_, ?_⟩
    · intro r hr
      exact absurd hr (List.not_mem_nil r)
    · exact (List.length_eq_zero.mp (by simpa using hl)).symm
  | succ n ih =>
    intro rest hl hb
    have h1 : (rest.take 14).length = 14 := by rw [List.length_take]; omega
    have h2 : (rest.drop 14).length = 14 * n := by rw [List.length_drop]; omega
    obtain ⟨rs, hrl, hri, hrf⟩ := ih (rest.drop 14) h2 (fun x hx => hb x (List.mem_of_mem_drop hx))
    obtain ⟨p1, p2⟩ := record_bytes_parse (rest.take 14) h1
      (fun x hx => hb x (List.mem_of_mem_take hx))
    refine ⟨parse_record (rest.take 14) :: rs, by simp [hrl], ?_, ?_⟩
    · intro r hr
      rcases List.mem_cons.mp hr with rfl | hr
      · exact p2
      · exact hri r hr
    · rw [List.flatMap_cons, p1, hrf, List.take_append_drop]
theorem flatMap_drop_chunks : ∀ (i : Nat) (rs : List Record),
    (rs.flatMap record_bytes).drop (14 * i) = (rs.drop i).flatMap record_bytes := by
  intro i
  induction i with
  | zero => intro rs; rfl
  | succ n ih =>
    intro rs
    cases rs with
    | nil => simp
    | cons r t =>
      have e : 14 * (n + 1) = (record_bytes r).length + 14 * n := by
        rw [record_bytes_length]; omega
      rw [List.flatMap_cons, e, ← List.drop_drop, List.drop_left, ih t, List.drop_succ_cons]

theorem write_table_length (n : Nat) (records : List Record) :
    (write_table n records).length = 8 + 14 * records.length := by
  unfold write_table
  rw [List.length_append, le_bytes_length]
  congr 1
  induction records with
  | nil => rfl
  | cons r t ih =>
    rw [List.flatMap_cons, List.length_append, record_bytes_length, ih, List.length_cons]
    omega

theorem write_table_header (n : Nat) (records : List Record) :
    (write_table n records).take 8 = le_bytes 8 n ∧
      (write_table n records).drop 8 = records.flatMap record_bytes := by
  unfold write_table
  have h := le_bytes_length 8 n
  constructor
  · conv_lhs => rw [← h]
    exact List.take_left _ _
  · conv_lhs => rw [← h]
    exact List.drop_left _ _

theorem open_file_table (n : Nat) (records : List Record) :
    ByteReader.open_file (write_table n records) =
      some (ByteReader.mk (records.flatMap record_bytes) (le_value (le_bytes 8 n)) 0) := by
  unfold ByteReader.open_file
  rw [if_neg (by rw [write_table_length]; omega), (write_table_header n records).1,
    (write_table_header n records).2]

theorem make_record_range (i : Nat) : (make_record i).InRange := by
  unfold make_record Record.InRange
  have h1 := Nat.mod_lt ((i + 1) * 1000000007) (show 0 < UINT64_MOD by decide)
  refine ⟨h1, ?_, ?_, ?_, ?_, ?_, ?_⟩ <;> simp only [] <;> omega

theorem test_storage_records_spec :
    test_storage_records.length = 1000 ∧ ∀ r ∈ test_storage_records, r.InRange := by
  unfold test_storage_records
  constructor
  · rw [List.length_insertionSort, List.length_map, List.length_range]
  · intro r hr
    have hr2 := (List.perm_insertionSort _ _).mem_iff.mp hr
    obtain ⟨i, _, rfl⟩ := List.mem_map.mp hr2
    exact make_record_range i

/-- C33: for every list of `R < 2^64` records whose fields fit their types,
the written table has exactly `8 + 14 * R` bytes: the little-endian header
`R`, then for the record `i` the 14 bytes at offset `8 + 14 * i`, which hold
`state_code`, `dp0`, `dp1`, `depth0`, `depth1` at the offsets 0, 8, 9, 10 and
12 and parse back to the record. `open` reads the header `R`;
`read_batch` on the bytes returns, from every position and for every batch
size, the batch that the reader on the records returns, and reading the
file to its end with any batch size of at least 1 returns the identical
records in the same order. The file of `test_storage.cpp` (the 1000 records
of `make_record`) has 14008 bytes and reads back to its records. -/
theorem table_round_trip (records : List Record) (hr : ∀ r ∈ records, r.InRange)
    (hR : records.length < UINT64_MOD) :
    (write_table records.length records).length = 8 + 14 * records.length ∧
      (write_table records.length records).take 8 = le_bytes 8 records.length ∧
      le_value ((write_table records.length records).take 8) = records.length ∧
      (∀ i r, records.get? i = some r →
        ((write_table records.length records).drop (8 + 14 * i)).take 14 = record_bytes r ∧
          (record_bytes r).take 8 = le_bytes 8 r.state_code ∧
          (record_bytes r).getD 8 0 = int8_byte r.dp0 ∧
          (record_bytes r).getD 9 0 = int8_byte r.dp1 ∧
          ((record_bytes r).drop 10).take 2 = le_bytes 2 r.depth0 ∧
          (record_bytes r).drop 12 = le_bytes 2 r.depth1 ∧
          parse_record (record_bytes r) = r) ∧
      ByteReader.open_file (write_table records.length records) =
        some (ByteReader.mk (records.flatMap record_bytes) records.length 0) ∧
      (∀ pos ≤ records.length, ∀ batch_size,
        (ByteReader.mk ((records.drop pos).flatMap record_bytes) records.length
            pos).read_batch batch_size =
          some (ByteReader.mk
              ((records.drop
                ((DataReader.mk records records.length pos).read_batch batch_size).1.pos).flatMap
                record_bytes) records.length
              ((DataReader.mk records records.length pos).read_batch batch_size).1.pos,
            ((DataReader.mk records records.length pos).read_batch batch_size).2.1,
            ((DataReader.mk records records.length pos).read_batch batch_size).2.2)) ∧
      (∀ batch_size, 1 ≤ batch_size →
        ByteReader.read_all batch_size (records.length + 1)
          (ByteReader.mk (records.flatMap record_bytes) records.length 0) = some records) ∧
      test_storage_file.length = 14008 ∧
      ByteReader.open_file test_storage_file =
        some (ByteReader.mk (test_storage_records.flatMap record_bytes) 1000 0) ∧
      ByteReader.read_all 1000000 1001
        (ByteReader.mk (test_storage_records.flatMap record_bytes) 1000 0) =
          some test_storage_records := by
  have hM : UINT64_MOD = 18446744073709551616 := by decide
  have hv : le_value (le_bytes 8 records.length) = records.length :=
    le_value_le_bytes 8 _ (by norm_num; rw [hM] at hR; exact hR)
  obtain ⟨ht1, ht2⟩ := test_storage_records_spec
  refine ⟨write_table_length _ _, (write_table_header _ _).1, ?_, ?_, ?_, ?_, ?_, ?_, ?_, ?_⟩
  · rw [(write_table_header _ _).1, hv]
  · intro i r hi
    refine ⟨?_, ?_, ?_, ?_, ?_, ?_, parse_record_bytes r (hr r (List.get?_mem hi))⟩
    · rw [← List.drop_drop, (write_table_header _ _).2, flatMap_drop_chunks]
      have hlt := get_some_lt _ _ _ hi
      have hg : records[i] = r := by
        rw [List.get?_eq_getElem?, List.getElem?_eq_getElem hlt] at hi
        exact Option.some.inj hi
      have hd : records.drop i = r :: records.drop (i + 1) := by
        rw [List.drop_eq_getElem_cons hlt, hg]
      rw [hd, List.flatMap_cons]
      conv_lhs => rw [← record_bytes_length r]
      exact List.take_left _ _
    · simp [record_bytes, le_bytes]
    · simp [record_bytes, le_bytes]
    · simp [record_bytes, le_bytes]
    · simp [record_bytes, le_bytes]
    · simp [record_bytes, le_bytes]
  · rw [open_file_table, hv]
  · intro pos hp bs
    exact read_batch_bytes records hr hR pos hp bs
  · intro bs hbs
    exact read_all_bytes records hr hR bs hbs _ 0 (Nat.zero_le _) (by omega)
  · unfold test_storage_file
    rw [write_table_length, ht1]
  · unfold test_storage_file
    rw [open_file_table]
    rfl
  · have h := read_all_bytes test_storage_records ht2 (by rw [ht1]; decide) 1000000 (by decide)
      1001 0 (Nat.zero_le _) (by rw [ht1]; decide)
    rw [ht1, List.drop_zero] at h
    exact h

theorem table_round_trip_witness :
    (∀ r ∈ [Record.mk 10 1 (-1) 5 3, Record.mk 20 0 (-1) 2 65535], r.InRange) ∧
      (write_table 2 [Record.mk 10 1 (-1) 5 3, Record.mk 20 0 (-1) 2 65535]).length = 8 + 14 * 2 ∧
      write_table 2 [Record.mk 10 1 (-1) 5 3, Record.mk 20 0 (-1) 2 65535] =
        [2, 0, 0, 0, 0, 0, 0, 0, 10, 0, 0, 0, 0, 0, 0, 0, 1, 255, 5, 0, 3, 0,
          20, 0, 0, 0, 0, 0, 0, 0, 0, 255, 2, 0, 255, 255] ∧
      ByteReader.read_all 1 (2 + 1)
        (ByteReader.mk ([Record.mk 10 1 (-1) 5 3, Record.mk 20 0 (-1) 2 65535].flatMap
          record_bytes) 2 0) = some [Record.mk 10 1 (-1) 5 3, Record.mk 20 0 (-1) 2 65535] :=
  ⟨by unfold Record.InRange; decide,
    (table_round_trip [Record.mk 10 1 (-1) 5 3, Record.mk 20 0 (-1) 2 65535]
      (by unfold Record.InRange; decide) (by decide)).1, by decide,
    (table_round_trip [Record.mk 10 1 (-1) 5 3, Record.mk 20 0 (-1) 2 65535]
      (by unfold Record.InRange; decide) (by decide)).2.2.2.2.2.2.1 1 (by decide)⟩

/-- C34: for every byte string `f` that is a well-formed table (bytes below
256, an 8-byte count `R` followed by exactly `R` records of 14 bytes),
`open` succeeds with the header `R`, reading `f` to its end with any batch
size of at least 1 returns `R` records whose fields fit their types, and
writing the count of those records and the records gives `f` byte for
byte. -/
theorem file_round_trip (f : List Nat) (hb : ∀ x ∈ f, x < 256)
    (hl : f.length = 8 + 14 * le_value (f.take 8)) (batch_size : Nat) (hbs : 1 ≤ batch_size) :
    ∃ r0 records, ByteReader.open_file f = some r0 ∧ r0.num_records = le_value (f.take 8) ∧
      ByteReader.read_all batch_size (le_value (f.take 8) + 1) r0 = some records ∧
      records.length = le_value (f.take 8) ∧ (∀ r ∈ records, r.InRange) ∧
      write_table records.length records = f := by
  have h8 : (f.take 8).length = 8 := by rw [List.length_take]; omega
  have hd : (f.drop 8).length = 14 * le_value (f.take 8) := by rw [List.length_drop]; omega
  obtain ⟨rs, hrl, hri, hrf⟩ := chunks_parse _ (f.drop 8) hd
    (fun x hx => hb x (List.mem_of_mem_drop hx))
  have hlt := le_value_lt (f.take 8) (fun x hx => hb x (List.mem_of_mem_take hx))
  rw [h8] at hlt
  have hM : UINT64_MOD = 18446744073709551616 := by decide
  have hR : rs.length < UINT64_MOD := by
    rw [hrl, hM]
    norm_num at hlt
    exact hlt
  have hh := le_bytes_le_value (f.take 8) (fun x hx => hb x (List.mem_of_mem_take hx))
  rw [h8] at hh
  have hw : write_table rs.length rs = f := by
    unfold write_table
    rw [hrl, hh, hrf, List.take_append_drop]
  refine ⟨ByteReader.mk (f.drop 8) (le_value (f.take 8)) 0, rs, ?_, rfl, ?_, hrl, hri, hw⟩
  · unfold ByteReader.open_file
    rw [if_neg (by omega)]
  · have h := read_all_bytes rs hri hR batch_size hbs (rs.length + 1) 0 (Nat.zero_le _)
      (by omega)
    rw [List.drop_zero, hrf, hrl] at h
    exact h

theorem file_round_trip_witness :
    ∃ r0 records,
      ByteReader.open_file [1, 0, 0, 0, 0, 0, 0, 0, 10, 0, 0, 0, 0, 0, 0, 0, 1, 255, 5, 0, 3, 0] =
        some r0 ∧
      r0.num_records =
        le_value (([1, 0, 0, 0, 0, 0, 0, 0, 10, 0, 0, 0, 0, 0, 0, 0, 1, 255, 5, 0, 3, 0] :
          List Nat).take 8) ∧
      ByteReader.read_all 1
        (le_value (([1, 0, 0, 0, 0, 0, 0, 0, 10, 0, 0, 0, 0, 0, 0, 0, 1, 255, 5, 0, 3, 0] :
          List Nat).take 8) + 1) r0 = some records ∧
      records.length =
        le_value (([1, 0, 0, 0, 0, 0, 0, 0, 10, 0, 0, 0, 0, 0, 0, 0, 1, 255, 5, 0, 3, 0] :
          List Nat).take 8) ∧
      (∀ r ∈ records, r.InRange) ∧
      write_table records.length records =
        [1, 0, 0, 0, 0, 0, 0, 0, 10, 0, 0, 0, 0, 0, 0, 0, 1, 255, 5, 0, 3, 0] :=
  file_round_trip [1, 0, 0, 0, 0, 0, 0, 0, 10, 0, 0, 0, 0, 0, 0, 0, 1, 255, 5, 0, 3, 0]
    (by decide) (by decide) 1 (by decide)

end TicTacToe
